import Mathlib

/-!
# B+ tree (`b_plus_tree.c`): shallow embedding

Nodes live in a heap indexed by integer handles (`0` is the null handle).  A
handle is what `struct bpt_node` carries in its `entries` pointer.  The header
`b_plus_tree.h` is not part of the sources at hand, so the accessor macros
(`bpt_node_nkey`, `bpt_node_prv`, ...), the result constants and the type
`bpt_t` are modelled from the specification: the three metadata words of a node
are record fields next to the entry slots `0 .. order`.

Undefined behaviour of the C program (dereferencing null or freed handles,
slot indices outside `0 .. order`, negative `memmove` lengths, a failed
`assert`, popping an empty journal) makes the embedded function return `none`.
-/

set_option autoImplicit false

namespace BPT

/-- Modelled from the spec: the opaque machine word `bpt_t` (a key, a value or
a child handle). -/
abbrev bpt_t := Int

/-- The pair `struct bpt_entry { bpt_t key; bpt_t val; }`. -/
structure bpt_entry where
  key : bpt_t
  val : bpt_t

/-- Modelled from the spec: the memory block behind a node handle, i.e. entry
slots and the metadata `nkey`, `prv`, `nxt` kept in the reserved tail slots. -/
structure bpt_node where
  entries : Int → bpt_entry
  nkey : Int
  prv : Int
  nxt : Int

/-- A journal frame `struct bpt_frm { struct bpt_node node; int offset; }`. -/
structure bpt_frm where
  node : Int
  offset : Int
deriving DecidableEq, Repr

/-- Modelled from the spec: the result constants of `b_plus_tree.h`. -/
inductive bpt_result where
  | BPT_NEXIST
  | BPT_PRED_SUCCESS
  | BPT_PRED_FAIL
  | BPT_ERROR
deriving DecidableEq, Repr

open bpt_result

/-- The fields of `struct bpt_stat`. -/
structure bpt_stat where
  root_node : Int
  height : Nat
  order : Int
  old_leaf_nkey : Int
  new_leaf_nkey : Int
  old_inter_nkey : Int
  new_inter_nkey : Int
deriving DecidableEq, Repr

/-- The program state: the tree descriptor, the heap of nodes, the next fresh
handle and the outcomes of the coming allocation requests (`[]`: every request
succeeds). -/
structure State where
  bstat : bpt_stat
  mem : Int → Option bpt_node
  brk : Int
  alloc : List Bool

/-- The frames that a journal `struct gen_stk` holds, the top of the stack
first: what `gen_stk_pop` and `gen_stk_empty` see of it. -/
abbrev gen_stk := List bpt_frm

/-! ## Memory primitives -/

/-- Outcome of one allocation request. -/
def alloc_request (s : State) : Bool × State :=
  match s.alloc with
  | [] => (true, s)
  | b :: r => (b, { s with alloc := r })

/-- Dereference of a node handle. -/
def rd (s : State) (a : Int) : Option bpt_node :=
  if a = 0 then none else s.mem a

/-- Store into the block of a node handle. -/
def wr (s : State) (a : Int) (n : bpt_node) : State :=
  { s with mem := Function.update s.mem a (some n) }

/-- Whether `i` is one of the entry slots `0 .. order`. -/
def slot_ok (s : State) (i : Int) : Prop := 0 ≤ i ∧ i ≤ s.bstat.order

instance (s : State) (i : Int) : Decidable (slot_ok s i) := by
  unfold slot_ok; infer_instance

def bpt_node_nkey (s : State) (a : Int) : Option Int := (rd s a).map (·.nkey)
def bpt_node_prv (s : State) (a : Int) : Option Int := (rd s a).map (·.prv)
def bpt_node_nxt (s : State) (a : Int) : Option Int := (rd s a).map (·.nxt)

def bpt_node_set_nkey (s : State) (a : Int) (v : Int) : Option State :=
  (rd s a).map fun n => wr s a { n with nkey := v }
def bpt_node_set_prv (s : State) (a : Int) (v : Int) : Option State :=
  (rd s a).map fun n => wr s a { n with prv := v }
def bpt_node_set_nxt (s : State) (a : Int) (v : Int) : Option State :=
  (rd s a).map fun n => wr s a { n with nxt := v }

/-- Read of `node.entries[i]`. -/
def get_entry (s : State) (a i : Int) : Option bpt_entry :=
  match rd s a with
  | none => none
  | some n => if slot_ok s i then some (n.entries i) else none

/-- Assignment `node.entries[i] = e`. -/
def set_entry (s : State) (a i : Int) (e : bpt_entry) : Option State :=
  match rd s a with
  | none => none
  | some n =>
    if slot_ok s i then some (wr s a { n with entries := Function.update n.entries i e })
    else none

/-- Assignment `node.entries[i].key = k`. -/
def set_key (s : State) (a i : Int) (k : bpt_t) : Option State :=
  match rd s a with
  | none => none
  | some n =>
    if slot_ok s i then
      some (wr s a { n with entries := Function.update n.entries i { n.entries i with key := k } })
    else none

/-- Assignment `node.entries[i].val = v`. -/
def set_val (s : State) (a i : Int) (v : bpt_t) : Option State :=
  match rd s a with
  | none => none
  | some n =>
    if slot_ok s i then
      some (wr s a { n with entries := Function.update n.entries i { n.entries i with val := v } })
    else none

/-- The call `memmove(&dst.entries[di], &src.entries[si], cnt * sizeof (struct bpt_entry))`. -/
def memmove (s : State) (dst di src si cnt : Int) : Option State :=
  if cnt < 0 then none
  else if cnt = 0 then some s
  else
    match rd s dst, rd s src with
    | some nd, some ns =>
      if 0 ≤ di ∧ di + cnt ≤ s.bstat.order + 1 ∧ 0 ≤ si ∧ si + cnt ≤ s.bstat.order + 1 then
        some (wr s dst { nd with entries := fun j =>
          if di ≤ j ∧ j < di + cnt then ns.entries (j - di + si) else nd.entries j })
      else none
    | _, _ => none

/-- The call `memcpy`: as `memmove`, the two regions must not overlap. -/
def memcpy (s : State) (dst di src si cnt : Int) : Option State :=
  if 0 < cnt ∧ dst = src ∧ di < si + cnt ∧ si < di + cnt then none
  else memmove s dst di src si cnt

/-- The function `bpt_node_new`: the null handle on allocation failure. -/
def bpt_node_new (s : State) (prv nxt : Int) : Int × State :=
  let r := alloc_request s
  if r.1 then
    (r.2.brk,
      { r.2 with
        mem := Function.update r.2.mem r.2.brk
          (some { entries := fun _ => ⟨0, 0⟩, nkey := 0, prv := prv, nxt := nxt })
        brk := r.2.brk + 1 })
  else (0, r.2)

/-- Modelled from the spec: `bpt_node_delete` releases the block of a node. -/
def bpt_node_delete (s : State) (a : Int) : Option State :=
  match rd s a with
  | none => none
  | some _ => some { s with mem := Function.update s.mem a none }

/-- An empty memory, the allocator answering by `alloc`. -/
def mem0 (alloc : List Bool) : State :=
  { bstat := ⟨0, 0, 0, 0, 0, 0, 0⟩, mem := fun _ => none, brk := 1, alloc := alloc }

/-- The function `bpt_init`. -/
def bpt_init (s : State) (order : Int) : Int × State :=
  let r := bpt_node_new s 0 0
  if r.1 = 0 then (-1, { r.2 with bstat := { r.2.bstat with root_node := r.1 } })
  else
    (0, { r.2 with bstat :=
      { root_node := r.1
        height := 0
        order := order
        old_leaf_nkey := Int.tdiv order 2 + 1
        new_leaf_nkey := order + 1 - (Int.tdiv order 2 + 1)
        old_inter_nkey := order - Int.tdiv order 2
        new_inter_nkey := order - (order - Int.tdiv order 2) } })

/-! ## Search -/

/-- The loop `for (i = 0; i < m; i++) if (cmp(k, entries[i].key) < 0) break;`
started at `i` with `fuel` iterations left; the value of `i` after it. -/
def scan_lt (cmp : bpt_t → bpt_t → Int) (k : bpt_t) (e : Int → bpt_entry) (m : Int) :
    Nat → Int → Int
  | 0, i => i
  | fuel + 1, i =>
    if i < m then
      if cmp k (e i).key < 0 then i else scan_lt cmp k e m fuel (i + 1)
    else i

/-- The loop `for (i = 0; i < m; i++) if (cmp(k, entries[i].key) == 0) return i;`
followed by `return -1`. -/
def scan_eq (cmp : bpt_t → bpt_t → Int) (k : bpt_t) (e : Int → bpt_entry) (m : Int) :
    Nat → Int → Int
  | 0, _ => -1
  | fuel + 1, i =>
    if i < m then
      if cmp k (e i).key = 0 then i else scan_eq cmp k e m fuel (i + 1)
    else -1

/-- The child slot chosen in an internal node: `none` when the node cannot be
read or its key count lies outside `0 .. order`. -/
def choose_slot (cmp : bpt_t → bpt_t → Int) (k : bpt_t) (s : State) (a : Int) :
    Option (Int × Int) :=
  match rd s a with
  | none => none
  | some n =>
    if 0 ≤ n.nkey ∧ n.nkey ≤ s.bstat.order then
      let i := scan_lt cmp k n.entries n.nkey n.nkey.toNat 0
      some (i, (n.entries i).val)
    else none

/-- The descent `while (h) { ...; h--; }` of `bpt_search`: the node reached. -/
def search_descend (cmp : bpt_t → bpt_t → Int) (k : bpt_t) (s : State) : Nat → Int → Option Int
  | 0, node => some node
  | h + 1, node =>
    match choose_slot cmp k s node with
    | none => none
    | some (_, child) => search_descend cmp k s h child

/-- The final scan of a leaf for a key equal to `k`. -/
def leaf_find (cmp : bpt_t → bpt_t → Int) (k : bpt_t) (s : State) (leaf : Int) : Option Int :=
  match rd s leaf with
  | none => none
  | some n =>
    if 0 ≤ n.nkey ∧ n.nkey ≤ s.bstat.order then
      some (scan_eq cmp k n.entries n.nkey n.nkey.toNat 0)
    else none

/-- The function `bpt_search`: the returned slot (or `-1`) and the handle
stored to `*leafp`, if one is stored. -/
def bpt_search (search_for : bpt_t) (cmp : bpt_t → bpt_t → Int) (s : State) :
    Option (Int × Option Int) :=
  match search_descend cmp search_for s s.bstat.height s.bstat.root_node with
  | none => none
  | some leaf =>
    match leaf_find cmp search_for s leaf with
    | none => none
    | some i => if i = -1 then some (-1, none) else some (i, some leaf)

/-- Modelled from the spec: the header `b_plus_tree.h` is not among the
sources and nothing gives the value of `BPT_STK_CAP_INIT`; it is a parameter of
the development, together with the size `sizeof (struct bpt_frm)` that the
compiler gives a frame. -/
structure bpt_build where
  BPT_STK_CAP_INIT : Nat
  sizeof_bpt_frm : Nat
deriving DecidableEq, Repr

/-- The object `struct gen_stk` of `gen_stk.h` as `bpt_searchr`, `bpt_insert`
and `bpt_delete` receive it: the fields `cap`, `init_cap` and `uni_siz`, the
size in bytes of the block at `addr`, and the frames that the block holds, the
top first (`cnt` is their number). -/
structure stk_obj where
  cap : Nat
  init_cap : Nat
  uni_siz : Nat
  bytes : Nat
  frames : gen_stk
deriving DecidableEq, Repr

/-- The tail of `gen_stk_push`: `memcpy (addr + cnt++ * uni_siz, elem, uni_siz)`
with a frame for `elem`.  It is defined when `uni_siz` bytes are a frame and lie
inside the block; `none` is undefined behaviour. -/
def gen_stk_store (bld : bpt_build) (stk : stk_obj) (frm : bpt_frm) : Option stk_obj :=
  if stk.uni_siz = bld.sizeof_bpt_frm ∧ (stk.frames.length + 1) * stk.uni_siz ≤ stk.bytes then
    some { stk with frames := frm :: stk.frames }
  else none

/-- The function `gen_stk_push`: only when `cnt >= cap` it asks `realloc` for a
block, of `cap + init_cap` bytes, and returns `-1` (`none` inside) when that is
refused; then it stores the frame.  The outer `none` is undefined behaviour. -/
def gen_stk_push (bld : bpt_build) (s : State) (stk : stk_obj) (frm : bpt_frm) :
    Option (Option stk_obj × State) :=
  if stk.frames.length ≥ stk.cap then
    let new_cap := (stk.cap + stk.init_cap) % 2 ^ 64
    let r := alloc_request s
    if r.1 then
      (gen_stk_store bld { stk with cap := new_cap, bytes := new_cap } frm).map fun stk1 =>
        (some stk1, r.2)
    else some (none, r.2)
  else (gen_stk_store bld stk frm).map fun stk1 => (some stk1, s)

/-- The journaled descent shared by `bpt_searchr` and `bpt_insert`: the leaf
reached and the stack, or `none` inside when a push failed. -/
def journal_descend (bld : bpt_build) (cmp : bpt_t → bpt_t → Int) (k : bpt_t) :
    Nat → State → Int → stk_obj → Option (Option (Int × stk_obj) × State)
  | 0, s, node, stk => some (some (node, stk), s)
  | h + 1, s, node, stk =>
    match choose_slot cmp k s node with
    | none => none
    | some (i, child) =>
      match gen_stk_push bld s stk ⟨node, i⟩ with
      | none => none
      | some (none, s1) => some (none, s1)
      | some (some stk1, s1) => journal_descend bld cmp k h s1 child stk1

/-- The start of `bpt_searchr` and `bpt_insert`, the memory request: the
`malloc` of `gen_stk_init` when the stack is not initialised yet, none
otherwise.  `false` stands for the failure of `gen_stk_init`. -/
def journal_reset (s : State) (has_stk_init : Bool) : Bool × State :=
  if has_stk_init then (true, s) else alloc_request s

/-- The start of `bpt_searchr` and `bpt_insert`, the stack afterwards:
`stk->cnt = 0` on the stack of the caller when it is initialised already, and
otherwise what `gen_stk_init (stk, BPT_STK_CAP_INIT, sizeof (struct bpt_frm))`
sets up, a block of `uni_siz * init_cap` bytes. -/
def journal_stk (bld : bpt_build) (stk : stk_obj) (has_stk_init : Bool) : stk_obj :=
  if has_stk_init then { stk with frames := [] }
  else
    { cap := bld.BPT_STK_CAP_INIT, init_cap := bld.BPT_STK_CAP_INIT,
      uni_siz := bld.sizeof_bpt_frm,
      bytes := bld.sizeof_bpt_frm * bld.BPT_STK_CAP_INIT % 2 ^ 64, frames := [] }

/-- The function `bpt_searchr`: returned slot (or `-1`), the handle left in
`*leafp` (null after a failed allocation) and the journal. -/
def bpt_searchr (bld : bpt_build) (search_for : bpt_t) (cmp : bpt_t → bpt_t → Int)
    (stk : stk_obj) (has_stk_init : Bool) (s : State) : Option ((Int × Int × gen_stk) × State) :=
  let r := journal_reset s has_stk_init
  if r.1 then
    match journal_descend bld cmp search_for r.2.bstat.height r.2 r.2.bstat.root_node
        (journal_stk bld stk has_stk_init) with
    | none => none
    | some (none, s1) => some ((-1, 0, []), s1)
    | some (some (leaf, stk1), s1) =>
      match leaf_find cmp search_for s1 leaf with
      | none => none
      | some i => some ((i, leaf, stk1.frames), s1)
  else some ((-1, 0, []), r.2)

def bpt_pred_1 (_a _b : bpt_t) : Int := 1

def bpt_pred_0 (_a _b : bpt_t) : Int := 0

/-! ## Separator lookup in the journal -/

/-- The function `update_index`. -/
def update_index (s : State) (new_key : bpt_t) : gen_stk → Option State
  | [] => some s
  | frm :: stk =>
    if frm.offset ≠ 0 then set_key s frm.node (frm.offset - 1) new_key
    else update_index s new_key stk

/-- The function `mid_between_prv`: `(mid_offset, mid_node)`, the node being
the null handle when `-1` is returned. -/
def mid_between_prv : gen_stk → Int × Int
  | [] => (-1, 0)
  | frm :: stk => if frm.offset ≠ 0 then (frm.offset - 1, frm.node) else mid_between_prv stk

/-- The function `mid_between_nxt`: `(mid_offset, mid_node)`. -/
def mid_between_nxt (s : State) : gen_stk → Option (Int × Int)
  | [] => some (-1, 0)
  | frm :: stk =>
    match bpt_node_nkey s frm.node with
    | none => none
    | some m => if frm.offset ≠ m then some (frm.offset, frm.node) else mid_between_nxt s stk

/-- The loop of `mid_between_prv_nxt`: `found` is the bit set of the source
(bit `0x01` once the previous side is found, bit `0x02` once the next side
is), `p` and `n` are the pairs `(offset, node)` stored so far for the two
sides. -/
def mid_between_prv_nxt_loop (s : State) : gen_stk → Nat → Int × Int → Int × Int →
    Option ((Int × Int) × (Int × Int))
  | [], _, p, n => some (p, n)
  | frm :: stk, found, p, n =>
    if found = 3 then some (p, n)
    else
      let hit := found &&& 1 = 0 ∧ frm.offset ≠ 0
      let p1 := if hit then (frm.offset - 1, frm.node) else p
      let found1 := if hit then found ||| 1 else found
      if found1 &&& 2 = 0 then
        match bpt_node_nkey s frm.node with
        | none => none
        | some m =>
          if frm.offset ≠ m then
            mid_between_prv_nxt_loop s stk (found1 ||| 2) p1 (frm.offset, frm.node)
          else mid_between_prv_nxt_loop s stk found1 p1 n
      else mid_between_prv_nxt_loop s stk found1 p1 n

/-- The function `mid_between_prv_nxt`:
`((prv_mid_offset, prv_mid_node), (nxt_mid_offset, nxt_mid_node))`; a side
that is not found keeps the offset `-1` (its node, left unset by the source,
is the null handle here). -/
def mid_between_prv_nxt (s : State) (stk : gen_stk) : Option ((Int × Int) × (Int × Int)) :=
  mid_between_prv_nxt_loop s stk 0 (-1, 0) (-1, 0)

/-! ## Insertion -/

/-- The macro `gen_stk_empty`. -/
def gen_stk_empty (stk : gen_stk) : Bool := stk.isEmpty

/-- The branch of `internal_insert` for an empty journal: the root has been
split and a new root is installed. -/
def internal_insert_root (s : State) (left_node right_node : Int) (mid : bpt_t) :
    Option (bpt_result × State) :=
  let r := bpt_node_new s 0 0
  if r.1 = 0 then some (BPT_ERROR, r.2)
  else do
    let s1 ← bpt_node_set_nkey r.2 r.1 1
    let s2 ← set_key s1 r.1 0 mid
    let s3 ← set_val s2 r.1 0 left_node
    let s4 ← set_val s3 r.1 1 right_node
    some (BPT_NEXIST,
      { s4 with bstat := { s4.bstat with root_node := r.1, height := s4.bstat.height + 1 } })

/-- The branch `m < order` of `internal_insert`: the popped node has room. -/
def internal_insert_room (s : State) (frm : bpt_frm) (right_node : Int) (mid : bpt_t) (m : Int) :
    Option State := do
  let s1 ← memmove s frm.node (frm.offset + 1) frm.node frm.offset (m + 1 - frm.offset)
  let s2 ← set_key s1 frm.node frm.offset mid
  let s3 ← set_val s2 frm.node (frm.offset + 1) right_node
  bpt_node_set_nkey s3 frm.node (m + 1)

/-- The three ways `internal_insert` fills a full node and its new sibling;
the promoted key `new_mid` and the state. -/
def internal_insert_fill (s : State) (frm : bpt_frm) (new_node right_node : Int) (mid : bpt_t) :
    Option (bpt_t × State) :=
  let old := s.bstat.old_inter_nkey
  let new := s.bstat.new_inter_nkey
  if frm.offset < old then do
    let e ← get_entry s frm.node (old - 1)
    let t1 ← memcpy s new_node 0 frm.node old (new + 1)
    let t2 ← memmove t1 frm.node (frm.offset + 1) frm.node frm.offset (old - frm.offset)
    let t3 ← set_key t2 frm.node frm.offset mid
    let t4 ← set_val t3 frm.node (frm.offset + 1) right_node
    some (e.key, t4)
  else if frm.offset > old then do
    let e ← get_entry s frm.node old
    let front := frm.offset - old
    let t1 ← memcpy s new_node 0 frm.node (old + 1) front
    let t2 ← memcpy t1 new_node front frm.node frm.offset (new + 1 - front)
    let t3 ← set_key t2 new_node (front - 1) mid
    let t4 ← set_val t3 new_node front right_node
    some (e.key, t4)
  else do
    let t1 ← memcpy s new_node 0 frm.node old (new + 1)
    let t2 ← set_val t1 new_node 0 right_node
    some (mid, t2)

/-- The branch `m == order` of `internal_insert`: the popped node is split.
The result is the failure state (`Sum.inl`) or the state together with the new
sibling and the promoted key (`Sum.inr`). -/
def internal_insert_split (s : State) (frm : bpt_frm) (right_node : Int) (mid : bpt_t) :
    Option (State ⊕ (State × Int × bpt_t)) := do
  let nxt ← bpt_node_nxt s frm.node
  let r := bpt_node_new s frm.node nxt
  let new_node := r.1
  if new_node = 0 then some (Sum.inl r.2)
  else
    let s1 ← bpt_node_set_nxt r.2 frm.node new_node
    let s2 ← if nxt ≠ 0 then bpt_node_set_prv s1 nxt new_node else some s1
    let f ← internal_insert_fill s2 frm new_node right_node mid
    let s4 ← bpt_node_set_nkey f.2 frm.node f.2.bstat.old_inter_nkey
    let s5 ← bpt_node_set_nkey s4 new_node s4.bstat.new_inter_nkey
    some (Sum.inr (s5, new_node, f.1))

/-- The loop of `internal_insert`. -/
def internal_insert_loop : gen_stk → State → Int → Int → bpt_t → Option (bpt_result × State)
  | [], s, left_node, right_node, mid => internal_insert_root s left_node right_node mid
  | frm :: stk, s, _, right_node, mid =>
    match bpt_node_nkey s frm.node with
    | none => none
    | some m =>
      if m < s.bstat.order then
        (internal_insert_room s frm right_node mid m).map fun s1 => (BPT_NEXIST, s1)
      else
        match internal_insert_split s frm right_node mid with
        | none => none
        | some (Sum.inl s1) => some (BPT_ERROR, s1)
        | some (Sum.inr (s1, new_node, new_mid)) =>
          internal_insert_loop stk s1 frm.node new_node new_mid

/-- The function `internal_insert`. -/
def internal_insert (s : State) (left_node right_node : Int) (stk : gen_stk) :
    Option (bpt_result × State) :=
  match get_entry s right_node 0 with
  | none => none
  | some e => internal_insert_loop stk s left_node right_node e.key

/-- The scan at the head of `leaf_insert`: the offset reached and whether the
loop stopped on a key equal to `k`. -/
def leaf_scan (cmp : bpt_t → bpt_t → Int) (k : bpt_t) (e : Int → bpt_entry) (m : Int) :
    Nat → Int → Int × Bool
  | 0, i => (i, false)
  | fuel + 1, i =>
    if i < m then
      if cmp k (e i).key < 0 then (i, false)
      else if cmp k (e i).key = 0 then (i, true)
      else leaf_scan cmp k e m fuel (i + 1)
    else (i, false)

/-- The branch `m < order` of `leaf_insert`. -/
def leaf_insert_room (s : State) (new_entry : bpt_entry) (leaf offset m : Int) : Option State := do
  let s1 ← memmove s leaf (offset + 1) leaf offset (m - offset)
  let s2 ← set_entry s1 leaf offset new_entry
  bpt_node_set_nkey s2 leaf (m + 1)

/-- The branch of `leaf_insert` pushing the minimum entry to the previous leaf,
which holds `i` keys. -/
def leaf_insert_prv (s : State) (new_entry : bpt_entry) (leaf offset prv i : Int)
    (stk : gen_stk) : Option State := do
  let e0 ← get_entry s leaf 0
  let s1 ← set_entry s prv i e0
  let s2 ← memmove s1 leaf 0 leaf 1 (offset - 1)
  let s3 ← set_entry s2 leaf (offset - 1) new_entry
  let f0 ← get_entry s3 leaf 0
  let s4 ← update_index s3 f0.key stk
  bpt_node_set_nkey s4 prv (i + 1)

/-- The branch of `leaf_insert` pushing the maximum entry to the next leaf,
which holds `i` keys. -/
def leaf_insert_nxt (s : State) (new_entry : bpt_entry) (leaf offset nxt i : Int)
    (stk : gen_stk) : Option State := do
  let order := s.bstat.order
  let s1 ← memmove s nxt 1 nxt 0 i
  let s2 ←
    if offset = order then set_entry s1 nxt 0 new_entry
    else do
      let el ← get_entry s1 leaf (order - 1)
      let t1 ← set_entry s1 nxt 0 el
      let t2 ← memmove t1 leaf (offset + 1) leaf offset (order - offset - 1)
      set_entry t2 leaf offset new_entry
  let mid ← mid_between_nxt s2 stk
  if mid.1 = -1 then none
  else
    let g0 ← get_entry s2 nxt 0
    let s3 ← set_key s2 mid.2 mid.1 g0.key
    bpt_node_set_nkey s3 nxt (i + 1)

/-- The branch of `leaf_insert` splitting the leaf, after the allocation of
`new_node` succeeded, up to the call of `internal_insert`. -/
def leaf_insert_split (s : State) (new_entry : bpt_entry) (leaf offset nxt new_node : Int) :
    Option State := do
  let order := s.bstat.order
  let old := s.bstat.old_leaf_nkey
  let new := s.bstat.new_leaf_nkey
  let s1 ← bpt_node_set_nkey s leaf old
  let s2 ← bpt_node_set_nkey s1 new_node new
  let s3 ← bpt_node_set_nxt s2 leaf new_node
  let s4 ← if nxt ≠ 0 then bpt_node_set_prv s3 nxt new_node else some s3
  if offset ≥ old then
    let ins_pos := offset - old
    let s5 ← memcpy s4 new_node 0 leaf old ins_pos
    let s6 ← set_entry s5 new_node ins_pos new_entry
    memcpy s6 new_node (ins_pos + 1) leaf offset (order - offset)
  else
    let s5 ← memcpy s4 new_node 0 leaf (old - 1) new
    let s6 ← memmove s5 leaf (offset + 1) leaf offset (old - offset - 1)
    set_entry s6 leaf offset new_entry

/-- The part of `leaf_insert` for a full leaf (`m == order`). -/
def leaf_insert_full (s : State) (new_entry : bpt_entry) (leaf offset : Int) (n : bpt_node)
    (stk : gen_stk) : Option (bpt_result × State) :=
  let order := s.bstat.order
  let nxt := n.nxt
  let prv := n.prv
  match (if prv ≠ 0 then bpt_node_nkey s prv else some order) with
  | none => none
  | some pi =>
    if prv ≠ 0 ∧ pi ≠ order then
      (leaf_insert_prv s new_entry leaf offset prv pi stk).map fun s1 => (BPT_NEXIST, s1)
    else
      match (if nxt ≠ 0 then bpt_node_nkey s nxt else some order) with
      | none => none
      | some ni =>
        if nxt ≠ 0 ∧ ni ≠ order then
          (leaf_insert_nxt s new_entry leaf offset nxt ni stk).map fun s1 => (BPT_NEXIST, s1)
        else
          let r := bpt_node_new s leaf nxt
          if r.1 = 0 then some (BPT_ERROR, r.2)
          else
            match leaf_insert_split r.2 new_entry leaf offset nxt r.1 with
            | none => none
            | some s1 => internal_insert s1 leaf r.1 stk

/-- The function `leaf_insert`. -/
def leaf_insert (new_entry : bpt_entry) (cmp : bpt_t → bpt_t → Int) (pred : bpt_t → bpt_t → Int)
    (leaf : Int) (stk : gen_stk) (s : State) : Option (bpt_result × State) :=
  match rd s leaf with
  | none => none
  | some n =>
    let order := s.bstat.order
    let m := n.nkey
    if ¬ (0 ≤ m ∧ m ≤ order) then none
    else
      let sc := leaf_scan cmp new_entry.key n.entries m m.toNat 0
      let offset := sc.1
      if sc.2 then
        if pred new_entry.val (n.entries offset).val ≠ 0 then
          (set_val s leaf offset new_entry.val).map fun s1 => (BPT_PRED_SUCCESS, s1)
        else some (BPT_PRED_FAIL, s)
      else if m < order then
        (leaf_insert_room s new_entry leaf offset m).map fun s1 => (BPT_NEXIST, s1)
      else leaf_insert_full s new_entry leaf offset n stk

/-- The function `bpt_insert`. -/
def bpt_insert (bld : bpt_build) (new_entry : bpt_entry) (cmp : bpt_t → bpt_t → Int)
    (pred : bpt_t → bpt_t → Int) (stk : stk_obj) (has_stk_init : Bool) (s : State) :
    Option (bpt_result × State) :=
  let r := journal_reset s has_stk_init
  if r.1 then
    match journal_descend bld cmp new_entry.key r.2.bstat.height r.2 r.2.bstat.root_node
        (journal_stk bld stk has_stk_init) with
    | none => none
    | some (none, s1) => some (BPT_ERROR, s1)
    | some (some (leaf, stk1), s1) => leaf_insert new_entry cmp pred leaf stk1.frames s1
  else some (BPT_ERROR, r.2)

/-! ## Deletion -/

/-- The call `gen_stk_copy` (it requests memory for the copy): `none` stands
for its failure return `-1`. -/
def gen_stk_copy (s : State) (stk : gen_stk) : Option gen_stk × State :=
  let r := alloc_request s
  if r.1 then (some stk, r.2) else (none, r.2)

/-- The excision of `bpt_delete_ientry` when `frm.offset != 0`: key
`offset - 1` and child `offset` leave the node of `m` keys. -/
def excise_right (s : State) (node offset m : Int) : Option State := do
  let e ← get_entry s node (offset - 1)
  let s1 ← memmove s node (offset - 1) node offset (m + 1 - offset)
  set_val s1 node (offset - 1) e.val

/-- The branch of `bpt_delete_ientry` for the root frame. -/
def delete_ientry_root (s : State) (frm : bpt_frm) (m : Int) : Option State :=
  if m = 1 then do
    let e ← get_entry s frm.node (if frm.offset = 0 then 1 else 0)
    let s1 := { s with bstat := { s.bstat with root_node := e.val, height := s.bstat.height - 1 } }
    bpt_node_delete s1 frm.node
  else do
    let s1 ←
      if frm.offset ≠ 0 then excise_right s frm.node frm.offset m
      else memmove s frm.node 0 frm.node 1 m
    bpt_node_set_nkey s1 frm.node (m - 1)

/-- The branch `m > minimal_inter_nkey` of `bpt_delete_ientry`; `stk` is the
journal after the pop of `frm`. -/
def delete_ientry_surplus (s : State) (frm : bpt_frm) (m : Int) (stk : gen_stk) :
    Option State := do
  let s1 ←
    if frm.offset ≠ 0 then excise_right s frm.node frm.offset m
    else do
      let e ← get_entry s frm.node 0
      let t1 ← memmove s frm.node 0 frm.node 1 m
      let mid := mid_between_prv stk
      if mid.1 ≠ -1 then set_key t1 mid.2 mid.1 e.key else some t1
  bpt_node_set_nkey s1 frm.node (m - 1)

/-- The branch of `bpt_delete_ientry` that grabs entries from the previous
node, which holds `prv_nkey` keys. -/
def delete_ientry_prv (s : State) (frm : bpt_frm) (prv prv_nkey : Int) (stk : gen_stk) :
    Option State :=
  let minimal_inter_nkey := s.bstat.new_inter_nkey
  let mid := mid_between_prv stk
  if mid.1 = -1 then none
  else do
    let sum := prv_nkey + (minimal_inter_nkey - 1)
    let right_nkey := Int.tdiv sum 2
    let left_nkey := sum - right_nkey
    let grab := (right_nkey + 1) - minimal_inter_nkey
    let saved ← get_entry s frm.node frm.offset
    let s1 ← memmove s frm.node (grab + frm.offset) frm.node (1 + frm.offset)
      (minimal_inter_nkey - frm.offset)
    let s2 ← memmove s1 frm.node grab frm.node 0 frm.offset
    let s3 ← memcpy s2 frm.node 0 prv (left_nkey + 1) grab
    let me ← get_entry s3 mid.2 mid.1
    let s4 ← set_key s3 frm.node (grab - 1) me.key
    let s5 ← set_key s4 frm.node (grab + frm.offset - 1) saved.key
    let pe ← get_entry s5 prv left_nkey
    let s6 ← set_key s5 mid.2 mid.1 pe.key
    let s7 ← bpt_node_set_nkey s6 prv left_nkey
    bpt_node_set_nkey s7 frm.node right_nkey

/-- The branch of `bpt_delete_ientry` that grabs entries from the next node,
which holds `nxt_nkey` keys. -/
def delete_ientry_nxt (s : State) (frm : bpt_frm) (nxt nxt_nkey : Int) (stk : gen_stk) :
    Option State := do
  let minimal_inter_nkey := s.bstat.new_inter_nkey
  let sum := nxt_nkey + (minimal_inter_nkey - 1)
  let left_nkey := Int.tdiv sum 2
  let right_nkey := sum - left_nkey
  let grab := left_nkey + 1 - minimal_inter_nkey
  let (mid, s1) ←
    if frm.offset ≠ 0 then do
      let mid ← mid_between_nxt s stk
      if mid.1 = -1 then none
      else
        let t1 ← excise_right s frm.node frm.offset minimal_inter_nkey
        some (mid, t1)
    else do
      let pn ← mid_between_prv_nxt s stk
      if pn.2.1 = -1 then none
      else
        let e ← get_entry s frm.node 0
        let t1 ← if pn.1.1 ≠ -1 then set_key s pn.1.2 pn.1.1 e.key else some s
        let t2 ← memmove t1 frm.node 0 frm.node 1 minimal_inter_nkey
        some (pn.2, t2)
  let s2 ← memcpy s1 frm.node minimal_inter_nkey nxt 0 grab
  let me ← get_entry s2 mid.2 mid.1
  let s3 ← set_key s2 frm.node (minimal_inter_nkey - 1) me.key
  let ne ← get_entry s3 nxt (grab - 1)
  let s4 ← set_key s3 mid.2 mid.1 ne.key
  let s5 ← memmove s4 nxt 0 nxt grab (right_nkey + 1)
  let s6 ← bpt_node_set_nkey s5 frm.node left_nkey
  bpt_node_set_nkey s6 nxt right_nkey

/-- The branch of `bpt_delete_ientry` merging the node into the previous one
(`parent.offset != 0`), up to the push of `parent`. -/
def delete_ientry_merge_prv (s : State) (frm parent : bpt_frm) (prv nxt : Int) :
    Option State := do
  let minimal_inter_nkey := s.bstat.new_inter_nkey
  let saved ← get_entry s frm.node frm.offset
  let s1 ← memcpy s prv (minimal_inter_nkey + 1) frm.node 0 frm.offset
  let s2 ← memcpy s1 prv (minimal_inter_nkey + 1 + frm.offset) frm.node (frm.offset + 1)
    (minimal_inter_nkey - frm.offset)
  let pe ← get_entry s2 parent.node (parent.offset - 1)
  let s3 ← set_key s2 prv minimal_inter_nkey pe.key
  let s4 ← set_key s3 prv (minimal_inter_nkey + frm.offset) saved.key
  let s5 ← bpt_node_set_nkey s4 prv (minimal_inter_nkey + minimal_inter_nkey)
  let s6 ← bpt_node_set_nxt s5 prv nxt
  let s7 ← if nxt ≠ 0 then bpt_node_set_prv s6 nxt prv else some s6
  bpt_node_delete s7 frm.node

/-- The branch of `bpt_delete_ientry` merging the next node into the current
one (`parent.offset == 0`), up to `parent.offset++`; `stk` is the journal after
the pops of `frm` and `parent`.  The flag is `false` when `gen_stk_copy`
failed. -/
def delete_ientry_merge_nxt (s : State) (frm parent : bpt_frm) (prv nxt : Int) (stk : gen_stk) :
    Option (Bool × State) := do
  let minimal_inter_nkey := s.bstat.new_inter_nkey
  let r ←
    if frm.offset ≠ 0 then do
      let e ← get_entry s frm.node frm.offset
      let t1 ← set_key s frm.node (frm.offset - 1) e.key
      some (true, t1)
    else if prv ≠ 0 then
      if gen_stk_empty stk then none
      else
        match gen_stk_copy s stk with
        | (none, t0) => some (false, t0)
        | (some tmpstk, t0) =>
          let mid := mid_between_prv tmpstk
          if mid.1 = -1 then none
          else do
            let e ← get_entry t0 frm.node 0
            let t1 ← set_key t0 mid.2 mid.1 e.key
            some (true, t1)
    else some (true, s)
  if r.1 = false then some r
  else
    let s1 ← memmove r.2 frm.node frm.offset frm.node (frm.offset + 1)
      (minimal_inter_nkey - frm.offset)
    let s2 ← memcpy s1 frm.node minimal_inter_nkey nxt 0 (minimal_inter_nkey + 1)
    let pe ← get_entry s2 parent.node parent.offset
    let s3 ← set_key s2 frm.node (minimal_inter_nkey - 1) pe.key
    let s4 ← bpt_node_set_nkey s3 frm.node (minimal_inter_nkey + minimal_inter_nkey)
    let nxt_nxt ← bpt_node_nxt s4 nxt
    let s5 ← bpt_node_set_nxt s4 frm.node nxt_nxt
    let s6 ← if nxt_nxt ≠ 0 then bpt_node_set_prv s5 nxt_nxt frm.node else some s5
    let s7 ← bpt_node_delete s6 nxt
    some (true, s7)

/-- One round of the loop of `bpt_delete_ientry` for the popped frame `frm`
when the journal below it, `parent :: stk`, is not empty: a final result
(`Sum.inl`) or the frame pushed back for the next round (`Sum.inr`).  The push
follows two pops on the stack that the descent filled, so that `cnt < cap`
and the frame goes where one was stored before: it neither asks for memory
nor fails. -/
def delete_ientry_step (s : State) (frm parent : bpt_frm) (stk : gen_stk) :
    Option ((bpt_result × State) ⊕ (bpt_frm × State)) := do
  let minimal_inter_nkey := s.bstat.new_inter_nkey
  let m ← bpt_node_nkey s frm.node
  if m > minimal_inter_nkey then
    let s1 ← delete_ientry_surplus s frm m (parent :: stk)
    some (Sum.inl (BPT_PRED_SUCCESS, s1))
  else
    let prv ← bpt_node_prv s frm.node
    let nxt ← bpt_node_nxt s frm.node
    let prv_nkey ← if prv ≠ 0 then bpt_node_nkey s prv else some minimal_inter_nkey
    if prv ≠ 0 ∧ prv_nkey ≠ minimal_inter_nkey then
      let s1 ← delete_ientry_prv s frm prv prv_nkey (parent :: stk)
      some (Sum.inl (BPT_PRED_SUCCESS, s1))
    else
      let nxt_nkey ← if nxt ≠ 0 then bpt_node_nkey s nxt else some minimal_inter_nkey
      if nxt ≠ 0 ∧ nxt_nkey ≠ minimal_inter_nkey then
        let s1 ← delete_ientry_nxt s frm nxt nxt_nkey (parent :: stk)
        some (Sum.inl (BPT_PRED_SUCCESS, s1))
      else if parent.offset ≠ 0 then
        let s1 ← delete_ientry_merge_prv s frm parent prv nxt
        some (Sum.inr (parent, s1))
      else
        let r ← delete_ientry_merge_nxt s frm parent prv nxt stk
        if r.1 = false then some (Sum.inl (BPT_ERROR, r.2))
        else some (Sum.inr (⟨parent.node, parent.offset + 1⟩, r.2))

/-- The loop of `bpt_delete_ientry`, `frm` being the frame popped at the head
of a round and `stk` the journal below it. -/
def bpt_delete_ientry_loop : gen_stk → bpt_frm → State → Option (bpt_result × State)
  | [], frm, s =>
    match bpt_node_nkey s frm.node with
    | none => none
    | some m => (delete_ientry_root s frm m).map fun s1 => (BPT_PRED_SUCCESS, s1)
  | parent :: stk, frm, s =>
    match delete_ientry_step s frm parent stk with
    | none => none
    | some (Sum.inl r) => some r
    | some (Sum.inr (parent1, s1)) => bpt_delete_ientry_loop stk parent1 s1

/-- The function `bpt_delete_ientry`. -/
def bpt_delete_ientry (stk : gen_stk) (s : State) : Option (bpt_result × State) :=
  match stk with
  | [] => none
  | frm :: stk => bpt_delete_ientry_loop stk frm s

/-- The branch of `bpt_delete_entry` without underflow. -/
def delete_entry_simple (s : State) (leaf offset m : Int) (stk : gen_stk) : Option State := do
  let s1 ← memmove s leaf offset leaf (offset + 1) (m - offset - 1)
  let s2 ←
    if offset = 0 then do
      let e ← get_entry s1 leaf 0
      update_index s1 e.key stk
    else some s1
  bpt_node_set_nkey s2 leaf (m - 1)

/-- The branch of `bpt_delete_entry` that grabs entries from the previous
leaf. -/
def delete_entry_prv (s : State) (leaf offset prv prv_nkey : Int) (stk : gen_stk) :
    Option State := do
  let minimal_leaf_nkey := s.bstat.new_leaf_nkey
  let post_sz := minimal_leaf_nkey - 1 - offset
  let sum := (minimal_leaf_nkey - 1) + prv_nkey
  let right_nkey := Int.tdiv sum 2
  let left_nkey := sum - right_nkey
  let grab := right_nkey - (minimal_leaf_nkey - 1)
  let s1 ← memmove s leaf (grab + offset) leaf (offset + 1) post_sz
  let s2 ← memmove s1 leaf grab leaf 0 offset
  let s3 ← memcpy s2 leaf 0 prv left_nkey grab
  let s4 ← bpt_node_set_nkey s3 prv left_nkey
  let s5 ← bpt_node_set_nkey s4 leaf right_nkey
  let e ← get_entry s5 leaf 0
  update_index s5 e.key stk

/-- The branch of `bpt_delete_entry` that grabs entries from the next leaf. -/
def delete_entry_nxt (s : State) (leaf offset prv nxt nxt_nkey : Int) (stk : gen_stk) :
    Option State := do
  let minimal_leaf_nkey := s.bstat.new_leaf_nkey
  let post_sz := minimal_leaf_nkey - 1 - offset
  let sum := (minimal_leaf_nkey - 1) + nxt_nkey
  let left_nkey := Int.tdiv sum 2
  let right_nkey := sum - left_nkey
  let grab := left_nkey - (minimal_leaf_nkey - 1)
  let s1 ← memmove s leaf offset leaf (offset + 1) post_sz
  let s2 ← memcpy s1 leaf (minimal_leaf_nkey - 1) nxt 0 grab
  let s3 ← memmove s2 nxt 0 nxt grab right_nkey
  let s4 ← bpt_node_set_nkey s3 leaf left_nkey
  let s5 ← bpt_node_set_nkey s4 nxt right_nkey
  if offset ≠ 0 ∨ prv = 0 then
    let mid ← mid_between_nxt s5 stk
    let e ← get_entry s5 nxt 0
    set_key s5 mid.2 mid.1 e.key
  else
    let pn ← mid_between_prv_nxt s5 stk
    let e ← get_entry s5 leaf 0
    let s6 ← set_key s5 pn.1.2 pn.1.1 e.key
    let f ← get_entry s6 nxt 0
    set_key s6 pn.2.2 pn.2.1 f.key

/-- The merge branch of `bpt_delete_entry`, up to `bpt_node_delete(leaf)`.
The flag is `false` when `gen_stk_copy` failed. -/
def delete_entry_merge (s : State) (leaf offset prv nxt : Int) (stk : gen_stk) :
    Option (Bool × State) :=
  let minimal_leaf_nkey := s.bstat.new_leaf_nkey
  let post_sz := minimal_leaf_nkey - 1 - offset
  if prv ≠ 0 then do
    let s1 ← memcpy s prv minimal_leaf_nkey leaf 0 offset
    let s2 ← memcpy s1 prv (minimal_leaf_nkey + offset) leaf (offset + 1) post_sz
    let s3 ← bpt_node_set_nkey s2 prv (minimal_leaf_nkey + minimal_leaf_nkey - 1)
    let s4 ← bpt_node_set_nxt s3 prv nxt
    let s5 ← if nxt ≠ 0 then bpt_node_set_prv s4 nxt prv else some s4
    some (true, s5)
  else do
    let s1 ← memmove s nxt (minimal_leaf_nkey - 1) nxt 0 minimal_leaf_nkey
    let s2 ← memcpy s1 nxt 0 leaf 0 offset
    let s3 ← memcpy s2 nxt offset leaf (offset + 1) post_sz
    if gen_stk_empty stk then none
    else
      match gen_stk_copy s3 stk with
      | (none, t0) => some (false, t0)
      | (some tmpstk, t0) =>
        let mid ← mid_between_nxt t0 tmpstk
        if mid.1 = -1 then none
        else
          let e ← get_entry t0 nxt 0
          let s4 ← set_key t0 mid.2 mid.1 e.key
          let s5 ← bpt_node_set_nkey s4 nxt (minimal_leaf_nkey + minimal_leaf_nkey - 1)
          let s6 ← bpt_node_set_prv s5 nxt prv
          let s7 ← if prv ≠ 0 then bpt_node_set_nxt s6 prv nxt else some s6
          some (true, s7)

/-- The function `bpt_delete_entry`. -/
def bpt_delete_entry (leaf offset : Int) (stk : gen_stk) (s : State) :
    Option (bpt_result × State) := do
  let minimal_leaf_nkey := s.bstat.new_leaf_nkey
  let m ← bpt_node_nkey s leaf
  if m ≠ minimal_leaf_nkey ∨ gen_stk_empty stk then
    let s1 ← delete_entry_simple s leaf offset m stk
    some (BPT_PRED_SUCCESS, s1)
  else
    let prv ← bpt_node_prv s leaf
    let nxt ← bpt_node_nxt s leaf
    let prv_nkey ← if prv ≠ 0 then bpt_node_nkey s prv else some minimal_leaf_nkey
    if prv ≠ 0 ∧ prv_nkey ≠ minimal_leaf_nkey then
      let s1 ← delete_entry_prv s leaf offset prv prv_nkey stk
      some (BPT_PRED_SUCCESS, s1)
    else
      let nxt_nkey ← if nxt ≠ 0 then bpt_node_nkey s nxt else some minimal_leaf_nkey
      if nxt ≠ 0 ∧ nxt_nkey ≠ minimal_leaf_nkey then
        let s1 ← delete_entry_nxt s leaf offset prv nxt nxt_nkey stk
        some (BPT_PRED_SUCCESS, s1)
      else
        let r ← delete_entry_merge s leaf offset prv nxt stk
        if r.1 = false then some (BPT_ERROR, r.2)
        else
          let s8 ← bpt_node_delete r.2 leaf
          bpt_delete_ientry stk s8

/-- The function `bpt_delete`. -/
def bpt_delete (bld : bpt_build) (pair : bpt_entry) (cmp : bpt_t → bpt_t → Int)
    (pred : bpt_t → bpt_t → Int) (stk : stk_obj) (has_stk_init : Bool) (s : State) :
    Option (bpt_result × State) :=
  match bpt_searchr bld pair.key cmp stk has_stk_init s with
  | none => none
  | some ((offset, leaf, stk), s1) =>
    if offset = -1 then
      if leaf = 0 then some (BPT_ERROR, s1) else some (BPT_NEXIST, s1)
    else
      match get_entry s1 leaf offset with
      | none => none
      | some e =>
        if pred pair.val e.val ≠ 0 then bpt_delete_entry leaf offset stk s1
        else some (BPT_PRED_FAIL, s1)


/-! ## Specification vocabulary

A level of the tree is read as a list of pairs `(lo, a)`: the node `a` and the
separator key `lo` stored immediately to its left in some ancestor (`none` for
the leftmost node of the level).  Level `j + 1` is obtained from level `j` by
replacing every node by its children, the keys of the node becoming the
separators between them.
-/

/-- A node of a level together with the separator key on its left. -/
abbrev Item := Option bpt_t × Int

/-- The order induced by the comparison function. -/
def lt (cmp : bpt_t → bpt_t → Int) (a b : bpt_t) : Prop := cmp a b < 0

/-- The comparison function is a total order on key words. -/
structure cmp_total (cmp : bpt_t → bpt_t → Int) : Prop where
  eq_iff : ∀ a b, cmp a b = 0 ↔ a = b
  gt_iff : ∀ a b, 0 < cmp a b ↔ cmp b a < 0
  trans : ∀ a b c, cmp a b < 0 → cmp b c < 0 → cmp a c < 0

/-- The children of an internal node with the separators on their left. -/
def node_pairs (lo : Option bpt_t) (n : bpt_node) : List Item :=
  (lo, (n.entries 0).val) ::
    (List.range n.nkey.toNat).map fun (i : Nat) =>
      (some (n.entries (i : Int)).key, (n.entries ((i : Int) + 1)).val)

/-- The entries `0 .. nkey - 1` of a node. -/
def node_ents (n : bpt_node) : List bpt_entry :=
  (List.range n.nkey.toNat).map fun (i : Nat) => n.entries (i : Int)

/-- The next level below a list of internal nodes. -/
def expand (s : State) : List Item → List Item
  | [] => []
  | p :: r => (match s.mem p.2 with | none => [] | some n => node_pairs p.1 n) ++ expand s r

/-- The entries of the leaf behind a handle. -/
def leaf_ents (s : State) (a : Int) : List bpt_entry :=
  match s.mem a with
  | none => []
  | some n => node_ents n

/-- The entries of a list of leaves, in order. -/
def contents (s : State) : List Int → List bpt_entry
  | [] => []
  | a :: r => leaf_ents s a ++ contents s r

/-- The handle refers to a live node whose key count lies in `mn .. order`. -/
def NodeOK (s : State) (mn : Int) (a : Int) : Prop :=
  a ≠ 0 ∧ a < s.brk ∧ ∃ n, s.mem a = some n ∧ 0 ≤ n.nkey ∧ mn ≤ n.nkey ∧ n.nkey ≤ s.bstat.order

/-- The nodes of the list are doubly linked in list order, `p` being the
handle before the first of them and `q` the handle after the last. -/
def Chain (s : State) : Int → List Int → Int → Prop
  | _, [], _ => True
  | p, a :: r, q => (∃ n, s.mem a = some n ∧ n.prv = p ∧ n.nxt = r.headD q) ∧ Chain s a r q

/-- The conditions on a level of internal nodes. -/
def InnerOK (s : State) (mn : Int) (items : List Item) : Prop :=
  (∀ p ∈ items, NodeOK s mn p.2) ∧ Chain s 0 (items.map Prod.snd) 0

/-- The conditions on the level of the leaves: occupancy, links, strictly
increasing keys along the whole level, and every separator equal to the first
key of the leaf on its right. -/
def LeafOK (s : State) (cmp : bpt_t → bpt_t → Int) (mn : Int) (items : List Item) : Prop :=
  InnerOK s mn items ∧
  ((contents s (items.map Prod.snd)).map (·.key)).Pairwise (lt cmp) ∧
  ∀ p ∈ items, ∀ l, p.1 = some l →
    ∃ n, s.mem p.2 = some n ∧ 0 < n.nkey ∧ (n.entries 0).key = l

/-- Least key count of a leaf (`top`: the leaf is the root). -/
def min_leaf (s : State) (top : Bool) : Int := if top then 0 else s.bstat.new_leaf_nkey

/-- Least key count of an internal node (`top`: the node is the root). -/
def min_inner (s : State) (top : Bool) : Int := if top then 1 else s.bstat.new_inter_nkey

/-- The conditions on a level and on the `d` levels below it. -/
def Below (s : State) (cmp : bpt_t → bpt_t → Int) : Bool → Nat → List Item → Prop
  | top, 0, items => LeafOK s cmp (min_leaf s top) items
  | top, d + 1, items => InnerOK s (min_inner s top) items ∧ Below s cmp false d (expand s items)

/-- The handles of a level and of the `d` levels below it. -/
def nodes_below (s : State) : Nat → List Item → List Int
  | 0, items => items.map Prod.snd
  | d + 1, items => items.map Prod.snd ++ nodes_below s d (expand s items)

/-- The level `d` levels below a list of nodes. -/
def level_below (s : State) : Nat → List Item → List Item
  | 0, items => items
  | d + 1, items => level_below s d (expand s items)

/-- The thresholds are those computed by `bpt_init` from an order of at least 3. -/
def ParamsOK (b : bpt_stat) : Prop :=
  3 ≤ b.order ∧
  b.old_leaf_nkey = Int.tdiv b.order 2 + 1 ∧
  b.new_leaf_nkey = b.order + 1 - (Int.tdiv b.order 2 + 1) ∧
  b.old_inter_nkey = b.order - Int.tdiv b.order 2 ∧
  b.new_inter_nkey = b.order - (b.order - Int.tdiv b.order 2)

/-- Well-formed tree states. -/
def WF (cmp : bpt_t → bpt_t → Int) (s : State) : Prop :=
  ParamsOK s.bstat ∧ 0 < s.brk ∧
  Below s cmp true s.bstat.height [(none, s.bstat.root_node)] ∧
  (nodes_below s s.bstat.height [(none, s.bstat.root_node)]).Nodup

/-- The journal `stk` leads from the root to the node `a`: `U` lists the
handles of the levels above the one of `a`, which reads `X ++ (lo, a) :: Y`. -/
inductive Ctx (s : State) :
    gen_stk → List Int → List Item → Option bpt_t → Int → List Item → Prop
  | root : Ctx s [] [] [] none s.bstat.root_node []
  | step {stk : gen_stk} {U : List Int} {X : List Item} {lo : Option bpt_t} {a : Int}
      {Y : List Item} (n : bpt_node) (off : Int) :
      Ctx s stk U X lo a Y →
      s.mem a = some n →
      InnerOK s (min_inner s stk.isEmpty) (X ++ (lo, a) :: Y) →
      (U ++ (X ++ (lo, a) :: Y).map Prod.snd).Nodup →
      0 ≤ off → off ≤ n.nkey →
      Ctx s (⟨a, off⟩ :: stk) (U ++ (X ++ (lo, a) :: Y).map Prod.snd)
        (expand s X ++ (node_pairs lo n).take off.toNat)
        (if off = 0 then lo else some (n.entries (off - 1)).key)
        (n.entries off).val
        ((node_pairs lo n).drop (off.toNat + 1) ++ expand s Y)

/-- The stack has room for `d` more frames: nothing is pushed, or `uni_siz`
is the size of a frame and `d` more frames stay both under `cap` and inside
the block. -/
def Room (bld : bpt_build) (stk : stk_obj) (d : Nat) : Prop :=
  d = 0 ∨ (stk.uni_siz = bld.sizeof_bpt_frm ∧ stk.frames.length + d ≤ stk.cap ∧
    (stk.frames.length + d) * stk.uni_siz ≤ stk.bytes)

instance (bld : bpt_build) (stk : stk_obj) (d : Nat) : Decidable (Room bld stk d) := by
  unfold Room; infer_instance

/-- The journal of a tree of height `h` fits the stack that a call with the
flag `has_stk_init` works on. -/
def Fits (bld : bpt_build) (stk : stk_obj) (has_stk_init : Bool) (h : Nat) : Prop :=
  Room bld (journal_stk bld stk has_stk_init) h

instance (bld : bpt_build) (stk : stk_obj) (b : Bool) (h : Nat) : Decidable (Fits bld stk b h) := by
  unfold Fits; infer_instance

/-- The stack of the test drivers, as
`gen_stk_init (&stk, BPT_STK_CAP_INIT, sizeof (struct bpt_frm))` leaves it. -/
def driver_stk (bld : bpt_build) : stk_obj :=
  { cap := bld.BPT_STK_CAP_INIT, init_cap := bld.BPT_STK_CAP_INIT,
    uni_siz := bld.sizeof_bpt_frm,
    bytes := bld.sizeof_bpt_frm * bld.BPT_STK_CAP_INIT % 2 ^ 64, frames := [] }

/-- A build for the examples: frames of 16 bytes, a handle and an `int` with
its padding, and a stack created for 8 of them. The choice plays no part in
what the examples show: by `calls_any_build` a call that returns, no allocation
being refused, returns the same in every build and on every stack that the
journal of the tree fits. -/
def build_8 : bpt_build := { BPT_STK_CAP_INIT := 8, sizeof_bpt_frm := 16 }

/-- A stack of one frame of 16 bytes, as `gen_stk_init (&stk, 1, 16)` leaves
it. -/
def stk_1 : stk_obj := { cap := 1, init_cap := 1, uni_siz := 16, bytes := 16, frames := [] }

/-- The states reached from `bpt_init` (order at least 3) by calls of
`bpt_insert` and `bpt_delete` that do not return `BPT_ERROR`, whatever stack
they are handed; between two calls the allocator may change its mind about the
coming requests. -/
inductive Reachable (cmp : bpt_t → bpt_t → Int) : State → Prop
  | init (alloc : List Bool) (order : Int) (s : State) :
      3 ≤ order → bpt_init (mem0 alloc) order = (0, s) → Reachable cmp s
  | insert (bld : bpt_build) (stk : stk_obj) (s : State) (e : bpt_entry)
      (pred : bpt_t → bpt_t → Int) (b : Bool) (r : bpt_result) (s1 : State) :
      Reachable cmp s → bpt_insert bld e cmp pred stk b s = some (r, s1) → r ≠ BPT_ERROR →
      Reachable cmp s1
  | delete (bld : bpt_build) (stk : stk_obj) (s : State) (e : bpt_entry)
      (pred : bpt_t → bpt_t → Int) (b : Bool) (r : bpt_result) (s1 : State) :
      Reachable cmp s → bpt_delete bld e cmp pred stk b s = some (r, s1) → r ≠ BPT_ERROR →
      Reachable cmp s1
  | allocator (s : State) (alloc : List Bool) :
      Reachable cmp s → Reachable cmp { s with alloc := alloc }

/-- The node reached from `a` by following child 0 through `d` levels, as
`find_minimal_key` of `check_bpt.c` does. -/
def first_at (s : State) : Nat → Int → Option Int
  | 0, a => some a
  | d + 1, a =>
    match rd s a with
    | none => none
    | some n => first_at s d (n.entries 0).val

/-- The handles met from `a` by following `nxt` up to the null handle, as the
inner loop of `check_bpt` does; `none` when `fuel` steps do not reach it. -/
def walk (s : State) : Nat → Int → Option (List Int)
  | 0, a => if a = 0 then some [] else none
  | fuel + 1, a =>
    if a = 0 then some []
    else
      match rd s a with
      | none => none
      | some n => (walk s fuel n.nxt).map (a :: ·)

/-- The chain of the nodes at depth `d`, read from the leftmost node via `nxt`. -/
def level_chain (s : State) (d : Nat) : Option (List Int) :=
  match first_at s d s.bstat.root_node with
  | none => none
  | some a => walk s s.brk.toNat a

/-- The entries read along the leaf chain. -/
def chain_entries (s : State) : Option (List bpt_entry) :=
  (level_chain s s.bstat.height).map (contents s)

/-! ## Auxiliary notions of the proofs -/

/-- The entries of the destination `nd` after a `memmove` of `cnt` slots from
slot `si` of `ns` to slot `di`. -/
def moved (nd ns : bpt_node) (di si cnt : Int) : Int → bpt_entry :=
  fun j => if di ≤ j ∧ j < di + cnt then ns.entries (j - di + si) else nd.entries j

/-- The `i`-th element of `node_pairs lo n`. -/
def pair_at (lo : Option bpt_t) (n : bpt_node) (i : Nat) : Item :=
  if i = 0 then (lo, (n.entries 0).val)
  else (some (n.entries ((i : Int) - 1)).key, (n.entries (i : Int)).val)

/-- Two tree descriptors with the same order and thresholds. -/
def same_params (b c : bpt_stat) : Prop :=
  c.order = b.order ∧ c.old_leaf_nkey = b.old_leaf_nkey ∧ c.new_leaf_nkey = b.new_leaf_nkey ∧
  c.old_inter_nkey = b.old_inter_nkey ∧ c.new_inter_nkey = b.new_inter_nkey

/-- The state `t` extends `s`: same parameters, no handle of `s` is fresh in `t`. -/
def Ext (s t : State) : Prop := same_params s.bstat t.bstat ∧ s.brk ≤ t.brk

/-- The states agree on the nodes of a list. -/
def Agree (s t : State) (l : List Int) : Prop := ∀ a ∈ l, t.mem a = s.mem a

/-- The states differ at most in the allocator's coming answers. -/
def SameTree (s t : State) : Prop := t.mem = s.mem ∧ t.bstat = s.bstat ∧ t.brk = s.brk

/-- The separator on the left of the first node of a list, if any. -/
def hi_of : List Item → Option bpt_t
  | [] => none
  | p :: _ => p.1

/-- The key `k` lies between the separators around a node. -/
def Bounded (cmp : bpt_t → bpt_t → Int) (k : bpt_t) (lo : Option bpt_t) (Y : List Item) : Prop :=
  (∀ l, lo = some l → ¬ lt cmp k l) ∧ (∀ h, hi_of Y = some h → lt cmp k h)

/-- Only the first node of a level has no separator on its left. -/
def Sep (L : List Item) : Prop :=
  ∃ c r, L = (none, c) :: r ∧ ∀ p ∈ r, ∃ l, p.1 = some l

/-- The entries of the leaves, read in left-to-right child order from the root. -/
def tree_entries (s : State) : List bpt_entry :=
  contents s ((level_below s s.bstat.height [(none, s.bstat.root_node)]).map Prod.snd)

/-- The nodes of the sibling links agree: the block of `a` keeps its `prv`
and `nxt` from `s` to `t`. -/
def LinkEq (s t : State) (a : Int) : Prop :=
  ∀ n, s.mem a = some n → ∃ m, t.mem a = some m ∧ m.prv = n.prv ∧ m.nxt = n.nxt

/-- What a call of `bpt_insert` that returned `r` did to the entries of the
leaves, `s` being the state before and `t` the state after it. -/
def InsSpec (s : State) (e : bpt_entry) (pred : bpt_t → bpt_t → Int) (r : bpt_result)
    (t : State) : Prop :=
  (r = BPT_NEXIST ∧ (∀ x ∈ tree_entries s, x.key ≠ e.key) ∧
    ∃ A B, tree_entries s = A ++ B ∧ tree_entries t = A ++ e :: B) ∨
  (r = BPT_PRED_SUCCESS ∧
    ∃ A x B, tree_entries s = A ++ x :: B ∧ x.key = e.key ∧ pred e.val x.val ≠ 0 ∧
      tree_entries t = A ++ ⟨x.key, e.val⟩ :: B ∧
      ∃ leaf off n, s.mem leaf = some n ∧ n.entries off = x ∧
        t = wr s leaf { n with
          entries := Function.update n.entries off { n.entries off with val := e.val } }) ∨
  (r = BPT_PRED_FAIL ∧ ∃ x ∈ tree_entries s, x.key = e.key ∧ pred e.val x.val = 0 ∧ t = s)

/-- The situation at the end of a journaled descent for the key `k` in a
well-formed tree `t`: the journal `stk` leads to the leaf `leaf`. -/
structure LeafSit (cmp : bpt_t → bpt_t → Int) (t : State) (stk : gen_stk) (U : List Int)
    (X : List Item) (lo : Option bpt_t) (leaf : Int) (Y : List Item) (k : bpt_t) : Prop where
  hc : cmp_total cmp
  hp : ParamsOK t.bstat
  hb : 0 < t.brk
  ctx : Ctx t stk U X lo leaf Y
  len : stk.length = t.bstat.height
  ok : LeafOK t cmp (min_leaf t stk.isEmpty) (X ++ (lo, leaf) :: Y)
  nd : (U ++ (X ++ (lo, leaf) :: Y).map Prod.snd).Nodup
  bd : Bounded cmp k lo Y

/-- The outcome of the scan of `leaf_insert` when no key equal to `k` is met:
`off` is the insertion position among the `m` keys of the leaf. -/
def Miss (cmp : bpt_t → bpt_t → Int) (k : bpt_t) (n : bpt_node) (off : Int) : Prop :=
  0 ≤ off ∧ off ≤ n.nkey ∧ (∀ j, 0 ≤ j → j < off → lt cmp (n.entries j).key k) ∧
  (off < n.nkey → lt cmp k (n.entries off).key)

/-- The node `n` with the key of slot `i` replaced by `k`. -/
def with_key (n : bpt_node) (i : Int) (k : bpt_t) : bpt_node :=
  { n with entries := Function.update n.entries i { n.entries i with key := k } }

/-- The list `Y` with the separator on the left of its first node replaced. -/
def set_hi (k : bpt_t) : List Item → List Item
  | [] => []
  | p :: r => (p.1.map fun _ => k, p.2) :: r

/-- The block of a node just obtained from `bpt_node_new`. -/
def fresh_node (prv nxt : Int) : bpt_node :=
  { entries := fun _ => ⟨0, 0⟩, nkey := 0, prv := prv, nxt := nxt }

/-- The state after one more handle has been handed out. -/
def grow (s : State) : State := { s with brk := s.brk + 1 }

/-- The nodes of a list hold the same keys and values in both states (their
sibling links may differ). -/
def Alike (s t : State) (l : List Int) : Prop :=
  ∀ b ∈ l, ∃ nb m, s.mem b = some nb ∧ t.mem b = some m ∧ m.entries = nb.entries ∧
    m.nkey = nb.nkey

/-- The slots of a node after `set_key` at slot `i`. -/
def put_key (f : Int → bpt_entry) (i : Int) (k : bpt_t) : Int → bpt_entry :=
  Function.update f i { f i with key := k }

/-- The slots of a node after `set_val` at slot `i`. -/
def put_val (f : Int → bpt_entry) (i : Int) (v : bpt_t) : Int → bpt_entry :=
  Function.update f i { f i with val := v }


/-- The keys `0 .. nkey - 1` of an internal node. -/
def node_keys (n : bpt_node) : List bpt_t :=
  (List.range n.nkey.toNat).map fun (i : Nat) => (n.entries (i : Int)).key

/-- The child handles `0 .. nkey` of an internal node. -/
def node_vals (n : bpt_node) : List bpt_t :=
  (List.range (n.nkey.toNat + 1)).map fun (i : Nat) => (n.entries (i : Int)).val


/-- The internal node `n` without its child `off` and without the key on the
left of that child (key `0` when `off = 0`), as `bpt_delete_ientry` leaves it. -/
def cut (n : bpt_node) (off : Int) : bpt_node :=
  if off = 0 then { n with entries := moved n n 0 1 n.nkey, nkey := n.nkey - 1 }
  else { n with
    entries := put_val (moved n n (off - 1) off (n.nkey + 1 - off)) (off - 1)
      (n.entries (off - 1)).val
    nkey := n.nkey - 1 }

/-- The separator on the left of a node after the removal of its child `off`:
when child `0` goes, the separator becomes the old key `0` of the node. -/
def cut_lo (lo : Option bpt_t) (n : bpt_node) (off : Int) : Option bpt_t :=
  if off = 0 then lo.map fun _ => (n.entries 0).key else lo

/-- What a call of `bpt_delete` that returned `r` did to the entries of the
leaves, `s` being the state before and `t` the state after it. -/
def DelSpec (s : State) (e : bpt_entry) (pred : bpt_t → bpt_t → Int) (r : bpt_result)
    (t : State) : Prop :=
  (r = BPT_NEXIST ∧ (∀ x ∈ tree_entries s, x.key ≠ e.key) ∧ t = s) ∨
  (r = BPT_PRED_SUCCESS ∧
    ∃ A x B, tree_entries s = A ++ x :: B ∧ x.key = e.key ∧ pred e.val x.val ≠ 0 ∧
      tree_entries t = A ++ B) ∨
  (r = BPT_PRED_FAIL ∧ ∃ x ∈ tree_entries s, x.key = e.key ∧ pred e.val x.val = 0 ∧ t = s)


/-! ## The test drivers -/

/-- The conversion `(int)x` of a key word: the low 32 bits, read as a signed
number. -/
def to_int (x : Int) : Int := (x + 2147483648) % 4294967296 - 2147483648

/-- The comparison function `cmp_int` of the test drivers,
`(int)a.ptr - (int)b.ptr` in 32-bit arithmetic. -/
def cmp_int (a b : bpt_t) : Int := to_int (to_int a - to_int b)

/-- The comparison of key words as unbounded integers: `cmp_int` without the
truncation to 32 bits. -/
def cmp_word (a b : bpt_t) : Int := a - b

/-- The insertion loop of the test drivers: every key is inserted with
itself as value, with the predicate `bpt_pred_1` and an initialised stack;
`none` unless every call returns `BPT_NEXIST`. -/
def insert_keys (bld : bpt_build) : List Int → State → Option State
  | [], s => some s
  | k :: r, s =>
    match bpt_insert bld ⟨k, k⟩ cmp_int bpt_pred_1 (driver_stk bld) true s with
    | some (BPT_NEXIST, t) => insert_keys bld r t
    | _ => none

/-- The deletion loop of the test drivers; `none` unless every call returns
`BPT_PRED_SUCCESS`. -/
def delete_keys (bld : bpt_build) : List Int → State → Option State
  | [], s => some s
  | k :: r, s =>
    match bpt_delete bld ⟨k, k⟩ cmp_int bpt_pred_1 (driver_stk bld) true s with
    | some (BPT_PRED_SUCCESS, t) => delete_keys bld r t
    | _ => none

/-- The keys read along the leaf chain. -/
def chain_keys (s : State) : Option (List Int) :=
  (chain_entries s).map fun l => l.map (·.key)

/-- The key count of the root. -/
def root_nkey (s : State) : Option Int := bpt_node_nkey s s.bstat.root_node

/-- The key counts of the leaves, along the leaf chain. -/
def leaf_sizes (s : State) : Option (List Int) :=
  (level_chain s s.bstat.height).map fun l => l.map fun a => ((s.mem a).map (·.nkey)).getD 0

/-- The keys `a, a + 1, ..., a + n - 1`. -/
def key_range (a n : Nat) : List Int := (List.range' a n).map Int.ofNat

/-- A list of keys is strictly increasing. -/
def strict_inc : List Int → Bool
  | [] => true
  | [_] => true
  | a :: b :: r => decide (a < b) && strict_inc (b :: r)

/-- The heights and leaf chains seen after each call when the keys of `ins`
are inserted one by one. -/
def insert_trace (bld : bpt_build) : List Int → State → Option (List (Nat × Option (List Int)))
  | [], _ => some []
  | k :: r, s =>
    match bpt_insert bld ⟨k, k⟩ cmp_int bpt_pred_1 (driver_stk bld) true s with
    | some (BPT_NEXIST, t) => (insert_trace bld r t).map ((t.bstat.height, chain_keys t) :: ·)
    | _ => none

/-- The heights and leaf chains seen after each call when the keys of a
list are deleted one by one. -/
def delete_trace (bld : bpt_build) : List Int → State → Option (List (Nat × Option (List Int)))
  | [], _ => some []
  | k :: r, s =>
    match bpt_delete bld ⟨k, k⟩ cmp_int bpt_pred_1 (driver_stk bld) true s with
    | some (BPT_PRED_SUCCESS, t) => (delete_trace bld r t).map ((t.bstat.height, chain_keys t) :: ·)
    | _ => none

/-- Every leaf chain of a trace could be read and is strictly increasing. -/
def all_sorted (tr : List (Nat × Option (List Int))) : Bool :=
  tr.all fun v => match v.2 with
    | none => false
    | some l => strict_inc l


/-! ## The search path, in the words of the specification -/

/-- The slot `j` is the one the descent chooses in the node `n` for the key
`k`: the smallest slot whose key is greater than `k`, or `nkey` when there is
none. -/
def slot_chosen (cmp : bpt_t → bpt_t → Int) (k : bpt_t) (n : bpt_node) (j : Int) : Prop :=
  0 ≤ j ∧ j ≤ n.nkey ∧ (∀ i, 0 ≤ i → i < j → ¬ cmp k (n.entries i).key < 0) ∧
    (j < n.nkey → cmp k (n.entries j).key < 0)

/-- The frames `frs`, read from the bottom of the stack, are the nodes of the
search path for `k` from `node` down to the parent of `leaf`, each paired with
the child slot chosen in it; the leaf has no frame. -/
def on_path (cmp : bpt_t → bpt_t → Int) (k : bpt_t) (s : State) :
    Int → List bpt_frm → Int → Prop
  | node, [], leaf => node = leaf
  | node, f :: r, leaf =>
    f.node = node ∧ ∃ n, rd s node = some n ∧ slot_chosen cmp k n f.offset ∧
      on_path cmp k s (n.entries f.offset).val r leaf


/-! ## The loop of `bpt_delete_ientry` -/

/-- The level below the node `n` (which stands in its own level between `X1`
and `Y1`, with the separator `lo1` on its left) once the child `off` of `n` and
the key on the left of that child are gone. -/
def cut_level (s : State) (X1 : List Item) (lo1 : Option bpt_t) (n : bpt_node) (off : Int)
    (Y1 : List Item) : List Item :=
  expand s X1 ++ (node_pairs (cut_lo lo1 n off) (cut n off) ++ expand s Y1)

/-- The situation at the head of a round of the loop of `bpt_delete_ientry`:
the frame `(a, off)` has been popped, `stk` is the journal below it, the child
`off` of `a` has been released, and the `d + 1` levels below `a` are in order
once that child is taken out of `a`. -/
structure CutSit (cmp : bpt_t → bpt_t → Int) (s : State) (stk : gen_stk) (a off : Int) (d : Nat)
    (U1 : List Int) (X1 : List Item) (lo1 : Option bpt_t) (Y1 : List Item) (n : bpt_node) :
    Prop where
  hc : cmp_total cmp
  hp : ParamsOK s.bstat
  hb : 0 < s.brk
  ctx : Ctx s stk U1 X1 lo1 a Y1
  hm : s.mem a = some n
  ok : InnerOK s (min_inner s stk.isEmpty) (X1 ++ (lo1, a) :: Y1)
  h0 : 0 ≤ off
  h1 : off ≤ n.nkey
  len : stk.length + (d + 1) = s.bstat.height
  below : Below s cmp false d (cut_level s X1 lo1 n off Y1)
  nd : ((U1 ++ (X1 ++ (lo1, a) :: Y1).map Prod.snd) ++
    nodes_below s d (cut_level s X1 lo1 n off Y1)).Nodup


/-- The handles of the nodes at depth `d`, in left-to-right child order from
the root. -/
def level_nodes (s : State) (d : Nat) : List Int :=
  (level_below s d [(none, s.bstat.root_node)]).map Prod.snd

/-- The walk from `a` via `nxt` to the null handle visits exactly the handles
of `l`, in that order, whenever it is given enough steps. -/
def chain_reads (s : State) (a : Int) (l : List Int) : Prop :=
  ∀ fuel, l.length ≤ fuel → walk s fuel a = some l

/-- The chain of depth `d` is read from the node reached by following child 0
from the root, and it visits exactly the handles of `l`. -/
def level_reads (s : State) (d : Nat) (l : List Int) : Prop :=
  ∃ a, first_at s d s.bstat.root_node = some a ∧ chain_reads s a l

/-- The entries read along the leaf chain are those of `es`. -/
def leaves_read (s : State) (es : List bpt_entry) : Prop :=
  ∃ l, level_reads s s.bstat.height l ∧ contents s l = es


/-- The keys of the nodes of a list of handles, node after node. -/
def keys_of (s : State) : List Int → List bpt_t
  | [] => []
  | a :: r => (match s.mem a with | none => [] | some n => node_keys n) ++ keys_of s r

/-- The keys read along the chain of depth `d`. -/
def level_keys (s : State) (d : Nat) : List bpt_t := keys_of s (level_nodes s d)

/-- The separators standing on the left of the nodes of a level. -/
def seps (L : List Item) : List bpt_t := L.filterMap Prod.fst

/-- The slot of the leaf `leaf` holds an entry of key `k`: what a successful
`bpt_search` of `k` reports. -/
def holds_at (s : State) (leaf i : Int) (k : bpt_t) : Prop :=
  ∃ n, rd s leaf = some n ∧ 0 ≤ i ∧ i < n.nkey ∧ (n.entries i).key = k

/-- The tree of order 3 just created, the allocator never refusing. -/
def tree0 : State := (bpt_init (mem0 []) 3).2

/-- The tree `tree0` after the insertion of the entry `(1, 1)`. -/
def tree1 : State :=
  ((bpt_insert build_8 ⟨1, 1⟩ cmp_word bpt_pred_1 (driver_stk build_8) true tree0).map
    Prod.snd).getD tree0


/-- The tree `tree1` handed to a caller whose next memory request is
refused. -/
def tree1_refused : State := { tree1 with alloc := [false] }

/-- A call of the interface under the predicate `bpt_pred_1`: an insertion or
a deletion of an entry, with the flag `has_stk_init` of the call. -/
inductive tree_op where
  | ins (e : bpt_entry) (has_stk_init : Bool)
  | del (e : bpt_entry) (has_stk_init : Bool)

/-- The call of `bpt_insert` or `bpt_delete` that `op` stands for, on the
stack `stk`. -/
def run_op (bld : bpt_build) (stk : stk_obj) (cmp : bpt_t → bpt_t → Int) (op : tree_op)
    (s : State) : Option (bpt_result × State) :=
  match op with
  | tree_op.ins e b => bpt_insert bld e cmp bpt_pred_1 stk b s
  | tree_op.del e b => bpt_delete bld e cmp bpt_pred_1 stk b s

/-- The calls of a list made one after the other; the state after the last
one. -/
def run_ops (bld : bpt_build) (stk : stk_obj) (cmp : bpt_t → bpt_t → Int) :
    List tree_op → State → Option State
  | [], s => some s
  | op :: r, s =>
    match run_op bld stk cmp op s with
    | none => none
    | some (_, t) => run_ops bld stk cmp r t

/-- The flag `has_stk_init` of a call. -/
def tree_op.flag : tree_op → Bool
  | tree_op.ins _ b => b
  | tree_op.del _ b => b

/-- Whether at every call of the list the journal of the tree fits the
stack. -/
def ops_fit (bld : bpt_build) (stk : stk_obj) (cmp : bpt_t → bpt_t → Int) :
    List tree_op → State → Bool
  | [], _ => true
  | op :: r, s =>
    decide (Fits bld stk op.flag s.bstat.height) &&
      match run_op bld stk cmp op s with
      | none => true
      | some (_, t) => ops_fit bld stk cmp r t

/-- In the words of the specification: an insertion adds its key to the set
of outstanding keys, a deletion removes its key from it. -/
def set_step (S : Finset bpt_t) (op : tree_op) : Finset bpt_t :=
  match op with
  | tree_op.ins e _ => insert e.key S
  | tree_op.del e _ => S.erase e.key

/-- In the words of the specification: the set of outstanding keys obtained
by applying the inserts and deletes of `ops` to the empty set. -/
def set_after (ops : List tree_op) : Finset bpt_t := ops.foldl set_step ∅

/-- The presence result of `bpt_search`: whether it returns a slot, that is,
a value that is not negative. -/
def found (cmp : bpt_t → bpt_t → Int) (k : bpt_t) (s : State) : Bool :=
  match bpt_search k cmp s with
  | some (i, _) => decide (0 ≤ i)
  | none => false


/-! ## Observations for the rebalancing scenarios -/

/-- The keys of the leaves, leaf after leaf along the leaf chain. -/
def leaf_groups (s : State) : Option (List (List Int)) :=
  (level_chain s s.bstat.height).map fun l =>
    l.map fun a => ((s.mem a).map fun n => (node_ents n).map (·.key)).getD []

/-- The keys of the root. -/
def root_keys (s : State) : Option (List Int) := (rd s s.bstat.root_node).map node_keys

/-- The tree of scenario S6: order 4, the keys 1 to 11 inserted in ascending
order, then the key 5 deleted. -/
def tree_s6 : Option State :=
  (insert_keys build_8 (key_range 1 11) (bpt_init (mem0 []) 4).2).bind (delete_keys build_8 [5])


/-! ## The container of `gen_stk.c`, byte by byte -/

namespace GenStk

/-- The number of values of `size_t` (64 bits): sizes are computed modulo it. -/
def size_range : Nat := 2 ^ 64

/-- A heap block: its bytes in order, `none` standing for a byte whose value is
indeterminate; the length of the list is the size the allocator was asked
for. -/
abbrev block := List (Option Nat)

/-- The fields of `struct gen_stk`, with the block behind `addr`. -/
structure gen_stk where
  init_cap : Nat
  cap : Nat
  cnt : Nat
  uni_siz : Nat
  addr : block
deriving DecidableEq

/-- A successful `malloc(n)`. -/
def malloc (n : Nat) : block := List.replicate n none

/-- A successful `realloc(b, n)`: the block has `n` bytes and keeps its
contents up to the lesser of the old and the new size. -/
def realloc (b : block) (n : Nat) : block := b.take n ++ List.replicate (n - b.length) none

/-- The call `memcpy(addr + off, elem, len)` into the block `b`: undefined
(`none`) unless `elem` has `len` bytes and the destination lies inside `b`. -/
def store (b : block) (off : Nat) (elem : List (Option Nat)) (len : Nat) : Option block :=
  if elem.length = len ∧ off + len ≤ b.length then
    some (b.take off ++ elem ++ b.drop (off + len))
  else none

/-- The call `memcpy(buff, addr + off, len)` out of the block `b`: undefined
(`none`) unless the source lies inside `b`. -/
def fetch (b : block) (off len : Nat) : Option (List (Option Nat)) :=
  if off + len ≤ b.length then some ((b.drop off).take len) else none

/-- The function `gen_stk_init`; `ok` tells whether `malloc` succeeds, and
`none` stands for the return value `-1`. -/
def gen_stk_init (init_cap uni_siz : Nat) (ok : Bool) : Option gen_stk :=
  if ok then
    some { init_cap := init_cap, cap := init_cap, cnt := 0, uni_siz := uni_siz,
           addr := malloc ((uni_siz * init_cap) % size_range) }
  else none

/-- The head of `gen_stk_push`: on a full stack the block is reallocated with
the byte count `new_cap`; `ok` tells whether `realloc` succeeds, and `none`
stands for its failure. -/
def push_grow (self : gen_stk) (ok : Bool) : Option gen_stk :=
  if self.cnt ≥ self.cap then
    if ok then
      some { self with
        addr := realloc self.addr ((self.cap + self.init_cap) % size_range)
        cap := (self.cap + self.init_cap) % size_range }
    else none
  else some self

/-- The function `gen_stk_push`: the value returned and the stack afterwards;
`none` is undefined behaviour, the `memcpy` leaving the block. -/
def gen_stk_push (self : gen_stk) (elem : List (Option Nat)) (ok : Bool) :
    Option (Int × gen_stk) :=
  match push_grow self ok with
  | none => some (-1, self)
  | some s1 =>
    match store s1.addr ((s1.cnt * s1.uni_siz) % size_range) elem s1.uni_siz with
    | none => none
    | some b => some (0, { s1 with addr := b, cnt := (s1.cnt + 1) % size_range })

/-- The function `gen_stk_pop`: the element copied to `buff` and the stack
afterwards; `none` is undefined behaviour. -/
def gen_stk_pop (self : gen_stk) : Option (List (Option Nat) × gen_stk) :=
  match fetch self.addr ((((self.cnt + size_range - 1) % size_range) * self.uni_siz) % size_range)
      self.uni_siz with
  | none => none
  | some x => some (x, { self with cnt := (self.cnt + size_range - 1) % size_range })

/-- The macro `gen_stk_empty`. -/
def gen_stk_empty (self : gen_stk) : Bool := self.cnt == 0


end GenStk


/-! ## Trees built by calls of the interface, for the examples -/

/-- The insertions of the keys of a list, each with itself as value, the
journal being initialised. -/
def ins_keys (l : List Int) : List tree_op := l.map fun k => tree_op.ins ⟨k, k⟩ true

/-- The deletions of the keys of a list, the journal being initialised. -/
def del_keys (l : List Int) : List tree_op := l.map fun k => tree_op.del ⟨k, k⟩ true

/-- The tree of the given order after the calls of `ops` under `cmp_word`,
the allocator never refusing and the stack being that of the test drivers
(the empty memory when a call is undefined). -/
def tree_of (order : Int) (ops : List tree_op) : State :=
  (run_ops build_8 (driver_stk build_8) cmp_word ops (bpt_init (mem0 []) order).2).getD (mem0 [])

/-- The tree of order 4 whose leaves read `[1,2,3,4] - [6,7] - [8,9,10,11]`. -/
def tree_a : State := tree_of 4 (ins_keys (key_range 1 11) ++ del_keys [5])

/-- The tree of order 3 whose only leaf, the root, reads `[1,2,3]`. -/
def tree_b : State := tree_of 3 (ins_keys [1, 2, 3])

/-- The tree of order 3 whose leaves read `[1,2] - [3,4,5]`. -/
def tree_c : State := tree_of 3 (ins_keys [1, 2, 3, 4, 5])

/-- The tree of order 3 and height 1 whose leaves read
`[1,2,3] - [4,5,6] - [7,8,9] - [10,11,12]`: the root and the leaves are
full. -/
def tree_d : State := tree_of 3 (ins_keys (key_range 1 12))

/-- The tree of order 3 and height 1 whose leaves read `[1,2] - [3,4]`: the
root has one key. -/
def tree_e : State := tree_of 3 (ins_keys (key_range 1 4))

/-- The tree of order 3 and height 2 that the keys `1 .. 13` inserted in this
order build: the root `8` has the key `10`, the inner nodes `3` and `7` have
the keys `[4, 7]` and `[12]`, and the leaves read
`[1,2,3] - [4,5,6] - [7,8,9] - [10,11] - [12,13]`. -/
def tree_g : State := tree_of 3 (ins_keys (key_range 1 13))

/-- The tree `tree_g` after the deletion of `13`, `12`, `11` and `10`: two
leaves were merged away, then the inner node `7`, and the root `8` was removed,
so that the tree has height 1 again with the leaves
`[1,2,3] - [4,5,6] - [7,8,9]`. -/
def tree_h : State := tree_of 3 (ins_keys (key_range 1 13) ++ del_keys [13, 12, 11, 10])

/-- The tree of order 3 and height 2 whose leaves read
`[5,10] - [20,30] - [40,50,60] - [70,80,90] - [100,110] - [120,130]`: the leaf
`[40,50,60]` (handle `2`) is full and its previous sibling (handle `9`) has
room. -/
def tree_k : State :=
  tree_of 3 (ins_keys [10, 20, 30, 40, 50, 60, 70, 80, 90, 100, 110, 120, 130, 5])

/-- The tree of order 3 and height 2 whose inner node `3` is full (keys
`[20, 40, 70]`, next sibling `7`) and has the full leaves
`[5,10,15] - [20,25,30] - [40,50,60] - [70,80,90]` below it; the leaf
`[20,25,30]` has the handle `9`, between the leaves `1` and `2`. -/
def tree_j : State :=
  tree_of 3 (ins_keys [10, 20, 30, 40, 50, 60, 70, 80, 90, 100, 110, 120, 130, 5, 25, 15])

/-- The state in which `leaf_insert`, inserting the key `26` into `tree_j`,
calls `internal_insert`: the leaf `9` was split into `[20,25]` and the new
leaf `10` reading `[26,30]`. -/
def tree_j_split : State :=
  (leaf_insert_split (bpt_node_new tree_j 9 2).2 ⟨26, 26⟩ 9 2 2 tree_j.brk).getD tree_j


/-! ## What the node operations leave alone -/

/-- The state `t` has the descriptor `bstat` of `s` and no node has been
handed out between them. -/
def Keep (s t : State) : Prop := t.bstat = s.bstat ∧ t.brk = s.brk

/-- The handle a call of `internal_insert` on the journal `stk` takes for the
old root when it installs a new one: the node of the frame at the bottom of
the journal, or `left` when the journal is empty. -/
def bottom_node (stk : gen_stk) (left : Int) : Int :=
  match stk.getLast? with
  | none => left
  | some f => f.node

/-- The tree `tree_c` handed to a caller whose next memory request is
refused. -/
def tree_c_refused : State := { tree_c with alloc := [false] }

/-! ## The collapse of the root -/

/-- The root of `s` collapsed on the way to `t`: in some state `s1` with the
descriptor of `s`, whose root `R` held exactly one key, `bpt_delete_ientry`
processed the root frame `(root, off)`; in `t` the child of `R` at slot `1`
when `off = 0`, and at slot `0` otherwise, is the root, the height is one
less, the old root is released and no other node was touched by that round. -/
def Collapse (s t : State) : Prop :=
  ∃ (s1 : State) (off : Int) (R : bpt_node),
    s1.bstat = s.bstat ∧ s1.mem s.bstat.root_node = some R ∧ R.nkey = 1 ∧
    0 ≤ off ∧ off ≤ 1 ∧
    bpt_delete_ientry [⟨s.bstat.root_node, off⟩] s1 = some (BPT_PRED_SUCCESS, t) ∧
    t.bstat = { s.bstat with
      root_node := (R.entries (if off = 0 then 1 else 0)).val
      height := s.bstat.height - 1 } ∧
    t.mem s.bstat.root_node = none ∧ ∀ b, b ≠ s.bstat.root_node → t.mem b = s1.mem b

/-! ## The separator lookups in the words of the specification -/

/-- In the words of the specification: the previous-side pair of the topmost
frame of the journal whose descent was not leftmost (`offset != 0`), that is
`(offset - 1, node)`, and `(-1, 0)` when the journal holds no such frame. -/
def topmost_prv (stk : gen_stk) : Int × Int :=
  match stk.find? fun f => decide (f.offset ≠ 0) with
  | some f => (f.offset - 1, f.node)
  | none => (-1, 0)

/-- In the words of the specification: the next-side pair of the topmost
frame of the journal whose descent was not rightmost (`offset != nkey` of its
node), that is `(offset, node)`, and `(-1, 0)` when the journal holds no such
frame. -/
def topmost_nxt (s : State) (stk : gen_stk) : Int × Int :=
  match stk.find? fun f => decide (bpt_node_nkey s f.node ≠ some f.offset) with
  | some f => (f.offset, f.node)
  | none => (-1, 0)

/-- A journal of two frames over the tree `tree_e`. -/
def journal_e : gen_stk := [⟨3, 1⟩, ⟨3, 0⟩]

/-! ## The lookups that must succeed -/

/-- The journal holds a frame whose descent was not leftmost. -/
def PrvFound (stk : gen_stk) : Prop := ∃ f ∈ stk, f.offset ≠ 0

/-- The journal holds a frame whose offset differs from the key count of its
node in the state `s`. -/
def NxtFound (s : State) (stk : gen_stk) : Prop :=
  ∃ f ∈ stk, ∃ m, bpt_node_nkey s f.node = some m ∧ f.offset ≠ m

/-- The stack is in order: its elements have the size of a frame, there are
at most `cap` of them and they lie inside the block. -/
def StkOK (bld : bpt_build) (stk : stk_obj) : Prop :=
  stk.uni_siz = bld.sizeof_bpt_frm ∧ stk.frames.length ≤ stk.cap ∧
    stk.frames.length * stk.uni_siz ≤ stk.bytes

/-- The call `gen_stk_pop`: the popped frame and the stack afterwards; `none`
on an empty stack, where the source reads below the block. -/
def stk_pop (stk : stk_obj) : Option (bpt_frm × stk_obj) :=
  match stk.frames with
  | [] => none
  | frm :: r => some (frm, { stk with frames := r })

/-- One iteration of the `while (1)` loop of `bpt_delete_ientry` on the stack
itself, with the pops and the push written out: a final result (`Sum.inl`) or
the stack and the state of the next iteration (`Sum.inr`).  The value that
`gen_stk_push` returns is ignored, as in the source: after a failed push the
stack goes on without the frame. -/
def ientry_round (bld : bpt_build) (s : State) (stk0 : stk_obj) :
    Option ((bpt_result × State) ⊕ (stk_obj × State)) := do
  let minimal_inter_nkey := s.bstat.new_inter_nkey
  let (frm, stk) ← stk_pop stk0
  let m ← bpt_node_nkey s frm.node
  if gen_stk_empty stk.frames then
    let s1 ← delete_ientry_root s frm m
    some (Sum.inl (BPT_PRED_SUCCESS, s1))
  else if m > minimal_inter_nkey then
    let s1 ← delete_ientry_surplus s frm m stk.frames
    some (Sum.inl (BPT_PRED_SUCCESS, s1))
  else
    let prv ← bpt_node_prv s frm.node
    let nxt ← bpt_node_nxt s frm.node
    let prv_nkey ← if prv ≠ 0 then bpt_node_nkey s prv else some minimal_inter_nkey
    if prv ≠ 0 ∧ prv_nkey ≠ minimal_inter_nkey then
      let s1 ← delete_ientry_prv s frm prv prv_nkey stk.frames
      some (Sum.inl (BPT_PRED_SUCCESS, s1))
    else
      let nxt_nkey ← if nxt ≠ 0 then bpt_node_nkey s nxt else some minimal_inter_nkey
      if nxt ≠ 0 ∧ nxt_nkey ≠ minimal_inter_nkey then
        let s1 ← delete_ientry_nxt s frm nxt nxt_nkey stk.frames
        some (Sum.inl (BPT_PRED_SUCCESS, s1))
      else
        let (parent, stk2) ← stk_pop stk
        if parent.offset ≠ 0 then
          let s1 ← delete_ientry_merge_prv s frm parent prv nxt
          let p ← gen_stk_push bld s1 stk2 parent
          some (Sum.inr (p.1.getD stk2, p.2))
        else
          let r ← delete_ientry_merge_nxt s frm parent prv nxt stk2.frames
          if r.1 = false then some (Sum.inl (BPT_ERROR, r.2))
          else
            let p ← gen_stk_push bld r.2 stk2 ⟨parent.node, parent.offset + 1⟩
            some (Sum.inr (p.1.getD stk2, p.2))

/-- The loop of `bpt_delete_ientry` run for at most `fuel` iterations:
`none` is undefined behaviour, `some none` means that the iterations ran
out. -/
def ientry_rounds (bld : bpt_build) : Nat → stk_obj → State →
    Option (Option (bpt_result × State))
  | 0, _, _ => some none
  | fuel + 1, stk, s =>
    match ientry_round bld s stk with
    | none => none
    | some (Sum.inl r) => some (some r)
    | some (Sum.inr (stk1, s1)) => ientry_rounds bld fuel stk1 s1

/-- A stack of two slots that its caller hands over with the two frames of an
earlier descent still on it. -/
def stk_held : stk_obj :=
  { cap := 2, init_cap := 2, uni_siz := 16, bytes := 32, frames := [⟨7, 0⟩, ⟨8, 1⟩] }

/-- A build whose header sets `BPT_STK_CAP_INIT` to 1, with frames of 16
bytes. -/
def build_1 : bpt_build := { BPT_STK_CAP_INIT := 1, sizeof_bpt_frm := 16 }

/-- Whether the insertion loop of the test drivers, run in the build `bld`,
meets at every call a tree of height at most `H` on which no allocation is
refused. -/
def insert_keys_low (bld : bpt_build) (H : Nat) : List Int → State → Bool
  | [], _ => true
  | k :: r, s =>
    decide (s.alloc = []) && decide (s.bstat.height ≤ H) &&
      match bpt_insert bld ⟨k, k⟩ cmp_int bpt_pred_1 (driver_stk bld) true s with
      | some (BPT_NEXIST, t) => insert_keys_low bld H r t
      | _ => true

/-- Whether the deletion loop of the test drivers, run in the build `bld`,
meets at every call a tree of height at most `H` on which no allocation is
refused. -/
def delete_keys_low (bld : bpt_build) (H : Nat) : List Int → State → Bool
  | [], _ => true
  | k :: r, s =>
    decide (s.alloc = []) && decide (s.bstat.height ≤ H) &&
      match bpt_delete bld ⟨k, k⟩ cmp_int bpt_pred_1 (driver_stk bld) true s with
      | some (BPT_PRED_SUCCESS, t) => delete_keys_low bld H r t
      | _ => true

/-! ## Memory primitives: closed forms -/

theorem rd_of_ne {s : State} {a : Int} (h : a ≠ 0) : rd s a = s.mem a := by
  simp [rd, h]

@[simp] theorem wr_bstat (s : State) (a : Int) (n : bpt_node) : (wr s a n).bstat = s.bstat := rfl
@[simp] theorem wr_brk (s : State) (a : Int) (n : bpt_node) : (wr s a n).brk = s.brk := rfl
@[simp] theorem wr_alloc (s : State) (a : Int) (n : bpt_node) : (wr s a n).alloc = s.alloc := rfl
@[simp] theorem wr_mem_same (s : State) (a : Int) (n : bpt_node) : (wr s a n).mem a = some n := by
  simp [wr]
theorem wr_mem_of_ne {s : State} {a b : Int} (n : bpt_node) (h : b ≠ a) :
    (wr s a n).mem b = s.mem b := by
  simp [wr, Function.update, h]
theorem wr_mem (s : State) (a b : Int) (n : bpt_node) :
    (wr s a n).mem b = if b = a then some n else s.mem b := by
  by_cases h : b = a
  · subst h; simp
  · simp [wr_mem_of_ne n h, h]

@[simp] theorem wr_wr (s : State) (a : Int) (n m : bpt_node) : wr (wr s a n) a m = wr s a m := by
  simp [wr]

theorem wr_self {s : State} {a : Int} {n : bpt_node} (h : s.mem a = some n) : wr s a n = s := by
  cases s
  simp only [wr] at h ⊢
  congr
  exact Function.update_eq_self_iff.mpr h.symm

theorem nkey_eq {s : State} {a : Int} {n : bpt_node} (h0 : a ≠ 0) (h : s.mem a = some n) :
    bpt_node_nkey s a = some n.nkey := by
  simp [bpt_node_nkey, rd_of_ne h0, h]

theorem prv_eq {s : State} {a : Int} {n : bpt_node} (h0 : a ≠ 0) (h : s.mem a = some n) :
    bpt_node_prv s a = some n.prv := by
  simp [bpt_node_prv, rd_of_ne h0, h]

theorem nxt_eq {s : State} {a : Int} {n : bpt_node} (h0 : a ≠ 0) (h : s.mem a = some n) :
    bpt_node_nxt s a = some n.nxt := by
  simp [bpt_node_nxt, rd_of_ne h0, h]

theorem set_nkey_eq {s : State} {a : Int} {n : bpt_node} (h0 : a ≠ 0) (h : s.mem a = some n)
    (v : Int) : bpt_node_set_nkey s a v = some (wr s a { n with nkey := v }) := by
  simp [bpt_node_set_nkey, rd_of_ne h0, h]

theorem set_prv_eq {s : State} {a : Int} {n : bpt_node} (h0 : a ≠ 0) (h : s.mem a = some n)
    (v : Int) : bpt_node_set_prv s a v = some (wr s a { n with prv := v }) := by
  simp [bpt_node_set_prv, rd_of_ne h0, h]

theorem set_nxt_eq {s : State} {a : Int} {n : bpt_node} (h0 : a ≠ 0) (h : s.mem a = some n)
    (v : Int) : bpt_node_set_nxt s a v = some (wr s a { n with nxt := v }) := by
  simp [bpt_node_set_nxt, rd_of_ne h0, h]

theorem get_entry_eq {s : State} {a i : Int} {n : bpt_node} (h0 : a ≠ 0) (h : s.mem a = some n)
    (hi : 0 ≤ i) (hi2 : i ≤ s.bstat.order) : get_entry s a i = some (n.entries i) := by
  simp [get_entry, rd_of_ne h0, h, slot_ok, hi, hi2]

theorem set_entry_eq {s : State} {a i : Int} {n : bpt_node} (h0 : a ≠ 0) (h : s.mem a = some n)
    (hi : 0 ≤ i) (hi2 : i ≤ s.bstat.order) (e : bpt_entry) :
    set_entry s a i e = some (wr s a { n with entries := Function.update n.entries i e }) := by
  simp [set_entry, rd_of_ne h0, h, slot_ok, hi, hi2]

theorem set_key_eq {s : State} {a i : Int} {n : bpt_node} (h0 : a ≠ 0) (h : s.mem a = some n)
    (hi : 0 ≤ i) (hi2 : i ≤ s.bstat.order) (k : bpt_t) :
    set_key s a i k =
      some (wr s a { n with entries := Function.update n.entries i { n.entries i with key := k } }) := by
  simp [set_key, rd_of_ne h0, h, slot_ok, hi, hi2]

theorem set_val_eq {s : State} {a i : Int} {n : bpt_node} (h0 : a ≠ 0) (h : s.mem a = some n)
    (hi : 0 ≤ i) (hi2 : i ≤ s.bstat.order) (v : bpt_t) :
    set_val s a i v =
      some (wr s a { n with entries := Function.update n.entries i { n.entries i with val := v } }) := by
  simp [set_val, rd_of_ne h0, h, slot_ok, hi, hi2]

theorem memmove_eq {s : State} {dst src : Int} {nd ns : bpt_node} (di si cnt : Int)
    (hd0 : dst ≠ 0) (hd : s.mem dst = some nd) (hs0 : src ≠ 0) (hs : s.mem src = some ns)
    (hc : 0 ≤ cnt)
    (hb : 0 < cnt → 0 ≤ di ∧ di + cnt ≤ s.bstat.order + 1 ∧ 0 ≤ si ∧ si + cnt ≤ s.bstat.order + 1) :
    memmove s dst di src si cnt = some (wr s dst { nd with entries := moved nd ns di si cnt }) := by
  unfold memmove
  rw [if_neg (by omega)]
  by_cases h0 : cnt = 0
  · rw [if_pos h0]
    subst h0
    have : ({ nd with entries := moved nd ns di si 0 } : bpt_node) = nd := by
      cases nd
      congr
      funext j
      show (if di ≤ j ∧ j < di + 0 then _ else _) = _
      rw [if_neg (by omega)]
    rw [this, wr_self hd]
  · rw [if_neg h0]
    have hb2 := hb (by omega)
    simp [rd_of_ne hd0, rd_of_ne hs0, hd, hs, hb2]
    rfl

theorem memcpy_eq {s : State} {dst src : Int} {nd ns : bpt_node} (di si cnt : Int)
    (hd0 : dst ≠ 0) (hd : s.mem dst = some nd) (hs0 : src ≠ 0) (hs : s.mem src = some ns)
    (hc : 0 ≤ cnt)
    (hb : 0 < cnt → 0 ≤ di ∧ di + cnt ≤ s.bstat.order + 1 ∧ 0 ≤ si ∧ si + cnt ≤ s.bstat.order + 1)
    (hne : dst ≠ src) :
    memcpy s dst di src si cnt = some (wr s dst { nd with entries := moved nd ns di si cnt }) := by
  unfold memcpy
  rw [if_neg (by simp [hne]), memmove_eq di si cnt hd0 hd hs0 hs hc hb]

theorem node_delete_eq {s : State} {a : Int} {n : bpt_node} (h0 : a ≠ 0) (h : s.mem a = some n) :
    bpt_node_delete s a = some { s with mem := Function.update s.mem a none } := by
  simp [bpt_node_delete, rd_of_ne h0, h]

/-! ## The order induced by `cmp` -/

theorem lt_irrefl_cmp {cmp : bpt_t → bpt_t → Int} (h : cmp_total cmp) (a : bpt_t) :
    ¬ lt cmp a a := by
  have := (h.eq_iff a a).mpr rfl
  simp [lt, this]

theorem lt_trans_cmp {cmp : bpt_t → bpt_t → Int} (h : cmp_total cmp) {a b c : bpt_t}
    (h1 : lt cmp a b) (h2 : lt cmp b c) : lt cmp a c := h.trans a b c h1 h2

theorem lt_asymm_cmp {cmp : bpt_t → bpt_t → Int} (h : cmp_total cmp) {a b : bpt_t}
    (h1 : lt cmp a b) : ¬ lt cmp b a := fun h2 => lt_irrefl_cmp h a (lt_trans_cmp h h1 h2)

theorem lt_tri_cmp {cmp : bpt_t → bpt_t → Int} (h : cmp_total cmp) (a b : bpt_t) :
    lt cmp a b ∨ a = b ∨ lt cmp b a := by
  rcases lt_trichotomy (cmp a b) 0 with h1 | h1 | h1
  · exact Or.inl h1
  · exact Or.inr (Or.inl ((h.eq_iff a b).mp h1))
  · exact Or.inr (Or.inr ((h.gt_iff a b).mp h1))

theorem lt_of_not_lt_cmp {cmp : bpt_t → bpt_t → Int} (h : cmp_total cmp) {a b : bpt_t}
    (h1 : ¬ lt cmp a b) (h2 : a ≠ b) : lt cmp b a := by
  rcases lt_tri_cmp h a b with h3 | h3 | h3
  · exact absurd h3 h1
  · exact absurd h3 h2
  · exact h3

theorem lt_of_le_of_lt_cmp {cmp : bpt_t → bpt_t → Int} (h : cmp_total cmp) {a b c : bpt_t}
    (h1 : ¬ lt cmp b a) (h2 : lt cmp b c) : lt cmp a c := by
  rcases lt_tri_cmp h a b with h3 | h3 | h3
  · exact lt_trans_cmp h h3 h2
  · subst h3; exact h2
  · exact absurd h3 h1

theorem lt_of_lt_of_le_cmp {cmp : bpt_t → bpt_t → Int} (h : cmp_total cmp) {a b c : bpt_t}
    (h1 : lt cmp a b) (h2 : ¬ lt cmp c b) : lt cmp a c := by
  rcases lt_tri_cmp h b c with h3 | h3 | h3
  · exact lt_trans_cmp h h1 h3
  · subst h3; exact h1
  · exact absurd h3 h2

/-! ## Levels: elementary facts -/

theorem length_node_pairs (lo : Option bpt_t) (n : bpt_node) :
    (node_pairs lo n).length = n.nkey.toNat + 1 := by
  simp [node_pairs]

theorem getElem?_node_pairs (lo : Option bpt_t) (n : bpt_node) (i : Nat) :
    (node_pairs lo n)[i]? = if i ≤ n.nkey.toNat then some (pair_at lo n i) else none := by
  cases i with
  | zero => simp [node_pairs, pair_at]
  | succ j =>
    simp only [node_pairs, List.getElem?_cons_succ, List.getElem?_map, pair_at]
    by_cases h : j < n.nkey.toNat
    · rw [List.getElem?_range h]
      simp [h, Nat.succ_le_of_lt h]
    · rw [List.getElem?_eq_none (by simpa using h)]
      have : ¬ (j + 1 ≤ n.nkey.toNat) := by omega
      simp [this]

theorem length_node_ents (n : bpt_node) : (node_ents n).length = n.nkey.toNat := by
  simp [node_ents]

theorem getElem?_node_ents (n : bpt_node) (i : Nat) :
    (node_ents n)[i]? = if i < n.nkey.toNat then some (n.entries i) else none := by
  simp only [node_ents, List.getElem?_map]
  by_cases h : i < n.nkey.toNat
  · rw [List.getElem?_range h]; simp [h]
  · rw [List.getElem?_eq_none (by simpa using h)]; simp [h]

theorem expand_append (s : State) (l1 l2 : List Item) :
    expand s (l1 ++ l2) = expand s l1 ++ expand s l2 := by
  induction l1 with
  | nil => rfl
  | cons p r ih => simp [expand, ih]

theorem expand_cons_of_mem {s : State} {lo : Option bpt_t} {a : Int} {n : bpt_node}
    (h : s.mem a = some n) (r : List Item) :
    expand s ((lo, a) :: r) = node_pairs lo n ++ expand s r := by
  simp [expand, h]

theorem contents_append (s : State) (l1 l2 : List Int) :
    contents s (l1 ++ l2) = contents s l1 ++ contents s l2 := by
  induction l1 with
  | nil => rfl
  | cons p r ih => simp [contents, ih]

theorem Agree.mono {s t : State} {l l1 : List Int} (h : Agree s t l) (hs : ∀ a ∈ l1, a ∈ l) :
    Agree s t l1 := fun a ha => h a (hs a ha)

theorem Agree.symm_agree {s t : State} {l : List Int} (h : Agree s t l) : Agree t s l :=
  fun a ha => (h a ha).symm

theorem Ext.refl_ext (s : State) : Ext s s := ⟨⟨rfl, rfl, rfl, rfl, rfl⟩, le_refl _⟩

theorem Ext.trans_ext {s t u : State} (h1 : Ext s t) (h2 : Ext t u) : Ext s u := by
  obtain ⟨⟨a1, a2, a3, a4, a5⟩, a6⟩ := h1
  obtain ⟨⟨b1, b2, b3, b4, b5⟩, b6⟩ := h2
  exact ⟨⟨b1.trans a1, b2.trans a2, b3.trans a3, b4.trans a4, b5.trans a5⟩, le_trans a6 b6⟩

theorem Ext.wr (s : State) (a : Int) (n : bpt_node) : Ext s (wr s a n) := Ext.refl_ext s

theorem expand_congr {s t : State} {l : List Item} (h : Agree s t (l.map Prod.snd)) :
    expand t l = expand s l := by
  induction l with
  | nil => rfl
  | cons p r ih =>
    have h1 : t.mem p.2 = s.mem p.2 := h p.2 (by simp)
    have h2 : expand t r = expand s r := ih (fun a ha => h a (by simp at ha ⊢; exact Or.inr ha))
    simp [expand, h1, h2]

theorem leaf_ents_congr {s t : State} {a : Int} (h : t.mem a = s.mem a) :
    leaf_ents t a = leaf_ents s a := by
  simp [leaf_ents, h]

theorem contents_congr {s t : State} {l : List Int} (h : Agree s t l) :
    contents t l = contents s l := by
  induction l with
  | nil => rfl
  | cons p r ih =>
    have h1 : t.mem p = s.mem p := h p (by simp)
    have h2 : contents t r = contents s r := ih (fun a ha => h a (by simp; exact Or.inr ha))
    simp [contents, leaf_ents_congr h1, h2]

theorem NodeOK.congr_node {s t : State} {mn mn1 : Int} {a : Int} (he : Ext s t)
    (h : t.mem a = s.mem a) (hmn : mn1 ≤ mn) (hn : NodeOK s mn a) : NodeOK t mn1 a := by
  obtain ⟨h0, hb, n, hm, hz, h1, h2⟩ := hn
  refine ⟨h0, lt_of_lt_of_le hb he.2, n, h.trans hm, hz, le_trans hmn h1, ?_⟩
  rw [he.1.1]; exact h2

theorem Chain.congr_chain {s t : State} {l : List Int} {q : Int} (h : Agree s t l) :
    ∀ {p : Int}, Chain s p l q → Chain t p l q := by
  induction l with
  | nil => intro p hc; trivial
  | cons a r ih =>
    intro p hc
    obtain ⟨⟨n, hm, hp, hx⟩, hr⟩ := hc
    refine ⟨⟨n, (h a (by simp)).trans hm, hp, hx⟩, ih (fun b hb => h b (by simp; exact Or.inr hb)) hr⟩

theorem InnerOK.congr_inner {s t : State} {mn mn1 : Int} {items : List Item} (he : Ext s t)
    (h : Agree s t (items.map Prod.snd)) (hmn : mn1 ≤ mn) (hi : InnerOK s mn items) :
    InnerOK t mn1 items := by
  refine ⟨fun p hp => NodeOK.congr_node he (h p.2 (List.mem_map_of_mem _ hp)) hmn (hi.1 p hp),
    Chain.congr_chain h hi.2⟩

theorem LeafOK.congr_leaf {s t : State} {cmp : bpt_t → bpt_t → Int} {mn mn1 : Int}
    {items : List Item} (he : Ext s t)
    (h : Agree s t (items.map Prod.snd)) (hmn : mn1 ≤ mn) (hl : LeafOK s cmp mn items) :
    LeafOK t cmp mn1 items := by
  obtain ⟨h1, h2, h3⟩ := hl
  refine ⟨InnerOK.congr_inner he h hmn h1, ?_, ?_⟩
  · rw [contents_congr h]; exact h2
  · intro p hp l hlo
    obtain ⟨n, hm, hk⟩ := h3 p hp l hlo
    exact ⟨n, (h p.2 (List.mem_map_of_mem _ hp)).trans hm, hk⟩

theorem min_leaf_congr {s t : State} (he : Ext s t) (top : Bool) : min_leaf t top = min_leaf s top := by
  simp [min_leaf, he.1.2.2.1]

theorem min_inner_congr {s t : State} (he : Ext s t) (top : Bool) :
    min_inner t top = min_inner s top := by
  simp [min_inner, he.1.2.2.2.2]

theorem nodes_below_congr {s t : State} :
    ∀ (d : Nat) {items : List Item}, Agree s t (nodes_below s d items) →
      nodes_below t d items = nodes_below s d items := by
  intro d
  induction d with
  | zero => intro items _; rfl
  | succ d ih =>
    intro items h
    have h1 : expand t items = expand s items :=
      expand_congr (fun a ha => h a (by simp [nodes_below]; exact Or.inl (by simpa using ha)))
    simp only [nodes_below, h1]
    rw [ih (fun a ha => h a (by simp only [nodes_below, List.mem_append]; exact Or.inr ha))]

theorem level_below_congr {s t : State} :
    ∀ (d : Nat) {items : List Item}, Agree s t (nodes_below s d items) →
      level_below t d items = level_below s d items := by
  intro d
  induction d with
  | zero => intro items _; rfl
  | succ d ih =>
    intro items h
    have h1 : expand t items = expand s items :=
      expand_congr (fun a ha => h a (by simp [nodes_below]; exact Or.inl (by simpa using ha)))
    simp only [level_below, h1]
    exact ih (fun a ha => h a (by simp only [nodes_below, List.mem_append]; exact Or.inr ha))

theorem Below.congr_below {s t : State} {cmp : bpt_t → bpt_t → Int} (he : Ext s t) :
    ∀ (d : Nat) {top : Bool} {items : List Item}, Agree s t (nodes_below s d items) →
      Below s cmp top d items → Below t cmp top d items := by
  intro d
  induction d with
  | zero =>
    intro top items h hb
    exact LeafOK.congr_leaf he h (le_of_eq (min_leaf_congr he top)) hb
  | succ d ih =>
    intro top items h hb
    have hA : Agree s t (items.map Prod.snd) :=
      fun a ha => h a (by simp only [nodes_below, List.mem_append]; exact Or.inl ha)
    have h1 : expand t items = expand s items := expand_congr hA
    refine ⟨InnerOK.congr_inner he hA (le_of_eq (min_inner_congr he top)) hb.1, ?_⟩
    rw [h1]
    exact ih (fun a ha => h a (by simp only [nodes_below, List.mem_append]; exact Or.inr ha)) hb.2

theorem Below.weaken {s : State} {cmp : bpt_t → bpt_t → Int} (hp : ParamsOK s.bstat) :
    ∀ (d : Nat) {items : List Item}, Below s cmp false d items → Below s cmp true d items := by
  intro d
  obtain ⟨h3, h4, h5, h6, h7⟩ := hp
  have hdiv : Int.tdiv s.bstat.order 2 = s.bstat.order / 2 :=
    Int.tdiv_eq_ediv (by omega) (by omega)
  cases d with
  | zero =>
    intro items hb
    refine LeafOK.congr_leaf (Ext.refl_ext s) (fun _ _ => rfl) ?_ hb
    simp only [min_leaf]; simp; omega
  | succ d =>
    intro items hb
    refine ⟨InnerOK.congr_inner (Ext.refl_ext s) (fun _ _ => rfl) ?_ hb.1, hb.2⟩
    simp only [min_inner]; simp; omega

/-! ## The journal as a path from the root -/

theorem SameTree.refl_same (s : State) : SameTree s s := ⟨rfl, rfl, rfl⟩

theorem SameTree.trans_same {s t u : State} (h1 : SameTree s t) (h2 : SameTree t u) : SameTree s u :=
  ⟨h2.1.trans h1.1, h2.2.1.trans h1.2.1, h2.2.2.trans h1.2.2⟩

theorem SameTree.agree {s t : State} (h : SameTree s t) (l : List Int) : Agree s t l :=
  fun a _ => by rw [h.1]

theorem SameTree.ext {s t : State} (h : SameTree s t) : Ext s t := by
  refine ⟨⟨?_, ?_, ?_, ?_, ?_⟩, le_of_eq h.2.2.symm⟩ <;> rw [h.2.1]

theorem alloc_request_same (s : State) : SameTree s (alloc_request s).2 := by
  unfold alloc_request
  cases s.alloc <;> exact ⟨rfl, rfl, rfl⟩

theorem alloc_request_nil {s : State} (h : s.alloc = []) : alloc_request s = (true, s) := by
  simp [alloc_request, h]

theorem alloc_request_alloc (s : State) : s.alloc = [] → (alloc_request s).2.alloc = [] := by
  intro h; rw [alloc_request_nil h]; exact h

theorem alloc_request_false {s : State} (h : (alloc_request s).1 = false) : s.alloc ≠ [] := by
  intro h1; rw [alloc_request_nil h1] at h; simp at h

theorem getElem?_pairs_at {lo : Option bpt_t} {n : bpt_node} {off : Int} (h0 : 0 ≤ off)
    (h1 : off ≤ n.nkey) :
    (node_pairs lo n)[off.toNat]? =
      some (if off = 0 then lo else some (n.entries (off - 1)).key, (n.entries off).val) := by
  rw [getElem?_node_pairs, if_pos (by omega)]
  simp only [pair_at]
  by_cases h : off = 0
  · subst h; simp
  · have : off.toNat ≠ 0 := by omega
    have h2 : ((off.toNat : Nat) : Int) = off := Int.toNat_of_nonneg h0
    simp [this, h, h2]

theorem take_append_getElem_drop {α : Type} (l : List α) (i : Nat) (x : α) (h : l[i]? = some x) :
    l.take i ++ x :: l.drop (i + 1) = l := by
  have hi : i < l.length := by
    by_contra hc
    rw [List.getElem?_eq_none (by omega)] at h
    exact absurd h (by simp)
  have hx : l[i] = x := by
    rw [List.getElem?_eq_getElem hi] at h
    exact Option.some.inj h
  rw [← hx]
  simp

/-- The focus of a step of the path splits the children of the node. -/
theorem pairs_split {lo : Option bpt_t} {n : bpt_node} {off : Int} (h0 : 0 ≤ off)
    (h1 : off ≤ n.nkey) :
    (node_pairs lo n).take off.toNat ++
      (if off = 0 then lo else some (n.entries (off - 1)).key, (n.entries off).val) ::
        (node_pairs lo n).drop (off.toNat + 1) = node_pairs lo n :=
  take_append_getElem_drop _ _ _ (getElem?_pairs_at h0 h1)

theorem expand_focus {s : State} {X Y : List Item} {lo : Option bpt_t} {a : Int} {n : bpt_node}
    {off : Int} (hm : s.mem a = some n) (h0 : 0 ≤ off) (h1 : off ≤ n.nkey) :
    (expand s X ++ (node_pairs lo n).take off.toNat) ++
      (if off = 0 then lo else some (n.entries (off - 1)).key, (n.entries off).val) ::
        ((node_pairs lo n).drop (off.toNat + 1) ++ expand s Y) =
    expand s (X ++ (lo, a) :: Y) := by
  rw [expand_append, expand_cons_of_mem hm]
  conv_rhs => rw [← @pairs_split lo n off h0 h1]
  simp

theorem Ctx.lift {s : State} {cmp : bpt_t → bpt_t → Int} {stk : gen_stk} {U : List Int}
    {X Y : List Item} {lo : Option bpt_t} {a : Int} (hc : Ctx s stk U X lo a Y) :
    ∀ d, Below s cmp stk.isEmpty d (X ++ (lo, a) :: Y) →
      Below s cmp true (stk.length + d) [(none, s.bstat.root_node)] := by
  induction hc with
  | root => intro d h; simpa using h
  | @step stk U X lo a Y n off _ hm hi _ h0 h1 ih =>
    intro d h
    have h2 : Below s cmp stk.isEmpty (d + 1) (X ++ (lo, a) :: Y) := by
      refine ⟨hi, ?_⟩
      rw [← expand_focus hm h0 h1]
      simpa using h
    have := ih (d + 1) h2
    simpa [Nat.add_assoc, Nat.add_comm 1 d] using this

theorem Ctx.nodes {s : State} {stk : gen_stk} {U : List Int}
    {X Y : List Item} {lo : Option bpt_t} {a : Int} (hc : Ctx s stk U X lo a Y) :
    ∀ d, nodes_below s (stk.length + d) [(none, s.bstat.root_node)] =
      U ++ nodes_below s d (X ++ (lo, a) :: Y) := by
  induction hc with
  | root => intro d; simp
  | @step stk U X lo a Y n off _ hm hi _ h0 h1 ih =>
    intro d
    have := ih (d + 1)
    rw [show (({ node := a, offset := off } : bpt_frm) :: stk).length + d = stk.length + (d + 1) by
      simp; omega, this]
    simp only [nodes_below, List.append_assoc]
    rw [← expand_focus hm h0 h1, List.append_assoc]

theorem Ctx.level {s : State} {stk : gen_stk} {U : List Int}
    {X Y : List Item} {lo : Option bpt_t} {a : Int} (hc : Ctx s stk U X lo a Y) :
    ∀ d, level_below s (stk.length + d) [(none, s.bstat.root_node)] =
      level_below s d (X ++ (lo, a) :: Y) := by
  induction hc with
  | root => intro d; simp
  | @step stk U X lo a Y n off _ hm hi _ h0 h1 ih =>
    intro d
    have := ih (d + 1)
    rw [show (({ node := a, offset := off } : bpt_frm) :: stk).length + d = stk.length + (d + 1) by
      simp; omega, this]
    simp only [level_below]
    rw [← expand_focus hm h0 h1]

theorem Ctx.frame {s t : State} {stk : gen_stk} {U : List Int}
    {X Y : List Item} {lo : Option bpt_t} {a : Int} (hc : Ctx s stk U X lo a Y)
    (he : Ext s t) (hr : t.bstat.root_node = s.bstat.root_node) (hA : Agree s t U) :
    Ctx t stk U X lo a Y := by
  induction hc with
  | root => rw [← hr]; exact Ctx.root
  | @step stk U X lo a Y n off _ hm hi hnd h0 h1 ih =>
    have hAU : Agree s t U := fun b hb => hA b (by simp; exact Or.inl hb)
    have hAL : Agree s t ((X ++ (lo, a) :: Y).map Prod.snd) :=
      fun b hb => hA b (List.mem_append_right _ hb)
    have hAX : Agree s t (X.map Prod.snd) :=
      fun b hb => hAL b (by simp at hb ⊢; exact Or.inl hb)
    have hAY : Agree s t (Y.map Prod.snd) :=
      fun b hb => hAL b (by simp at hb ⊢; exact Or.inr (Or.inr hb))
    have hma : t.mem a = some n := (hAL a (by simp)).trans hm
    have := Ctx.step n off (ih hAU) hma
      (InnerOK.congr_inner he hAL (le_of_eq (min_inner_congr he _)) hi) hnd h0 h1
    rw [expand_congr hAX, expand_congr hAY] at this
    exact this

theorem Sep.expand_sep {s : State} {L : List Item} (h : Sep L)
    (hv : ∀ p ∈ L, ∃ n, s.mem p.2 = some n) : Sep (expand s L) := by
  obtain ⟨c, r, rfl, hr⟩ := h
  obtain ⟨n, hn⟩ := hv (none, c) (by simp)
  refine ⟨(n.entries 0).val,
    ((List.range n.nkey.toNat).map fun (i : Nat) =>
      ((some (n.entries (i : Int)).key, (n.entries ((i : Int) + 1)).val) : Item)) ++ BPT.expand s r,
    ?_, ?_⟩
  · rw [expand_cons_of_mem hn]
    simp only [node_pairs, List.cons_append]
  · intro p hp
    rw [List.mem_append] at hp
    rcases hp with hp | hp
    · simp only [List.mem_map] at hp
      obtain ⟨i, _, rfl⟩ := hp
      exact ⟨_, rfl⟩
    · clear hn hv
      induction r with
      | nil => simp [BPT.expand] at hp
      | cons q r ih =>
        simp only [BPT.expand, List.mem_append] at hp
        rcases hp with hp | hp
        · obtain ⟨l, hl⟩ := hr q (by simp)
          cases hq : s.mem q.2 with
          | none => simp [hq] at hp
          | some m =>
            simp only [hq, node_pairs, List.mem_cons, List.mem_map] at hp
            rcases hp with rfl | ⟨i, _, rfl⟩
            · exact ⟨l, hl⟩
            · exact ⟨_, rfl⟩
        · exact ih (fun p hp => hr p (by simp; exact Or.inr hp)) hp

theorem Ctx.sep {s : State} {stk : gen_stk} {U : List Int}
    {X Y : List Item} {lo : Option bpt_t} {a : Int} (hc : Ctx s stk U X lo a Y) :
    Sep (X ++ (lo, a) :: Y) := by
  induction hc with
  | root => exact ⟨_, [], rfl, by simp⟩
  | @step stk U X lo a Y n off _ hm hi _ h0 h1 ih =>
    rw [expand_focus hm h0 h1]
    refine Sep.expand_sep ih ?_
    intro p hp
    obtain ⟨_, _, m, hm, _⟩ := hi.1 p hp
    exact ⟨m, hm⟩

theorem Sep.lo_none {X Y : List Item} {lo : Option bpt_t} {a : Int}
    (h : Sep (X ++ (lo, a) :: Y)) : lo = none ↔ X = [] := by
  obtain ⟨c, r, he, hr⟩ := h
  constructor
  · intro hl
    cases X with
    | nil => rfl
    | cons x X1 =>
      simp only [List.cons_append, List.cons.injEq] at he
      obtain ⟨l, hl1⟩ := hr (lo, a) (by rw [← he.2]; simp)
      simp [hl] at hl1
  · intro hX
    subst hX
    simp only [List.nil_append, List.cons.injEq, Prod.mk.injEq] at he
    exact he.1.1

theorem Sep.right {X Y : List Item} {lo : Option bpt_t} {a : Int}
    (h : Sep (X ++ (lo, a) :: Y)) : ∀ p ∈ Y, ∃ l, p.1 = some l := by
  obtain ⟨c, r, he, hr⟩ := h
  intro p hp
  cases X with
  | nil =>
    simp only [List.nil_append, List.cons.injEq] at he
    exact hr p (by rw [← he.2]; exact hp)
  | cons x X1 =>
    simp only [List.cons_append, List.cons.injEq] at he
    exact hr p (by rw [← he.2]; simp; exact Or.inr (Or.inr hp))

theorem Sep.left_last {X Y : List Item} {lo : Option bpt_t} {a : Int}
    (h : Sep (X ++ (lo, a) :: Y)) (hX : X ≠ []) : ∃ l, lo = some l := by
  cases hlo : lo with
  | none => exact absurd ((Sep.lo_none h).mp hlo) hX
  | some l => exact ⟨l, rfl⟩

/-! ## The descent -/

theorem SameTree.symm_same {s t : State} (h : SameTree s t) : SameTree t s :=
  ⟨h.1.symm, h.2.1.symm, h.2.2.symm⟩

theorem SameTree.ctx {s t : State} (h : SameTree s t) {stk : gen_stk} {U : List Int}
    {X Y : List Item} {lo : Option bpt_t} {a : Int} (hc : Ctx s stk U X lo a Y) :
    Ctx t stk U X lo a Y :=
  hc.frame h.ext (by rw [h.2.1]) (h.agree _)

theorem SameTree.below {s t : State} (h : SameTree s t) {cmp : bpt_t → bpt_t → Int} {top : Bool}
    {d : Nat} {items : List Item} (hb : Below s cmp top d items) : Below t cmp top d items :=
  Below.congr_below h.ext d (h.agree _) hb

theorem SameTree.nodes_same {s t : State} (h : SameTree s t) (d : Nat) (items : List Item) :
    nodes_below t d items = nodes_below s d items :=
  nodes_below_congr d (h.agree _)

theorem SameTree.expand_same {s t : State} (h : SameTree s t) (items : List Item) :
    expand t items = expand s items :=
  expand_congr (h.agree _)

theorem scan_lt_spec (cmp : bpt_t → bpt_t → Int) (k : bpt_t) (e : Int → bpt_entry) (m : Int) :
    ∀ (fuel : Nat) (i0 : Int), m - i0 ≤ fuel →
      i0 ≤ scan_lt cmp k e m fuel i0 ∧ (i0 ≤ m → scan_lt cmp k e m fuel i0 ≤ m) ∧
      (∀ j, i0 ≤ j → j < scan_lt cmp k e m fuel i0 → ¬ cmp k (e j).key < 0) ∧
      (scan_lt cmp k e m fuel i0 < m → cmp k (e (scan_lt cmp k e m fuel i0)).key < 0) := by
  intro fuel
  induction fuel with
  | zero =>
    intro i0 h
    simp only [scan_lt]
    refine ⟨le_refl _, fun h => h, fun j h1 h2 => by omega, fun h2 => ?_⟩
    simp at h; omega
  | succ f ih =>
    intro i0 h
    simp only [scan_lt]
    by_cases h1 : i0 < m
    · rw [if_pos h1]
      by_cases h2 : cmp k (e i0).key < 0
      · rw [if_pos h2]
        exact ⟨le_refl _, fun h => h, fun j h1 h2 => by omega, fun _ => h2⟩
      · rw [if_neg h2]
        obtain ⟨a1, a2, a3, a4⟩ := ih (i0 + 1) (by push_cast at h; omega)
        refine ⟨by omega, fun _ => a2 (by omega), fun j hj1 hj2 => ?_, a4⟩
        by_cases hj : j = i0
        · subst hj; exact h2
        · exact a3 j (by omega) hj2
    · rw [if_neg h1]
      exact ⟨le_refl _, fun h => h, fun j h1 h2 => by omega, fun h2 => absurd h2 h1⟩

theorem choose_slot_spec (cmp : bpt_t → bpt_t → Int) (k : bpt_t) {s : State} {a : Int}
    {n : bpt_node} (h0 : a ≠ 0) (hm : s.mem a = some n) (h1 : 0 ≤ n.nkey)
    (h2 : n.nkey ≤ s.bstat.order) :
    ∃ i, choose_slot cmp k s a = some (i, (n.entries i).val) ∧ 0 ≤ i ∧ i ≤ n.nkey ∧
      (∀ j, 0 ≤ j → j < i → ¬ lt cmp k (n.entries j).key) ∧
      (i < n.nkey → lt cmp k (n.entries i).key) := by
  obtain ⟨a1, a2, a3, a4⟩ := scan_lt_spec cmp k n.entries n.nkey n.nkey.toNat 0 (by
    rw [Int.toNat_of_nonneg h1]; omega)
  refine ⟨scan_lt cmp k n.entries n.nkey n.nkey.toNat 0, ?_, a1, a2 h1, a3, a4⟩
  simp [choose_slot, rd_of_ne h0, hm, h1, h2]

theorem hi_of_expand {s : State} {Y : List Item}
    (hv : ∀ p ∈ Y, ∃ n, s.mem p.2 = some n) : hi_of (expand s Y) = hi_of Y := by
  cases Y with
  | nil => rfl
  | cons p r =>
    obtain ⟨n, hn⟩ := hv p (by simp)
    simp [expand, hn, node_pairs, hi_of]

theorem hi_of_drop_pairs {lo : Option bpt_t} {n : bpt_node} {i : Int} (h0 : 0 ≤ i)
    (h1 : i < n.nkey) (r : List Item) :
    hi_of ((node_pairs lo n).drop (i.toNat + 1) ++ r) = some (n.entries i).key := by
  have h : (node_pairs lo n)[i.toNat + 1]? = some (pair_at lo n (i.toNat + 1)) := by
    rw [getElem?_node_pairs, if_pos (by omega)]
  have hlen : i.toNat + 1 < (node_pairs lo n).length := by
    rw [length_node_pairs]; omega
  rw [List.drop_eq_getElem_cons hlen]
  rw [List.getElem?_eq_getElem hlen] at h
  rw [Option.some.inj h]
  simp only [List.cons_append, hi_of, pair_at]
  have h2 : ((i.toNat : Nat) : Int) = i := Int.toNat_of_nonneg h0
  simp [h2]

theorem drop_pairs_nil {lo : Option bpt_t} {n : bpt_node} {i : Int} (h0 : 0 ≤ i)
    (h1 : i = n.nkey) : (node_pairs lo n).drop (i.toNat + 1) = [] := by
  apply List.drop_eq_nil_of_le
  rw [length_node_pairs, h1]

theorem gen_stk_store_frames {bld : bpt_build} {stk o : stk_obj} {frm : bpt_frm}
    (h : gen_stk_store bld stk frm = some o) : o.frames = frm :: stk.frames := by
  unfold gen_stk_store at h
  split_ifs at h
  simp only [Option.some.injEq] at h
  rw [← h]

/-- A push onto a stack with room stores the frame: it asks for no memory and
leaves the state as it is. -/
theorem gen_stk_push_room {bld : bpt_build} {stk : stk_obj} {d : Nat}
    (h : Room bld stk (d + 1)) (s : State) (frm : bpt_frm) :
    gen_stk_push bld s stk frm = some (some { stk with frames := frm :: stk.frames }, s) ∧
      Room bld { stk with frames := frm :: stk.frames } d := by
  rcases h with h | ⟨h1, h2, h3⟩
  · omega
  · have hlt : ¬ stk.frames.length ≥ stk.cap := by omega
    have hb : (stk.frames.length + 1) * stk.uni_siz ≤ stk.bytes :=
      le_trans (Nat.mul_le_mul_right _ (by omega)) h3
    refine ⟨?_, Or.inr ⟨h1, ?_, ?_⟩⟩
    · simp only [gen_stk_push, if_neg hlt, gen_stk_store, h1, true_and]
      rw [h1] at hb
      simp only [if_pos hb, Option.map_some']
    · simp only [List.length_cons]; omega
    · simp only [List.length_cons]
      rw [Nat.add_assoc, Nat.add_comm 1 d]; exact h3

/-- Whatever a push returns, the tree is the same afterwards, a refusal comes
from the allocator, and the stack returned holds the frame on top. -/
theorem gen_stk_push_inv {bld : bpt_build} {s t : State} {stk : stk_obj} {frm : bpt_frm}
    {r : Option stk_obj} (h : gen_stk_push bld s stk frm = some (r, t)) :
    SameTree s t ∧ (s.alloc = [] → t = s) ∧ (r = none → s.alloc ≠ []) ∧
      ∀ o, r = some o → o.frames = frm :: stk.frames := by
  unfold gen_stk_push at h
  by_cases hg : stk.frames.length ≥ stk.cap
  · simp only [if_pos hg] at h
    have hsame := alloc_request_same s
    by_cases hal : (alloc_request s).1 = true
    · simp only [hal, if_true] at h
      cases hst : gen_stk_store bld
          { stk with cap := (stk.cap + stk.init_cap) % 2 ^ 64,
                     bytes := (stk.cap + stk.init_cap) % 2 ^ 64 } frm with
      | none => rw [hst] at h; simp at h
      | some o =>
        rw [hst] at h
        simp only [Option.map_some', Option.some.injEq, Prod.mk.injEq] at h
        obtain ⟨h1, h2⟩ := h
        subst h1 h2
        refine ⟨hsame, fun h0 => by rw [alloc_request_nil h0], fun h => by simp at h, ?_⟩
        intro o1 ho1
        simp only [Option.some.injEq] at ho1
        subst ho1
        exact (gen_stk_store_frames hst :)
    · have hal1 : (alloc_request s).1 = false := by simpa using hal
      simp only [hal1, Bool.false_eq_true, if_false, Option.some.injEq, Prod.mk.injEq] at h
      obtain ⟨h1, h2⟩ := h
      subst h1 h2
      exact ⟨hsame, fun h0 => by rw [alloc_request_nil h0], fun _ => alloc_request_false hal1,
        fun o ho => by simp at ho⟩
  · simp only [if_neg hg] at h
    cases hst : gen_stk_store bld stk frm with
    | none => rw [hst] at h; simp at h
    | some o =>
      rw [hst] at h
      simp only [Option.map_some', Option.some.injEq, Prod.mk.injEq] at h
      obtain ⟨h1, h2⟩ := h
      subst h1 h2
      refine ⟨SameTree.refl_same s, fun _ => rfl, fun h => by simp at h, ?_⟩
      intro o1 ho1
      simp only [Option.some.injEq] at ho1
      subst ho1
      exact gen_stk_store_frames hst

theorem descend_spec {cmp : bpt_t → bpt_t → Int} (bld : bpt_build) (k : bpt_t) :
    ∀ (d : Nat) (s : State) (obj : stk_obj) (U : List Int) (X : List Item) (lo : Option bpt_t)
      (a : Int) (Y : List Item),
      Ctx s obj.frames U X lo a Y → Below s cmp obj.frames.isEmpty d (X ++ (lo, a) :: Y) →
      (U ++ nodes_below s d (X ++ (lo, a) :: Y)).Nodup → Bounded cmp k lo Y →
      (Room bld obj d → ∃ leaf st,
        journal_descend bld cmp k d s a obj = some (some (leaf, { obj with frames := st }), s)) ∧
      ∀ res t, journal_descend bld cmp k d s a obj = some (res, t) → SameTree s t ∧
        (s.alloc = [] → t.alloc = []) ∧ (res = none → s.alloc ≠ []) ∧
        ∀ leaf o1, res = some (leaf, o1) →
          ∃ U1 X1 lo1 Y1, Ctx t o1.frames U1 X1 lo1 leaf Y1 ∧
            o1.frames.length = obj.frames.length + d ∧
            LeafOK t cmp (min_leaf t o1.frames.isEmpty) (X1 ++ (lo1, leaf) :: Y1) ∧
            (U1 ++ (X1 ++ (lo1, leaf) :: Y1).map Prod.snd).Nodup ∧ Bounded cmp k lo1 Y1 ∧
            U1 ++ (X1 ++ (lo1, leaf) :: Y1).map Prod.snd =
              U ++ nodes_below s d (X ++ (lo, a) :: Y) := by
  intro d
  induction d with
  | zero =>
    intro s obj U X lo a Y hc hb hnd hbd
    refine ⟨fun _ => ⟨a, obj.frames, rfl⟩, ?_⟩
    intro res t h
    simp only [journal_descend, Option.some.injEq, Prod.mk.injEq] at h
    obtain ⟨h1, h2⟩ := h
    subst h1 h2
    refine ⟨SameTree.refl_same s, fun h => h, fun h => by simp at h, ?_⟩
    intro leaf o1 h
    simp only [Option.some.injEq, Prod.mk.injEq] at h
    obtain ⟨h1, h2⟩ := h
    subst h1 h2
    exact ⟨U, X, lo, Y, hc, rfl, hb, hnd, hbd, rfl⟩
  | succ d ih =>
    intro s obj U X lo a Y hc hb hnd hbd
    obtain ⟨hi, hb2⟩ := hb
    obtain ⟨ha0, _, n, hm, hn0, hn1, hn2⟩ := hi.1 (lo, a) (by simp)
    obtain ⟨i, hcs, hi0, hi1, hlow, hhigh⟩ := choose_slot_spec cmp k ha0 hm hn0 hn2
    have hnd1 : (U ++ (X ++ (lo, a) :: Y).map Prod.snd).Nodup := by
      simp only [nodes_below] at hnd
      rw [← List.append_assoc] at hnd
      exact (List.nodup_append.mp hnd).1
    have hc1 : Ctx s (⟨a, i⟩ :: obj.frames) _ _ _ _ _ := Ctx.step n i hc hm hi hnd1 hi0 hi1
    have hb3 := hb2
    rw [← @expand_focus _ X Y lo _ _ _ hm hi0 hi1] at hb3
    have hnd2 := hnd
    simp only [nodes_below] at hnd2
    rw [← List.append_assoc, ← @expand_focus _ X Y lo _ _ _ hm hi0 hi1] at hnd2
    have hbd1 : Bounded cmp k (if i = 0 then lo else some (n.entries (i - 1)).key)
        ((node_pairs lo n).drop (i.toNat + 1) ++ expand s Y) := by
      constructor
      · intro l hl
        by_cases h0 : i = 0
        · rw [if_pos h0] at hl; exact hbd.1 l hl
        · rw [if_neg h0] at hl
          simp only [Option.some.injEq] at hl
          rw [← hl]
          exact hlow (i - 1) (by omega) (by omega)
      · intro h hh
        by_cases hlt : i < n.nkey
        · rw [hi_of_drop_pairs hi0 hlt] at hh
          simp only [Option.some.injEq] at hh
          rw [← hh]; exact hhigh hlt
        · rw [drop_pairs_nil hi0 (by omega), List.nil_append, hi_of_expand] at hh
          · exact hbd.2 h hh
          · intro p hp
            obtain ⟨_, _, m, hm1, _⟩ := hi.1 p (by simp; exact Or.inr (Or.inr hp))
            exact ⟨m, hm1⟩
    constructor
    · intro hroom
      obtain ⟨hp, hroom1⟩ := gen_stk_push_room hroom s ⟨a, i⟩
      obtain ⟨leaf, st, hrun⟩ :=
        (ih s { obj with frames := ⟨a, i⟩ :: obj.frames } _ _ _ _ _ hc1 (by simpa using hb3)
          hnd2 hbd1).1 hroom1
      exact ⟨leaf, st, by simp only [journal_descend, hcs, hp]; exact hrun⟩
    · intro res t h
      simp only [journal_descend, hcs] at h
      cases hp : gen_stk_push bld s obj ⟨a, i⟩ with
      | none => rw [hp] at h; simp at h
      | some p =>
        obtain ⟨r, s1⟩ := p
        rw [hp] at h
        obtain ⟨q1, q2, q3, q4⟩ := gen_stk_push_inv hp
        have q2a : s.alloc = [] → s1.alloc = [] := fun h0 => by rw [q2 h0]; exact h0
        cases r with
        | none =>
          simp only [Option.some.injEq, Prod.mk.injEq] at h
          obtain ⟨h1, h2⟩ := h
          subst h1 h2
          exact ⟨q1, q2a, fun _ => q3 rfl, fun leaf o1 h => by simp at h⟩
        | some o =>
          simp only at h
          have ho := q4 o rfl
          have c0 := q1.ctx hc1
          rw [← ho] at c0
          obtain ⟨h2, h3, h4, h5⟩ :=
            (ih s1 o _ _ _ _ _ c0 (by rw [ho]; exact q1.below (by simpa using hb3))
              (by rw [q1.nodes_same]; exact hnd2) hbd1).2 res t h
          refine ⟨q1.trans_same h2, fun h => h3 (q2a h), fun hres hal => h4 hres (q2a hal), ?_⟩
          intro leaf o1 hres
          obtain ⟨U1, X1, lo1, Y1, c1, c2, c3, c4, c5, c6⟩ := h5 leaf o1 hres
          refine ⟨U1, X1, lo1, Y1, c1, ?_, c3, c4, c5, ?_⟩
          · rw [c2, ho]; simp only [List.length_cons]; omega
          · rw [c6, q1.nodes_same]
            simp only [nodes_below, List.append_assoc]
            rw [← @expand_focus _ X Y lo _ _ _ hm hi0 hi1, List.append_assoc]

/-! ## From the leaf level back to the whole tree -/

theorem WF_of_leaf {cmp : bpt_t → bpt_t → Int} {t : State} {stk : gen_stk} {U : List Int}
    {X Y : List Item} {lo : Option bpt_t} {a : Int}
    (hp : ParamsOK t.bstat) (hb : 0 < t.brk) (hc : Ctx t stk U X lo a Y)
    (hlen : stk.length = t.bstat.height)
    (hl : LeafOK t cmp (min_leaf t stk.isEmpty) (X ++ (lo, a) :: Y))
    (hnd : (U ++ (X ++ (lo, a) :: Y).map Prod.snd).Nodup) : WF cmp t := by
  refine ⟨hp, hb, ?_, ?_⟩
  · have := @Ctx.lift _ cmp _ _ _ _ _ _ hc 0 hl
    rwa [Nat.add_zero, hlen] at this
  · have := hc.nodes 0
    rw [Nat.add_zero, hlen] at this
    rw [this]
    exact hnd

theorem tree_entries_of_ctx {t : State} {stk : gen_stk} {U : List Int}
    {X Y : List Item} {lo : Option bpt_t} {a : Int} (hc : Ctx t stk U X lo a Y)
    (hlen : stk.length = t.bstat.height) :
    tree_entries t = contents t ((X ++ (lo, a) :: Y).map Prod.snd) := by
  have := hc.level 0
  rw [Nat.add_zero, hlen] at this
  simp only [tree_entries, this, level_below]

/-- The descent of `bpt_insert` and `bpt_searchr` on a well-formed tree: it
returns when the stack has room for the journal, and whenever it returns the
journal describes the path to the leaf. -/
theorem descend_root {cmp : bpt_t → bpt_t → Int} {s : State} (hw : WF cmp s) (bld : bpt_build)
    (k : bpt_t) (obj : stk_obj) (h0 : obj.frames = []) :
    (Room bld obj s.bstat.height → ∃ leaf st,
      journal_descend bld cmp k s.bstat.height s s.bstat.root_node obj =
        some (some (leaf, { obj with frames := st }), s)) ∧
    ∀ res t, journal_descend bld cmp k s.bstat.height s s.bstat.root_node obj = some (res, t) →
      SameTree s t ∧ (s.alloc = [] → t.alloc = []) ∧ (res = none → s.alloc ≠ []) ∧
      ∀ leaf o1, res = some (leaf, o1) →
        ∃ U X lo Y, Ctx t o1.frames U X lo leaf Y ∧ o1.frames.length = t.bstat.height ∧
          LeafOK t cmp (min_leaf t o1.frames.isEmpty) (X ++ (lo, leaf) :: Y) ∧
          (U ++ (X ++ (lo, leaf) :: Y).map Prod.snd).Nodup ∧ Bounded cmp k lo Y := by
  obtain ⟨hp, hb, hbel, hnd⟩ := hw
  obtain ⟨g1, g2⟩ :=
    @descend_spec cmp bld k s.bstat.height s obj [] [] none s.bstat.root_node []
      (by rw [h0]; exact Ctx.root) (by rw [h0]; simpa using hbel) (by simpa using hnd)
      ⟨fun l h => by simp at h, fun h hh => by simp [hi_of] at hh⟩
  refine ⟨g1, ?_⟩
  intro res t hrun
  obtain ⟨h2, h3, h4, h5⟩ := g2 res t hrun
  refine ⟨h2, h3, h4, ?_⟩
  intro leaf o1 hres
  obtain ⟨U, X, lo, Y, c1, c2, c3, c4, c5, _⟩ := h5 leaf o1 hres
  refine ⟨U, X, lo, Y, c1, ?_, c3, c4, c5⟩
  rw [c2, h2.2.1, h0]; simp

/-- The descent on a well-formed tree with a stack that has room for the
journal: it returns the leaf and the journal, and changes nothing. -/
theorem descend_fit {cmp : bpt_t → bpt_t → Int} {s : State} (hw : WF cmp s) {bld : bpt_build}
    (k : bpt_t) {obj : stk_obj} (h0 : obj.frames = []) (hroom : Room bld obj s.bstat.height) :
    ∃ leaf stk, journal_descend bld cmp k s.bstat.height s s.bstat.root_node obj =
        some (some (leaf, { obj with frames := stk }), s) ∧
      ∃ U X lo Y, Ctx s stk U X lo leaf Y ∧ stk.length = s.bstat.height ∧
        LeafOK s cmp (min_leaf s stk.isEmpty) (X ++ (lo, leaf) :: Y) ∧
        (U ++ (X ++ (lo, leaf) :: Y).map Prod.snd).Nodup ∧ Bounded cmp k lo Y := by
  obtain ⟨g1, g2⟩ := descend_root hw bld k obj h0
  obtain ⟨leaf, st, hrun⟩ := g1 hroom
  obtain ⟨-, -, -, h5⟩ := g2 _ _ hrun
  exact ⟨leaf, st, hrun, h5 leaf _ rfl⟩

theorem leaf_scan_spec (cmp : bpt_t → bpt_t → Int) (k : bpt_t) (e : Int → bpt_entry) (m : Int) :
    ∀ (fuel : Nat) (i0 : Int), m - i0 ≤ fuel →
      i0 ≤ (leaf_scan cmp k e m fuel i0).1 ∧ (i0 ≤ m → (leaf_scan cmp k e m fuel i0).1 ≤ m) ∧
      (∀ j, i0 ≤ j → j < (leaf_scan cmp k e m fuel i0).1 → 0 < cmp k (e j).key) ∧
      ((leaf_scan cmp k e m fuel i0).2 = true →
        (leaf_scan cmp k e m fuel i0).1 < m ∧ cmp k (e (leaf_scan cmp k e m fuel i0).1).key = 0) ∧
      ((leaf_scan cmp k e m fuel i0).2 = false → (leaf_scan cmp k e m fuel i0).1 < m →
        cmp k (e (leaf_scan cmp k e m fuel i0).1).key < 0) := by
  intro fuel
  induction fuel with
  | zero =>
    intro i0 h
    simp only [leaf_scan]
    refine ⟨le_refl _, fun h => h, fun j h1 h2 => by omega, fun h2 => by simp at h2, fun _ h2 => ?_⟩
    simp at h; omega
  | succ f ih =>
    intro i0 h
    simp only [leaf_scan]
    by_cases h1 : i0 < m
    · rw [if_pos h1]
      by_cases h2 : cmp k (e i0).key < 0
      · rw [if_pos h2]
        exact ⟨le_refl _, fun h => h, fun j h1 h2 => by omega, fun h3 => by simp at h3,
          fun _ _ => h2⟩
      · rw [if_neg h2]
        by_cases h3 : cmp k (e i0).key = 0
        · rw [if_pos h3]
          exact ⟨le_refl _, fun h => h, fun j h1 h2 => by omega, fun _ => ⟨h1, h3⟩,
            fun h4 => by simp at h4⟩
        · rw [if_neg h3]
          obtain ⟨a1, a2, a3, a4, a5⟩ := ih (i0 + 1) (by push_cast at h; omega)
          refine ⟨by omega, fun _ => a2 (by omega), fun j hj1 hj2 => ?_, a4, a5⟩
          by_cases hj : j = i0
          · subst hj; omega
          · exact a3 j (by omega) hj2
    · rw [if_neg h1]
      exact ⟨le_refl _, fun h => h, fun j h1 h2 => by omega, fun h2 => by simp at h2,
        fun _ h2 => absurd h2 h1⟩

/-! ## Sibling chains and the leaf level -/

theorem chain_append {s : State} (l1 l2 : List Int) (q : Int) :
    ∀ p, Chain s p (l1 ++ l2) q ↔ Chain s p l1 (l2.headD q) ∧ Chain s (l1.getLastD p) l2 q := by
  induction l1 with
  | nil => intro p; simp [Chain]
  | cons a r ih =>
    intro p
    cases r with
    | nil => simp [Chain]
    | cons b r1 =>
      have h1 := ih a
      have h2 : (a :: b :: r1).getLastD p = (b :: r1).getLastD a := rfl
      rw [h2]
      simp only [List.cons_append] at h1 ⊢
      simp only [Chain] at h1 ⊢
      rw [h1]
      simp [and_assoc]

theorem Chain.link_chain {s t : State} {l : List Int} {q : Int}
    (h : ∀ a ∈ l, LinkEq s t a) : ∀ {p : Int}, Chain s p l q → Chain t p l q := by
  induction l with
  | nil => intro p hc; trivial
  | cons a r ih =>
    intro p hc
    obtain ⟨⟨n, hm, hp, hx⟩, hr⟩ := hc
    obtain ⟨m, hm1, hp1, hx1⟩ := h a (by simp) n hm
    exact ⟨⟨m, hm1, hp1.trans hp, hx1.trans hx⟩, ih (fun b hb => h b (by simp; exact Or.inr hb)) hr⟩

theorem LinkEq.of_eq {s t : State} {a : Int} (h : t.mem a = s.mem a) : LinkEq s t a :=
  fun n hn => ⟨n, h.trans hn, rfl, rfl⟩

theorem mem_node_ents {n : bpt_node} {x : bpt_entry} :
    x ∈ node_ents n ↔ ∃ j : Nat, (j : Int) < n.nkey ∧ x = n.entries j := by
  simp only [node_ents, List.mem_map, List.mem_range]
  constructor
  · rintro ⟨j, hj, rfl⟩; exact ⟨j, by omega, rfl⟩
  · rintro ⟨j, hj, rfl⟩; exact ⟨j, by omega, rfl⟩

theorem insert_pairwise {α : Type} {R : α → α → Prop} {A B : List α} {k : α}
    (h : (A ++ B).Pairwise R) (hA : ∀ x ∈ A, R x k) (hB : ∀ y ∈ B, R k y) :
    (A ++ k :: B).Pairwise R := by
  rw [List.pairwise_append] at h ⊢
  obtain ⟨h1, h2, h3⟩ := h
  refine ⟨h1, List.pairwise_cons.mpr ⟨hB, h2⟩, ?_⟩
  intro a ha b hb
  rcases List.mem_cons.mp hb with rfl | hb
  · exact hA a ha
  · exact h3 a ha b hb

/-- The facts read off a level at the node in focus. -/
theorem focus_facts {s : State} {mn : Int} {X Y : List Item} {lo : Option bpt_t} {a : Int}
    (hi : InnerOK s mn (X ++ (lo, a) :: Y)) :
    a ≠ 0 ∧ a < s.brk ∧ ∃ n, s.mem a = some n ∧ 0 ≤ n.nkey ∧ mn ≤ n.nkey ∧
      n.nkey ≤ s.bstat.order ∧ n.prv = (X.map Prod.snd).getLastD 0 ∧
      n.nxt = (Y.map Prod.snd).headD 0 ∧
      Chain s 0 (X.map Prod.snd) a ∧ Chain s a (Y.map Prod.snd) 0 := by
  obtain ⟨h0, hb, n, hm, h1, h2, h3⟩ := hi.1 (lo, a) (by simp)
  have hc := hi.2
  simp only [List.map_append, List.map_cons] at hc
  rw [chain_append] at hc
  obtain ⟨c1, ⟨m, hm1, c2, c3⟩, c4⟩ := hc
  rw [hm] at hm1
  cases Option.some.inj hm1
  exact ⟨h0, hb, n, hm, h1, h2, h3, c2, c3, by simpa using c1, c4⟩

theorem contents_focus (s : State) (X Y : List Item) (lo : Option bpt_t) (a : Int) :
    contents s ((X ++ (lo, a) :: Y).map Prod.snd) =
      contents s (X.map Prod.snd) ++ (leaf_ents s a ++ contents s (Y.map Prod.snd)) := by
  simp [contents_append, contents]

theorem leaf_ents_of_mem {s : State} {a : Int} {n : bpt_node} (h : s.mem a = some n) :
    leaf_ents s a = node_ents n := by
  simp [leaf_ents, h]

/-- The keys of a leaf are strictly increasing. -/
theorem leaf_sorted {s : State} {cmp : bpt_t → bpt_t → Int} {mn : Int} {X Y : List Item}
    {lo : Option bpt_t} {a : Int} {n : bpt_node}
    (hl : LeafOK s cmp mn (X ++ (lo, a) :: Y)) (hm : s.mem a = some n) :
    ∀ i j : Int, 0 ≤ i → i < j → j < n.nkey → lt cmp (n.entries i).key (n.entries j).key := by
  intro i j hi hij hj
  have h := hl.2.1
  rw [contents_focus, leaf_ents_of_mem hm] at h
  simp only [List.map_append, List.pairwise_append] at h
  have h1 := h.2.1.1
  simp only [node_ents, List.map_map] at h1
  rw [List.pairwise_map] at h1
  have h2 := List.pairwise_iff_getElem.mp h1 i.toNat j.toNat (by simp; omega) (by simp; omega)
    (by omega)
  simp only [List.getElem_range, Function.comp] at h2
  rwa [Int.toNat_of_nonneg hi, Int.toNat_of_nonneg (by omega)] at h2

/-- Every key on the left of the leaf in focus is smaller than a key that
descended to this leaf. -/
theorem left_lt {s : State} {cmp : bpt_t → bpt_t → Int} {mn : Int} {X Y : List Item}
    {lo : Option bpt_t} {a : Int} {k : bpt_t} (hc : cmp_total cmp)
    (hl : LeafOK s cmp mn (X ++ (lo, a) :: Y)) (hs : Sep (X ++ (lo, a) :: Y))
    (hb : Bounded cmp k lo Y) :
    ∀ x ∈ (contents s (X.map Prod.snd)).map (·.key), lt cmp x k := by
  intro x hx
  have hX : X ≠ [] := by
    intro h; subst h; simp [contents] at hx
  obtain ⟨l, hlo⟩ := Sep.left_last hs hX
  obtain ⟨n, hm, hn, hk⟩ := hl.2.2 (lo, a) (by simp) l hlo
  have h := hl.2.1
  rw [contents_focus, leaf_ents_of_mem hm] at h
  simp only [List.map_append, List.pairwise_append] at h
  have h1 := h.2.2 x hx (n.entries 0).key (by
    apply List.mem_append_left
    simp only [List.mem_map]
    exact ⟨n.entries 0, mem_node_ents.mpr ⟨0, by simpa using hn, rfl⟩, rfl⟩)
  rw [hk] at h1
  exact lt_of_lt_of_le_cmp hc h1 (hb.1 l hlo)

/-- Every key on the right of the leaf in focus is greater than a key that
descended to this leaf. -/
theorem right_gt {s : State} {cmp : bpt_t → bpt_t → Int} {mn : Int} {X Y : List Item}
    {lo : Option bpt_t} {a : Int} {k : bpt_t} (hc : cmp_total cmp)
    (hl : LeafOK s cmp mn (X ++ (lo, a) :: Y)) (hs : Sep (X ++ (lo, a) :: Y))
    (hb : Bounded cmp k lo Y) :
    ∀ y ∈ (contents s (Y.map Prod.snd)).map (·.key), lt cmp k y := by
  intro y hy
  cases Y with
  | nil => simp [contents] at hy
  | cons q Y1 =>
    obtain ⟨h, hq⟩ := Sep.right hs q (by simp)
    obtain ⟨n, hm, hn, hk⟩ := hl.2.2 q (by simp) h hq
    have hkh : lt cmp k h := hb.2 h (by simp [hi_of, hq])
    have hp := hl.2.1
    rw [contents_focus] at hp
    simp only [List.map_append, List.pairwise_append] at hp
    have hp1 := hp.2.1.2.1
    simp only [List.map_cons, contents, leaf_ents_of_mem hm, List.map_append] at hp1 hy
    have hne : node_ents n = n.entries 0 :: (node_ents n).tail := by
      have : (node_ents n) ≠ [] := by
        intro h0
        have := length_node_ents n
        rw [h0] at this
        simp at this
        omega
      have h2 := (List.head_cons_tail _ this).symm
      rw [h2]
      congr 1
      · have : (node_ents n)[0]? = some (n.entries 0) := by
          rw [getElem?_node_ents, if_pos (by omega)]; rfl
        rw [List.head_eq_iff_head?_eq_some, List.head?_eq_getElem?]
        exact this
    rw [hne] at hp1 hy
    simp only [List.map_cons, List.cons_append, List.pairwise_cons, List.mem_cons] at hp1 hy
    rcases hy with rfl | hy
    · rw [hk]; exact hkh
    · have := hp1.1 y hy
      rw [hk] at this
      exact lt_trans_cmp hc hkh this

/-! ## Insertion into a leaf with room -/

theorem leafOK_update1 {s t : State} {cmp : bpt_t → bpt_t → Int} {mn : Int} {X Y : List Item}
    {lo lo1 : Option bpt_t} {a : Int} {n m : bpt_node}
    (hl : LeafOK s cmp mn (X ++ (lo, a) :: Y))
    (hm : s.mem a = some n) (he : Ext s t)
    (hA : ∀ b ∈ (X ++ Y).map Prod.snd, t.mem b = s.mem b)
    (hm1 : t.mem a = some m) (hprv : m.prv = n.prv) (hnxt : m.nxt = n.nxt)
    (h0 : 0 ≤ m.nkey) (h1 : mn ≤ m.nkey) (h2 : m.nkey ≤ s.bstat.order)
    (hpw : ((contents s (X.map Prod.snd)).map (·.key) ++ ((node_ents m).map (·.key) ++
      (contents s (Y.map Prod.snd)).map (·.key))).Pairwise (lt cmp))
    (hlo : ∀ l, lo1 = some l → 0 < m.nkey ∧ (m.entries 0).key = l) :
    LeafOK t cmp mn (X ++ (lo1, a) :: Y) := by
  have hAX : Agree s t (X.map Prod.snd) := fun b hb => hA b (by simp at hb ⊢; exact Or.inl hb)
  have hAY : Agree s t (Y.map Prod.snd) := fun b hb => hA b (by simp at hb ⊢; exact Or.inr hb)
  obtain ⟨a0, ab, n1, hm2, -, -, -, c1, c2, c3, c4⟩ := focus_facts hl.1
  rw [hm] at hm2; cases Option.some.inj hm2
  refine ⟨⟨?_, ?_⟩, ?_, ?_⟩
  · intro p hp
    simp only [List.mem_append, List.mem_cons] at hp
    rcases hp with hp | rfl | hp
    · exact NodeOK.congr_node he (hAX p.2 (List.mem_map_of_mem _ hp)) (le_refl _)
        (hl.1.1 p (by simp; exact Or.inl hp))
    · exact ⟨a0, lt_of_lt_of_le ab he.2, m, hm1, h0, h1, by rw [he.1.1]; exact h2⟩
    · exact NodeOK.congr_node he (hAY p.2 (List.mem_map_of_mem _ hp)) (le_refl _)
        (hl.1.1 p (by simp; exact Or.inr (Or.inr hp)))
  · simp only [List.map_append, List.map_cons]
    rw [chain_append]
    exact ⟨by simpa using Chain.congr_chain hAX c3,
      ⟨m, hm1, by rw [hprv, c1], by rw [hnxt, c2]⟩, Chain.congr_chain hAY c4⟩
  · rw [contents_focus, leaf_ents_of_mem hm1, contents_congr hAX, contents_congr hAY]
    simpa using hpw
  · intro p hp l hl1
    simp only [List.mem_append, List.mem_cons] at hp
    rcases hp with hp | rfl | hp
    · obtain ⟨n2, hn2, hk⟩ := hl.2.2 p (by simp; exact Or.inl hp) l hl1
      exact ⟨n2, (hAX p.2 (List.mem_map_of_mem _ hp)).trans hn2, hk⟩
    · exact ⟨m, hm1, hlo l hl1⟩
    · obtain ⟨n2, hn2, hk⟩ := hl.2.2 p (by simp; exact Or.inr (Or.inr hp)) l hl1
      exact ⟨n2, (hAY p.2 (List.mem_map_of_mem _ hp)).trans hn2, hk⟩

/-- The entries of a leaf after the insertion of `e` at slot `off`. -/
theorem node_ents_insert {n : bpt_node} {off : Int} (e : bpt_entry) (h0 : 0 ≤ off)
    (h1 : off ≤ n.nkey) :
    node_ents { n with
        entries := Function.update (moved n n (off + 1) off (n.nkey - off)) off e
        nkey := n.nkey + 1 } =
      (node_ents n).take off.toNat ++ e :: (node_ents n).drop off.toNat := by
  apply List.ext_getElem?
  intro i
  simp only [getElem?_node_ents, List.getElem?_append, List.getElem?_take, List.getElem?_drop,
    List.getElem?_cons, List.length_take, length_node_ents, moved, Function.update_apply]
  have hoff : ((off.toNat : Nat) : Int) = off := Int.toNat_of_nonneg h0
  split_ifs <;> first | rfl | omega | (congr 2; omega)

theorem node_ents_set_val {n : bpt_node} {off : Int} (v : bpt_t) (h0 : 0 ≤ off)
    (h1 : off < n.nkey) :
    node_ents { n with
        entries := Function.update n.entries off { n.entries off with val := v } } =
      (node_ents n).take off.toNat ++
        ⟨(n.entries off).key, v⟩ :: (node_ents n).drop (off.toNat + 1) := by
  apply List.ext_getElem?
  intro i
  simp only [getElem?_node_ents, List.getElem?_append, List.getElem?_take, List.getElem?_drop,
    List.getElem?_cons, List.length_take, length_node_ents, Function.update_apply]
  have hoff : ((off.toNat : Nat) : Int) = off := Int.toNat_of_nonneg h0
  split_ifs <;> first | rfl | omega | (congr 2; omega)

theorem node_ents_split_at {n : bpt_node} {off : Int} (h0 : 0 ≤ off) (h1 : off < n.nkey) :
    node_ents n =
      (node_ents n).take off.toNat ++ n.entries off :: (node_ents n).drop (off.toNat + 1) := by
  refine (take_append_getElem_drop _ _ _ ?_).symm
  rw [getElem?_node_ents, if_pos (by omega), Int.toNat_of_nonneg h0]

theorem mem_take_node_ents {n : bpt_node} {off : Int} {x : bpt_entry} (h1 : off ≤ n.nkey)
    (hx : x ∈ (node_ents n).take off.toNat) :
    ∃ j : Int, 0 ≤ j ∧ j < off ∧ x = n.entries j := by
  obtain ⟨i, hi, rfl⟩ := List.mem_iff_getElem.mp hx
  simp only [List.length_take, length_node_ents] at hi
  refine ⟨i, by omega, by omega, ?_⟩
  simp [node_ents]

theorem mem_drop_node_ents {n : bpt_node} {off : Int} {x : bpt_entry} (h0 : 0 ≤ off)
    (hx : x ∈ (node_ents n).drop off.toNat) :
    ∃ j : Int, off ≤ j ∧ j < n.nkey ∧ x = n.entries j := by
  obtain ⟨i, hi, rfl⟩ := List.mem_iff_getElem.mp hx
  simp only [List.length_drop, length_node_ents] at hi
  refine ⟨off + i, by omega, by omega, ?_⟩
  simp [node_ents, Int.toNat_of_nonneg h0]

/-! ## The leaf reached by the descent -/

theorem LeafSit.node {cmp : bpt_t → bpt_t → Int} {t : State} {stk : gen_stk} {U : List Int}
    {X Y : List Item} {lo : Option bpt_t} {leaf : Int} {k : bpt_t}
    (h : LeafSit cmp t stk U X lo leaf Y k) :
    leaf ≠ 0 ∧ leaf < t.brk ∧ ∃ n, t.mem leaf = some n ∧ 0 ≤ n.nkey ∧
      min_leaf t stk.isEmpty ≤ n.nkey ∧ n.nkey ≤ t.bstat.order ∧
      n.prv = (X.map Prod.snd).getLastD 0 ∧ n.nxt = (Y.map Prod.snd).headD 0 ∧
      Chain t 0 (X.map Prod.snd) leaf ∧ Chain t leaf (Y.map Prod.snd) 0 :=
  focus_facts h.ok.1

theorem LeafSit.notin {cmp : bpt_t → bpt_t → Int} {t : State} {stk : gen_stk} {U : List Int}
    {X Y : List Item} {lo : Option bpt_t} {leaf : Int} {k : bpt_t}
    (h : LeafSit cmp t stk U X lo leaf Y k) :
    leaf ∉ U ∧ leaf ∉ X.map Prod.snd ∧ leaf ∉ Y.map Prod.snd := by
  have h1 := h.nd
  simp only [List.map_append, List.map_cons] at h1
  rw [List.nodup_append] at h1
  obtain ⟨_, h2, h3⟩ := h1
  refine ⟨fun hu => h3 hu (by simp), ?_, ?_⟩
  · intro hx
    rw [List.nodup_append] at h2
    exact h2.2.2 hx (by simp)
  · intro hy
    rw [List.nodup_append] at h2
    have := h2.2.1
    rw [List.nodup_cons] at this
    exact this.1 hy

/-- A state that differs from `t` at the leaf in focus only agrees with it on
the levels above and on the other leaves. -/
theorem LeafSit.agree_wr {cmp : bpt_t → bpt_t → Int} {t : State} {stk : gen_stk} {U : List Int}
    {X Y : List Item} {lo : Option bpt_t} {leaf : Int} {k : bpt_t}
    (h : LeafSit cmp t stk U X lo leaf Y k) (m : bpt_node) :
    Agree t (wr t leaf m) U ∧ ∀ b ∈ (X ++ Y).map Prod.snd, (wr t leaf m).mem b = t.mem b := by
  obtain ⟨h1, h2, h3⟩ := h.notin
  refine ⟨fun b hb => wr_mem_of_ne m (fun hh => h1 (hh ▸ hb)), ?_⟩
  intro b hb
  simp only [List.map_append, List.mem_append] at hb
  rcases hb with hb | hb
  · exact wr_mem_of_ne m (fun hh => h2 (hh ▸ hb))
  · exact wr_mem_of_ne m (fun hh => h3 (hh ▸ hb))

theorem LeafSit.entries {cmp : bpt_t → bpt_t → Int} {t : State} {stk : gen_stk} {U : List Int}
    {X Y : List Item} {lo : Option bpt_t} {leaf : Int} {k : bpt_t} {n : bpt_node}
    (h : LeafSit cmp t stk U X lo leaf Y k) (hm : t.mem leaf = some n) :
    tree_entries t =
      contents t (X.map Prod.snd) ++ (node_ents n ++ contents t (Y.map Prod.snd)) := by
  rw [tree_entries_of_ctx h.ctx h.len, contents_focus, leaf_ents_of_mem hm]

/-- The scan of `leaf_insert` on the leaf in focus. -/
theorem leaf_scan_miss {cmp : bpt_t → bpt_t → Int} (hc : cmp_total cmp) (k : bpt_t)
    (n : bpt_node) (h0 : 0 ≤ n.nkey)
    (h : (leaf_scan cmp k n.entries n.nkey n.nkey.toNat 0).2 = false) :
    Miss cmp k n (leaf_scan cmp k n.entries n.nkey n.nkey.toNat 0).1 := by
  obtain ⟨a1, a2, a3, _, a5⟩ := leaf_scan_spec cmp k n.entries n.nkey n.nkey.toNat 0 (by
    rw [Int.toNat_of_nonneg h0]; omega)
  exact ⟨a1, a2 h0, fun j hj1 hj2 => (hc.gt_iff _ _).mp (a3 j hj1 hj2), a5 h⟩

theorem leaf_scan_hit {cmp : bpt_t → bpt_t → Int} (hc : cmp_total cmp) (k : bpt_t)
    (n : bpt_node) (h0 : 0 ≤ n.nkey)
    (h : (leaf_scan cmp k n.entries n.nkey n.nkey.toNat 0).2 = true) :
    0 ≤ (leaf_scan cmp k n.entries n.nkey n.nkey.toNat 0).1 ∧
    (leaf_scan cmp k n.entries n.nkey n.nkey.toNat 0).1 < n.nkey ∧
    (n.entries (leaf_scan cmp k n.entries n.nkey n.nkey.toNat 0).1).key = k := by
  obtain ⟨a1, _, _, a4, _⟩ := leaf_scan_spec cmp k n.entries n.nkey n.nkey.toNat 0 (by
    rw [Int.toNat_of_nonneg h0]; omega)
  exact ⟨a1, (a4 h).1, ((hc.eq_iff _ _).mp (a4 h).2).symm⟩

/-- On a miss, the keys of the leaf before the insertion position are smaller
than `k` and those from it on are greater. -/
theorem Miss.take_lt {cmp : bpt_t → bpt_t → Int} {k : bpt_t} {n : bpt_node} {off : Int}
    (h : Miss cmp k n off) : ∀ x ∈ ((node_ents n).take off.toNat).map (·.key), lt cmp x k := by
  intro x hx
  obtain ⟨y, hy, rfl⟩ := List.mem_map.mp hx
  obtain ⟨j, j0, j1, rfl⟩ := mem_take_node_ents h.2.1 hy
  exact h.2.2.1 j j0 j1

theorem Miss.drop_gt {cmp : bpt_t → bpt_t → Int} {t : State} {stk : gen_stk} {U : List Int}
    {X Y : List Item} {lo : Option bpt_t} {leaf : Int} {k : bpt_t} {n : bpt_node} {off : Int}
    (hs : LeafSit cmp t stk U X lo leaf Y k) (hm : t.mem leaf = some n)
    (h : Miss cmp k n off) : ∀ x ∈ ((node_ents n).drop off.toNat).map (·.key), lt cmp k x := by
  intro x hx
  obtain ⟨y, hy, rfl⟩ := List.mem_map.mp hx
  obtain ⟨j, j0, j1, rfl⟩ := mem_drop_node_ents h.1 hy
  have h1 := h.2.2.2 (by omega)
  by_cases hj : j = off
  · subst hj; exact h1
  · exact lt_trans_cmp hs.hc h1 (leaf_sorted hs.ok hm off j h.1 (by omega) j1)

theorem Miss.absent {cmp : bpt_t → bpt_t → Int} {t : State} {stk : gen_stk} {U : List Int}
    {X Y : List Item} {lo : Option bpt_t} {leaf : Int} {k : bpt_t} {n : bpt_node} {off : Int}
    (hs : LeafSit cmp t stk U X lo leaf Y k) (hm : t.mem leaf = some n)
    (h : Miss cmp k n off) : ∀ x ∈ tree_entries t, x.key ≠ k := by
  intro x hx hk
  rw [hs.entries hm] at hx
  have hirr := lt_irrefl_cmp hs.hc k
  simp only [List.mem_append] at hx
  rcases hx with hx | hx | hx
  · exact hirr (hk ▸ left_lt hs.hc hs.ok hs.ctx.sep hs.bd x.key (List.mem_map_of_mem _ hx))
  · rw [← List.take_append_drop off.toNat (node_ents n), List.mem_append] at hx
    rcases hx with hx | hx
    · exact hirr (hk ▸ h.take_lt x.key (List.mem_map_of_mem _ hx))
    · exact hirr (hk ▸ h.drop_gt hs hm x.key (List.mem_map_of_mem _ hx))
  · exact hirr (hk ▸ right_gt hs.hc hs.ok hs.ctx.sep hs.bd x.key (List.mem_map_of_mem _ hx))

/-- The keys of the level stay strictly increasing when `e` is put at the
insertion position. -/
theorem Miss.pairwise {cmp : bpt_t → bpt_t → Int} {t : State} {stk : gen_stk} {U : List Int}
    {X Y : List Item} {lo : Option bpt_t} {leaf : Int} {e : bpt_entry} {n : bpt_node} {off : Int}
    (hs : LeafSit cmp t stk U X lo leaf Y e.key) (hm : t.mem leaf = some n)
    (h : Miss cmp e.key n off) :
    (((contents t (X.map Prod.snd)) ++ (node_ents n).take off.toNat) ++
      e :: ((node_ents n).drop off.toNat ++ contents t (Y.map Prod.snd))).map (·.key)
      |>.Pairwise (lt cmp) := by
  simp only [List.map_append, List.map_cons]
  apply insert_pairwise
  · have := hs.ok.2.1
    rw [contents_focus, leaf_ents_of_mem hm] at this
    rw [← List.take_append_drop off.toNat (node_ents n)] at this
    simp only [List.map_append, List.append_assoc] at this ⊢
    exact this
  · intro x hx
    rcases List.mem_append.mp hx with hx | hx
    · exact left_lt hs.hc hs.ok hs.ctx.sep hs.bd x hx
    · exact h.take_lt x hx
  · intro x hx
    rcases List.mem_append.mp hx with hx | hx
    · exact h.drop_gt hs hm x hx
    · exact right_gt hs.hc hs.ok hs.ctx.sep hs.bd x hx

/-- A key below the first key of a leaf descends to it only at the left end
of the level. -/
theorem Miss.off_pos {cmp : bpt_t → bpt_t → Int} {t : State} {stk : gen_stk} {U : List Int}
    {X Y : List Item} {lo : Option bpt_t} {leaf : Int} {k : bpt_t} {n : bpt_node} {off : Int}
    (hs : LeafSit cmp t stk U X lo leaf Y k) (hm : t.mem leaf = some n)
    (h : Miss cmp k n off) (hX : X ≠ []) : 1 ≤ off := by
  by_contra hlt
  have h0 : off = 0 := by have := h.1; omega
  obtain ⟨l, hlo⟩ := Sep.left_last hs.ctx.sep hX
  obtain ⟨n1, hm1, hn, hk⟩ := hs.ok.2.2 (lo, leaf) (by simp) l hlo
  rw [hm] at hm1; cases Option.some.inj hm1
  have := h.2.2.2 (by omega)
  rw [h0, hk] at this
  exact hs.bd.1 l hlo this

/-! ## `leaf_insert`: matching key, leaf with room -/

theorem leaf_insert_room_eq {t : State} {leaf : Int} {n : bpt_node} (e : bpt_entry) {off : Int}
    (h0 : leaf ≠ 0) (hm : t.mem leaf = some n) (ho0 : 0 ≤ off) (ho1 : off ≤ n.nkey)
    (hroom : n.nkey < t.bstat.order) :
    leaf_insert_room t e leaf off n.nkey =
      some (wr t leaf { n with
        entries := Function.update (moved n n (off + 1) off (n.nkey - off)) off e
        nkey := n.nkey + 1 }) := by
  unfold leaf_insert_room
  rw [memmove_eq (off + 1) off (n.nkey - off) h0 hm h0 hm (by omega) (fun _ => by omega)]
  simp only [Option.bind_eq_bind, Option.some_bind]
  rw [set_entry_eq h0 (wr_mem_same _ _ _) ho0 (by simp; omega)]
  simp only [Option.some_bind, wr_wr]
  rw [set_nkey_eq h0 (wr_mem_same _ _ _)]
  simp only [wr_wr]

theorem leaf_insert_room_spec {cmp : bpt_t → bpt_t → Int} {t : State} {stk : gen_stk}
    {U : List Int} {X Y : List Item} {lo : Option bpt_t} {leaf : Int} {e : bpt_entry}
    {n : bpt_node} {off : Int}
    (hs : LeafSit cmp t stk U X lo leaf Y e.key) (hm : t.mem leaf = some n)
    (h : Miss cmp e.key n off) (hroom : n.nkey < t.bstat.order) :
    ∃ t1, leaf_insert_room t e leaf off n.nkey = some t1 ∧ WF cmp t1 ∧ t1.alloc = t.alloc ∧
      ∃ A B, tree_entries t = A ++ B ∧ tree_entries t1 = A ++ e :: B := by
  obtain ⟨l0, lb, n1, hm1, hn0, hn1, hn2, -, -, -, -⟩ := hs.node
  rw [hm] at hm1; cases Option.some.inj hm1
  refine ⟨_, leaf_insert_room_eq e l0 hm h.1 h.2.1 hroom, ?_, rfl, ?_⟩
  · obtain ⟨hAU, hAL⟩ := hs.agree_wr { n with
        entries := Function.update (moved n n (off + 1) off (n.nkey - off)) off e
        nkey := n.nkey + 1 }
    have hok : LeafOK (wr t leaf _) cmp (min_leaf t stk.isEmpty) (X ++ (lo, leaf) :: Y) :=
      @leafOK_update1 _ _ _ _ _ _ _ lo _ _ _ hs.ok hm (Ext.wr _ _ _) hAL (wr_mem_same _ _ _) rfl rfl
        (by simp; omega) (by simp; omega) (by simp; omega)
        (by
          have := h.pairwise hs hm
          rw [node_ents_insert e h.1 h.2.1]
          simpa using this)
        (by
          intro l hl
          obtain ⟨n2, hm2, hk1, hk2⟩ := hs.ok.2.2 (lo, leaf) (by simp) l hl
          rw [hm] at hm2; cases Option.some.inj hm2
          have hX : X ≠ [] := by
            intro hX
            have := (Sep.lo_none hs.ctx.sep).mpr hX
            rw [this] at hl; simp at hl
          have := h.off_pos hs hm hX
          refine ⟨by simp; omega, ?_⟩
          simp only [moved, Function.update_apply]
          rw [if_neg (by omega), if_neg (by omega)]
          exact hk2)
    exact WF_of_leaf (by simpa using hs.hp) (by simpa using hs.hb)
      (hs.ctx.frame (Ext.wr _ _ _) rfl hAU) (by simpa using hs.len) hok hs.nd
  · refine ⟨contents t (X.map Prod.snd) ++ (node_ents n).take off.toNat,
      (node_ents n).drop off.toNat ++ contents t (Y.map Prod.snd), ?_, ?_⟩
    · rw [hs.entries hm]
      simp only [List.append_assoc]
      rw [← List.append_assoc (List.take _ _), List.take_append_drop]
    · obtain ⟨hAU, hAL⟩ := hs.agree_wr { n with
        entries := Function.update (moved n n (off + 1) off (n.nkey - off)) off e
        nkey := n.nkey + 1 }
      rw [tree_entries_of_ctx (hs.ctx.frame (Ext.wr _ _ _) rfl hAU) (by simpa using hs.len),
        contents_focus, leaf_ents_of_mem (wr_mem_same _ _ _), node_ents_insert e h.1 h.2.1,
        contents_congr (fun b hb => hAL b (by simp at hb ⊢; exact Or.inl hb)),
        contents_congr (fun b hb => hAL b (by simp at hb ⊢; exact Or.inr hb))]
      simp

/-! ## Separators around the node in focus -/

theorem set_key_eq' {s : State} {a i : Int} {n : bpt_node} (h0 : a ≠ 0) (h : s.mem a = some n)
    (hi : 0 ≤ i) (hi2 : i ≤ s.bstat.order) (k : bpt_t) :
    set_key s a i k = some (wr s a (with_key n i k)) :=
  set_key_eq h0 h hi hi2 k

@[simp] theorem with_key_nkey (n : bpt_node) (i : Int) (k : bpt_t) :
    (with_key n i k).nkey = n.nkey := rfl
@[simp] theorem with_key_prv (n : bpt_node) (i : Int) (k : bpt_t) :
    (with_key n i k).prv = n.prv := rfl
@[simp] theorem with_key_nxt (n : bpt_node) (i : Int) (k : bpt_t) :
    (with_key n i k).nxt = n.nxt := rfl
@[simp] theorem with_key_val (n : bpt_node) (i : Int) (k : bpt_t) (j : Int) :
    ((with_key n i k).entries j).val = (n.entries j).val := by
  simp only [with_key, Function.update_apply]
  split_ifs with h
  · subst h; rfl
  · rfl
theorem with_key_key (n : bpt_node) (i : Int) (k : bpt_t) (j : Int) :
    ((with_key n i k).entries j).key = if j = i then k else (n.entries j).key := by
  simp only [with_key, Function.update_apply]
  split_ifs <;> rfl

theorem pair_at_with_key (lo : Option bpt_t) (n : bpt_node) {i : Int} (hi : 0 ≤ i) (k : bpt_t)
    (j : Nat) :
    pair_at lo (with_key n i k) j =
      if (j : Int) = i + 1 then (some k, (n.entries j).val) else pair_at lo n j := by
  simp only [pair_at, with_key_val, with_key_key]
  by_cases h0 : j = 0
  · subst h0
    have h1 : ¬ (((0 : Nat) : Int) = i + 1) := by omega
    simp only [if_true, if_neg h1]
  · simp only [h0, if_false]
    by_cases h1 : (j : Int) = i + 1
    · have : (j : Int) - 1 = i := by omega
      simp [h1, this]
    · have : ¬ ((j : Int) - 1 = i) := by omega
      simp [h1, this]

theorem take_pairs_with_key (lo : Option bpt_t) (n : bpt_node) {i : Int} (k : bpt_t)
    (h0 : 0 ≤ i) (c : Nat) (hc : (c : Int) ≤ i + 1) :
    (node_pairs lo (with_key n i k)).take c = (node_pairs lo n).take c := by
  apply List.ext_getElem?
  intro j
  simp only [List.getElem?_take, getElem?_node_pairs, pair_at_with_key lo n h0, with_key_nkey]
  split_ifs <;> first | rfl | omega

theorem drop_pairs_with_key (lo : Option bpt_t) (n : bpt_node) {i : Int} (k : bpt_t)
    (h0 : 0 ≤ i) (c : Nat) (hc : i + 2 ≤ (c : Int)) :
    (node_pairs lo (with_key n i k)).drop c = (node_pairs lo n).drop c := by
  apply List.ext_getElem?
  intro j
  simp only [List.getElem?_drop, getElem?_node_pairs, pair_at_with_key lo n h0, with_key_nkey]
  split_ifs <;> first | rfl | omega

theorem drop_pairs_with_key_at (lo : Option bpt_t) (n : bpt_node) {i : Int} (k : bpt_t)
    (h0 : 0 ≤ i) (h1 : i < n.nkey) :
    (node_pairs lo (with_key n i k)).drop (i.toNat + 1) =
      set_hi k ((node_pairs lo n).drop (i.toNat + 1)) := by
  have hlen : i.toNat + 1 < (node_pairs lo n).length := by rw [length_node_pairs]; omega
  have hlen1 : i.toNat + 1 < (node_pairs lo (with_key n i k)).length := by
    rw [length_node_pairs]; simp; omega
  rw [List.drop_eq_getElem_cons hlen, List.drop_eq_getElem_cons hlen1]
  have e1 : (node_pairs lo n)[i.toNat + 1] = pair_at lo n (i.toNat + 1) := by
    have := getElem?_node_pairs lo n (i.toNat + 1)
    rw [if_pos (by omega), List.getElem?_eq_getElem hlen] at this
    exact Option.some.inj this
  have e2 : (node_pairs lo (with_key n i k))[i.toNat + 1] =
      pair_at lo (with_key n i k) (i.toNat + 1) := by
    have := getElem?_node_pairs lo (with_key n i k) (i.toNat + 1)
    rw [if_pos (by simp; omega), List.getElem?_eq_getElem hlen1] at this
    exact Option.some.inj this
  rw [e1, e2, drop_pairs_with_key lo n k h0 (i.toNat + 1 + 1) (by omega)]
  simp only [set_hi, pair_at_with_key lo n h0]
  rw [if_pos (by omega)]
  simp [pair_at]

theorem set_hi_append_of_ne {k : bpt_t} {A : List Item} (B : List Item) (h : A ≠ []) :
    set_hi k (A ++ B) = set_hi k A ++ B := by
  cases A with
  | nil => exact absurd rfl h
  | cons p r => rfl

theorem set_hi_expand {s : State} (k : bpt_t) {Y : List Item}
    (hv : ∀ p ∈ Y, ∃ n, s.mem p.2 = some n) :
    expand s (set_hi k Y) = set_hi k (expand s Y) := by
  cases Y with
  | nil => rfl
  | cons p r =>
    obtain ⟨n, hn⟩ := hv p (by simp)
    simp only [set_hi, expand, hn, node_pairs, List.cons_append]

theorem hi_of_set_hi (k : bpt_t) (Y : List Item) :
    hi_of (set_hi k Y) = (hi_of Y).map fun _ => k := by
  cases Y <;> rfl

theorem map_snd_set_hi (k : bpt_t) (Y : List Item) :
    (set_hi k Y).map Prod.snd = Y.map Prod.snd := by
  cases Y <;> rfl

/-- A step of the path, its components given up to equality. -/
theorem Ctx.step_eq {s : State} {stk : gen_stk} {U : List Int} {X : List Item}
    {lo : Option bpt_t} {a : Int} {Y : List Item} (n : bpt_node) (off : Int)
    {U1 : List Int} {X1 : List Item} {lo1 : Option bpt_t} {c : Int} {Y1 : List Item}
    (hc : Ctx s stk U X lo a Y) (hm : s.mem a = some n)
    (hi : InnerOK s (min_inner s stk.isEmpty) (X ++ (lo, a) :: Y))
    (hnd : (U ++ (X ++ (lo, a) :: Y).map Prod.snd).Nodup) (h0 : 0 ≤ off) (h1 : off ≤ n.nkey)
    (eU : U1 = U ++ (X ++ (lo, a) :: Y).map Prod.snd)
    (eX : X1 = expand s X ++ (node_pairs lo n).take off.toNat)
    (el : lo1 = if off = 0 then lo else some (n.entries (off - 1)).key)
    (ec : c = (n.entries off).val)
    (eY : Y1 = (node_pairs lo n).drop (off.toNat + 1) ++ expand s Y) :
    Ctx s (⟨a, off⟩ :: stk) U1 X1 lo1 c Y1 := by
  subst eU eX el ec eY
  exact Ctx.step n off hc hm hi hnd h0 h1

theorem InnerOK.link_inner {s t : State} {mn : Int} {items : List Item} (he : Ext s t)
    (h : ∀ a ∈ items.map Prod.snd, ∀ n, s.mem a = some n →
      ∃ m, t.mem a = some m ∧ m.prv = n.prv ∧ m.nxt = n.nxt ∧ m.nkey = n.nkey)
    (hi : InnerOK s mn items) : InnerOK t mn items := by
  refine ⟨?_, Chain.link_chain (fun a ha n hn => ?_) hi.2⟩
  · intro p hp
    obtain ⟨h0, hb, n, hm, hz, h1, h2⟩ := hi.1 p hp
    obtain ⟨m, hm1, _, _, hk⟩ := h p.2 (List.mem_map_of_mem _ hp) n hm
    exact ⟨h0, lt_of_lt_of_le hb he.2, m, hm1, by rw [hk]; exact hz, by rw [hk]; exact h1,
      by rw [hk, he.1.1]; exact h2⟩
  · obtain ⟨m, hm1, h1, h2, _⟩ := h a ha n hn
    exact ⟨m, hm1, h1, h2⟩

/-! ## Where the journal finds the separators -/

theorem nodup_focus {U : List Int} {X Y : List Item} {lo : Option bpt_t} {a : Int}
    (h : (U ++ (X ++ (lo, a) :: Y).map Prod.snd).Nodup) :
    a ∉ U ∧ a ∉ X.map Prod.snd ∧ a ∉ Y.map Prod.snd ∧
      (∀ b ∈ X.map Prod.snd, b ∉ U) ∧ (∀ b ∈ Y.map Prod.snd, b ∉ U) := by
  simp only [List.map_append, List.map_cons] at h
  rw [List.nodup_append] at h
  obtain ⟨_, h2, h3⟩ := h
  rw [List.nodup_append] at h2
  refine ⟨fun hu => h3 hu (by simp), fun hx => h2.2.2 hx (by simp), ?_, ?_, ?_⟩
  · intro hy
    have := h2.2.1
    rw [List.nodup_cons] at this
    exact this.1 hy
  · intro b hb hu
    exact h3 hu (by simp; exact Or.inl (by simpa using hb))
  · intro b hb hu
    exact h3 hu (by simp; exact Or.inr (Or.inr (by simpa using hb)))

theorem InnerOK.of_map_snd {s : State} {mn : Int} {items items1 : List Item}
    (h : items1.map Prod.snd = items.map Prod.snd) (hi : InnerOK s mn items) :
    InnerOK s mn items1 := by
  refine ⟨?_, by rw [h]; exact hi.2⟩
  intro p hp
  have : p.2 ∈ items.map Prod.snd := by rw [← h]; exact List.mem_map_of_mem _ hp
  obtain ⟨q, hq, hq2⟩ := List.mem_map.mp this
  rw [← hq2]
  exact hi.1 q hq

theorem expand_ne_nil {s : State} {Y : List Item} (hv : ∀ p ∈ Y, ∃ n, s.mem p.2 = some n)
    (h : expand s Y = []) : Y = [] := by
  cases Y with
  | nil => rfl
  | cons p r =>
    obtain ⟨n, hn⟩ := hv p (by simp)
    simp [expand, hn, node_pairs] at h

theorem drop_one_pairs (lo lo1 : Option bpt_t) (n : bpt_node) (c : Nat) :
    (node_pairs lo n).drop (c + 1) = (node_pairs lo1 n).drop (c + 1) := by
  simp [node_pairs]

/-- The state with one key of a node of an upper level replaced agrees with
the old one on the level in focus. -/
theorem agree_upper {t : State} {U : List Int} {X Y : List Item} {lo : Option bpt_t} {a : Int}
    (hnd : (U ++ (X ++ (lo, a) :: Y).map Prod.snd).Nodup) {mn : Int} (hmn : mn ∈ U)
    (m : bpt_node) :
    (wr t mn m).mem a = t.mem a ∧ Agree t (wr t mn m) (X.map Prod.snd) ∧
      Agree t (wr t mn m) (Y.map Prod.snd) ∧
      Agree t (wr t mn m) ((X ++ (lo, a) :: Y).map Prod.snd) := by
  obtain ⟨h1, _, _, h4, h5⟩ := nodup_focus hnd
  have ha : (wr t mn m).mem a = t.mem a := wr_mem_of_ne m (fun h => h1 (h ▸ hmn))
  have hX : Agree t (wr t mn m) (X.map Prod.snd) :=
    fun b hb => wr_mem_of_ne m (fun h => h4 b hb (h ▸ hmn))
  have hY : Agree t (wr t mn m) (Y.map Prod.snd) :=
    fun b hb => wr_mem_of_ne m (fun h => h5 b hb (h ▸ hmn))
  refine ⟨ha, hX, hY, ?_⟩
  intro b hb
  simp only [List.map_append, List.map_cons, List.mem_append, List.mem_cons] at hb
  rcases hb with hb | rfl | hb
  · exact hX b hb
  · exact ha
  · exact hY b hb

theorem Ctx.left_sep {t : State} {stk : gen_stk} {U : List Int} {X Y : List Item}
    {lo : Option bpt_t} {a : Int} (hc : Ctx t stk U X lo a Y) :
    (lo = none → mid_between_prv stk = (-1, 0) ∧ ∀ k, update_index t k stk = some t) ∧
    (∀ l, lo = some l → ∃ mo mn nm, mid_between_prv stk = (mo, mn) ∧ mn ∈ U ∧ mn ≠ 0 ∧
      t.mem mn = some nm ∧ 0 ≤ mo ∧ mo < nm.nkey ∧ nm.nkey ≤ t.bstat.order ∧
      (nm.entries mo).key = l ∧
      ∀ k, update_index t k stk = some (wr t mn (with_key nm mo k)) ∧
        Ctx (wr t mn (with_key nm mo k)) stk U X (some k) a Y) := by
  induction hc with
  | root =>
    exact ⟨fun _ => ⟨rfl, fun k => rfl⟩, fun l h => by simp at h⟩
  | @step stk U X lo a Y n off hc0 hm hi hnd h0 h1 ih =>
    obtain ⟨a0, -, n1, hm1, -, -, hn2⟩ := hi.1 (lo, a) (by simp)
    rw [hm] at hm1; cases Option.some.inj hm1
    obtain ⟨haU, haX, haY, hXU, hYU⟩ := nodup_focus hnd
    by_cases hoff : off = 0
    · subst hoff
      simp only [if_true, mid_between_prv, update_index, ne_eq, not_true_eq_false, if_false]
      refine ⟨fun hlo => ih.1 hlo, ?_⟩
      intro l hlo
      obtain ⟨mo, mn, nm, e1, e2, e3, e4, e5, e6, e7, e8, e9⟩ := ih.2 l hlo
      refine ⟨mo, mn, nm, e1, List.mem_append_left _ e2, e3, e4, e5, e6, e7, e8, ?_⟩
      intro k
      refine ⟨(e9 k).1, ?_⟩
      obtain ⟨ga, gX, gY, gL⟩ := agree_upper (t := t) hnd e2 (with_key nm mo k)
      refine Ctx.step_eq n 0 (e9 k).2 (ga.trans hm)
        (InnerOK.of_map_snd (by simp)
          (InnerOK.congr_inner (Ext.wr _ _ _) gL (le_of_eq (min_inner_congr (Ext.wr _ _ _) _)) hi))
        (by simpa using hnd) (le_refl _) h1 (by simp) ?_ (by simp) rfl ?_
      · rw [expand_congr gX]; simp
      · rw [expand_congr gY, hlo]
        simp only [Int.toNat_zero, Nat.zero_add]
        rw [drop_one_pairs (some l) (some k) n 0]
    · simp only [if_neg hoff, mid_between_prv, update_index, ne_eq, hoff, not_false_eq_true,
        if_true]
      refine ⟨fun h => by simp at h, ?_⟩
      intro l hl
      replace hl : (n.entries (off - 1)).key = l := by simpa using hl
      refine ⟨off - 1, a, n, rfl, by simp, a0, hm, by omega, by omega, hn2, hl, ?_⟩
      intro k
      refine ⟨set_key_eq' a0 hm (by omega) (by omega) k, ?_⟩
      have hAU : Agree t (wr t a (with_key n (off - 1) k)) U :=
        fun b hb => wr_mem_of_ne _ (fun h => haU (h ▸ hb))
      have hAX : Agree t (wr t a (with_key n (off - 1) k)) (X.map Prod.snd) :=
        fun b hb => wr_mem_of_ne _ (fun h => haX (h ▸ hb))
      have hAY : Agree t (wr t a (with_key n (off - 1) k)) (Y.map Prod.snd) :=
        fun b hb => wr_mem_of_ne _ (fun h => haY (h ▸ hb))
      refine Ctx.step_eq (with_key n (off - 1) k) off
        (hc0.frame (Ext.wr _ _ _) rfl hAU) (wr_mem_same _ _ _) ?_ hnd h0 (by simpa using h1)
        rfl ?_ ?_ (by simp) ?_
      · refine InnerOK.link_inner (Ext.wr _ _ _) ?_ hi
        intro b hb nb hnb
        by_cases hba : b = a
        · subst hba
          rw [hm] at hnb; cases Option.some.inj hnb
          exact ⟨_, wr_mem_same _ _ _, rfl, rfl, rfl⟩
        · exact ⟨nb, (wr_mem_of_ne _ hba).trans hnb, rfl, rfl, rfl⟩
      · rw [expand_congr hAX, take_pairs_with_key lo n k (by omega) off.toNat (by omega)]
      · rw [if_neg hoff, with_key_key, if_pos rfl]
      · rw [expand_congr hAY, drop_pairs_with_key lo n k (by omega) (off.toNat + 1) (by omega)]

theorem Ctx.right_sep {t : State} {stk : gen_stk} {U : List Int} {X Y : List Item}
    {lo : Option bpt_t} {a : Int} (hc : Ctx t stk U X lo a Y) :
    (Y = [] → mid_between_nxt t stk = some (-1, 0)) ∧
    (Y ≠ [] → ∃ mo mn nm, mid_between_nxt t stk = some (mo, mn) ∧ mn ∈ U ∧ mn ≠ 0 ∧
      t.mem mn = some nm ∧ 0 ≤ mo ∧ mo < nm.nkey ∧ nm.nkey ≤ t.bstat.order ∧
      hi_of Y = some (nm.entries mo).key ∧
      ∀ k, Ctx (wr t mn (with_key nm mo k)) stk U X lo a (set_hi k Y)) := by
  induction hc with
  | root =>
    exact ⟨fun _ => rfl, fun h => absurd rfl h⟩
  | @step stk U X lo a Y n off hc0 hm hi hnd h0 h1 ih =>
    obtain ⟨a0, -, n1, hm1, -, -, hn2⟩ := hi.1 (lo, a) (by simp)
    rw [hm] at hm1; cases Option.some.inj hm1
    obtain ⟨haU, haX, haY, hXU, hYU⟩ := nodup_focus hnd
    have hvY : ∀ p ∈ Y, ∃ n, t.mem p.2 = some n := by
      intro p hp
      obtain ⟨_, _, m, hm1, _⟩ := hi.1 p (by simp; exact Or.inr (Or.inr hp))
      exact ⟨m, hm1⟩
    simp only [mid_between_nxt, nkey_eq a0 hm]
    by_cases hoff : off = n.nkey
    · rw [if_neg (by simpa using hoff), drop_pairs_nil h0 hoff, List.nil_append]
      refine ⟨fun hY => ih.1 (expand_ne_nil hvY hY), ?_⟩
      intro hY
      have hY0 : Y ≠ [] := by
        intro h; subst h; exact hY rfl
      obtain ⟨mo, mn, nm, e1, e2, e3, e4, e5, e6, e7, e8, e9⟩ := ih.2 hY0
      refine ⟨mo, mn, nm, e1, List.mem_append_left _ e2, e3, e4, e5, e6, e7, ?_, ?_⟩
      · rw [hi_of_expand hvY]; exact e8
      · intro k
        obtain ⟨ga, gX, gY, gL⟩ := agree_upper (t := t) hnd e2 (with_key nm mo k)
        refine Ctx.step_eq n off (e9 k) (ga.trans hm)
          (InnerOK.of_map_snd (by simp [map_snd_set_hi])
            (InnerOK.congr_inner (Ext.wr _ _ _) gL (le_of_eq (min_inner_congr (Ext.wr _ _ _) _)) hi))
          (by simpa [map_snd_set_hi] using hnd) h0 h1 (by simp [map_snd_set_hi]) ?_ rfl rfl ?_
        · rw [expand_congr gX]
        · rw [drop_pairs_nil h0 hoff, List.nil_append, ← set_hi_expand k hvY]
          exact (expand_congr (by rw [map_snd_set_hi]; exact gY)).symm
    · have hlt : off < n.nkey := by omega
      rw [if_pos (by simpa using hoff)]
      have hne : (node_pairs lo n).drop (off.toNat + 1) ≠ [] := by
        intro h
        have := congrArg List.length h
        simp [length_node_pairs] at this
        omega
      refine ⟨fun h => ?_, ?_⟩
      · exact absurd (List.append_eq_nil.mp h).1 hne
      · intro _
        refine ⟨off, a, n, rfl, by simp, a0, hm, h0, hlt, hn2, hi_of_drop_pairs h0 hlt _, ?_⟩
        intro k
        have hAU : Agree t (wr t a (with_key n off k)) U :=
          fun b hb => wr_mem_of_ne _ (fun h => haU (h ▸ hb))
        have hAX : Agree t (wr t a (with_key n off k)) (X.map Prod.snd) :=
          fun b hb => wr_mem_of_ne _ (fun h => haX (h ▸ hb))
        have hAY : Agree t (wr t a (with_key n off k)) (Y.map Prod.snd) :=
          fun b hb => wr_mem_of_ne _ (fun h => haY (h ▸ hb))
        refine Ctx.step_eq (with_key n off k) off
          (hc0.frame (Ext.wr _ _ _) rfl hAU) (wr_mem_same _ _ _) ?_ hnd h0 (by simpa using h1)
          rfl ?_ ?_ (by simp) ?_
        · refine InnerOK.link_inner (Ext.wr _ _ _) ?_ hi
          intro b hb nb hnb
          by_cases hba : b = a
          · subst hba
            rw [hm] at hnb; cases Option.some.inj hnb
            exact ⟨_, wr_mem_same _ _ _, rfl, rfl, rfl⟩
          · exact ⟨nb, (wr_mem_of_ne _ hba).trans hnb, rfl, rfl, rfl⟩
        · rw [expand_congr hAX, take_pairs_with_key lo n k h0 off.toNat (by omega)]
        · by_cases hz : off = 0
          · simp [hz]
          · rw [if_neg hz, if_neg hz, with_key_key, if_neg (by omega)]
        · rw [set_hi_append_of_ne _ hne, expand_congr hAY, drop_pairs_with_key_at lo n k h0 hlt]

/-! ## Two neighbouring leaves -/

theorem leafOK_update2 {s t : State} {cmp : bpt_t → bpt_t → Int} {mn : Int} {X Y : List Item}
    {lp lp1 lo lo1 : Option bpt_t} {p a : Int} {np na mp ma : bpt_node}
    (hl : LeafOK s cmp mn (X ++ (lp, p) :: (lo, a) :: Y))
    (hnp : s.mem p = some np) (hna : s.mem a = some na) (he : Ext s t)
    (hA : ∀ b ∈ (X ++ Y).map Prod.snd, t.mem b = s.mem b)
    (hmp : t.mem p = some mp) (hma : t.mem a = some ma)
    (hp1 : mp.prv = np.prv) (hp2 : mp.nxt = np.nxt) (ha1 : ma.prv = na.prv)
    (ha2 : ma.nxt = na.nxt)
    (hpr : 0 ≤ mp.nkey ∧ mn ≤ mp.nkey ∧ mp.nkey ≤ s.bstat.order)
    (har : 0 ≤ ma.nkey ∧ mn ≤ ma.nkey ∧ ma.nkey ≤ s.bstat.order)
    (hpw : ((contents s (X.map Prod.snd)).map (·.key) ++ ((node_ents mp).map (·.key) ++
      ((node_ents ma).map (·.key) ++ (contents s (Y.map Prod.snd)).map (·.key)))).Pairwise
        (lt cmp))
    (hlp : ∀ l, lp1 = some l → 0 < mp.nkey ∧ (mp.entries 0).key = l)
    (hlo : ∀ l, lo1 = some l → 0 < ma.nkey ∧ (ma.entries 0).key = l) :
    LeafOK t cmp mn (X ++ (lp1, p) :: (lo1, a) :: Y) := by
  have hAX : Agree s t (X.map Prod.snd) := fun b hb => hA b (by simp at hb ⊢; exact Or.inl hb)
  have hAY : Agree s t (Y.map Prod.snd) := fun b hb => hA b (by simp at hb ⊢; exact Or.inr hb)
  obtain ⟨p0, pb, n1, hm2, -, -, -, c1, c2, c3, c4⟩ := focus_facts hl.1
  rw [hnp] at hm2; cases Option.some.inj hm2
  have hl2 : InnerOK s mn ((X ++ [(lp, p)]) ++ (lo, a) :: Y) := by simpa using hl.1
  obtain ⟨a0, ab, n2, hm3, -, -, -, d1, d2, d3, d4⟩ := focus_facts hl2
  rw [hna] at hm3; cases Option.some.inj hm3
  simp only [List.map_cons, List.headD_cons] at c2
  simp only [List.map_append, List.map_cons, List.map_nil, List.getLastD_concat] at d1
  refine ⟨⟨?_, ?_⟩, ?_, ?_⟩
  · intro q hq
    simp only [List.mem_append, List.mem_cons] at hq
    rcases hq with hq | rfl | rfl | hq
    · exact NodeOK.congr_node he (hAX q.2 (List.mem_map_of_mem _ hq)) (le_refl _)
        (hl.1.1 q (by simp; exact Or.inl hq))
    · exact ⟨p0, lt_of_lt_of_le pb he.2, mp, hmp, hpr.1, hpr.2.1, by rw [he.1.1]; exact hpr.2.2⟩
    · exact ⟨a0, lt_of_lt_of_le ab he.2, ma, hma, har.1, har.2.1, by rw [he.1.1]; exact har.2.2⟩
    · exact NodeOK.congr_node he (hAY q.2 (List.mem_map_of_mem _ hq)) (le_refl _)
        (hl.1.1 q (by simp; exact Or.inr (Or.inr (Or.inr hq))))
  · simp only [List.map_append, List.map_cons]
    rw [chain_append]
    refine ⟨by simpa using Chain.congr_chain hAX c3, ⟨mp, hmp, by rw [hp1, c1], ?_⟩,
      ⟨ma, hma, by rw [ha1, d1], by rw [ha2, d2]⟩, Chain.congr_chain hAY d4⟩
    rw [hp2, c2]; rfl
  · have e : contents t ((X ++ (lp, p) :: (lo, a) :: Y).map Prod.snd) =
        contents s (X.map Prod.snd) ++ (node_ents mp ++ (node_ents ma ++
          contents s (Y.map Prod.snd))) := by
      simp only [List.map_append, List.map_cons, contents_append, contents,
        leaf_ents_of_mem hmp, leaf_ents_of_mem hma, contents_congr hAX, contents_congr hAY]
    have e2 : (X ++ (lp1, p) :: (lo1, a) :: Y).map Prod.snd =
        (X ++ (lp, p) :: (lo, a) :: Y).map Prod.snd := by simp
    rw [e2, e]
    simpa using hpw
  · intro q hq l hl1
    simp only [List.mem_append, List.mem_cons] at hq
    rcases hq with hq | rfl | rfl | hq
    · obtain ⟨n3, hn3, hk⟩ := hl.2.2 q (by simp; exact Or.inl hq) l hl1
      exact ⟨n3, (hAX q.2 (List.mem_map_of_mem _ hq)).trans hn3, hk⟩
    · exact ⟨mp, hmp, hlp l hl1⟩
    · exact ⟨ma, hma, hlo l hl1⟩
    · obtain ⟨n3, hn3, hk⟩ := hl.2.2 q (by simp; exact Or.inr (Or.inr (Or.inr hq))) l hl1
      exact ⟨n3, (hAY q.2 (List.mem_map_of_mem _ hq)).trans hn3, hk⟩

/-- The previous leaf, read off the level. -/
theorem prev_facts {s : State} {mn : Int} {X Y : List Item} {lo : Option bpt_t} {a : Int}
    {n : bpt_node} (hi : InnerOK s mn (X ++ (lo, a) :: Y)) (hm : s.mem a = some n) :
    (n.prv = 0 ↔ X = []) ∧
    (n.prv ≠ 0 → ∃ X0 lp, X = X0 ++ [(lp, n.prv)] ∧ NodeOK s mn n.prv) := by
  obtain ⟨_, _, n1, hm1, -, -, -, c1, -, -, -⟩ := focus_facts hi
  rw [hm] at hm1; cases Option.some.inj hm1
  rcases List.eq_nil_or_concat X with hX | ⟨X0, q, hX⟩
  · subst hX
    simp at c1
    exact ⟨⟨fun _ => rfl, fun _ => c1⟩, fun h => absurd c1 h⟩
  · subst hX
    simp only [List.concat_eq_append, List.map_append, List.map_cons, List.map_nil,
      List.getLastD_concat] at c1
    have hq := hi.1 q (by simp)
    rw [← c1] at hq
    refine ⟨⟨fun h => absurd h hq.1, fun h => by simp at h⟩, fun _ => ⟨X0, q.1, ?_, hq⟩⟩
    rw [c1]; simp

/-- The next leaf, read off the level. -/
theorem next_facts {s : State} {mn : Int} {X Y : List Item} {lo : Option bpt_t} {a : Int}
    {n : bpt_node} (hi : InnerOK s mn (X ++ (lo, a) :: Y)) (hm : s.mem a = some n) :
    (n.nxt = 0 ↔ Y = []) ∧
    (n.nxt ≠ 0 → ∃ ln Y1, Y = (ln, n.nxt) :: Y1 ∧ NodeOK s mn n.nxt) := by
  obtain ⟨_, _, n1, hm1, -, -, -, -, c2, -, -⟩ := focus_facts hi
  rw [hm] at hm1; cases Option.some.inj hm1
  cases Y with
  | nil =>
    simp at c2
    exact ⟨⟨fun _ => rfl, fun _ => c2⟩, fun h => absurd c2 h⟩
  | cons q Y1 =>
    simp only [List.map_cons, List.headD_cons] at c2
    have hq := hi.1 q (by simp)
    rw [← c2] at hq
    refine ⟨⟨fun h => absurd h hq.1, fun h => by simp at h⟩, fun _ => ⟨q.1, Y1, ?_, hq⟩⟩
    rw [c2]

/-! ## `leaf_insert`: the minimum goes to the previous leaf -/

theorem node_ents_push {np : bpt_node} (x : bpt_entry) (h0 : 0 ≤ np.nkey) :
    node_ents { np with entries := Function.update np.entries np.nkey x, nkey := np.nkey + 1 } =
      node_ents np ++ [x] := by
  apply List.ext_getElem?
  intro i
  simp only [getElem?_node_ents, List.getElem?_append, List.getElem?_cons, length_node_ents,
    Function.update_apply, List.getElem?_nil]
  split_ifs <;> first | rfl | omega | (congr 2; omega)

theorem node_ents_shift_insert {n : bpt_node} {off : Int} (e : bpt_entry) (h0 : 1 ≤ off)
    (h1 : off ≤ n.nkey) :
    node_ents { n with entries := Function.update (moved n n 0 1 (off - 1)) (off - 1) e } =
      ((node_ents n).take off.toNat).drop 1 ++ e :: (node_ents n).drop off.toNat := by
  apply List.ext_getElem?
  intro i
  simp only [getElem?_node_ents, List.getElem?_append, List.getElem?_take, List.getElem?_drop,
    List.getElem?_cons, List.length_take, List.length_drop, length_node_ents, moved,
    Function.update_apply]
  have hoff : ((off.toNat : Nat) : Int) = off := Int.toNat_of_nonneg (by omega)
  split_ifs <;> first | rfl | omega | (congr 2; omega)

theorem cons_drop_one_take {n : bpt_node} {off : Int} (h0 : 1 ≤ off) (h1 : off ≤ n.nkey) :
    n.entries 0 :: ((node_ents n).take off.toNat).drop 1 = (node_ents n).take off.toNat := by
  apply List.ext_getElem?
  intro i
  simp only [getElem?_node_ents, List.getElem?_take, List.getElem?_drop, List.getElem?_cons]
  split_ifs <;> first | rfl | omega | (congr 2; omega) | (subst_vars; rfl)

theorem leaf_insert_prv_spec {cmp : bpt_t → bpt_t → Int} {t : State} {stk : gen_stk}
    {U : List Int} {X0 Y : List Item} {lp lo : Option bpt_t} {prv leaf : Int} {e : bpt_entry}
    {n np : bpt_node} {off : Int}
    (hs : LeafSit cmp t stk U (X0 ++ [(lp, prv)]) lo leaf Y e.key)
    (hm : t.mem leaf = some n) (hmp : t.mem prv = some np)
    (h : Miss cmp e.key n off) (hfull : n.nkey = t.bstat.order)
    (hpi : np.nkey < t.bstat.order) :
    ∃ t1, leaf_insert_prv t e leaf off prv np.nkey stk = some t1 ∧ WF cmp t1 ∧
      t1.alloc = t.alloc ∧
      ∃ A B, tree_entries t = A ++ B ∧ tree_entries t1 = A ++ e :: B := by
  obtain ⟨l0, lb, n1, hm1, hn0, hn1, hn2, -, -, -, -⟩ := hs.node
  rw [hm] at hm1; cases Option.some.inj hm1
  have hok := hs.ok
  have hX : X0 ++ [(lp, prv)] ≠ [] := by simp
  have hoff := h.off_pos hs hm hX
  obtain ⟨lU, lX, lY⟩ := hs.notin
  have hpl : prv ≠ leaf := by
    intro hh; apply lX; rw [← hh]; simp
  have hpok := hok.1.1 (lp, prv) (by simp)
  obtain ⟨p0, pb, np1, hmp1, hp0, hp1, hp2⟩ := hpok
  simp only at hmp1 p0 pb
  rw [hmp] at hmp1; cases Option.some.inj hmp1
  have hpU : prv ∉ U := by
    obtain ⟨_, _, _, h4, _⟩ := nodup_focus hs.nd
    exact h4 prv (by simp)
  obtain ⟨l, hlo⟩ := Sep.left_last hs.ctx.sep hX
  have ho1 := h.2.1
  -- the run
  unfold leaf_insert_prv
  rw [get_entry_eq l0 hm (le_refl _) (by omega)]
  simp only [Option.bind_eq_bind, Option.some_bind]
  rw [set_entry_eq p0 hmp hp0 (by omega)]
  simp only [Option.some_bind]
  have hm2 : (wr t prv { np with entries := Function.update np.entries np.nkey (n.entries 0) }).mem
      leaf = some n := (wr_mem_of_ne _ hpl.symm).trans hm
  rw [memmove_eq 0 1 (off - 1) l0 hm2 l0 hm2 (by omega) (fun _ => by simp; omega)]
  simp only [Option.some_bind]
  rw [set_entry_eq l0 (wr_mem_same _ _ _) (by omega) (by simp; omega)]
  simp only [Option.some_bind, wr_wr]
  rw [get_entry_eq l0 (wr_mem_same _ _ _) (le_refl _) (by simp; omega)]
  simp only [Option.some_bind]
  generalize hP1 : ({ np with entries := Function.update np.entries np.nkey (n.entries 0) } :
    bpt_node) = P1
  generalize hL2 : ({ n with entries := Function.update (moved n n 0 1 (off - 1)) (off - 1) e } :
    bpt_node) = L2
  have hA3 : Agree t (wr (wr t prv P1) leaf L2) U := by
    intro b hb
    rw [wr_mem_of_ne _ (ne_of_mem_of_not_mem hb lU), wr_mem_of_ne _ (ne_of_mem_of_not_mem hb hpU)]
  have hc3 := hs.ctx.frame (Ext.wr _ _ _ |>.trans_ext (Ext.wr _ _ _)) rfl hA3
  rw [hlo] at hc3
  obtain ⟨mo, mn, nm, -, e2, e3, e4, e5, e6, e7, -, e9⟩ := hc3.left_sep.2 l rfl
  obtain ⟨e10, hc4⟩ := e9 (L2.entries 0).key
  have hmnp : mn ≠ prv := ne_of_mem_of_not_mem e2 hpU
  have hmnl : mn ≠ leaf := ne_of_mem_of_not_mem e2 lU
  have hk : (Function.update (moved n n 0 1 (off - 1)) (off - 1) e 0).key = (L2.entries 0).key := by
    rw [← hL2]
  rw [hk, e10]
  simp only [Option.some_bind]
  have hm5 : (wr (wr (wr t prv P1) leaf L2) mn (with_key nm mo (L2.entries 0).key)).mem prv =
      some P1 := by
    rw [wr_mem_of_ne _ hmnp.symm, wr_mem_of_ne _ hpl, wr_mem_same]
  rw [set_nkey_eq p0 hm5]
  generalize hP2 : ({ P1 with nkey := np.nkey + 1 } : bpt_node) = P2
  generalize ht5 : wr (wr (wr (wr t prv P1) leaf L2) mn (with_key nm mo (L2.entries 0).key))
    prv P2 = t5
  have hext : Ext t t5 := by
    rw [← ht5]
    exact (Ext.wr _ _ _).trans_ext ((Ext.wr _ _ _).trans_ext ((Ext.wr _ _ _).trans_ext (Ext.wr _ _ _)))
  have g1 : t5.mem prv = some P2 := by rw [← ht5]; exact wr_mem_same _ _ _
  have g2 : t5.mem leaf = some L2 := by
    rw [← ht5, wr_mem_of_ne _ hpl.symm, wr_mem_of_ne _ hmnl.symm, wr_mem_same]
  have g3 : ∀ b, b ≠ prv → b ≠ leaf → b ≠ mn → t5.mem b = t.mem b := by
    intro b b1 b2 b3
    rw [← ht5, wr_mem_of_ne _ b1, wr_mem_of_ne _ b3, wr_mem_of_ne _ b2, wr_mem_of_ne _ b1]
  have hc5 : Ctx t5 stk U (X0 ++ [(lp, prv)]) (some (L2.entries 0).key) leaf Y := by
    refine hc4.frame ?_ ?_ ?_
    · rw [← ht5]; exact Ext.wr _ _ _
    · rw [← ht5]; rfl
    · intro b hb
      rw [← ht5]; exact wr_mem_of_ne _ (ne_of_mem_of_not_mem hb hpU)
  have hAL : ∀ b ∈ (X0 ++ Y).map Prod.snd, t5.mem b = t.mem b := by
    intro b hb
    have hnd := hs.nd
    have hbU : b ∉ U := by
      obtain ⟨_, _, _, h4, h5⟩ := nodup_focus hnd
      simp only [List.map_append, List.mem_append] at hb
      rcases hb with hb | hb
      · exact h4 b (by simp; exact Or.inl (by simpa using hb))
      · exact h5 b hb
    have hnd2 : ((X0 ++ [(lp, prv)] ++ (lo, leaf) :: Y).map Prod.snd).Nodup :=
      (List.nodup_append.mp hnd).2.1
    simp only [List.map_append, List.map_cons, List.map_nil, List.append_assoc,
      List.singleton_append] at hnd2
    have hbp : b ≠ prv ∧ b ≠ leaf := by
      simp only [List.map_append, List.mem_append] at hb
      rw [List.nodup_append] at hnd2
      obtain ⟨_, q2, q3⟩ := hnd2
      rw [List.nodup_cons, List.nodup_cons] at q2
      rcases hb with hb | hb
      · exact ⟨fun hh => q3 hb (by simp [hh]), fun hh => q3 hb (by simp [hh])⟩
      · refine ⟨fun hh => q2.1 (by simp [← hh, hb]), fun hh => q2.2.1 (hh ▸ hb)⟩
    exact g3 b hbp.1 hbp.2 (ne_of_mem_of_not_mem e2 hbU).symm
  have hP2e : node_ents P2 = node_ents np ++ [n.entries 0] := by
    rw [← hP2, ← hP1]; exact node_ents_push _ hp0
  have hL2e : node_ents L2 =
      ((node_ents n).take off.toNat).drop 1 ++ e :: (node_ents n).drop off.toNat := by
    rw [← hL2]; exact node_ents_shift_insert e hoff h.2.1
  have hL20 : 0 < L2.nkey := by rw [← hL2]; simp; omega
  have hok1 : LeafOK t cmp (min_leaf t stk.isEmpty) (X0 ++ (lp, prv) :: (lo, leaf) :: Y) := by
    simpa using hok
  have hpwold := h.pairwise hs hm
  have hok5 : LeafOK t5 cmp (min_leaf t stk.isEmpty)
      (X0 ++ (lp, prv) :: (some (L2.entries 0).key, leaf) :: Y) := by
    refine leafOK_update2 hok1 hmp hm hext hAL g1 g2 (by rw [← hP2, ← hP1])
      (by rw [← hP2, ← hP1]) (by rw [← hL2]) (by rw [← hL2])
      (by rw [← hP2, ← hP1]; simp; omega) (by rw [← hL2]; simp; omega) ?_ ?_ ?_
    · rw [hP2e, hL2e]
      simp only [List.map_append, contents_append, contents, List.map_cons, List.map_nil,
        leaf_ents_of_mem hmp, List.append_nil, List.append_assoc] at hpwold ⊢
      rw [← cons_drop_one_take hoff h.2.1] at hpwold
      simpa using hpwold
    · intro l1 hl1
      obtain ⟨n3, hn3, hk1, hk2⟩ := hok.2.2 (lp, prv) (by simp) l1 hl1
      simp only at hn3
      rw [hmp] at hn3; cases Option.some.inj hn3
      refine ⟨by rw [← hP2, ← hP1]; simp; omega, ?_⟩
      rw [← hP2, ← hP1]
      simp only [Function.update_apply]
      rw [if_neg (by omega)]
      exact hk2
    · intro l1 hl1
      simp only [Option.some.injEq] at hl1
      exact ⟨hL20, hl1⟩
  have hwf : WF cmp t5 := by
    refine WF_of_leaf (by rw [← ht5]; exact hs.hp) (by rw [← ht5]; exact hs.hb) hc5
      (by rw [← ht5]; exact hs.len) ?_ (by simpa using hs.nd)
    rw [min_leaf_congr hext]
    simpa using hok5
  refine ⟨t5, rfl, hwf, by rw [← ht5]; rfl, ?_⟩
  refine ⟨contents t (X0.map Prod.snd) ++ node_ents np ++ (node_ents n).take off.toNat,
      (node_ents n).drop off.toNat ++ contents t (Y.map Prod.snd), ?_, ?_⟩
  · rw [hs.entries hm]
    simp only [List.map_append, contents_append, contents, List.map_cons, List.map_nil,
      leaf_ents_of_mem hmp, List.append_nil, List.append_assoc]
    rw [← List.append_assoc (List.take _ _), List.take_append_drop]
  · rw [tree_entries_of_ctx hc5 (by rw [← ht5]; exact hs.len)]
    simp only [List.map_append, contents_append, contents, List.map_cons, List.map_nil,
      leaf_ents_of_mem g1, leaf_ents_of_mem g2, List.append_nil, List.append_assoc, hP2e, hL2e]
    rw [contents_congr (fun b hb => hAL b (by simp at hb ⊢; exact Or.inl hb)),
      contents_congr (fun b hb => hAL b (by simp at hb ⊢; exact Or.inr hb))]
    rw [← cons_drop_one_take hoff h.2.1]
    simp

/-! ## `leaf_insert`: the maximum goes to the next leaf -/

theorem node_ents_unshift {nn : bpt_node} (x : bpt_entry) (h0 : 0 ≤ nn.nkey) :
    node_ents { nn with
        entries := Function.update (moved nn nn 1 0 nn.nkey) 0 x
        nkey := nn.nkey + 1 } = x :: node_ents nn := by
  apply List.ext_getElem?
  intro i
  simp only [getElem?_node_ents, List.getElem?_cons, moved, Function.update_apply]
  split_ifs <;> first | rfl | omega | (congr 2; omega)

theorem node_ents_insert_full {n : bpt_node} {off m : Int} (e : bpt_entry) (h0 : 0 ≤ off)
    (h1 : off < n.nkey) (hm : m = n.nkey) :
    node_ents { n with
        entries := Function.update (moved n n (off + 1) off (m - off - 1)) off e } ++
        [n.entries (m - 1)] =
      (node_ents n).take off.toNat ++ e :: (node_ents n).drop off.toNat := by
  subst hm
  apply List.ext_getElem?
  intro i
  simp only [getElem?_node_ents, List.getElem?_append, List.getElem?_take, List.getElem?_drop,
    List.getElem?_cons, List.length_take, length_node_ents, moved, Function.update_apply,
    List.getElem?_nil]
  have hoff : ((off.toNat : Nat) : Int) = off := Int.toNat_of_nonneg h0
  split_ifs <;> first | rfl | omega | (congr 2; omega)

/-- The two leaves after the displacement step of the branch. -/
theorem leaf_insert_nxt_fill {t : State} {leaf nxt : Int} {n nn : bpt_node} (e : bpt_entry)
    {off : Int} (l0 : leaf ≠ 0) (x0 : nxt ≠ 0) (hne : nxt ≠ leaf)
    (hm : t.mem leaf = some n) (hmx : t.mem nxt = some nn)
    (ho0 : 0 ≤ off) (ho1 : off ≤ n.nkey) (hfull : n.nkey = t.bstat.order)
    (hx0 : 0 ≤ nn.nkey) (hx1 : nn.nkey < t.bstat.order) :
    ∃ L2 N2, memmove t nxt 1 nxt 0 nn.nkey =
        some (wr t nxt { nn with entries := moved nn nn 1 0 nn.nkey }) ∧
      (∀ f : State → Option State,
        (if off = t.bstat.order then
          (set_entry (wr t nxt { nn with entries := moved nn nn 1 0 nn.nkey }) nxt 0 e).bind f
        else
          (get_entry (wr t nxt { nn with entries := moved nn nn 1 0 nn.nkey }) leaf
            (t.bstat.order - 1)).bind fun el =>
          (set_entry (wr t nxt { nn with entries := moved nn nn 1 0 nn.nkey }) nxt 0 el).bind
            fun t1 =>
          (memmove t1 leaf (off + 1) leaf off (t.bstat.order - off - 1)).bind fun t2 =>
          (set_entry t2 leaf off e).bind f) = f (wr (wr t nxt N2) leaf L2)) ∧
      L2.nkey = n.nkey ∧ L2.prv = n.prv ∧ L2.nxt = n.nxt ∧
      N2.nkey = nn.nkey ∧ N2.prv = nn.prv ∧ N2.nxt = nn.nxt ∧
      (1 ≤ off → L2.entries 0 = n.entries 0) ∧
      node_ents L2 ++ node_ents { N2 with nkey := nn.nkey + 1 } =
        (node_ents n).take off.toNat ++ e :: ((node_ents n).drop off.toNat ++ node_ents nn) := by
  have hmv := memmove_eq 1 0 nn.nkey x0 hmx x0 hmx hx0 (fun _ => by omega)
  by_cases hoff : off = t.bstat.order
  · refine ⟨n, { nn with entries := Function.update (moved nn nn 1 0 nn.nkey) 0 e }, hmv,
      ?_, rfl, rfl, rfl, rfl, rfl, rfl, fun _ => rfl, ?_⟩
    · intro f
      rw [if_pos hoff, set_entry_eq x0 (wr_mem_same _ _ _) (le_refl _) (by simp; omega)]
      simp only [wr_wr, Option.some_bind]
      rw [wr_self ((wr_mem_of_ne _ hne.symm).trans hm)]
    · rw [node_ents_unshift e hx0]
      have : (node_ents n).drop off.toNat = [] := by
        apply List.drop_eq_nil_of_le
        rw [length_node_ents]; omega
      rw [this, List.take_of_length_le (by rw [length_node_ents]; omega)]
      simp
  · have hlt : off < n.nkey := by omega
    have hm2 : ∀ N : bpt_node, (wr t nxt N).mem leaf = some n :=
      fun N => (wr_mem_of_ne N hne.symm).trans hm
    refine ⟨{ n with entries :=
        Function.update (moved n n (off + 1) off (t.bstat.order - off - 1)) off e },
      { nn with entries :=
        Function.update (moved nn nn 1 0 nn.nkey) 0 (n.entries (t.bstat.order - 1)) },
      hmv, ?_, rfl, rfl, rfl, rfl, rfl, rfl, ?_, ?_⟩
    · intro f
      rw [if_neg hoff]
      rw [get_entry_eq l0 ((wr_mem_of_ne _ hne.symm).trans hm) (by simp; omega) (by simp)]
      simp only [Option.some_bind]
      rw [set_entry_eq x0 (wr_mem_same _ _ _) (le_refl _) (by simp; omega)]
      simp only [Option.some_bind, wr_wr]
      rw [memmove_eq (off + 1) off (t.bstat.order - off - 1) l0 (hm2 _) l0 (hm2 _)
        (by simp; omega) (fun _ => by simp; omega)]
      simp only [Option.some_bind]
      rw [set_entry_eq l0 (wr_mem_same _ _ _) ho0 (by simp; omega)]
      simp only [wr_wr, Option.some_bind]
    · intro h1
      simp only [moved, Function.update_apply]
      rw [if_neg (by omega), if_neg (by omega)]
    · rw [node_ents_unshift _ hx0]
      rw [show ∀ (l : List bpt_entry) (x : bpt_entry) (r : List bpt_entry),
        l ++ x :: r = (l ++ [x]) ++ r from fun l x r => by simp]
      rw [node_ents_insert_full e ho0 hlt hfull.symm]
      simp

theorem leaf_insert_nxt_spec {cmp : bpt_t → bpt_t → Int} {t : State} {stk : gen_stk}
    {U : List Int} {X Y1 : List Item} {lo ln : Option bpt_t} {nxt leaf : Int} {e : bpt_entry}
    {n nn : bpt_node} {off : Int}
    (hs : LeafSit cmp t stk U X lo leaf ((ln, nxt) :: Y1) e.key)
    (hm : t.mem leaf = some n) (hmx : t.mem nxt = some nn)
    (h : Miss cmp e.key n off) (hfull : n.nkey = t.bstat.order)
    (hni : nn.nkey < t.bstat.order) :
    ∃ t1, leaf_insert_nxt t e leaf off nxt nn.nkey stk = some t1 ∧ WF cmp t1 ∧
      t1.alloc = t.alloc ∧
      ∃ A B, tree_entries t = A ++ B ∧ tree_entries t1 = A ++ e :: B := by
  obtain ⟨l0, lb, n1, hm1, hn0, hn1, hn2, -, -, -, -⟩ := hs.node
  rw [hm] at hm1; cases Option.some.inj hm1
  have hok := hs.ok
  obtain ⟨lU, lX, lY⟩ := hs.notin
  have hxl : nxt ≠ leaf := by
    intro hh; apply lY; rw [← hh]; simp
  obtain ⟨x0, xb, nn1, hmx1, hx0, hx1, hx2⟩ := hok.1.1 (ln, nxt) (by simp)
  simp only at hmx1 x0 xb
  rw [hmx] at hmx1; cases Option.some.inj hmx1
  have hxU : nxt ∉ U := by
    obtain ⟨_, _, _, _, h5⟩ := nodup_focus hs.nd
    exact h5 nxt (by simp)
  have ho1 := h.2.1
  obtain ⟨L2, N2, r0, r1, q1, q2, q3, q4, q5, q6, q7, q8⟩ :=
    leaf_insert_nxt_fill e l0 x0 hxl hm hmx h.1 h.2.1 hfull hx0 hni
  unfold leaf_insert_nxt
  simp only [Option.bind_eq_bind]
  rw [r0]
  simp only [Option.some_bind]
  rw [r1]
  have hA2 : Agree t (wr (wr t nxt N2) leaf L2) U := by
    intro b hb
    rw [wr_mem_of_ne _ (ne_of_mem_of_not_mem hb lU), wr_mem_of_ne _ (ne_of_mem_of_not_mem hb hxU)]
  have hc2 := hs.ctx.frame (Ext.wr _ _ _ |>.trans_ext (Ext.wr _ _ _)) rfl hA2
  obtain ⟨mo, mn, nm, e1, e2, e3, e4, e5, e6, e7, -, e9⟩ := hc2.right_sep.2 (by simp)
  have hmnx : mn ≠ nxt := ne_of_mem_of_not_mem e2 hxU
  have hmnl : mn ≠ leaf := ne_of_mem_of_not_mem e2 lU
  rw [e1]
  simp only [Option.some_bind]
  rw [if_neg (by omega)]
  have hm3 : (wr (wr t nxt N2) leaf L2).mem nxt = some N2 := by
    rw [wr_mem_of_ne _ hxl, wr_mem_same]
  rw [get_entry_eq x0 hm3 (le_refl _) (by simp; omega)]
  simp only [Option.some_bind]
  simp only [wr_bstat] at e7
  rw [set_key_eq' e3 e4 e5 (by simp; omega)]
  simp only [Option.some_bind]
  have hm4 : (wr (wr (wr t nxt N2) leaf L2) mn (with_key nm mo (N2.entries 0).key)).mem nxt =
      some N2 := by
    rw [wr_mem_of_ne _ hmnx.symm, hm3]
  rw [set_nkey_eq x0 hm4]
  have hc4 := e9 (N2.entries 0).key
  simp only [set_hi, Option.map] at hc4
  generalize hN3 : ({ N2 with nkey := nn.nkey + 1 } : bpt_node) = N3 at q8 ⊢
  generalize ht5 : wr (wr (wr (wr t nxt N2) leaf L2) mn (with_key nm mo (N2.entries 0).key))
    nxt N3 = t5
  have hext : Ext t t5 := by
    rw [← ht5]
    exact (Ext.wr _ _ _).trans_ext ((Ext.wr _ _ _).trans_ext ((Ext.wr _ _ _).trans_ext (Ext.wr _ _ _)))
  have g1 : t5.mem nxt = some N3 := by rw [← ht5]; exact wr_mem_same _ _ _
  have g2 : t5.mem leaf = some L2 := by
    rw [← ht5, wr_mem_of_ne _ hxl.symm, wr_mem_of_ne _ hmnl.symm, wr_mem_same]
  have g3 : ∀ b, b ≠ nxt → b ≠ leaf → b ≠ mn → t5.mem b = t.mem b := by
    intro b b1 b2 b3
    rw [← ht5, wr_mem_of_ne _ b1, wr_mem_of_ne _ b3, wr_mem_of_ne _ b2, wr_mem_of_ne _ b1]
  obtain ⟨lnv, hln⟩ := Sep.right hs.ctx.sep (ln, nxt) (by simp)
  simp only at hln
  subst hln
  have hc5 : Ctx t5 stk U X lo leaf ((some (N2.entries 0).key, nxt) :: Y1) := by
    refine hc4.frame ?_ ?_ ?_
    · rw [← ht5]; exact Ext.wr _ _ _
    · rw [← ht5]; rfl
    · intro b hb
      rw [← ht5]; exact wr_mem_of_ne _ (ne_of_mem_of_not_mem hb hxU)
  have hAL : ∀ b ∈ (X ++ Y1).map Prod.snd, t5.mem b = t.mem b := by
    intro b hb
    have hnd := hs.nd
    have hbU : b ∉ U := by
      obtain ⟨_, _, _, h4, h5⟩ := nodup_focus hnd
      simp only [List.map_append, List.mem_append] at hb
      rcases hb with hb | hb
      · exact h4 b hb
      · exact h5 b (by simp; exact Or.inr (by simpa using hb))
    have hnd2 : ((X ++ (lo, leaf) :: (some lnv, nxt) :: Y1).map Prod.snd).Nodup :=
      (List.nodup_append.mp hnd).2.1
    simp only [List.map_append, List.map_cons] at hnd2
    have hbp : b ≠ nxt ∧ b ≠ leaf := by
      simp only [List.map_append, List.mem_append] at hb
      rw [List.nodup_append] at hnd2
      obtain ⟨_, q2, q3⟩ := hnd2
      rw [List.nodup_cons, List.nodup_cons] at q2
      rcases hb with hb | hb
      · exact ⟨fun hh => q3 hb (by simp [hh]), fun hh => q3 hb (by simp [hh])⟩
      · refine ⟨fun hh => q2.2.1 (hh ▸ hb), fun hh => q2.1 (by simp [← hh, hb])⟩
    exact g3 b hbp.1 hbp.2 (ne_of_mem_of_not_mem e2 hbU).symm
  have hN30 : 0 < N3.nkey := by rw [← hN3]; simp; omega
  have hN3e : N3.entries 0 = N2.entries 0 := by rw [← hN3]
  have hpwold := h.pairwise hs hm
  have hok5 : LeafOK t5 cmp (min_leaf t stk.isEmpty)
      (X ++ (lo, leaf) :: (some (N2.entries 0).key, nxt) :: Y1) := by
    refine leafOK_update2 hok hm hmx hext hAL g2 g1 q2 q3 (by rw [← hN3]; exact q5)
      (by rw [← hN3]; exact q6)
      (by rw [q1]; omega) (by rw [← hN3]; simp; omega) ?_ ?_ ?_
    · simp only [List.map_append, contents_append, contents, List.map_cons, List.map_nil,
        leaf_ents_of_mem hmx, List.append_nil, List.append_assoc] at hpwold ⊢
      rw [← List.append_assoc (List.map _ (node_ents L2)), ← List.map_append, q8]
      simpa using hpwold
    · intro l1 hl1
      obtain ⟨n3, hn3, hk1, hk2⟩ := hok.2.2 (lo, leaf) (by simp) l1 hl1
      simp only at hn3
      rw [hm] at hn3; cases Option.some.inj hn3
      have hX : X ≠ [] := by
        intro hX
        have := (Sep.lo_none hs.ctx.sep).mpr hX
        rw [this] at hl1; simp at hl1
      have hoff := h.off_pos hs hm hX
      exact ⟨by rw [q1]; exact hk1, by rw [q7 hoff]; exact hk2⟩
    · intro l1 hl1
      simp only [Option.some.injEq] at hl1
      exact ⟨hN30, by rw [hN3e]; exact hl1⟩
  have hnd5 : (U ++ (X ++ (lo, leaf) :: (some (N2.entries 0).key, nxt) :: Y1).map
      Prod.snd).Nodup := by
    simpa using hs.nd
  have hwf : WF cmp t5 := by
    refine WF_of_leaf (by rw [← ht5]; exact hs.hp) (by rw [← ht5]; exact hs.hb) hc5
      (by rw [← ht5]; exact hs.len) ?_ hnd5
    rw [min_leaf_congr hext]
    exact hok5
  refine ⟨t5, rfl, hwf, by rw [← ht5]; rfl, ?_⟩
  refine ⟨contents t (X.map Prod.snd) ++ (node_ents n).take off.toNat,
      (node_ents n).drop off.toNat ++ (node_ents nn ++ contents t (Y1.map Prod.snd)), ?_, ?_⟩
  · rw [hs.entries hm]
    simp only [List.map_append, contents_append, contents, List.map_cons, List.map_nil,
      leaf_ents_of_mem hmx, List.append_nil, List.append_assoc]
    rw [← List.append_assoc (List.take _ _), List.take_append_drop]
  · rw [tree_entries_of_ctx hc5 (by rw [← ht5]; exact hs.len)]
    simp only [List.map_append, contents_append, contents, List.map_cons, List.map_nil,
      leaf_ents_of_mem g1, leaf_ents_of_mem g2, List.append_nil, List.append_assoc]
    rw [contents_congr (fun b hb => hAL b (by simp at hb ⊢; exact Or.inl hb)),
      contents_congr (fun b hb => hAL b (by simp at hb ⊢; exact Or.inr hb)),
      ← List.append_assoc (node_ents L2), q8]
    simp

/-! ## Thresholds and allocation -/

theorem params_arith {b : bpt_stat} (h : ParamsOK b) :
    3 ≤ b.order ∧ b.old_inter_nkey + b.new_inter_nkey = b.order ∧ 1 ≤ b.new_inter_nkey ∧
    b.new_inter_nkey ≤ b.old_inter_nkey ∧ b.old_inter_nkey ≤ b.new_inter_nkey + 1 ∧
    b.old_leaf_nkey + b.new_leaf_nkey = b.order + 1 ∧ 2 ≤ b.new_leaf_nkey ∧
    b.new_leaf_nkey ≤ b.old_leaf_nkey ∧ b.old_leaf_nkey ≤ b.new_leaf_nkey + 1 := by
  obtain ⟨h3, h4, h5, h6, h7⟩ := h
  have hdiv : Int.tdiv b.order 2 = b.order / 2 := Int.tdiv_eq_ediv (by omega) (by omega)
  rw [hdiv] at h4 h5 h6 h7
  omega

@[simp] theorem grow_mem (s : State) : (grow s).mem = s.mem := rfl
@[simp] theorem grow_bstat (s : State) : (grow s).bstat = s.bstat := rfl
@[simp] theorem grow_alloc (s : State) : (grow s).alloc = s.alloc := rfl
@[simp] theorem grow_brk (s : State) : (grow s).brk = s.brk + 1 := rfl

theorem Ext.grow (s : State) : Ext s (grow s) :=
  ⟨⟨rfl, rfl, rfl, rfl, rfl⟩, by simp⟩

theorem node_new_ok {s : State} (prv nxt : Int) (h : (alloc_request s).1 = true) :
    bpt_node_new s prv nxt =
      ((alloc_request s).2.brk,
        grow (wr (alloc_request s).2 (alloc_request s).2.brk (fresh_node prv nxt))) := by
  simp only [bpt_node_new, h, if_true]
  rfl

theorem node_new_fail {s : State} (prv nxt : Int) (h : (alloc_request s).1 = false) :
    bpt_node_new s prv nxt = (0, (alloc_request s).2) := by
  simp [bpt_node_new, h]

/-! ## Sibling chains under insertion and removal -/

theorem Chain.rehead {s t : State} {y : Int} {Y1 : List Int} {a new q : Int} {ny my : bpt_node}
    (hc : Chain s a (y :: Y1) q) (hs : s.mem y = some ny) (ht : t.mem y = some my)
    (hx : my.nxt = ny.nxt) (hp : my.prv = new) (hA : Agree s t Y1) :
    Chain t new (y :: Y1) q := by
  obtain ⟨⟨n1, h1, _, h3⟩, h4⟩ := hc
  rw [hs] at h1; cases Option.some.inj h1
  exact ⟨⟨my, ht, hp, hx.trans h3⟩, Chain.congr_chain hA h4⟩

theorem Chain.relast {s t : State} {X : List Int} {p new : Int}
    (hA : ∀ b ∈ X.dropLast, t.mem b = s.mem b)
    (hl : ∀ x, X.getLast? = some x → ∀ nx, s.mem x = some nx →
      ∃ mx, t.mem x = some mx ∧ mx.prv = nx.prv ∧ mx.nxt = new) :
    ∀ {a : Int}, Chain s p X a → Chain t p X new := by
  induction X generalizing p with
  | nil => intro a _; trivial
  | cons x X1 ih =>
    intro a hc
    obtain ⟨⟨n1, h1, h2, h3⟩, h4⟩ := hc
    cases X1 with
    | nil =>
      obtain ⟨mx, m1, m2, m3⟩ := hl x (by simp) n1 h1
      exact ⟨⟨mx, m1, m2.trans h2, by simpa using m3⟩, trivial⟩
    | cons x2 X2 =>
      have hx : t.mem x = s.mem x := hA x (by simp [List.dropLast])
      refine ⟨⟨n1, hx.trans h1, h2, by simpa using h3⟩, ?_⟩
      refine ih (fun b hb => hA b (by simp [List.dropLast] at hb ⊢; exact Or.inr hb)) ?_ h4
      intro z hz
      exact hl z (by simpa [List.getLast?_cons_cons] using hz)

/-! ## Splitting a leaf -/

theorem link_prv_run (s3 : State) (x new : Int) (hx : x ≠ 0 → ∃ ny, s3.mem x = some ny) :
    ∃ s4, (∀ (β : Type) (f : State → Option β),
        (if x ≠ 0 then (bpt_node_set_prv s3 x new).bind f else f s3) = f s4) ∧
      s4.bstat = s3.bstat ∧ s4.brk = s3.brk ∧ s4.alloc = s3.alloc ∧
      (∀ b, b ≠ x → s4.mem b = s3.mem b) ∧
      (∀ ny, x ≠ 0 → s3.mem x = some ny → s4.mem x = some { ny with prv := new }) := by
  by_cases h : x = 0
  · exact ⟨s3, fun _ f => by simp [h], rfl, rfl, rfl, fun _ _ => rfl, fun _ h1 => absurd h h1⟩
  · obtain ⟨ny, hy⟩ := hx h
    refine ⟨wr s3 x { ny with prv := new }, ?_, rfl, rfl, rfl, ?_, ?_⟩
    · intro _ f
      rw [if_pos h, set_prv_eq h hy]
      rfl
    · intro b hb
      exact wr_mem_of_ne _ hb
    · intro ny1 _ h1
      rw [hy] at h1; cases Option.some.inj h1
      exact wr_mem_same _ _ _

theorem leaf_split_ents_hi {n : bpt_node} {F : bpt_node} {off old nw : Int} (e : bpt_entry)
    {lf x y : Int}
    (h1 : old + nw = n.nkey + 1) (h2 : 2 ≤ nw) (h3 : nw ≤ old) (ho : old ≤ off)
    (ho1 : off ≤ n.nkey) :
    node_ents { n with nkey := old, nxt := x } ++
      node_ents { entries := (moved
          ({ F with entries := Function.update (moved F n 0 old (off - old)) (off - old) e })
          n (off - old + 1) off (n.nkey - off)), nkey := nw, prv := lf, nxt := y } =
      (node_ents n).take off.toNat ++ e :: (node_ents n).drop off.toNat := by
  apply List.ext_getElem?
  intro i
  simp only [getElem?_node_ents, List.getElem?_append, List.getElem?_take, List.getElem?_drop,
    List.getElem?_cons, List.length_take, length_node_ents, moved, Function.update_apply]
  have hoff : ((off.toNat : Nat) : Int) = off := Int.toNat_of_nonneg (by omega)
  have hold : ((old.toNat : Nat) : Int) = old := Int.toNat_of_nonneg (by omega)
  split_ifs <;> first | rfl | omega | (congr 2; omega)

theorem leaf_split_ents_lo {n : bpt_node} {F : bpt_node} {off old nw : Int} (e : bpt_entry)
    {lf x y : Int}
    (h1 : old + nw = n.nkey + 1) (h2 : 2 ≤ nw) (h3 : nw ≤ old) (ho0 : 0 ≤ off) (ho : off < old) :
    node_ents { n with
        entries := Function.update (moved n n (off + 1) off (old - off - 1)) off e
        nkey := old, nxt := x } ++
      node_ents { entries := moved F n 0 (old - 1) nw, nkey := nw, prv := lf, nxt := y } =
      (node_ents n).take off.toNat ++ e :: (node_ents n).drop off.toNat := by
  apply List.ext_getElem?
  intro i
  simp only [getElem?_node_ents, List.getElem?_append, List.getElem?_take, List.getElem?_drop,
    List.getElem?_cons, List.length_take, length_node_ents, moved, Function.update_apply]
  have hoff : ((off.toNat : Nat) : Int) = off := Int.toNat_of_nonneg (by omega)
  have hold : ((old.toNat : Nat) : Int) = old := Int.toNat_of_nonneg (by omega)
  split_ifs <;> first | rfl | omega | (congr 2; omega)

/-- The leaf split of `leaf_insert`, run on a full leaf and its fresh sibling. -/
theorem leaf_split_run {s : State} {leaf new : Int} {n : bpt_node} (e : bpt_entry) {off : Int}
    (hp : ParamsOK s.bstat) (hl0 : leaf ≠ 0) (hn0 : new ≠ 0) (hne : new ≠ leaf)
    (hm : s.mem leaf = some n) (hF : s.mem new = some (fresh_node leaf n.nxt))
    (hx : n.nxt ≠ 0 → n.nxt ≠ leaf ∧ n.nxt ≠ new ∧ ∃ ny, s.mem n.nxt = some ny)
    (hfull : n.nkey = s.bstat.order) (ho0 : 0 ≤ off) (ho1 : off ≤ n.nkey) :
    ∃ t L N, leaf_insert_split s e leaf off n.nxt new = some t ∧
      t.bstat = s.bstat ∧ t.brk = s.brk ∧ t.alloc = s.alloc ∧
      t.mem leaf = some L ∧ t.mem new = some N ∧
      L.prv = n.prv ∧ L.nxt = new ∧ L.nkey = s.bstat.old_leaf_nkey ∧
      N.prv = leaf ∧ N.nxt = n.nxt ∧ N.nkey = s.bstat.new_leaf_nkey ∧
      node_ents L ++ node_ents N = (node_ents n).take off.toNat ++ e :: (node_ents n).drop off.toNat ∧
      (0 < off → L.entries 0 = n.entries 0) ∧
      (∀ ny, n.nxt ≠ 0 → s.mem n.nxt = some ny → t.mem n.nxt = some { ny with prv := new }) ∧
      (∀ b, b ≠ leaf → b ≠ new → b ≠ n.nxt → t.mem b = s.mem b) := by
  obtain ⟨p3, -, -, -, -, p5, p6, p7, p8⟩ := params_arith hp
  obtain ⟨L1, hL1⟩ : ∃ L1 : bpt_node, L1 = { n with nkey := s.bstat.old_leaf_nkey } := ⟨_, rfl⟩
  have e1 : bpt_node_set_nkey s leaf s.bstat.old_leaf_nkey = some (wr s leaf L1) := by
    rw [hL1]; exact set_nkey_eq hl0 hm _
  obtain ⟨N2, hN2⟩ : ∃ N2 : bpt_node,
    N2 = { fresh_node leaf n.nxt with nkey := s.bstat.new_leaf_nkey } := ⟨_, rfl⟩
  have e2 : bpt_node_set_nkey (wr s leaf L1) new s.bstat.new_leaf_nkey =
      some (wr (wr s leaf L1) new N2) := by
    rw [hN2]; exact set_nkey_eq hn0 ((wr_mem_of_ne _ hne).trans hF) _
  obtain ⟨L3, hL3⟩ : ∃ L3 : bpt_node, L3 = { L1 with nxt := new } := ⟨_, rfl⟩
  have e3 : bpt_node_set_nxt (wr (wr s leaf L1) new N2) leaf new =
      some (wr (wr (wr s leaf L1) new N2) leaf L3) := by
    rw [hL3]; exact set_nxt_eq hl0 ((wr_mem_of_ne _ hne.symm).trans (wr_mem_same _ _ _)) _
  obtain ⟨S3, hS3⟩ : ∃ S3 : State, S3 = wr (wr (wr s leaf L1) new N2) leaf L3 := ⟨_, rfl⟩
  rw [← hS3] at e3
  have m3l : S3.mem leaf = some L3 := by rw [hS3]; exact wr_mem_same _ _ _
  have m3n : S3.mem new = some N2 := by
    rw [hS3, wr_mem_of_ne _ hne]; exact wr_mem_same _ _ _
  have m3o : ∀ b, b ≠ leaf → b ≠ new → S3.mem b = s.mem b := by
    intro b h1 h2
    rw [hS3, wr_mem_of_ne _ h1, wr_mem_of_ne _ h2, wr_mem_of_ne _ h1]
  have b3 : S3.bstat = s.bstat := by rw [hS3]; rfl
  have k3 : S3.brk = s.brk := by rw [hS3]; rfl
  have a3 : S3.alloc = s.alloc := by rw [hS3]; rfl
  obtain ⟨s4, h4, b4, k4, a4, o4, x4⟩ := link_prv_run S3 n.nxt new (fun h => by
    obtain ⟨h1, h2, ny, hy⟩ := hx h
    exact ⟨ny, (m3o _ h1 h2).trans hy⟩)
  have hxl : leaf ≠ n.nxt := by
    intro h
    by_cases h0 : n.nxt = 0
    · exact hl0 (h.trans h0)
    · exact (hx h0).1 h.symm
  have hxn : new ≠ n.nxt := by
    intro h
    by_cases h0 : n.nxt = 0
    · exact hn0 (h.trans h0)
    · exact (hx h0).2.1 h.symm
  have m4l : s4.mem leaf = some L3 := (o4 leaf hxl).trans m3l
  have m4n : s4.mem new = some N2 := (o4 new hxn).trans m3n
  have hx4 : ∀ ny, n.nxt ≠ 0 → s.mem n.nxt = some ny →
      s4.mem n.nxt = some { ny with prv := new } := by
    intro ny h0 hy
    obtain ⟨h1, h2, _⟩ := hx h0
    exact x4 ny h0 ((m3o _ h1 h2).trans hy)
  have bo : s4.bstat.order = s.bstat.order := by rw [b4, b3]
  by_cases hge : s.bstat.old_leaf_nkey ≤ off
  · have run : ∃ N, leaf_insert_split s e leaf off n.nxt new = some (wr s4 new N) ∧
        N.prv = leaf ∧ N.nxt = n.nxt ∧ N.nkey = s.bstat.new_leaf_nkey ∧
        node_ents L3 ++ node_ents N =
          (node_ents n).take off.toNat ++ e :: (node_ents n).drop off.toNat := by
      refine Exists.intro ?w ⟨?g1, ?g2, ?g3, ?g4, ?g5⟩
      case g1 =>
        unfold leaf_insert_split
        simp only [Option.bind_eq_bind, e1, Option.some_bind, e2, e3]
        rw [h4, if_pos hge]
        rw [memcpy_eq 0 s.bstat.old_leaf_nkey (off - s.bstat.old_leaf_nkey) hn0 m4n hl0 m4l
          (by omega) (fun _ => by rw [bo]; omega) hne]
        simp only [Option.some_bind]
        rw [set_entry_eq hn0 (wr_mem_same _ _ _) (by omega) (by simp [bo]; omega)]
        simp only [Option.some_bind, wr_wr]
        rw [memcpy_eq (off - s.bstat.old_leaf_nkey + 1) off (s.bstat.order - off) hn0
          (wr_mem_same _ _ _) hl0 ((wr_mem_of_ne _ hne.symm).trans m4l)
          (by omega) (fun _ => by simp [bo]; omega) hne]
        simp only [wr_wr]
        exact rfl
      case g2 => simp [hN2, fresh_node]
      case g3 => simp [hN2, fresh_node]
      case g4 => simp [hN2, fresh_node]
      case g5 =>
        rw [hN2, hL3, hL1, ← hfull]
        exact @leaf_split_ents_hi n _ off s.bstat.old_leaf_nkey s.bstat.new_leaf_nkey e _ _ _ (by omega) p6 p7 hge ho1
    obtain ⟨N, r1, r2, r3, r4, r5⟩ := run
    refine ⟨_, L3, N, r1, by simp [b4, b3], by simp [k4, k3], by simp [a4, a3],
      (wr_mem_of_ne _ hne.symm).trans m4l, wr_mem_same _ _ _, by simp [hL3, hL1],
      by simp [hL3], by simp [hL3, hL1], r2, r3, r4, r5, fun _ => by simp [hL3, hL1], ?_, ?_⟩
    · intro ny h0 hy
      rw [wr_mem_of_ne _ hxn.symm]
      exact hx4 ny h0 hy
    · intro b h1 h2 h3
      rw [wr_mem_of_ne _ h2, o4 b h3, m3o b h1 h2]
  · have hlt : off < s.bstat.old_leaf_nkey := by omega
    have run : ∃ L, leaf_insert_split s e leaf off n.nxt new =
          some (wr (wr s4 new { N2 with
            entries := moved N2 L3 0 (s.bstat.old_leaf_nkey - 1) s.bstat.new_leaf_nkey })
            leaf L) ∧
        L.prv = n.prv ∧ L.nxt = new ∧ L.nkey = s.bstat.old_leaf_nkey ∧
        node_ents L ++ node_ents { N2 with
            entries := moved N2 L3 0 (s.bstat.old_leaf_nkey - 1) s.bstat.new_leaf_nkey } =
          (node_ents n).take off.toNat ++ e :: (node_ents n).drop off.toNat ∧
        (0 < off → L.entries 0 = n.entries 0) := by
      refine Exists.intro ?v ⟨?k1, ?k2, ?k3, ?k4, ?k5, ?k6⟩
      case k1 =>
        unfold leaf_insert_split
        simp only [Option.bind_eq_bind, e1, Option.some_bind, e2, e3]
        rw [h4, if_neg (by omega)]
        rw [memcpy_eq 0 (s.bstat.old_leaf_nkey - 1) s.bstat.new_leaf_nkey hn0 m4n hl0 m4l
          (by omega) (fun _ => by rw [bo]; omega) hne]
        simp only [Option.some_bind]
        rw [memmove_eq (off + 1) off (s.bstat.old_leaf_nkey - off - 1) hl0
          ((wr_mem_of_ne _ hne.symm).trans m4l) hl0 ((wr_mem_of_ne _ hne.symm).trans m4l)
          (by omega) (fun _ => by simp [bo]; omega)]
        simp only [Option.some_bind]
        rw [set_entry_eq hl0 (wr_mem_same _ _ _) ho0 (by simp [bo]; omega)]
        simp only [wr_wr]
        exact rfl
      case k2 => simp [hL3, hL1]
      case k3 => simp [hL3]
      case k4 => simp [hL3, hL1]
      case k5 =>
        rw [hN2, hL3, hL1]
        exact @leaf_split_ents_lo n _ off s.bstat.old_leaf_nkey s.bstat.new_leaf_nkey e _ _ _ (by omega) p6 p7 ho0 hlt
      case k6 =>
        intro h0
        rw [hL3, hL1]
        simp only [moved, Function.update_apply]
        rw [if_neg (by omega), if_neg (by omega)]
    obtain ⟨L, r1, r2, r3, r4, r5, r6⟩ := run
    refine ⟨_, L, _, r1, by simp [b4, b3], by simp [k4, k3], by simp [a4, a3],
      wr_mem_same _ _ _, (wr_mem_of_ne _ hne).trans (wr_mem_same _ _ _), r2, r3, r4,
      by simp [hN2, fresh_node], by simp [hN2, fresh_node], by simp [hN2, fresh_node], r5, r6,
      ?_, ?_⟩
    · intro ny h0 hy
      rw [wr_mem_of_ne _ hxl.symm, wr_mem_of_ne _ hxn.symm]
      exact hx4 ny h0 hy
    · intro b h1 h2 h3
      rw [wr_mem_of_ne _ h1, wr_mem_of_ne _ h2, o4 b h3, m3o b h1 h2]

/-! ## A level that receives a new node -/

theorem node_pairs_alike {n m : bpt_node} (lo : Option bpt_t) (h1 : m.entries = n.entries)
    (h2 : m.nkey = n.nkey) : node_pairs lo m = node_pairs lo n := by
  simp only [node_pairs, h1, h2]

theorem node_ents_alike {n m : bpt_node} (h1 : m.entries = n.entries)
    (h2 : m.nkey = n.nkey) : node_ents m = node_ents n := by
  simp only [node_ents, h1, h2]

theorem expand_alike {s t : State} {l : List Item} (h : Alike s t (l.map Prod.snd)) :
    expand t l = expand s l := by
  induction l with
  | nil => rfl
  | cons p r ih =>
    obtain ⟨nb, m, h1, h2, h3, h4⟩ := h p.2 (by simp)
    simp only [expand, h1, h2]
    rw [node_pairs_alike p.1 h3 h4, ih (fun b hb => h b (by simp at hb ⊢; exact Or.inr hb))]

theorem contents_alike {s t : State} {l : List Int} (h : Alike s t l) :
    contents t l = contents s l := by
  induction l with
  | nil => rfl
  | cons a r ih =>
    obtain ⟨nb, m, h1, h2, h3, h4⟩ := h a (by simp)
    simp only [contents, leaf_ents, h1, h2]
    rw [node_ents_alike h3 h4, ih (fun b hb => h b (by simp; exact Or.inr hb))]

theorem Alike.of_agree {s t : State} {l : List Int} (h : Agree s t l)
    (hv : ∀ b ∈ l, ∃ n, s.mem b = some n) : Alike s t l := by
  intro b hb
  obtain ⟨n, hn⟩ := hv b hb
  exact ⟨n, n, hn, (h b hb).trans hn, rfl, rfl⟩

theorem nodup_insert {α : Type} {A X Y B : List α} {a new : α}
    (h : (A ++ ((X ++ a :: Y) ++ B)).Nodup) (hn : new ∉ A ++ ((X ++ a :: Y) ++ B)) :
    (A ++ ((X ++ a :: new :: Y) ++ B)).Nodup := by
  have hp : List.Perm (A ++ ((X ++ a :: new :: Y) ++ B)) (new :: (A ++ ((X ++ a :: Y) ++ B))) := by
    have h1 : List.Perm (X ++ a :: new :: Y) (new :: (X ++ a :: Y)) := by
      have : X ++ a :: new :: Y = (X ++ [a]) ++ new :: Y := by simp
      rw [this]
      have h2 : X ++ a :: Y = (X ++ [a]) ++ Y := by simp
      rw [h2]
      exact List.perm_middle
    have h3 : List.Perm ((X ++ a :: new :: Y) ++ B) (new :: ((X ++ a :: Y) ++ B)) :=
      (h1.append_right B)
    exact (List.Perm.append_left A h3).trans List.perm_middle
  rw [hp.nodup_iff, List.nodup_cons]
  exact ⟨hn, h⟩

/-- The frame of a split: what the nodes on both sides of the split node
keep when the new sibling `new` is linked behind `a`. -/
theorem split_frame {s t : State} {mn : Int} {X Y : List Item} {lo : Option bpt_t} {a new : Int}
    {n : bpt_node}
    (hi : InnerOK s mn (X ++ (lo, a) :: Y)) (hm : s.mem a = some n) (he : Ext s t)
    (hnd : ((X ++ (lo, a) :: Y).map Prod.snd).Nodup) (hfr : s.brk ≤ new)
    (hx : ∀ ny, n.nxt ≠ 0 → s.mem n.nxt = some ny → t.mem n.nxt = some { ny with prv := new })
    (ho : ∀ b, b ≠ a → b ≠ new → b ≠ n.nxt → t.mem b = s.mem b) :
    Agree s t (X.map Prod.snd) ∧ Alike s t (Y.map Prod.snd) ∧ Chain t new (Y.map Prod.snd) 0 ∧
      ∀ p ∈ Y, ∀ mn1, NodeOK s mn1 p.2 → NodeOK t mn1 p.2 := by
  obtain ⟨a0, ab, n1, hm1, -, -, -, c1, c2, c3, c4⟩ := focus_facts hi
  rw [hm] at hm1; cases Option.some.inj hm1
  obtain ⟨-, aX, aY, -, -⟩ := @nodup_focus [] X Y lo a (by simpa using hnd)
  simp only [List.map_append, List.map_cons] at hnd
  rw [List.nodup_append] at hnd
  obtain ⟨ndX, ndY, dXY⟩ := hnd
  rw [List.nodup_cons] at ndY
  have hlt : ∀ p ∈ X ++ (lo, a) :: Y, p.2 ≠ new := by
    intro p hp h
    have := (hi.1 p hp).2.1
    omega
  have hAX : Agree s t (X.map Prod.snd) := by
    intro b hb
    obtain ⟨p, hp, rfl⟩ := List.mem_map.mp hb
    refine ho _ (fun h => aX (h ▸ hb)) (hlt p (by simp; exact Or.inl hp)) ?_
    intro h
    cases Y with
    | nil =>
      simp at c2
      exact (hi.1 p (by simp; exact Or.inl hp)).1 (h.trans c2)
    | cons q Y1 =>
      simp only [List.map_cons, List.headD_cons] at c2
      exact dXY hb (by rw [h, c2]; simp)
  refine ⟨hAX, ?_⟩
  cases Y with
  | nil => exact ⟨fun b hb => by simp at hb, trivial, fun p hp => by simp at hp⟩
  | cons q Y1 =>
    simp only [List.map_cons, List.headD_cons] at c2 c4 aY ndY dXY ⊢
    obtain ⟨q0, qb, nq, hq, hq1, hq2, hq3⟩ := hi.1 q (by simp)
    have hA1 : Agree s t (Y1.map Prod.snd) := by
      intro b hb
      obtain ⟨p, hp, rfl⟩ := List.mem_map.mp hb
      refine ho _ ?_ (hlt p (by simp; exact Or.inr (Or.inr (Or.inr hp)))) ?_
      · intro h; exact aY (h ▸ List.mem_cons_of_mem _ hb)
      · intro h
        rw [c2] at h
        have := ndY.2
        rw [List.nodup_cons] at this
        exact this.1 (h ▸ hb)
    have hqt : t.mem q.2 = some { nq with prv := new } := by
      have := hx nq (by rw [c2]; exact q0) (by rw [c2]; exact hq)
      rwa [c2] at this
    refine ⟨?_, ?_, ?_⟩
    · intro b hb
      simp only [List.mem_cons] at hb
      rcases hb with rfl | hb
      · exact ⟨nq, _, hq, hqt, rfl, rfl⟩
      · obtain ⟨p, hp, rfl⟩ := List.mem_map.mp hb
        obtain ⟨_, _, np, hnp, _⟩ := hi.1 p (by simp; exact Or.inr (Or.inr (Or.inr hp)))
        exact ⟨np, np, hnp, (hA1 _ hb).trans hnp, rfl, rfl⟩
    · exact Chain.rehead c4 hq hqt rfl rfl hA1
    · intro p hp mn1 hok
      simp only [List.mem_cons] at hp
      rcases hp with rfl | hp
      · obtain ⟨r0, rb, nr, hr, hr1, hr2, hr3⟩ := hok
        rw [hq] at hr; cases Option.some.inj hr
        exact ⟨r0, lt_of_lt_of_le rb he.2, _, hqt, hr1, hr2, by rw [he.1.1]; exact hr3⟩
      · exact NodeOK.congr_node he (hA1 _ (List.mem_map_of_mem _ hp)) (le_refl _) hok

/-! ## The level after a split -/

theorem innerOK_insert {s t : State} {mn mn1 : Int} {X Y : List Item} {lo lo1 k : Option bpt_t}
    {a new : Int} {n ma mb : bpt_node}
    (hi : InnerOK s mn (X ++ (lo, a) :: Y)) (hm : s.mem a = some n) (he : Ext s t)
    (hnd : ((X ++ (lo, a) :: Y).map Prod.snd).Nodup) (hfr : s.brk ≤ new) (hn0 : new ≠ 0)
    (hnb : new < t.brk) (hXY : ∀ p ∈ X ++ Y, NodeOK s mn1 p.2)
    (hma : t.mem a = some ma) (ha1 : ma.prv = n.prv) (ha2 : ma.nxt = new)
    (har : 0 ≤ ma.nkey ∧ mn1 ≤ ma.nkey ∧ ma.nkey ≤ s.bstat.order)
    (hmb : t.mem new = some mb) (hb1 : mb.prv = a) (hb2 : mb.nxt = n.nxt)
    (hbr : 0 ≤ mb.nkey ∧ mn1 ≤ mb.nkey ∧ mb.nkey ≤ s.bstat.order)
    (hx : ∀ ny, n.nxt ≠ 0 → s.mem n.nxt = some ny → t.mem n.nxt = some { ny with prv := new })
    (ho : ∀ b, b ≠ a → b ≠ new → b ≠ n.nxt → t.mem b = s.mem b) :
    InnerOK t mn1 (X ++ (lo1, a) :: (k, new) :: Y) := by
  obtain ⟨hAX, hAY, hcY, hnY⟩ := split_frame hi hm he hnd hfr hx ho
  obtain ⟨a0, ab, n1, hm1, -, -, -, c1, c2, c3, c4⟩ := focus_facts hi
  rw [hm] at hm1; cases Option.some.inj hm1
  refine ⟨?_, ?_⟩
  · intro p hp
    simp only [List.mem_append, List.mem_cons] at hp
    rcases hp with hp | rfl | rfl | hp
    · exact NodeOK.congr_node he (hAX p.2 (List.mem_map_of_mem _ hp)) (le_refl _)
        (hXY p (by simp; exact Or.inl hp))
    · exact ⟨a0, lt_of_lt_of_le ab he.2, ma, hma, har.1, har.2.1, by rw [he.1.1]; exact har.2.2⟩
    · exact ⟨hn0, hnb, mb, hmb, hbr.1, hbr.2.1, by rw [he.1.1]; exact hbr.2.2⟩
    · exact hnY p hp mn1 (hXY p (by simp; exact Or.inr hp))
  · simp only [List.map_append, List.map_cons]
    rw [chain_append]
    refine ⟨by simpa using Chain.congr_chain hAX c3, ⟨ma, hma, by rw [ha1, c1], by simpa using ha2⟩,
      ⟨mb, hmb, hb1, by rw [hb2, c2]⟩, hcY⟩

theorem leafOK_insert {s t : State} {cmp : bpt_t → bpt_t → Int} {mn mn1 : Int}
    {X Y : List Item} {lo lo1 : Option bpt_t} {k : bpt_t}
    {a new : Int} {n ma mb : bpt_node}
    (hl : LeafOK s cmp mn (X ++ (lo, a) :: Y)) (hm : s.mem a = some n) (he : Ext s t)
    (hnd : ((X ++ (lo, a) :: Y).map Prod.snd).Nodup) (hfr : s.brk ≤ new) (hn0 : new ≠ 0)
    (hnb : new < t.brk) (hXY : ∀ p ∈ X ++ Y, NodeOK s mn1 p.2)
    (hma : t.mem a = some ma) (ha1 : ma.prv = n.prv) (ha2 : ma.nxt = new)
    (har : 0 ≤ ma.nkey ∧ mn1 ≤ ma.nkey ∧ ma.nkey ≤ s.bstat.order)
    (hmb : t.mem new = some mb) (hb1 : mb.prv = a) (hb2 : mb.nxt = n.nxt)
    (hbr : 0 ≤ mb.nkey ∧ mn1 ≤ mb.nkey ∧ mb.nkey ≤ s.bstat.order)
    (hx : ∀ ny, n.nxt ≠ 0 → s.mem n.nxt = some ny → t.mem n.nxt = some { ny with prv := new })
    (ho : ∀ b, b ≠ a → b ≠ new → b ≠ n.nxt → t.mem b = s.mem b)
    (hpw : ((contents s (X.map Prod.snd)).map (·.key) ++ (((node_ents ma) ++ node_ents mb).map
      (·.key) ++ (contents s (Y.map Prod.snd)).map (·.key))).Pairwise (lt cmp))
    (hlo : ∀ l, lo1 = some l → 0 < ma.nkey ∧ (ma.entries 0).key = l)
    (hk : 0 < mb.nkey ∧ (mb.entries 0).key = k) :
    LeafOK t cmp mn1 (X ++ (lo1, a) :: (some k, new) :: Y) := by
  obtain ⟨hAX, hAY, hcY, hnY⟩ := split_frame hl.1 hm he hnd hfr hx ho
  refine ⟨innerOK_insert hl.1 hm he hnd hfr hn0 hnb hXY hma ha1 ha2 har hmb hb1 hb2 hbr hx ho,
    ?_, ?_⟩
  · have : contents t ((X ++ (lo1, a) :: (some k, new) :: Y).map Prod.snd) =
        contents s (X.map Prod.snd) ++ ((node_ents ma ++ node_ents mb) ++
          contents s (Y.map Prod.snd)) := by
      simp only [List.map_append, List.map_cons, contents_append, contents,
        leaf_ents_of_mem hma, leaf_ents_of_mem hmb, contents_congr hAX, contents_alike hAY,
        List.append_assoc]
    rw [this]
    simpa using hpw
  · intro p hp l hl1
    simp only [List.mem_append, List.mem_cons] at hp
    rcases hp with hp | rfl | rfl | hp
    · obtain ⟨n2, hn2, hk2⟩ := hl.2.2 p (by simp; exact Or.inl hp) l hl1
      exact ⟨n2, (hAX p.2 (List.mem_map_of_mem _ hp)).trans hn2, hk2⟩
    · exact ⟨ma, hma, hlo l hl1⟩
    · simp only [Option.some.injEq] at hl1
      exact ⟨mb, hmb, hk.1, hk.2.trans hl1⟩
    · obtain ⟨n2, hn2, hk2⟩ := hl.2.2 p (by simp; exact Or.inr (Or.inr hp)) l hl1
      obtain ⟨nb, m, g1, g2, g3, g4⟩ := hAY p.2 (List.mem_map_of_mem _ hp)
      rw [hn2] at g1; cases Option.some.inj g1
      exact ⟨m, g2, by rw [g4]; exact hk2.1, by rw [g3]; exact hk2.2⟩

/-! ## `internal_insert`: the contents of the nodes -/

theorem length_node_keys (n : bpt_node) : (node_keys n).length = n.nkey.toNat := by
  simp [node_keys]

theorem length_node_vals (n : bpt_node) : (node_vals n).length = n.nkey.toNat + 1 := by
  simp [node_vals]

theorem getElem?_node_keys (n : bpt_node) (i : Nat) :
    (node_keys n)[i]? = if i < n.nkey.toNat then some (n.entries i).key else none := by
  simp only [node_keys, List.getElem?_map]
  by_cases h : i < n.nkey.toNat
  · rw [List.getElem?_range h]; simp [h]
  · rw [List.getElem?_eq_none (by simpa using h)]; simp [h]

theorem getElem?_node_vals (n : bpt_node) (i : Nat) :
    (node_vals n)[i]? = if i < n.nkey.toNat + 1 then some (n.entries i).val else none := by
  simp only [node_vals, List.getElem?_map]
  by_cases h : i < n.nkey.toNat + 1
  · rw [List.getElem?_range h]; simp [h]
  · rw [List.getElem?_eq_none (by simpa using h)]; simp [h]

theorem node_pairs_zip (lo : Option bpt_t) (n : bpt_node) :
    node_pairs lo n = List.zip (lo :: (node_keys n).map some) (node_vals n) := by
  simp only [node_pairs, node_keys, node_vals, List.range_succ_eq_map, List.map_cons,
    List.zip_cons_cons, List.map_map, List.zip_map']
  simp [Function.comp_def]

theorem zip_insert {α β : Type} (A : List α) (B : List β) (c : Nat) (x : α) (y : β)
    (hA : c ≤ A.length) (hB : c ≤ B.length) :
    List.zip (A.take c ++ x :: A.drop c) (B.take c ++ y :: B.drop c) =
      (List.zip A B).take c ++ (x, y) :: (List.zip A B).drop c := by
  have h1 : (A.take c).length = (B.take c).length := by simp [hA, hB]
  rw [List.zip_append h1, List.zip_cons_cons]
  have h2 : List.zip A B = List.zip (A.take c) (B.take c) ++ List.zip (A.drop c) (B.drop c) := by
    rw [← List.zip_append h1, List.take_append_drop, List.take_append_drop]
  have h3 : (List.zip (A.take c) (B.take c)).length = c := by simp [hA, hB]
  conv_rhs => rw [h2, List.take_left' h3, List.drop_left' h3]

theorem pairs_of_keys_vals {lo : Option bpt_t} {n a : bpt_node} {c : Nat} {mid right : bpt_t}
    (hc : c ≤ n.nkey.toNat)
    (hk : node_keys a = (node_keys n).take c ++ mid :: (node_keys n).drop c)
    (hv : node_vals a = (node_vals n).take (c + 1) ++ right :: (node_vals n).drop (c + 1)) :
    node_pairs lo a = (node_pairs lo n).take (c + 1) ++
      (some mid, right) :: (node_pairs lo n).drop (c + 1) := by
  rw [node_pairs_zip, node_pairs_zip, hk, hv,
    ← zip_insert _ _ (c + 1) (some mid) right (by simp [length_node_keys]; omega)
      (by simp [length_node_vals]; omega)]
  simp

theorem pairs2_of_keys_vals {lo : Option bpt_t} {n a b : bpt_node} {c : Nat}
    {mid right k : bpt_t} (hc : c ≤ n.nkey.toNat)
    (hk : node_keys a ++ k :: node_keys b = (node_keys n).take c ++ mid :: (node_keys n).drop c)
    (hv : node_vals a ++ node_vals b =
      (node_vals n).take (c + 1) ++ right :: (node_vals n).drop (c + 1)) :
    node_pairs lo a ++ node_pairs (some k) b = (node_pairs lo n).take (c + 1) ++
      (some mid, right) :: (node_pairs lo n).drop (c + 1) := by
  rw [node_pairs_zip, node_pairs_zip, node_pairs_zip,
    ← zip_insert _ _ (c + 1) (some mid) right (by simp [length_node_keys]; omega)
      (by simp [length_node_vals]; omega),
    ← List.zip_append (by simp [length_node_keys, length_node_vals]), hv]
  congr 1
  have := congrArg (List.map some) hk
  simp only [List.map_append, List.map_cons] at this
  simp [this]

/-! ## `internal_insert`: keys and child handles after the insertion -/

theorem room_keys {n : bpt_node} {off : Int} (mid right : bpt_t) (h0 : 0 ≤ off)
    (h1 : off ≤ n.nkey) :
    node_keys { n with
        entries := put_val (put_key (moved n n (off + 1) off (n.nkey + 1 - off)) off mid)
          (off + 1) right
        nkey := n.nkey + 1 } =
      (node_keys n).take off.toNat ++ mid :: (node_keys n).drop off.toNat := by
  apply List.ext_getElem?
  intro i
  simp only [getElem?_node_keys, List.getElem?_append, List.getElem?_take, List.getElem?_drop,
    List.getElem?_cons, List.length_take, length_node_keys, moved, Function.update_apply,
    put_key, put_val]
  have hoff : ((off.toNat : Nat) : Int) = off := Int.toNat_of_nonneg h0
  split_ifs <;> first | rfl | omega | (congr 3; omega) | (dsimp only; congr 3; omega)

theorem room_vals {n : bpt_node} {off : Int} (mid right : bpt_t) (h0 : 0 ≤ off)
    (h1 : off ≤ n.nkey) :
    node_vals { n with
        entries := put_val (put_key (moved n n (off + 1) off (n.nkey + 1 - off)) off mid)
          (off + 1) right
        nkey := n.nkey + 1 } =
      (node_vals n).take (off.toNat + 1) ++ right :: (node_vals n).drop (off.toNat + 1) := by
  apply List.ext_getElem?
  intro i
  simp only [getElem?_node_vals, List.getElem?_append, List.getElem?_take, List.getElem?_drop,
    List.getElem?_cons, List.length_take, length_node_vals, moved, Function.update_apply,
    put_key, put_val]
  have hoff : ((off.toNat : Nat) : Int) = off := Int.toNat_of_nonneg h0
  split_ifs <;> first | rfl | omega | (congr 3; omega) | (dsimp only; congr 3; omega)

theorem split_lo_keys {n F : bpt_node} {off old nw p x : Int} (mid right : bpt_t)
    (hn : n.nkey = old + nw) (h2 : 1 ≤ nw) (h0 : 0 ≤ off) (h1 : off < old) :
    node_keys { n with
        entries := put_val (put_key (moved n n (off + 1) off (old - off)) off mid) (off + 1) right
        nkey := old } ++ (n.entries (old - 1)).key ::
      node_keys { entries := moved F n 0 old (nw + 1), nkey := nw, prv := p, nxt := x } =
      (node_keys n).take off.toNat ++ mid :: (node_keys n).drop off.toNat := by
  apply List.ext_getElem?
  intro i
  simp only [getElem?_node_keys, List.getElem?_append, List.getElem?_take, List.getElem?_drop,
    List.getElem?_cons, List.length_take, length_node_keys, moved, Function.update_apply,
    put_key, put_val]
  have hoff : ((off.toNat : Nat) : Int) = off := Int.toNat_of_nonneg h0
  have hold : ((old.toNat : Nat) : Int) = old := Int.toNat_of_nonneg (by omega)
  split_ifs <;> first | rfl | omega | (congr 3; omega) | (dsimp only; congr 3; omega)

theorem split_lo_vals {n F : bpt_node} {off old nw p x : Int} (mid right : bpt_t)
    (hn : n.nkey = old + nw) (h2 : 1 ≤ nw) (h0 : 0 ≤ off) (h1 : off < old) :
    node_vals { n with
        entries := put_val (put_key (moved n n (off + 1) off (old - off)) off mid) (off + 1) right
        nkey := old } ++
      node_vals { entries := moved F n 0 old (nw + 1), nkey := nw, prv := p, nxt := x } =
      (node_vals n).take (off.toNat + 1) ++ right :: (node_vals n).drop (off.toNat + 1) := by
  apply List.ext_getElem?
  intro i
  simp only [getElem?_node_vals, List.getElem?_append, List.getElem?_take, List.getElem?_drop,
    List.getElem?_cons, List.length_take, length_node_vals, moved, Function.update_apply,
    put_key, put_val]
  have hoff : ((off.toNat : Nat) : Int) = off := Int.toNat_of_nonneg h0
  have hold : ((old.toNat : Nat) : Int) = old := Int.toNat_of_nonneg (by omega)
  split_ifs <;> first | rfl | omega | (congr 3; omega) | (dsimp only; congr 3; omega)

set_option maxHeartbeats 1600000 in
theorem split_hi_keys {n F : bpt_node} {off old nw p x y : Int} (mid right : bpt_t)
    (hn : n.nkey = old + nw) (h2 : 1 ≤ nw) (h0 : old < off) (h1 : off ≤ n.nkey)
    (h3 : 0 ≤ old) :
    node_keys { n with nkey := old, nxt := y } ++ (n.entries old).key ::
      node_keys {
        entries := (put_val (put_key (moved
          ({ F with entries := moved F n 0 (old + 1) (off - old) })
          n (off - old) off (nw + 1 - (off - old))) (off - old - 1) mid) (off - old) right),
        nkey := nw, prv := p, nxt := x } =
      (node_keys n).take off.toNat ++ mid :: (node_keys n).drop off.toNat := by
  apply List.ext_getElem?
  intro i
  simp only [getElem?_node_keys, List.getElem?_append, List.getElem?_take, List.getElem?_drop,
    List.getElem?_cons, List.length_take, length_node_keys, moved, Function.update_apply,
    put_key, put_val]
  have hoff : ((off.toNat : Nat) : Int) = off := Int.toNat_of_nonneg (by omega)
  have hold : ((old.toNat : Nat) : Int) = old := Int.toNat_of_nonneg (by omega)
  split_ifs <;> first | rfl | omega | (congr 3; omega) | (dsimp only; congr 3; omega)

theorem split_hi_vals {n F : bpt_node} {off old nw p x y : Int} (mid right : bpt_t)
    (hn : n.nkey = old + nw) (h2 : 1 ≤ nw) (h0 : old < off) (h1 : off ≤ n.nkey)
    (h3 : 0 ≤ old) :
    node_vals { n with nkey := old, nxt := y } ++
      node_vals {
        entries := (put_val (put_key (moved
          ({ F with entries := moved F n 0 (old + 1) (off - old) })
          n (off - old) off (nw + 1 - (off - old))) (off - old - 1) mid) (off - old) right),
        nkey := nw, prv := p, nxt := x } =
      (node_vals n).take (off.toNat + 1) ++ right :: (node_vals n).drop (off.toNat + 1) := by
  apply List.ext_getElem?
  intro i
  simp only [getElem?_node_vals, List.getElem?_append, List.getElem?_take, List.getElem?_drop,
    List.getElem?_cons, List.length_take, length_node_vals, moved, Function.update_apply,
    put_key, put_val]
  have hoff : ((off.toNat : Nat) : Int) = off := Int.toNat_of_nonneg (by omega)
  have hold : ((old.toNat : Nat) : Int) = old := Int.toNat_of_nonneg (by omega)
  split_ifs <;> first | rfl | omega | (congr 3; omega) | (dsimp only; congr 3; omega)

theorem split_eq_keys {n F : bpt_node} {old nw p x y : Int} (mid : bpt_t) (right : bpt_t)
    (hn : n.nkey = old + nw) (h2 : 1 ≤ nw) (h3 : 0 ≤ old) :
    node_keys { n with nkey := old, nxt := y } ++ mid ::
      node_keys {
        entries := (put_val (moved F n 0 old (nw + 1)) 0 right),
        nkey := nw, prv := p, nxt := x } =
      (node_keys n).take old.toNat ++ mid :: (node_keys n).drop old.toNat := by
  apply List.ext_getElem?
  intro i
  simp only [getElem?_node_keys, List.getElem?_append, List.getElem?_take, List.getElem?_drop,
    List.getElem?_cons, List.length_take, length_node_keys, moved, Function.update_apply,
    put_key, put_val]
  have hold : ((old.toNat : Nat) : Int) = old := Int.toNat_of_nonneg (by omega)
  split_ifs <;> first | rfl | omega | (congr 3; omega) | (dsimp only; congr 3; omega)

theorem split_eq_vals {n F : bpt_node} {old nw p x y : Int} (right : bpt_t)
    (hn : n.nkey = old + nw) (h2 : 1 ≤ nw) (h3 : 0 ≤ old) :
    node_vals { n with nkey := old, nxt := y } ++
      node_vals {
        entries := (put_val (moved F n 0 old (nw + 1)) 0 right),
        nkey := nw, prv := p, nxt := x } =
      (node_vals n).take (old.toNat + 1) ++ right :: (node_vals n).drop (old.toNat + 1) := by
  apply List.ext_getElem?
  intro i
  simp only [getElem?_node_vals, List.getElem?_append, List.getElem?_take, List.getElem?_drop,
    List.getElem?_cons, List.length_take, length_node_vals, moved, Function.update_apply,
    put_key, put_val]
  have hold : ((old.toNat : Nat) : Int) = old := Int.toNat_of_nonneg (by omega)
  split_ifs <;> first | rfl | omega | (congr 3; omega) | (dsimp only; congr 3; omega)

/-! ## `internal_insert`: running the branches -/

theorem inter_room_run {s : State} {a off : Int} {n : bpt_node} (mid right : bpt_t)
    (ha0 : a ≠ 0) (hm : s.mem a = some n) (ho0 : 0 ≤ off) (ho1 : off ≤ n.nkey)
    (hroom : n.nkey < s.bstat.order) :
    internal_insert_room s ⟨a, off⟩ right mid n.nkey =
      some (wr s a { n with
        entries := put_val (put_key (moved n n (off + 1) off (n.nkey + 1 - off)) off mid)
          (off + 1) right
        nkey := n.nkey + 1 }) := by
  unfold internal_insert_room
  simp only [Option.bind_eq_bind]
  rw [memmove_eq (off + 1) off (n.nkey + 1 - off) ha0 hm ha0 hm (by omega) (fun _ => by omega)]
  simp only [Option.some_bind]
  rw [set_key_eq ha0 (wr_mem_same _ _ _) ho0 (by simp; omega)]
  simp only [Option.some_bind, wr_wr]
  rw [set_val_eq ha0 (wr_mem_same _ _ _) (by omega) (by simp; omega)]
  simp only [Option.some_bind, wr_wr]
  rw [set_nkey_eq ha0 (wr_mem_same _ _ _)]
  simp only [wr_wr]
  rfl

theorem inter_fill_run {s : State} {a new off : Int} {n F : bpt_node} (mid right : bpt_t)
    (hp : ParamsOK s.bstat) (ha0 : a ≠ 0) (hn0 : new ≠ 0) (hne : new ≠ a)
    (hm : s.mem a = some n) (hF : s.mem new = some F)
    (hfull : n.nkey = s.bstat.order) (ho0 : 0 ≤ off) (ho1 : off ≤ n.nkey) :
    ∃ A B k, internal_insert_fill s ⟨a, off⟩ new right mid = some (k, wr (wr s new B) a A) ∧
      A.prv = n.prv ∧ A.nxt = n.nxt ∧ B.prv = F.prv ∧ B.nxt = F.nxt ∧
      node_keys { A with nkey := s.bstat.old_inter_nkey } ++
          k :: node_keys { B with nkey := s.bstat.new_inter_nkey } =
        (node_keys n).take off.toNat ++ mid :: (node_keys n).drop off.toNat ∧
      node_vals { A with nkey := s.bstat.old_inter_nkey } ++
          node_vals { B with nkey := s.bstat.new_inter_nkey } =
        (node_vals n).take (off.toNat + 1) ++ right :: (node_vals n).drop (off.toNat + 1) := by
  obtain ⟨p3, p4, p5, p6, p7, -, -, -, -⟩ := params_arith hp
  have hma : ∀ N : bpt_node, (wr s new N).mem a = some n :=
    fun N => (wr_mem_of_ne N hne.symm).trans hm
  have hnk : n.nkey = s.bstat.old_inter_nkey + s.bstat.new_inter_nkey := by omega
  by_cases hlt : off < s.bstat.old_inter_nkey
  · refine ⟨
      { n with
        entries := put_val (put_key
          (moved n n (off + 1) off (s.bstat.old_inter_nkey - off)) off mid) (off + 1) right },
      { F with entries := moved F n 0 s.bstat.old_inter_nkey (s.bstat.new_inter_nkey + 1) },
      (n.entries (s.bstat.old_inter_nkey - 1)).key, ?_, rfl, rfl, rfl, rfl, ?_, ?_⟩
    · unfold internal_insert_fill
      simp only [Option.bind_eq_bind]
      rw [if_pos hlt, get_entry_eq ha0 hm (by omega) (by omega)]
      simp only [Option.some_bind]
      rw [memcpy_eq 0 s.bstat.old_inter_nkey (s.bstat.new_inter_nkey + 1) hn0 hF ha0 hm
        (by omega) (fun _ => by omega) hne]
      simp only [Option.some_bind]
      rw [memmove_eq (off + 1) off (s.bstat.old_inter_nkey - off) ha0 (hma _) ha0 (hma _)
        (by omega) (fun _ => by simp; omega)]
      simp only [Option.some_bind]
      rw [set_key_eq ha0 (wr_mem_same _ _ _) ho0 (by simp; omega)]
      simp only [Option.some_bind, wr_wr]
      rw [set_val_eq ha0 (wr_mem_same _ _ _) (by omega) (by simp; omega)]
      simp only [Option.some_bind, wr_wr]
      rfl
    · exact @split_lo_keys n F off s.bstat.old_inter_nkey s.bstat.new_inter_nkey _ _ mid right
        hnk p5 ho0 hlt
    · exact @split_lo_vals n F off s.bstat.old_inter_nkey s.bstat.new_inter_nkey _ _ mid right
        hnk p5 ho0 hlt
  · by_cases hgt : off > s.bstat.old_inter_nkey
    · refine ⟨n,
        { F with
          entries := put_val (put_key (moved
              ({ F with
                entries := moved F n 0 (s.bstat.old_inter_nkey + 1)
                  (off - s.bstat.old_inter_nkey) })
              n (off - s.bstat.old_inter_nkey) off
              (s.bstat.new_inter_nkey + 1 - (off - s.bstat.old_inter_nkey)))
            (off - s.bstat.old_inter_nkey - 1) mid) (off - s.bstat.old_inter_nkey) right },
        (n.entries s.bstat.old_inter_nkey).key, ?_, rfl, rfl, rfl, rfl, ?_, ?_⟩
      · unfold internal_insert_fill
        simp only [Option.bind_eq_bind]
        rw [if_neg hlt, if_pos hgt, get_entry_eq ha0 hm (by omega) (by omega)]
        simp only [Option.some_bind]
        rw [memcpy_eq 0 (s.bstat.old_inter_nkey + 1) (off - s.bstat.old_inter_nkey) hn0 hF ha0 hm
          (by omega) (fun _ => by omega) hne]
        simp only [Option.some_bind]
        rw [memcpy_eq (off - s.bstat.old_inter_nkey) off
          (s.bstat.new_inter_nkey + 1 - (off - s.bstat.old_inter_nkey)) hn0 (wr_mem_same _ _ _)
          ha0 (hma _) (by omega) (fun _ => by simp; omega) hne]
        simp only [Option.some_bind, wr_wr]
        rw [set_key_eq hn0 (wr_mem_same _ _ _) (by omega) (by simp; omega)]
        simp only [Option.some_bind, wr_wr]
        rw [set_val_eq hn0 (wr_mem_same _ _ _) (by omega) (by simp; omega)]
        simp only [Option.some_bind, wr_wr]
        rw [wr_self (hma _)]
        rfl
      · exact @split_hi_keys n F off s.bstat.old_inter_nkey s.bstat.new_inter_nkey _ _ _
          mid right hnk p5 hgt ho1 (by omega)
      · exact @split_hi_vals n F off s.bstat.old_inter_nkey s.bstat.new_inter_nkey _ _ _
          mid right hnk p5 hgt ho1 (by omega)
    · have heq : off = s.bstat.old_inter_nkey := by omega
      refine ⟨n,
        { F with
          entries := put_val
            (moved F n 0 s.bstat.old_inter_nkey (s.bstat.new_inter_nkey + 1)) 0 right },
        mid, ?_, rfl, rfl, rfl, rfl, ?_, ?_⟩
      · unfold internal_insert_fill
        simp only [Option.bind_eq_bind]
        rw [if_neg hlt, if_neg hgt]
        rw [memcpy_eq 0 s.bstat.old_inter_nkey (s.bstat.new_inter_nkey + 1) hn0 hF ha0 hm
          (by omega) (fun _ => by omega) hne]
        simp only [Option.some_bind]
        rw [set_val_eq hn0 (wr_mem_same _ _ _) (le_refl _) (by simp; omega)]
        simp only [Option.some_bind, wr_wr]
        rw [wr_self (hma _)]
        rfl
      · rw [heq]
        exact @split_eq_keys n F s.bstat.old_inter_nkey s.bstat.new_inter_nkey _ _ _
          mid right hnk p5 (by omega)
      · rw [heq]
        exact @split_eq_vals n F s.bstat.old_inter_nkey s.bstat.new_inter_nkey _ _ _
          right hnk p5 (by omega)

/-! ## `internal_insert`: splitting a full node -/

theorem inter_split_fail {s : State} {a off : Int} {n : bpt_node} (mid right : bpt_t)
    (hb : 0 < s.brk) (ha0 : a ≠ 0) (hm : s.mem a = some n)
    (hal : (alloc_request s).1 = false) :
    internal_insert_split s ⟨a, off⟩ right mid = some (Sum.inl (alloc_request s).2) := by
  unfold internal_insert_split
  simp only [Option.bind_eq_bind]
  rw [nxt_eq ha0 hm]
  simp only [Option.some_bind]
  rw [node_new_fail _ _ hal]
  simp

theorem inter_split_run {s : State} {a off : Int} {n : bpt_node} (mid right : bpt_t)
    (hp : ParamsOK s.bstat) (hb : 0 < s.brk) (ha0 : a ≠ 0) (hab : a < s.brk)
    (hm : s.mem a = some n)
    (hx : n.nxt ≠ 0 → n.nxt ≠ a ∧ n.nxt < s.brk ∧ ∃ ny, s.mem n.nxt = some ny)
    (hfull : n.nkey = s.bstat.order) (ho0 : 0 ≤ off) (ho1 : off ≤ n.nkey)
    (hal : (alloc_request s).1 = true) :
    ∃ t A B k, internal_insert_split s ⟨a, off⟩ right mid = some (Sum.inr (t, s.brk, k)) ∧
      t.bstat = s.bstat ∧ t.brk = s.brk + 1 ∧ t.alloc = (alloc_request s).2.alloc ∧
      t.mem a = some A ∧ t.mem s.brk = some B ∧
      A.prv = n.prv ∧ A.nxt = s.brk ∧ A.nkey = s.bstat.old_inter_nkey ∧
      B.prv = a ∧ B.nxt = n.nxt ∧ B.nkey = s.bstat.new_inter_nkey ∧
      (∀ lo, node_pairs lo A ++ node_pairs (some k) B =
        (node_pairs lo n).take (off.toNat + 1) ++
          (some mid, right) :: (node_pairs lo n).drop (off.toNat + 1)) ∧
      (∀ ny, n.nxt ≠ 0 → s.mem n.nxt = some ny →
        t.mem n.nxt = some { ny with prv := s.brk }) ∧
      (∀ b, b ≠ a → b ≠ s.brk → b ≠ n.nxt → t.mem b = s.mem b) := by
  obtain ⟨hs1, hs2, hs3⟩ := alloc_request_same s
  have hnew : bpt_node_new s a n.nxt =
      (s.brk, grow (wr (alloc_request s).2 s.brk (fresh_node a n.nxt))) := by
    rw [node_new_ok _ _ hal, hs3]
  obtain ⟨S0, hS0⟩ : ∃ S0 : State,
    S0 = grow (wr (alloc_request s).2 s.brk (fresh_node a n.nxt)) := ⟨_, rfl⟩
  rw [← hS0] at hnew
  have hne : s.brk ≠ a := by omega
  have hn0 : s.brk ≠ 0 := by omega
  have m0n : S0.mem s.brk = some (fresh_node a n.nxt) := by
    rw [hS0]; exact wr_mem_same _ _ _
  have m0o : ∀ b, b ≠ s.brk → S0.mem b = s.mem b := by
    intro b h
    rw [hS0, grow_mem, wr_mem_of_ne _ h, hs1]
  have b0 : S0.bstat = s.bstat := by rw [hS0]; exact hs2
  have k0 : S0.brk = s.brk + 1 := by rw [hS0, grow_brk, wr_brk, hs3]
  have a0 : S0.alloc = (alloc_request s).2.alloc := by rw [hS0]; rfl
  obtain ⟨A1, hA1⟩ : ∃ A1 : bpt_node, A1 = { n with nxt := s.brk } := ⟨_, rfl⟩
  have e1 : bpt_node_set_nxt S0 a s.brk = some (wr S0 a A1) := by
    rw [hA1]; exact set_nxt_eq ha0 ((m0o a hne.symm).trans hm) _
  have hxa : a ≠ n.nxt := by
    intro h
    by_cases h0 : n.nxt = 0
    · exact ha0 (h.trans h0)
    · exact (hx h0).1 h.symm
  have hxn : s.brk ≠ n.nxt := by
    intro h
    by_cases h0 : n.nxt = 0
    · exact hn0 (h.trans h0)
    · have := (hx h0).2.1
      omega
  obtain ⟨s2, h2, b2, k2, a2, o2, x2⟩ := link_prv_run (wr S0 a A1) n.nxt s.brk (fun h => by
    obtain ⟨h1, h3, ny, hy⟩ := hx h
    exact ⟨ny, (wr_mem_of_ne _ h1).trans ((m0o _ (by omega)).trans hy)⟩)
  have m2a : s2.mem a = some A1 := (o2 a hxa).trans (wr_mem_same _ _ _)
  have m2n : s2.mem s.brk = some (fresh_node a n.nxt) :=
    (o2 _ hxn).trans ((wr_mem_of_ne _ hne).trans m0n)
  have b2s : s2.bstat = s.bstat := by rw [b2, wr_bstat, b0]
  obtain ⟨A, B, k, f1, f2, f3, f4, f5, f6, f7⟩ :=
    @inter_fill_run s2 a s.brk off A1 (fresh_node a n.nxt) mid right (by rw [b2s]; exact hp)
      ha0 hn0 hne m2a m2n
      (by rw [hA1, b2s]; exact hfull) ho0 (by rw [hA1]; exact ho1)
  unfold internal_insert_split
  simp only [Option.bind_eq_bind]
  rw [nxt_eq ha0 hm]
  simp only [Option.some_bind, hnew]
  rw [if_neg hn0, e1]
  simp only [Option.some_bind]
  rw [h2, f1]
  simp only [Option.some_bind, wr_bstat]
  rw [set_nkey_eq ha0 (wr_mem_same _ _ _)]
  simp only [Option.some_bind, wr_bstat, wr_wr]
  rw [set_nkey_eq hn0 ((wr_mem_of_ne _ hne).trans (wr_mem_same _ _ _))]
  simp only [Option.some_bind]
  rw [b2s] at f6 f7 ⊢
  refine ⟨_, { A with nkey := s.bstat.old_inter_nkey }, { B with nkey := s.bstat.new_inter_nkey },
    k, rfl, by simp [b2s], by simp [k2, k0], by simp [a2, a0],
    (wr_mem_of_ne _ hne.symm).trans (wr_mem_same _ _ _), wr_mem_same _ _ _,
    by rw [hA1] at f2; exact f2, by rw [hA1] at f3; exact f3, rfl, f4, f5, rfl, ?_, ?_, ?_⟩
  · intro lo
    rw [hA1] at f6 f7
    exact pairs2_of_keys_vals (by omega) f6 f7
  · intro ny h0 hy
    obtain ⟨h1, h3, _⟩ := hx h0
    rw [wr_mem_of_ne _ hxn.symm, wr_mem_of_ne _ hxa.symm, wr_mem_of_ne _ hxn.symm]
    exact x2 ny h0 ((wr_mem_of_ne _ h1).trans ((m0o _ (by omega)).trans hy))
  · intro b h1 h3 h4
    rw [wr_mem_of_ne _ h3, wr_mem_of_ne _ h1, wr_mem_of_ne _ h3, o2 b h4, wr_mem_of_ne _ h1,
      m0o b h3]

/-! ## `internal_insert`: frames -/

theorem Below.bound {s : State} {cmp : bpt_t → bpt_t → Int} :
    ∀ (d : Nat) {top : Bool} {items : List Item}, Below s cmp top d items →
      ∀ b ∈ nodes_below s d items, b ≠ 0 ∧ b < s.brk ∧ ∃ n, s.mem b = some n := by
  intro d
  induction d with
  | zero =>
    intro top items hb b hm
    obtain ⟨p, hp, rfl⟩ := List.mem_map.mp hm
    obtain ⟨h0, h1, n, hn, _⟩ := hb.1.1 p hp
    exact ⟨h0, h1, n, hn⟩
  | succ d ih =>
    intro top items hb b hm
    simp only [nodes_below, List.mem_append] at hm
    rcases hm with hm | hm
    · obtain ⟨p, hp, rfl⟩ := List.mem_map.mp hm
      obtain ⟨h0, h1, n, hn, _⟩ := hb.1.1 p hp
      exact ⟨h0, h1, n, hn⟩
    · exact ih hb.2 b hm

theorem level_sub_nodes (s : State) :
    ∀ (d : Nat) (items : List Item), ∀ b ∈ (level_below s d items).map Prod.snd,
      b ∈ nodes_below s d items := by
  intro d
  induction d with
  | zero => intro items b hb; exact hb
  | succ d ih =>
    intro items b hb
    simp only [nodes_below, List.mem_append]
    exact Or.inr (ih _ b hb)

theorem lower_frame {s t : State} {cmp : bpt_t → bpt_t → Int} {d : Nat} {T : List Item}
    (he : Ext s t) (hA : Agree s t (nodes_below s d T)) (hb : Below s cmp false d T) :
    Below t cmp false d T ∧ nodes_below t d T = nodes_below s d T ∧
      level_below t d T = level_below s d T ∧
      contents t ((level_below s d T).map Prod.snd) =
        contents s ((level_below s d T).map Prod.snd) :=
  ⟨Below.congr_below he d hA hb, nodes_below_congr d hA, level_below_congr d hA,
    contents_congr (fun b hb1 => hA b (level_sub_nodes s d T b hb1))⟩

theorem innerOK_update1 {s t : State} {mn mn1 : Int} {X Y : List Item}
    {lo lo1 : Option bpt_t} {a : Int} {n m : bpt_node}
    (hl : InnerOK s mn (X ++ (lo, a) :: Y))
    (hm : s.mem a = some n) (he : Ext s t)
    (hA : ∀ b ∈ (X ++ Y).map Prod.snd, t.mem b = s.mem b)
    (hXY : ∀ p ∈ X ++ Y, NodeOK s mn1 p.2)
    (hm1 : t.mem a = some m) (hprv : m.prv = n.prv) (hnxt : m.nxt = n.nxt)
    (h0 : 0 ≤ m.nkey) (h1 : mn1 ≤ m.nkey) (h2 : m.nkey ≤ s.bstat.order) :
    InnerOK t mn1 (X ++ (lo1, a) :: Y) := by
  have hAX : Agree s t (X.map Prod.snd) := fun b hb => hA b (by simp at hb ⊢; exact Or.inl hb)
  have hAY : Agree s t (Y.map Prod.snd) := fun b hb => hA b (by simp at hb ⊢; exact Or.inr hb)
  obtain ⟨a0, ab, n1, hm2, -, -, -, c1, c2, c3, c4⟩ := focus_facts hl
  rw [hm] at hm2; cases Option.some.inj hm2
  refine ⟨?_, ?_⟩
  · intro p hp
    simp only [List.mem_append, List.mem_cons] at hp
    rcases hp with hp | rfl | hp
    · exact NodeOK.congr_node he (hAX p.2 (List.mem_map_of_mem _ hp)) (le_refl _)
        (hXY p (by simp; exact Or.inl hp))
    · exact ⟨a0, lt_of_lt_of_le ab he.2, m, hm1, h0, h1, by rw [he.1.1]; exact h2⟩
    · exact NodeOK.congr_node he (hAY p.2 (List.mem_map_of_mem _ hp)) (le_refl _)
        (hXY p (by simp; exact Or.inr hp))
  · simp only [List.map_append, List.map_cons]
    rw [chain_append]
    exact ⟨by simpa using Chain.congr_chain hAX c3,
      ⟨m, hm1, by rw [hprv, c1], by rw [hnxt, c2]⟩, Chain.congr_chain hAY c4⟩

/-- An empty journal means that the node in focus is the root. -/
theorem Ctx.of_nil {s : State} {U : List Int} {X Y : List Item} {lo : Option bpt_t} {a : Int}
    (h : Ctx s [] U X lo a Y) :
    U = [] ∧ X = [] ∧ lo = none ∧ a = s.bstat.root_node ∧ Y = [] := by
  cases h
  exact ⟨rfl, rfl, rfl, rfl, rfl⟩

/-- A journal with a top frame: the node in focus is the child chosen in the
node of that frame. -/
theorem Ctx.of_cons {s : State} {frm : bpt_frm} {stk : gen_stk} {U : List Int}
    {X Y : List Item} {lo : Option bpt_t} {a : Int}
    (h : Ctx s (frm :: stk) U X lo a Y) :
    ∃ U1 X1 lo1 Y1 n, Ctx s stk U1 X1 lo1 frm.node Y1 ∧ s.mem frm.node = some n ∧
      InnerOK s (min_inner s stk.isEmpty) (X1 ++ (lo1, frm.node) :: Y1) ∧
      (U1 ++ (X1 ++ (lo1, frm.node) :: Y1).map Prod.snd).Nodup ∧
      0 ≤ frm.offset ∧ frm.offset ≤ n.nkey ∧
      U = U1 ++ (X1 ++ (lo1, frm.node) :: Y1).map Prod.snd ∧
      X = expand s X1 ++ (node_pairs lo1 n).take frm.offset.toNat ∧
      lo = (if frm.offset = 0 then lo1 else some (n.entries (frm.offset - 1)).key) ∧
      a = (n.entries frm.offset).val ∧
      Y = (node_pairs lo1 n).drop (frm.offset.toNat + 1) ++ expand s Y1 := by
  cases h with
  | step n off hc hm hi hnd h0 h1 =>
    exact ⟨_, _, _, _, n, hc, hm, hi, hnd, h0, h1, rfl, rfl, rfl, rfl, rfl⟩

/-! ## `internal_insert`: a new root -/

theorem inter_root_spec {cmp : bpt_t → bpt_t → Int} {s : State} {d : Nat} {right : Int}
    {mid : bpt_t} (hp : ParamsOK s.bstat) (hb : 0 < s.brk) (hd : d = s.bstat.height)
    (hB : Below s cmp false d [(none, s.bstat.root_node), (some mid, right)])
    (hnd : (nodes_below s d [(none, s.bstat.root_node), (some mid, right)]).Nodup) :
    ∃ r t, internal_insert_root s s.bstat.root_node right mid = some (r, t) ∧
      (s.alloc = [] → t.alloc = []) ∧ (r = BPT_ERROR → s.alloc ≠ []) ∧
      (r ≠ BPT_ERROR → r = BPT_NEXIST ∧ WF cmp t ∧
        tree_entries t = contents s
          ((level_below s d [(none, s.bstat.root_node), (some mid, right)]).map Prod.snd)) := by
  obtain ⟨hs1, hs2, hs3⟩ := alloc_request_same s
  obtain ⟨p3, -, -, -, -, -, -, -, -⟩ := params_arith hp
  by_cases hal : (alloc_request s).1 = true
  swap
  · have hal1 : (alloc_request s).1 = false := by simpa using hal
    refine ⟨BPT_ERROR, (alloc_request s).2, ?_, ?_, fun _ => alloc_request_false hal1,
      fun h => absurd rfl h⟩
    · unfold internal_insert_root
      simp [node_new_fail _ _ hal1]
    · intro h
      rw [alloc_request_nil h] at hal
      exact absurd rfl hal
  · have hnew : bpt_node_new s 0 0 =
        (s.brk, grow (wr (alloc_request s).2 s.brk (fresh_node 0 0))) := by
      rw [node_new_ok _ _ hal, hs3]
    obtain ⟨S0, hS0⟩ : ∃ S0 : State,
      S0 = grow (wr (alloc_request s).2 s.brk (fresh_node 0 0)) := ⟨_, rfl⟩
    rw [← hS0] at hnew
    have hn0 : s.brk ≠ 0 := by omega
    have m0n : S0.mem s.brk = some (fresh_node 0 0) := by
      rw [hS0]; exact wr_mem_same _ _ _
    have m0o : ∀ b, b ≠ s.brk → S0.mem b = s.mem b := by
      intro b h
      rw [hS0, grow_mem, wr_mem_of_ne _ h, hs1]
    have b0 : S0.bstat = s.bstat := by rw [hS0]; exact hs2
    have k0 : S0.brk = s.brk + 1 := by rw [hS0, grow_brk, wr_brk, hs3]
    have a0 : S0.alloc = (alloc_request s).2.alloc := by rw [hS0]; rfl
    obtain ⟨R, hR⟩ : ∃ R : bpt_node, R =
      { entries := put_val (put_val (put_key (fresh_node 0 0).entries 0 mid) 0
          s.bstat.root_node) 1 right, nkey := 1, prv := 0, nxt := 0 } := ⟨_, rfl⟩
    have run : internal_insert_root s s.bstat.root_node right mid =
        some (BPT_NEXIST, { wr S0 s.brk R with
          bstat := { s.bstat with root_node := s.brk, height := s.bstat.height + 1 } }) := by
      unfold internal_insert_root
      simp only [hnew, Option.bind_eq_bind]
      rw [if_neg hn0, set_nkey_eq hn0 m0n]
      simp only [Option.some_bind]
      rw [set_key_eq hn0 (wr_mem_same _ _ _) (le_refl _) (by simp [b0]; omega)]
      simp only [Option.some_bind, wr_wr]
      rw [set_val_eq hn0 (wr_mem_same _ _ _) (le_refl _) (by simp [b0]; omega)]
      simp only [Option.some_bind, wr_wr]
      rw [set_val_eq hn0 (wr_mem_same _ _ _) (by omega) (by simp [b0]; omega)]
      simp only [Option.some_bind, wr_wr, wr_bstat, b0]
      rw [hR]
      rfl
    obtain ⟨t, ht⟩ : ∃ t : State, t = { wr S0 s.brk R with
      bstat := { s.bstat with root_node := s.brk, height := s.bstat.height + 1 } } := ⟨_, rfl⟩
    rw [← ht] at run
    have tm : t.mem s.brk = some R := by rw [ht]; exact wr_mem_same _ _ _
    have tq : ∀ b, b ≠ s.brk → t.mem b = s.mem b := by
      intro b h
      rw [ht]
      exact (wr_mem_of_ne _ h).trans (m0o b h)
    have tk : t.brk = s.brk + 1 := by rw [ht]; exact k0
    have tr : t.bstat.root_node = s.brk := by rw [ht]
    have th : t.bstat.height = d + 1 := by rw [ht, hd]
    have he : Ext s t := by
      rw [ht]
      exact ⟨⟨rfl, rfl, rfl, rfl, rfl⟩, by show s.brk ≤ S0.brk; omega⟩
    have hbd := Below.bound d hB
    have hA : Agree s t (nodes_below s d [(none, s.bstat.root_node), (some mid, right)]) := by
      intro b hb1
      have := (hbd b hb1).2.1
      exact tq b (by omega)
    obtain ⟨f1, f2, f3, f4⟩ := lower_frame he hA hB
    have hexp : expand t [(none, s.brk)] = [(none, s.bstat.root_node), (some mid, right)] := by
      simp only [expand, tm, hR, node_pairs, List.append_nil]
      simp [put_val, put_key, Function.update, List.range_succ]
    refine ⟨BPT_NEXIST, t, run, ?_, fun h => (by cases h), fun _ => ⟨rfl, ?_, ?_⟩⟩
    · intro h
      rw [ht]
      show S0.alloc = []
      rw [a0]
      exact alloc_request_alloc s h
    · refine ⟨by rw [ht]; exact hp, by omega, ?_, ?_⟩
      · rw [th, tr]
        refine ⟨⟨?_, ?_⟩, ?_⟩
        · intro p hp1
          simp only [List.mem_singleton] at hp1
          subst hp1
          refine ⟨hn0, by simp only; omega, R, tm, ?_, ?_, ?_⟩
          · rw [hR]; simp only; omega
          · rw [hR]; simp [min_inner]
          · rw [hR, he.1.1]; simp only; omega
        · exact ⟨⟨R, tm, by rw [hR], by rw [hR]; rfl⟩, trivial⟩
        · rw [hexp]; exact f1
      · rw [th, tr]
        simp only [nodes_below, hexp, List.map_cons, List.map_nil, List.singleton_append]
        rw [f2, List.nodup_cons]
        refine ⟨fun h => ?_, hnd⟩
        have := (hbd _ h).2.1
        omega
    · simp only [tree_entries, th, tr, level_below, hexp]
      rw [f3, f4]

/-! ## Replacing the contents of one internal node -/

theorem Ctx.upper_bound {s : State} {stk : gen_stk} {U : List Int} {X Y : List Item}
    {lo : Option bpt_t} {a : Int} (hc : Ctx s stk U X lo a Y) :
    ∀ b ∈ U, b ≠ 0 ∧ b < s.brk := by
  induction hc with
  | root => intro b hb; simp at hb
  | @step stk U X lo a Y n off _ hm hi _ h0 h1 ih =>
    intro b hb
    rw [List.mem_append] at hb
    rcases hb with hb | hb
    · exact ih b hb
    · obtain ⟨p, hp, rfl⟩ := List.mem_map.mp hb
      exact ⟨(hi.1 p hp).1, (hi.1 p hp).2.1⟩

theorem take_succ_of {α : Type} (l : List α) (c : Nat) (x : α) (r : List α)
    (h : l[c]? = some x) : l.take c ++ x :: r = l.take (c + 1) ++ r := by
  rw [List.take_succ, h]
  simp

/-- The level below the node of the top frame, with a new child to the right
of the child in focus. -/
theorem target_eq {s : State} {X1 Y1 : List Item} {lo1 : Option bpt_t} {n : bpt_node}
    {off : Int} (h0 : 0 ≤ off) (h1 : off ≤ n.nkey) (q : Item) :
    (expand s X1 ++ (node_pairs lo1 n).take off.toNat) ++
      (if off = 0 then lo1 else some (n.entries (off - 1)).key, (n.entries off).val) :: q ::
        ((node_pairs lo1 n).drop (off.toNat + 1) ++ expand s Y1) =
    expand s X1 ++ (((node_pairs lo1 n).take (off.toNat + 1) ++
      q :: (node_pairs lo1 n).drop (off.toNat + 1)) ++ expand s Y1) := by
  rw [List.append_assoc, take_succ_of _ _ _ _ (getElem?_pairs_at h0 h1)]
  simp

theorem WF_of_ctx {cmp : bpt_t → bpt_t → Int} {t : State} {stk : gen_stk} {U : List Int}
    {X Y : List Item} {lo : Option bpt_t} {a : Int} {d : Nat}
    (hp : ParamsOK t.bstat) (hb : 0 < t.brk) (hc : Ctx t stk U X lo a Y)
    (hlen : stk.length + d = t.bstat.height)
    (hl : Below t cmp stk.isEmpty d (X ++ (lo, a) :: Y))
    (hnd : (U ++ nodes_below t d (X ++ (lo, a) :: Y)).Nodup) :
    WF cmp t ∧ tree_entries t =
      contents t ((level_below t d (X ++ (lo, a) :: Y)).map Prod.snd) := by
  refine ⟨⟨hp, hb, ?_, ?_⟩, ?_⟩
  · have := hc.lift d hl
    rwa [hlen] at this
  · have := hc.nodes d
    rw [hlen] at this
    rw [this]
    exact hnd
  · have := hc.level d
    rw [hlen] at this
    simp only [tree_entries, this]

theorem inter_replace_spec {cmp : bpt_t → bpt_t → Int} {s : State} {stk : gen_stk}
    {U1 : List Int} {X1 Y1 : List Item} {lo1 : Option bpt_t} {a : Int} {n : bpt_node} {d : Nat}
    (A : bpt_node)
    (hp : ParamsOK s.bstat) (hb : 0 < s.brk) (hc1 : Ctx s stk U1 X1 lo1 a Y1)
    (hm : s.mem a = some n)
    (hi : InnerOK s (min_inner s stk.isEmpty) (X1 ++ (lo1, a) :: Y1))
    (hlen : stk.length + (d + 1) = s.bstat.height)
    (hA1 : A.prv = n.prv) (hA2 : A.nxt = n.nxt)
    (hAk : 0 ≤ A.nkey ∧ min_inner s stk.isEmpty ≤ A.nkey ∧ A.nkey ≤ s.bstat.order)
    (hB : Below s cmp false d (expand s X1 ++ (node_pairs lo1 A ++ expand s Y1)))
    (hnd : ((U1 ++ (X1 ++ (lo1, a) :: Y1).map Prod.snd) ++
      nodes_below s d (expand s X1 ++ (node_pairs lo1 A ++ expand s Y1))).Nodup) :
    WF cmp (wr s a A) ∧
      tree_entries (wr s a A) = contents s
        ((level_below s d (expand s X1 ++ (node_pairs lo1 A ++ expand s Y1))).map Prod.snd) := by
  have hnd1 : (U1 ++ (X1 ++ (lo1, a) :: Y1).map Prod.snd).Nodup := (List.nodup_append.mp hnd).1
  obtain ⟨aU, aX, aY, -, -⟩ := nodup_focus hnd1
  have he : Ext s (wr s a A) := Ext.wr s a A
  have hAU : Agree s (wr s a A) U1 := fun b hb1 => wr_mem_of_ne _ (ne_of_mem_of_not_mem hb1 aU)
  have hAX : Agree s (wr s a A) (X1.map Prod.snd) :=
    fun b hb1 => wr_mem_of_ne _ (ne_of_mem_of_not_mem hb1 aX)
  have hAY : Agree s (wr s a A) (Y1.map Prod.snd) :=
    fun b hb1 => wr_mem_of_ne _ (ne_of_mem_of_not_mem hb1 aY)
  have hAT : Agree s (wr s a A)
      (nodes_below s d (expand s X1 ++ (node_pairs lo1 A ++ expand s Y1))) := by
    intro b hb1
    refine wr_mem_of_ne _ (fun h => ?_)
    subst h
    exact (List.nodup_append.mp hnd).2.2 (by simp) hb1
  obtain ⟨f1, f2, f3, f4⟩ := lower_frame he hAT hB
  have hc2 : Ctx (wr s a A) stk U1 X1 lo1 a Y1 := hc1.frame he rfl hAU
  have hexp : expand (wr s a A) (X1 ++ (lo1, a) :: Y1) =
      expand s X1 ++ (node_pairs lo1 A ++ expand s Y1) := by
    rw [expand_append, expand_cons_of_mem (wr_mem_same _ _ _), expand_congr hAX,
      expand_congr hAY]
  have hin : InnerOK (wr s a A) (min_inner s stk.isEmpty) (X1 ++ (lo1, a) :: Y1) :=
    innerOK_update1 hi hm he
      (fun b hb1 => by
        simp only [List.map_append, List.mem_append] at hb1
        rcases hb1 with hb1 | hb1
        · exact hAX b hb1
        · exact hAY b hb1)
      (fun p hp1 => hi.1 p (by
        simp only [List.mem_append, List.mem_cons] at hp1 ⊢
        rcases hp1 with hp1 | hp1
        · exact Or.inl hp1
        · exact Or.inr (Or.inr hp1)))
      (wr_mem_same _ _ _) hA1 hA2 hAk.1 hAk.2.1 hAk.2.2
  have hbl : Below (wr s a A) cmp stk.isEmpty (d + 1) (X1 ++ (lo1, a) :: Y1) := by
    refine ⟨hin, ?_⟩
    rw [hexp]
    exact f1
  obtain ⟨w1, w2⟩ := WF_of_ctx (by exact hp) (by exact hb) hc2 (by exact hlen) hbl (by
    simp only [nodes_below, hexp, f2]
    rw [← List.append_assoc]
    exact hnd)
  refine ⟨w1, ?_⟩
  rw [w2]
  simp only [level_below, hexp]
  rw [f3, f4]

/-! ## `internal_insert`: one split step -/

theorem inter_split_step {cmp : bpt_t → bpt_t → Int} {s : State} {stk : gen_stk}
    {U1 : List Int} {X1 Y1 : List Item} {lo1 : Option bpt_t} {a : Int} {n : bpt_node}
    {off : Int} {d : Nat} {right : Int} {mid : bpt_t}
    (hp : ParamsOK s.bstat) (hb : 0 < s.brk) (hc1 : Ctx s stk U1 X1 lo1 a Y1)
    (hm : s.mem a = some n)
    (hi : InnerOK s (min_inner s stk.isEmpty) (X1 ++ (lo1, a) :: Y1))
    (h0 : 0 ≤ off) (h1 : off ≤ n.nkey)
    (hlen : stk.length + (d + 1) = s.bstat.height)
    (hB : Below s cmp false d (expand s X1 ++ (((node_pairs lo1 n).take (off.toNat + 1) ++
      (some mid, right) :: (node_pairs lo1 n).drop (off.toNat + 1)) ++ expand s Y1)))
    (hnd : ((U1 ++ (X1 ++ (lo1, a) :: Y1).map Prod.snd) ++
      nodes_below s d (expand s X1 ++ (((node_pairs lo1 n).take (off.toNat + 1) ++
        (some mid, right) :: (node_pairs lo1 n).drop (off.toNat + 1)) ++ expand s Y1))).Nodup)
    (hfull : n.nkey = s.bstat.order) (hal : (alloc_request s).1 = true) :
    ∃ t1 k, internal_insert_split s ⟨a, off⟩ right mid = some (Sum.inr (t1, s.brk, k)) ∧
      t1.alloc = (alloc_request s).2.alloc ∧ ParamsOK t1.bstat ∧ 0 < t1.brk ∧
      Ctx t1 stk U1 X1 lo1 a Y1 ∧ stk.length + (d + 1) = t1.bstat.height ∧
      Below t1 cmp false (d + 1) (X1 ++ (lo1, a) :: (some k, s.brk) :: Y1) ∧
      (U1 ++ nodes_below t1 (d + 1) (X1 ++ (lo1, a) :: (some k, s.brk) :: Y1)).Nodup ∧
      contents t1
          ((level_below t1 (d + 1) (X1 ++ (lo1, a) :: (some k, s.brk) :: Y1)).map Prod.snd) =
        contents s ((level_below s d (expand s X1 ++ (((node_pairs lo1 n).take (off.toNat + 1) ++
          (some mid, right) :: (node_pairs lo1 n).drop (off.toNat + 1)) ++
            expand s Y1))).map Prod.snd) := by
  obtain ⟨p3, p4, p5, p6, p7, -, -, -, -⟩ := params_arith hp
  have hnd1 : (U1 ++ (X1 ++ (lo1, a) :: Y1).map Prod.snd).Nodup := (List.nodup_append.mp hnd).1
  have hndL : ((X1 ++ (lo1, a) :: Y1).map Prod.snd).Nodup := (List.nodup_append.mp hnd1).2.1
  obtain ⟨aU, aX, aY, -, -⟩ := nodup_focus hnd1
  obtain ⟨a0, ab, -⟩ := hi.1 (lo1, a) (by simp)
  simp only at a0 ab
  have hnx := (next_facts hi hm).2
  have hxL : n.nxt ≠ 0 → n.nxt ∈ (X1 ++ (lo1, a) :: Y1).map Prod.snd := by
    intro h
    obtain ⟨ln, Y2, hY, _⟩ := hnx h
    rw [hY]; simp
  obtain ⟨t1, A, B, k, rs, tb, tk, ta, tmA, tmB, A1, A2, A3, B1, B2, B3, hpairs, hxx, hoo⟩ :=
    inter_split_run mid right hp hb a0 ab hm (fun h => by
      obtain ⟨ln, Y2, hY, _, hxb, ny, hy, _⟩ := hnx h
      refine ⟨fun hh => aY ?_, hxb, ny, hy⟩
      rw [hY, ← hh]; simp) hfull h0 h1 hal
  have he : Ext s t1 := ⟨by rw [tb]; exact ⟨rfl, rfl, rfl, rfl, rfl⟩, by omega⟩
  have hbd := Below.bound d hB
  have hub := hc1.upper_bound
  have hAU : Agree s t1 U1 := by
    intro b hb1
    refine hoo b (ne_of_mem_of_not_mem hb1 aU) (by have := (hub b hb1).2; omega) (fun h => ?_)
    have hx0 : n.nxt ≠ 0 := by rw [← h]; exact (hub b hb1).1
    exact (List.nodup_append.mp hnd1).2.2 hb1 (h ▸ hxL hx0)
  have hAT : Agree s t1 (nodes_below s d (expand s X1 ++
      (((node_pairs lo1 n).take (off.toNat + 1) ++
        (some mid, right) :: (node_pairs lo1 n).drop (off.toNat + 1)) ++ expand s Y1))) := by
    intro b hb1
    have hd1 := (List.nodup_append.mp hnd).2.2
    refine hoo b (fun h => ?_) (by have := (hbd b hb1).2.1; omega) (fun h => ?_)
    · subst h
      exact hd1 (by simp) hb1
    · have hx0 : n.nxt ≠ 0 := by rw [← h]; exact (hbd b hb1).1
      exact hd1 (List.mem_append_right _ (h ▸ hxL hx0)) hb1
  obtain ⟨f1, f2, f3, f4⟩ := lower_frame he hAT hB
  obtain ⟨hAX, hAY, -, -⟩ := split_frame hi hm he hndL (le_refl _) hxx hoo
  have hexp : expand t1 (X1 ++ (lo1, a) :: (some k, s.brk) :: Y1) =
      expand s X1 ++ (((node_pairs lo1 n).take (off.toNat + 1) ++
        (some mid, right) :: (node_pairs lo1 n).drop (off.toNat + 1)) ++ expand s Y1) := by
    rw [expand_append, expand_cons_of_mem tmA, expand_cons_of_mem tmB, expand_congr hAX,
      expand_alike hAY, ← hpairs lo1]
    simp
  have hXY : ∀ p ∈ X1 ++ Y1, NodeOK s s.bstat.new_inter_nkey p.2 := by
    intro p hp1
    cases stk with
    | nil =>
      obtain ⟨-, hX, -, -, hY⟩ := hc1.of_nil
      subst hX hY
      simp at hp1
    | cons f r =>
      have := hi.1 p (by
        simp only [List.mem_append, List.mem_cons] at hp1 ⊢
        rcases hp1 with hp1 | hp1
        · exact Or.inl hp1
        · exact Or.inr (Or.inr hp1))
      simpa [min_inner] using this
  have hin : InnerOK t1 (min_inner t1 false) (X1 ++ (lo1, a) :: (some k, s.brk) :: Y1) := by
    have hmn : min_inner t1 false = s.bstat.new_inter_nkey := by simp [min_inner, tb]
    rw [hmn]
    exact innerOK_insert hi hm he hndL (le_refl _) (by omega) (by omega) hXY tmA A1 A2
      ⟨by omega, by omega, by omega⟩ tmB B1 B2 ⟨by omega, by omega, by omega⟩ hxx hoo
  refine ⟨t1, k, rs, ta, by rw [tb]; exact hp, by omega, hc1.frame he (by rw [tb]) hAU,
    by rw [tb]; exact hlen, ⟨hin, by rw [hexp]; exact f1⟩, ?_, ?_⟩
  · simp only [nodes_below, hexp, f2]
    have hn : s.brk ∉ U1 ++ ((X1.map Prod.snd ++ a :: Y1.map Prod.snd) ++
        nodes_below s d (expand s X1 ++ (((node_pairs lo1 n).take (off.toNat + 1) ++
          (some mid, right) :: (node_pairs lo1 n).drop (off.toNat + 1)) ++ expand s Y1))) := by
      intro h
      simp only [List.mem_append, List.mem_cons] at h
      rcases h with h | (h | h | h) | h
      · have := (hub _ h).2; omega
      · obtain ⟨p, hp1, hp2⟩ := List.mem_map.mp h
        have := (hi.1 p (by simp; exact Or.inl hp1)).2.1
        omega
      · omega
      · obtain ⟨p, hp1, hp2⟩ := List.mem_map.mp h
        have := (hi.1 p (by simp; exact Or.inr (Or.inr hp1))).2.1
        omega
      · have := (hbd _ h).2.1; omega
    have := nodup_insert (by simpa [List.append_assoc] using hnd) hn
    simpa [List.append_assoc] using this
  · simp only [level_below, hexp]
    rw [f3, f4]

/-! ## `internal_insert`: the loop -/

theorem internal_insert_loop_spec {cmp : bpt_t → bpt_t → Int} :
    ∀ (stk : gen_stk) (s : State) (U : List Int) (X : List Item) (lo : Option bpt_t)
      (left : Int) (Y : List Item) (d : Nat) (right : Int) (mid : bpt_t),
      ParamsOK s.bstat → 0 < s.brk → Ctx s stk U X lo left Y →
      stk.length + d = s.bstat.height →
      Below s cmp false d (X ++ (lo, left) :: (some mid, right) :: Y) →
      (U ++ nodes_below s d (X ++ (lo, left) :: (some mid, right) :: Y)).Nodup →
      ∃ r t, internal_insert_loop stk s left right mid = some (r, t) ∧
        (s.alloc = [] → t.alloc = []) ∧ (r = BPT_ERROR → s.alloc ≠ []) ∧
        (r ≠ BPT_ERROR → r = BPT_NEXIST ∧ WF cmp t ∧
          tree_entries t = contents s
            ((level_below s d (X ++ (lo, left) :: (some mid, right) :: Y)).map Prod.snd)) := by
  intro stk
  induction stk with
  | nil =>
    intro s U X lo left Y d right mid hp hb hc hlen hB hnd
    obtain ⟨rfl, rfl, rfl, rfl, rfl⟩ := hc.of_nil
    simp only [List.nil_append, List.length_nil, Nat.zero_add] at hB hnd hlen ⊢
    exact inter_root_spec hp hb hlen hB hnd
  | cons frm stk ih =>
    intro s U X lo left Y d right mid hp hb hc hlen hB hnd
    obtain ⟨a, off⟩ := frm
    obtain ⟨U1, X1, lo1, Y1, n, hc1, hm, hi, hnd1, h0, h1, eU, eX, el, ea, eY⟩ := hc.of_cons
    simp only at hc1 hm hi hnd1 h0 h1 eU eX el ea eY
    subst eU eX el ea eY
    rw [target_eq h0 h1] at hB hnd
    obtain ⟨a0, ab, n1, hm1, hn0, -, hn2⟩ := hi.1 (lo1, a) (by simp)
    simp only at a0 ab hm1
    rw [hm] at hm1; cases Option.some.inj hm1
    have hlen1 : stk.length + (d + 1) = s.bstat.height := by
      simp only [List.length_cons] at hlen
      omega
    rw [target_eq h0 h1]
    simp only [internal_insert_loop, nkey_eq a0 hm]
    by_cases hroom : n.nkey < s.bstat.order
    · rw [if_pos hroom, inter_room_run mid right a0 hm h0 h1 hroom]
      obtain ⟨A, hA⟩ : ∃ A : bpt_node, A = { n with
        entries := put_val (put_key (moved n n (off + 1) off (n.nkey + 1 - off)) off mid)
          (off + 1) right
        nkey := n.nkey + 1 } := ⟨_, rfl⟩
      rw [← hA]
      have hAp : node_pairs lo1 A = (node_pairs lo1 n).take (off.toNat + 1) ++
          (some mid, right) :: (node_pairs lo1 n).drop (off.toNat + 1) := by
        rw [hA]
        exact pairs_of_keys_vals (by omega : off.toNat ≤ n.nkey.toNat)
          (room_keys mid right h0 h1) (room_vals mid right h0 h1)
      rw [← hAp] at hB hnd ⊢
      have hmin : min_inner s stk.isEmpty ≤ n.nkey := by
        obtain ⟨-, -, n2, hm2, -, hk, -⟩ := hi.1 (lo1, a) (by simp)
        simp only at hm2
        rw [hm] at hm2; cases Option.some.inj hm2
        exact hk
      have hAn : A.nkey = n.nkey + 1 := by rw [hA]
      obtain ⟨w1, w2⟩ := inter_replace_spec A hp hb hc1 hm hi hlen1 (by rw [hA]) (by rw [hA])
        ⟨by omega, by omega, by omega⟩ hB hnd
      exact ⟨BPT_NEXIST, _, rfl, fun h => h, fun h => (by cases h), fun _ => ⟨rfl, w1, w2⟩⟩
    · rw [if_neg hroom]
      have hfull : n.nkey = s.bstat.order := by omega
      by_cases hal : (alloc_request s).1 = true
      swap
      · have hal1 : (alloc_request s).1 = false := by simpa using hal
        rw [inter_split_fail mid right hb a0 hm hal1]
        refine ⟨BPT_ERROR, _, rfl, ?_, fun _ => alloc_request_false hal1, fun h => absurd rfl h⟩
        intro h
        rw [alloc_request_nil h] at hal
        exact absurd rfl hal
      · obtain ⟨t1, k, rs, ta, q1, q2, q3, q4, q5, q6, q7⟩ :=
          inter_split_step hp hb hc1 hm hi h0 h1 hlen1 hB hnd hfull hal
        rw [rs]
        obtain ⟨r, t, g1, g2, g3, g4⟩ := ih t1 U1 X1 lo1 a Y1 (d + 1) s.brk k q1 q2 q3 q4 q5 q6
        have hal2 : s.alloc = [] → t1.alloc = [] := by
          intro h
          rw [ta]
          exact alloc_request_alloc s h
        refine ⟨r, t, g1, fun h => g2 (hal2 h), fun h hs => g3 h (hal2 hs), fun h => ?_⟩
        obtain ⟨e1, e2, e3⟩ := g4 h
        exact ⟨e1, e2, e3.trans q7⟩

/-! ## `leaf_insert`: splitting the leaf -/

theorem leaf_split_spec {cmp : bpt_t → bpt_t → Int} {s : State} {stk : gen_stk}
    {U : List Int} {X Y : List Item} {lo : Option bpt_t} {leaf : Int} {e : bpt_entry}
    {n : bpt_node} {off : Int}
    (hs : LeafSit cmp s stk U X lo leaf Y e.key) (hm : s.mem leaf = some n)
    (h : Miss cmp e.key n off) (hfull : n.nkey = s.bstat.order)
    (hal : (alloc_request s).1 = true) :
    ∃ S0 t r t1, bpt_node_new s leaf n.nxt = (s.brk, S0) ∧
      leaf_insert_split S0 e leaf off n.nxt s.brk = some t ∧
      internal_insert t leaf s.brk stk = some (r, t1) ∧
      (s.alloc = [] → t1.alloc = []) ∧ (r = BPT_ERROR → s.alloc ≠ []) ∧
      (r ≠ BPT_ERROR → r = BPT_NEXIST ∧ WF cmp t1 ∧
        ∃ A B, tree_entries s = A ++ B ∧ tree_entries t1 = A ++ e :: B) := by
  obtain ⟨hs1, hs2, hs3⟩ := alloc_request_same s
  obtain ⟨p3, -, -, -, -, p5, p6, p7, p8⟩ := params_arith hs.hp
  obtain ⟨l0, lb, n1, hm1, hn0, hn1, hn2, c1, c2, -, -⟩ := hs.node
  rw [hm] at hm1; cases Option.some.inj hm1
  have hb := hs.hb
  obtain ⟨lU, lX, lY⟩ := hs.notin
  have hndL : ((X ++ (lo, leaf) :: Y).map Prod.snd).Nodup := (List.nodup_append.mp hs.nd).2.1
  have hnx := (next_facts hs.ok.1 hm).2
  have hxL : n.nxt ≠ 0 → n.nxt ∈ (X ++ (lo, leaf) :: Y).map Prod.snd := by
    intro h
    obtain ⟨ln, Y2, hY, _⟩ := hnx h
    rw [hY]; simp
  have hnew : bpt_node_new s leaf n.nxt =
      (s.brk, grow (wr (alloc_request s).2 s.brk (fresh_node leaf n.nxt))) := by
    rw [node_new_ok _ _ hal, hs3]
  obtain ⟨S0, hS0⟩ : ∃ S0 : State,
    S0 = grow (wr (alloc_request s).2 s.brk (fresh_node leaf n.nxt)) := ⟨_, rfl⟩
  rw [← hS0] at hnew
  have hne : s.brk ≠ leaf := by omega
  have hb0 : s.brk ≠ 0 := by omega
  have m0n : S0.mem s.brk = some (fresh_node leaf n.nxt) := by
    rw [hS0]; exact wr_mem_same _ _ _
  have m0o : ∀ b, b ≠ s.brk → S0.mem b = s.mem b := by
    intro b h
    rw [hS0, grow_mem, wr_mem_of_ne _ h, hs1]
  have b0 : S0.bstat = s.bstat := by rw [hS0]; exact hs2
  have k0 : S0.brk = s.brk + 1 := by rw [hS0, grow_brk, wr_brk, hs3]
  have a0 : S0.alloc = (alloc_request s).2.alloc := by rw [hS0]; rfl
  obtain ⟨t, L, N, rs, tb, tk, ta, tmL, tmN, L1, L2, L3, N1, N2, N3, hents, hL0, hxx, hoo⟩ :=
    @leaf_split_run S0 leaf s.brk n e off (by rw [b0]; exact hs.hp) l0 hb0 hne
      ((m0o leaf hne.symm).trans hm) m0n (fun h => by
        obtain ⟨ln, Y2, hY, _, hxb, ny, hy, _⟩ := hnx h
        refine ⟨fun hh => lY ?_, by omega, ny, (m0o _ (by omega)).trans hy⟩
        rw [hY, ← hh]; simp) (by rw [b0]; exact hfull) h.1 h.2.1
  rw [b0] at tb L3 N3
  have hxx1 : ∀ ny, n.nxt ≠ 0 → s.mem n.nxt = some ny →
      t.mem n.nxt = some { ny with prv := s.brk } := by
    intro ny h0 hy
    obtain ⟨ln, Y2, hY, _, hxb, _⟩ := hnx h0
    exact hxx ny h0 ((m0o _ (by omega)).trans hy)
  have hoo1 : ∀ b, b ≠ leaf → b ≠ s.brk → b ≠ n.nxt → t.mem b = s.mem b := by
    intro b h1 h2 h3
    rw [hoo b h1 h2 h3, m0o b h2]
  have he : Ext s t := ⟨by rw [tb]; exact ⟨rfl, rfl, rfl, rfl, rfl⟩, by omega⟩
  have hub := hs.ctx.upper_bound
  have hAU : Agree s t U := by
    intro b hb1
    refine hoo1 b (ne_of_mem_of_not_mem hb1 lU) (by have := (hub b hb1).2; omega) (fun h => ?_)
    have hx0 : n.nxt ≠ 0 := by rw [← h]; exact (hub b hb1).1
    exact (List.nodup_append.mp hs.nd).2.2 hb1 (h ▸ hxL hx0)
  obtain ⟨hAX, hAY, -, -⟩ := split_frame hs.ok.1 hm he hndL (le_refl _) hxx1 hoo1
  have hXY : ∀ p ∈ X ++ Y, NodeOK s s.bstat.new_leaf_nkey p.2 := by
    intro p hp1
    have hsc := hs.ctx
    have hok := hs.ok
    cases stk with
    | nil =>
      obtain ⟨-, hX, -, -, hY⟩ := hsc.of_nil
      subst hX hY
      simp at hp1
    | cons f r =>
      have := hok.1.1 p (by
        simp only [List.mem_append, List.mem_cons] at hp1 ⊢
        rcases hp1 with hp1 | hp1
        · exact Or.inl hp1
        · exact Or.inr (Or.inr hp1))
      simpa [min_leaf] using this
  have hlen : (node_ents L ++ node_ents N) =
      (node_ents n).take off.toNat ++ e :: (node_ents n).drop off.toNat := hents
  have hpw := h.pairwise hs hm
  have hlk : LeafOK t cmp (min_leaf t false)
      (X ++ (lo, leaf) :: (some (N.entries 0).key, s.brk) :: Y) := by
    have hmn : min_leaf t false = s.bstat.new_leaf_nkey := by simp [min_leaf, tb]
    rw [hmn]
    refine leafOK_insert hs.ok hm he hndL (le_refl _) hb0 (by omega) hXY tmL L1 L2
      ⟨by omega, by omega, by omega⟩ tmN N1 N2 ⟨by omega, by omega, by omega⟩ hxx1 hoo1 ?_ ?_
      ⟨by omega, rfl⟩
    · rw [hlen]
      simpa using hpw
    · intro l hl
      obtain ⟨n2, hm2, hk1, hk2⟩ := hs.ok.2.2 (lo, leaf) (by simp) l hl
      simp only at hm2
      rw [hm] at hm2; cases Option.some.inj hm2
      have hX : X ≠ [] := by
        intro hX
        have := (Sep.lo_none hs.ctx.sep).mpr hX
        rw [this] at hl; simp at hl
      have := h.off_pos hs hm hX
      exact ⟨by omega, by rw [hL0 (by omega)]; exact hk2⟩
  have hget : get_entry t s.brk 0 = some (N.entries 0) :=
    get_entry_eq hb0 tmN (le_refl _) (by rw [tb]; omega)
  obtain ⟨r, t1, g1, g2, g3, g4⟩ := @internal_insert_loop_spec cmp stk t U X lo leaf Y 0
    s.brk (N.entries 0).key (by rw [tb]; exact hs.hp) (by omega)
    (hs.ctx.frame he (by rw [tb]) hAU) (by rw [tb]; simpa using hs.len) hlk (by
      simp only [nodes_below, List.map_append, List.map_cons]
      have hn : s.brk ∉ U ++ ((X.map Prod.snd ++ leaf :: Y.map Prod.snd) ++ []) := by
        intro h
        simp only [List.mem_append, List.mem_cons, List.append_nil] at h
        rcases h with h | h | h | h
        · have := (hub _ h).2; omega
        · obtain ⟨p, hp1, hp2⟩ := List.mem_map.mp h
          have := (hs.ok.1.1 p (by simp; exact Or.inl hp1)).2.1
          omega
        · omega
        · obtain ⟨p, hp1, hp2⟩ := List.mem_map.mp h
          have := (hs.ok.1.1 p (by simp; exact Or.inr (Or.inr hp1))).2.1
          omega
      have := nodup_insert (B := []) (by simpa using hs.nd) hn
      simpa using this)
  have hal2 : s.alloc = [] → t.alloc = [] := by
    intro h
    rw [ta, a0]
    exact alloc_request_alloc s h
  refine ⟨S0, t, r, t1, hnew, rs, ?_, fun h => g2 (hal2 h), fun h hs0 => g3 h (hal2 hs0),
    fun h => ?_⟩
  · unfold internal_insert
    rw [hget]
    exact g1
  · obtain ⟨e1, e2, e3⟩ := g4 h
    refine ⟨e1, e2, contents s (X.map Prod.snd) ++ (node_ents n).take off.toNat,
      (node_ents n).drop off.toNat ++ contents s (Y.map Prod.snd), ?_, ?_⟩
    · rw [hs.entries hm]
      simp only [List.append_assoc]
      rw [← List.append_assoc (List.take _ _), List.take_append_drop]
    · rw [e3]
      simp only [level_below, List.map_append, List.map_cons, contents_append, contents,
        leaf_ents_of_mem tmL, leaf_ents_of_mem tmN, contents_congr hAX, contents_alike hAY]
      rw [← List.append_assoc (node_ents L), hlen]
      simp

/-! ## `leaf_insert` on a full leaf -/

theorem leaf_insert_full_spec {cmp : bpt_t → bpt_t → Int} {s : State} {stk : gen_stk}
    {U : List Int} {X Y : List Item} {lo : Option bpt_t} {leaf : Int} {e : bpt_entry}
    {n : bpt_node} {off : Int}
    (hs : LeafSit cmp s stk U X lo leaf Y e.key) (hm : s.mem leaf = some n)
    (h : Miss cmp e.key n off) (hfull : n.nkey = s.bstat.order) :
    ∃ r t1, leaf_insert_full s e leaf off n stk = some (r, t1) ∧
      (s.alloc = [] → t1.alloc = []) ∧ (r = BPT_ERROR → s.alloc ≠ []) ∧
      (r ≠ BPT_ERROR → r = BPT_NEXIST ∧ WF cmp t1 ∧
        ∃ A B, tree_entries s = A ++ B ∧ tree_entries t1 = A ++ e :: B) := by
  have hP : ∃ pi, (if n.prv ≠ 0 then bpt_node_nkey s n.prv else some s.bstat.order) = some pi ∧
      (n.prv ≠ 0 ∧ pi ≠ s.bstat.order →
        ∃ t1, leaf_insert_prv s e leaf off n.prv pi stk = some t1 ∧ WF cmp t1 ∧
          t1.alloc = s.alloc ∧ ∃ A B, tree_entries s = A ++ B ∧ tree_entries t1 = A ++ e :: B) := by
    by_cases hp0 : n.prv = 0
    · exact ⟨s.bstat.order, by simp [hp0], fun hh => absurd hp0 hh.1⟩
    · obtain ⟨X0, lp, hX, q0, qb, np, hnp, hk0, hk1, hk2⟩ := (prev_facts hs.ok.1 hm).2 hp0
      refine ⟨np.nkey, by rw [if_pos hp0, nkey_eq q0 hnp], fun hh => ?_⟩
      subst hX
      exact leaf_insert_prv_spec hs hm hnp h hfull (by have := hh.2; omega)
  have hN : ∃ ni, (if n.nxt ≠ 0 then bpt_node_nkey s n.nxt else some s.bstat.order) = some ni ∧
      (n.nxt ≠ 0 ∧ ni ≠ s.bstat.order →
        ∃ t1, leaf_insert_nxt s e leaf off n.nxt ni stk = some t1 ∧ WF cmp t1 ∧
          t1.alloc = s.alloc ∧ ∃ A B, tree_entries s = A ++ B ∧ tree_entries t1 = A ++ e :: B) := by
    by_cases hx0 : n.nxt = 0
    · exact ⟨s.bstat.order, by simp [hx0], fun hh => absurd hx0 hh.1⟩
    · obtain ⟨ln, Y1, hY, q0, qb, nn, hnn, hk0, hk1, hk2⟩ := (next_facts hs.ok.1 hm).2 hx0
      refine ⟨nn.nkey, by rw [if_pos hx0, nkey_eq q0 hnn], fun hh => ?_⟩
      subst hY
      exact leaf_insert_nxt_spec hs hm hnn h hfull (by have := hh.2; omega)
  obtain ⟨pi, hpi, hpb⟩ := hP
  obtain ⟨ni, hni, hnb⟩ := hN
  unfold leaf_insert_full
  simp only [hpi, hni]
  by_cases c1 : n.prv ≠ 0 ∧ pi ≠ s.bstat.order
  · obtain ⟨t1, r1, r2, r3, r4⟩ := hpb c1
    rw [if_pos c1, r1]
    exact ⟨BPT_NEXIST, t1, rfl, fun h0 => r3.trans h0, fun h0 => (by cases h0),
      fun _ => ⟨rfl, r2, r4⟩⟩
  · rw [if_neg c1]
    by_cases c2 : n.nxt ≠ 0 ∧ ni ≠ s.bstat.order
    · obtain ⟨t1, r1, r2, r3, r4⟩ := hnb c2
      rw [if_pos c2, r1]
      exact ⟨BPT_NEXIST, t1, rfl, fun h0 => r3.trans h0, fun h0 => (by cases h0),
        fun _ => ⟨rfl, r2, r4⟩⟩
    · rw [if_neg c2]
      by_cases hal : (alloc_request s).1 = true
      swap
      · have hal1 : (alloc_request s).1 = false := by simpa using hal
        rw [node_new_fail _ _ hal1]
        refine ⟨BPT_ERROR, (alloc_request s).2, by simp, ?_, fun _ => alloc_request_false hal1,
          fun h0 => absurd rfl h0⟩
        intro h0
        rw [alloc_request_nil h0] at hal
        exact absurd rfl hal
      · obtain ⟨S0, t, r, t1, g1, g2, g3, g4, g5, g6⟩ := leaf_split_spec hs hm h hfull hal
        rw [g1]
        have hb0 : s.brk ≠ 0 := by have := hs.hb; omega
        simp only [if_neg hb0, g2]
        exact ⟨r, t1, g3, g4, g5, g6⟩

/-! ## `leaf_insert` and `bpt_insert` -/

theorem LeafSit.wf {cmp : bpt_t → bpt_t → Int} {t : State} {stk : gen_stk} {U : List Int}
    {X Y : List Item} {lo : Option bpt_t} {leaf : Int} {k : bpt_t}
    (h : LeafSit cmp t stk U X lo leaf Y k) : WF cmp t :=
  WF_of_leaf h.hp h.hb h.ctx h.len h.ok h.nd

theorem leaf_insert_spec {cmp : bpt_t → bpt_t → Int} {s : State} {stk : gen_stk}
    {U : List Int} {X Y : List Item} {lo : Option bpt_t} {leaf : Int} (e : bpt_entry)
    (pred : bpt_t → bpt_t → Int)
    (hs : LeafSit cmp s stk U X lo leaf Y e.key) :
    ∃ r t, leaf_insert e cmp pred leaf stk s = some (r, t) ∧
      (s.alloc = [] → t.alloc = []) ∧ (r = BPT_ERROR → s.alloc ≠ []) ∧
      (r ≠ BPT_ERROR → WF cmp t ∧ InsSpec s e pred r t) := by
  obtain ⟨l0, lb, n, hm, hn0, hn1, hn2, -, -, -, -⟩ := hs.node
  unfold leaf_insert
  simp only [rd_of_ne l0, hm]
  rw [if_neg (by simp only [not_not]; exact ⟨hn0, hn2⟩)]
  by_cases hit : (leaf_scan cmp e.key n.entries n.nkey n.nkey.toNat 0).2 = true
  · obtain ⟨o0, o1, ok⟩ := leaf_scan_hit hs.hc e.key n hn0 hit
    generalize (leaf_scan cmp e.key n.entries n.nkey n.nkey.toNat 0).1 = off at o0 o1 ok ⊢
    simp only [hit, if_true]
    have hsplit := node_ents_split_at o0 o1
    have hentries : tree_entries s = (contents s (X.map Prod.snd) ++ (node_ents n).take off.toNat) ++
        n.entries off :: ((node_ents n).drop (off.toNat + 1) ++ contents s (Y.map Prod.snd)) := by
      rw [hs.entries hm]
      conv_lhs => rw [hsplit]
      simp
    by_cases hpred : pred e.val (n.entries off).val ≠ 0
    · rw [if_pos hpred, set_val_eq l0 hm o0 (by omega)]
      obtain ⟨hAU, hAL⟩ := hs.agree_wr { n with
        entries := Function.update n.entries off { n.entries off with val := e.val } }
      have hne := node_ents_set_val e.val o0 o1
      have hok : LeafOK (wr s leaf _) cmp (min_leaf s stk.isEmpty) (X ++ (lo, leaf) :: Y) :=
        @leafOK_update1 _ _ _ _ _ _ _ lo _ _ _ hs.ok hm (Ext.wr _ _ _) hAL (wr_mem_same _ _ _)
          rfl rfl hn0 hn1 hn2
          (by
            have := hs.ok.2.1
            rw [contents_focus, leaf_ents_of_mem hm] at this
            rw [hne]
            conv at this => rw [hsplit]
            simpa using this)
          (by
            intro l hl
            obtain ⟨n2, hm2, hk1, hk2⟩ := hs.ok.2.2 (lo, leaf) (by simp) l hl
            rw [hm] at hm2; cases Option.some.inj hm2
            refine ⟨hk1, ?_⟩
            simp only [Function.update_apply]
            split_ifs with h0
            · rw [← h0]; exact hk2
            · exact hk2)
      have hc2 := hs.ctx.frame (Ext.wr _ _ _) rfl hAU
      refine ⟨BPT_PRED_SUCCESS, _, rfl, fun h => h, fun h => (by cases h), fun _ => ⟨?_, ?_⟩⟩
      · exact WF_of_leaf (by simpa using hs.hp) (by simpa using hs.hb) hc2
          (by simpa using hs.len) hok hs.nd
      · refine Or.inr (Or.inl ⟨rfl, _, n.entries off, _, hentries, ok, hpred, ?_,
          leaf, off, n, hm, rfl, rfl⟩)
        rw [tree_entries_of_ctx hc2 (by simpa using hs.len), contents_focus,
          leaf_ents_of_mem (wr_mem_same _ _ _), hne,
          contents_congr (fun b hb => hAL b (by simp at hb ⊢; exact Or.inl hb)),
          contents_congr (fun b hb => hAL b (by simp at hb ⊢; exact Or.inr hb))]
        simp
    · rw [if_neg hpred]
      refine ⟨BPT_PRED_FAIL, s, rfl, fun h => h, fun h => (by cases h), fun _ => ⟨hs.wf, ?_⟩⟩
      refine Or.inr (Or.inr ⟨rfl, n.entries off, ?_, ok, by simpa using hpred, rfl⟩)
      rw [hentries]
      simp
  · have hmiss : (leaf_scan cmp e.key n.entries n.nkey n.nkey.toNat 0).2 = false := by
      simpa using hit
    have h := leaf_scan_miss hs.hc e.key n hn0 hmiss
    generalize (leaf_scan cmp e.key n.entries n.nkey n.nkey.toNat 0).1 = off at h ⊢
    simp only [hmiss]
    have habs := h.absent hs hm
    by_cases hroom : n.nkey < s.bstat.order
    · obtain ⟨t1, r1, r2, r3, r4⟩ := leaf_insert_room_spec hs hm h hroom
      simp only [if_pos hroom, r1]
      exact ⟨BPT_NEXIST, t1, by simp, fun h0 => r3.trans h0, fun h0 => (by cases h0),
        fun _ => ⟨r2, Or.inl ⟨rfl, habs, r4⟩⟩⟩
    · obtain ⟨r, t1, r1, r2, r3, r4⟩ := leaf_insert_full_spec hs hm h (by omega)
      simp only [if_neg hroom]
      refine ⟨r, t1, by simpa using r1, r2, r3, fun h0 => ?_⟩
      obtain ⟨e1, e2, e3⟩ := r4 h0
      exact ⟨e2, Or.inl ⟨e1, habs, e3⟩⟩

theorem SameTree.wf_same {cmp : bpt_t → bpt_t → Int} {s t : State} (h : SameTree s t)
    (hw : WF cmp s) : WF cmp t := by
  obtain ⟨hp, hb, hbl, hnd⟩ := hw
  refine ⟨by rw [h.2.1]; exact hp, by rw [h.2.2]; exact hb, ?_, ?_⟩
  · rw [h.2.1]; exact h.below hbl
  · rw [h.2.1, h.nodes_same]; exact hnd

theorem SameTree.eq_of_alloc {s t : State} (h : SameTree s t) (ha : t.alloc = s.alloc) :
    t = s := by
  obtain ⟨h1, h2, h3⟩ := h
  cases s
  cases t
  simp only at h1 h2 h3 ha
  subst h1 h2 h3 ha
  rfl

theorem SameTree.entries_same {s t : State} (h : SameTree s t) : tree_entries t = tree_entries s := by
  simp only [tree_entries, h.2.1]
  rw [level_below_congr _ (h.agree _), contents_congr (h.agree _)]

theorem journal_reset_spec (s : State) (b : Bool) :
    SameTree s (journal_reset s b).2 ∧
      (s.alloc = [] → (journal_reset s b).1 = true ∧ (journal_reset s b).2.alloc = []) ∧
      ((journal_reset s b).1 = false → s.alloc ≠ []) := by
  unfold journal_reset
  cases b with
  | true => exact ⟨SameTree.refl_same s, fun h => ⟨rfl, h⟩, fun h => by simp at h⟩
  | false =>
    simp only [Bool.false_eq_true, if_false]
    refine ⟨alloc_request_same s, fun h => ?_, alloc_request_false⟩
    rw [alloc_request_nil h]
    exact ⟨rfl, h⟩

theorem journal_stk_frames (bld : bpt_build) (stk : stk_obj) (b : Bool) :
    (journal_stk bld stk b).frames = [] := by
  cases b <;> rfl

/-- Whatever `bpt_insert` returns on a well-formed tree, with whatever stack:
it fails only when the allocator refuses a request, and otherwise the tree is
well formed again and its entries changed as `InsSpec` tells. -/
theorem bpt_insert_sound {cmp : bpt_t → bpt_t → Int} (hc : cmp_total cmp) {s : State}
    (hw : WF cmp s) (bld : bpt_build) (e : bpt_entry) (pred : bpt_t → bpt_t → Int)
    (stk : stk_obj) (b : Bool) {r : bpt_result} {t : State}
    (hrun : bpt_insert bld e cmp pred stk b s = some (r, t)) :
    ∃ s1, SameTree s s1 ∧
      (s.alloc = [] → s1 = s) ∧ (s.alloc = [] → t.alloc = []) ∧
      (r = BPT_ERROR → s.alloc ≠ []) ∧
      (r ≠ BPT_ERROR → WF cmp t ∧ InsSpec s1 e pred r t) := by
  obtain ⟨j1, j2, j3⟩ := journal_reset_spec s b
  unfold bpt_insert at hrun
  simp only [] at hrun
  by_cases hj : (journal_reset s b).1 = true
  swap
  · have hj1 : (journal_reset s b).1 = false := by simpa using hj
    rw [if_neg (by simp [hj1])] at hrun
    simp only [Option.some.injEq, Prod.mk.injEq] at hrun
    obtain ⟨h1, h2⟩ := hrun
    subst h1 h2
    exact ⟨s, SameTree.refl_same s, fun _ => rfl, fun h => (j2 h).2, fun _ => j3 hj1,
      fun h => absurd rfl h⟩
  · rw [if_pos hj] at hrun
    obtain ⟨-, g⟩ := descend_root (j1.wf_same hw) bld e.key (journal_stk bld stk b)
      (journal_stk_frames bld stk b)
    cases hd : journal_descend bld cmp e.key (journal_reset s b).2.bstat.height
        (journal_reset s b).2 (journal_reset s b).2.bstat.root_node (journal_stk bld stk b) with
    | none => rw [hd] at hrun; simp at hrun
    | some p =>
      obtain ⟨res, t1⟩ := p
      rw [hd] at hrun
      obtain ⟨d2, d3, d4, d5⟩ := g res t1 hd
      have hst : SameTree s t1 := j1.trans_same d2
      have hal : s.alloc = [] → t1.alloc = [] := fun h => d3 (j2 h).2
      cases res with
      | none =>
        simp only [Option.some.injEq, Prod.mk.injEq] at hrun
        obtain ⟨h1, h2⟩ := hrun
        subst h1 h2
        refine ⟨s, SameTree.refl_same s, fun _ => rfl, hal, ?_, fun h => absurd rfl h⟩
        intro _ h
        exact d4 rfl (j2 h).2
      | some p =>
        obtain ⟨leaf, o1⟩ := p
        simp only at hrun
        obtain ⟨U, X, lo, Y, c1, c2, c3, c4, c5⟩ := d5 leaf o1 rfl
        have hw1 := hst.wf_same hw
        have hs : LeafSit cmp t1 o1.frames U X lo leaf Y e.key :=
          ⟨hc, hw1.1, hw1.2.1, c1, c2, c3, c4, c5⟩
        obtain ⟨r1, t2, g1, g2, g3, g4⟩ := leaf_insert_spec e pred hs
        rw [g1] at hrun
        simp only [Option.some.injEq, Prod.mk.injEq] at hrun
        obtain ⟨h1, h2⟩ := hrun
        subst h1 h2
        exact ⟨t1, hst, fun h => hst.eq_of_alloc ((hal h).trans h.symm),
          fun h => g2 (hal h), fun h h0 => g3 h (hal h0), g4⟩

/-- The call `bpt_insert` on a well-formed tree returns when the journal fits
the stack. -/
theorem bpt_insert_total {cmp : bpt_t → bpt_t → Int} (hc : cmp_total cmp) {s : State}
    (hw : WF cmp s) (e : bpt_entry) (pred : bpt_t → bpt_t → Int) {bld : bpt_build}
    {stk : stk_obj} {b : Bool} (hfit : Fits bld stk b s.bstat.height) :
    ∃ r t, bpt_insert bld e cmp pred stk b s = some (r, t) := by
  obtain ⟨j1, j2, j3⟩ := journal_reset_spec s b
  unfold bpt_insert
  simp only []
  by_cases hj : (journal_reset s b).1 = true
  swap
  · have hj1 : (journal_reset s b).1 = false := by simpa using hj
    rw [if_neg (by simp [hj1])]
    exact ⟨_, _, rfl⟩
  · rw [if_pos hj]
    have hw1 := j1.wf_same hw
    obtain ⟨leaf, st, hd, U, X, lo, Y, c1, c2, c3, c4, c5⟩ :=
      descend_fit hw1 e.key (journal_stk_frames bld stk b)
        (show Room bld (journal_stk bld stk b) (journal_reset s b).2.bstat.height by
          rw [j1.2.1]; exact hfit)
    rw [hd]
    have hs : LeafSit cmp (journal_reset s b).2 st U X lo leaf Y e.key :=
      ⟨hc, hw1.1, hw1.2.1, c1, c2, c3, c4, c5⟩
    obtain ⟨r1, t2, g1, -⟩ := leaf_insert_spec e pred hs
    exact ⟨r1, t2, g1⟩

/-- The call `bpt_insert` on a well-formed tree whose journal fits the stack:
it returns, it fails only when the allocator refuses a request, and otherwise
the tree is well formed again and its entries changed as `InsSpec` tells. -/
theorem bpt_insert_spec {cmp : bpt_t → bpt_t → Int} (hc : cmp_total cmp) {s : State}
    (hw : WF cmp s) (e : bpt_entry) (pred : bpt_t → bpt_t → Int) {bld : bpt_build}
    {stk : stk_obj} {b : Bool} (hfit : Fits bld stk b s.bstat.height) :
    ∃ r t s1, bpt_insert bld e cmp pred stk b s = some (r, t) ∧ SameTree s s1 ∧
      (s.alloc = [] → s1 = s) ∧ (s.alloc = [] → t.alloc = []) ∧
      (r = BPT_ERROR → s.alloc ≠ []) ∧
      (r ≠ BPT_ERROR → WF cmp t ∧ InsSpec s1 e pred r t) := by
  obtain ⟨r, t, hrun⟩ := bpt_insert_total hc hw e pred hfit
  obtain ⟨s1, h⟩ := bpt_insert_sound hc hw bld e pred stk b hrun
  exact ⟨r, t, s1, hrun, h⟩

/-! ## `bpt_delete_entry`: the leaf keeps enough entries -/

theorem node_ents_delete {n : bpt_node} {off : Int} (h0 : 0 ≤ off) (h1 : off < n.nkey) :
    node_ents { n with
        entries := moved n n off (off + 1) (n.nkey - off - 1)
        nkey := n.nkey - 1 } =
      (node_ents n).take off.toNat ++ (node_ents n).drop (off.toNat + 1) := by
  apply List.ext_getElem?
  intro i
  simp only [getElem?_node_ents, List.getElem?_append, List.getElem?_take, List.getElem?_drop,
    List.length_take, length_node_ents, moved]
  have hoff : ((off.toNat : Nat) : Int) = off := Int.toNat_of_nonneg h0
  split_ifs <;> first | rfl | omega | (congr 2; omega)

theorem pairwise_erase {α : Type} {R : α → α → Prop} {A B : List α} {x : α}
    (h : (A ++ x :: B).Pairwise R) : (A ++ B).Pairwise R :=
  h.sublist ((List.Sublist.refl A).append (List.sublist_cons_self x B))

/-- The entries of the tree around slot `off` of the leaf in focus. -/
theorem LeafSit.entries_at {cmp : bpt_t → bpt_t → Int} {t : State} {stk : gen_stk}
    {U : List Int} {X Y : List Item} {lo : Option bpt_t} {leaf : Int} {k : bpt_t}
    {n : bpt_node} {off : Int}
    (h : LeafSit cmp t stk U X lo leaf Y k) (hm : t.mem leaf = some n) (h0 : 0 ≤ off)
    (h1 : off < n.nkey) :
    tree_entries t = (contents t (X.map Prod.snd) ++ (node_ents n).take off.toNat) ++
      n.entries off :: ((node_ents n).drop (off.toNat + 1) ++ contents t (Y.map Prod.snd)) := by
  rw [h.entries hm]
  conv_lhs => rw [node_ents_split_at h0 h1]
  simp

theorem LeafSit.stk_ne {cmp : bpt_t → bpt_t → Int} {t : State} {stk : gen_stk}
    {U : List Int} {X Y : List Item} {lo : Option bpt_t} {leaf : Int} {k : bpt_t}
    (h : LeafSit cmp t stk U X lo leaf Y k) (hX : X ≠ [] ∨ Y ≠ [] ∨ lo ≠ none) : stk ≠ [] := by
  intro hs
  have hc := h.ctx
  rw [hs] at hc
  obtain ⟨-, h1, h2, -, h3⟩ := hc.of_nil
  rcases hX with hX | hX | hX
  · exact hX h1
  · exact hX h3
  · exact hX h2

theorem delete_entry_simple_spec {cmp : bpt_t → bpt_t → Int} {s : State} {stk : gen_stk}
    {U : List Int} {X Y : List Item} {lo : Option bpt_t} {leaf : Int} {k : bpt_t}
    {n : bpt_node} {off : Int}
    (hs : LeafSit cmp s stk U X lo leaf Y k) (hm : s.mem leaf = some n) (h0 : 0 ≤ off)
    (h1 : off < n.nkey) (hcond : n.nkey ≠ s.bstat.new_leaf_nkey ∨ stk = []) :
    ∃ t, delete_entry_simple s leaf off n.nkey stk = some t ∧ WF cmp t ∧ t.alloc = s.alloc ∧
      tree_entries t = (contents s (X.map Prod.snd) ++ (node_ents n).take off.toNat) ++
        ((node_ents n).drop (off.toNat + 1) ++ contents s (Y.map Prod.snd)) := by
  obtain ⟨l0, lb, n1, hm1, hn0, hn1, hn2, -, -, -, -⟩ := hs.node
  rw [hm] at hm1; cases Option.some.inj hm1
  obtain ⟨lU, lX, lY⟩ := hs.notin
  obtain ⟨p3, -, -, -, -, p5, p6, p7, p8⟩ := params_arith hs.hp
  have hmin : stk ≠ [] → s.bstat.new_leaf_nkey < n.nkey := by
    intro hne
    have : stk.isEmpty = false := by
      cases stk with
      | nil => exact absurd rfl hne
      | cons f r => rfl
    rw [this] at hn1
    simp only [min_leaf, Bool.false_eq_true, if_false] at hn1
    rcases hcond with hc | hc
    · omega
    · exact absurd hc hne
  obtain ⟨L1, hL1⟩ : ∃ L1 : bpt_node, L1 = { n with
    entries := moved n n off (off + 1) (n.nkey - off - 1) } := ⟨_, rfl⟩
  have e1 : memmove s leaf off leaf (off + 1) (n.nkey - off - 1) = some (wr s leaf L1) := by
    rw [hL1]
    exact memmove_eq off (off + 1) _ l0 hm l0 hm (by omega) (fun _ => by omega)
  have hAU : Agree s (wr s leaf L1) U := fun b hb => wr_mem_of_ne _ (ne_of_mem_of_not_mem hb lU)
  have hc1 : Ctx (wr s leaf L1) stk U X lo leaf Y := hs.ctx.frame (Ext.wr _ _ _) rfl hAU
  have key : ∃ S lo1, (∀ f : State → Option State,
        (if off = 0 then (get_entry (wr s leaf L1) leaf 0).bind fun e =>
          (update_index (wr s leaf L1) e.key stk).bind f else f (wr s leaf L1)) = f S) ∧
      S.mem leaf = some L1 ∧ (∀ b, b ∉ U → S.mem b = (wr s leaf L1).mem b) ∧
      S.bstat = s.bstat ∧ S.brk = s.brk ∧ S.alloc = s.alloc ∧ Ctx S stk U X lo1 leaf Y ∧
      (∀ l, lo1 = some l → 1 < n.nkey ∧ (L1.entries 0).key = l) := by
    by_cases hz : off = 0
    · have hg : get_entry (wr s leaf L1) leaf 0 = some (L1.entries 0) :=
        get_entry_eq l0 (wr_mem_same _ _ _) (le_refl _) (by simp; omega)
      cases hlo : lo with
      | none =>
        refine ⟨wr s leaf L1, none, fun f => ?_, wr_mem_same _ _ _, fun _ _ => rfl, rfl, rfl,
          rfl, by rw [← hlo]; exact hc1, fun l hl => by simp at hl⟩
        rw [if_pos hz, hg]
        simp only [Option.some_bind, (hc1.left_sep.1 hlo).2]
      | some l =>
        obtain ⟨mo, mn, nm, -, e2, e3, e4, e5, e6, e7, -, e9⟩ := hc1.left_sep.2 l hlo
        obtain ⟨e10, hc4⟩ := e9 (L1.entries 0).key
        refine ⟨wr (wr s leaf L1) mn (with_key nm mo (L1.entries 0).key),
          some (L1.entries 0).key, fun f => ?_, ?_, ?_, rfl, rfl, rfl, hc4, ?_⟩
        · rw [if_pos hz, hg]
          simp only [Option.some_bind, e10]
        · rw [wr_mem_of_ne _ (ne_of_mem_of_not_mem e2 lU).symm]
          exact wr_mem_same _ _ _
        · intro b hb
          exact wr_mem_of_ne _ (fun h => hb (h ▸ e2))
        · intro l1 hl1
          have hne := hs.stk_ne (Or.inr (Or.inr (by rw [hlo]; simp)))
          have := hmin hne
          exact ⟨by omega, Option.some.inj hl1⟩
    · refine ⟨wr s leaf L1, lo, fun f => by rw [if_neg hz], wr_mem_same _ _ _, fun _ _ => rfl,
        rfl, rfl, rfl, hc1, ?_⟩
      intro l hl
      obtain ⟨n2, hm2, hk1, hk2⟩ := hs.ok.2.2 (lo, leaf) (by simp) l hl
      simp only at hm2
      rw [hm] at hm2; cases Option.some.inj hm2
      refine ⟨by omega, ?_⟩
      rw [hL1]
      simp only [moved]
      rw [if_neg (by omega)]
      exact hk2
  obtain ⟨S, lo1, k1, k2, k3, k4, k5, k6, k7, k8⟩ := key
  obtain ⟨L2, hL2⟩ : ∃ L2 : bpt_node, L2 = { L1 with nkey := n.nkey - 1 } := ⟨_, rfl⟩
  have hL2e : node_ents L2 =
      (node_ents n).take off.toNat ++ (node_ents n).drop (off.toNat + 1) := by
    rw [hL2, hL1]; exact node_ents_delete h0 h1
  have he : Ext s (wr S leaf L2) := ⟨by rw [wr_bstat, k4]; exact ⟨rfl, rfl, rfl, rfl, rfl⟩,
    by rw [wr_brk, k5]⟩
  have hAL : ∀ b ∈ (X ++ Y).map Prod.snd, (wr S leaf L2).mem b = s.mem b := by
    intro b hb
    obtain ⟨-, -, -, h4, h5⟩ := nodup_focus hs.nd
    have hbl : b ≠ leaf := by
      simp only [List.map_append, List.mem_append] at hb
      rcases hb with hb | hb
      · exact ne_of_mem_of_not_mem hb lX
      · exact ne_of_mem_of_not_mem hb lY
    have hbU : b ∉ U := by
      simp only [List.map_append, List.mem_append] at hb
      rcases hb with hb | hb
      · exact h4 b hb
      · exact h5 b hb
    rw [wr_mem_of_ne _ hbl, k3 b hbU, wr_mem_of_ne _ hbl]
  have hc2 : Ctx (wr S leaf L2) stk U X lo1 leaf Y :=
    k7.frame (Ext.wr _ _ _) rfl (fun b hb => wr_mem_of_ne _ (ne_of_mem_of_not_mem hb lU))
  have hok : LeafOK (wr S leaf L2) cmp (min_leaf s stk.isEmpty) (X ++ (lo1, leaf) :: Y) := by
    refine @leafOK_update1 _ _ _ _ _ _ _ lo1 _ _ _ hs.ok hm he hAL (wr_mem_same _ _ _)
      (by rw [hL2, hL1]) (by rw [hL2, hL1]) (by rw [hL2]; simp only; omega) ?_
      (by rw [hL2]; simp only; omega) ?_ ?_
    · rw [hL2]
      simp only
      cases hstk : stk with
      | nil => subst hstk; simp only [List.isEmpty_nil, min_leaf, if_true]; omega
      | cons f r =>
        have := hmin (by rw [hstk]; simp)
        simp only [List.isEmpty_cons, min_leaf, Bool.false_eq_true, if_false]
        omega
    · have := hs.ok.2.1
      rw [contents_focus, leaf_ents_of_mem hm] at this
      rw [hL2e]
      conv at this => rw [node_ents_split_at h0 h1]
      simp only [List.map_append, List.map_cons, List.append_assoc] at this ⊢
      rw [← List.append_assoc] at this ⊢
      exact pairwise_erase this
    · intro l hl
      obtain ⟨q1, q2⟩ := k8 l hl
      exact ⟨by rw [hL2]; simp only; omega, by rw [hL2]; exact q2⟩
  obtain ⟨w1, w2⟩ := WF_of_ctx (d := 0) (by rw [wr_bstat, k4]; exact hs.hp)
    (by rw [wr_brk, k5]; exact hs.hb) hc2 (by rw [wr_bstat, k4]; simpa using hs.len)
    (by
      show LeafOK _ cmp (min_leaf (wr S leaf L2) stk.isEmpty) _
      rw [min_leaf_congr he]; exact hok)
    (by simpa [nodes_below] using hs.nd)
  refine ⟨wr S leaf L2, ?_, w1, by rw [wr_alloc, k6], ?_⟩
  · unfold delete_entry_simple
    simp only [Option.bind_eq_bind, e1, Option.some_bind]
    rw [k1, set_nkey_eq l0 k2, hL2]
  · rw [w2]
    simp only [level_below, contents_focus, leaf_ents_of_mem (wr_mem_same _ _ _), hL2e]
    rw [contents_congr (fun b hb => hAL b (by simp at hb ⊢; exact Or.inl hb)),
      contents_congr (fun b hb => hAL b (by simp at hb ⊢; exact Or.inr hb))]
    simp

/-! ## Scenarios of the specification, run on the code -/

/-- Claim C17: `bpt_init` with a successful allocation returns `0` and yields
height `0`, a root that is an empty leaf without siblings, the order stored and
the four thresholds computed by integer division, so that `bpt_search` of any
key returns `-1` on the fresh tree (for an order that is not negative); it
returns `-1` when the allocation fails. -/
theorem bpt_init_fresh (alloc : List Bool) (order : Int) :
    ((alloc_request (mem0 alloc)).1 = true →
      (bpt_init (mem0 alloc) order).1 = 0 ∧
      (bpt_init (mem0 alloc) order).2.bstat.height = 0 ∧
      (bpt_init (mem0 alloc) order).2.bstat.order = order ∧
      (bpt_init (mem0 alloc) order).2.bstat.old_leaf_nkey = Int.tdiv order 2 + 1 ∧
      (bpt_init (mem0 alloc) order).2.bstat.new_leaf_nkey =
        order + 1 - (bpt_init (mem0 alloc) order).2.bstat.old_leaf_nkey ∧
      (bpt_init (mem0 alloc) order).2.bstat.old_inter_nkey = order - Int.tdiv order 2 ∧
      (bpt_init (mem0 alloc) order).2.bstat.new_inter_nkey =
        order - (bpt_init (mem0 alloc) order).2.bstat.old_inter_nkey ∧
      (bpt_init (mem0 alloc) order).2.bstat.root_node ≠ 0 ∧
      (∃ n, rd (bpt_init (mem0 alloc) order).2 (bpt_init (mem0 alloc) order).2.bstat.root_node =
        some n ∧ n.nkey = 0 ∧ n.prv = 0 ∧ n.nxt = 0) ∧
      (0 ≤ order → ∀ (k : bpt_t) (cmp : bpt_t → bpt_t → Int),
        bpt_search k cmp (bpt_init (mem0 alloc) order).2 = some (-1, none))) ∧
    ((alloc_request (mem0 alloc)).1 = false → (bpt_init (mem0 alloc) order).1 = -1) := by
  constructor
  · intro hal
    have hn : bpt_node_new (mem0 alloc) 0 0 =
        (1, grow (wr (alloc_request (mem0 alloc)).2 1 (fresh_node 0 0))) := by
      rw [node_new_ok _ _ hal]
      have : (alloc_request (mem0 alloc)).2.brk = 1 := (alloc_request_same _).2.2
      rw [this]
    have hi : bpt_init (mem0 alloc) order = (0, { grow (wr (alloc_request (mem0 alloc)).2 1
        (fresh_node 0 0)) with bstat :=
          { root_node := 1
            height := 0
            order := order
            old_leaf_nkey := Int.tdiv order 2 + 1
            new_leaf_nkey := order + 1 - (Int.tdiv order 2 + 1)
            old_inter_nkey := order - Int.tdiv order 2
            new_inter_nkey := order - (order - Int.tdiv order 2) } }) := by
      unfold bpt_init
      simp only [hn]
      rfl
    rw [hi]
    refine ⟨rfl, rfl, rfl, rfl, rfl, rfl, rfl, by simp, ⟨fresh_node 0 0, ?_, rfl, rfl, rfl⟩, ?_⟩
    · simp [rd, wr, grow]
    · intro ho k cmp
      simp [bpt_search, search_descend, leaf_find, rd, wr, grow, fresh_node, ho, scan_eq]
  · intro hal
    unfold bpt_init
    simp [node_new_fail _ _ hal]

/-- Claim C18 (scenario S1): in a tree of order 3, after the insertion of the
keys 10, 20, 30, 40, 50, 5, 25 in that order the leaf chain reads
5, 10, 20, 25, 30, 40, 50, the height is 1 and the root has two keys. -/
theorem scenario_s1 :
    (bpt_init (mem0 []) 3).1 = 0 ∧
    (insert_keys build_8 [10, 20, 30, 40, 50, 5, 25] (bpt_init (mem0 []) 3).2).map
        (fun s => (chain_keys s, s.bstat.height, root_nkey s)) =
      some (some [5, 10, 20, 25, 30, 40, 50], 1, some 2) := by
  decide!

/-- Claim C19 as stated fails: in a tree of order 4 holding the keys 1 to 12
(inserted in ascending order) the three leaves are all full, and the insertion
of 13 splits the rightmost leaf: there are four leaves afterwards. -/
theorem scenario_s2_splits :
    (insert_keys build_8 (key_range 1 12) (bpt_init (mem0 []) 4).2).map leaf_sizes =
      some (some [4, 4, 4]) ∧
    (insert_keys build_8 (key_range 1 13) (bpt_init (mem0 []) 4).2).map leaf_sizes =
      some (some [4, 4, 3, 2]) := by
  decide!

/-- Claim C19, amended: in a tree of order 4 holding the keys 1 to 11 the
insertion of 12 does not split a leaf, the minimum of the full rightmost leaf
goes to its previous sibling: the leaves hold 4, 3, 4 entries before and
4, 4, 4 after it; the insertion of 13 then finds both full and splits. -/
theorem scenario_s2_amended :
    (insert_keys build_8 (key_range 1 11) (bpt_init (mem0 []) 4).2).map
        (fun s => (leaf_sizes s, chain_keys s)) =
      some (some [4, 3, 4], some (key_range 1 11)) ∧
    (insert_keys build_8 (key_range 1 12) (bpt_init (mem0 []) 4).2).map
        (fun s => (leaf_sizes s, chain_keys s)) =
      some (some [4, 4, 4], some (key_range 1 12)) ∧
    (insert_keys build_8 (key_range 1 13) (bpt_init (mem0 []) 4).2).map
        (fun s => (leaf_sizes s, chain_keys s)) =
      some (some [4, 4, 3, 2], some (key_range 1 13)) := by
  decide!

/-- Claim C20 as stated fails: in a tree of order 4 the insertion of the keys
1 to 20 in ascending order produces height 1, not 2. -/
theorem scenario_s3_height :
    (insert_keys build_8 (key_range 1 20) (bpt_init (mem0 []) 4).2).map
        (fun s => (s.bstat.height, root_nkey s, leaf_sizes s)) =
      some (1, some 4, some [4, 4, 4, 4, 4]) := by
  decide!

/-- Claim C20, amended: in a tree of order 4 the insertion of the keys 1 to 20
in ascending order produces height 1; during the deletion of the keys 1 to 14
in ascending order the height stays 1, and the leaf chain is strictly
increasing after every one of these insertions and deletions. -/
theorem scenario_s3_amended :
    ((insert_trace build_8 (key_range 1 20) (bpt_init (mem0 []) 4).2).map
        fun tr => (all_sorted tr, (tr.map Prod.fst).getLast?)) = some (true, some 1) ∧
    ((insert_keys build_8 (key_range 1 20) (bpt_init (mem0 []) 4).2).bind
        fun s => (delete_trace build_8 (key_range 1 14) s).map
          fun tr => (all_sorted tr, tr.map Prod.fst)) =
      some (true, List.replicate 14 1) := by
  decide!

/-- Claim C16 fails on the code: in a tree of order 3 holding the keys 1, 2, 3
the key 3 is found; the insertion of 4 with an allocator that grants the new
leaf and refuses the new root returns `BPT_ERROR`, and afterwards neither 3 nor
4 is found by `bpt_search`, although both are still in the leaf chain. -/
theorem insert_error_loses_key :
    ((insert_keys build_8 [1, 2, 3] (bpt_init (mem0 []) 3).2).bind
        fun s => bpt_search 3 cmp_int s) = some (2, some 1) ∧
    ((insert_keys build_8 [1, 2, 3] (bpt_init (mem0 []) 3).2).bind
        fun s => (bpt_insert build_8 ⟨4, 4⟩ cmp_int bpt_pred_1 (driver_stk build_8) true
            { s with alloc := [true, false] }).map
          fun r => (decide (r.1 = BPT_ERROR), bpt_search 3 cmp_int r.2, bpt_search 4 cmp_int r.2,
            chain_keys r.2)) =
      some (true, some (-1, none), some (-1, none), some [1, 2, 3, 4]) := by
  decide!

/-! ## `bpt_searchr` against `bpt_search` -/

theorem choose_slot_chosen {cmp : bpt_t → bpt_t → Int} {k : bpt_t} {s : State} {a i c : Int}
    (h : choose_slot cmp k s a = some (i, c)) :
    ∃ n, rd s a = some n ∧ slot_chosen cmp k n i ∧ c = (n.entries i).val := by
  unfold choose_slot at h
  cases hr : rd s a with
  | none => rw [hr] at h; simp at h
  | some n =>
    rw [hr] at h
    simp only at h
    split_ifs at h with hc
    simp only [Option.some.injEq, Prod.mk.injEq] at h
    obtain ⟨h1, h2⟩ := h
    obtain ⟨a1, a2, a3, a4⟩ := scan_lt_spec cmp k n.entries n.nkey n.nkey.toNat 0 (by
      rw [Int.toNat_of_nonneg hc.1]; omega)
    refine ⟨n, rfl, ?_, by rw [← h2, h1]⟩
    rw [← h1]
    exact ⟨a1, a2 hc.1, a3, a4⟩

theorem choose_slot_same {s t : State} (h : SameTree s t) (cmp : bpt_t → bpt_t → Int)
    (k : bpt_t) (a : Int) : choose_slot cmp k t a = choose_slot cmp k s a := by
  simp only [choose_slot, rd, h.1, h.2.1]

theorem search_descend_same {s t : State} (h : SameTree s t) (cmp : bpt_t → bpt_t → Int)
    (k : bpt_t) : ∀ (d : Nat) (a : Int),
      search_descend cmp k t d a = search_descend cmp k s d a := by
  intro d
  induction d with
  | zero => intro a; rfl
  | succ d ih =>
    intro a
    simp only [search_descend, choose_slot_same h]
    cases choose_slot cmp k s a with
    | none => rfl
    | some p => exact ih p.2

theorem leaf_find_same {s t : State} (h : SameTree s t) (cmp : bpt_t → bpt_t → Int)
    (k : bpt_t) (a : Int) : leaf_find cmp k t a = leaf_find cmp k s a := by
  simp only [leaf_find, rd, h.1, h.2.1]

/-- The journaled descent follows the descent of `bpt_search`; it differs
only by the pushes, which may fail. -/
theorem journal_follows (bld : bpt_build) (cmp : bpt_t → bpt_t → Int) (k : bpt_t) :
    ∀ (d : Nat) (s : State) (node : Int) (obj : stk_obj) (res : Option (Int × stk_obj))
      (t : State), journal_descend bld cmp k d s node obj = some (res, t) →
      SameTree s t ∧ (s.alloc = [] → t = s) ∧ (res = none → s.alloc ≠ []) ∧
      ∀ leaf o1, res = some (leaf, o1) →
        search_descend cmp k s d node = some leaf ∧
        ∃ fr, o1.frames = fr.reverse ++ obj.frames ∧ fr.length = d ∧
          on_path cmp k s node fr leaf := by
  intro d
  induction d with
  | zero =>
    intro s node obj res t h
    simp only [journal_descend, Option.some.injEq, Prod.mk.injEq] at h
    obtain ⟨h1, h2⟩ := h
    subst h1 h2
    refine ⟨SameTree.refl_same s, fun _ => rfl, fun h => by simp at h, ?_⟩
    intro leaf st hl
    simp only [Option.some.injEq, Prod.mk.injEq] at hl
    obtain ⟨h1, h2⟩ := hl
    subst h1 h2
    exact ⟨rfl, [], rfl, rfl, rfl⟩
  | succ d ih =>
    intro s node obj res t h
    simp only [journal_descend] at h
    cases hcs : choose_slot cmp k s node with
    | none => rw [hcs] at h; simp at h
    | some p =>
      obtain ⟨i, c⟩ := p
      rw [hcs] at h
      simp only at h
      obtain ⟨n, hn, hsl, hc⟩ := choose_slot_chosen hcs
      cases hp : gen_stk_push bld s obj ⟨node, i⟩ with
      | none => rw [hp] at h; simp at h
      | some p =>
        obtain ⟨r, s1⟩ := p
        rw [hp] at h
        obtain ⟨hsame, p2, p3, p4⟩ := gen_stk_push_inv hp
        cases r with
        | none =>
          simp only [Option.some.injEq, Prod.mk.injEq] at h
          obtain ⟨h1, h2⟩ := h
          subst h1 h2
          exact ⟨hsame, p2, fun _ => p3 rfl, fun leaf st hl => by simp at hl⟩
        | some o =>
          simp only at h
          obtain ⟨g1, g2, g3, g4⟩ := ih _ _ _ _ _ h
          refine ⟨hsame.trans_same g1, ?_, ?_, ?_⟩
          · intro h0
            have e1 : s1 = s := p2 h0
            rw [g2 (by rw [e1]; exact h0), e1]
          · intro hr h0
            exact g3 hr (by rw [p2 h0]; exact h0)
          · intro leaf st hl
            obtain ⟨q1, fr, q2, q3, q4⟩ := g4 leaf st hl
            rw [search_descend_same hsame] at q1
            refine ⟨by simp only [search_descend, hcs]; exact q1, ⟨node, i⟩ :: fr, ?_,
              by simp [q3], rfl, n, hn, hsl, ?_⟩
            · rw [q2, p4 o rfl]; simp
            · rw [← hc]
              have : ∀ (fr : List bpt_frm) (a : Int),
                  on_path cmp k s1 a fr leaf → on_path cmp k s a fr leaf := by
                intro fr
                induction fr with
                | nil => intro a h; exact h
                | cons f r ihr =>
                  intro a h
                  obtain ⟨h1, m, h2, h3, h4⟩ := h
                  refine ⟨h1, m, ?_, h3, ihr _ h4⟩
                  simpa [rd, hsame.1] using h2
              exact this fr c q4

/-- With a stack that has room for `d` frames, the journaled descent returns
whenever the plain descent does, and it asks for no memory. -/
theorem journal_total (bld : bpt_build) (cmp : bpt_t → bpt_t → Int) (k : bpt_t) (s : State) :
    ∀ (d : Nat) (node : Int) (obj : stk_obj), Room bld obj d →
      (search_descend cmp k s d node = none → journal_descend bld cmp k d s node obj = none) ∧
      (∀ leaf, search_descend cmp k s d node = some leaf →
        ∃ st, journal_descend bld cmp k d s node obj =
          some (some (leaf, { obj with frames := st }), s)) := by
  intro d
  induction d with
  | zero =>
    intro node obj _
    exact ⟨fun h => by simp [search_descend] at h, fun leaf h => ⟨obj.frames, by
      simp only [search_descend, Option.some.injEq] at h
      simp [journal_descend, h]⟩⟩
  | succ d ih =>
    intro node obj hroom
    simp only [search_descend, journal_descend]
    cases hcs : choose_slot cmp k s node with
    | none => exact ⟨fun _ => rfl, fun leaf h => by simp at h⟩
    | some p =>
      obtain ⟨i, c⟩ := p
      obtain ⟨hp, hroom1⟩ := gen_stk_push_room hroom s ⟨node, i⟩
      simp only [hp]
      exact ih c _ hroom1

/-- Claim C14: when no allocation fails and the journal fits the stack,
`bpt_searchr` returns the same slot (or `-1`) as `bpt_search` and, on a hit,
the same leaf, and the tree is not changed; the stack it leaves holds exactly
`height` frames which, read from the bottom, are the nodes of the search path
paired with the child slots chosen in them, the slot being the smallest one
whose key is greater than the key sought or `nkey`, and the leaf has no frame;
with `has_stk_init` set the frames that the stack held before play no part. -/
theorem searchr_refines_search (bld : bpt_build) (k : bpt_t) (cmp : bpt_t → bpt_t → Int)
    (stk : stk_obj) (b : Bool) (s : State) (h0 : s.alloc = [])
    (hfit : Fits bld stk b s.bstat.height) :
    (bpt_search k cmp s = none → bpt_searchr bld k cmp stk b s = none) ∧
    (∀ i l, bpt_search k cmp s = some (i, l) →
      ∃ leaf jr, bpt_searchr bld k cmp stk b s = some ((i, leaf, jr), s) ∧
        (i ≠ -1 → l = some leaf) ∧ jr.length = s.bstat.height ∧
        on_path cmp k s s.bstat.root_node jr.reverse leaf) ∧
    ∀ held, bpt_searchr bld k cmp { stk with frames := held } true s =
      bpt_searchr bld k cmp stk true s := by
  have hj : journal_reset s b = (true, s) := by
    unfold journal_reset
    cases b with
    | true => rfl
    | false => simp [alloc_request_nil h0]
  obtain ⟨t1, t2⟩ := journal_total bld cmp k s s.bstat.height s.bstat.root_node _ hfit
  refine ⟨?_, ?_, fun _ => rfl⟩
  · intro hs
    unfold bpt_search at hs
    unfold bpt_searchr
    simp only [hj, if_true]
    cases hsd : search_descend cmp k s s.bstat.height s.bstat.root_node with
    | none => rw [t1 hsd]
    | some leaf =>
      obtain ⟨st, hst⟩ := t2 leaf hsd
      rw [hst]
      rw [hsd] at hs
      simp only at hs ⊢
      cases hlf : leaf_find cmp k s leaf with
      | none => rfl
      | some j => rw [hlf] at hs; simp only at hs; split_ifs at hs
  · intro i l h
    unfold bpt_search at h
    unfold bpt_searchr
    simp only [hj, if_true]
    cases hsd : search_descend cmp k s s.bstat.height s.bstat.root_node with
    | none => rw [hsd] at h; simp at h
    | some leaf =>
      obtain ⟨st, hst⟩ := t2 leaf hsd
      obtain ⟨-, -, -, g4⟩ := journal_follows bld cmp k _ _ _ _ _ _ hst
      obtain ⟨-, fr, q2, q3, q4⟩ := g4 leaf _ rfl
      rw [hst]
      rw [hsd] at h
      simp only at h ⊢
      have q2a : st = fr.reverse := by
        have := q2
        simp only [journal_stk_frames, List.append_nil] at this
        exact this
      cases hlf : leaf_find cmp k s leaf with
      | none => rw [hlf] at h; simp at h
      | some j =>
        rw [hlf] at h
        simp only at h ⊢
        have hstk : st.length = s.bstat.height ∧
            on_path cmp k s s.bstat.root_node st.reverse leaf := by
          rw [q2a]
          simp [q3, q4]
        by_cases hji : j = -1
        · rw [if_pos hji] at h
          simp only [Option.some.injEq, Prod.mk.injEq] at h
          refine ⟨leaf, st, by rw [hji, ← h.1], fun hne => absurd h.1.symm hne, hstk.1, hstk.2⟩
        · rw [if_neg hji] at h
          simp only [Option.some.injEq, Prod.mk.injEq] at h
          exact ⟨leaf, st, by rw [h.1], fun _ => h.2.symm, hstk.1, hstk.2⟩

/-- Claim C15: when `bpt_searchr` returns `-1`, the handle left in `*leafp` is
null exactly when the stack initialisation or a stack push failed (and then the
allocator did refuse a request); otherwise it is the non-null leaf at which the
descent of `bpt_search` ends, and that leaf does not hold the key. On such a
return `bpt_delete` gives `BPT_ERROR` for the null handle and `BPT_NEXIST`
otherwise, and when no allocation fails `bpt_delete` of a key that `bpt_search`
does not find returns `BPT_NEXIST` and changes nothing. -/
theorem searchr_miss_leaf (bld : bpt_build) (k : bpt_t) (cmp : bpt_t → bpt_t → Int)
    (stk0 : stk_obj) (b : Bool) (s : State) (leaf : Int) (stk : gen_stk) (s1 : State)
    (h : bpt_searchr bld k cmp stk0 b s = some ((-1, leaf, stk), s1)) :
    SameTree s s1 ∧
    (leaf = 0 ↔ ((journal_reset s b).1 = false ∨
      ∃ t, journal_descend bld cmp k (journal_reset s b).2.bstat.height (journal_reset s b).2
        (journal_reset s b).2.bstat.root_node (journal_stk bld stk0 b) = some (none, t))) ∧
    (leaf = 0 → s.alloc ≠ []) ∧
    (leaf ≠ 0 → search_descend cmp k s s.bstat.height s.bstat.root_node = some leaf ∧
      leaf_find cmp k s leaf = some (-1)) ∧
    (∀ v pred, bpt_delete bld ⟨k, v⟩ cmp pred stk0 b s =
      some (if leaf = 0 then BPT_ERROR else BPT_NEXIST, s1)) ∧
    (s.alloc = [] → ∀ v pred, bpt_search k cmp s = some (-1, none) ∧
      bpt_delete bld ⟨k, v⟩ cmp pred stk0 b s = some (BPT_NEXIST, s)) := by
  have hdel : ∀ v pred, bpt_delete bld ⟨k, v⟩ cmp pred stk0 b s =
      some (if leaf = 0 then BPT_ERROR else BPT_NEXIST, s1) := by
    intro v pred
    unfold bpt_delete
    simp only [h, if_true]
    split_ifs <;> rfl
  obtain ⟨j1, j2, j3⟩ := journal_reset_spec s b
  have main : SameTree s s1 ∧
      (leaf = 0 ↔ ((journal_reset s b).1 = false ∨
        ∃ t, journal_descend bld cmp k (journal_reset s b).2.bstat.height (journal_reset s b).2
          (journal_reset s b).2.bstat.root_node (journal_stk bld stk0 b) = some (none, t))) ∧
      (leaf = 0 → s.alloc ≠ []) ∧
      (leaf ≠ 0 → search_descend cmp k s s.bstat.height s.bstat.root_node = some leaf ∧
        leaf_find cmp k s leaf = some (-1)) ∧ (s.alloc = [] → s1 = s) := by
    unfold bpt_searchr at h
    simp only at h
    by_cases hr : (journal_reset s b).1 = true
    · rw [if_pos hr] at h
      cases hjd : journal_descend bld cmp k (journal_reset s b).2.bstat.height
          (journal_reset s b).2 (journal_reset s b).2.bstat.root_node (journal_stk bld stk0 b) with
      | none => rw [hjd] at h; simp at h
      | some p =>
        obtain ⟨res, t⟩ := p
        rw [hjd] at h
        obtain ⟨g1, g2, g3, g4⟩ := journal_follows bld cmp k _ _ _ _ _ _ hjd
        cases res with
        | none =>
          simp only [Option.some.injEq, Prod.mk.injEq] at h
          obtain ⟨⟨-, h2, -⟩, h4⟩ := h
          subst h4
          refine ⟨j1.trans_same g1, ⟨fun _ => Or.inr ⟨t, rfl⟩, fun _ => h2.symm⟩,
            fun _ h0 => g3 rfl (j2 h0).2, fun hne => absurd h2.symm hne,
            fun h0 => (j1.trans_same g1).eq_of_alloc ?_⟩
          rw [g2 (j2 h0).2, (j2 h0).2, h0]
        | some q =>
          obtain ⟨lf, st⟩ := q
          obtain ⟨q1, -⟩ := g4 lf st rfl
          simp only at h
          cases hlf : leaf_find cmp k t lf with
          | none => rw [hlf] at h; simp at h
          | some i =>
            rw [hlf] at h
            simp only [Option.some.injEq, Prod.mk.injEq] at h
            obtain ⟨⟨h1, h2, -⟩, h4⟩ := h
            subst h1 h2 h4
            have hsame := j1.trans_same g1
            have hne : lf ≠ 0 := by
              intro h0
              simp [leaf_find, rd, h0] at hlf
            rw [search_descend_same j1] at q1
            rw [leaf_find_same hsame] at hlf
            refine ⟨hsame, ⟨fun h0 => absurd h0 hne, ?_⟩, fun h0 => absurd h0 hne,
              fun _ => ⟨?_, hlf⟩, fun h0 => hsame.eq_of_alloc ?_⟩
            · rintro (h0 | ⟨t1, h1⟩)
              · rw [hr] at h0; cases h0
              · cases h1
            · have e1 := j1.2.1
              rw [e1] at q1
              exact q1
            · rw [g2 (j2 h0).2, (j2 h0).2, h0]
    · have hr1 : (journal_reset s b).1 = false := by simpa using hr
      rw [if_neg hr] at h
      simp only [Option.some.injEq, Prod.mk.injEq] at h
      obtain ⟨⟨-, h2, -⟩, h4⟩ := h
      subst h4
      exact ⟨j1, ⟨fun _ => Or.inl hr1, fun _ => h2.symm⟩, fun _ => j3 hr1,
        fun hne => absurd h2.symm hne, fun h0 => absurd h0 (j3 hr1)⟩
  obtain ⟨m1, m2, m3, m4, m5⟩ := main
  refine ⟨m1, m2, m3, m4, hdel, ?_⟩
  intro h0 v pred
  have hne : leaf ≠ 0 := fun hz => m3 hz h0
  obtain ⟨a1, a2⟩ := m4 hne
  have hs : bpt_search k cmp s = some (-1, none) := by
    unfold bpt_search
    simp only [a1, a2, if_true]
  refine ⟨hs, ?_⟩
  rw [hdel, if_neg hne, m5 h0]

theorem searchr_miss_leaf_witness :
    bpt_searchr build_8 7 cmp_int stk_1 true (bpt_init (mem0 []) 3).2 =
      some ((-1, 1, []), (bpt_init (mem0 []) 3).2) ∧
    bpt_delete build_8 ⟨7, 7⟩ cmp_int bpt_pred_1 stk_1 true (bpt_init (mem0 []) 3).2 =
      some (BPT_NEXIST, (bpt_init (mem0 []) 3).2) ∧
    bpt_searchr build_8 7 cmp_int stk_1 false (bpt_init (mem0 [true, false]) 3).2 =
      some ((-1, 0, []), (alloc_request (bpt_init (mem0 [true, false]) 3).2).2) ∧
    (bpt_init (mem0 [true, false]) 3).2.alloc ≠ [] :=
  ⟨rfl,
   ((searchr_miss_leaf build_8 7 cmp_int stk_1 true (bpt_init (mem0 []) 3).2 1 [] _
      rfl).2.2.2.2.2 rfl 7 bpt_pred_1).2,
   rfl,
   (searchr_miss_leaf build_8 7 cmp_int stk_1 false (bpt_init (mem0 [true, false]) 3).2 0 [] _
      rfl).2.2.1 rfl⟩

theorem bpt_init_fresh_witness :
    (bpt_init (mem0 []) 3).1 = 0 ∧
    (∀ (k : bpt_t) (cmp : bpt_t → bpt_t → Int),
      bpt_search k cmp (bpt_init (mem0 []) 3).2 = some (-1, none)) ∧
    (bpt_init (mem0 [false]) 3).1 = -1 :=
  ⟨((bpt_init_fresh [] 3).1 rfl).1,
   ((bpt_init_fresh [] 3).1 rfl).2.2.2.2.2.2.2.2.2 (by decide),
   (bpt_init_fresh [false] 3).2 rfl⟩

/-! ## Deletion: the contents of internal nodes -/

theorem node_keys_ext {B : bpt_node} {L : List bpt_t} (hl : (L.length : Int) = B.nkey)
    (h : ∀ i : Nat, i < L.length → L[i]? = some (B.entries i).key) : node_keys B = L := by
  apply List.ext_getElem?
  intro i
  rw [getElem?_node_keys]
  by_cases hi : i < L.length
  · rw [if_pos (by omega), h i hi]
  · rw [if_neg (by omega), List.getElem?_eq_none (by omega)]

theorem node_vals_ext {B : bpt_node} {L : List bpt_t} (hl : (L.length : Int) = B.nkey + 1)
    (h0 : 0 ≤ B.nkey) (h : ∀ i : Nat, i < L.length → L[i]? = some (B.entries i).val) : node_vals B = L := by
  apply List.ext_getElem?
  intro i
  rw [getElem?_node_vals]
  by_cases hi : i < L.length
  · rw [if_pos (by omega), h i hi]
  · rw [if_neg (by omega), List.getElem?_eq_none (by omega)]

theorem keys_glue {B L R : bpt_node} {h : bpt_t} {sl c : Nat}
    (hsl : (sl : Int) ≤ L.nkey) (hc : (c : Int) ≤ R.nkey)
    (hB : B.nkey = (L.nkey - sl) + 1 + c)
    (h1 : ∀ i : Int, 0 ≤ i → i < L.nkey - sl → (B.entries i).key = (L.entries (sl + i)).key)
    (h2 : (B.entries (L.nkey - sl)).key = h)
    (h3 : ∀ i : Int, 0 ≤ i → i < c →
      (B.entries (L.nkey - sl + 1 + i)).key = (R.entries i).key) :
    node_keys B = (node_keys L).drop sl ++ h :: (node_keys R).take c := by
  have hl1 : ((node_keys L).drop sl).length = L.nkey.toNat - sl := by simp [length_node_keys]
  have hl2 : ((node_keys R).take c).length = c := by simp [length_node_keys]; omega
  apply node_keys_ext
  · simp only [List.length_append, List.length_cons, hl1, hl2]; omega
  · intro i hi
    simp only [List.length_append, List.length_cons, hl1, hl2] at hi
    by_cases c1 : i < L.nkey.toNat - sl
    · rw [List.getElem?_append_left (by rw [hl1]; exact c1), List.getElem?_drop,
        getElem?_node_keys, if_pos (by omega), h1 i (by omega) (by omega)]
      simp
    · rw [List.getElem?_append_right (by rw [hl1]; omega), hl1]
      by_cases c2 : i = L.nkey.toNat - sl
      · have e1 : ((i : Nat) : Int) = L.nkey - sl := by omega
        rw [c2, Nat.sub_self, List.getElem?_cons_zero, ← c2, e1, h2]
      · obtain ⟨j, hj⟩ : ∃ j, i - (L.nkey.toNat - sl) = j + 1 := ⟨i - (L.nkey.toNat - sl) - 1, by omega⟩
        have e1 : ((i : Nat) : Int) = L.nkey - sl + 1 + j := by omega
        rw [hj, List.getElem?_cons_succ, List.getElem?_take_of_lt (by omega), getElem?_node_keys,
          if_pos (by omega), e1, h3 j (by omega) (by omega)]

theorem vals_glue {B L R : bpt_node} {sl c : Nat}
    (hsl : (sl : Int) ≤ L.nkey) (hc : (c : Int) ≤ R.nkey)
    (hB : B.nkey = (L.nkey - sl) + 1 + c)
    (h1 : ∀ i : Int, 0 ≤ i → i ≤ L.nkey - sl → (B.entries i).val = (L.entries (sl + i)).val)
    (h3 : ∀ i : Int, 0 ≤ i → i ≤ c →
      (B.entries (L.nkey - sl + 1 + i)).val = (R.entries i).val) :
    node_vals B = (node_vals L).drop sl ++ (node_vals R).take (c + 1) := by
  have hl1 : ((node_vals L).drop sl).length = L.nkey.toNat + 1 - sl := by
    simp [length_node_vals]
  have hl2 : ((node_vals R).take (c + 1)).length = c + 1 := by simp [length_node_vals]; omega
  apply node_vals_ext
  · simp only [List.length_append, hl1, hl2]; omega
  · omega
  · intro i hi
    simp only [List.length_append, hl1, hl2] at hi
    by_cases c1 : i < L.nkey.toNat + 1 - sl
    · rw [List.getElem?_append_left (by rw [hl1]; exact c1), List.getElem?_drop,
        getElem?_node_vals, if_pos (by omega), h1 i (by omega) (by omega)]
      simp
    · rw [List.getElem?_append_right (by rw [hl1]; omega), hl1]
      obtain ⟨j, hj⟩ : ∃ j, i - (L.nkey.toNat + 1 - sl) = j := ⟨_, rfl⟩
      have e1 : ((i : Nat) : Int) = L.nkey - sl + 1 + j := by omega
      rw [hj, List.getElem?_take_of_lt (by omega), getElem?_node_vals,
        if_pos (by omega), e1, h3 j (by omega) (by omega)]

theorem zip_keys_vals_drop (lp : Option bpt_t) (n : bpt_node) (k : Nat) (hk : (k : Int) < n.nkey) :
    List.zip (some (n.entries k).key :: ((node_keys n).drop (k + 1)).map some)
      ((node_vals n).drop (k + 1)) = (node_pairs lp n).drop (k + 1) := by
  rw [node_pairs_zip]
  unfold List.zip
  rw [List.drop_zipWith, List.drop_succ_cons]
  congr 1
  rw [← List.map_drop]
  have : (node_keys n).drop k = (n.entries k).key :: (node_keys n).drop (k + 1) := by
    rw [List.drop_eq_getElem_cons (by rw [length_node_keys]; omega)]
    congr 1
    have := getElem?_node_keys n k
    rw [if_pos (by omega), List.getElem?_eq_getElem (by rw [length_node_keys]; omega)] at this
    exact Option.some.inj this
  rw [this, List.map_cons]

theorem zip_keys_vals_take (lo : Option bpt_t) (n : bpt_node) (c : Nat) :
    List.zip (lo :: ((node_keys n).take c).map some) ((node_vals n).take (c + 1)) =
      (node_pairs lo n).take (c + 1) := by
  rw [node_pairs_zip]
  unfold List.zip
  rw [List.take_zipWith, List.take_succ_cons, List.map_take]

/-- A node made of the whole of `L`, the key `h` and the first `c + 1`
children of `R`. -/
theorem pairs_glue_left {lo : Option bpt_t} {B L R : bpt_node} {h : bpt_t} {c : Nat}
    (hL : 0 ≤ L.nkey) (hc : (c : Int) ≤ R.nkey)
    (hB : B.nkey = L.nkey + 1 + c)
    (hk1 : ∀ i : Int, 0 ≤ i → i < L.nkey → (B.entries i).key = (L.entries i).key)
    (hv1 : ∀ i : Int, 0 ≤ i → i ≤ L.nkey → (B.entries i).val = (L.entries i).val)
    (h2 : (B.entries L.nkey).key = h)
    (hk3 : ∀ i : Int, 0 ≤ i → i < c → (B.entries (L.nkey + 1 + i)).key = (R.entries i).key)
    (hv3 : ∀ i : Int, 0 ≤ i → i ≤ c → (B.entries (L.nkey + 1 + i)).val = (R.entries i).val) :
    node_pairs lo B = node_pairs lo L ++ (node_pairs (some h) R).take (c + 1) := by
  have hk := @keys_glue B L R h 0 c (by simpa using hL) hc (by simpa using hB)
    (fun i a b => by simpa using hk1 i a (by simpa using b)) (by simpa using h2)
    (fun i a b => by simpa using hk3 i a b)
  have hv := @vals_glue B L R 0 c (by simpa using hL) hc (by simpa using hB)
    (fun i a b => by simpa using hv1 i a (by simpa using b))
    (fun i a b => by simpa using hv3 i a b)
  simp only [List.drop_zero] at hk hv
  rw [node_pairs_zip lo B, hk, hv, node_pairs_zip lo L, ← zip_keys_vals_take,
    ← List.zip_append (by simp [length_node_keys, length_node_vals])]
  simp

/-- A node made of the children of `L` from child `k + 1` on, the key `h` and
the whole of `R`. -/
theorem pairs_glue_right {lp : Option bpt_t} {B L R : bpt_node} {h : bpt_t} {k : Nat}
    (hk : (k : Int) < L.nkey) (hR : 0 ≤ R.nkey)
    (hB : B.nkey = (L.nkey - (k + 1)) + 1 + R.nkey)
    (hk1 : ∀ i : Int, 0 ≤ i → i < L.nkey - (k + 1) →
      (B.entries i).key = (L.entries (k + 1 + i)).key)
    (hv1 : ∀ i : Int, 0 ≤ i → i ≤ L.nkey - (k + 1) →
      (B.entries i).val = (L.entries (k + 1 + i)).val)
    (h2 : (B.entries (L.nkey - (k + 1))).key = h)
    (hk3 : ∀ i : Int, 0 ≤ i → i < R.nkey →
      (B.entries (L.nkey - (k + 1) + 1 + i)).key = (R.entries i).key)
    (hv3 : ∀ i : Int, 0 ≤ i → i ≤ R.nkey →
      (B.entries (L.nkey - (k + 1) + 1 + i)).val = (R.entries i).val) :
    node_pairs (some (L.entries k).key) B =
      (node_pairs lp L).drop (k + 1) ++ node_pairs (some h) R := by
  have e0 : R.nkey = (R.nkey.toNat : Int) := by omega
  have hkk := @keys_glue B L R h (k + 1) R.nkey.toNat (by push_cast; omega) (by omega)
    (by push_cast; omega)
    (fun i a b => by simpa using hk1 i a (by push_cast at b; omega)) (by simpa using h2)
    (fun i a b => by simpa using hk3 i a (by omega))
  have hv := @vals_glue B L R (k + 1) R.nkey.toNat (by push_cast; omega) (by omega)
    (by push_cast; omega)
    (fun i a b => by simpa using hv1 i a (by push_cast at b; omega))
    (fun i a b => by simpa using hv3 i a (by omega))
  rw [List.take_of_length_le (by rw [length_node_keys])] at hkk
  rw [List.take_of_length_le (by rw [length_node_vals])] at hv
  rw [node_pairs_zip _ B, hkk, hv, node_pairs_zip (some h) R, ← zip_keys_vals_drop lp L k hk,
    ← List.zip_append (by simp [length_node_keys, length_node_vals]; omega)]
  simp

theorem pairs_shrink (lo : Option bpt_t) (n : bpt_node) {c : Int} (h0 : 0 ≤ c)
    (h1 : c ≤ n.nkey) :
    node_pairs lo { n with nkey := c } = (node_pairs lo n).take (c.toNat + 1) := by
  rw [← zip_keys_vals_take, node_pairs_zip]
  congr 1
  · congr 1
    apply List.ext_getElem?
    intro i
    simp only [List.getElem?_map, getElem?_node_keys, List.getElem?_take]
    split_ifs <;> first | rfl | omega | simp_all
  · apply List.ext_getElem?
    intro i
    simp only [getElem?_node_vals, List.getElem?_take]
    split_ifs <;> first | rfl | omega | simp_all

/-! ## Deletion: the node without the child of the journal -/

theorem cut_nkey (n : bpt_node) (off : Int) : (cut n off).nkey = n.nkey - 1 := by
  unfold cut; split_ifs <;> rfl

theorem cut_prv (n : bpt_node) (off : Int) : (cut n off).prv = n.prv := by
  unfold cut; split_ifs <;> rfl

theorem cut_nxt (n : bpt_node) (off : Int) : (cut n off).nxt = n.nxt := by
  unfold cut; split_ifs <;> rfl

theorem cut_key {n : bpt_node} {off j : Int} (h0 : 0 ≤ off) (j0 : 0 ≤ j) (j1 : j < n.nkey) :
    ((cut n off).entries j).key =
      if j + 1 < off then (n.entries j).key else (n.entries (j + 1)).key := by
  unfold cut
  by_cases ho : off = 0
  · simp only [ho, if_true, moved]
    rw [if_pos (by omega), if_neg (by omega)]
    congr 2; omega
  · simp only [ho, if_false, put_val, moved, Function.update_apply]
    split_ifs <;> first | rfl | omega | (congr 2; omega) | (simp only []; congr 2; omega)

theorem cut_val {n : bpt_node} {off j : Int} (h0 : 0 ≤ off) (j0 : 0 ≤ j) (j1 : j < n.nkey) :
    ((cut n off).entries j).val =
      if j < off then (n.entries j).val else (n.entries (j + 1)).val := by
  unfold cut
  by_cases ho : off = 0
  · simp only [ho, if_true, moved]
    rw [if_pos (by omega), if_neg (by omega)]
    congr 2; omega
  · simp only [ho, if_false, put_val, moved, Function.update_apply]
    split_ifs <;> first | rfl | omega | (congr 2; omega) | (simp only []; congr 2; omega) |
      (subst_vars; rfl)

theorem cut_keys_zero {n : bpt_node} (h1 : 1 ≤ n.nkey) :
    node_keys (cut n 0) = (node_keys n).drop 1 := by
  apply node_keys_ext
  · simp [length_node_keys, cut_nkey]; omega
  · intro i hi
    simp only [List.length_drop, length_node_keys] at hi
    rw [List.getElem?_drop, getElem?_node_keys, if_pos (by omega),
      cut_key (le_refl _) (by omega) (by omega), if_neg (by omega)]
    simp [add_comm]

theorem cut_vals_zero {n : bpt_node} (h1 : 1 ≤ n.nkey) :
    node_vals (cut n 0) = (node_vals n).drop 1 := by
  apply node_vals_ext
  · simp [length_node_vals, cut_nkey]; omega
  · rw [cut_nkey]; omega
  · intro i hi
    simp only [List.length_drop, length_node_vals] at hi
    rw [List.getElem?_drop, getElem?_node_vals, if_pos (by omega),
      cut_val (le_refl _) (by omega) (by omega), if_neg (by omega)]
    simp [add_comm]

theorem cut_pairs_zero (lo lo1 : Option bpt_t) {n : bpt_node} (h1 : 1 ≤ n.nkey) :
    node_pairs lo1 (cut n 0) = (lo1, (n.entries 1).val) :: (node_pairs lo n).drop 2 := by
  have h2 : (node_vals n).drop 1 = (n.entries 1).val :: (node_vals n).drop 2 := by
    rw [List.drop_eq_getElem_cons (by rw [length_node_vals]; omega)]
    congr 1
    have := getElem?_node_vals n 1
    rw [if_pos (by omega), List.getElem?_eq_getElem (by rw [length_node_vals]; omega)] at this
    simpa using this
  rw [node_pairs_zip, cut_keys_zero h1, cut_vals_zero h1, h2, List.zip_cons_cons,
    node_pairs_zip lo n]
  unfold List.zip
  rw [List.drop_zipWith, List.drop_succ_cons, List.map_drop]

theorem cut_pairs_zero_some (l : bpt_t) {n : bpt_node} (h1 : 1 ≤ n.nkey) :
    node_pairs (cut_lo (some l) n 0) (cut n 0) = (node_pairs (some l) n).drop 1 := by
  rw [← zip_keys_vals_drop (some l) n 0 (by simpa using h1), node_pairs_zip, cut_keys_zero h1,
    cut_vals_zero h1]
  simp [cut_lo]

theorem cut_pairs_pos (lo : Option bpt_t) {n : bpt_node} {off : Int} (h0 : 1 ≤ off)
    (h1 : off ≤ n.nkey) :
    node_pairs (cut_lo lo n off) (cut n off) =
      (node_pairs lo n).take off.toNat ++ (node_pairs lo n).drop (off.toNat + 1) := by
  have hk : node_keys (cut n off) =
      (node_keys n).take (off.toNat - 1) ++ (node_keys n).drop off.toNat := by
    have hl1 : ((node_keys n).take (off.toNat - 1)).length = off.toNat - 1 := by
      simp [length_node_keys]; omega
    apply node_keys_ext
    · simp only [List.length_append, hl1, List.length_drop, length_node_keys, cut_nkey]; omega
    · intro i hi
      simp only [List.length_append, hl1, List.length_drop, length_node_keys] at hi
      rw [cut_key (by omega) (by omega) (by omega)]
      by_cases c1 : i < off.toNat - 1
      · rw [List.getElem?_append_left (by rw [hl1]; exact c1), List.getElem?_take_of_lt c1,
          getElem?_node_keys, if_pos (by omega), if_pos (by omega)]
      · rw [List.getElem?_append_right (by rw [hl1]; omega), hl1, List.getElem?_drop,
          getElem?_node_keys, if_pos (by omega), if_neg (by omega)]
        congr 3; omega
  have hv : node_vals (cut n off) =
      (node_vals n).take off.toNat ++ (node_vals n).drop (off.toNat + 1) := by
    have hl1 : ((node_vals n).take off.toNat).length = off.toNat := by
      simp [length_node_vals]; omega
    apply node_vals_ext
    · simp only [List.length_append, hl1, List.length_drop, length_node_vals, cut_nkey]; omega
    · rw [cut_nkey]; omega
    · intro i hi
      simp only [List.length_append, hl1, List.length_drop, length_node_vals] at hi
      rw [cut_val (by omega) (by omega) (by omega)]
      by_cases c1 : i < off.toNat
      · rw [List.getElem?_append_left (by rw [hl1]; exact c1), List.getElem?_take_of_lt c1,
          getElem?_node_vals, if_pos (by omega), if_pos (by omega)]
      · rw [List.getElem?_append_right (by rw [hl1]; omega), hl1, List.getElem?_drop,
          getElem?_node_vals, if_pos (by omega), if_neg (by omega)]
        congr 3; omega
  have hlo : cut_lo lo n off = lo := by simp [cut_lo]; omega
  obtain ⟨c, hc⟩ : ∃ c : Nat, off.toNat = c + 1 := ⟨off.toNat - 1, by omega⟩
  rw [hlo, node_pairs_zip, hk, hv, node_pairs_zip lo n, hc]
  unfold List.zip
  rw [List.take_zipWith, List.drop_zipWith, List.take_succ_cons, List.drop_succ_cons,
    ← List.zipWith_append]
  · simp
  · simp [length_node_keys, length_node_vals]; omega

/-- The node `Nx` without its first `g` children. -/
theorem pairs_shift (lo : Option bpt_t) {B Nx : bpt_node} {g : Nat} (hg : 1 ≤ g)
    (hg1 : (g : Int) ≤ Nx.nkey) (hB : B.nkey = Nx.nkey - g)
    (h : ∀ j : Int, 0 ≤ j → j ≤ B.nkey → B.entries j = Nx.entries (j + g)) :
    node_pairs (some (Nx.entries ((g : Int) - 1)).key) B = (node_pairs lo Nx).drop g := by
  obtain ⟨k, hk⟩ : ∃ k : Nat, g = k + 1 := ⟨g - 1, by omega⟩
  have e1 : ((g : Int) - 1) = (k : Int) := by omega
  rw [e1, hk, ← zip_keys_vals_drop lo Nx k (by omega), node_pairs_zip]
  congr 1
  · congr 2
    apply node_keys_ext
    · simp [length_node_keys]; omega
    · intro i hi
      simp only [List.length_drop, length_node_keys] at hi
      rw [List.getElem?_drop, getElem?_node_keys, if_pos (by omega), h i (by omega) (by omega)]
      congr 3; omega
  · apply node_vals_ext
    · simp [length_node_vals]; omega
    · omega
    · intro i hi
      simp only [List.length_drop, length_node_vals] at hi
      rw [List.getElem?_drop, getElem?_node_vals, if_pos (by omega), h i (by omega) (by omega)]
      congr 3; omega

/-! ## Deletion: a node leaves its level -/

theorem nodup_pair {U : List Int} {X Y : List Item} {lp lo : Option bpt_t} {p a : Int}
    (h : (U ++ (X ++ (lp, p) :: (lo, a) :: Y).map Prod.snd).Nodup) :
    p ≠ a ∧ p ∉ U ∧ a ∉ U ∧ p ∉ X.map Prod.snd ∧ a ∉ X.map Prod.snd ∧ p ∉ Y.map Prod.snd ∧
      a ∉ Y.map Prod.snd ∧ (∀ b ∈ X.map Prod.snd, b ∉ U ∧ b ∉ Y.map Prod.snd) ∧
      (∀ b ∈ Y.map Prod.snd, b ∉ U) ∧ (Y.map Prod.snd).Nodup ∧
      (U ++ (X ++ (lp, p) :: Y).map Prod.snd).Nodup := by
  have hsub : List.Sublist (U ++ (X ++ (lp, p) :: Y).map Prod.snd)
      (U ++ (X ++ (lp, p) :: (lo, a) :: Y).map Prod.snd) := by
    refine (List.Sublist.refl U).append ?_
    simp only [List.map_append, List.map_cons]
    exact (List.Sublist.refl _).append ((List.sublist_cons_self _ _).cons₂ _)
  have h9 := h.sublist hsub
  simp only [List.map_append, List.map_cons] at h
  rw [List.nodup_append] at h
  obtain ⟨-, h2, h3⟩ := h
  rw [List.nodup_append] at h2
  obtain ⟨-, h5, h6⟩ := h2
  rw [List.nodup_cons, List.nodup_cons] at h5
  obtain ⟨h7, h8, h10⟩ := h5
  simp only [List.mem_cons, not_or] at h7
  refine ⟨h7.1, ?_, ?_, ?_, ?_, h7.2, h8, ?_, ?_, h10, h9⟩
  · exact fun hh => h3 hh (by simp)
  · exact fun hh => h3 hh (by simp)
  · exact fun hh => h6 hh (by simp)
  · exact fun hh => h6 hh (by simp)
  · intro b hb
    exact ⟨fun hh => h3 hh (by simp [hb]), fun hh => h6 hb (by simp [hh])⟩
  · intro b hb hh
    exact h3 hh (by simp [hb])

theorem unlink_frame {s t : State} {mn mn1 : Int} {X Y : List Item} {lp lp1 lo : Option bpt_t}
    {p a : Int} {np na mp : bpt_node}
    (hi : InnerOK s mn (X ++ (lp, p) :: (lo, a) :: Y))
    (hnp : s.mem p = some np) (hna : s.mem a = some na) (he : Ext s t)
    (hnd : ((X ++ (lp, p) :: (lo, a) :: Y).map Prod.snd).Nodup)
    (hmp : t.mem p = some mp) (hp1 : mp.prv = np.prv) (hp2 : mp.nxt = na.nxt)
    (hpr : 0 ≤ mp.nkey ∧ mn1 ≤ mp.nkey ∧ mp.nkey ≤ s.bstat.order) (hmn : mn1 ≤ mn)
    (hx : ∀ ny, na.nxt ≠ 0 → s.mem na.nxt = some ny → t.mem na.nxt = some { ny with prv := p })
    (ho : ∀ b, b ∈ (X ++ Y).map Prod.snd → b ≠ na.nxt → t.mem b = s.mem b) :
    InnerOK t mn1 (X ++ (lp1, p) :: Y) ∧ Agree s t (X.map Prod.snd) ∧
      Alike s t (Y.map Prod.snd) := by
  obtain ⟨hpa, -, -, pX, aX, pY, aY, dX, -, ndY, -⟩ := @nodup_pair [] X Y lp lo p a (by simpa using hnd)
  have hch := hi.2
  simp only [List.map_append, List.map_cons] at hch
  rw [chain_append] at hch
  obtain ⟨ch1, ch2⟩ := hch
  simp only [List.headD_cons] at ch1
  obtain ⟨⟨n1, hn1, e1, e2⟩, ⟨n2, hn2, e3, e4⟩, ch3⟩ := ch2
  simp only [List.headD_cons] at e2
  rw [hnp] at hn1; cases Option.some.inj hn1
  rw [hna] at hn2; cases Option.some.inj hn2
  obtain ⟨p0, pb, -⟩ := hi.1 (lp, p) (by simp)
  simp only at p0 pb
  have hAX : Agree s t (X.map Prod.snd) := by
    intro b hb
    obtain ⟨q, hq, rfl⟩ := List.mem_map.mp hb
    refine ho _ (List.mem_map_of_mem _ (List.mem_append_left _ hq)) ?_
    intro h
    cases Y with
    | nil =>
      simp only [List.map_nil, List.headD_nil] at e4
      exact (hi.1 q (by simp; exact Or.inl hq)).1 (h.trans e4)
    | cons y Y1 =>
      simp only [List.map_cons, List.headD_cons] at e4
      exact (dX _ hb).2 (by rw [h, e4]; simp)
  have hokX : ∀ q ∈ X, NodeOK t mn1 q.2 := fun q hq =>
    NodeOK.congr_node he (hAX _ (List.mem_map_of_mem _ hq)) hmn (hi.1 q (by simp; exact Or.inl hq))
  have hokp : NodeOK t mn1 p :=
    ⟨p0, lt_of_lt_of_le pb he.2, mp, hmp, hpr.1, hpr.2.1, by rw [he.1.1]; exact hpr.2.2⟩
  have hcX : Chain t 0 (X.map Prod.snd) p := Chain.congr_chain hAX ch1
  cases Y with
  | nil =>
    refine ⟨⟨?_, ?_⟩, hAX, fun b hb => by simp at hb⟩
    · intro q hq
      simp only [List.mem_append, List.mem_singleton] at hq
      rcases hq with hq | rfl
      · exact hokX q hq
      · exact hokp
    · simp only [List.map_append, List.map_cons, List.map_nil]
      rw [chain_append]
      simp only [List.headD_cons, Chain, List.headD_nil, and_true]
      simp only [List.map_nil, List.headD_nil] at e4
      exact ⟨hcX, mp, hmp, hp1.trans e1, hp2.trans e4⟩
  | cons y Y1 =>
    simp only [List.map_cons, List.headD_cons] at e4 ch3 aY pY ndY
    rw [List.nodup_cons] at ndY
    obtain ⟨y0, yb, ny, hy, hy1, hy2, hy3⟩ := hi.1 y (by simp)
    have hA1 : Agree s t (Y1.map Prod.snd) := by
      intro b hb
      refine ho _ (by
        simp only [List.map_append, List.map_cons, List.mem_append, List.mem_cons]
        exact Or.inr (Or.inr hb)) ?_
      intro h
      rw [e4] at h
      exact ndY.1 (h ▸ hb)
    have hyt : t.mem y.2 = some { ny with prv := p } := by
      have := hx ny (by rw [e4]; exact y0) (by rw [e4]; exact hy)
      rwa [e4] at this
    have hAl : Alike s t ((y :: Y1).map Prod.snd) := by
      intro b hb
      simp only [List.map_cons, List.mem_cons] at hb
      rcases hb with rfl | hb
      · exact ⟨ny, _, hy, hyt, rfl, rfl⟩
      · obtain ⟨q, hq, rfl⟩ := List.mem_map.mp hb
        obtain ⟨_, _, nq, hnq, _⟩ := hi.1 q (by simp; exact Or.inr (Or.inr (Or.inr (Or.inr hq))))
        exact ⟨nq, nq, hnq, (hA1 _ hb).trans hnq, rfl, rfl⟩
    refine ⟨⟨?_, ?_⟩, hAX, hAl⟩
    · intro q hq
      simp only [List.mem_append, List.mem_cons] at hq
      rcases hq with hq | rfl | rfl | hq
      · exact hokX q hq
      · exact hokp
      · exact ⟨y0, lt_of_lt_of_le yb he.2, _, hyt, hy1, le_trans hmn hy2,
          by rw [he.1.1]; exact hy3⟩
      · exact NodeOK.congr_node he (hA1 _ (List.mem_map_of_mem _ hq)) hmn
          (hi.1 q (by simp; exact Or.inr (Or.inr (Or.inr (Or.inr hq)))))
    · simp only [List.map_append, List.map_cons]
      rw [chain_append]
      simp only [List.headD_cons, Chain]
      refine ⟨hcX, ⟨mp, hmp, hp1.trans e1, hp2.trans e4⟩, ?_⟩
      exact Chain.rehead ch3 hy hyt rfl rfl hA1

/-! ## `bpt_delete_ientry`: the root, and the nodes with a key to spare -/

theorem cut_node_eq (n : bpt_node) (off : Int) :
    ({ cut n off with nkey := n.nkey - 1 } : bpt_node) = cut n off := by
  unfold cut; split_ifs <;> rfl

theorem excise_right_eq {s : State} {a : Int} {n : bpt_node} {off : Int} (ha : a ≠ 0)
    (hm : s.mem a = some n) (h0 : 1 ≤ off) (h1 : off ≤ n.nkey) (h2 : n.nkey ≤ s.bstat.order) :
    excise_right s a off n.nkey = some (wr s a { cut n off with nkey := n.nkey }) := by
  unfold excise_right
  rw [get_entry_eq ha hm (by omega) (by omega)]
  simp only [Option.bind_eq_bind, Option.some_bind]
  rw [memmove_eq (off - 1) off (n.nkey + 1 - off) ha hm ha hm (by omega) (fun _ => by omega)]
  simp only [Option.some_bind]
  rw [set_val_eq ha (wr_mem_same _ _ _) (by omega) (by simp; omega)]
  have ho : off ≠ 0 := by omega
  simp only [wr_wr, cut, ho, if_false, put_val]

theorem shift_eq {s : State} {a : Int} {n : bpt_node} (ha : a ≠ 0)
    (hm : s.mem a = some n) (h1 : 0 ≤ n.nkey) (h2 : n.nkey ≤ s.bstat.order) :
    memmove s a 0 a 1 n.nkey = some (wr s a { cut n 0 with nkey := n.nkey }) := by
  rw [memmove_eq 0 1 n.nkey ha hm ha hm h1 (fun _ => by omega)]
  simp only [cut, if_true]

theorem CutSit.facts {cmp : bpt_t → bpt_t → Int} {s : State} {stk : gen_stk} {a off : Int}
    {d : Nat} {U1 : List Int} {X1 Y1 : List Item} {lo1 : Option bpt_t} {n : bpt_node}
    (hs : CutSit cmp s stk a off d U1 X1 lo1 Y1 n) :
    a ≠ 0 ∧ 0 ≤ n.nkey ∧ min_inner s stk.isEmpty ≤ n.nkey ∧ n.nkey ≤ s.bstat.order ∧
      1 ≤ n.nkey ∧ a ∉ U1 ∧ a ∉ X1.map Prod.snd ∧ a ∉ Y1.map Prod.snd ∧
      a ∉ nodes_below s d (cut_level s X1 lo1 n off Y1) ∧
      (∀ b ∈ U1, b ∉ nodes_below s d (cut_level s X1 lo1 n off Y1)) ∧
      (U1 ++ (X1 ++ (lo1, a) :: Y1).map Prod.snd).Nodup := by
  obtain ⟨a0, -, n1, hm1, hn0, hn1, hn2, -⟩ := focus_facts hs.ok
  rw [hs.hm] at hm1; cases Option.some.inj hm1
  have hnd := (List.nodup_append.mp hs.nd).1
  obtain ⟨aU, aX, aY, -, -⟩ := nodup_focus hnd
  have hdis := (List.nodup_append.mp hs.nd).2.2
  have hmin : 1 ≤ min_inner s stk.isEmpty := by
    unfold min_inner
    split_ifs
    · exact le_refl _
    · exact (params_arith hs.hp).2.2.1
  refine ⟨a0, hn0, hn1, hn2, le_trans hmin hn1, aU, aX, aY, ?_, ?_, hnd⟩
  · exact fun h => hdis (by simp) h
  · exact fun b hb h => hdis (by simp [hb]) h

/-- The end of a round that leaves the number of nodes of the level as it
was: the journal leads to the node in the new state and the level expands to
the level below without the released child. -/
theorem cut_commit {cmp : bpt_t → bpt_t → Int} {s t : State} {stk : gen_stk} {a off : Int}
    {d : Nat} {U1 : List Int} {X1 Y1 X2 Y2 : List Item} {lo1 lo2 : Option bpt_t} {n : bpt_node}
    (hs : CutSit cmp s stk a off d U1 X1 lo1 Y1 n) (he : Ext s t)
    (hbs : t.bstat = s.bstat)
    (hctx : Ctx t stk U1 X2 lo2 a Y2)
    (hok : InnerOK t (min_inner s stk.isEmpty) (X2 ++ (lo2, a) :: Y2))
    (hsnd : (X2 ++ (lo2, a) :: Y2).map Prod.snd = (X1 ++ (lo1, a) :: Y1).map Prod.snd)
    (hexp : expand t (X2 ++ (lo2, a) :: Y2) = cut_level s X1 lo1 n off Y1)
    (hA : Agree s t (nodes_below s d (cut_level s X1 lo1 n off Y1))) :
    WF cmp t ∧ tree_entries t =
      contents s ((level_below s d (cut_level s X1 lo1 n off Y1)).map Prod.snd) := by
  obtain ⟨f1, f2, f3, f4⟩ := lower_frame he hA hs.below
  have hB : Below t cmp stk.isEmpty (d + 1) (X2 ++ (lo2, a) :: Y2) := by
    show InnerOK t (min_inner t stk.isEmpty) _ ∧ Below t cmp false d (expand t _)
    rw [min_inner_congr he, hexp]
    exact ⟨hok, f1⟩
  have hnd : (U1 ++ nodes_below t (d + 1) (X2 ++ (lo2, a) :: Y2)).Nodup := by
    show (U1 ++ ((X2 ++ (lo2, a) :: Y2).map Prod.snd ++ nodes_below t d (expand t _))).Nodup
    rw [hexp, hsnd, f2, ← List.append_assoc]
    exact hs.nd
  obtain ⟨w1, w2⟩ := WF_of_ctx (by rw [hbs]; exact hs.hp) (lt_of_lt_of_le hs.hb he.2) hctx
    (by rw [hbs]; exact hs.len) hB hnd
  refine ⟨w1, ?_⟩
  rw [w2]
  show contents t ((level_below t d (expand t _)).map Prod.snd) = _
  rw [hexp, f3, f4]

/-- The end of a round in which only the node of the frame changes, apart
from the separator on its left in an ancestor. -/
theorem cut_commit1 {cmp : bpt_t → bpt_t → Int} {s t : State} {stk : gen_stk} {a off : Int}
    {d : Nat} {U1 : List Int} {X1 Y1 : List Item} {lo1 : Option bpt_t} {n : bpt_node}
    (hs : CutSit cmp s stk a off d U1 X1 lo1 Y1 n) (he : Ext s t)
    (hbs : t.bstat = s.bstat)
    (hctx : Ctx t stk U1 X1 (cut_lo lo1 n off) a Y1)
    (hm1 : t.mem a = some (cut n off)) (hk : min_inner s stk.isEmpty ≤ n.nkey - 1)
    (ho : ∀ b, b ∉ U1 → b ≠ a → t.mem b = s.mem b) :
    WF cmp t ∧ tree_entries t =
      contents s ((level_below s d (cut_level s X1 lo1 n off Y1)).map Prod.snd) := by
  obtain ⟨a0, hn0, hn1, hn2, hn3, aU, aX, aY, aT, UT, hnd⟩ := hs.facts
  obtain ⟨-, -, -, XU, YU⟩ := nodup_focus hnd
  have hAX : Agree s t (X1.map Prod.snd) :=
    fun b hb => ho b (XU b hb) (ne_of_mem_of_not_mem hb aX)
  have hAY : Agree s t (Y1.map Prod.snd) :=
    fun b hb => ho b (YU b hb) (ne_of_mem_of_not_mem hb aY)
  refine cut_commit hs he hbs hctx ?_ (by simp) ?_ ?_
  · refine innerOK_update1 hs.ok hs.hm he ?_ ?_ hm1 (cut_prv _ _) (cut_nxt _ _)
      (by rw [cut_nkey]; omega) (by rw [cut_nkey]; exact hk) (by rw [cut_nkey]; omega)
    · intro b hb
      simp only [List.map_append, List.mem_append] at hb
      rcases hb with hb | hb
      · exact hAX b hb
      · exact hAY b hb
    · intro p hp
      refine hs.ok.1 p ?_
      simp only [List.mem_append, List.mem_cons] at hp ⊢
      rcases hp with hp | hp
      · exact Or.inl hp
      · exact Or.inr (Or.inr hp)
  · rw [expand_append, expand_cons_of_mem hm1, expand_congr hAX, expand_congr hAY]
    rfl
  · intro b hb
    refine ho b (fun h => UT b h hb) (fun h => aT (h ▸ hb))

theorem cut_lo_eq (lo : Option bpt_t) (n : bpt_node) {off : Int} (h : off ≠ 0 ∨ lo = none) :
    cut_lo lo n off = lo := by
  unfold cut_lo
  rcases h with h | h
  · rw [if_neg h]
  · subst h; split_ifs <;> rfl

/-- The state after the node of the frame has lost the released child, the
separator on its left being adjusted when child `0` went. -/
theorem cut_state {cmp : bpt_t → bpt_t → Int} {s : State} {stk : gen_stk} {a off : Int}
    {d : Nat} {U1 : List Int} {X1 Y1 : List Item} {lo1 : Option bpt_t} {n : bpt_node}
    (hs : CutSit cmp s stk a off d U1 X1 lo1 Y1 n) (hk : min_inner s stk.isEmpty ≤ n.nkey - 1) :
    ∃ s1, (off ≠ 0 ∨ lo1 = none → s1 = s) ∧
      (off = 0 → ∀ l, lo1 = some l → ∃ mo mn nm, mid_between_prv stk = (mo, mn) ∧ mn ≠ 0 ∧
        mn ≠ a ∧ s.mem mn = some nm ∧ 0 ≤ mo ∧ mo ≤ s.bstat.order ∧
        s1 = wr s mn (with_key nm mo (n.entries 0).key)) ∧
      (lo1 = none → mid_between_prv stk = (-1, 0)) ∧
      WF cmp (wr s1 a (cut n off)) ∧ tree_entries (wr s1 a (cut n off)) =
        contents s ((level_below s d (cut_level s X1 lo1 n off Y1)).map Prod.snd) := by
  obtain ⟨a0, hn0, hn1, hn2, hn3, aU, aX, aY, aT, UT, hnd⟩ := hs.facts
  by_cases hcase : off ≠ 0 ∨ lo1 = none
  · refine ⟨s, fun _ => rfl, ?_, fun h => (hs.ctx.left_sep.1 h).1, ?_⟩
    · intro h l hl
      rcases hcase with h1 | h1
      · exact absurd h h1
      · rw [hl] at h1; cases h1
    · refine cut_commit1 hs (Ext.wr _ _ _) rfl ?_ (wr_mem_same _ _ _) hk
        (fun b _ hb => wr_mem_of_ne _ hb)
      rw [cut_lo_eq lo1 n hcase]
      exact hs.ctx.frame (Ext.wr _ _ _) rfl (fun b hb => wr_mem_of_ne _ (ne_of_mem_of_not_mem hb aU))
  · simp only [not_or, not_not] at hcase
    obtain ⟨ho, hl⟩ := hcase
    obtain ⟨l, hl1⟩ := Option.ne_none_iff_exists'.mp hl
    obtain ⟨mo, mn, nm, e1, e2, e3, e4, e5, e6, e7, -, e9⟩ := hs.ctx.left_sep.2 l hl1
    have hmna : mn ≠ a := ne_of_mem_of_not_mem e2 aU
    refine ⟨wr s mn (with_key nm mo (n.entries 0).key), fun h => ?_, ?_,
      fun h => (by rw [h] at hl1; cases hl1), ?_⟩
    · rcases h with h | h
      · exact absurd ho h
      · exact absurd h hl
    · intro _ l2 hl2
      exact ⟨mo, mn, nm, e1, e3, hmna, e4, e5, by omega, rfl⟩
    · refine cut_commit1 hs ((Ext.wr _ _ _).trans_ext (Ext.wr _ _ _)) rfl ?_
        (wr_mem_same _ _ _) hk ?_
      · have : cut_lo lo1 n off = some (n.entries 0).key := by
          rw [hl1, ho]; simp [cut_lo]
        rw [this]
        exact (e9 (n.entries 0).key).2.frame (Ext.wr _ _ _) rfl
          (fun b hb => wr_mem_of_ne _ (ne_of_mem_of_not_mem hb aU))
      · intro b hb1 hb2
        rw [wr_mem_of_ne _ hb2, wr_mem_of_ne _ (fun h : b = mn => hb1 (h.symm ▸ e2))]

/-! ## `bpt_delete_ientry`: the runs for the root and for a node with a key to spare -/

theorem wr_comm (s : State) {a b : Int} (n m : bpt_node) (h : a ≠ b) :
    wr (wr s a n) b m = wr (wr s b m) a n := by
  simp only [wr]
  congr 1
  exact Function.update_comm h _ _ _

theorem cut_node_eq2 (n : bpt_node) (off k : Int) :
    ({ ({ cut n off with nkey := k } : bpt_node) with nkey := n.nkey - 1 } : bpt_node) =
      cut n off := by
  unfold cut; split_ifs <;> rfl

theorem cut_run_pos {s : State} {a : Int} {n : bpt_node} {off : Int} (ha : a ≠ 0)
    (hm : s.mem a = some n) (h0 : 1 ≤ off) (h1 : off ≤ n.nkey) (h2 : n.nkey ≤ s.bstat.order) :
    (excise_right s a off n.nkey).bind (fun s1 => bpt_node_set_nkey s1 a (n.nkey - 1)) =
      some (wr s a (cut n off)) := by
  rw [excise_right_eq ha hm h0 h1 h2, Option.some_bind, set_nkey_eq ha (wr_mem_same _ _ _),
    wr_wr, cut_node_eq2]

theorem cut_run_zero {s : State} {a : Int} {n : bpt_node} (ha : a ≠ 0)
    (hm : s.mem a = some n) (h1 : 0 ≤ n.nkey) (h2 : n.nkey ≤ s.bstat.order) :
    (memmove s a 0 a 1 n.nkey).bind (fun s1 => bpt_node_set_nkey s1 a (n.nkey - 1)) =
      some (wr s a (cut n 0)) := by
  rw [shift_eq ha hm h1 h2, Option.some_bind, set_nkey_eq ha (wr_mem_same _ _ _),
    wr_wr, cut_node_eq2]

theorem node_pairs_single (lo : Option bpt_t) {B : bpt_node} (h : B.nkey = 0) :
    node_pairs lo B = [(lo, (B.entries 0).val)] := by
  simp [node_pairs, h]

theorem ientry_root_collapse {cmp : bpt_t → bpt_t → Int} {s : State} {a off : Int}
    {d : Nat} {U1 : List Int} {X1 Y1 : List Item} {lo1 : Option bpt_t} {n : bpt_node}
    (hs : CutSit cmp s [] a off d U1 X1 lo1 Y1 n) (hm1 : n.nkey = 1) :
    ∃ t, delete_ientry_root s ⟨a, off⟩ n.nkey = some t ∧ t.alloc = s.alloc ∧ WF cmp t ∧
      tree_entries t =
        contents s ((level_below s d (cut_level s X1 lo1 n off Y1)).map Prod.snd) := by
  obtain ⟨a0, hn0, hn1, hn2, hn3, aU, aX, aY, aT, UT, hnd⟩ := hs.facts
  obtain ⟨hU, hX, hlo, -, hY⟩ := hs.ctx.of_nil
  subst hU hX hlo hY
  have hc : ((cut n off).entries 0).val = (n.entries (if off = 0 then 1 else 0)).val := by
    rw [cut_val hs.h0 (le_refl _) (by omega)]
    have := hs.h0
    split_ifs <;> first | rfl | omega
  have hT : cut_level s [] none n off [] = [(none, (n.entries (if off = 0 then 1 else 0)).val)] := by
    simp only [cut_level, expand, List.nil_append, List.append_nil]
    rw [node_pairs_single _ (by rw [cut_nkey]; omega), hc, cut_lo_eq none n (Or.inr rfl)]
  have hbelow := hs.below
  have hndT := (List.nodup_append.mp hs.nd).2.1
  rw [hT] at hbelow hndT aT ⊢
  have hd : s.bstat.height - 1 = d := by
    have := hs.len
    simp only [List.length_nil] at this
    omega
  obtain ⟨t, ht⟩ : ∃ t : State, t = { s with
      bstat := { s.bstat with
        root_node := (n.entries (if off = 0 then 1 else 0)).val
        height := s.bstat.height - 1 }
      mem := Function.update s.mem a none } := ⟨_, rfl⟩
  have hrun : delete_ientry_root s ⟨a, off⟩ n.nkey = some t := by
    have key : ∀ s1 : State, s1.mem = s.mem →
        bpt_node_delete s1 a = some { s1 with mem := Function.update s1.mem a none } :=
      fun s1 h => node_delete_eq a0 (by rw [h]; exact hs.hm)
    unfold delete_ientry_root
    rw [if_pos hm1]
    simp only [Option.bind_eq_bind]
    rw [get_entry_eq a0 hs.hm (by split_ifs <;> omega) (by split_ifs <;> omega), Option.some_bind,
      ht]
    exact key _ rfl
  have he : Ext s t := by
    rw [ht]; exact ⟨⟨rfl, rfl, rfl, rfl, rfl⟩, le_refl _⟩
  have hmem : ∀ b, b ≠ a → t.mem b = s.mem b := by
    intro b hb
    rw [ht]
    exact Function.update_noteq hb _ _
  have hA : Agree s t (nodes_below s d [(none, (n.entries (if off = 0 then 1 else 0)).val)]) :=
    fun b hb => hmem b (fun h => aT (h ▸ hb))
  obtain ⟨f1, f2, f3, f4⟩ := lower_frame he hA hbelow
  have hpt : ParamsOK t.bstat := by rw [ht]; exact hs.hp
  have hh : t.bstat.height = d := by rw [ht]; exact hd
  have hr : t.bstat.root_node = (n.entries (if off = 0 then 1 else 0)).val := by rw [ht]
  refine ⟨t, hrun, by rw [ht], ⟨hpt, by rw [ht]; exact hs.hb, ?_, ?_⟩, ?_⟩
  · rw [hh, hr]
    exact Below.weaken hpt d f1
  · rw [hh, hr, f2]
    exact hndT
  · unfold tree_entries
    rw [hh, hr, f3, f4]

theorem ientry_root_spec {cmp : bpt_t → bpt_t → Int} {s : State} {a off : Int}
    {d : Nat} {U1 : List Int} {X1 Y1 : List Item} {lo1 : Option bpt_t} {n : bpt_node}
    (hs : CutSit cmp s [] a off d U1 X1 lo1 Y1 n) :
    ∃ t, bpt_delete_ientry_loop [] ⟨a, off⟩ s = some (BPT_PRED_SUCCESS, t) ∧
      t.alloc = s.alloc ∧ WF cmp t ∧ tree_entries t =
        contents s ((level_below s d (cut_level s X1 lo1 n off Y1)).map Prod.snd) := by
  obtain ⟨a0, hn0, hn1, hn2, hn3, aU, aX, aY, aT, UT, hnd⟩ := hs.facts
  unfold bpt_delete_ientry_loop
  simp only [nkey_eq a0 hs.hm]
  by_cases hm1 : n.nkey = 1
  · obtain ⟨t, h1, h2, h3, h4⟩ := ientry_root_collapse hs hm1
    exact ⟨t, by rw [h1]; rfl, h2, h3, h4⟩
  · have hlo : lo1 = none := hs.ctx.of_nil.2.2.1
    obtain ⟨s1, c1, -, -, c4, c5⟩ := cut_state hs (by
      simp only [min_inner, List.isEmpty_nil, if_true]; omega)
    rw [c1 (Or.inr hlo)] at c4 c5
    refine ⟨wr s a (cut n off), ?_, rfl, c4, c5⟩
    unfold delete_ientry_root
    rw [if_neg hm1]
    simp only [Option.bind_eq_bind]
    by_cases ho : off = 0
    · subst ho
      simp only [ne_eq, not_true_eq_false, if_false]
      rw [cut_run_zero a0 hs.hm hn0 hn2]
      rfl
    · simp only [ne_eq, ho, not_false_eq_true, if_true]
      rw [cut_run_pos a0 hs.hm (by have := hs.h0; omega) hs.h1 hn2]
      rfl

theorem ientry_surplus_spec {cmp : bpt_t → bpt_t → Int} {s : State} {stk : gen_stk}
    {a off : Int} {d : Nat} {U1 : List Int} {X1 Y1 : List Item} {lo1 : Option bpt_t}
    {n : bpt_node} (hs : CutSit cmp s stk a off d U1 X1 lo1 Y1 n) (hne : stk ≠ [])
    (hk : s.bstat.new_inter_nkey < n.nkey) :
    ∃ t, delete_ientry_surplus s ⟨a, off⟩ n.nkey stk = some t ∧
      t.alloc = s.alloc ∧ WF cmp t ∧ tree_entries t =
        contents s ((level_below s d (cut_level s X1 lo1 n off Y1)).map Prod.snd) := by
  obtain ⟨a0, hn0, hn1, hn2, hn3, aU, aX, aY, aT, UT, hnd⟩ := hs.facts
  have hemp : stk.isEmpty = false := by
    cases stk with
    | nil => exact absurd rfl hne
    | cons _ _ => rfl
  obtain ⟨s1, c1, c2, c3, c4, c5⟩ := cut_state hs (by
    simp only [min_inner, hemp, Bool.false_eq_true, if_false]; omega)
  unfold delete_ientry_surplus
  simp only [Option.bind_eq_bind]
  by_cases ho : off = 0
  · subst ho
    simp only [ne_eq, not_true_eq_false, if_false]
    rw [get_entry_eq a0 hs.hm (le_refl _) (by omega), Option.some_bind,
      shift_eq a0 hs.hm hn0 hn2, Option.some_bind]
    cases hlo : lo1 with
    | none =>
      rw [c1 (Or.inr hlo)] at c4 c5
      rw [hlo] at c5
      simp only [c3 hlo, if_false, Option.some_bind, not_true_eq_false]
      rw [set_nkey_eq a0 (wr_mem_same _ _ _), wr_wr, cut_node_eq2]
      exact ⟨_, rfl, rfl, c4, c5⟩
    | some l =>
      obtain ⟨mo, mn, nm, e1, e2, e3, e4, e5, e6, e7⟩ := c2 rfl l hlo
      rw [e7] at c4 c5
      rw [hlo] at c5
      have hmo : mo ≠ -1 := by omega
      simp only [e1, hmo, not_false_eq_true, if_true]
      rw [set_key_eq' e2 ((wr_mem_of_ne _ e3).trans e4) e5 e6, Option.some_bind,
        set_nkey_eq a0 ((wr_mem_of_ne _ e3.symm).trans (wr_mem_same _ _ _)),
        wr_comm _ _ _ e3.symm, wr_wr, cut_node_eq2]
      exact ⟨_, rfl, rfl, c4, c5⟩
  · rw [c1 (Or.inl ho)] at c4 c5
    simp only [ne_eq, ho, not_false_eq_true, if_true]
    rw [cut_run_pos a0 hs.hm (by have := hs.h0; omega) hs.h1 hn2]
    exact ⟨_, rfl, rfl, c4, c5⟩

/-! ## `bpt_delete_ientry`: entries grabbed from the previous node -/

theorem InnerOK.relink {s t : State} {mn mn1 : Int} {items : List Item} (he : Ext s t)
    (h : ∀ a ∈ items.map Prod.snd, ∀ n, s.mem a = some n →
      ∃ m, t.mem a = some m ∧ m.prv = n.prv ∧ m.nxt = n.nxt ∧ 0 ≤ m.nkey ∧ mn1 ≤ m.nkey ∧
        m.nkey ≤ s.bstat.order)
    (hi : InnerOK s mn items) : InnerOK t mn1 items := by
  refine ⟨?_, Chain.link_chain (fun a ha n hn => ?_) hi.2⟩
  · intro p hp
    obtain ⟨h0, hb, n, hm, -⟩ := hi.1 p hp
    obtain ⟨m, hm1, _, _, k1, k2, k3⟩ := h p.2 (List.mem_map_of_mem _ hp) n hm
    exact ⟨h0, lt_of_lt_of_le hb he.2, m, hm1, k1, k2, by rw [he.1.1]; exact k3⟩
  · obtain ⟨m, hm1, h1, h2, _⟩ := h a ha n hn
    exact ⟨m, hm1, h1, h2⟩

theorem grab_prv_run {s : State} {a prv mn : Int} {n P nm : bpt_node} {off mo R : Int}
    {stk : gen_stk}
    (ha : a ≠ 0) (hp : prv ≠ 0) (hmn0 : mn ≠ 0) (hap : a ≠ prv) (hamn : a ≠ mn)
    (hpmn : prv ≠ mn)
    (hma : s.mem a = some n) (hmp : s.mem prv = some P) (hmm : s.mem mn = some nm)
    (hmid : mid_between_prv stk = (mo, mn)) (hmo : 0 ≤ mo ∧ mo ≤ s.bstat.order)
    (hmin : n.nkey = s.bstat.new_inter_nkey) (h1 : 1 ≤ n.nkey) (hoff : 0 ≤ off ∧ off ≤ n.nkey)
    (hpk : n.nkey < P.nkey) (hpo : P.nkey ≤ s.bstat.order)
    (hR : Int.tdiv (P.nkey + (n.nkey - 1)) 2 = R) :
    ∃ t A, delete_ientry_prv s ⟨a, off⟩ prv P.nkey stk = some t ∧ t.mem a = some A ∧
      t.mem prv = some { P with nkey := P.nkey + (n.nkey - 1) - R } ∧
      t.mem mn = some (with_key nm mo (P.entries (P.nkey + (n.nkey - 1) - R)).key) ∧
      (∀ b, b ≠ a → b ≠ prv → b ≠ mn → t.mem b = s.mem b) ∧
      t.bstat = s.bstat ∧ t.brk = s.brk ∧ t.alloc = s.alloc ∧
      A.nkey = R ∧ A.prv = n.prv ∧ A.nxt = n.nxt ∧
      (∀ i, 0 ≤ i → i < R + 1 - n.nkey → (A.entries i).val =
        (P.entries (P.nkey + (n.nkey - 1) - R + 1 + i)).val) ∧
      (∀ i, 0 ≤ i → i < R + 1 - n.nkey - 1 → (A.entries i).key =
        (P.entries (P.nkey + (n.nkey - 1) - R + 1 + i)).key) ∧
      (A.entries (R + 1 - n.nkey - 1)).key =
        (if off = 0 then (n.entries 0).key else (nm.entries mo).key) ∧
      (∀ i, 0 ≤ i → i < n.nkey → (A.entries (R + 1 - n.nkey + i)).val =
        if i < off then (n.entries i).val else (n.entries (i + 1)).val) ∧
      (∀ i, 0 ≤ i → i < n.nkey - 1 → (A.entries (R + 1 - n.nkey + i)).key =
        if i + 1 < off then (n.entries i).key else (n.entries (i + 1)).key) := by
  have hR2 : R = (P.nkey + (n.nkey - 1)) / 2 := by
    rw [← hR]; exact Int.tdiv_eq_ediv (by omega) (by omega)
  have hmo1 : ¬ mo = -1 := by omega
  unfold delete_ientry_prv
  simp only [hmid, ← hmin, hR, hmo1, if_false, Option.bind_eq_bind]
  rw [get_entry_eq ha hma hoff.1 (by omega)]
  simp only [Option.some_bind]
  rw [memmove_eq (R + 1 - n.nkey + off) (1 + off)
    (n.nkey - off) ha hma ha hma (by omega) (fun _ => by omega)]
  simp only [Option.some_bind]
  rw [memmove_eq (R + 1 - n.nkey) 0 off ha (wr_mem_same _ _ _) ha
    (wr_mem_same _ _ _) (by omega) (fun _ => by simp only [wr_bstat]; omega)]
  simp only [Option.some_bind, wr_wr]
  rw [memcpy_eq 0 (P.nkey + (n.nkey - 1) - R + 1)
    (R + 1 - n.nkey) ha (wr_mem_same _ _ _) hp
    ((wr_mem_of_ne _ hap.symm).trans hmp) (by omega) (fun _ => by simp only [wr_bstat]; omega)
    hap]
  simp only [Option.some_bind, wr_wr]
  rw [get_entry_eq hmn0 ((wr_mem_of_ne _ hamn.symm).trans hmm) hmo.1 hmo.2]
  simp only [Option.some_bind]
  rw [set_key_eq' ha (wr_mem_same _ _ _) (by omega) (by simp only [wr_bstat]; omega)]
  simp only [Option.some_bind, wr_wr]
  rw [set_key_eq' ha (wr_mem_same _ _ _) (by omega) (by simp only [wr_bstat]; omega)]
  simp only [Option.some_bind, wr_wr]
  rw [get_entry_eq hp ((wr_mem_of_ne _ hap.symm).trans hmp) (by omega)
    (by simp only [wr_bstat]; omega)]
  simp only [Option.some_bind]
  rw [set_key_eq' hmn0 ((wr_mem_of_ne _ hamn.symm).trans hmm) hmo.1 hmo.2]
  simp only [Option.some_bind]
  rw [set_nkey_eq hp ((wr_mem_of_ne _ hpmn).trans ((wr_mem_of_ne _ hap.symm).trans hmp))]
  simp only [Option.some_bind]
  rw [set_nkey_eq ha ((wr_mem_of_ne _ hap).trans ((wr_mem_of_ne _ hamn).trans
    (wr_mem_same _ _ _)))]
  refine ⟨_, _, rfl, wr_mem_same _ _ _, ?_, ?_, ?_, rfl, rfl, rfl, rfl, rfl, rfl, ?_, ?_, ?_, ?_, ?_⟩
  · rw [wr_mem_of_ne _ hap.symm, wr_mem_same]
  · rw [wr_mem_of_ne _ hamn.symm, wr_mem_of_ne _ hpmn.symm, wr_mem_same]
  · intro b b1 b2 b3
    rw [wr_mem_of_ne _ b1, wr_mem_of_ne _ b2, wr_mem_of_ne _ b3, wr_mem_of_ne _ b1]
  · intro i i0 i1
    simp only [with_key_val, moved]
    split_ifs <;> first | rfl | omega | (congr 2 <;> omega)
  · intro i i0 i1
    simp only [with_key_key, moved]
    split_ifs <;> first | rfl | omega | (congr 2 <;> omega)
  · simp only [with_key_key, moved]
    split_ifs <;> first | rfl | omega | (congr 2 <;> omega)
  · intro i i0 i1
    simp only [with_key_val, moved]
    split_ifs <;> first | rfl | omega | (congr 2 <;> omega)
  · intro i i0 i1
    simp only [with_key_key, moved]
    split_ifs <;> first | rfl | omega | (congr 2 <;> omega)

theorem Ext.of_stat {s t : State} (h1 : t.bstat = s.bstat) (h2 : t.brk = s.brk) : Ext s t :=
  ⟨by rw [h1]; exact ⟨rfl, rfl, rfl, rfl, rfl⟩, by rw [h2]⟩

theorem CutSit.min_eq {cmp : bpt_t → bpt_t → Int} {s : State} {stk : gen_stk} {a off : Int}
    {d : Nat} {U1 : List Int} {X1 Y1 : List Item} {lo1 : Option bpt_t} {n : bpt_node}
    (_hs : CutSit cmp s stk a off d U1 X1 lo1 Y1 n) (hne : stk ≠ []) :
    min_inner s stk.isEmpty = s.bstat.new_inter_nkey := by
  cases stk with
  | nil => exact absurd rfl hne
  | cons _ _ => rfl

theorem grab_arith {pk mn R ord : Int} (h1 : 1 ≤ mn) (h2 : mn < pk) (h3 : pk ≤ ord)
    (h4 : 2 * mn ≤ ord) (hR : R = (pk + (mn - 1)) / 2) :
    0 ≤ R ∧ mn ≤ R ∧ R ≤ ord ∧ 0 ≤ pk + (mn - 1) - R ∧ mn ≤ pk + (mn - 1) - R ∧
      pk + (mn - 1) - R ≤ ord ∧ pk + (mn - 1) - R < pk := by
  omega

/-- The children of the previous node and of the node of the frame after
the grab, read in order, are those of the two nodes before it without the
released child. -/
theorem grab_prv_layout (lp : Option bpt_t) {n P A : bpt_node} {off R : Int} {l : bpt_t}
    (h1 : 1 ≤ n.nkey) (hoff : 0 ≤ off) (hpk : n.nkey < P.nkey)
    (hR : R = (P.nkey + (n.nkey - 1)) / 2) (g1 : A.nkey = R)
    (f1 : ∀ i, 0 ≤ i → i < R + 1 - n.nkey → (A.entries i).val =
      (P.entries (P.nkey + (n.nkey - 1) - R + 1 + i)).val)
    (f2 : ∀ i, 0 ≤ i → i < R + 1 - n.nkey - 1 → (A.entries i).key =
      (P.entries (P.nkey + (n.nkey - 1) - R + 1 + i)).key)
    (f3 : (A.entries (R + 1 - n.nkey - 1)).key = l)
    (f4 : ∀ i, 0 ≤ i → i < n.nkey → (A.entries (R + 1 - n.nkey + i)).val =
      if i < off then (n.entries i).val else (n.entries (i + 1)).val)
    (f5 : ∀ i, 0 ≤ i → i < n.nkey - 1 → (A.entries (R + 1 - n.nkey + i)).key =
      if i + 1 < off then (n.entries i).key else (n.entries (i + 1)).key) :
    node_pairs lp { P with nkey := P.nkey + (n.nkey - 1) - R } ++
      node_pairs (some (P.entries (P.nkey + (n.nkey - 1) - R)).key) A =
    node_pairs lp P ++ node_pairs (some l) (cut n off) := by
  obtain ⟨k, hk⟩ : ∃ k : Nat, (k : Int) = P.nkey + (n.nkey - 1) - R :=
    ⟨(P.nkey + (n.nkey - 1) - R).toNat, by omega⟩
  have hkn : (P.nkey + (n.nkey - 1) - R).toNat = k := by omega
  have hg : node_pairs (some (P.entries (k : Int)).key) A =
      (node_pairs lp P).drop (k + 1) ++ node_pairs (some l) (cut n off) := by
    apply pairs_glue_right
    · omega
    · rw [cut_nkey]; omega
    · rw [cut_nkey, g1]; omega
    · intro i i0 i1
      exact (f2 i i0 (by omega)).trans (by congr 2; omega)
    · intro i i0 i1
      exact (f1 i i0 (by omega)).trans (by congr 2; omega)
    · have e : P.nkey - ((k : Int) + 1) = R + 1 - n.nkey - 1 := by omega
      rw [e]; exact f3
    · intro i i0 i1
      rw [cut_nkey] at i1
      have e : P.nkey - ((k : Int) + 1) + 1 + i = R + 1 - n.nkey + i := by omega
      rw [e, cut_key hoff i0 (by omega)]
      exact f5 i i0 (by omega)
    · intro i i0 i1
      rw [cut_nkey] at i1
      have e : P.nkey - ((k : Int) + 1) + 1 + i = R + 1 - n.nkey + i := by omega
      rw [e, cut_val hoff i0 (by omega)]
      exact f4 i i0 (by omega)
  have hsh := pairs_shrink lp P (c := P.nkey + (n.nkey - 1) - R) (by omega) (by omega)
  rw [hkn] at hsh
  rw [← hk] at hsh ⊢
  rw [hsh, hg, ← List.append_assoc, List.take_append_drop]

theorem ientry_prv_spec {cmp : bpt_t → bpt_t → Int} {s : State} {stk : gen_stk}
    {a off : Int} {d : Nat} {U1 : List Int} {X1 Y1 : List Item} {lo1 : Option bpt_t}
    {n P : bpt_node} (hs : CutSit cmp s stk a off d U1 X1 lo1 Y1 n) (hne : stk ≠ [])
    (hmin : n.nkey = s.bstat.new_inter_nkey) (hprv : n.prv ≠ 0) (hmp : s.mem n.prv = some P)
    (hpk : P.nkey ≠ s.bstat.new_inter_nkey) :
    ∃ t, delete_ientry_prv s ⟨a, off⟩ n.prv P.nkey stk = some t ∧
      t.alloc = s.alloc ∧ WF cmp t ∧ tree_entries t =
        contents s ((level_below s d (cut_level s X1 lo1 n off Y1)).map Prod.snd) := by
  obtain ⟨a0, hn0, hn1, hn2, hn3, aU, aX, aY, aT, UT, hnd⟩ := hs.facts
  have hmn := hs.min_eq hne
  obtain ⟨X0, lp, hX, hpok⟩ := (prev_facts hs.ok hs.hm).2 hprv
  obtain ⟨p0, -, P1, hP1, hp1, hp2, hp3⟩ := hpok
  rw [hmp] at hP1; cases Option.some.inj hP1
  rw [hmn] at hp2
  obtain ⟨R, hR⟩ : ∃ R, Int.tdiv (P.nkey + (n.nkey - 1)) 2 = R := ⟨_, rfl⟩
  have hR2 : R = (P.nkey + (n.nkey - 1)) / 2 := by
    rw [← hR]; exact Int.tdiv_eq_ediv (by omega) (by omega)
  have hlt : n.nkey < P.nkey := by rw [hmin]; exact lt_of_le_of_ne hp2 (Ne.symm hpk)
  have har := grab_arith hn3 hlt hp3
    (by have := (params_arith hs.hp).2.1; have := (params_arith hs.hp).2.2.2.1; omega) hR2
  obtain ⟨l, hl⟩ := Sep.left_last hs.ctx.sep (by rw [hX]; simp)
  obtain ⟨mo, mn, nm, e1, e2, e3, e4, e5, e6, e7, e8, e9⟩ := hs.ctx.left_sep.2 l hl
  have hmo : mo ≤ s.bstat.order := by omega
  have hnd2 : (U1 ++ (X0 ++ (lp, n.prv) :: (lo1, a) :: Y1).map Prod.snd).Nodup := by
    rw [hX] at hnd; simpa using hnd
  obtain ⟨hpa, pU, -, pX, -, pY, -, dX, dY, -, -⟩ := nodup_pair hnd2
  have hamn : a ≠ mn := (ne_of_mem_of_not_mem e2 aU).symm
  have hpmn : n.prv ≠ mn := (ne_of_mem_of_not_mem e2 pU).symm
  obtain ⟨t, A, r1, r2, r3, r4, r5, r6, r7, r8, g1, g2, g3, f1, f2, f3, f4, f5⟩ :=
    @grab_prv_run s a n.prv mn n P nm off mo R stk a0 p0 e3 hpa.symm hamn hpmn hs.hm hmp e4 e1
      ⟨e5, hmo⟩ hmin hn3 ⟨hs.h0, hs.h1⟩ hlt hp3 hR
  have he : Ext s t := Ext.of_stat r6 r7
  have hmemU : ∀ b ∈ U1, b ≠ a ∧ b ≠ n.prv := fun b hb =>
    ⟨ne_of_mem_of_not_mem hb aU, ne_of_mem_of_not_mem hb pU⟩
  have hAX : Agree s t (X0.map Prod.snd) := by
    intro b hb
    exact r5 b (fun h => aX (by rw [hX, ← h]; simp [hb]))
      (ne_of_mem_of_not_mem hb pX) (fun h => (dX b hb).1 (h ▸ e2))
  have hAY : Agree s t (Y1.map Prod.snd) := by
    intro b hb
    exact r5 b (ne_of_mem_of_not_mem hb aY) (ne_of_mem_of_not_mem hb pY)
      (fun h => dY b hb (h ▸ e2))
  have hkey : cut_lo lo1 n off =
      some (if off = 0 then (n.entries 0).key else (nm.entries mo).key) := by
    rw [hl, e8]; unfold cut_lo; split_ifs <;> rfl
  have hlay := grab_prv_layout lp hn3 hs.h0 hlt hR2 g1 f1 f2 f3 f4 f5
  subst hX
  refine ⟨t, r1, r8, ?_⟩
  refine @cut_commit cmp s t stk a off d U1 (X0 ++ [(lp, n.prv)]) Y1 (X0 ++ [(lp, n.prv)]) Y1 lo1
    (some (P.entries (P.nkey + (n.nkey - 1) - R)).key) n hs he r6 ?_ ?_
    (by simp) ?_ ?_
  · refine (e9 _).2.frame (Ext.of_stat r6 r7) (by rw [r6]; rfl) ?_
    intro b hb
    by_cases hbm : b = mn
    · rw [hbm, r4, wr_mem_same]
    · rw [r5 b (hmemU b hb).1 (hmemU b hb).2 hbm, wr_mem_of_ne _ hbm]
  · refine InnerOK.of_map_snd (by simp) (InnerOK.relink he ?_ hs.ok)
    intro b hb nb hnb
    by_cases hba : b = a
    · rw [hba] at hnb ⊢
      rw [hs.hm] at hnb; cases Option.some.inj hnb
      exact ⟨A, r2, g2, g3, by rw [g1]; exact har.1, by rw [g1, hmn, ← hmin]; exact har.2.1,
        by rw [g1]; exact har.2.2.1⟩
    · by_cases hbp : b = n.prv
      · rw [hbp] at hnb ⊢
        rw [hmp] at hnb; cases Option.some.inj hnb
        exact ⟨_, r3, rfl, rfl, har.2.2.2.1, by rw [hmn, ← hmin]; exact har.2.2.2.2.1,
          har.2.2.2.2.2.1⟩
      · have hbU : b ∉ U1 := by
          intro h
          exact (List.nodup_append.mp hnd).2.2 h hb
        obtain ⟨q, hq, rfl⟩ := List.mem_map.mp hb
        obtain ⟨-, -, nq, hnq, k1, k2, k3⟩ := hs.ok.1 q hq
        rw [hnb] at hnq; cases Option.some.inj hnq
        exact ⟨nb, (r5 _ hba hbp (fun h => hbU (h ▸ e2))).trans hnb, rfl, rfl, k1, k2, k3⟩
  · have hl1 : (X0 ++ [(lp, n.prv)] ++
        (some (P.entries (P.nkey + (n.nkey - 1) - R)).key, a) :: Y1) =
        X0 ++ (lp, n.prv) :: (some (P.entries (P.nkey + (n.nkey - 1) - R)).key, a) :: Y1 := by
      simp
    rw [hl1, expand_append, expand_cons_of_mem r3, expand_cons_of_mem r2, expand_congr hAX,
      expand_congr hAY, ← List.append_assoc (node_pairs lp _), hlay]
    unfold cut_level
    rw [expand_append, expand_cons_of_mem hmp, hkey]
    simp only [expand, List.append_nil, List.append_assoc]
  · intro b hb
    refine r5 b (fun h => aT (h ▸ hb)) ?_ (fun h => UT mn e2 (h ▸ hb))
    intro h
    refine (List.nodup_append.mp hs.nd).2.2 ?_ hb
    rw [h]; simp

/-! ## Deletion: the separators around the node of a frame -/

theorem Ctx.frames_ok {s : State} {stk : gen_stk} {U : List Int} {X Y : List Item}
    {lo : Option bpt_t} {a : Int} (hc : Ctx s stk U X lo a Y) :
    ∀ f ∈ stk, 0 ≤ f.offset ∧ f.node ≠ 0 ∧ ∃ n, s.mem f.node = some n := by
  induction hc with
  | root => intro f hf; simp at hf
  | @step stk U X lo a Y n off _ hm hi _ h0 h1 ih =>
    intro f hf
    rw [List.mem_cons] at hf
    rcases hf with rfl | hf
    · exact ⟨h0, (focus_facts hi).1, n, hm⟩
    · exact ih f hf

theorem mid_nxt_congr {s t : State} (h : ∀ b, bpt_node_nkey t b = bpt_node_nkey s b) :
    ∀ stk, mid_between_nxt t stk = mid_between_nxt s stk := by
  intro stk
  induction stk with
  | nil => rfl
  | cons f r ih => simp only [mid_between_nxt, h, ih]

theorem nkey_wr_with_key {s : State} {mn : Int} {nm : bpt_node} (hm : s.mem mn = some nm)
    (mo : Int) (k : bpt_t) (b : Int) :
    bpt_node_nkey (wr s mn (with_key nm mo k)) b = bpt_node_nkey s b := by
  unfold bpt_node_nkey rd
  by_cases h0 : b = 0
  · simp [h0]
  · by_cases hb : b = mn
    · subst hb; simp [h0, hm]
    · simp [h0, wr_mem_of_ne _ hb]

theorem nkey_null (s : State) : bpt_node_nkey s 0 = none := by
  simp [bpt_node_nkey, rd]

/-- The loop of `mid_between_prv_nxt` from any set of found bits, by the two
single lookups on the rest of the journal. -/
theorem mid_loop_eq (s : State) :
    ∀ (stk : gen_stk) (found : Nat) (p n : Int × Int), found < 4 →
      mid_between_prv_nxt_loop s stk found p n =
        if found &&& 2 ≠ 0 then
          some (if found &&& 1 ≠ 0 ∨ (mid_between_prv stk).1 = -1 then p
            else mid_between_prv stk, n)
        else (mid_between_nxt s stk).map fun x =>
          (if found &&& 1 ≠ 0 ∨ (mid_between_prv stk).1 = -1 then p else mid_between_prv stk,
            if x.2 = 0 then n else x) := by
  intro stk
  induction stk with
  | nil =>
    intro found p n hf
    interval_cases found <;> simp [mid_between_prv_nxt_loop, mid_between_prv, mid_between_nxt]
  | cons f r ih =>
    intro found p n hf
    have i0 := fun p n => ih 0 p n (by decide)
    have i1 := fun p n => ih 1 p n (by decide)
    have i2 := fun p n => ih 2 p n (by decide)
    have i3 := fun p n => ih 3 p n (by decide)
    have hoff : f.offset ≠ 0 → ¬ (f.offset - 1 = -1) := fun h => by omega
    rw [mid_between_prv_nxt_loop]
    cases hk : bpt_node_nkey s f.node with
    | none =>
      interval_cases found <;> by_cases h0 : f.offset = 0 <;>
        simp [h0, hk, hoff, mid_between_nxt, mid_between_prv, i0, i1, i2, i3]
    | some m =>
      have hnode : f.node ≠ 0 := by
        intro h
        rw [h, nkey_null] at hk
        cases hk
      clear ih
      by_cases hm : f.offset = m
      · subst hm
        interval_cases found <;> by_cases h0 : f.offset = 0 <;>
          simp [h0, hk, hoff, hnode, mid_between_nxt, mid_between_prv, i0, i1, i2, i3]
      · by_cases h0 : f.offset = 0
        · have hm2 : ¬ (0 = m) := fun h => hm (h0.trans h)
          interval_cases found <;>
            simp [h0, hm2, hk, hnode, mid_between_nxt, mid_between_prv, i0, i1, i2, i3]
        · interval_cases found <;>
            simp [h0, hm, hk, hoff, hnode, mid_between_nxt, mid_between_prv, i0, i1, i2, i3]

theorem mid_prv_none : ∀ (stk : gen_stk),
    (mid_between_prv stk).1 = -1 → mid_between_prv stk = (-1, 0) := by
  intro stk
  induction stk with
  | nil => intro _; rfl
  | cons f r ih =>
    intro h
    simp only [mid_between_prv] at h ⊢
    by_cases h0 : f.offset = 0
    · rw [if_neg (not_not.mpr h0)] at h ⊢
      exact ih h
    · rw [if_pos h0] at h
      simp only at h
      omega

theorem mid_nxt_none (s : State) : ∀ (stk : gen_stk) (x : Int × Int),
    mid_between_nxt s stk = some x → x.2 = 0 → x = (-1, 0) := by
  intro stk
  induction stk with
  | nil =>
    intro x h _
    simp only [mid_between_nxt, Option.some.injEq] at h
    exact h.symm
  | cons f r ih =>
    intro x h hx
    simp only [mid_between_nxt] at h
    cases hk : bpt_node_nkey s f.node with
    | none => rw [hk] at h; cases h
    | some m =>
      rw [hk] at h
      simp only at h
      by_cases hm : f.offset = m
      · rw [if_neg (not_not.mpr hm)] at h
        exact ih x h hx
      · rw [if_pos hm] at h
        cases Option.some.inj h
        simp only at hx
        rw [hx, nkey_null] at hk
        cases hk

/-- The function `mid_between_prv_nxt` gives, on every journal, the pair of
`mid_between_prv` and the pair of `mid_between_nxt`. -/
theorem mid_prv_nxt_eq (s : State) (stk : gen_stk) :
    mid_between_prv_nxt s stk =
      (mid_between_nxt s stk).map fun x => (mid_between_prv stk, x) := by
  unfold mid_between_prv_nxt
  rw [mid_loop_eq s stk 0 _ _ (by decide)]
  simp only [Nat.zero_and, ne_eq, not_true_eq_false, if_false, false_or]
  cases hx : mid_between_nxt s stk with
  | none => rfl
  | some x =>
    simp only [Option.map_some', Option.some.injEq, Prod.mk.injEq]
    constructor
    · by_cases h : (mid_between_prv stk).1 = -1
      · rw [if_pos h, mid_prv_none stk h]
      · rw [if_neg h]
    · by_cases h : x.2 = 0
      · rw [if_pos h, mid_nxt_none s stk x hx h]
      · rw [if_neg h]

theorem mid_nxt_total (s : State) :
    ∀ (stk : gen_stk),
      (∀ f ∈ stk, 0 ≤ f.offset ∧ f.node ≠ 0 ∧ ∃ m, s.mem f.node = some m) →
      ∃ x, mid_between_nxt s stk = some x := by
  intro stk
  induction stk with
  | nil => intro _; exact ⟨_, rfl⟩
  | cons f r ih =>
    intro hf
    obtain ⟨-, fn0, m, hm⟩ := hf f (by simp)
    obtain ⟨x, hx⟩ := ih fun g hg => hf g (by simp [hg])
    simp only [mid_between_nxt, nkey_eq fn0 hm]
    by_cases h : f.offset = m.nkey
    · rw [if_neg (not_not.mpr h)]; exact ⟨x, hx⟩
    · rw [if_pos h]; exact ⟨_, rfl⟩

theorem mid_loop_spec (s : State) (stk : gen_stk)
    (hf : ∀ f ∈ stk, 0 ≤ f.offset ∧ f.node ≠ 0 ∧ ∃ m, s.mem f.node = some m) :
    ∃ x, mid_between_nxt s stk = some x ∧
      mid_between_prv_nxt s stk = some (mid_between_prv stk, x) := by
  obtain ⟨x, hx⟩ := mid_nxt_total s stk hf
  exact ⟨x, hx, by rw [mid_prv_nxt_eq, hx]; rfl⟩

theorem cut_lo_idem (lo : Option bpt_t) (n : bpt_node) (off : Int) :
    cut_lo (cut_lo lo n off) n off = cut_lo lo n off := by
  unfold cut_lo
  split_ifs
  · cases lo <;> rfl
  · rfl

/-- The separator on the left of the node of the frame is brought up to date
first (it changes when child `0` was released): the situation is as before in
the state so obtained, with that separator in the journal's ancestor. -/
theorem CutSit.prep {cmp : bpt_t → bpt_t → Int} {s : State} {stk : gen_stk} {a off : Int}
    {d : Nat} {U1 : List Int} {X1 Y1 : List Item} {lo1 : Option bpt_t} {n : bpt_node}
    (hs : CutSit cmp s stk a off d U1 X1 lo1 Y1 n) :
    ∃ s0, CutSit cmp s0 stk a off d U1 X1 (cut_lo lo1 n off) Y1 n ∧
      cut_level s0 X1 (cut_lo lo1 n off) n off Y1 = cut_level s X1 lo1 n off Y1 ∧
      contents s0 ((level_below s0 d (cut_level s X1 lo1 n off Y1)).map Prod.snd) =
        contents s ((level_below s d (cut_level s X1 lo1 n off Y1)).map Prod.snd) ∧
      s0.bstat = s.bstat ∧ s0.brk = s.brk ∧ s0.alloc = s.alloc ∧
      (∀ b, b ∉ U1 → s0.mem b = s.mem b) ∧
      (∀ b, bpt_node_nkey s0 b = bpt_node_nkey s b) ∧
      (off ≠ 0 ∨ lo1 = none → s0 = s) ∧
      (off = 0 → ∀ l, lo1 = some l → ∃ mo mn nm, mid_between_prv stk = (mo, mn) ∧ mn ≠ 0 ∧
        s.mem mn = some nm ∧ 0 ≤ mo ∧ mo ≤ s.bstat.order ∧
        s0 = wr s mn (with_key nm mo (n.entries 0).key)) ∧
      (lo1 = none → mid_between_prv stk = (-1, 0)) := by
  obtain ⟨a0, hn0, hn1, hn2, hn3, aU, aX, aY, aT, UT, hnd⟩ := hs.facts
  by_cases hcase : off ≠ 0 ∨ lo1 = none
  · refine ⟨s, ?_, ?_, rfl, rfl, rfl, rfl, fun _ _ => rfl, fun _ => rfl, fun _ => rfl, ?_,
      fun h => (hs.ctx.left_sep.1 h).1⟩
    · rw [cut_lo_eq lo1 n hcase]; exact hs
    · rw [cut_lo_eq lo1 n hcase]
    · intro h l hl
      rcases hcase with h1 | h1
      · exact absurd h h1
      · rw [hl] at h1; cases h1
  · simp only [not_or, not_not] at hcase
    obtain ⟨ho, hl⟩ := hcase
    obtain ⟨l, hl1⟩ := Option.ne_none_iff_exists'.mp hl
    obtain ⟨mo, mn, nm, e1, e2, e3, e4, e5, e6, e7, -, e9⟩ := hs.ctx.left_sep.2 l hl1
    have hmo : mo ≤ s.bstat.order := by omega
    have hmna : mn ≠ a := ne_of_mem_of_not_mem e2 aU
    have hcl : cut_lo lo1 n off = some (n.entries 0).key := by
      rw [hl1, ho]; simp [cut_lo]
    obtain ⟨g1, gX, gY, gL⟩ := @agree_upper s U1 X1 Y1 lo1 a hnd mn e2
      (with_key nm mo (n.entries 0).key)
    have hAT : Agree s (wr s mn (with_key nm mo (n.entries 0).key))
        (nodes_below s d (cut_level s X1 lo1 n off Y1)) :=
      fun b hb => wr_mem_of_ne _ (fun h => UT mn e2 (h ▸ hb))
    obtain ⟨f1, f2, f3, f4⟩ := lower_frame (Ext.wr _ _ _) hAT hs.below
    have hT : cut_level (wr s mn (with_key nm mo (n.entries 0).key)) X1 (cut_lo lo1 n off) n off
        Y1 = cut_level s X1 lo1 n off Y1 := by
      unfold cut_level
      rw [expand_congr gX, expand_congr gY, cut_lo_idem]
    refine ⟨wr s mn (with_key nm mo (n.entries 0).key), ?_, hT, ?_, rfl, rfl, rfl,
      fun b hb => wr_mem_of_ne _ (fun h => hb (h ▸ e2)), nkey_wr_with_key e4 _ _,
      fun h => ?_, ?_, fun h => (by rw [h] at hl1; cases hl1)⟩
    · refine ⟨hs.hc, hs.hp, hs.hb, ?_, g1.trans hs.hm, ?_, hs.h0, hs.h1, hs.len, ?_, ?_⟩
      · rw [hcl]; exact (e9 _).2
      · exact InnerOK.of_map_snd (by simp)
          (InnerOK.congr_inner (Ext.wr _ _ _) gL (le_refl _) hs.ok)
      · rw [hT]; exact f1
      · rw [hT, f2]
        have : (X1 ++ (cut_lo lo1 n off, a) :: Y1).map Prod.snd =
            (X1 ++ (lo1, a) :: Y1).map Prod.snd := by simp
        rw [this]; exact hs.nd
    · rw [f3, f4]
    · rcases h with h | h
      · exact absurd ho h
      · exact absurd h hl
    · intro _ l2 hl2
      exact ⟨mo, mn, nm, e1, e3, e4, e5, hmo, rfl⟩

/-! ## `bpt_delete_ientry`: entries grabbed from the next node -/

theorem grab_nxt_arith {xk mi L ord : Int} (h1 : 1 ≤ mi) (h2 : mi < xk) (h3 : xk ≤ ord)
    (h4 : 2 * mi ≤ ord) (hL : L = (xk + (mi - 1)) / 2) :
    0 ≤ L ∧ mi ≤ L ∧ L ≤ ord ∧ 0 ≤ xk + (mi - 1) - L ∧ mi ≤ xk + (mi - 1) - L ∧
      xk + (mi - 1) - L ≤ ord ∧ 1 ≤ L + 1 - mi ∧ L + 1 - mi ≤ xk := by
  omega

/-- The second part of `delete_ientry_nxt`, from the `memcpy` on: `B` is the
node of the frame without the released child. -/
theorem grab_nxt_run2 {s1 : State} {a nxt mn : Int} {B Nx nm : bpt_node} {mo mi L : Int}
    (ha : a ≠ 0) (hx : nxt ≠ 0) (hmn0 : mn ≠ 0) (hax : a ≠ nxt) (hamn : a ≠ mn)
    (hxmn : nxt ≠ mn)
    (hma : s1.mem a = some B) (hmx : s1.mem nxt = some Nx) (hmm : s1.mem mn = some nm)
    (hmo : 0 ≤ mo ∧ mo ≤ s1.bstat.order)
    (h1 : 1 ≤ mi) (hxk : mi < Nx.nkey) (hxo : Nx.nkey ≤ s1.bstat.order)
    (hord : 2 * mi ≤ s1.bstat.order)
    (hL : L = (Nx.nkey + (mi - 1)) / 2) :
    ∃ t A X, (do
        let s2 ← memcpy s1 a mi nxt 0 (L + 1 - mi)
        let me ← get_entry s2 mn mo
        let s3 ← set_key s2 a (mi - 1) me.key
        let ne ← get_entry s3 nxt (L + 1 - mi - 1)
        let s4 ← set_key s3 mn mo ne.key
        let s5 ← memmove s4 nxt 0 nxt (L + 1 - mi) (Nx.nkey + (mi - 1) - L + 1)
        let s6 ← bpt_node_set_nkey s5 a L
        bpt_node_set_nkey s6 nxt (Nx.nkey + (mi - 1) - L)) = some t ∧
      t.mem a = some A ∧ t.mem nxt = some X ∧
      t.mem mn = some (with_key nm mo (Nx.entries (L + 1 - mi - 1)).key) ∧
      (∀ b, b ≠ a → b ≠ nxt → b ≠ mn → t.mem b = s1.mem b) ∧
      t.bstat = s1.bstat ∧ t.brk = s1.brk ∧ t.alloc = s1.alloc ∧
      A.nkey = L ∧ A.prv = B.prv ∧ A.nxt = B.nxt ∧
      X.nkey = Nx.nkey + (mi - 1) - L ∧ X.prv = Nx.prv ∧ X.nxt = Nx.nxt ∧
      (∀ i, 0 ≤ i → i < mi → (A.entries i).val = (B.entries i).val) ∧
      (∀ i, 0 ≤ i → i < mi - 1 → (A.entries i).key = (B.entries i).key) ∧
      (A.entries (mi - 1)).key = (nm.entries mo).key ∧
      (∀ i, 0 ≤ i → i < L + 1 - mi → A.entries (mi + i) = Nx.entries i) ∧
      (∀ j, 0 ≤ j → j ≤ Nx.nkey + (mi - 1) - L → X.entries j = Nx.entries (j + (L + 1 - mi))) := by
  have har := grab_nxt_arith h1 hxk hxo hord hL
  simp only [bind, Option.bind_eq_bind]
  rw [memcpy_eq mi 0 (L + 1 - mi) ha hma hx hmx (by omega) (fun _ => by omega) hax]
  simp only [Option.some_bind]
  rw [get_entry_eq hmn0 ((wr_mem_of_ne _ hamn.symm).trans hmm) hmo.1 hmo.2]
  simp only [Option.some_bind]
  rw [set_key_eq' ha (wr_mem_same _ _ _) (by omega) (by simp only [wr_bstat]; omega)]
  simp only [Option.some_bind, wr_wr]
  rw [get_entry_eq hx ((wr_mem_of_ne _ hax.symm).trans hmx) (by omega)
    (by simp only [wr_bstat]; omega)]
  simp only [Option.some_bind]
  rw [set_key_eq' hmn0 ((wr_mem_of_ne _ hamn.symm).trans hmm) hmo.1 hmo.2]
  simp only [Option.some_bind]
  have hl1 : (wr (wr s1 a (with_key { B with entries := moved B Nx mi 0 (L + 1 - mi) } (mi - 1)
      (nm.entries mo).key)) mn (with_key nm mo (Nx.entries (L + 1 - mi - 1)).key)).mem nxt =
      some Nx := by
    rw [wr_mem_of_ne _ hxmn, wr_mem_of_ne _ hax.symm]; exact hmx
  rw [memmove_eq 0 (L + 1 - mi) (Nx.nkey + (mi - 1) - L + 1) hx hl1 hx hl1 (by omega)
    (fun _ => by simp only [wr_bstat]; omega)]
  simp only [Option.some_bind]
  rw [set_nkey_eq ha ((wr_mem_of_ne _ hax).trans ((wr_mem_of_ne _ hamn).trans
    (wr_mem_same _ _ _)))]
  simp only [Option.some_bind]
  rw [set_nkey_eq hx ((wr_mem_of_ne _ hax.symm).trans (wr_mem_same _ _ _))]
  refine ⟨_, _, _, rfl, (wr_mem_of_ne _ hax).trans (wr_mem_same _ _ _), wr_mem_same _ _ _, ?_, ?_,
    rfl, rfl, rfl, rfl, rfl, rfl, rfl, rfl, rfl, ?_, ?_, ?_, ?_, ?_⟩
  · rw [wr_mem_of_ne _ hxmn.symm, wr_mem_of_ne _ hamn.symm, wr_mem_of_ne _ hxmn.symm,
      wr_mem_same]
  · intro b b1 b2 b3
    rw [wr_mem_of_ne _ b2, wr_mem_of_ne _ b1, wr_mem_of_ne _ b2, wr_mem_of_ne _ b3,
      wr_mem_of_ne _ b1]
  · intro i i0 i1
    simp only [with_key_val, moved]
    rw [if_neg (by omega)]
  · intro i i0 i1
    simp only [with_key_key, moved]
    rw [if_neg (by omega), if_neg (by omega)]
  · simp only [with_key_key, moved, if_true]
  · intro i i0 i1
    have e1 : ¬ (mi + i = mi - 1) := by omega
    simp only [with_key, Function.update_apply, moved, e1, if_false]
    rw [if_pos (by omega)]
    congr 1; omega
  · intro j j0 j1
    simp only [moved]
    rw [if_pos (by omega)]
    congr 1; omega

/-- The children of the node of the frame and of the next node after the
grab, read in order, are those of the two nodes before it without the
released child. -/
theorem grab_nxt_layout (lo : Option bpt_t) {C Nx A X : bpt_node} {mi L : Int} {h : bpt_t}
    (h1 : 1 ≤ mi) (hC : C.nkey = mi - 1) (hxk : mi < Nx.nkey)
    (hL : L = (Nx.nkey + (mi - 1)) / 2) (g1 : A.nkey = L)
    (g2 : X.nkey = Nx.nkey + (mi - 1) - L)
    (a1 : ∀ i, 0 ≤ i → i < mi → (A.entries i).val = (C.entries i).val)
    (a2 : ∀ i, 0 ≤ i → i < mi - 1 → (A.entries i).key = (C.entries i).key)
    (a3 : (A.entries (mi - 1)).key = h)
    (a4 : ∀ i, 0 ≤ i → i < L + 1 - mi → A.entries (mi + i) = Nx.entries i)
    (x1 : ∀ j, 0 ≤ j → j ≤ Nx.nkey + (mi - 1) - L →
      X.entries j = Nx.entries (j + (L + 1 - mi))) :
    node_pairs lo A ++ node_pairs (some (Nx.entries (L + 1 - mi - 1)).key) X =
      node_pairs lo C ++ node_pairs (some h) Nx := by
  obtain ⟨g, hg⟩ : ∃ g : Nat, (g : Int) = L + 1 - mi := ⟨(L + 1 - mi).toNat, by omega⟩
  obtain ⟨c, hc⟩ : ∃ c : Nat, g = c + 1 := ⟨g - 1, by omega⟩
  have hA : node_pairs lo A = node_pairs lo C ++ (node_pairs (some h) Nx).take (c + 1) := by
    apply pairs_glue_left
    · omega
    · omega
    · omega
    · intro i i0 i1; exact a2 i i0 (by omega)
    · intro i i0 i1; exact a1 i i0 (by omega)
    · rw [hC]; exact a3
    · intro i i0 i1
      have e : C.nkey + 1 + i = mi + i := by omega
      rw [e, a4 i i0 (by omega)]
    · intro i i0 i1
      have e : C.nkey + 1 + i = mi + i := by omega
      rw [e, a4 i i0 (by omega)]
  have hXs : node_pairs (some (Nx.entries ((g : Int) - 1)).key) X =
      (node_pairs (some h) Nx).drop g := by
    apply pairs_shift
    · omega
    · omega
    · omega
    · intro j j0 j1
      rw [x1 j j0 (by omega), hg]
  rw [← hg, hXs, hA, ← hc, List.append_assoc, List.take_append_drop]

theorem ientry_nxt_spec {cmp : bpt_t → bpt_t → Int} {s : State} {stk : gen_stk}
    {a off : Int} {d : Nat} {U1 : List Int} {X1 Y1 : List Item} {lo1 : Option bpt_t}
    {n Nx : bpt_node} (hs : CutSit cmp s stk a off d U1 X1 lo1 Y1 n) (hne : stk ≠ [])
    (hmin : n.nkey = s.bstat.new_inter_nkey) (hnxt : n.nxt ≠ 0) (hmx : s.mem n.nxt = some Nx)
    (hxk : Nx.nkey ≠ s.bstat.new_inter_nkey) :
    ∃ t, delete_ientry_nxt s ⟨a, off⟩ n.nxt Nx.nkey stk = some t ∧
      t.alloc = s.alloc ∧ WF cmp t ∧ tree_entries t =
        contents s ((level_below s d (cut_level s X1 lo1 n off Y1)).map Prod.snd) := by
  obtain ⟨s0, hs0, hT, hcont, b1, b2, b3, b4, b5, c9, c10, c11⟩ := hs.prep
  obtain ⟨a0, hn0, hn1, hn2, hn3, aU, aX, aY, aT, UT, hnd⟩ := hs0.facts
  have hmn := hs0.min_eq hne
  obtain ⟨ln, Y2, hY, hxok⟩ := (next_facts hs0.ok hs0.hm).2 hnxt
  have hnd2 : (U1 ++ (X1 ++ (cut_lo lo1 n off, a) :: (ln, n.nxt) :: Y2).map Prod.snd).Nodup := by
    rw [hY] at hnd; exact hnd
  obtain ⟨hax, -, xU, -, xX, aY2, xY2, dX, dY, -, -⟩ := nodup_pair hnd2
  have hmx0 : s0.mem n.nxt = some Nx := (b4 _ xU).trans hmx
  obtain ⟨x0, -, Nx1, hNx1, hx1, hx2, hx3⟩ := hxok
  rw [hmx0] at hNx1; cases Option.some.inj hNx1
  rw [hmn, b1] at hx2
  rw [b1] at hx3
  obtain ⟨L, hLt⟩ : ∃ L, Int.tdiv (Nx.nkey + (n.nkey - 1)) 2 = L := ⟨_, rfl⟩
  have hL : L = (Nx.nkey + (n.nkey - 1)) / 2 := by
    rw [← hLt]; exact Int.tdiv_eq_ediv (by omega) (by omega)
  have hlt : n.nkey < Nx.nkey := by rw [hmin]; exact lt_of_le_of_ne hx2 (Ne.symm hxk)
  have hord : 2 * n.nkey ≤ s.bstat.order := by
    have := (params_arith hs.hp).2.1; have := (params_arith hs.hp).2.2.2.1; omega
  have har := grab_nxt_arith hn3 hlt hx3 hord hL
  obtain ⟨mo, mn, nm, m1, m2, m3, m4, m5, m6, m7, m8, m9⟩ :=
    hs0.ctx.right_sep.2 (by rw [hY]; simp)
  have hmo : mo ≤ s.bstat.order := by rw [b1] at m7; omega
  have hmo1 : ¬ mo = -1 := by omega
  have hmids : mid_between_nxt s stk = some (mo, mn) := by
    rw [← mid_nxt_congr b5 stk]; exact m1
  have hln : ln = some (nm.entries mo).key := by rw [hY] at m8; exact m8
  have hamn : a ≠ mn := (ne_of_mem_of_not_mem m2 aU).symm
  have hxmn : n.nxt ≠ mn := (ne_of_mem_of_not_mem m2 xU).symm
  obtain ⟨t, A, X, r1, r2, r3, r4, r5, r6, r7, r8, g1, g2, g3, g4, g5, g6, a1, a2, a3, a4, x1⟩ :=
    @grab_nxt_run2 (wr s0 a { cut n off with nkey := n.nkey }) a n.nxt mn
      { cut n off with nkey := n.nkey } Nx nm mo n.nkey L a0 x0 m3 hax hamn hxmn
      (wr_mem_same _ _ _) ((wr_mem_of_ne _ hax.symm).trans hmx0)
      ((wr_mem_of_ne _ hamn.symm).trans m4) ⟨m5, by rw [wr_bstat, b1]; exact hmo⟩ hn3 hlt
      (by rw [wr_bstat, b1]; exact hx3) (by rw [wr_bstat, b1]; exact hord) hL
  have hlay := grab_nxt_layout (cut_lo lo1 n off) (C := cut n off) (h := (nm.entries mo).key)
    hn3 (cut_nkey n off) hlt hL g1 g4 a1 a2 a3 a4 x1
  have hrun : delete_ientry_nxt s ⟨a, off⟩ n.nxt Nx.nkey stk = some t := by
    unfold delete_ientry_nxt
    simp only [← hmin, hLt, Option.bind_eq_bind]
    by_cases ho : off = 0
    · subst ho
      obtain ⟨x, hx1, hx2⟩ := mid_loop_spec s stk hs.ctx.frames_ok
      rw [hmids] at hx1
      cases Option.some.inj hx1
      have hpn : mid_between_prv_nxt s stk = some (mid_between_prv stk, (mo, mn)) := hx2
      simp only [ne_eq, not_true_eq_false, if_false, hpn, Option.some_bind, hmo1,
        get_entry_eq a0 hs.hm (le_refl _) (by omega)]
      cases hlo : lo1 with
      | none =>
        have e0 : s0 = s := c9 (Or.inr hlo)
        subst e0
        simp only [c11 hlo, not_true_eq_false, if_false, Option.some_bind,
          shift_eq a0 hs.hm hn0 hn2]
        exact r1
      | some l =>
        obtain ⟨pmo, pmn, pnm, e1, e2, e3, e4, e5, e6⟩ := c10 rfl l hlo
        have hpmo : ¬ pmo = -1 := by omega
        simp only [e1, hpmo, not_false_eq_true, if_true, set_key_eq' e2 e3 e4 e5,
          Option.some_bind, ← e6, shift_eq a0 hs0.hm hn0 hn2]
        exact r1
    · have e0 : s0 = s := c9 (Or.inl ho)
      subst e0
      simp only [ne_eq, ho, not_false_eq_true, if_true, hmids, Option.some_bind, hmo1,
        if_false, excise_right_eq a0 hs.hm (by have := hs.h0; omega) hs.h1 hn2]
      exact r1
  have he : Ext s0 t := Ext.of_stat r6 r7
  have hmem : ∀ b, b ≠ a → b ≠ n.nxt → b ≠ mn → t.mem b = s0.mem b :=
    fun b h1 h2 h3 => (r5 b h1 h2 h3).trans (wr_mem_of_ne _ h1)
  have hAX : Agree s0 t (X1.map Prod.snd) := fun b hb =>
    hmem b (ne_of_mem_of_not_mem hb aX) (ne_of_mem_of_not_mem hb xX)
      (fun h => (dX b hb).1 (h ▸ m2))
  have hAY : Agree s0 t (Y2.map Prod.snd) := fun b hb =>
    hmem b (ne_of_mem_of_not_mem hb aY2) (ne_of_mem_of_not_mem hb xY2)
      (fun h => dY b hb (h ▸ m2))
  have hfin : WF cmp t ∧ tree_entries t = contents s0
      ((level_below s0 d (cut_level s0 X1 (cut_lo lo1 n off) n off Y1)).map Prod.snd) := by
    refine @cut_commit cmp s0 t stk a off d U1 X1 Y1 X1
      (set_hi (Nx.entries (L + 1 - n.nkey - 1)).key Y1) (cut_lo lo1 n off) (cut_lo lo1 n off) n
      hs0 he r6 ?_ ?_ ?_ ?_ ?_
    · refine (m9 _).frame (Ext.of_stat r6 r7) (by rw [r6]; rfl) ?_
      intro b hb
      by_cases hbm : b = mn
      · rw [hbm, r4, wr_mem_same]
      · rw [hmem b (ne_of_mem_of_not_mem hb aU) (ne_of_mem_of_not_mem hb xU) hbm,
          wr_mem_of_ne _ hbm]
    · refine InnerOK.of_map_snd (by rw [hY]; simp [set_hi]) (InnerOK.relink he ?_ hs0.ok)
      intro b hb nb hnb
      by_cases hba : b = a
      · rw [hba] at hnb ⊢
        rw [hs0.hm] at hnb; cases Option.some.inj hnb
        exact ⟨A, r2, g2.trans (cut_prv _ _), g3.trans (cut_nxt _ _), by rw [g1]; exact har.1,
          by rw [g1, hmn, b1, ← hmin]; exact har.2.1, by rw [g1, b1]; exact har.2.2.1⟩
      · by_cases hbx : b = n.nxt
        · rw [hbx] at hnb ⊢
          rw [hmx0] at hnb; cases Option.some.inj hnb
          exact ⟨X, r3, g5, g6, by rw [g4]; exact har.2.2.2.1,
            by rw [g4, hmn, b1, ← hmin]; exact har.2.2.2.2.1,
            by rw [g4, b1]; exact har.2.2.2.2.2.1⟩
        · have hbU : b ∉ U1 := fun h => (List.nodup_append.mp hnd).2.2 h hb
          obtain ⟨q, hq, rfl⟩ := List.mem_map.mp hb
          obtain ⟨-, -, nq, hnq, k1, k2, k3⟩ := hs0.ok.1 q hq
          rw [hnb] at hnq; cases Option.some.inj hnq
          exact ⟨nb, (hmem _ hba hbx (fun h => hbU (h ▸ m2))).trans hnb, rfl, rfl, k1, k2, k3⟩
    · rw [hY]; simp [set_hi]
    · rw [hY, hln]
      simp only [set_hi, Option.map_some']
      rw [expand_append, expand_cons_of_mem r2, expand_cons_of_mem r3, expand_congr hAX,
        expand_congr hAY, ← List.append_assoc (node_pairs _ A), hlay]
      unfold cut_level
      rw [expand_cons_of_mem hmx0, cut_lo_idem]
      simp only [List.append_assoc]
    · intro b hb
      refine hmem b (fun h => aT (h ▸ hb)) ?_ (fun h => UT mn m2 (h ▸ hb))
      intro h
      refine (List.nodup_append.mp hs0.nd).2.2 ?_ hb
      rw [h, hY]; simp
  refine ⟨t, hrun, by rw [r8, wr_alloc, b3], hfin.1, ?_⟩
  rw [hfin.2, hT, hcont]

/-! ## `bpt_delete_ientry`: the node merged into the previous one -/

theorem merge_prv_run {s : State} {a prv pa : Int} {n P n2 : bpt_node} {off poff : Int}
    (ha : a ≠ 0) (hp0 : prv ≠ 0) (hpa0 : pa ≠ 0) (hap : a ≠ prv) (hpap : pa ≠ prv)
    (hma : s.mem a = some n) (hmp : s.mem prv = some P) (hm2 : s.mem pa = some n2)
    (hmin : n.nkey = s.bstat.new_inter_nkey) (hpk : P.nkey = n.nkey) (h1 : 1 ≤ n.nkey)
    (hoff : 0 ≤ off ∧ off ≤ n.nkey) (hord : 2 * n.nkey ≤ s.bstat.order)
    (hpoff : 1 ≤ poff ∧ poff ≤ n2.nkey) (hn2 : n2.nkey ≤ s.bstat.order)
    (hx : n.nxt ≠ 0 → ∃ Nx, s.mem n.nxt = some Nx) (hxa : n.nxt ≠ a) (hxp : n.nxt ≠ prv) :
    ∃ t Q, delete_ientry_merge_prv s ⟨a, off⟩ ⟨pa, poff⟩ prv n.nxt = some t ∧
      t.mem prv = some Q ∧ t.mem a = none ∧
      (∀ Nx, n.nxt ≠ 0 → s.mem n.nxt = some Nx → t.mem n.nxt = some { Nx with prv := prv }) ∧
      (∀ b, b ≠ a → b ≠ prv → b ≠ n.nxt → t.mem b = s.mem b) ∧
      t.bstat = s.bstat ∧ t.brk = s.brk ∧ t.alloc = s.alloc ∧
      Q.nkey = n.nkey + n.nkey ∧ Q.prv = P.prv ∧ Q.nxt = n.nxt ∧
      (∀ i, 0 ≤ i → i < n.nkey → (Q.entries i).key = (P.entries i).key) ∧
      (∀ i, 0 ≤ i → i ≤ n.nkey → (Q.entries i).val = (P.entries i).val) ∧
      (Q.entries n.nkey).key =
        (if off = 0 then (n.entries 0).key else (n2.entries (poff - 1)).key) ∧
      (∀ i, 0 ≤ i → i < n.nkey - 1 → (Q.entries (n.nkey + 1 + i)).key =
        if i + 1 < off then (n.entries i).key else (n.entries (i + 1)).key) ∧
      (∀ i, 0 ≤ i → i < n.nkey → (Q.entries (n.nkey + 1 + i)).val =
        if i < off then (n.entries i).val else (n.entries (i + 1)).val) := by
  unfold delete_ientry_merge_prv
  simp only [← hmin, Option.bind_eq_bind]
  rw [get_entry_eq ha hma hoff.1 (by omega)]
  simp only [Option.some_bind]
  rw [memcpy_eq (n.nkey + 1) 0 off hp0 hmp ha hma (by omega) (fun _ => by omega) hap.symm]
  simp only [Option.some_bind]
  rw [memcpy_eq (n.nkey + 1 + off) (off + 1) (n.nkey - off) hp0 (wr_mem_same _ _ _) ha
    ((wr_mem_of_ne _ hap).trans hma) (by omega) (fun _ => by simp only [wr_bstat]; omega)
    hap.symm]
  simp only [Option.some_bind, wr_wr]
  rw [get_entry_eq hpa0 ((wr_mem_of_ne _ hpap).trans hm2) (by omega)
    (by simp only [wr_bstat]; omega)]
  simp only [Option.some_bind]
  rw [set_key_eq' hp0 (wr_mem_same _ _ _) (by omega) (by simp only [wr_bstat]; omega)]
  simp only [Option.some_bind, wr_wr]
  rw [set_key_eq' hp0 (wr_mem_same _ _ _) (by omega) (by simp only [wr_bstat]; omega)]
  simp only [Option.some_bind, wr_wr]
  rw [set_nkey_eq hp0 (wr_mem_same _ _ _)]
  simp only [Option.some_bind, wr_wr]
  rw [set_nxt_eq hp0 (wr_mem_same _ _ _)]
  simp only [Option.some_bind, wr_wr]
  obtain ⟨Q, hQ⟩ : ∃ Q : bpt_node, Q = { ({ (with_key (with_key
      { ({ P with entries := moved P n (n.nkey + 1) 0 off } : bpt_node) with
        entries := moved { P with entries := moved P n (n.nkey + 1) 0 off } n
          (n.nkey + 1 + off) (off + 1) (n.nkey - off) }
      n.nkey (n2.entries (poff - 1)).key) (n.nkey + off) (n.entries off).key) with
      nkey := n.nkey + n.nkey } : bpt_node) with nxt := n.nxt } := ⟨_, rfl⟩
  rw [← hQ]
  obtain ⟨s7, k1, k2, k3, k4, k5, k6⟩ := link_prv_run (wr s prv Q) n.nxt prv (fun h => by
    obtain ⟨Nx, hNx⟩ := hx h
    exact ⟨Nx, (wr_mem_of_ne _ hxp).trans hNx⟩)
  rw [k1]
  have hs7a : s7.mem a = some n := by
    rw [k5 a hxa.symm, wr_mem_of_ne _ hap]; exact hma
  rw [node_delete_eq ha hs7a]
  refine ⟨_, Q, rfl, ?_, ?_, ?_, ?_, k2, k3, k4, ?_, ?_, ?_, ?_, ?_, ?_, ?_, ?_⟩
  · show Function.update s7.mem a none prv = some Q
    rw [Function.update_noteq hap.symm, k5 prv hxp.symm, wr_mem_same]
  · show Function.update s7.mem a none a = none
    rw [Function.update_same]
  · intro Nx h0 hNx
    show Function.update s7.mem a none n.nxt = _
    rw [Function.update_noteq hxa, k6 Nx h0 ((wr_mem_of_ne _ hxp).trans hNx)]
  · intro b b1 b2 b3
    show Function.update s7.mem a none b = _
    rw [Function.update_noteq b1, k5 b b3, wr_mem_of_ne _ b2]
  · rw [hQ]
  · rw [hQ]; rfl
  · rw [hQ]
  · intro i i0 i1
    rw [hQ]
    simp only [with_key_key, moved]
    split_ifs <;> first | rfl | omega | (congr 2 <;> omega)
  · intro i i0 i1
    rw [hQ]
    simp only [with_key_val, moved]
    split_ifs <;> first | rfl | omega | (congr 2 <;> omega)
  · rw [hQ]
    simp only [with_key_key, moved]
    split_ifs <;> first | rfl | omega | (congr 2 <;> omega)
  · intro i i0 i1
    rw [hQ]
    simp only [with_key_key, moved]
    split_ifs <;> first | rfl | omega | (congr 2 <;> omega)
  · intro i i0 i1
    rw [hQ]
    simp only [with_key_val, moved]
    split_ifs <;> first | rfl | omega | (congr 2 <;> omega)

/-- The children of the previous node after the merge are its children
followed by those of the node of the frame without the released child. -/
theorem merge_layout (lp : Option bpt_t) {n P Q : bpt_node} {off : Int} {l : bpt_t}
    (h1 : 1 ≤ n.nkey) (hoff : 0 ≤ off) (hP : 0 ≤ P.nkey)
    (g1 : Q.nkey = P.nkey + n.nkey)
    (p1 : ∀ i, 0 ≤ i → i < P.nkey → (Q.entries i).key = (P.entries i).key)
    (p2 : ∀ i, 0 ≤ i → i ≤ P.nkey → (Q.entries i).val = (P.entries i).val)
    (p3 : (Q.entries P.nkey).key = l)
    (p4 : ∀ i, 0 ≤ i → i < n.nkey - 1 → (Q.entries (P.nkey + 1 + i)).key =
      if i + 1 < off then (n.entries i).key else (n.entries (i + 1)).key)
    (p5 : ∀ i, 0 ≤ i → i < n.nkey → (Q.entries (P.nkey + 1 + i)).val =
      if i < off then (n.entries i).val else (n.entries (i + 1)).val) :
    node_pairs lp Q = node_pairs lp P ++ node_pairs (some l) (cut n off) := by
  obtain ⟨c, hc⟩ : ∃ c : Nat, (c : Int) = n.nkey - 1 := ⟨(n.nkey - 1).toNat, by omega⟩
  have hA : node_pairs lp Q =
      node_pairs lp P ++ (node_pairs (some l) (cut n off)).take (c + 1) := by
    apply pairs_glue_left
    · exact hP
    · rw [cut_nkey]; omega
    · omega
    · exact p1
    · exact p2
    · exact p3
    · intro i i0 i1
      rw [cut_key hoff i0 (by omega)]
      exact p4 i i0 (by omega)
    · intro i i0 i1
      rw [cut_val hoff i0 (by omega)]
      exact p5 i i0 (by omega)
  rw [hA, List.take_of_length_le]
  rw [length_node_pairs, cut_nkey]
  omega

theorem sublist_drop_mid {α : Type} (A X Y N : List α) (p a : α) :
    List.Sublist ((A ++ (X ++ p :: Y)) ++ N) ((A ++ (X ++ p :: a :: Y)) ++ N) :=
  ((List.Sublist.refl A).append
    ((List.Sublist.refl X).append ((List.sublist_cons_self a Y).cons₂ p))).append
    (List.Sublist.refl N)

theorem ientry_merge_prv_spec {cmp : bpt_t → bpt_t → Int} {s : State} {stk : gen_stk}
    {a off pa poff : Int} {d : Nat} {U1 : List Int} {X1 Y1 : List Item} {lo1 : Option bpt_t}
    {n P : bpt_node} (hs : CutSit cmp s (⟨pa, poff⟩ :: stk) a off d U1 X1 lo1 Y1 n)
    (hmin : n.nkey = s.bstat.new_inter_nkey) (hpoff : poff ≠ 0)
    (hmp : s.mem n.prv = some P) (hpk : P.nkey = s.bstat.new_inter_nkey) :
    ∃ t, delete_ientry_merge_prv s ⟨a, off⟩ ⟨pa, poff⟩ n.prv n.nxt = some t ∧
      t.alloc = s.alloc ∧
      ∃ U2 X2 lo2 Y2 n2, CutSit cmp t stk pa poff (d + 1) U2 X2 lo2 Y2 n2 ∧
        contents t ((level_below t (d + 1) (cut_level t X2 lo2 n2 poff Y2)).map Prod.snd) =
          contents s ((level_below s d (cut_level s X1 lo1 n off Y1)).map Prod.snd) := by
  obtain ⟨a0, hn0, hn1, hn2, hn3, aU, aX, aY, aT, UT, hnd⟩ := hs.facts
  obtain ⟨U2, X2, lo2, Y2, n2, hc2, hm2, hok2, hnd2, q0, q1, eU, eX, elo, ea, eY⟩ := hs.ctx.of_cons
  simp only at hc2 hm2 hok2 hnd2 q0 q1 eU eX elo ea eY
  have hord : 2 * n.nkey ≤ s.bstat.order := by
    have := (params_arith hs.hp).2.1; have := (params_arith hs.hp).2.2.2.1; omega
  have hq1 : 1 ≤ poff := by omega
  obtain ⟨pa0, -, -, -, -, -, hn2o, -⟩ := focus_facts hok2
  have hn2o' : n2.nkey ≤ s.bstat.order := by
    obtain ⟨-, -, m, hm, -, -, h3, -⟩ := focus_facts hok2
    rw [hm2] at hm; cases Option.some.inj hm; exact h3
  have hX1 : X1 ≠ [] := by
    intro h
    have := congrArg List.length (eX.symm.trans h)
    simp [length_node_pairs] at this
    omega
  have hprv : n.prv ≠ 0 := fun h => hX1 ((prev_facts hs.ok hs.hm).1.mp h)
  obtain ⟨X0, lp, hX, hpok⟩ := (prev_facts hs.ok hs.hm).2 hprv
  obtain ⟨p0, -, P1, hP1, hp1, -, hp3⟩ := hpok
  rw [hmp] at hP1; cases Option.some.inj hP1
  have hlo : lo1 = some (n2.entries (poff - 1)).key := by rw [elo, if_neg hpoff]
  have hnd3 : (U1 ++ (X0 ++ (lp, n.prv) :: (lo1, a) :: Y1).map Prod.snd).Nodup := by
    rw [hX] at hnd; simpa using hnd
  obtain ⟨hpa, pU, -, pX, aX0, pY, -, dX, dY, ndY, -⟩ := nodup_pair hnd3
  have hpaU : pa ∈ U1 := by rw [eU]; simp
  have hpap : pa ≠ n.prv := ne_of_mem_of_not_mem hpaU pU
  obtain ⟨-, -, n1, hm1, -, -, -, -, hnx, -, -⟩ := focus_facts hs.ok
  rw [hs.hm] at hm1; cases Option.some.inj hm1
  have hxY : n.nxt ≠ 0 → n.nxt ∈ Y1.map Prod.snd := by
    intro h
    obtain ⟨ln, Y3, hY3, -⟩ := (next_facts hs.ok hs.hm).2 h
    rw [hY3]; simp
  have hxa : n.nxt ≠ a := by
    by_cases h : n.nxt = 0
    · rw [h]; exact a0.symm
    · exact ne_of_mem_of_not_mem (hxY h) aY
  have hxp : n.nxt ≠ n.prv := by
    by_cases h : n.nxt = 0
    · rw [h]; exact hprv.symm
    · exact ne_of_mem_of_not_mem (hxY h) pY
  have hxU : n.nxt ≠ 0 → n.nxt ∉ U1 := fun h => dY _ (hxY h)
  obtain ⟨t, Q, r1, r2, r3, r4, r5, r6, r7, r8, g1, g2, g3, p1, p2, p3, p4, p5⟩ :=
    @merge_prv_run s a n.prv pa n P n2 off poff a0 p0 pa0 hpa.symm hpap hs.hm hmp hm2 hmin
      (by rw [hpk, hmin]) hn3 ⟨hs.h0, hs.h1⟩ hord ⟨hq1, q1⟩ hn2o'
      (fun h => by
        obtain ⟨ln, Y3, -, -, -, Nx, hNx, -⟩ := (next_facts hs.ok hs.hm).2 h
        exact ⟨Nx, hNx⟩) hxa hxp
  have he : Ext s t := Ext.of_stat r6 r7
  have hmn : min_inner s (({ node := pa, offset := poff } : bpt_frm) :: stk).isEmpty =
      s.bstat.new_inter_nkey := rfl
  have hAU : Agree s t U1 := by
    intro b hb
    refine r5 b (ne_of_mem_of_not_mem hb aU) (ne_of_mem_of_not_mem hb pU) ?_
    intro h
    by_cases h0 : n.nxt = 0
    · exact (hc2.frame (Ext.of_stat rfl rfl) rfl (fun _ _ => rfl) |> fun _ =>
        (hs.ctx.upper_bound b hb).1) (h.trans h0)
    · exact hxU h0 (h ▸ hb)
  have hok1 := hs.ok
  rw [hX, hmn] at hok1
  have hok1' : InnerOK s s.bstat.new_inter_nkey (X0 ++ (lp, n.prv) :: (lo1, a) :: Y1) := by
    simpa using hok1
  obtain ⟨u1, u2, u3⟩ := @unlink_frame s t s.bstat.new_inter_nkey s.bstat.new_inter_nkey X0 Y1
    lp lp lo1 n.prv a P n Q hok1' hmp hs.hm he (List.nodup_append.mp hnd3).2.1 r2 g2 g3
    ⟨by rw [g1]; omega, by rw [g1, ← hmin]; omega, by rw [g1]; omega⟩ (le_refl _)
    (fun ny h0 hny => r4 ny h0 hny)
    (fun b hb hbx => r5 b
      (by
        intro h
        simp only [List.map_append, List.mem_append] at hb
        rcases hb with hb | hb
        · exact aX0 (h ▸ hb)
        · exact aY (h ▸ hb))
      (by
        intro h
        simp only [List.map_append, List.mem_append] at hb
        rcases hb with hb | hb
        · exact pX (h ▸ hb)
        · exact pY (h ▸ hb)) hbx)
  have hkey : cut_lo lo1 n off =
      some (if off = 0 then (n.entries 0).key else (n2.entries (poff - 1)).key) := by
    rw [hlo]; unfold cut_lo; split_ifs <;> rfl
  have hlay := @merge_layout lp n P Q off
    (if off = 0 then (n.entries 0).key else (n2.entries (poff - 1)).key) hn3 hs.h0 hp1
    (by rw [g1, hpk, hmin])
    (fun i i0 i1 => p1 i i0 (by rw [hpk, ← hmin] at i1; exact i1))
    (fun i i0 i1 => p2 i i0 (by rw [hpk, ← hmin] at i1; exact i1))
    (by rw [hpk, ← hmin]; exact p3)
    (fun i i0 i1 => by rw [hpk, ← hmin]; exact p4 i i0 i1)
    (fun i i0 i1 => by rw [hpk, ← hmin]; exact p5 i i0 i1)
  have hA2 : Agree s t ((X2 ++ (lo2, pa) :: Y2).map Prod.snd) :=
    fun b hb => hAU b (by rw [eU]; exact List.mem_append_right _ hb)
  have hA2X : Agree s t (X2.map Prod.snd) :=
    fun b hb => hA2 b (by simp only [List.map_append, List.mem_append]; exact Or.inl hb)
  have hA2Y : Agree s t (Y2.map Prod.snd) :=
    fun b hb => hA2 b (by
      simp only [List.map_append, List.map_cons, List.mem_append, List.mem_cons]
      exact Or.inr (Or.inr hb))
  have hmt2 : t.mem pa = some n2 := (hAU pa hpaU).trans hm2
  have hT1 : cut_level t X2 lo2 n2 poff Y2 = X0 ++ (lp, n.prv) :: Y1 := by
    unfold cut_level
    rw [expand_congr hA2X, expand_congr hA2Y, cut_pairs_pos lo2 hq1 q1, List.append_assoc,
      ← List.append_assoc (expand s X2), ← eX, ← eY, hX]
    simp
  have hT2 : expand t (X0 ++ (lp, n.prv) :: Y1) = cut_level s X1 lo1 n off Y1 := by
    rw [expand_append, expand_cons_of_mem r2, expand_congr u2, expand_alike u3, hlay]
    unfold cut_level
    rw [hX, expand_append, expand_cons_of_mem hmp, hkey]
    simp only [expand, List.append_nil, List.append_assoc]
  have hAT : Agree s t (nodes_below s d (cut_level s X1 lo1 n off Y1)) := by
    intro b hb
    have hbl : b ∉ (X1 ++ (lo1, a) :: Y1).map Prod.snd := fun h =>
      (List.nodup_append.mp hs.nd).2.2 (List.mem_append_right _ h) hb
    refine r5 b (fun h => aT (h ▸ hb)) ?_ ?_
    · intro h; apply hbl; rw [h, hX]; simp
    · intro h
      by_cases h0 : n.nxt = 0
      · exact (Below.bound d hs.below b hb).1 (h.trans h0)
      · apply hbl
        rw [h]
        simp only [List.map_append, List.map_cons, List.mem_append, List.mem_cons]
        exact Or.inr (Or.inr (hxY h0))
  obtain ⟨f1, f2, f3, f4⟩ := lower_frame he hAT hs.below
  refine ⟨t, r1, r8, U2, X2, lo2, Y2, n2, ?_, ?_⟩
  · refine ⟨hs.hc, by rw [r6]; exact hs.hp, by rw [r7]; exact hs.hb, ?_, hmt2, ?_, q0, q1, ?_,
      ?_, ?_⟩
    · exact hc2.frame he (by rw [r6]) (fun b hb => hAU b (by rw [eU]; exact List.mem_append_left _ hb))
    · rw [min_inner_congr he]
      exact InnerOK.congr_inner he hA2 (le_refl _) hok2
    · have := hs.len
      simp only [List.length_cons] at this
      rw [r6]; omega
    · show InnerOK t (min_inner t false) _ ∧ Below t cmp false d (expand t _)
      rw [hT1, hT2]
      refine ⟨?_, f1⟩
      have : min_inner t false = s.bstat.new_inter_nkey := by
        simp only [min_inner, Bool.false_eq_true, if_false, r6]
      rw [this]; exact u1
    · show ((U2 ++ (X2 ++ (lo2, pa) :: Y2).map Prod.snd) ++
        ((cut_level t X2 lo2 n2 poff Y2).map Prod.snd ++
          nodes_below t d (expand t (cut_level t X2 lo2 n2 poff Y2)))).Nodup
      rw [hT1, hT2, f2, ← eU]
      have hold := hs.nd
      rw [hX] at hold
      simp only [List.map_append, List.map_cons, List.map_nil, List.append_assoc,
        List.singleton_append] at hold ⊢
      have := sublist_drop_mid U1 (X0.map Prod.snd) (Y1.map Prod.snd)
        (nodes_below s d (cut_level s (X0 ++ [(lp, n.prv)]) lo1 n off Y1)) n.prv a
      simp only [List.append_assoc] at this
      rw [hX]
      exact hold.sublist this
  · show contents t ((level_below t d (expand t (cut_level t X2 lo2 n2 poff Y2))).map Prod.snd) = _
    rw [hT1, hT2, f3, f4]

/-! ## `bpt_delete_ientry`: the next node merged into the node of the frame -/

theorem CutSit.of_same {cmp : bpt_t → bpt_t → Int} {s t : State} {stk : gen_stk} {a off : Int}
    {d : Nat} {U1 : List Int} {X1 Y1 : List Item} {lo1 : Option bpt_t} {n : bpt_node}
    (h : SameTree s t) (hs : CutSit cmp s stk a off d U1 X1 lo1 Y1 n) :
    CutSit cmp t stk a off d U1 X1 lo1 Y1 n ∧
      cut_level t X1 lo1 n off Y1 = cut_level s X1 lo1 n off Y1 ∧
      contents t ((level_below t d (cut_level s X1 lo1 n off Y1)).map Prod.snd) =
        contents s ((level_below s d (cut_level s X1 lo1 n off Y1)).map Prod.snd) := by
  have hT : cut_level t X1 lo1 n off Y1 = cut_level s X1 lo1 n off Y1 := by
    unfold cut_level
    rw [h.expand_same, h.expand_same]
  refine ⟨⟨hs.hc, by rw [h.2.1]; exact hs.hp, by rw [h.2.2]; exact hs.hb, h.ctx hs.ctx,
    by rw [h.1]; exact hs.hm, ?_, hs.h0, hs.h1, by rw [h.2.1]; exact hs.len, ?_, ?_⟩, hT, ?_⟩
  · rw [min_inner_congr h.ext]
    exact InnerOK.congr_inner h.ext (h.agree _) (le_refl _) hs.ok
  · rw [hT]; exact h.below hs.below
  · rw [hT, h.nodes_same]; exact hs.nd
  · rw [level_below_congr d (h.agree _), contents_congr (h.agree _)]

/-- The second part of `delete_ientry_merge_nxt`, from the first `memmove`
on: `B` is the node of the frame as the first part left it. -/
theorem merge_nxt_run2 {s1 : State} {a nxt pa : Int} {n B Nx n2 : bpt_node} {off poff mi : Int}
    (ha : a ≠ 0) (hx : nxt ≠ 0) (hpa0 : pa ≠ 0) (hax : a ≠ nxt) (hpaa : pa ≠ a)
    (hma : s1.mem a = some B) (hmx : s1.mem nxt = some Nx) (hm2 : s1.mem pa = some n2)
    (h1 : 1 ≤ mi) (hxk : Nx.nkey = mi) (hoff : 0 ≤ off ∧ off ≤ mi)
    (hord : 2 * mi ≤ s1.bstat.order) (hpoff : 0 ≤ poff ∧ poff ≤ s1.bstat.order)
    (hBv : ∀ j, (B.entries j).val = (n.entries j).val)
    (hBk : ∀ j, j ≠ off - 1 → (B.entries j).key = (n.entries j).key)
    (hBo : off ≠ 0 → (B.entries (off - 1)).key = (n.entries off).key)
    (hnn : Nx.nxt ≠ 0 → ∃ ny, s1.mem Nx.nxt = some ny) (hnna : Nx.nxt ≠ a)
    (hnnx : Nx.nxt ≠ nxt) :
    ∃ t A, (do
        let s1' ← memmove s1 a off a (off + 1) (mi - off)
        let s2 ← memcpy s1' a mi nxt 0 (mi + 1)
        let pe ← get_entry s2 pa poff
        let s3 ← set_key s2 a (mi - 1) pe.key
        let s4 ← bpt_node_set_nkey s3 a (mi + mi)
        let nxt_nxt ← bpt_node_nxt s4 nxt
        let s5 ← bpt_node_set_nxt s4 a nxt_nxt
        let s6 ← if nxt_nxt ≠ 0 then bpt_node_set_prv s5 nxt_nxt a else some s5
        let s7 ← bpt_node_delete s6 nxt
        some (true, s7)) = some (true, t) ∧
      t.mem a = some A ∧ t.mem nxt = none ∧
      (∀ ny, Nx.nxt ≠ 0 → s1.mem Nx.nxt = some ny → t.mem Nx.nxt = some { ny with prv := a }) ∧
      (∀ b, b ≠ a → b ≠ nxt → b ≠ Nx.nxt → t.mem b = s1.mem b) ∧
      t.bstat = s1.bstat ∧ t.brk = s1.brk ∧ t.alloc = s1.alloc ∧
      A.nkey = mi + mi ∧ A.prv = B.prv ∧ A.nxt = Nx.nxt ∧
      (∀ i, 0 ≤ i → i < mi → (A.entries i).val =
        if i < off then (n.entries i).val else (n.entries (i + 1)).val) ∧
      (∀ i, 0 ≤ i → i < mi - 1 → (A.entries i).key =
        if i + 1 < off then (n.entries i).key else (n.entries (i + 1)).key) ∧
      (A.entries (mi - 1)).key = (n2.entries poff).key ∧
      (∀ j, 0 ≤ j → j ≤ mi → A.entries (mi + j) = Nx.entries j) := by
  simp only [bind, Option.bind_eq_bind]
  rw [memmove_eq off (off + 1) (mi - off) ha hma ha hma (by omega) (fun _ => by omega)]
  simp only [Option.some_bind]
  rw [memcpy_eq mi 0 (mi + 1) ha (wr_mem_same _ _ _) hx ((wr_mem_of_ne _ hax.symm).trans hmx)
    (by omega) (fun _ => by simp only [wr_bstat]; omega) hax]
  simp only [Option.some_bind, wr_wr]
  rw [get_entry_eq hpa0 ((wr_mem_of_ne _ hpaa).trans hm2) hpoff.1 hpoff.2]
  simp only [Option.some_bind]
  rw [set_key_eq' ha (wr_mem_same _ _ _) (by omega) (by simp only [wr_bstat]; omega)]
  simp only [Option.some_bind, wr_wr]
  rw [set_nkey_eq ha (wr_mem_same _ _ _)]
  simp only [Option.some_bind, wr_wr]
  rw [nxt_eq hx ((wr_mem_of_ne _ hax.symm).trans hmx)]
  simp only [Option.some_bind]
  rw [set_nxt_eq ha (wr_mem_same _ _ _)]
  simp only [Option.some_bind, wr_wr]
  obtain ⟨A, hA⟩ : ∃ A : bpt_node, A = { ({ (with_key
      { ({ B with entries := moved B B off (off + 1) (mi - off) } : bpt_node) with
        entries := moved { B with entries := moved B B off (off + 1) (mi - off) } Nx mi 0
          (mi + 1) }
      (mi - 1) (n2.entries poff).key) with nkey := mi + mi } : bpt_node) with
      nxt := Nx.nxt } := ⟨_, rfl⟩
  rw [← hA]
  obtain ⟨s6, k1, k2, k3, k4, k5, k6⟩ := link_prv_run (wr s1 a A) Nx.nxt a (fun h => by
    obtain ⟨ny, hny⟩ := hnn h
    exact ⟨ny, (wr_mem_of_ne _ hnna).trans hny⟩)
  rw [k1]
  have hs6x : s6.mem nxt = some Nx := by
    rw [k5 nxt hnnx.symm, wr_mem_of_ne _ hax.symm]; exact hmx
  rw [node_delete_eq hx hs6x]
  refine ⟨_, A, rfl, ?_, ?_, ?_, ?_, k2, k3, k4, ?_, ?_, ?_, ?_, ?_, ?_, ?_⟩
  · show Function.update s6.mem nxt none a = some A
    rw [Function.update_noteq hax, k5 a hnna.symm, wr_mem_same]
  · show Function.update s6.mem nxt none nxt = none
    rw [Function.update_same]
  · intro ny h0 hny
    show Function.update s6.mem nxt none Nx.nxt = _
    rw [Function.update_noteq hnnx, k6 ny h0 ((wr_mem_of_ne _ hnna).trans hny)]
  · intro b b1 b2 b3
    show Function.update s6.mem nxt none b = _
    rw [Function.update_noteq b2, k5 b b3, wr_mem_of_ne _ b1]
  · rw [hA]
  · rw [hA]; rfl
  · rw [hA]
  · intro i i0 i1
    rw [hA]
    simp only [with_key_val, moved]
    rw [if_neg (by omega)]
    by_cases c1 : off ≤ i ∧ i < off + (mi - off)
    · rw [if_pos c1, if_neg (by omega), hBv]
      congr 2; omega
    · rw [if_neg c1, if_pos (by omega), hBv]
  · intro i i0 i1
    rw [hA]
    simp only [with_key_key, moved]
    rw [if_neg (by omega), if_neg (by omega)]
    by_cases c1 : off ≤ i ∧ i < off + (mi - off)
    · rw [if_pos c1, if_neg (by omega), hBk _ (by omega)]
      congr 2; omega
    · rw [if_neg c1]
      by_cases c2 : i = off - 1
      · have ho : off ≠ 0 := by omega
        rw [c2, hBo ho, if_neg (by omega)]
        congr 2; omega
      · rw [hBk _ c2, if_pos (by omega)]
  · rw [hA]
    simp only [with_key_key, if_true]
  · intro j j0 j1
    rw [hA]
    have e1 : ¬ (mi + j = mi - 1) := by omega
    simp only [with_key, Function.update_apply, moved, e1, if_false]
    rw [if_pos (by omega)]
    congr 1; omega

theorem merge_nxt_layout (lo : Option bpt_t) {n Nx A : bpt_node} {off mi : Int} {h : bpt_t}
    (h1 : 1 ≤ mi) (hn : n.nkey = mi) (hxk : Nx.nkey = mi) (hoff : 0 ≤ off)
    (g1 : A.nkey = mi + mi)
    (a1 : ∀ i, 0 ≤ i → i < mi → (A.entries i).val =
      if i < off then (n.entries i).val else (n.entries (i + 1)).val)
    (a2 : ∀ i, 0 ≤ i → i < mi - 1 → (A.entries i).key =
      if i + 1 < off then (n.entries i).key else (n.entries (i + 1)).key)
    (a3 : (A.entries (mi - 1)).key = h)
    (a4 : ∀ j, 0 ≤ j → j ≤ mi → A.entries (mi + j) = Nx.entries j) :
    node_pairs lo A = node_pairs lo (cut n off) ++ node_pairs (some h) Nx := by
  obtain ⟨c, hc⟩ : ∃ c : Nat, (c : Int) = mi := ⟨mi.toNat, by omega⟩
  have hA : node_pairs lo A =
      node_pairs lo (cut n off) ++ (node_pairs (some h) Nx).take (c + 1) := by
    apply pairs_glue_left
    · rw [cut_nkey]; omega
    · omega
    · rw [cut_nkey]; omega
    · intro i i0 i1
      rw [cut_nkey] at i1
      rw [cut_key hoff i0 (by omega)]
      exact a2 i i0 (by omega)
    · intro i i0 i1
      rw [cut_nkey] at i1
      rw [cut_val hoff i0 (by omega)]
      exact a1 i i0 (by omega)
    · rw [cut_nkey, hn]; exact a3
    · intro i i0 i1
      have e : (cut n off).nkey + 1 + i = mi + i := by rw [cut_nkey]; omega
      rw [e, a4 i i0 (by omega)]
    · intro i i0 i1
      have e : (cut n off).nkey + 1 + i = mi + i := by rw [cut_nkey]; omega
      rw [e, a4 i i0 (by omega)]
  rw [hA, List.take_of_length_le]
  rw [length_node_pairs]
  omega

theorem min_inner_pos {s : State} (hp : ParamsOK s.bstat) (b : Bool) : 1 ≤ min_inner s b := by
  unfold min_inner
  split_ifs
  · exact le_refl _
  · exact (params_arith hp).2.2.1

theorem pairs_first_two (lo : Option bpt_t) (n : bpt_node) (h : 1 ≤ n.nkey) :
    (node_pairs lo n).take 1 = [(lo, (n.entries 0).val)] ∧
      (node_pairs lo n).drop 1 =
        (some (n.entries 0).key, (n.entries 1).val) :: (node_pairs lo n).drop 2 := by
  have h1 := @pairs_split lo n 0 (le_refl _) (by omega)
  have h2 := @pairs_split lo n 1 (by omega) h
  obtain ⟨x, L, hL⟩ : ∃ x L, node_pairs lo n = x :: L := by
    cases hq : node_pairs lo n with
    | nil =>
      have := length_node_pairs lo n
      rw [hq] at this; simp at this
    | cons x L => exact ⟨x, L, rfl⟩
  rw [hL] at h1 h2 ⊢
  simp at h1 h2 ⊢
  exact ⟨h1.symm, h2.symm⟩

theorem parent_cut_one {s : State} {X2 Y2 X1 Y1 : List Item} {lo2 lo1 : Option bpt_t}
    {n2 : bpt_node} {a : Int} (h1 : 1 ≤ n2.nkey) (eX : X1 = expand s X2) (elo : lo1 = lo2)
    (ea : a = (n2.entries 0).val) (eY : Y1 = (node_pairs lo2 n2).drop 1 ++ expand s Y2) :
    ∃ Y3, Y1 = (some (n2.entries 0).key, (n2.entries 1).val) :: Y3 ∧
      expand s X2 ++ (node_pairs (cut_lo lo2 n2 1) (cut n2 1) ++ expand s Y2) =
        X1 ++ (lo1, a) :: Y3 := by
  obtain ⟨p1, p2⟩ := pairs_first_two lo2 n2 h1
  refine ⟨(node_pairs lo2 n2).drop 2 ++ expand s Y2, ?_, ?_⟩
  · rw [eY, p2]; rfl
  · rw [cut_pairs_pos lo2 (le_refl _) h1, eX, elo, ea]
    have : (1 : Int).toNat = 1 := rfl
    rw [this, p1]
    simp

/-- The merge of the next node into the node of the frame, from the first
`memmove` on: the parent's frame moves to child 1, which is released. -/
theorem ientry_merge_nxt_main {cmp : bpt_t → bpt_t → Int} {s0 s1 : State} {stk : gen_stk}
    {a off pa mi : Int} {d : Nat} {U1 : List Int} {X1 Y1 : List Item} {lo1 : Option bpt_t}
    {n B Nx : bpt_node} (hs : CutSit cmp s0 (⟨pa, 0⟩ :: stk) a off d U1 X1 lo1 Y1 n)
    (hlo : cut_lo lo1 n off = lo1) (hmi : mi = s0.bstat.new_inter_nkey)
    (hmin : n.nkey = mi) (hmx : s0.mem n.nxt = some Nx) (hxk : Nx.nkey = mi)
    (hma : s1.mem a = some B) (hoth : ∀ b, b ≠ a → s1.mem b = s0.mem b)
    (hbs : s1.bstat = s0.bstat) (hbrk : s1.brk = s0.brk) (hal : s1.alloc = s0.alloc)
    (hBv : ∀ j, (B.entries j).val = (n.entries j).val)
    (hBk : ∀ j, j ≠ off - 1 → (B.entries j).key = (n.entries j).key)
    (hBo : off ≠ 0 → (B.entries (off - 1)).key = (n.entries off).key)
    (hBp : B.prv = n.prv) :
    ∃ t, (do
        let s1' ← memmove s1 a off a (off + 1) (mi - off)
        let s2 ← memcpy s1' a mi n.nxt 0 (mi + 1)
        let pe ← get_entry s2 pa 0
        let s3 ← set_key s2 a (mi - 1) pe.key
        let s4 ← bpt_node_set_nkey s3 a (mi + mi)
        let nxt_nxt ← bpt_node_nxt s4 n.nxt
        let s5 ← bpt_node_set_nxt s4 a nxt_nxt
        let s6 ← if nxt_nxt ≠ 0 then bpt_node_set_prv s5 nxt_nxt a else some s5
        let s7 ← bpt_node_delete s6 n.nxt
        some (true, s7)) = some (true, t) ∧
      t.alloc = s0.alloc ∧
      ∃ U2 X2 lo2 Y2 n2, CutSit cmp t stk pa 1 (d + 1) U2 X2 lo2 Y2 n2 ∧
        contents t ((level_below t (d + 1) (cut_level t X2 lo2 n2 1 Y2)).map Prod.snd) =
          contents s0 ((level_below s0 d (cut_level s0 X1 lo1 n off Y1)).map Prod.snd) := by
  obtain ⟨a0, hn0, hn1, hn2, hn3, aU, aX, aY, aT, UT, hnd⟩ := hs.facts
  obtain ⟨U2, X2, lo2, Y2, n2, hc2, hm2, hok2, hnd2, q0, q1, eU, eX, elo, ea, eY⟩ := hs.ctx.of_cons
  simp only at hc2 hm2 hok2 hnd2 q0 q1 eU eX elo ea eY
  have hord : 2 * mi ≤ s1.bstat.order := by
    rw [hbs, hmi]
    have := (params_arith hs.hp).2.1; have := (params_arith hs.hp).2.2.2.1; omega
  obtain ⟨pa0, -, n2', hm2', -, hn2m, hn2o, -⟩ := focus_facts hok2
  rw [hm2] at hm2'; cases Option.some.inj hm2'
  have hq1 : 1 ≤ n2.nkey := le_trans (min_inner_pos hs.hp _) hn2m
  obtain ⟨Y3, hY, hT0⟩ := @parent_cut_one s0 X2 Y2 X1 Y1 lo2 lo1 n2 a hq1 (by simpa using eX)
    (by simpa using elo) ea (by simpa using eY)
  obtain ⟨-, -, n1, hm1, -, -, -, -, hnx, -, -⟩ := focus_facts hs.ok
  rw [hs.hm] at hm1; cases Option.some.inj hm1
  have hnxt : n.nxt = (n2.entries 1).val := by rw [hnx, hY]; rfl
  have hY' : Y1 = (some (n2.entries 0).key, n.nxt) :: Y3 := by rw [hnxt]; exact hY
  have hnd3 : (U1 ++ (X1 ++ (lo1, a) :: (some (n2.entries 0).key, n.nxt) :: Y3).map
      Prod.snd).Nodup := by rw [← hY']; exact hnd
  obtain ⟨hax, -, xU, -, xX, aY3, xY, dX, dY, ndY, -⟩ := nodup_pair hnd3
  have hpaU : pa ∈ U1 := by rw [eU]; simp
  have hpaa : pa ≠ a := ne_of_mem_of_not_mem hpaU aU
  have hpax : pa ≠ n.nxt := ne_of_mem_of_not_mem hpaU xU
  have hok1 : InnerOK s0 s0.bstat.new_inter_nkey
      (X1 ++ (lo1, a) :: (some (n2.entries 0).key, n.nxt) :: Y3) := by
    have := hs.ok
    rw [hY'] at this
    exact this
  have hok1' : InnerOK s0 s0.bstat.new_inter_nkey
      ((X1 ++ [(lo1, a)]) ++ (some (n2.entries 0).key, n.nxt) :: Y3) := by
    simpa using hok1
  obtain ⟨x0, -, -⟩ := focus_facts hok1'
  have hxY : Nx.nxt ≠ 0 → Nx.nxt ∈ Y3.map Prod.snd := by
    intro h
    obtain ⟨ln, Y4, hY4, -⟩ := (next_facts hok1' hmx).2 h
    rw [hY4]; simp
  have hnna : Nx.nxt ≠ a := by
    by_cases h : Nx.nxt = 0
    · rw [h]; exact a0.symm
    · exact ne_of_mem_of_not_mem (hxY h) aY3
  have hnnx : Nx.nxt ≠ n.nxt := by
    by_cases h : Nx.nxt = 0
    · rw [h]; exact x0.symm
    · exact ne_of_mem_of_not_mem (hxY h) xY
  obtain ⟨t, A, r1, r2, r3, r4, r5, r6, r7, r8, g1, g2, g3, p1, p2, p3, p4⟩ :=
    @merge_nxt_run2 s1 a n.nxt pa n B Nx n2 off 0 mi a0 x0 pa0 hax hpaa hma
      ((hoth _ hax.symm).trans hmx) ((hoth _ hpaa).trans hm2) (by rw [← hmin]; exact hn3) hxk
      ⟨hs.h0, by rw [← hmin]; exact hs.h1⟩ hord
      ⟨le_refl _, by rw [hbs]; exact le_trans hn0 hn2⟩ hBv hBk hBo
      (fun h => by
        obtain ⟨ln, Y4, -, -, -, Ny, hNy, -⟩ := (next_facts hok1' hmx).2 h
        exact ⟨Ny, (hoth _ hnna).trans hNy⟩) hnna hnnx
  have he : Ext s0 t := Ext.of_stat (r6.trans hbs) (r7.trans hbrk)
  have hbs' : t.bstat = s0.bstat := r6.trans hbs
  have hAU : Agree s0 t U1 := by
    intro b hb
    refine (r5 b (ne_of_mem_of_not_mem hb aU) (ne_of_mem_of_not_mem hb xU) ?_).trans
      (hoth _ (ne_of_mem_of_not_mem hb aU))
    intro h
    by_cases h0 : Nx.nxt = 0
    · exact (hs.ctx.upper_bound b hb).1 (h.trans h0)
    · exact dY _ (hxY h0) (h ▸ hb)
  obtain ⟨u1, u2, u3⟩ := @unlink_frame s0 t s0.bstat.new_inter_nkey s0.bstat.new_inter_nkey X1 Y3
    lo1 lo1 (some (n2.entries 0).key) a n.nxt n Nx A hok1 hs.hm hmx he
    (List.nodup_append.mp hnd3).2.1 r2 (g2.trans hBp) g3
    ⟨by rw [g1]; omega, by rw [g1, ← hmi]; omega, by rw [g1, ← hbs]; omega⟩ (le_refl _)
    (fun ny h0 hny => r4 ny h0 ((hoth _ hnna).trans hny))
    (fun b hb hbx => by
      have b1 : b ≠ a := by
        intro h
        simp only [List.map_append, List.mem_append] at hb
        rcases hb with hb | hb
        · exact aX (h ▸ hb)
        · exact aY3 (h ▸ hb)
      have b2 : b ≠ n.nxt := by
        intro h
        simp only [List.map_append, List.mem_append] at hb
        rcases hb with hb | hb
        · exact xX (h ▸ hb)
        · exact xY (h ▸ hb)
      exact (r5 b b1 b2 hbx).trans (hoth _ b1))
  have hlay := @merge_nxt_layout lo1 n Nx A off mi (n2.entries 0).key (by rw [← hmin]; exact hn3)
    hmin hxk hs.h0 g1 p1 p2 p3 p4
  have hA2 : Agree s0 t ((X2 ++ (lo2, pa) :: Y2).map Prod.snd) :=
    fun b hb => hAU b (by rw [eU]; exact List.mem_append_right _ hb)
  have hA2X : Agree s0 t (X2.map Prod.snd) :=
    fun b hb => hA2 b (by simp only [List.map_append, List.mem_append]; exact Or.inl hb)
  have hA2Y : Agree s0 t (Y2.map Prod.snd) :=
    fun b hb => hA2 b (by
      simp only [List.map_append, List.map_cons, List.mem_append, List.mem_cons]
      exact Or.inr (Or.inr hb))
  have hmt2 : t.mem pa = some n2 := (hAU pa hpaU).trans hm2
  have hT1 : cut_level t X2 lo2 n2 1 Y2 = X1 ++ (lo1, a) :: Y3 := by
    unfold cut_level
    rw [expand_congr hA2X, expand_congr hA2Y]
    exact hT0
  have hT2 : expand t (X1 ++ (lo1, a) :: Y3) = cut_level s0 X1 lo1 n off Y1 := by
    rw [expand_append, expand_cons_of_mem r2, expand_congr u2, expand_alike u3, hlay]
    unfold cut_level
    rw [hY', expand_cons_of_mem hmx, hlo]
    simp only [List.append_assoc]
  have hAT : Agree s0 t (nodes_below s0 d (cut_level s0 X1 lo1 n off Y1)) := by
    intro b hb
    have hbl : b ∉ (X1 ++ (lo1, a) :: Y1).map Prod.snd := fun h =>
      (List.nodup_append.mp hs.nd).2.2 (List.mem_append_right _ h) hb
    have b1 : b ≠ a := fun h => aT (h ▸ hb)
    refine (r5 b b1 ?_ ?_).trans (hoth _ b1)
    · intro h; apply hbl; rw [h, hY']; simp
    · intro h
      by_cases h0 : Nx.nxt = 0
      · exact (Below.bound d hs.below b hb).1 (h.trans h0)
      · apply hbl
        rw [h, hY']
        simp only [List.map_append, List.map_cons, List.mem_append, List.mem_cons]
        exact Or.inr (Or.inr (Or.inr (hxY h0)))
  obtain ⟨f1, f2, f3, f4⟩ := lower_frame he hAT hs.below
  refine ⟨t, r1, r8.trans hal, U2, X2, lo2, Y2, n2, ?_, ?_⟩
  · refine ⟨hs.hc, by rw [hbs']; exact hs.hp, by rw [r7, hbrk]; exact hs.hb, ?_, hmt2, ?_,
      by omega, hq1, ?_, ?_, ?_⟩
    · exact hc2.frame he (by rw [hbs'])
        (fun b hb => hAU b (by rw [eU]; exact List.mem_append_left _ hb))
    · rw [min_inner_congr he]
      exact InnerOK.congr_inner he hA2 (le_refl _) hok2
    · have := hs.len
      simp only [List.length_cons] at this
      rw [hbs']; omega
    · show InnerOK t (min_inner t false) _ ∧ Below t cmp false d (expand t _)
      rw [hT1, hT2]
      refine ⟨?_, f1⟩
      have : min_inner t false = s0.bstat.new_inter_nkey := by
        simp only [min_inner, Bool.false_eq_true, if_false, hbs']
      rw [this]; exact u1
    · show ((U2 ++ (X2 ++ (lo2, pa) :: Y2).map Prod.snd) ++
        ((cut_level t X2 lo2 n2 1 Y2).map Prod.snd ++
          nodes_below t d (expand t (cut_level t X2 lo2 n2 1 Y2)))).Nodup
      rw [hT1, hT2, f2, ← eU]
      have hold := hs.nd
      rw [hY'] at hold
      simp only [List.map_append, List.map_cons, List.map_nil, List.append_assoc,
        List.singleton_append] at hold ⊢
      have := sublist_drop_mid U1 (X1.map Prod.snd) (Y3.map Prod.snd)
        (nodes_below s0 d (cut_level s0 X1 lo1 n off ((some (n2.entries 0).key, n.nxt) :: Y3)))
        a n.nxt
      simp only [List.append_assoc] at this
      rw [hY']
      exact hold.sublist this
  · show contents t ((level_below t d (expand t (cut_level t X2 lo2 n2 1 Y2))).map Prod.snd) = _
    rw [hT1, hT2, f3, f4]

theorem expand_eq_nil {s : State} {mn : Int} {X Y : List Item} (hi : InnerOK s mn (X ++ Y))
    (h : expand s X = []) : X = [] := by
  cases X with
  | nil => rfl
  | cons p r =>
    obtain ⟨-, -, m, hm, -⟩ := hi.1 p (by simp)
    have h1 := congrArg List.length h
    simp only [expand, hm, List.length_append, length_node_pairs, List.length_nil] at h1
    omega

/-- The node in focus is the first of its level exactly when no separator
stands on its left. -/
theorem Ctx.first_iff {s : State} {stk : gen_stk} {U : List Int} {X Y : List Item}
    {lo : Option bpt_t} {a : Int} (hc : Ctx s stk U X lo a Y) : X = [] ↔ lo = none := by
  induction hc with
  | root => exact ⟨fun _ => rfl, fun _ => rfl⟩
  | @step stk U X lo a Y n off _ hm hi hnd h0 h1 ih =>
    by_cases ho : off = 0
    · subst ho
      simp only [Int.toNat_zero, List.take_zero, List.append_nil, if_true]
      exact ⟨fun h => ih.mp (expand_eq_nil hi h), fun h => by rw [ih.mpr h]; rfl⟩
    · rw [if_neg ho]
      refine ⟨fun h => ?_, fun h => by cases h⟩
      have h2 := congrArg List.length h
      simp only [List.length_append, List.length_take, length_node_pairs, List.length_nil] at h2
      omega

theorem CutSit.first_child {cmp : bpt_t → bpt_t → Int} {s : State} {stk : gen_stk}
    {a off pa : Int} {d : Nat} {U1 : List Int} {X1 Y1 : List Item} {lo1 : Option bpt_t}
    {n : bpt_node} (hs : CutSit cmp s (⟨pa, 0⟩ :: stk) a off d U1 X1 lo1 Y1 n) :
    n.nxt ≠ 0 ∧ n.nxt ∉ U1 ∧ ∃ Nx, s.mem n.nxt = some Nx := by
  obtain ⟨a0, hn0, hn1, hn2, hn3, aU, aX, aY, aT, UT, hnd⟩ := hs.facts
  obtain ⟨U2, X2, lo2, Y2, n2, hc2, hm2, hok2, hnd2, q0, q1, eU, eX, elo, ea, eY⟩ := hs.ctx.of_cons
  simp only at hc2 hm2 hok2 hnd2 q0 q1 eU eX elo ea eY
  obtain ⟨pa0, -, n2', hm2', -, hn2m, hn2o, -⟩ := focus_facts hok2
  rw [hm2] at hm2'; cases Option.some.inj hm2'
  have hq1 : 1 ≤ n2.nkey := le_trans (min_inner_pos hs.hp _) hn2m
  obtain ⟨Y3, hY, -⟩ := @parent_cut_one s X2 Y2 X1 Y1 lo2 lo1 n2 a hq1 (by simpa using eX)
    (by simpa using elo) ea (by simpa using eY)
  have hne : n.nxt ≠ 0 := fun h => by
    have := (next_facts hs.ok hs.hm).1.mp h
    rw [hY] at this; cases this
  obtain ⟨ln, Y4, hY4, -, -, Nx, hNx, -⟩ := (next_facts hs.ok hs.hm).2 hne
  have hnd3 : (U1 ++ (X1 ++ (lo1, a) :: (ln, n.nxt) :: Y4).map Prod.snd).Nodup := by
    rw [← hY4]; exact hnd
  exact ⟨hne, (nodup_pair hnd3).2.2.1, Nx, hNx⟩

theorem CutSit.later_child {cmp : bpt_t → bpt_t → Int} {s : State} {stk : gen_stk}
    {a off pa poff : Int} {d : Nat} {U1 : List Int} {X1 Y1 : List Item} {lo1 : Option bpt_t}
    {n : bpt_node} (hs : CutSit cmp s (⟨pa, poff⟩ :: stk) a off d U1 X1 lo1 Y1 n)
    (hpoff : poff ≠ 0) : n.prv ≠ 0 ∧ ∃ P, s.mem n.prv = some P := by
  have hlo : lo1 ≠ none := by
    obtain ⟨U2, X2, lo2, Y2, n2, -, -, -, -, -, -, -, -, elo, -, -⟩ := hs.ctx.of_cons
    simp only at elo
    rw [elo, if_neg hpoff]
    exact fun h => by cases h
  have hX1 : X1 ≠ [] := fun h => hlo (hs.ctx.first_iff.mp h)
  have hprv : n.prv ≠ 0 := fun h => hX1 ((prev_facts hs.ok hs.hm).1.mp h)
  obtain ⟨X0, lp, -, -, -, P, hP, -⟩ := (prev_facts hs.ok hs.hm).2 hprv
  exact ⟨hprv, P, hP⟩

/-- The branch of `bpt_delete_ientry` merging the next node into the node of
the frame (the parent's frame is at child 0): either the copy of the journal
could not be allocated, or the parent's frame, moved to child 1, is the next
round's. -/
theorem ientry_merge_nxt_spec {cmp : bpt_t → bpt_t → Int} {s : State} {stk : gen_stk}
    {a off pa : Int} {d : Nat} {U1 : List Int} {X1 Y1 : List Item} {lo1 : Option bpt_t}
    {n Nx : bpt_node} (hs : CutSit cmp s (⟨pa, 0⟩ :: stk) a off d U1 X1 lo1 Y1 n)
    (hmin : n.nkey = s.bstat.new_inter_nkey)
    (hmx : s.mem n.nxt = some Nx) (hxk : Nx.nkey = s.bstat.new_inter_nkey) :
    ∃ r, delete_ientry_merge_nxt s ⟨a, off⟩ ⟨pa, 0⟩ n.prv n.nxt stk = some r ∧
      (s.alloc = [] → r.2.alloc = []) ∧ (r.1 = false → s.alloc ≠ []) ∧
      (r.1 = true → ∃ U2 X2 lo2 Y2 n2, CutSit cmp r.2 stk pa 1 (d + 1) U2 X2 lo2 Y2 n2 ∧
        contents r.2 ((level_below r.2 (d + 1) (cut_level r.2 X2 lo2 n2 1 Y2)).map Prod.snd) =
          contents s ((level_below s d (cut_level s X1 lo1 n off Y1)).map Prod.snd)) := by
  obtain ⟨a0, hn0, hn1, hn2, hn3, aU, aX, aY, aT, UT, hnd⟩ := hs.facts
  obtain ⟨hx0, hxU, -⟩ := hs.first_child
  by_cases ho : off = 0
  · subst ho
    by_cases hprv : n.prv = 0
    · have hlo : lo1 = none := hs.ctx.first_iff.mp ((prev_facts hs.ok hs.hm).1.mp hprv)
      obtain ⟨t, r1, r2, r3⟩ := @ientry_merge_nxt_main cmp s s stk a 0 pa s.bstat.new_inter_nkey
        d U1 X1 Y1 lo1 n n Nx hs (cut_lo_eq lo1 n (Or.inr hlo)) rfl hmin hmx hxk hs.hm
        (fun _ _ => rfl) rfl rfl rfl (fun _ => rfl) (fun _ _ => rfl) (fun h => absurd rfl h) rfl
      refine ⟨(true, t), ?_, fun h => r2.trans h, (fun h => absurd h (by simp)), fun _ => r3⟩
      unfold delete_ientry_merge_nxt
      simp only [ne_eq, not_true_eq_false, if_false, hprv, Option.bind_eq_bind, Option.some_bind,
        Bool.true_eq_false]
      exact r1
    · cases stk with
      | nil =>
        exfalso
        obtain ⟨U2, X2, lo2, Y2, n2, hc2, -, -, -, -, -, -, -, elo, -, -⟩ := hs.ctx.of_cons
        simp only [if_true] at hc2 elo
        have hX1 : X1 ≠ [] := fun h => hprv ((prev_facts hs.ok hs.hm).1.mpr h)
        apply hX1
        rw [hs.ctx.first_iff, elo]
        exact hc2.of_nil.2.2.1
      | cons f stk =>
        by_cases hal : (alloc_request s).1 = true
        · obtain ⟨hs1, hT1, hcont1⟩ := CutSit.of_same (alloc_request_same s) hs
          obtain ⟨s0, hs0, hT, hcont, b1, b2, b3, b4, b5, c9, c10, c11⟩ := hs1.prep
          have hX1 : X1 ≠ [] := fun h => hprv ((prev_facts hs.ok hs.hm).1.mpr h)
          obtain ⟨l, hl⟩ : ∃ l, lo1 = some l := by
            cases hlo : lo1 with
            | none => exact absurd (hs.ctx.first_iff.mpr hlo) hX1
            | some l => exact ⟨l, rfl⟩
          obtain ⟨mo, mn, nm, e1, e2, e3, e4, e5, e6⟩ := c10 rfl l hl
          have e1' : mid_between_prv (f :: stk) = (mo, mn) := by
            rw [← e1]; simp [mid_between_prv]
          have hmo : ¬ mo = -1 := by omega
          have hst := alloc_request_same s
          obtain ⟨t, r1, r2, r3⟩ := @ientry_merge_nxt_main cmp s0 s0 (f :: stk) a 0 pa
            s.bstat.new_inter_nkey d U1 X1 Y1 (cut_lo lo1 n 0) n n Nx hs0 (cut_lo_idem lo1 n 0)
            (by rw [b1, hst.2.1]) hmin (by rw [b4 _ hxU, hst.1]; exact hmx) hxk hs0.hm
            (fun _ _ => rfl) rfl rfl rfl (fun _ => rfl) (fun _ _ => rfl) (fun h => absurd rfl h)
            rfl
          refine ⟨(true, t), ?_, fun h => ?_, (fun h => absurd h (by simp)), fun _ => ?_⟩
          · unfold delete_ientry_merge_nxt
            simp only [ne_eq, not_true_eq_false, if_false, hprv, not_false_eq_true, if_true,
              gen_stk_empty, List.isEmpty_cons, Bool.false_eq_true, gen_stk_copy, hal, e1', hmo,
              Option.bind_eq_bind, get_entry_eq a0 hs1.hm (le_refl _) (le_trans hn0 (by
                rw [hst.2.1]; exact hn2)),
              Option.some_bind, set_key_eq' e2 e3 e4 e5, ← e6, Bool.true_eq_false]
            exact r1
          · show t.alloc = []
            rw [r2, b3]; exact alloc_request_alloc s h
          · obtain ⟨U2, X2, lo2, Y2, n2, k1, k2⟩ := r3
            refine ⟨U2, X2, lo2, Y2, n2, k1, ?_⟩
            show contents t _ = _
            rw [k2, hT, hcont, hT1, hcont1]
        · have hal' : (alloc_request s).1 = false := by simpa using hal
          refine ⟨(false, (alloc_request s).2), ?_, alloc_request_alloc s,
            fun _ => alloc_request_false hal', fun h => absurd h (by simp)⟩
          unfold delete_ientry_merge_nxt
          simp only [ne_eq, not_true_eq_false, if_false, hprv, not_false_eq_true, if_true,
            gen_stk_empty, List.isEmpty_cons, Bool.false_eq_true, gen_stk_copy, hal',
            Option.bind_eq_bind, Option.some_bind]
  · have hoff1 : 1 ≤ off := by have := hs.h0; omega
    obtain ⟨t, r1, r2, r3⟩ := @ientry_merge_nxt_main cmp s
      (wr s a (with_key n (off - 1) (n.entries off).key)) stk a off pa s.bstat.new_inter_nkey
      d U1 X1 Y1 lo1 n (with_key n (off - 1) (n.entries off).key) Nx hs
      (cut_lo_eq lo1 n (Or.inl ho)) rfl hmin hmx hxk (wr_mem_same _ _ _)
      (fun b hb => wr_mem_of_ne _ hb) rfl rfl rfl (fun _ => by simp only [with_key_val])
      (fun j hj => by rw [with_key_key, if_neg hj]) (fun _ => by rw [with_key_key, if_pos rfl])
      rfl
    refine ⟨(true, t), ?_, fun h => r2.trans h, (fun h => absurd h (by simp)), fun _ => r3⟩
    unfold delete_ientry_merge_nxt
    simp only [ne_eq, ho, not_false_eq_true, if_true, Option.bind_eq_bind,
      get_entry_eq a0 hs.hm hs.h0 (le_trans hs.h1 hn2), Option.some_bind,
      set_key_eq' a0 hs.hm (by omega : 0 ≤ off - 1) (by have := hs.h1; omega), Bool.true_eq_false,
      if_false]
    exact r1

/-- The round of `bpt_delete_ientry` on a node that has no key to spare, as a
choice between its four remaining branches. -/
theorem step_eval {s : State} {a off : Int} {n : bpt_node} (parent : bpt_frm) (stk : gen_stk)
    (a0 : a ≠ 0) (hm : s.mem a = some n) (pk xk : Int)
    (hp : n.prv ≠ 0 → bpt_node_nkey s n.prv = some pk)
    (hp0 : n.prv = 0 → pk = s.bstat.new_inter_nkey)
    (hx : n.nxt ≠ 0 → bpt_node_nkey s n.nxt = some xk)
    (hx0 : n.nxt = 0 → xk = s.bstat.new_inter_nkey)
    (hk : ¬ s.bstat.new_inter_nkey < n.nkey) :
    delete_ientry_step s ⟨a, off⟩ parent stk =
      if n.prv ≠ 0 ∧ pk ≠ s.bstat.new_inter_nkey then
        (delete_ientry_prv s ⟨a, off⟩ n.prv pk (parent :: stk)).bind
          fun s1 => some (Sum.inl (BPT_PRED_SUCCESS, s1))
      else if n.nxt ≠ 0 ∧ xk ≠ s.bstat.new_inter_nkey then
        (delete_ientry_nxt s ⟨a, off⟩ n.nxt xk (parent :: stk)).bind
          fun s1 => some (Sum.inl (BPT_PRED_SUCCESS, s1))
      else if parent.offset ≠ 0 then
        (delete_ientry_merge_prv s ⟨a, off⟩ parent n.prv n.nxt).bind
          fun s1 => some (Sum.inr (parent, s1))
      else
        (delete_ientry_merge_nxt s ⟨a, off⟩ parent n.prv n.nxt stk).bind
          fun r => if r.1 = false then some (Sum.inl (BPT_ERROR, r.2))
            else some (Sum.inr (⟨parent.node, parent.offset + 1⟩, r.2)) := by
  unfold delete_ientry_step
  simp only [Option.bind_eq_bind, nkey_eq a0 hm, Option.some_bind, gt_iff_lt, hk, if_false,
    prv_eq a0 hm, nxt_eq a0 hm]
  by_cases h1 : n.prv = 0
  · have e1 := hp0 h1
    subst e1
    by_cases h2 : n.nxt = 0
    · have e2 := hx0 h2
      subst e2
      simp only [h1, h2, ne_eq, not_true_eq_false, if_false, Option.some_bind, false_and]
    · simp only [h1, h2, ne_eq, not_true_eq_false, not_false_eq_true, if_true, if_false,
        Option.some_bind, false_and, true_and, hx h2]
  · by_cases h2 : n.nxt = 0
    · have e2 := hx0 h2
      subst e2
      simp only [h1, h2, ne_eq, not_true_eq_false, not_false_eq_true, if_true, if_false,
        Option.some_bind, false_and, true_and, hp h1]
    · simp only [h1, h2, ne_eq, not_true_eq_false, not_false_eq_true, if_true, if_false,
        Option.some_bind, false_and, true_and, hp h1, hx h2]

/-- The loop of `bpt_delete_ientry` from a frame whose child was released:
it returns; it fails only when the allocator refuses the copy of the journal;
and otherwise the tree is well formed and holds the entries of the levels
below. -/
theorem ientry_loop_spec {cmp : bpt_t → bpt_t → Int} (stk : gen_stk) :
    ∀ {s : State} {a off : Int} {d : Nat} {U1 : List Int} {X1 Y1 : List Item}
      {lo1 : Option bpt_t} {n : bpt_node}, CutSit cmp s stk a off d U1 X1 lo1 Y1 n →
      ∃ r t, bpt_delete_ientry_loop stk ⟨a, off⟩ s = some (r, t) ∧
        (s.alloc = [] → t.alloc = []) ∧ (r = BPT_ERROR → s.alloc ≠ []) ∧
        (r ≠ BPT_ERROR → r = BPT_PRED_SUCCESS ∧ WF cmp t ∧ tree_entries t =
          contents s ((level_below s d (cut_level s X1 lo1 n off Y1)).map Prod.snd)) := by
  induction stk with
  | nil =>
    intro s a off d U1 X1 Y1 lo1 n hs
    obtain ⟨t, h1, h2, h3, h4⟩ := ientry_root_spec hs
    exact ⟨_, t, h1, fun h => h2.trans h, (fun h => by cases h), fun _ => ⟨rfl, h3, h4⟩⟩
  | cons parent stk ih =>
    intro s a off d U1 X1 Y1 lo1 n hs
    obtain ⟨pa, poff⟩ := parent
    obtain ⟨a0, hn0, hn1, hn2, hn3, aU, aX, aY, aT, UT, hnd⟩ := hs.facts
    have hne : (({ node := pa, offset := poff } : bpt_frm) :: stk) ≠ [] := by simp
    have hmn := hs.min_eq hne
    rw [hmn] at hn1
    rw [bpt_delete_ientry_loop]
    by_cases hk : s.bstat.new_inter_nkey < n.nkey
    · obtain ⟨t, h1, h2, h3, h4⟩ := ientry_surplus_spec hs hne hk
      have hstep : delete_ientry_step s ⟨a, off⟩ ⟨pa, poff⟩ stk =
          some (Sum.inl (BPT_PRED_SUCCESS, t)) := by
        unfold delete_ientry_step
        simp only [Option.bind_eq_bind, nkey_eq a0 hs.hm, Option.some_bind, gt_iff_lt, hk,
          if_true, h1]
      rw [hstep]
      exact ⟨_, t, rfl, fun h => h2.trans h, (fun h => by cases h), fun _ => ⟨rfl, h3, h4⟩⟩
    · have hmin : n.nkey = s.bstat.new_inter_nkey := le_antisymm (not_lt.mp hk) hn1
      obtain ⟨pk, hp, hp0, hpP⟩ : ∃ pk, (n.prv ≠ 0 → bpt_node_nkey s n.prv = some pk) ∧
          (n.prv = 0 → pk = s.bstat.new_inter_nkey) ∧
          (n.prv ≠ 0 → ∃ P, s.mem n.prv = some P ∧ P.nkey = pk) := by
        by_cases h : n.prv = 0
        · exact ⟨_, fun h1 => absurd h h1, fun _ => rfl, fun h1 => absurd h h1⟩
        · obtain ⟨X0, lp, -, p0, -, P, hP, -⟩ := (prev_facts hs.ok hs.hm).2 h
          exact ⟨P.nkey, fun _ => nkey_eq p0 hP, fun h1 => absurd h1 h, fun _ => ⟨P, hP, rfl⟩⟩
      obtain ⟨xk, hx, hx0, hxP⟩ : ∃ xk, (n.nxt ≠ 0 → bpt_node_nkey s n.nxt = some xk) ∧
          (n.nxt = 0 → xk = s.bstat.new_inter_nkey) ∧
          (n.nxt ≠ 0 → ∃ Nx, s.mem n.nxt = some Nx ∧ Nx.nkey = xk) := by
        by_cases h : n.nxt = 0
        · exact ⟨_, fun h1 => absurd h h1, fun _ => rfl, fun h1 => absurd h h1⟩
        · obtain ⟨ln, Y0, -, p0, -, Nx, hNx, -⟩ := (next_facts hs.ok hs.hm).2 h
          exact ⟨Nx.nkey, fun _ => nkey_eq p0 hNx, fun h1 => absurd h1 h, fun _ => ⟨Nx, hNx, rfl⟩⟩
      rw [step_eval ⟨pa, poff⟩ stk a0 hs.hm pk xk hp hp0 hx hx0 hk]
      by_cases c1 : n.prv ≠ 0 ∧ pk ≠ s.bstat.new_inter_nkey
      · obtain ⟨P, hP, rfl⟩ := hpP c1.1
        obtain ⟨t, h1, h2, h3, h4⟩ := ientry_prv_spec hs hne hmin c1.1 hP c1.2
        rw [if_pos c1, h1]
        exact ⟨_, t, rfl, fun h => h2.trans h, (fun h => by cases h), fun _ => ⟨rfl, h3, h4⟩⟩
      rw [if_neg c1]
      by_cases c2 : n.nxt ≠ 0 ∧ xk ≠ s.bstat.new_inter_nkey
      · obtain ⟨Nx, hNx, rfl⟩ := hxP c2.1
        obtain ⟨t, h1, h2, h3, h4⟩ := ientry_nxt_spec hs hne hmin c2.1 hNx c2.2
        rw [if_pos c2, h1]
        exact ⟨_, t, rfl, fun h => h2.trans h, (fun h => by cases h), fun _ => ⟨rfl, h3, h4⟩⟩
      rw [if_neg c2]
      by_cases c3 : poff ≠ 0
      · obtain ⟨hprv, -⟩ := hs.later_child c3
        obtain ⟨P, hP, rfl⟩ := hpP hprv
        have hpk : P.nkey = s.bstat.new_inter_nkey := by
          by_contra h; exact c1 ⟨hprv, h⟩
        obtain ⟨t, h1, h2, U2, X2, lo2, Y2, n2, h3, h4⟩ := ientry_merge_prv_spec hs hmin c3 hP hpk
        obtain ⟨r, t1, k1, k2, k3, k4⟩ := ih h3
        rw [if_pos c3, h1]
        refine ⟨r, t1, k1, fun h => k2 (h2.trans h), fun h => ?_, fun h => ?_⟩
        · rw [← h2]; exact k3 h
        · obtain ⟨k5, k6, k7⟩ := k4 h
          exact ⟨k5, k6, k7.trans h4⟩
      · have c3' : poff = 0 := not_not.mp c3
        subst c3'
        obtain ⟨hnxt, -, -⟩ := hs.first_child
        obtain ⟨Nx, hNx, rfl⟩ := hxP hnxt
        have hxk : Nx.nkey = s.bstat.new_inter_nkey := by
          by_contra h; exact c2 ⟨hnxt, h⟩
        obtain ⟨r, h1, h2, h3, h4⟩ := ientry_merge_nxt_spec hs hmin hNx hxk
        rw [if_neg c3, h1]
        obtain ⟨fl, t⟩ := r
        cases fl with
        | false =>
          exact ⟨BPT_ERROR, t, rfl, h2, fun _ => h3 rfl, fun h => absurd rfl h⟩
        | true =>
          obtain ⟨U2, X2, lo2, Y2, n2, h5, h6⟩ := h4 rfl
          obtain ⟨r, t1, k1, k2, k3, k4⟩ := ih h5
          refine ⟨r, t1, k1, fun h => k2 (h2 h), fun h => ?_, fun h => ?_⟩
          · exact fun h0 => k3 h (h2 h0)
          · obtain ⟨k5, k6, k7⟩ := k4 h
            exact ⟨k5, k6, k7.trans h6⟩

/-! ## `bpt_delete_entry`: entries of rebuilt leaves -/

theorem node_ents_ext {B : bpt_node} {L : List bpt_entry} (hl : (L.length : Int) = B.nkey)
    (h : ∀ i : Nat, i < L.length → L[i]? = some (B.entries i)) : node_ents B = L := by
  apply List.ext_getElem?
  intro i
  rw [getElem?_node_ents]
  by_cases hi : i < L.length
  · rw [if_pos (by omega), h i hi]
  · rw [if_neg (by omega), List.getElem?_eq_none (by omega)]

theorem ents_seg_get (n : bpt_node) {a c : Int} (i : Nat) (ha : 0 ≤ a) (h : a + c ≤ n.nkey)
    (hi : (i : Int) < c) :
    (((node_ents n).drop a.toNat).take c.toNat)[i]? = some (n.entries (a + i)) := by
  rw [List.getElem?_take_of_lt (by omega), List.getElem?_drop, getElem?_node_ents,
    if_pos (by omega)]
  congr 2
  omega

theorem ents_seg_length (n : bpt_node) {a c : Int} (ha : 0 ≤ a) (hc : 0 ≤ c)
    (h : a + c ≤ n.nkey) : (((node_ents n).drop a.toNat).take c.toNat).length = c.toNat := by
  rw [List.length_take, List.length_drop, length_node_ents]
  omega

/-- A node whose slots are three runs of slots of other nodes. -/
theorem ents_glue3 {B P Q R : bpt_node} {p q r cp cq cr : Int}
    (hp0 : 0 ≤ p) (hq0 : 0 ≤ q) (hr0 : 0 ≤ r) (hcp : 0 ≤ cp) (hcq : 0 ≤ cq) (hcr : 0 ≤ cr)
    (hB : B.nkey = cp + cq + cr) (hp : p + cp ≤ P.nkey) (hq : q + cq ≤ Q.nkey)
    (hr : r + cr ≤ R.nkey)
    (h1 : ∀ i, 0 ≤ i → i < cp → B.entries i = P.entries (p + i))
    (h2 : ∀ i, 0 ≤ i → i < cq → B.entries (cp + i) = Q.entries (q + i))
    (h3 : ∀ i, 0 ≤ i → i < cr → B.entries (cp + cq + i) = R.entries (r + i)) :
    node_ents B = ((node_ents P).drop p.toNat).take cp.toNat ++
      (((node_ents Q).drop q.toNat).take cq.toNat ++
        ((node_ents R).drop r.toNat).take cr.toNat) := by
  have l1 := ents_seg_length P hp0 hcp hp
  have l2 := ents_seg_length Q hq0 hcq hq
  have l3 := ents_seg_length R hr0 hcr hr
  apply node_ents_ext
  · simp only [List.length_append, l1, l2, l3]
    omega
  · intro i hi
    simp only [List.length_append, l1, l2, l3] at hi
    by_cases c1 : (i : Int) < cp
    · rw [List.getElem?_append_left (by rw [l1]; omega), ents_seg_get P i hp0 hp c1,
        h1 i (by omega) c1]
    · rw [List.getElem?_append_right (by rw [l1]; omega), l1]
      by_cases c2 : (i : Int) < cp + cq
      · rw [List.getElem?_append_left (by rw [l2]; omega),
          ents_seg_get Q (i - cp.toNat) hq0 hq (by omega)]
        have e : (i : Int) = cp + ((i - cp.toNat : Nat) : Int) := by omega
        conv_rhs => rw [e]
        rw [h2 _ (by omega) (by omega)]
      · rw [List.getElem?_append_right (by rw [l2]; omega), l2,
          ents_seg_get R (i - cp.toNat - cq.toNat) hr0 hr (by omega)]
        have e : (i : Int) = cp + cq + ((i - cp.toNat - cq.toNat : Nat) : Int) := by omega
        conv_rhs => rw [e]
        rw [h3 _ (by omega) (by omega)]

theorem ents_shrink (n : bpt_node) {c : Int} (h0 : 0 ≤ c) (h1 : c ≤ n.nkey) :
    node_ents { n with nkey := c } = (node_ents n).take c.toNat := by
  apply node_ents_ext
  · rw [List.length_take, length_node_ents]
    show ((min c.toNat n.nkey.toNat : Nat) : Int) = c
    omega
  · intro i hi
    rw [List.length_take, length_node_ents] at hi
    rw [List.getElem?_take_of_lt (by omega), getElem?_node_ents, if_pos (by omega)]

theorem seg_from_zero (l : List bpt_entry) (c : Nat) : (l.drop (0 : Int).toNat).take c = l.take c := by
  simp

theorem seg_to_end (n : bpt_node) {a c : Int} (ha : 0 ≤ a) (h : a + c = n.nkey) :
    ((node_ents n).drop a.toNat).take c.toNat = (node_ents n).drop a.toNat := by
  apply List.take_of_length_le
  rw [List.length_drop, length_node_ents]
  omega

/-! ## `bpt_delete_entry`: entries taken from the previous leaf -/

theorem leaf_grab_arith {mi pk ord R : Int} (h2 : 2 ≤ mi) (hlt : mi < pk) (hpo : pk ≤ ord)
    (hR : R = (mi - 1 + pk) / 2) :
    mi ≤ R ∧ R ≤ ord ∧ 0 ≤ mi - 1 + pk - R ∧ (mi - 1 + pk - R) + (R - (mi - 1)) = pk ∧
      mi ≤ mi - 1 + pk - R ∧ mi - 1 + pk - R ≤ ord ∧ 1 ≤ R - (mi - 1) ∧
      R - (mi - 1) ≤ pk := by
  omega

theorem leaf_grab_prv_run {s : State} {leaf prv : Int} {n P : bpt_node} {off mi L R : Int}
    (h0 : leaf ≠ 0) (hp0 : prv ≠ 0) (hne : leaf ≠ prv) (hm : s.mem leaf = some n)
    (hmp : s.mem prv = some P) (hoff : 0 ≤ off ∧ off < mi) (hR : mi ≤ R ∧ R ≤ s.bstat.order)
    (hL : 0 ≤ L ∧ L + (R - (mi - 1)) = P.nkey) (hP : P.nkey ≤ s.bstat.order) :
    ∃ S1 S2 S3 S4 T A,
      memmove s leaf (R - (mi - 1) + off) leaf (off + 1) (mi - 1 - off) = some S1 ∧
      memmove S1 leaf (R - (mi - 1)) leaf 0 off = some S2 ∧
      memcpy S2 leaf 0 prv L (R - (mi - 1)) = some S3 ∧
      bpt_node_set_nkey S3 prv L = some S4 ∧
      bpt_node_set_nkey S4 leaf R = some T ∧
      T.mem leaf = some A ∧ T.mem prv = some { P with nkey := L } ∧
      (∀ b, b ≠ leaf → b ≠ prv → T.mem b = s.mem b) ∧
      T.bstat = s.bstat ∧ T.brk = s.brk ∧ T.alloc = s.alloc ∧
      A.nkey = R ∧ A.prv = n.prv ∧ A.nxt = n.nxt ∧
      (∀ i, 0 ≤ i → i < R - (mi - 1) → A.entries i = P.entries (L + i)) ∧
      (∀ i, 0 ≤ i → i < off → A.entries (R - (mi - 1) + i) = n.entries (0 + i)) ∧
      (∀ i, 0 ≤ i → i < mi - 1 - off →
        A.entries (R - (mi - 1) + off + i) = n.entries (off + 1 + i)) := by
  obtain ⟨A1, hA1⟩ : ∃ A1 : bpt_node, A1 = { n with
    entries := moved n n (R - (mi - 1) + off) (off + 1) (mi - 1 - off) } := ⟨_, rfl⟩
  obtain ⟨A2, hA2⟩ : ∃ A2 : bpt_node, A2 = { A1 with
    entries := moved A1 A1 (R - (mi - 1)) 0 off } := ⟨_, rfl⟩
  obtain ⟨A3, hA3⟩ : ∃ A3 : bpt_node, A3 = { A2 with
    entries := moved A2 P 0 L (R - (mi - 1)) } := ⟨_, rfl⟩
  have e1 : memmove s leaf (R - (mi - 1) + off) leaf (off + 1) (mi - 1 - off) =
      some (wr s leaf A1) := by
    rw [hA1]
    exact memmove_eq _ _ _ h0 hm h0 hm (by omega) (fun _ => by omega)
  have e2 : memmove (wr s leaf A1) leaf (R - (mi - 1)) leaf 0 off = some (wr s leaf A2) := by
    rw [hA2, memmove_eq _ _ _ h0 (wr_mem_same s leaf A1) h0 (wr_mem_same s leaf A1) (by omega)
      (fun _ => by simp only [wr_bstat]; omega), wr_wr]
  have e3 : memcpy (wr s leaf A2) leaf 0 prv L (R - (mi - 1)) = some (wr s leaf A3) := by
    rw [hA3, memcpy_eq _ _ _ h0 (wr_mem_same s leaf A2) hp0
      ((wr_mem_of_ne _ hne.symm).trans hmp) (by omega)
      (fun _ => by simp only [wr_bstat]; omega) hne, wr_wr]
  have e4 : bpt_node_set_nkey (wr s leaf A3) prv L =
      some (wr (wr s leaf A3) prv { P with nkey := L }) :=
    set_nkey_eq hp0 ((wr_mem_of_ne _ hne.symm).trans hmp) L
  have e5 : bpt_node_set_nkey (wr (wr s leaf A3) prv { P with nkey := L }) leaf R =
      some (wr (wr (wr s leaf A3) prv { P with nkey := L }) leaf { A3 with nkey := R }) :=
    set_nkey_eq h0 ((wr_mem_of_ne _ hne).trans (wr_mem_same s leaf _)) R
  refine ⟨_, _, _, _, _, _, e1, e2, e3, e4, e5, wr_mem_same _ _ _, ?_, ?_, rfl, rfl, rfl, rfl,
    ?_, ?_, ?_, ?_, ?_⟩
  · rw [wr_mem_of_ne _ hne.symm, wr_mem_same]
  · intro b b1 b2
    rw [wr_mem_of_ne _ b1, wr_mem_of_ne _ b2, wr_mem_of_ne _ b1]
  · rw [hA3, hA2, hA1]
  · rw [hA3, hA2, hA1]
  · intro i i0 i1
    rw [hA3, hA2, hA1]
    simp only [moved]
    rw [if_pos (by omega)]
    congr 1; omega
  · intro i i0 i1
    rw [hA3, hA2, hA1]
    simp only [moved]
    rw [if_neg (by omega), if_pos (by omega), if_neg (by omega)]
    congr 1; omega
  · intro i i0 i1
    rw [hA3, hA2, hA1]
    simp only [moved]
    rw [if_neg (by omega), if_neg (by omega), if_pos (by omega)]
    congr 1; omega

theorem leaf_grab_prv_layout {n P A : bpt_node} {off mi L R : Int}
    (hn : n.nkey = mi) (hoff : 0 ≤ off ∧ off < mi) (hR : mi ≤ R)
    (hL : 0 ≤ L ∧ L + (R - (mi - 1)) = P.nkey) (g1 : A.nkey = R)
    (h1 : ∀ i, 0 ≤ i → i < R - (mi - 1) → A.entries i = P.entries (L + i))
    (h2 : ∀ i, 0 ≤ i → i < off → A.entries (R - (mi - 1) + i) = n.entries (0 + i))
    (h3 : ∀ i, 0 ≤ i → i < mi - 1 - off →
      A.entries (R - (mi - 1) + off + i) = n.entries (off + 1 + i)) :
    node_ents { P with nkey := L } ++ node_ents A =
      node_ents P ++ ((node_ents n).take off.toNat ++ (node_ents n).drop (off.toNat + 1)) := by
  have e := @ents_glue3 A P n n L 0 (off + 1) (R - (mi - 1)) off (mi - 1 - off) hL.1 (le_refl _)
    (by omega) (by omega) hoff.1 (by omega) (by omega) (by omega) (by omega) (by omega) h1 h2 h3
  have q : (off + 1).toNat = off.toNat + 1 := by omega
  rw [e, ents_shrink P hL.1 (by omega), seg_to_end P hL.1 hL.2, seg_from_zero,
    seg_to_end n (by omega) (by omega), q, ← List.append_assoc, List.take_append_drop]

theorem LeafSit.min_eq_leaf {cmp : bpt_t → bpt_t → Int} {t : State} {stk : gen_stk}
    {U : List Int} {X Y : List Item} {lo : Option bpt_t} {leaf : Int} {k : bpt_t}
    (_h : LeafSit cmp t stk U X lo leaf Y k) (hne : stk ≠ []) :
    min_leaf t stk.isEmpty = t.bstat.new_leaf_nkey := by
  cases stk with
  | nil => exact absurd rfl hne
  | cons _ _ => rfl

/-- The branch of `bpt_delete_entry` that takes entries from the previous
leaf. -/
theorem delete_entry_prv_spec {cmp : bpt_t → bpt_t → Int} {s : State} {stk : gen_stk}
    {U : List Int} {X Y : List Item} {lo : Option bpt_t} {leaf : Int} {k : bpt_t}
    {n P : bpt_node} {off : Int}
    (hs : LeafSit cmp s stk U X lo leaf Y k) (hm : s.mem leaf = some n) (h0 : 0 ≤ off)
    (h1 : off < n.nkey) (hmin : n.nkey = s.bstat.new_leaf_nkey) (hprv : n.prv ≠ 0)
    (hmp : s.mem n.prv = some P) (hpk : P.nkey ≠ s.bstat.new_leaf_nkey) :
    ∃ t, delete_entry_prv s leaf off n.prv P.nkey stk = some t ∧ WF cmp t ∧ t.alloc = s.alloc ∧
      tree_entries t = (contents s (X.map Prod.snd) ++ (node_ents n).take off.toNat) ++
        ((node_ents n).drop (off.toNat + 1) ++ contents s (Y.map Prod.snd)) := by
  obtain ⟨l0, lb, n1, hm1, hn0, hn1, hn2, -, -, -, -⟩ := hs.node
  rw [hm] at hm1; cases Option.some.inj hm1
  obtain ⟨lU, lX, lY⟩ := hs.notin
  obtain ⟨p3, -, -, -, -, p5, p6, p7, p8⟩ := params_arith hs.hp
  obtain ⟨X0, lp, hX, hpok⟩ := (prev_facts hs.ok.1 hm).2 hprv
  have hXne : X ≠ [] := by rw [hX]; simp
  have hne : stk ≠ [] := hs.stk_ne (Or.inl hXne)
  have hmn := hs.min_eq_leaf hne
  obtain ⟨pv0, -, P1, hP1, hp1, hp2, hp3⟩ := hpok
  rw [hmp] at hP1; cases Option.some.inj hP1
  rw [hmn] at hp2
  have hlt : s.bstat.new_leaf_nkey < P.nkey := lt_of_le_of_ne hp2 (Ne.symm hpk)
  obtain ⟨l, hlo⟩ : ∃ l, lo = some l := by
    cases hq : lo with
    | none => exact absurd (hs.ctx.first_iff.mpr hq) hXne
    | some l => exact ⟨l, rfl⟩
  have hnd3 : (U ++ (X0 ++ (lp, n.prv) :: (lo, leaf) :: Y).map Prod.snd).Nodup := by
    have := hs.nd
    rw [hX] at this; simpa using this
  obtain ⟨hpl, pU, -, pX, lX0, pY, -, dX, dY, ndY, -⟩ := nodup_pair hnd3
  obtain ⟨R, hRt⟩ : ∃ R, Int.tdiv (s.bstat.new_leaf_nkey - 1 + P.nkey) 2 = R := ⟨_, rfl⟩
  have hR : R = (s.bstat.new_leaf_nkey - 1 + P.nkey) / 2 := by
    rw [← hRt]; exact Int.tdiv_eq_ediv (by omega) (by omega)
  obtain ⟨a1, a2, a3, a4, a5, a6, a7, a8⟩ := leaf_grab_arith p6 hlt hp3 hR
  obtain ⟨S1, S2, S3, S4, T, A, e1, e2, e3, e4, e5, t1, t2, t3, t4, t5, t6, g1, g2, g3, q1, q2,
      q3⟩ := @leaf_grab_prv_run s leaf n.prv n P off s.bstat.new_leaf_nkey
    (s.bstat.new_leaf_nkey - 1 + P.nkey - R) R l0 pv0 hpl.symm hm hmp
    ⟨h0, by rw [← hmin]; exact h1⟩ ⟨a1, a2⟩ ⟨a3, a4⟩ hp3
  have hlay := leaf_grab_prv_layout hmin ⟨h0, by rw [← hmin]; exact h1⟩ a1 ⟨a3, a4⟩ g1 q1 q2 q3
  have heT : Ext s T := Ext.of_stat t4 t5
  have hAU : Agree s T U := fun b hb =>
    t3 b (ne_of_mem_of_not_mem hb lU) (ne_of_mem_of_not_mem hb pU)
  have hcT : Ctx T stk U X lo leaf Y := hs.ctx.frame heT (by rw [t4]) hAU
  obtain ⟨mo, mn, nm, -, m2, m3, m4, m5, m6, m7, -, m9⟩ := hcT.left_sep.2 l hlo
  obtain ⟨m10, hc4⟩ := m9 (A.entries 0).key
  obtain ⟨t, ht⟩ : ∃ t, t = wr T mn (with_key nm mo (A.entries 0).key) := ⟨_, rfl⟩
  rw [← ht] at m10 hc4
  have hlm : leaf ≠ mn := (ne_of_mem_of_not_mem m2 lU).symm
  have hpm : n.prv ≠ mn := (ne_of_mem_of_not_mem m2 pU).symm
  have f1 : t.mem leaf = some A := by rw [ht, wr_mem_of_ne _ hlm]; exact t1
  have f2 : t.mem n.prv = some { P with nkey := s.bstat.new_leaf_nkey - 1 + P.nkey - R } := by
    rw [ht, wr_mem_of_ne _ hpm]; exact t2
  have he : Ext s t := Ext.of_stat (by rw [ht]; exact t4) (by rw [ht]; exact t5)
  have hAL : ∀ b ∈ (X0 ++ Y).map Prod.snd, t.mem b = s.mem b := by
    intro b hb
    have hb3 : b ≠ leaf ∧ b ≠ n.prv ∧ b ∉ U := by
      simp only [List.map_append, List.mem_append] at hb
      rcases hb with hb | hb
      · exact ⟨fun h => lX0 (h ▸ hb), fun h => pX (h ▸ hb), (dX b hb).1⟩
      · exact ⟨fun h => lY (h ▸ hb), fun h => pY (h ▸ hb), dY b hb⟩
    rw [ht, wr_mem_of_ne _ (fun h : b = mn => hb3.2.2 (h.symm ▸ m2))]
    exact t3 b hb3.1 hb3.2.1
  have hok0 : LeafOK s cmp s.bstat.new_leaf_nkey (X0 ++ (lp, n.prv) :: (lo, leaf) :: Y) := by
    have := hs.ok
    rw [hmn, hX] at this
    simpa using this
  have hpw : ((contents s (X0.map Prod.snd)).map (·.key) ++
      ((node_ents ({ P with nkey := s.bstat.new_leaf_nkey - 1 + P.nkey - R } : bpt_node)).map
        (·.key) ++ ((node_ents A).map (·.key) ++
          (contents s (Y.map Prod.snd)).map (·.key)))).Pairwise (lt cmp) := by
    have hold := hok0.2.1
    simp only [List.map_append, contents_append, contents, List.map_cons, List.map_nil,
      leaf_ents_of_mem hmp, leaf_ents_of_mem hm, List.append_nil, List.append_assoc] at hold
    rw [← List.append_assoc (List.map _ (node_ents _)) (List.map _ (node_ents A)),
      ← List.map_append, hlay]
    conv at hold => rw [node_ents_split_at h0 h1]
    simp only [List.map_append, List.map_cons, List.append_assoc] at hold ⊢
    rw [← List.append_assoc, ← List.append_assoc] at hold ⊢
    exact pairwise_erase hold
  have hok : LeafOK t cmp s.bstat.new_leaf_nkey
      (X0 ++ (lp, n.prv) :: (some (A.entries 0).key, leaf) :: Y) := by
    refine leafOK_update2 hok0 hmp hm he hAL f2 f1 rfl rfl g2 g3 ⟨a3, a5, a6⟩
      ⟨by rw [g1]; omega, by rw [g1]; exact a1, by rw [g1]; exact a2⟩ hpw ?_ ?_
    · intro l1 hl1
      obtain ⟨n3, hn3, hk1, hk2⟩ := hok0.2.2 (lp, n.prv) (by simp) l1 hl1
      simp only at hn3
      rw [hmp] at hn3; cases Option.some.inj hn3
      exact ⟨by show 0 < s.bstat.new_leaf_nkey - 1 + P.nkey - R; omega, hk2⟩
    · intro l1 hl1
      exact ⟨by rw [g1]; omega, Option.some.inj hl1⟩
  have hc5 : Ctx t stk U (X0 ++ [(lp, n.prv)]) (some (A.entries 0).key) leaf Y := by
    rw [← hX]; exact hc4
  have hnd5 : (U ++ ((X0 ++ [(lp, n.prv)]) ++ (some (A.entries 0).key, leaf) :: Y).map
      Prod.snd).Nodup := by
    simpa using hnd3
  have hbs : t.bstat = s.bstat := by rw [ht]; exact t4
  have hwf : WF cmp t := by
    refine WF_of_leaf (by rw [hbs]; exact hs.hp) (by rw [ht]; show 0 < T.brk; rw [t5]; exact hs.hb)
      hc5 (by rw [hbs]; exact hs.len) ?_ hnd5
    rw [min_leaf_congr he, hmn]
    simpa using hok
  refine ⟨t, ?_, hwf, by rw [ht]; exact t6, ?_⟩
  · unfold delete_entry_prv
    simp only [Option.bind_eq_bind, hRt, e1, Option.some_bind, e2, e3, e4, e5,
      get_entry_eq l0 t1 (le_refl _) (by rw [t4]; omega), m10]
  · rw [tree_entries_of_ctx hc5 (by rw [hbs]; exact hs.len)]
    simp only [List.map_append, contents_append, contents, List.map_cons, List.map_nil,
      leaf_ents_of_mem f1, leaf_ents_of_mem f2, List.append_nil, List.append_assoc]
    rw [contents_congr (fun b hb => hAL b (by simp at hb ⊢; exact Or.inl hb)),
      contents_congr (fun b hb => hAL b (by simp at hb ⊢; exact Or.inr hb)),
      ← List.append_assoc (node_ents _) (node_ents A), hlay, hX]
    simp only [List.map_append, contents_append, contents, List.map_cons, List.map_nil,
      leaf_ents_of_mem hmp, List.append_nil, List.append_assoc]

/-! ## `bpt_delete_entry`: entries taken from the next leaf -/

theorem ents_glue1 {B Q : bpt_node} {q c : Int} (hq0 : 0 ≤ q) (hc : 0 ≤ c) (hB : B.nkey = c)
    (hq : q + c ≤ Q.nkey) (h : ∀ i, 0 ≤ i → i < c → B.entries i = Q.entries (q + i)) :
    node_ents B = ((node_ents Q).drop q.toNat).take c.toNat := by
  have l1 := ents_seg_length Q hq0 hc hq
  apply node_ents_ext
  · rw [l1]; omega
  · intro i hi
    rw [l1] at hi
    rw [ents_seg_get Q i hq0 hq (by omega), h i (by omega) (by omega)]

theorem leaf_grab_nxt_run {s : State} {leaf nxt : Int} {n Nx : bpt_node} {off mi L R : Int}
    (h0 : leaf ≠ 0) (hx0 : nxt ≠ 0) (hne : leaf ≠ nxt) (hm : s.mem leaf = some n)
    (hmx : s.mem nxt = some Nx) (hoff : 0 ≤ off ∧ off < mi) (hL : mi ≤ L ∧ L ≤ s.bstat.order)
    (hR : 0 ≤ R ∧ (L - (mi - 1)) + R = Nx.nkey) (hX : Nx.nkey ≤ s.bstat.order) :
    ∃ S1 S2 S3 S4 T A B,
      memmove s leaf off leaf (off + 1) (mi - 1 - off) = some S1 ∧
      memcpy S1 leaf (mi - 1) nxt 0 (L - (mi - 1)) = some S2 ∧
      memmove S2 nxt 0 nxt (L - (mi - 1)) R = some S3 ∧
      bpt_node_set_nkey S3 leaf L = some S4 ∧
      bpt_node_set_nkey S4 nxt R = some T ∧
      T.mem leaf = some A ∧ T.mem nxt = some B ∧
      (∀ b, b ≠ leaf → b ≠ nxt → T.mem b = s.mem b) ∧
      T.bstat = s.bstat ∧ T.brk = s.brk ∧ T.alloc = s.alloc ∧
      A.nkey = L ∧ A.prv = n.prv ∧ A.nxt = n.nxt ∧
      B.nkey = R ∧ B.prv = Nx.prv ∧ B.nxt = Nx.nxt ∧
      (∀ i, 0 ≤ i → i < off → A.entries i = n.entries (0 + i)) ∧
      (∀ i, 0 ≤ i → i < mi - 1 - off → A.entries (off + i) = n.entries (off + 1 + i)) ∧
      (∀ i, 0 ≤ i → i < L - (mi - 1) →
        A.entries (off + (mi - 1 - off) + i) = Nx.entries (0 + i)) ∧
      (∀ i, 0 ≤ i → i < R → B.entries i = Nx.entries (L - (mi - 1) + i)) := by
  obtain ⟨A1, hA1⟩ : ∃ A1 : bpt_node, A1 = { n with
    entries := moved n n off (off + 1) (mi - 1 - off) } := ⟨_, rfl⟩
  obtain ⟨A2, hA2⟩ : ∃ A2 : bpt_node, A2 = { A1 with
    entries := moved A1 Nx (mi - 1) 0 (L - (mi - 1)) } := ⟨_, rfl⟩
  obtain ⟨B1, hB1⟩ : ∃ B1 : bpt_node, B1 = { Nx with
    entries := moved Nx Nx 0 (L - (mi - 1)) R } := ⟨_, rfl⟩
  have e1 : memmove s leaf off leaf (off + 1) (mi - 1 - off) = some (wr s leaf A1) := by
    rw [hA1]
    exact memmove_eq _ _ _ h0 hm h0 hm (by omega) (fun _ => by omega)
  have e2 : memcpy (wr s leaf A1) leaf (mi - 1) nxt 0 (L - (mi - 1)) = some (wr s leaf A2) := by
    rw [hA2, memcpy_eq _ _ _ h0 (wr_mem_same s leaf A1) hx0
      ((wr_mem_of_ne _ hne.symm).trans hmx) (by omega)
      (fun _ => by simp only [wr_bstat]; omega) hne, wr_wr]
  have e3 : memmove (wr s leaf A2) nxt 0 nxt (L - (mi - 1)) R =
      some (wr (wr s leaf A2) nxt B1) := by
    rw [hB1]
    exact memmove_eq _ _ _ hx0 ((wr_mem_of_ne _ hne.symm).trans hmx) hx0
      ((wr_mem_of_ne _ hne.symm).trans hmx) (by omega) (fun _ => by simp only [wr_bstat]; omega)
  have e4 : bpt_node_set_nkey (wr (wr s leaf A2) nxt B1) leaf L =
      some (wr (wr (wr s leaf A2) nxt B1) leaf { A2 with nkey := L }) :=
    set_nkey_eq h0 ((wr_mem_of_ne _ hne).trans (wr_mem_same s leaf _)) L
  have e5 : bpt_node_set_nkey (wr (wr (wr s leaf A2) nxt B1) leaf { A2 with nkey := L }) nxt R =
      some (wr (wr (wr (wr s leaf A2) nxt B1) leaf { A2 with nkey := L }) nxt
        { B1 with nkey := R }) :=
    set_nkey_eq hx0 ((wr_mem_of_ne _ hne.symm).trans (wr_mem_same _ nxt _)) R
  refine ⟨_, _, _, _, _, { A2 with nkey := L }, { B1 with nkey := R }, e1, e2, e3, e4, e5, ?_,
    wr_mem_same _ _ _, ?_, rfl, rfl, rfl, rfl,
    ?_, ?_, rfl, ?_, ?_, ?_, ?_, ?_, ?_⟩
  · rw [wr_mem_of_ne _ hne, wr_mem_same]
  · intro b b1 b2
    rw [wr_mem_of_ne _ b2, wr_mem_of_ne _ b1, wr_mem_of_ne _ b2, wr_mem_of_ne _ b1]
  · rw [hA2, hA1]
  · rw [hA2, hA1]
  · rw [hB1]
  · rw [hB1]
  · intro i i0 i1
    rw [hA2, hA1]
    simp only [moved]
    rw [if_neg (by omega), if_neg (by omega)]
    congr 1; omega
  · intro i i0 i1
    rw [hA2, hA1]
    simp only [moved]
    rw [if_neg (by omega), if_pos (by omega)]
    congr 1; omega
  · intro i i0 i1
    rw [hA2, hA1]
    simp only [moved]
    rw [if_pos (by omega)]
    congr 1; omega
  · intro i i0 i1
    rw [hB1]
    simp only [moved]
    rw [if_pos (by omega)]
    congr 1; omega

theorem leaf_grab_nxt_layout {n Nx A B : bpt_node} {off mi L R : Int}
    (hn : n.nkey = mi) (hoff : 0 ≤ off ∧ off < mi) (hL : mi ≤ L)
    (hR : 0 ≤ R ∧ (L - (mi - 1)) + R = Nx.nkey) (g1 : A.nkey = L) (g4 : B.nkey = R)
    (h1 : ∀ i, 0 ≤ i → i < off → A.entries i = n.entries (0 + i))
    (h2 : ∀ i, 0 ≤ i → i < mi - 1 - off → A.entries (off + i) = n.entries (off + 1 + i))
    (h3 : ∀ i, 0 ≤ i → i < L - (mi - 1) →
      A.entries (off + (mi - 1 - off) + i) = Nx.entries (0 + i))
    (h4 : ∀ i, 0 ≤ i → i < R → B.entries i = Nx.entries (L - (mi - 1) + i)) :
    node_ents A ++ node_ents B =
      ((node_ents n).take off.toNat ++ (node_ents n).drop (off.toNat + 1)) ++ node_ents Nx := by
  have e := @ents_glue3 A n n Nx 0 (off + 1) 0 off (mi - 1 - off) (L - (mi - 1)) (le_refl _)
    (by omega) (le_refl _) hoff.1 (by omega) (by omega) (by omega) (by omega) (by omega)
    (by omega) h1 h2 h3
  have e2 := @ents_glue1 B Nx (L - (mi - 1)) R (by omega) hR.1 g4 (by omega) h4
  have q : (off + 1).toNat = off.toNat + 1 := by omega
  rw [e, e2, seg_from_zero, seg_to_end n (by omega) (by omega), q, seg_from_zero,
    seg_to_end Nx (by omega) hR.2]
  simp only [List.append_assoc, List.take_append_drop]

/-- The branch of `bpt_delete_entry` that takes entries from the next leaf. -/
theorem delete_entry_nxt_spec {cmp : bpt_t → bpt_t → Int} {s : State} {stk : gen_stk}
    {U : List Int} {X Y : List Item} {lo : Option bpt_t} {leaf : Int} {k : bpt_t}
    {n Nx : bpt_node} {off : Int}
    (hs : LeafSit cmp s stk U X lo leaf Y k) (hm : s.mem leaf = some n) (h0 : 0 ≤ off)
    (h1 : off < n.nkey) (hmin : n.nkey = s.bstat.new_leaf_nkey) (hnxt : n.nxt ≠ 0)
    (hmx : s.mem n.nxt = some Nx) (hxk : Nx.nkey ≠ s.bstat.new_leaf_nkey) :
    ∃ t, delete_entry_nxt s leaf off n.prv n.nxt Nx.nkey stk = some t ∧ WF cmp t ∧
      t.alloc = s.alloc ∧
      tree_entries t = (contents s (X.map Prod.snd) ++ (node_ents n).take off.toNat) ++
        ((node_ents n).drop (off.toNat + 1) ++ contents s (Y.map Prod.snd)) := by
  obtain ⟨l0, lb, n1, hm1, hn0, hn1, hn2, -, -, -, -⟩ := hs.node
  rw [hm] at hm1; cases Option.some.inj hm1
  obtain ⟨p3, -, -, -, -, p5, p6, p7, p8⟩ := params_arith hs.hp
  obtain ⟨ln, Y1, hY, hxok⟩ := (next_facts hs.ok.1 hm).2 hnxt
  subst hY
  have hne : stk ≠ [] := hs.stk_ne (Or.inr (Or.inl (by simp)))
  have hmn := hs.min_eq_leaf hne
  obtain ⟨x0, -, Nx1, hNx1, hx1, hx2, hx3⟩ := hxok
  rw [hmx] at hNx1; cases Option.some.inj hNx1
  rw [hmn] at hx2
  have hlt : s.bstat.new_leaf_nkey < Nx.nkey := lt_of_le_of_ne hx2 (Ne.symm hxk)
  obtain ⟨hlx, lU, xU, lX, xX, lY1, xY1, dX, dY, -, -⟩ := nodup_pair hs.nd
  obtain ⟨L, hLt⟩ : ∃ L, Int.tdiv (s.bstat.new_leaf_nkey - 1 + Nx.nkey) 2 = L := ⟨_, rfl⟩
  have hL : L = (s.bstat.new_leaf_nkey - 1 + Nx.nkey) / 2 := by
    rw [← hLt]; exact Int.tdiv_eq_ediv (by omega) (by omega)
  obtain ⟨a1, a2, a3, a4, a5, a6, a7, a8⟩ := leaf_grab_arith p6 hlt hx3 hL
  have hoffm : 0 ≤ off ∧ off < s.bstat.new_leaf_nkey := ⟨h0, by rw [← hmin]; exact h1⟩
  obtain ⟨S1, S2, S3, S4, T, A, B, e1, e2, e3, e4, e5, t1, t2, t3, t4, t5, t6, g1, g2, g3, g4, g5,
      g6, q1, q2, q3, q4⟩ := @leaf_grab_nxt_run s leaf n.nxt n Nx off s.bstat.new_leaf_nkey L
    (s.bstat.new_leaf_nkey - 1 + Nx.nkey - L) l0 x0 hlx hm hmx hoffm ⟨a1, a2⟩
    ⟨a3, by omega⟩ hx3
  have hlay := leaf_grab_nxt_layout hmin hoffm a1 ⟨a3, by omega⟩ g1 g4 q1 q2 q3 q4
  have heT : Ext s T := Ext.of_stat t4 t5
  have hAU : Agree s T U := fun b hb =>
    t3 b (ne_of_mem_of_not_mem hb lU) (ne_of_mem_of_not_mem hb xU)
  have hcT : Ctx T stk U X lo leaf ((ln, n.nxt) :: Y1) := hs.ctx.frame heT (by rw [t4]) hAU
  have hok0 : LeafOK s cmp s.bstat.new_leaf_nkey (X ++ (lo, leaf) :: (ln, n.nxt) :: Y1) := by
    have := hs.ok
    rw [hmn] at this
    exact this
  have hlo0 : ∀ l, lo = some l → off ≠ 0 ∨ n.prv = 0 → (A.entries 0).key = l := by
    intro l hl hcase
    obtain ⟨n3, hn3, hk1, hk2⟩ := hok0.2.2 (lo, leaf) (by simp) l hl
    simp only at hn3
    rw [hm] at hn3; cases Option.some.inj hn3
    rcases hcase with hc | hc
    · rw [q1 0 (le_refl _) (by omega)]; exact hk2
    · have hX : X = [] := (prev_facts hs.ok.1 hm).1.mp hc
      have := hs.ctx.first_iff.mp hX
      rw [this] at hl; cases hl
  have key : ∃ S6 lo6 mo mn nm,
      (if off ≠ 0 ∨ n.prv = 0 then do
          let mid ← mid_between_nxt T stk
          let e ← get_entry T n.nxt 0
          set_key T mid.2 mid.1 e.key
        else do
          let pn ← mid_between_prv_nxt T stk
          let e ← get_entry T leaf 0
          let s6 ← set_key T pn.1.2 pn.1.1 e.key
          let f ← get_entry s6 n.nxt 0
          set_key s6 pn.2.2 pn.2.1 f.key) =
        some (wr S6 mn (with_key nm mo (B.entries 0).key)) ∧
      Ctx (wr S6 mn (with_key nm mo (B.entries 0).key)) stk U X lo6 leaf
        (set_hi (B.entries 0).key ((ln, n.nxt) :: Y1)) ∧
      mn ∈ U ∧ (∀ b, b ∉ U → S6.mem b = T.mem b) ∧ S6.bstat = T.bstat ∧ S6.brk = T.brk ∧
      S6.alloc = T.alloc ∧ (∀ l, lo6 = some l → (A.entries 0).key = l) := by
    by_cases hcase : off ≠ 0 ∨ n.prv = 0
    · obtain ⟨mo, mn, nm, m1, m2, m3, m4, m5, m6, m7, -, m9⟩ := hcT.right_sep.2 (by simp)
      refine ⟨T, lo, mo, mn, nm, ?_, m9 _, m2, fun _ _ => rfl, rfl, rfl, rfl,
        fun l hl => hlo0 l hl hcase⟩
      rw [if_pos hcase]
      simp only [bind, Option.bind_eq_bind, m1, Option.some_bind,
        get_entry_eq x0 t2 (le_refl _) (by rw [t4]; omega)]
      exact set_key_eq' m3 m4 m5 (by omega) _
    · have hoff0 : off = 0 := by
        by_contra h; exact hcase (Or.inl h)
      have hprv : n.prv ≠ 0 := fun h => hcase (Or.inr h)
      have hXne : X ≠ [] := fun h => hprv ((prev_facts hs.ok.1 hm).1.mpr h)
      obtain ⟨l, hlo⟩ : ∃ l, lo = some l := by
        cases hq : lo with
        | none => exact absurd (hs.ctx.first_iff.mpr hq) hXne
        | some l => exact ⟨l, rfl⟩
      obtain ⟨x, hx1, hx2⟩ := mid_loop_spec T stk hcT.frames_ok
      have hpn : mid_between_prv_nxt T stk = some (mid_between_prv stk, x) := hx2
      obtain ⟨pmo, pmn, pnm, c1, c2, c3, c4, c5, c6, c7, -, c9⟩ := hcT.left_sep.2 l hlo
      obtain ⟨-, hc6⟩ := c9 (A.entries 0).key
      obtain ⟨mo, mn, nm, m1, m2, m3, m4, m5, m6, m7, -, m9⟩ := hc6.right_sep.2 (by simp)
      rw [mid_nxt_congr (fun b => nkey_wr_with_key c4 pmo (A.entries 0).key b) stk, hx1] at m1
      cases Option.some.inj m1
      refine ⟨wr T pmn (with_key pnm pmo (A.entries 0).key), some (A.entries 0).key, mo, mn, nm,
        ?_, m9 _, m2, fun b hb => wr_mem_of_ne _ (fun h => hb (h ▸ c2)), rfl, rfl, rfl,
        fun l1 hl1 => Option.some.inj hl1⟩
      have hS6x : (wr T pmn (with_key pnm pmo (A.entries 0).key)).mem n.nxt = some B :=
        (wr_mem_of_ne _ (ne_of_mem_of_not_mem c2 xU).symm).trans t2
      have hord6 : mo ≤ (wr T pmn (with_key pnm pmo (A.entries 0).key)).bstat.order := by omega
      rw [if_neg hcase]
      simp only [bind, Option.bind_eq_bind, hpn, Option.some_bind, c1,
        get_entry_eq l0 t1 (le_refl _) (by rw [t4]; omega),
        set_key_eq' c3 c4 c5 (by omega) _,
        get_entry_eq x0 hS6x (le_refl _) (by rw [wr_bstat, t4]; omega)]
      exact set_key_eq' m3 m4 m5 hord6 _
  obtain ⟨S6, lo6, mo, mn, nm, k1, k2, k3, k4, k5, k6, k7, k8⟩ := key
  obtain ⟨t, ht⟩ : ∃ t, t = wr S6 mn (with_key nm mo (B.entries 0).key) := ⟨_, rfl⟩
  rw [← ht] at k1 k2
  have hmem : ∀ b, b ∉ U → t.mem b = T.mem b := by
    intro b hb
    rw [ht, wr_mem_of_ne _ (fun h : b = mn => hb (h.symm ▸ k3))]
    exact k4 b hb
  have f1 : t.mem leaf = some A := (hmem leaf lU).trans t1
  have f2 : t.mem n.nxt = some B := (hmem n.nxt xU).trans t2
  have hbs : t.bstat = s.bstat := by rw [ht]; exact k5.trans t4
  have hbrk : t.brk = s.brk := by rw [ht]; exact k6.trans t5
  have he : Ext s t := Ext.of_stat hbs hbrk
  have hAL : ∀ b ∈ (X ++ Y1).map Prod.snd, t.mem b = s.mem b := by
    intro b hb
    have hb3 : b ≠ leaf ∧ b ≠ n.nxt ∧ b ∉ U := by
      simp only [List.map_append, List.mem_append] at hb
      rcases hb with hb | hb
      · exact ⟨fun h => lX (h ▸ hb), fun h => xX (h ▸ hb), (dX b hb).1⟩
      · exact ⟨fun h => lY1 (h ▸ hb), fun h => xY1 (h ▸ hb), dY b hb⟩
    exact (hmem b hb3.2.2).trans (t3 b hb3.1 hb3.2.1)
  have hpw : ((contents s (X.map Prod.snd)).map (·.key) ++
      ((node_ents A).map (·.key) ++ ((node_ents B).map (·.key) ++
          (contents s (Y1.map Prod.snd)).map (·.key)))).Pairwise (lt cmp) := by
    have hold := hok0.2.1
    simp only [List.map_append, contents_append, contents, List.map_cons, List.map_nil,
      leaf_ents_of_mem hmx, leaf_ents_of_mem hm, List.append_nil, List.append_assoc] at hold
    rw [← List.append_assoc (List.map _ (node_ents A)) (List.map _ (node_ents B)),
      ← List.map_append, hlay]
    conv at hold => rw [node_ents_split_at h0 h1]
    simp only [List.map_append, List.map_cons, List.append_assoc] at hold ⊢
    rw [← List.append_assoc] at hold ⊢
    exact pairwise_erase hold
  have hok : LeafOK t cmp s.bstat.new_leaf_nkey
      (X ++ (lo6, leaf) :: (ln.map (fun _ => (B.entries 0).key), n.nxt) :: Y1) := by
    refine leafOK_update2 hok0 hm hmx he hAL f1 f2 g2 g3 g5 g6
      ⟨by rw [g1]; omega, by rw [g1]; exact a1, by rw [g1]; exact a2⟩
      ⟨by rw [g4]; exact a3, by rw [g4]; exact a5, by rw [g4]; exact a6⟩ hpw ?_ ?_
    · intro l1 hl1
      exact ⟨by rw [g1]; omega, k8 l1 hl1⟩
    · intro l1 hl1
      refine ⟨by rw [g4]; omega, ?_⟩
      cases ln with
      | none => cases hl1
      | some v => exact Option.some.inj hl1
  have hnd5 : (U ++ (X ++ (lo6, leaf) ::
      (ln.map (fun _ => (B.entries 0).key), n.nxt) :: Y1).map Prod.snd).Nodup := by
    simpa using hs.nd
  have hc5 : Ctx t stk U X lo6 leaf ((ln.map (fun _ => (B.entries 0).key), n.nxt) :: Y1) := k2
  have hwf : WF cmp t := by
    refine WF_of_leaf (by rw [hbs]; exact hs.hp) (by rw [hbrk]; exact hs.hb)
      hc5 (by rw [hbs]; exact hs.len) ?_ hnd5
    rw [min_leaf_congr he, hmn]
    exact hok
  refine ⟨t, ?_, hwf, by rw [ht]; exact k7.trans t6, ?_⟩
  · unfold delete_entry_nxt
    simp only [Option.bind_eq_bind, hLt, e1, Option.some_bind, e2, e3, e4, e5]
    exact k1
  · rw [tree_entries_of_ctx hc5 (by rw [hbs]; exact hs.len)]
    simp only [List.map_append, contents_append, contents, List.map_cons, List.map_nil,
      leaf_ents_of_mem f1, leaf_ents_of_mem f2, leaf_ents_of_mem hmx, List.append_nil,
      List.append_assoc]
    rw [contents_congr (fun b hb => hAL b (by simp at hb ⊢; exact Or.inl hb)),
      contents_congr (fun b hb => hAL b (by simp at hb ⊢; exact Or.inr hb)),
      ← List.append_assoc (node_ents A) (node_ents B), hlay]
    simp only [List.append_assoc]

/-! ## `bpt_delete_entry`: a leaf leaves its level -/

theorem leafOK_unlink {s t : State} {cmp : bpt_t → bpt_t → Int} {mn mn1 : Int}
    {X Y : List Item} {lp lp1 lo : Option bpt_t} {p a : Int} {np na mp : bpt_node}
    (hl : LeafOK s cmp mn (X ++ (lp, p) :: (lo, a) :: Y))
    (hnp : s.mem p = some np) (hna : s.mem a = some na) (he : Ext s t)
    (hnd : ((X ++ (lp, p) :: (lo, a) :: Y).map Prod.snd).Nodup)
    (hmp : t.mem p = some mp) (hp1 : mp.prv = np.prv) (hp2 : mp.nxt = na.nxt)
    (hpr : 0 ≤ mp.nkey ∧ mn1 ≤ mp.nkey ∧ mp.nkey ≤ s.bstat.order) (hmn : mn1 ≤ mn)
    (hx : ∀ ny, na.nxt ≠ 0 → s.mem na.nxt = some ny → t.mem na.nxt = some { ny with prv := p })
    (ho : ∀ b, b ∈ (X ++ Y).map Prod.snd → b ≠ na.nxt → t.mem b = s.mem b)
    (hpw : ((contents s (X.map Prod.snd)).map (·.key) ++ ((node_ents mp).map (·.key) ++
      (contents s (Y.map Prod.snd)).map (·.key))).Pairwise (lt cmp))
    (hlp : ∀ l, lp1 = some l → 0 < mp.nkey ∧ (mp.entries 0).key = l) :
    LeafOK t cmp mn1 (X ++ (lp1, p) :: Y) := by
  obtain ⟨u1, u2, u3⟩ := @unlink_frame s t mn mn1 X Y lp lp1 lo p a np na mp hl.1 hnp hna he hnd
    hmp hp1 hp2 hpr hmn hx ho
  refine ⟨u1, ?_, ?_⟩
  · rw [contents_focus, leaf_ents_of_mem hmp, contents_congr u2, contents_alike u3]
    simpa using hpw
  · intro q hq l hl1
    simp only [List.mem_append, List.mem_cons] at hq
    rcases hq with hq | rfl | hq
    · obtain ⟨m, hm, hk⟩ := hl.2.2 q (by simp [hq]) l hl1
      exact ⟨m, (u2 q.2 (List.mem_map_of_mem _ hq)).trans hm, hk⟩
    · exact ⟨mp, hmp, hlp l hl1⟩
    · obtain ⟨m, hm, hk1, hk2⟩ := hl.2.2 q (by simp [hq]) l hl1
      obtain ⟨nb, m1, e1, e2, e3, e4⟩ := u3 q.2 (List.mem_map_of_mem _ hq)
      rw [hm] at e1; cases Option.some.inj e1
      exact ⟨m1, e2, by rw [e4]; exact hk1, by rw [e3]; exact hk2⟩

theorem leafOK_unlink_first {s t : State} {cmp : bpt_t → bpt_t → Int} {mn mn1 : Int}
    {Y : List Item} {lo ln ln1 : Option bpt_t} {a x : Int} {na nx mx : bpt_node}
    (hl : LeafOK s cmp mn ((lo, a) :: (ln, x) :: Y))
    (hna : s.mem a = some na) (hnx : s.mem x = some nx) (he : Ext s t)
    (hmx : t.mem x = some mx) (hp1 : mx.prv = na.prv) (hp2 : mx.nxt = nx.nxt)
    (hxr : 0 ≤ mx.nkey ∧ mn1 ≤ mx.nkey ∧ mx.nkey ≤ s.bstat.order) (hmn : mn1 ≤ mn)
    (ho : ∀ b, b ∈ Y.map Prod.snd → t.mem b = s.mem b)
    (hpw : ((node_ents mx).map (·.key) ++
      (contents s (Y.map Prod.snd)).map (·.key)).Pairwise (lt cmp))
    (hlx : ∀ l, ln1 = some l → 0 < mx.nkey ∧ (mx.entries 0).key = l) :
    LeafOK t cmp mn1 ((ln1, x) :: Y) := by
  have hch := hl.1.2
  simp only [List.map_cons, Chain] at hch
  obtain ⟨⟨m1, hm1, c1, c2⟩, ⟨m2, hm2, c3, c4⟩, c5⟩ := hch
  rw [hna] at hm1; cases Option.some.inj hm1
  rw [hnx] at hm2; cases Option.some.inj hm2
  obtain ⟨x0, xb, -⟩ := hl.1.1 (ln, x) (by simp)
  refine ⟨⟨?_, ?_⟩, ?_, ?_⟩
  · intro q hq
    rw [List.mem_cons] at hq
    rcases hq with rfl | hq
    · refine ⟨x0, lt_of_lt_of_le xb he.2, mx, hmx, hxr.1, hxr.2.1, ?_⟩
      rw [he.1.1]; exact hxr.2.2
    · exact NodeOK.congr_node he (ho q.2 (List.mem_map_of_mem _ hq)) hmn
        (hl.1.1 q (by simp [hq]))
  · simp only [List.map_cons, Chain]
    exact ⟨⟨mx, hmx, hp1.trans c1, hp2.trans c4⟩, Chain.congr_chain ho c5⟩
  · simp only [List.map_cons, contents, leaf_ents_of_mem hmx, List.map_append]
    rw [contents_congr ho]
    exact hpw
  · intro q hq l hl1
    rw [List.mem_cons] at hq
    rcases hq with rfl | hq
    · exact ⟨mx, hmx, hlx l hl1⟩
    · obtain ⟨m, hm, hk⟩ := hl.2.2 q (by simp [hq]) l hl1
      exact ⟨m, (ho q.2 (List.mem_map_of_mem _ hq)).trans hm, hk⟩

/-- The level of the leaves without the leaf in focus, as the children of
the level above with the child of the top frame cut. -/
theorem leaf_cut_level {s : State} {stk : gen_stk} {pa poff : Int} {U : List Int}
    {X Y : List Item} {lo : Option bpt_t} {leaf : Int}
    (hc : Ctx s (⟨pa, poff⟩ :: stk) U X lo leaf Y) (hp : ParamsOK s.bstat) :
    ∃ U2 X2 lo2 Y2 n2, Ctx s stk U2 X2 lo2 pa Y2 ∧ s.mem pa = some n2 ∧
      InnerOK s (min_inner s stk.isEmpty) (X2 ++ (lo2, pa) :: Y2) ∧
      0 ≤ poff ∧ poff ≤ n2.nkey ∧ U = U2 ++ (X2 ++ (lo2, pa) :: Y2).map Prod.snd ∧
      (lo ≠ none → expand s X2 ++ (node_pairs (cut_lo lo2 n2 poff) (cut n2 poff) ++
        expand s Y2) = X ++ Y) ∧
      (lo = none → poff = 0 ∧ X = [] ∧ ∃ k0 x Y3, Y = (some k0, x) :: Y3 ∧
        expand s X2 ++ (node_pairs (cut_lo lo2 n2 poff) (cut n2 poff) ++ expand s Y2) =
          (none, x) :: Y3) := by
  have hfirst := hc.first_iff
  obtain ⟨U2, X2, lo2, Y2, n2, hc2, hm2, hok2, hnd2, q0, q1, eU, eX, elo, ea, eY⟩ := hc.of_cons
  simp only at hc2 hm2 hok2 hnd2 q0 q1 eU eX elo ea eY
  obtain ⟨pa0, -, n2', hm2', -, hn2m, hn2o, -⟩ := focus_facts hok2
  rw [hm2] at hm2'; cases Option.some.inj hm2'
  have hq1 : 1 ≤ n2.nkey := le_trans (min_inner_pos hp _) hn2m
  refine ⟨U2, X2, lo2, Y2, n2, hc2, hm2, hok2, q0, q1, eU, ?_, ?_⟩
  · intro hlo
    by_cases hz : poff = 0
    · subst hz
      obtain ⟨l2, hl2⟩ : ∃ l2, lo2 = some l2 := by
        cases h : lo2 with
        | none => rw [elo, if_pos rfl, h] at hlo; exact absurd rfl hlo
        | some l2 => exact ⟨l2, rfl⟩
      have eX' : X = expand s X2 := by simpa using eX
      have eY' : Y = (node_pairs lo2 n2).drop 1 ++ expand s Y2 := by simpa using eY
      rw [eX', eY', hl2, cut_pairs_zero_some l2 hq1]
    · have hp1 : 1 ≤ poff := by omega
      rw [cut_pairs_pos lo2 hp1 q1, eX, eY]
      simp
  · intro hlo
    have hX : X = [] := hfirst.mpr hlo
    have hz : poff = 0 := by
      by_contra h
      rw [elo, if_neg h] at hlo
      cases hlo
    subst hz
    have hlo2 : lo2 = none := by rw [elo, if_pos rfl] at hlo; exact hlo
    obtain ⟨p1, p2⟩ := pairs_first_two lo2 n2 hq1
    have eX' : X = expand s X2 := by simpa using eX
    have eY' : Y = (node_pairs lo2 n2).drop 1 ++ expand s Y2 := by simpa using eY
    refine ⟨rfl, hX, (n2.entries 0).key, (n2.entries 1).val,
      (node_pairs lo2 n2).drop 2 ++ expand s Y2, by rw [eY', p2]; rfl, ?_⟩
    rw [← eX', hX, hlo2]
    have : cut_lo none n2 0 = none := rfl
    rw [this, cut_pairs_zero none none hq1]
    simp

/-! ## `bpt_delete_entry`: the leaf merged into the previous one -/

theorem leaf_merge_prv_run {s : State} {leaf prv nxt : Int} {n P : bpt_node} {off : Int}
    (stk : gen_stk)
    (h0 : leaf ≠ 0) (hp0 : prv ≠ 0) (hne : leaf ≠ prv) (hm : s.mem leaf = some n)
    (hmp : s.mem prv = some P) (hoff : 0 ≤ off ∧ off < s.bstat.new_leaf_nkey)
    (hord : 2 * s.bstat.new_leaf_nkey - 1 ≤ s.bstat.order)
    (hnn : nxt ≠ 0 → ∃ ny, s.mem nxt = some ny) (hxp : nxt ≠ prv) (hxl : nxt ≠ leaf) :
    ∃ t s8 Q, delete_entry_merge s leaf off prv nxt stk = some (true, t) ∧
      bpt_node_delete t leaf = some s8 ∧
      s8.mem prv = some Q ∧ s8.mem leaf = none ∧
      (∀ ny, nxt ≠ 0 → s.mem nxt = some ny → s8.mem nxt = some { ny with prv := prv }) ∧
      (∀ b, b ≠ prv → b ≠ leaf → b ≠ nxt → s8.mem b = s.mem b) ∧
      s8.bstat = s.bstat ∧ s8.brk = s.brk ∧ s8.alloc = s.alloc ∧
      Q.nkey = s.bstat.new_leaf_nkey + s.bstat.new_leaf_nkey - 1 ∧ Q.prv = P.prv ∧ Q.nxt = nxt ∧
      (∀ i, 0 ≤ i → i < s.bstat.new_leaf_nkey → Q.entries i = P.entries (0 + i)) ∧
      (∀ i, 0 ≤ i → i < off → Q.entries (s.bstat.new_leaf_nkey + i) = n.entries (0 + i)) ∧
      (∀ i, 0 ≤ i → i < s.bstat.new_leaf_nkey - 1 - off →
        Q.entries (s.bstat.new_leaf_nkey + off + i) = n.entries (off + 1 + i)) := by
  obtain ⟨Q1, hQ1⟩ : ∃ Q1 : bpt_node, Q1 = { P with
    entries := moved P n s.bstat.new_leaf_nkey 0 off } := ⟨_, rfl⟩
  obtain ⟨Q2, hQ2⟩ : ∃ Q2 : bpt_node, Q2 = { Q1 with
    entries := moved Q1 n (s.bstat.new_leaf_nkey + off) (off + 1)
      (s.bstat.new_leaf_nkey - 1 - off) } := ⟨_, rfl⟩
  obtain ⟨Q, hQ⟩ : ∃ Q : bpt_node, Q = { ({ Q2 with
    nkey := s.bstat.new_leaf_nkey + s.bstat.new_leaf_nkey - 1 } : bpt_node) with
    nxt := nxt } := ⟨_, rfl⟩
  have e1 : memcpy s prv s.bstat.new_leaf_nkey leaf 0 off = some (wr s prv Q1) := by
    rw [hQ1]
    exact memcpy_eq _ _ _ hp0 hmp h0 hm (by omega) (fun _ => by omega) hne.symm
  have e2 : memcpy (wr s prv Q1) prv (s.bstat.new_leaf_nkey + off) leaf (off + 1)
      (s.bstat.new_leaf_nkey - 1 - off) = some (wr s prv Q2) := by
    rw [hQ2, memcpy_eq _ _ _ hp0 (wr_mem_same s prv Q1) h0
      ((wr_mem_of_ne _ hne).trans hm) (by omega)
      (fun _ => by simp only [wr_bstat]; omega) hne.symm, wr_wr]
  have e3 : bpt_node_set_nkey (wr s prv Q2) prv
      (s.bstat.new_leaf_nkey + s.bstat.new_leaf_nkey - 1) =
      some (wr s prv { Q2 with nkey := s.bstat.new_leaf_nkey + s.bstat.new_leaf_nkey - 1 }) := by
    rw [set_nkey_eq hp0 (wr_mem_same s prv Q2), wr_wr]
  have e4 : bpt_node_set_nxt
      (wr s prv { Q2 with nkey := s.bstat.new_leaf_nkey + s.bstat.new_leaf_nkey - 1 }) prv nxt =
      some (wr s prv Q) := by
    rw [hQ, set_nxt_eq hp0 (wr_mem_same s prv _), wr_wr]
  obtain ⟨s5, k1, k2, k3, k4, k5, k6⟩ := link_prv_run (wr s prv Q) nxt prv (fun h => by
    obtain ⟨ny, hny⟩ := hnn h
    exact ⟨ny, (wr_mem_of_ne _ hxp).trans hny⟩)
  have hs5l : s5.mem leaf = some n := by
    rw [k5 leaf hxl.symm, wr_mem_of_ne _ hne]; exact hm
  refine ⟨s5, { s5 with mem := Function.update s5.mem leaf none }, Q, ?_,
    node_delete_eq h0 hs5l, ?_, ?_, ?_, ?_, k2, k3, k4, ?_, ?_, ?_, ?_, ?_, ?_⟩
  · unfold delete_entry_merge
    simp only [hp0, ne_eq, not_false_eq_true, if_true, bind, Option.bind_eq_bind, e1,
      Option.some_bind, e2, e3, e4]
    exact k1 _ _
  · show Function.update s5.mem leaf none prv = some Q
    rw [Function.update_noteq hne.symm, k5 prv hxp.symm, wr_mem_same]
  · show Function.update s5.mem leaf none leaf = none
    rw [Function.update_same]
  · intro ny hx hny
    show Function.update s5.mem leaf none nxt = _
    rw [Function.update_noteq hxl, k6 ny hx ((wr_mem_of_ne _ hxp).trans hny)]
  · intro b b1 b2 b3
    show Function.update s5.mem leaf none b = _
    rw [Function.update_noteq b2, k5 b b3, wr_mem_of_ne _ b1]
  · rw [hQ]
  · rw [hQ, hQ2, hQ1]
  · rw [hQ]
  · intro i i0 i1
    rw [hQ, hQ2, hQ1]
    simp only [moved]
    rw [if_neg (by omega), if_neg (by omega)]
    congr 1; omega
  · intro i i0 i1
    rw [hQ, hQ2, hQ1]
    simp only [moved]
    rw [if_neg (by omega), if_pos (by omega)]
    congr 1; omega
  · intro i i0 i1
    rw [hQ, hQ2, hQ1]
    simp only [moved]
    rw [if_pos (by omega)]
    congr 1; omega

theorem leaf_merge_prv_layout {n P Q : bpt_node} {off mi : Int}
    (hn : n.nkey = mi) (hP : P.nkey = mi) (hoff : 0 ≤ off ∧ off < mi)
    (g1 : Q.nkey = mi + mi - 1)
    (h1 : ∀ i, 0 ≤ i → i < mi → Q.entries i = P.entries (0 + i))
    (h2 : ∀ i, 0 ≤ i → i < off → Q.entries (mi + i) = n.entries (0 + i))
    (h3 : ∀ i, 0 ≤ i → i < mi - 1 - off → Q.entries (mi + off + i) = n.entries (off + 1 + i)) :
    node_ents Q =
      node_ents P ++ ((node_ents n).take off.toNat ++ (node_ents n).drop (off.toNat + 1)) := by
  have e := @ents_glue3 Q P n n 0 0 (off + 1) mi off (mi - 1 - off) (le_refl _) (le_refl _)
    (by omega) (by omega) hoff.1 (by omega) (by omega) (by omega) (by omega) (by omega) h1 h2 h3
  have q : (off + 1).toNat = off.toNat + 1 := by omega
  rw [e, seg_to_end P (le_refl _) (by omega), seg_from_zero, seg_to_end n (by omega) (by omega),
    q]
  simp

/-- The merge branch of `bpt_delete_entry` when the leaf has a previous
leaf: the leaf is released and the top frame of the journal is the frame of a
released child. -/
theorem delete_entry_merge_prv_spec {cmp : bpt_t → bpt_t → Int} {s : State} {stk : gen_stk}
    {pa poff : Int} {U : List Int} {X Y : List Item} {lo : Option bpt_t} {leaf : Int}
    {k : bpt_t} {n P : bpt_node} {off : Int}
    (hs : LeafSit cmp s (⟨pa, poff⟩ :: stk) U X lo leaf Y k) (hm : s.mem leaf = some n)
    (h0 : 0 ≤ off) (h1 : off < n.nkey) (hmin : n.nkey = s.bstat.new_leaf_nkey)
    (hprv : n.prv ≠ 0) (hmp : s.mem n.prv = some P) (hpk : P.nkey = s.bstat.new_leaf_nkey) :
    ∃ t s8, delete_entry_merge s leaf off n.prv n.nxt (⟨pa, poff⟩ :: stk) = some (true, t) ∧
      bpt_node_delete t leaf = some s8 ∧ s8.alloc = s.alloc ∧
      ∃ U2 X2 lo2 Y2 n2, CutSit cmp s8 stk pa poff 0 U2 X2 lo2 Y2 n2 ∧
        contents s8 ((level_below s8 0 (cut_level s8 X2 lo2 n2 poff Y2)).map Prod.snd) =
          (contents s (X.map Prod.snd) ++ (node_ents n).take off.toNat) ++
            ((node_ents n).drop (off.toNat + 1) ++ contents s (Y.map Prod.snd)) := by
  obtain ⟨l0, lb, n1, hm1, hn0, hn1, hn2, -, -, -, -⟩ := hs.node
  rw [hm] at hm1; cases Option.some.inj hm1
  obtain ⟨p3, -, -, -, -, p5, p6, p7, p8⟩ := params_arith hs.hp
  obtain ⟨X0, lp, hX, hpok⟩ := (prev_facts hs.ok.1 hm).2 hprv
  have hXne : X ≠ [] := by rw [hX]; simp
  have hmn : min_leaf s (({ node := pa, offset := poff } : bpt_frm) :: stk).isEmpty =
      s.bstat.new_leaf_nkey := rfl
  obtain ⟨pv0, -, P1, hP1, hp1, hp2, hp3⟩ := hpok
  rw [hmp] at hP1; cases Option.some.inj hP1
  have hlo : lo ≠ none := fun h => hXne (hs.ctx.first_iff.mpr h)
  have hnd3 : (U ++ (X0 ++ (lp, n.prv) :: (lo, leaf) :: Y).map Prod.snd).Nodup := by
    have := hs.nd
    rw [hX] at this; simpa using this
  obtain ⟨hpl, pU, lU, pX, lX0, pY, lY, dX, dY, ndY, hnd4⟩ := nodup_pair hnd3
  have hxY : n.nxt ≠ 0 → n.nxt ∈ Y.map Prod.snd := by
    intro h
    obtain ⟨ln, Y3, hY3, -⟩ := (next_facts hs.ok.1 hm).2 h
    rw [hY3]; simp
  have hxl : n.nxt ≠ leaf := by
    by_cases h : n.nxt = 0
    · rw [h]; exact l0.symm
    · exact ne_of_mem_of_not_mem (hxY h) lY
  have hxp : n.nxt ≠ n.prv := by
    by_cases h : n.nxt = 0
    · rw [h]; exact hprv.symm
    · exact ne_of_mem_of_not_mem (hxY h) pY
  have hoffm : 0 ≤ off ∧ off < s.bstat.new_leaf_nkey := ⟨h0, by rw [← hmin]; exact h1⟩
  obtain ⟨t, s8, Q, r1, r2, r3, r4, r5, r6, r7, r8, r9, g1, g2, g3, q1, q2, q3⟩ :=
    @leaf_merge_prv_run s leaf n.prv n.nxt n P off (⟨pa, poff⟩ :: stk) l0 pv0 hpl.symm hm hmp
      hoffm (by omega)
      (fun h => by
        obtain ⟨ln, Y3, -, -, -, Nx, hNx, -⟩ := (next_facts hs.ok.1 hm).2 h
        exact ⟨Nx, hNx⟩) hxp hxl
  have hlay := leaf_merge_prv_layout hmin hpk hoffm g1 q1 q2 q3
  have he : Ext s s8 := Ext.of_stat r7 r8
  obtain ⟨U2, X2, lo2, Y2, n2, hc2, hm2, hok2, c0, c1, eU, hcut, -⟩ :=
    leaf_cut_level hs.ctx hs.hp
  have hcut1 := hcut hlo
  have hAU : Agree s s8 U := by
    intro b hb
    refine r6 b (ne_of_mem_of_not_mem hb pU) (ne_of_mem_of_not_mem hb lU) ?_
    intro h
    by_cases hz : n.nxt = 0
    · exact (hs.ctx.upper_bound b hb).1 (h.trans hz)
    · exact dY _ (hxY hz) (h ▸ hb)
  have hok0 : LeafOK s cmp s.bstat.new_leaf_nkey (X0 ++ (lp, n.prv) :: (lo, leaf) :: Y) := by
    have := hs.ok
    rw [hmn, hX] at this
    simpa using this
  have hho : ∀ b, b ∈ (X0 ++ Y).map Prod.snd → b ≠ n.nxt → s8.mem b = s.mem b := by
    intro b hb hbx
    refine r6 b ?_ ?_ hbx
    · intro h
      simp only [List.map_append, List.mem_append] at hb
      rcases hb with hb | hb
      · exact pX (h ▸ hb)
      · exact pY (h ▸ hb)
    · intro h
      simp only [List.map_append, List.mem_append] at hb
      rcases hb with hb | hb
      · exact lX0 (h ▸ hb)
      · exact lY (h ▸ hb)
  have hQr : 0 ≤ Q.nkey ∧ s.bstat.new_leaf_nkey ≤ Q.nkey ∧ Q.nkey ≤ s.bstat.order :=
    ⟨by rw [g1]; omega, by rw [g1]; omega, by rw [g1]; omega⟩
  obtain ⟨u1, u2, u3⟩ := @unlink_frame s s8 s.bstat.new_leaf_nkey s.bstat.new_leaf_nkey X0 Y
    lp lp lo n.prv leaf P n Q hok0.1 hmp hm he (List.nodup_append.mp hnd3).2.1 r3 g2 g3 hQr
    (le_refl _) r5 hho
  have hpw : ((contents s (X0.map Prod.snd)).map (·.key) ++ ((node_ents Q).map (·.key) ++
      (contents s (Y.map Prod.snd)).map (·.key))).Pairwise (lt cmp) := by
    have hold := hok0.2.1
    simp only [List.map_append, contents_append, contents, List.map_cons, List.map_nil,
      leaf_ents_of_mem hmp, leaf_ents_of_mem hm, List.append_nil, List.append_assoc] at hold
    rw [hlay]
    conv at hold => rw [node_ents_split_at h0 h1]
    simp only [List.map_append, List.map_cons, List.append_assoc] at hold ⊢
    rw [← List.append_assoc, ← List.append_assoc] at hold ⊢
    exact pairwise_erase hold
  have hok : LeafOK s8 cmp s.bstat.new_leaf_nkey (X0 ++ (lp, n.prv) :: Y) := by
    refine @leafOK_unlink s s8 cmp s.bstat.new_leaf_nkey s.bstat.new_leaf_nkey X0 Y lp lp lo
      n.prv leaf P n Q hok0 hmp hm he (List.nodup_append.mp hnd3).2.1 r3 g2 g3 hQr (le_refl _)
      r5 hho hpw ?_
    intro l1 hl1
    obtain ⟨n3, hn3, hk1, hk2⟩ := hok0.2.2 (lp, n.prv) (by simp) l1 hl1
    simp only at hn3
    rw [hmp] at hn3; cases Option.some.inj hn3
    exact ⟨by rw [g1]; omega, by rw [q1 0 (le_refl _) (by omega)]; exact hk2⟩
  have hA2 : Agree s s8 ((X2 ++ (lo2, pa) :: Y2).map Prod.snd) :=
    fun b hb => hAU b (by rw [eU]; exact List.mem_append_right _ hb)
  have hA2X : Agree s s8 (X2.map Prod.snd) :=
    fun b hb => hA2 b (by simp only [List.map_append, List.mem_append]; exact Or.inl hb)
  have hA2Y : Agree s s8 (Y2.map Prod.snd) :=
    fun b hb => hA2 b (by
      simp only [List.map_append, List.map_cons, List.mem_append, List.mem_cons]
      exact Or.inr (Or.inr hb))
  have hpaU : pa ∈ U := by rw [eU]; simp
  have hT : cut_level s8 X2 lo2 n2 poff Y2 = X0 ++ (lp, n.prv) :: Y := by
    unfold cut_level
    rw [expand_congr hA2X, expand_congr hA2Y, hcut1, hX]
    simp
  refine ⟨t, s8, r1, r2, r9, U2, X2, lo2, Y2, n2, ?_, ?_⟩
  · refine ⟨hs.hc, by rw [r7]; exact hs.hp, by rw [r8]; exact hs.hb, ?_,
      (hAU pa hpaU).trans hm2, ?_, c0, c1, ?_, ?_, ?_⟩
    · exact hc2.frame he (by rw [r7])
        (fun b hb => hAU b (by rw [eU]; exact List.mem_append_left _ hb))
    · rw [min_inner_congr he]
      exact InnerOK.congr_inner he hA2 (le_refl _) hok2
    · have := hs.len
      simp only [List.length_cons] at this
      rw [r7]; omega
    · show LeafOK s8 cmp (min_leaf s8 false) (cut_level s8 X2 lo2 n2 poff Y2)
      rw [hT]
      have : min_leaf s8 false = s.bstat.new_leaf_nkey := by
        simp only [min_leaf, Bool.false_eq_true, if_false, r7]
      rw [this]; exact hok
    · show ((U2 ++ (X2 ++ (lo2, pa) :: Y2).map Prod.snd) ++
        (cut_level s8 X2 lo2 n2 poff Y2).map Prod.snd).Nodup
      rw [hT, ← eU]
      exact hnd4
  · show contents s8 ((cut_level s8 X2 lo2 n2 poff Y2).map Prod.snd) = _
    rw [hT, contents_focus, leaf_ents_of_mem r3, contents_congr u2, contents_alike u3, hlay, hX]
    simp only [List.map_append, contents_append, contents, List.map_cons, List.map_nil,
      leaf_ents_of_mem hmp, List.append_nil, List.append_assoc]

/-! ## `bpt_delete_entry`: the first leaf of the level merged into the next -/

theorem leaf_merge_nxt_run {s : State} {leaf nxt : Int} {n Nx : bpt_node} {off : Int}
    (h0 : leaf ≠ 0) (hx0 : nxt ≠ 0) (hne : leaf ≠ nxt) (hm : s.mem leaf = some n)
    (hmx : s.mem nxt = some Nx) (hoff : 0 ≤ off ∧ off < s.bstat.new_leaf_nkey)
    (hord : 2 * s.bstat.new_leaf_nkey - 1 ≤ s.bstat.order) :
    ∃ S1 S2 B,
      memmove s nxt (s.bstat.new_leaf_nkey - 1) nxt 0 s.bstat.new_leaf_nkey = some S1 ∧
      memcpy S1 nxt 0 leaf 0 off = some S2 ∧
      memcpy S2 nxt off leaf (off + 1) (s.bstat.new_leaf_nkey - 1 - off) = some (wr s nxt B) ∧
      B.nkey = Nx.nkey ∧ B.prv = Nx.prv ∧ B.nxt = Nx.nxt ∧
      (∀ i, 0 ≤ i → i < off → B.entries i = n.entries (0 + i)) ∧
      (∀ i, 0 ≤ i → i < s.bstat.new_leaf_nkey - 1 - off →
        B.entries (off + i) = n.entries (off + 1 + i)) ∧
      (∀ i, 0 ≤ i → i < s.bstat.new_leaf_nkey →
        B.entries (off + (s.bstat.new_leaf_nkey - 1 - off) + i) = Nx.entries (0 + i)) := by
  obtain ⟨B1, hB1⟩ : ∃ B1 : bpt_node, B1 = { Nx with
    entries := moved Nx Nx (s.bstat.new_leaf_nkey - 1) 0 s.bstat.new_leaf_nkey } := ⟨_, rfl⟩
  obtain ⟨B2, hB2⟩ : ∃ B2 : bpt_node, B2 = { B1 with
    entries := moved B1 n 0 0 off } := ⟨_, rfl⟩
  obtain ⟨B3, hB3⟩ : ∃ B3 : bpt_node, B3 = { B2 with
    entries := moved B2 n off (off + 1) (s.bstat.new_leaf_nkey - 1 - off) } := ⟨_, rfl⟩
  have e1 : memmove s nxt (s.bstat.new_leaf_nkey - 1) nxt 0 s.bstat.new_leaf_nkey =
      some (wr s nxt B1) := by
    rw [hB1]
    exact memmove_eq _ _ _ hx0 hmx hx0 hmx (by omega) (fun _ => by omega)
  have e2 : memcpy (wr s nxt B1) nxt 0 leaf 0 off = some (wr s nxt B2) := by
    rw [hB2, memcpy_eq _ _ _ hx0 (wr_mem_same s nxt B1) h0
      ((wr_mem_of_ne _ hne).trans hm) (by omega)
      (fun _ => by simp only [wr_bstat]; omega) hne.symm, wr_wr]
  have e3 : memcpy (wr s nxt B2) nxt off leaf (off + 1) (s.bstat.new_leaf_nkey - 1 - off) =
      some (wr s nxt B3) := by
    rw [hB3, memcpy_eq _ _ _ hx0 (wr_mem_same s nxt B2) h0
      ((wr_mem_of_ne _ hne).trans hm) (by omega)
      (fun _ => by simp only [wr_bstat]; omega) hne.symm, wr_wr]
  refine ⟨_, _, B3, e1, e2, e3, ?_, ?_, ?_, ?_, ?_, ?_⟩
  · rw [hB3, hB2, hB1]
  · rw [hB3, hB2, hB1]
  · rw [hB3, hB2, hB1]
  · intro i i0 i1
    rw [hB3, hB2, hB1]
    simp only [moved]
    rw [if_neg (by omega), if_pos (by omega)]
    congr 1; omega
  · intro i i0 i1
    rw [hB3, hB2, hB1]
    simp only [moved]
    rw [if_pos (by omega)]
    congr 1; omega
  · intro i i0 i1
    rw [hB3, hB2, hB1]
    simp only [moved]
    rw [if_neg (by omega), if_neg (by omega), if_pos (by omega)]
    congr 1; omega

theorem leaf_merge_nxt_layout {n Nx B : bpt_node} {off mi : Int}
    (hn : n.nkey = mi) (hX : Nx.nkey = mi) (hoff : 0 ≤ off ∧ off < mi)
    (g1 : B.nkey = mi + mi - 1)
    (h1 : ∀ i, 0 ≤ i → i < off → B.entries i = n.entries (0 + i))
    (h2 : ∀ i, 0 ≤ i → i < mi - 1 - off → B.entries (off + i) = n.entries (off + 1 + i))
    (h3 : ∀ i, 0 ≤ i → i < mi → B.entries (off + (mi - 1 - off) + i) = Nx.entries (0 + i)) :
    node_ents B =
      ((node_ents n).take off.toNat ++ (node_ents n).drop (off.toNat + 1)) ++ node_ents Nx := by
  have e := @ents_glue3 B n n Nx 0 (off + 1) 0 off (mi - 1 - off) mi (le_refl _)
    (by omega) (le_refl _) hoff.1 (by omega) (by omega) (by omega) (by omega) (by omega)
    (by omega) h1 h2 h3
  have q : (off + 1).toNat = off.toNat + 1 := by omega
  rw [e, seg_from_zero, seg_to_end n (by omega) (by omega), q,
    seg_to_end Nx (le_refl _) (by omega)]
  simp

theorem LeafSit.first_leaf {cmp : bpt_t → bpt_t → Int} {s : State} {stk : gen_stk}
    {f : bpt_frm} {U : List Int} {X Y : List Item} {lo : Option bpt_t} {leaf : Int} {k : bpt_t}
    {n : bpt_node} (hs : LeafSit cmp s (f :: stk) U X lo leaf Y k) (hm : s.mem leaf = some n)
    (hprv : n.prv = 0) : n.nxt ≠ 0 := by
  have hX : X = [] := (prev_facts hs.ok.1 hm).1.mp hprv
  have hlo : lo = none := hs.ctx.first_iff.mp hX
  obtain ⟨pa, poff⟩ := f
  obtain ⟨U2, X2, lo2, Y2, n2, -, -, -, -, -, -, -, hcut⟩ := leaf_cut_level hs.ctx hs.hp
  obtain ⟨-, -, k0, x, Y3, hY, -⟩ := hcut hlo
  intro h
  have := (next_facts hs.ok.1 hm).1.mp h
  rw [hY] at this; cases this

theorem node_delete_run {s : State} {a : Int} {n : bpt_node} (h0 : a ≠ 0)
    (h : s.mem a = some n) :
    ∃ t, bpt_node_delete s a = some t ∧ t.mem a = none ∧ (∀ b, b ≠ a → t.mem b = s.mem b) ∧
      t.bstat = s.bstat ∧ t.brk = s.brk ∧ t.alloc = s.alloc := by
  refine ⟨_, node_delete_eq h0 h, ?_, ?_, rfl, rfl, rfl⟩
  · show Function.update s.mem a none a = none
    rw [Function.update_same]
  · intro b hb
    show Function.update s.mem a none b = _
    rw [Function.update_noteq hb]

/-- The merge branch of `bpt_delete_entry` when the leaf is the first of its
level: either the copy of the journal could not be allocated, or the leaf is
released and the top frame of the journal is the frame of a released child. -/
theorem delete_entry_merge_nxt_spec {cmp : bpt_t → bpt_t → Int} {s : State} {stk : gen_stk}
    {pa poff : Int} {U : List Int} {X Y : List Item} {lo : Option bpt_t} {leaf : Int}
    {k : bpt_t} {n Nx : bpt_node} {off : Int}
    (hs : LeafSit cmp s (⟨pa, poff⟩ :: stk) U X lo leaf Y k) (hm : s.mem leaf = some n)
    (h0 : 0 ≤ off) (h1 : off < n.nkey) (hmin : n.nkey = s.bstat.new_leaf_nkey)
    (hprv : n.prv = 0) (hmx : s.mem n.nxt = some Nx) (hxk : Nx.nkey = s.bstat.new_leaf_nkey) :
    ∃ r, delete_entry_merge s leaf off n.prv n.nxt (⟨pa, poff⟩ :: stk) = some r ∧
      (s.alloc = [] → r.2.alloc = []) ∧ (r.1 = false → s.alloc ≠ []) ∧
      (r.1 = true → ∃ s8, bpt_node_delete r.2 leaf = some s8 ∧ s8.alloc = r.2.alloc ∧
        ∃ U2 X2 lo2 Y2 n2, CutSit cmp s8 stk pa poff 0 U2 X2 lo2 Y2 n2 ∧
          contents s8 ((level_below s8 0 (cut_level s8 X2 lo2 n2 poff Y2)).map Prod.snd) =
            (contents s (X.map Prod.snd) ++ (node_ents n).take off.toNat) ++
              ((node_ents n).drop (off.toNat + 1) ++ contents s (Y.map Prod.snd))) := by
  obtain ⟨l0, lb, n1, hm1, hn0, hn1, hn2, -, -, -, -⟩ := hs.node
  rw [hm] at hm1; cases Option.some.inj hm1
  obtain ⟨p3, -, -, -, -, p5, p6, p7, p8⟩ := params_arith hs.hp
  have hnxt : n.nxt ≠ 0 := hs.first_leaf hm hprv
  have hX : X = [] := (prev_facts hs.ok.1 hm).1.mp hprv
  have hlo : lo = none := hs.ctx.first_iff.mp hX
  subst hX; subst hlo
  obtain ⟨ln, Y1, hY, hxok⟩ := (next_facts hs.ok.1 hm).2 hnxt
  subst hY
  obtain ⟨hlx, lU, xU, -, -, lY1, xY1, -, dY, -, -⟩ := nodup_pair hs.nd
  have hoffm : 0 ≤ off ∧ off < s.bstat.new_leaf_nkey := ⟨h0, by rw [← hmin]; exact h1⟩
  obtain ⟨S1, S2, B, e1, e2, e3, g1, g2, g3, q1, q2, q3⟩ :=
    @leaf_merge_nxt_run s leaf n.nxt n Nx off l0 hnxt hlx hm hmx hoffm (by omega)
  obtain ⟨t0, ht0⟩ : ∃ t0, (alloc_request (wr s n.nxt B)).2 = t0 := ⟨_, rfl⟩
  have hst : SameTree (wr s n.nxt B) t0 := ht0 ▸ alloc_request_same _
  by_cases hal : (alloc_request (wr s n.nxt B)).1 = true
  swap
  · have hal' : (alloc_request (wr s n.nxt B)).1 = false := by simpa using hal
    refine ⟨(false, t0), ?_, fun h => ?_, fun _ => ?_, fun h => absurd h (by simp)⟩
    · unfold delete_entry_merge
      simp only [hprv, ne_eq, not_true_eq_false, if_false, bind, Option.bind_eq_bind, e1,
        Option.some_bind, e2, e3, gen_stk_empty, List.isEmpty_cons, Bool.false_eq_true,
        gen_stk_copy, hal', ht0]
    · show t0.alloc = []
      rw [← ht0]; exact alloc_request_alloc (wr s n.nxt B) h
    · exact @alloc_request_false (wr s n.nxt B) hal'
  have hbs0 : t0.bstat = s.bstat := hst.2.1
  have hbrk0 : t0.brk = s.brk := hst.2.2
  have hmem0 : ∀ b, b ≠ n.nxt → t0.mem b = s.mem b := by
    intro b hb; rw [hst.1]; exact wr_mem_of_ne _ hb
  have hx0m : t0.mem n.nxt = some B := by rw [hst.1]; exact wr_mem_same _ _ _
  have hc0 : Ctx t0 (⟨pa, poff⟩ :: stk) U [] none leaf ((ln, n.nxt) :: Y1) :=
    hs.ctx.frame (Ext.of_stat hbs0 hbrk0) (by rw [hbs0])
      (fun b hb => hmem0 b (ne_of_mem_of_not_mem hb xU))
  obtain ⟨mo, mn, nm, m1, m2, m3, m4, m5, m6, m7, -, m9⟩ := hc0.right_sep.2 (by simp)
  have hmo : ¬ mo = -1 := by omega
  obtain ⟨t1, ht1⟩ : ∃ t1, t1 = wr t0 mn (with_key nm mo (B.entries 0).key) := ⟨_, rfl⟩
  have hc1 := m9 (B.entries 0).key
  rw [← ht1] at hc1
  have hxmn : n.nxt ≠ mn := (ne_of_mem_of_not_mem m2 xU).symm
  have hlmn : leaf ≠ mn := (ne_of_mem_of_not_mem m2 lU).symm
  have hx1m : t1.mem n.nxt = some B := by rw [ht1, wr_mem_of_ne _ hxmn]; exact hx0m
  obtain ⟨B5, hB5⟩ : ∃ B5 : bpt_node, B5 = { ({ B with
    nkey := s.bstat.new_leaf_nkey + s.bstat.new_leaf_nkey - 1 } : bpt_node) with prv := 0 } :=
    ⟨_, rfl⟩
  have hl1m : (wr t1 n.nxt B5).mem leaf = some n := by
    rw [wr_mem_of_ne _ hlx, ht1, wr_mem_of_ne _ hlmn, hmem0 leaf hlx]; exact hm
  obtain ⟨s8, hdel, d1, d2, d3, d4, d5⟩ := node_delete_run l0 hl1m
  have hrun : delete_entry_merge s leaf off n.prv n.nxt (⟨pa, poff⟩ :: stk) =
      some (true, wr t1 n.nxt B5) := by
    unfold delete_entry_merge
    simp only [hprv, ne_eq, not_true_eq_false, if_false, bind, Option.bind_eq_bind, e1,
      Option.some_bind, e2, e3, gen_stk_empty, List.isEmpty_cons, Bool.false_eq_true,
      gen_stk_copy, hal, if_true, ht0, m1, hmo,
      get_entry_eq hnxt hx0m (le_refl _) (by rw [hbs0]; omega),
      set_key_eq' m3 m4 m5 (by omega : mo ≤ t0.bstat.order), ← ht1,
      set_nkey_eq hnxt hx1m, wr_wr, set_prv_eq hnxt (wr_mem_same t1 n.nxt _), ← hB5]
  have hbs1 : t1.bstat = s.bstat := by rw [ht1]; exact hbs0
  have hbs8 : s8.bstat = s.bstat := by rw [d3]; exact hbs1
  have hbrk8 : s8.brk = s.brk := by rw [d4, ht1]; exact hbrk0
  have f1 : s8.mem n.nxt = some B5 := by
    rw [d2 _ hlx.symm, wr_mem_same]
  have f2 : ∀ b, b ≠ leaf → b ≠ n.nxt → s8.mem b = t1.mem b := by
    intro b b1 b2
    rw [d2 b b1, wr_mem_of_ne _ b2]
  have f3 : ∀ b, b ≠ leaf → b ≠ n.nxt → b ∉ U → s8.mem b = s.mem b := by
    intro b b1 b2 b3
    rw [f2 b b1 b2, ht1, wr_mem_of_ne _ (fun h : b = mn => b3 (h.symm ▸ m2))]
    exact hmem0 b b2
  have he : Ext s s8 := Ext.of_stat hbs8 hbrk8
  have he1 : Ext t1 s8 := Ext.of_stat (hbs8.trans hbs1.symm) (by rw [d4]; rfl)
  have hA1 : Agree t1 s8 U := fun b hb =>
    f2 b (ne_of_mem_of_not_mem hb lU) (ne_of_mem_of_not_mem hb xU)
  obtain ⟨U2, X2, lo2, Y2, n2, hc2, hm2, hok2, c0, c1, eU, -, hcut⟩ :=
    leaf_cut_level hc1 (by rw [hbs1]; exact hs.hp)
  obtain ⟨-, -, k0, x, Y3, hY3, hcut1⟩ := hcut rfl
  simp only [set_hi, List.cons.injEq, Prod.mk.injEq] at hY3
  obtain ⟨⟨-, hx⟩, hY31⟩ := hY3
  subst hx; subst hY31
  have hlay := leaf_merge_nxt_layout (B := B5) hmin hxk hoffm (by rw [hB5])
    (by rw [hB5]; exact q1) (by rw [hB5]; exact q2) (by rw [hB5]; exact q3)
  have hok0 : LeafOK s cmp s.bstat.new_leaf_nkey ((none, leaf) :: (ln, n.nxt) :: Y1) := hs.ok
  have hho : ∀ b, b ∈ Y1.map Prod.snd → s8.mem b = s.mem b := fun b hb =>
    f3 b (fun h => lY1 (h ▸ hb)) (fun h => xY1 (h ▸ hb)) (dY b hb)
  have hpw : ((node_ents B5).map (·.key) ++
      (contents s (Y1.map Prod.snd)).map (·.key)).Pairwise (lt cmp) := by
    have hold := hok0.2.1
    simp only [contents, List.map_cons, List.map_append, leaf_ents_of_mem hmx,
      leaf_ents_of_mem hm, List.append_assoc] at hold
    rw [hlay]
    conv at hold => rw [node_ents_split_at h0 h1]
    simp only [List.map_append, List.map_cons, List.append_assoc] at hold ⊢
    exact pairwise_erase hold
  have hok : LeafOK s8 cmp s.bstat.new_leaf_nkey ((none, n.nxt) :: Y1) := by
    refine @leafOK_unlink_first s s8 cmp s.bstat.new_leaf_nkey s.bstat.new_leaf_nkey Y1 none ln
      none leaf n.nxt n Nx B5 hok0 hm hmx he f1 (by rw [hB5]; exact hprv.symm)
      (by rw [hB5]; exact g3) ⟨by rw [hB5]; show 0 ≤ _ + _ - 1; omega,
        by rw [hB5]; show _ ≤ _ + _ - 1; omega, by rw [hB5]; show _ + _ - 1 ≤ _; omega⟩
      (le_refl _) hho hpw (fun l hl => by cases hl)
  have hA2 : Agree t1 s8 ((X2 ++ (lo2, pa) :: Y2).map Prod.snd) :=
    fun b hb => hA1 b (by rw [eU]; exact List.mem_append_right _ hb)
  have hA2X : Agree t1 s8 (X2.map Prod.snd) :=
    fun b hb => hA2 b (by simp only [List.map_append, List.mem_append]; exact Or.inl hb)
  have hA2Y : Agree t1 s8 (Y2.map Prod.snd) :=
    fun b hb => hA2 b (by
      simp only [List.map_append, List.map_cons, List.mem_append, List.mem_cons]
      exact Or.inr (Or.inr hb))
  have hpaU : pa ∈ U := by rw [eU]; simp
  have hT : cut_level s8 X2 lo2 n2 poff Y2 = (none, n.nxt) :: Y1 := by
    unfold cut_level
    rw [expand_congr hA2X, expand_congr hA2Y]
    exact hcut1
  refine ⟨(true, wr t1 n.nxt B5), hrun, fun h => ?_, fun h => absurd h (by simp), fun _ => ?_⟩
  · show (wr t1 n.nxt B5).alloc = []
    rw [ht1]
    show t0.alloc = []
    rw [← ht0]; exact alloc_request_alloc (wr s n.nxt B) h
  refine ⟨s8, hdel, d5, U2, X2, lo2, Y2, n2, ?_, ?_⟩
  · refine ⟨hs.hc, by rw [hbs8]; exact hs.hp, by rw [hbrk8]; exact hs.hb, ?_,
      (hA1 pa hpaU).trans hm2, ?_, c0, c1, ?_, ?_, ?_⟩
    · exact hc2.frame he1 (by rw [hbs8, hbs1])
        (fun b hb => hA1 b (by rw [eU]; exact List.mem_append_left _ hb))
    · rw [min_inner_congr he1]
      exact InnerOK.congr_inner he1 hA2 (le_refl _) hok2
    · have := hs.len
      simp only [List.length_cons] at this
      rw [hbs8]; omega
    · show LeafOK s8 cmp (min_leaf s8 false) (cut_level s8 X2 lo2 n2 poff Y2)
      rw [hT]
      have : min_leaf s8 false = s.bstat.new_leaf_nkey := by
        simp only [min_leaf, Bool.false_eq_true, if_false, hbs8]
      rw [this]; exact hok
    · show ((U2 ++ (X2 ++ (lo2, pa) :: Y2).map Prod.snd) ++
        (cut_level s8 X2 lo2 n2 poff Y2).map Prod.snd).Nodup
      rw [hT, ← eU]
      have hold := hs.nd
      simp only [List.nil_append, List.map_cons] at hold ⊢
      exact hold.sublist ((List.Sublist.refl U).append (List.sublist_cons_self leaf _))
  · show contents s8 ((cut_level s8 X2 lo2 n2 poff Y2).map Prod.snd) = _
    rw [hT]
    simp only [List.map_cons, contents, leaf_ents_of_mem f1, leaf_ents_of_mem hmx, List.map_nil,
      List.nil_append, List.append_assoc]
    rw [contents_congr hho, hlay]
    simp only [List.append_assoc]

/-! ## `bpt_delete_entry` and `bpt_delete` -/

theorem entry_eval {s : State} {leaf off : Int} {n : bpt_node} (stk : gen_stk)
    (a0 : leaf ≠ 0) (hm : s.mem leaf = some n) (pk xk : Int)
    (hp : n.prv ≠ 0 → bpt_node_nkey s n.prv = some pk)
    (hp0 : n.prv = 0 → pk = s.bstat.new_leaf_nkey)
    (hx : n.nxt ≠ 0 → bpt_node_nkey s n.nxt = some xk)
    (hx0 : n.nxt = 0 → xk = s.bstat.new_leaf_nkey)
    (hk : ¬ (n.nkey ≠ s.bstat.new_leaf_nkey ∨ gen_stk_empty stk = true)) :
    bpt_delete_entry leaf off stk s =
      if n.prv ≠ 0 ∧ pk ≠ s.bstat.new_leaf_nkey then
        (delete_entry_prv s leaf off n.prv pk stk).bind
          fun s1 => some (BPT_PRED_SUCCESS, s1)
      else if n.nxt ≠ 0 ∧ xk ≠ s.bstat.new_leaf_nkey then
        (delete_entry_nxt s leaf off n.prv n.nxt xk stk).bind
          fun s1 => some (BPT_PRED_SUCCESS, s1)
      else
        (delete_entry_merge s leaf off n.prv n.nxt stk).bind
          fun r => if r.1 = false then some (BPT_ERROR, r.2)
            else (bpt_node_delete r.2 leaf).bind fun s8 => bpt_delete_ientry stk s8 := by
  unfold bpt_delete_entry
  simp only [Option.bind_eq_bind, nkey_eq a0 hm, Option.some_bind, hk, if_false,
    prv_eq a0 hm, nxt_eq a0 hm]
  by_cases h1 : n.prv = 0
  · have e1 := hp0 h1
    subst e1
    by_cases h2 : n.nxt = 0
    · have e2 := hx0 h2
      subst e2
      simp only [h1, h2, ne_eq, not_true_eq_false, if_false, Option.some_bind, false_and]
    · simp only [h1, h2, ne_eq, not_true_eq_false, not_false_eq_true, if_true, if_false,
        Option.some_bind, false_and, true_and, hx h2]
  · by_cases h2 : n.nxt = 0
    · have e2 := hx0 h2
      subst e2
      simp only [h1, h2, ne_eq, not_true_eq_false, not_false_eq_true, if_true, if_false,
        Option.some_bind, false_and, true_and, hp h1]
    · simp only [h1, h2, ne_eq, not_true_eq_false, not_false_eq_true, if_true, if_false,
        Option.some_bind, false_and, true_and, hp h1, hx h2]

/-- The function `bpt_delete_entry` at slot `off` of the leaf the journal
leads to: it returns; it fails only when the allocator refuses the copy of
the journal; otherwise the tree is well formed and has lost exactly that
entry. -/
theorem bpt_delete_entry_spec {cmp : bpt_t → bpt_t → Int} {s : State} {stk : gen_stk}
    {U : List Int} {X Y : List Item} {lo : Option bpt_t} {leaf : Int} {k : bpt_t}
    {n : bpt_node} {off : Int}
    (hs : LeafSit cmp s stk U X lo leaf Y k) (hm : s.mem leaf = some n) (h0 : 0 ≤ off)
    (h1 : off < n.nkey) :
    ∃ r t, bpt_delete_entry leaf off stk s = some (r, t) ∧
      (s.alloc = [] → t.alloc = []) ∧ (r = BPT_ERROR → s.alloc ≠ []) ∧
      (r ≠ BPT_ERROR → r = BPT_PRED_SUCCESS ∧ WF cmp t ∧
        tree_entries t = (contents s (X.map Prod.snd) ++ (node_ents n).take off.toNat) ++
          ((node_ents n).drop (off.toNat + 1) ++ contents s (Y.map Prod.snd))) := by
  obtain ⟨l0, lb, n1, hm1, hn0, hn1, hn2, -, -, -, -⟩ := hs.node
  rw [hm] at hm1; cases Option.some.inj hm1
  by_cases hk : n.nkey ≠ s.bstat.new_leaf_nkey ∨ gen_stk_empty stk = true
  · have hcond : n.nkey ≠ s.bstat.new_leaf_nkey ∨ stk = [] := by
      rcases hk with h | h
      · exact Or.inl h
      · exact Or.inr (by simpa [gen_stk_empty] using h)
    obtain ⟨t, e1, e2, e3, e4⟩ := delete_entry_simple_spec hs hm h0 h1 hcond
    refine ⟨BPT_PRED_SUCCESS, t, ?_, fun h => e3.trans h, (fun h => by cases h),
      fun _ => ⟨rfl, e2, e4⟩⟩
    unfold bpt_delete_entry
    simp only [Option.bind_eq_bind, nkey_eq l0 hm, Option.some_bind, hk, if_true, e1]
  · have hmin : n.nkey = s.bstat.new_leaf_nkey := by
      by_contra h; exact hk (Or.inl h)
    obtain ⟨f, stk1, hstk⟩ : ∃ f stk1, stk = f :: stk1 := by
      cases stk with
      | nil => exact absurd (Or.inr rfl) hk
      | cons f r => exact ⟨f, r, rfl⟩
    subst hstk
    obtain ⟨pa, poff⟩ := f
    obtain ⟨pk, hp, hp0, hpP⟩ : ∃ pk, (n.prv ≠ 0 → bpt_node_nkey s n.prv = some pk) ∧
        (n.prv = 0 → pk = s.bstat.new_leaf_nkey) ∧
        (n.prv ≠ 0 → ∃ P, s.mem n.prv = some P ∧ P.nkey = pk) := by
      by_cases h : n.prv = 0
      · exact ⟨_, fun h1 => absurd h h1, fun _ => rfl, fun h1 => absurd h h1⟩
      · obtain ⟨X0, lp, -, p0, -, P, hP, -⟩ := (prev_facts hs.ok.1 hm).2 h
        exact ⟨P.nkey, fun _ => nkey_eq p0 hP, fun h1 => absurd h1 h, fun _ => ⟨P, hP, rfl⟩⟩
    obtain ⟨xk, hx, hx0, hxP⟩ : ∃ xk, (n.nxt ≠ 0 → bpt_node_nkey s n.nxt = some xk) ∧
        (n.nxt = 0 → xk = s.bstat.new_leaf_nkey) ∧
        (n.nxt ≠ 0 → ∃ Nx, s.mem n.nxt = some Nx ∧ Nx.nkey = xk) := by
      by_cases h : n.nxt = 0
      · exact ⟨_, fun h1 => absurd h h1, fun _ => rfl, fun h1 => absurd h h1⟩
      · obtain ⟨ln, Y0, -, p0, -, Nx, hNx, -⟩ := (next_facts hs.ok.1 hm).2 h
        exact ⟨Nx.nkey, fun _ => nkey_eq p0 hNx, fun h1 => absurd h1 h, fun _ => ⟨Nx, hNx, rfl⟩⟩
    rw [entry_eval _ l0 hm pk xk hp hp0 hx hx0 hk]
    by_cases c1 : n.prv ≠ 0 ∧ pk ≠ s.bstat.new_leaf_nkey
    · obtain ⟨P, hP, rfl⟩ := hpP c1.1
      obtain ⟨t, e1, e2, e3, e4⟩ := delete_entry_prv_spec hs hm h0 h1 hmin c1.1 hP c1.2
      rw [if_pos c1, e1]
      exact ⟨_, t, rfl, fun h => e3.trans h, (fun h => by cases h), fun _ => ⟨rfl, e2, e4⟩⟩
    rw [if_neg c1]
    by_cases c2 : n.nxt ≠ 0 ∧ xk ≠ s.bstat.new_leaf_nkey
    · obtain ⟨Nx, hNx, rfl⟩ := hxP c2.1
      obtain ⟨t, e1, e2, e3, e4⟩ := delete_entry_nxt_spec hs hm h0 h1 hmin c2.1 hNx c2.2
      rw [if_pos c2, e1]
      exact ⟨_, t, rfl, fun h => e3.trans h, (fun h => by cases h), fun _ => ⟨rfl, e2, e4⟩⟩
    rw [if_neg c2]
    by_cases hprv : n.prv = 0
    · have hnxt : n.nxt ≠ 0 := hs.first_leaf hm hprv
      obtain ⟨Nx, hNx, rfl⟩ := hxP hnxt
      have hxk : Nx.nkey = s.bstat.new_leaf_nkey := by
        by_contra h; exact c2 ⟨hnxt, h⟩
      obtain ⟨r, e1, e2, e3, e4⟩ := delete_entry_merge_nxt_spec hs hm h0 h1 hmin hprv hNx hxk
      rw [e1]
      obtain ⟨fl, t⟩ := r
      cases fl with
      | false =>
        exact ⟨BPT_ERROR, t, rfl, e2, fun _ => e3 rfl, fun h => absurd rfl h⟩
      | true =>
        obtain ⟨s8, d1, d2, U2, X2, lo2, Y2, n2, d3, d4⟩ := e4 rfl
        obtain ⟨r, t1, k1, k2, k3, k4⟩ := ientry_loop_spec stk1 d3
        refine ⟨r, t1, ?_, fun h => k2 (d2.trans (e2 h)), fun h => ?_, fun h => ?_⟩
        · simp only [Option.some_bind, Bool.true_eq_false, if_false, d1]
          exact k1
        · exact fun h0 => k3 h (d2.trans (e2 h0))
        · obtain ⟨k5, k6, k7⟩ := k4 h
          exact ⟨k5, k6, k7.trans d4⟩
    · obtain ⟨P, hP, rfl⟩ := hpP hprv
      have hpk : P.nkey = s.bstat.new_leaf_nkey := by
        by_contra h; exact c1 ⟨hprv, h⟩
      obtain ⟨t, s8, d0, d1, d2, U2, X2, lo2, Y2, n2, d3, d4⟩ :=
        delete_entry_merge_prv_spec hs hm h0 h1 hmin hprv hP hpk
      obtain ⟨r, t1, k1, k2, k3, k4⟩ := ientry_loop_spec stk1 d3
      rw [d0]
      refine ⟨r, t1, ?_, fun h => k2 (d2.trans h), fun h => ?_, fun h => ?_⟩
      · simp only [Option.some_bind, Bool.true_eq_false, if_false, d1]
        exact k1
      · rw [← d2]; exact k3 h
      · obtain ⟨k5, k6, k7⟩ := k4 h
        exact ⟨k5, k6, k7.trans d4⟩

theorem scan_eq_spec (cmp : bpt_t → bpt_t → Int) (k : bpt_t) (e : Int → bpt_entry) (m : Int) :
    ∀ (fuel : Nat) (i0 : Int), 0 ≤ i0 → m - i0 ≤ fuel →
      (scan_eq cmp k e m fuel i0 = -1 ∧ ∀ j, i0 ≤ j → j < m → cmp k (e j).key ≠ 0) ∨
      (i0 ≤ scan_eq cmp k e m fuel i0 ∧ scan_eq cmp k e m fuel i0 < m ∧
        cmp k (e (scan_eq cmp k e m fuel i0)).key = 0 ∧
        ∀ j, i0 ≤ j → j < scan_eq cmp k e m fuel i0 → cmp k (e j).key ≠ 0) := by
  intro fuel
  induction fuel with
  | zero =>
    intro i0 h0 h
    left
    refine ⟨rfl, fun j h1 h2 => ?_⟩
    simp only [Nat.cast_zero] at h
    omega
  | succ f ih =>
    intro i0 h0 h
    simp only [scan_eq]
    by_cases hi : i0 < m
    · rw [if_pos hi]
      by_cases hc : cmp k (e i0).key = 0
      · rw [if_pos hc]
        exact Or.inr ⟨le_refl _, hi, hc, fun j h1 h2 => by omega⟩
      · rw [if_neg hc]
        have h' : m - (i0 + 1) ≤ (f : Int) := by push_cast at h; omega
        rcases ih (i0 + 1) (by omega) h' with ⟨r1, r2⟩ | ⟨r1, r2, r3, r4⟩
        · refine Or.inl ⟨r1, fun j h1 h2 => ?_⟩
          by_cases hj : j = i0
          · rw [hj]; exact hc
          · exact r2 j (by omega) h2
        · refine Or.inr ⟨by omega, r2, r3, fun j h1 h2 => ?_⟩
          by_cases hj : j = i0
          · rw [hj]; exact hc
          · exact r4 j (by omega) h2
    · rw [if_neg hi]
      exact Or.inl ⟨rfl, fun j h1 h2 => by omega⟩

/-- No key of the tree equals `k` when none of the leaf the descent for `k`
ends in does. -/
theorem LeafSit.absent_of_leaf {cmp : bpt_t → bpt_t → Int} {t : State} {stk : gen_stk}
    {U : List Int} {X Y : List Item} {lo : Option bpt_t} {leaf : Int} {k : bpt_t}
    {n : bpt_node} (hs : LeafSit cmp t stk U X lo leaf Y k) (hm : t.mem leaf = some n)
    (h : ∀ j, 0 ≤ j → j < n.nkey → cmp k (n.entries j).key ≠ 0) :
    ∀ x ∈ tree_entries t, x.key ≠ k := by
  intro x hx hk
  rw [hs.entries hm] at hx
  have hirr := lt_irrefl_cmp hs.hc k
  simp only [List.mem_append] at hx
  rcases hx with hx | hx | hx
  · exact hirr (hk ▸ left_lt hs.hc hs.ok hs.ctx.sep hs.bd x.key (List.mem_map_of_mem _ hx))
  · obtain ⟨j, hj, rfl⟩ := mem_node_ents.mp hx
    exact h j (by omega) hj ((hs.hc.eq_iff _ _).mpr hk.symm)
  · exact hirr (hk ▸ right_gt hs.hc hs.ok hs.ctx.sep hs.bd x.key (List.mem_map_of_mem _ hx))

/-- When the journaled descent has returned a journal, it returns the same
leaf and journal, and asks for no memory, on every stack that has room. -/
theorem journal_refit (bld bld1 : bpt_build) (cmp : bpt_t → bpt_t → Int) (k : bpt_t) :
    ∀ (d : Nat) (s : State) (a : Int) (obj obj1 : stk_obj) (leaf : Int) (o1 : stk_obj) (t : State),
      journal_descend bld cmp k d s a obj = some (some (leaf, o1), t) → Room bld1 obj1 d →
      obj1.frames = obj.frames →
      journal_descend bld1 cmp k d t a obj1 = some (some (leaf, { obj1 with frames := o1.frames }), t)
    := by
  intro d
  induction d with
  | zero =>
    intro s a obj obj1 leaf o1 t h _ hf
    simp only [journal_descend, Option.some.injEq, Prod.mk.injEq] at h
    obtain ⟨⟨h1, h2⟩, h3⟩ := h
    subst h1 h2 h3
    simp only [journal_descend, ← hf]
  | succ d ih =>
    intro s a obj obj1 leaf o1 t h hroom hf
    obtain ⟨hst, -⟩ := journal_follows bld cmp k _ _ _ _ _ _ h
    simp only [journal_descend] at h
    cases hcs : choose_slot cmp k s a with
    | none => rw [hcs] at h; simp at h
    | some p =>
      obtain ⟨i, c⟩ := p
      rw [hcs] at h
      simp only at h
      cases hp : gen_stk_push bld s obj ⟨a, i⟩ with
      | none => rw [hp] at h; simp at h
      | some p =>
        obtain ⟨r, s1⟩ := p
        rw [hp] at h
        obtain ⟨-, -, -, p4⟩ := gen_stk_push_inv hp
        cases r with
        | none => simp at h
        | some o =>
          simp only at h
          obtain ⟨hq, hroom1⟩ := gen_stk_push_room hroom t ⟨a, i⟩
          have := ih s1 c o { obj1 with frames := ⟨a, i⟩ :: obj1.frames } leaf o1 t h hroom1
            (by rw [p4 o rfl, hf])
          simp only [journal_descend, choose_slot_same hst, hcs, hq]
          exact this

/-- A stack with room for the journal of a tree of height `h`. -/
theorem fits_self (bld : bpt_build) (h : Nat) :
    Fits bld ⟨h, h, bld.sizeof_bpt_frm, h * bld.sizeof_bpt_frm, []⟩ true h :=
  Or.inr ⟨rfl, by simp [journal_stk], by simp [journal_stk]⟩

/-- The call `bpt_delete` on a well-formed tree whose journal fits the stack:
it returns, it fails only when the allocator refuses a request, and otherwise
the tree is well formed again and its entries changed as `DelSpec` tells. -/
theorem bpt_delete_spec {cmp : bpt_t → bpt_t → Int} (hc : cmp_total cmp) {s : State}
    (hw : WF cmp s) (e : bpt_entry) (pred : bpt_t → bpt_t → Int) {bld : bpt_build}
    {stk0 : stk_obj} {b : Bool} (hfit : Fits bld stk0 b s.bstat.height) :
    ∃ r t s1, bpt_delete bld e cmp pred stk0 b s = some (r, t) ∧ SameTree s s1 ∧
      (s.alloc = [] → s1 = s) ∧ (s.alloc = [] → t.alloc = []) ∧
      (r = BPT_ERROR → s.alloc ≠ []) ∧
      (r ≠ BPT_ERROR → WF cmp t ∧ DelSpec s1 e pred r t) := by
  obtain ⟨j1, j2, j3⟩ := journal_reset_spec s b
  unfold bpt_delete bpt_searchr
  simp only []
  by_cases hj : (journal_reset s b).1 = true
  swap
  · have hj1 : (journal_reset s b).1 = false := by simpa using hj
    rw [if_neg (by simp [hj1])]
    refine ⟨BPT_ERROR, _, s, rfl, SameTree.refl_same s, fun _ => rfl, ?_, fun _ => j3 hj1,
      fun h => absurd rfl h⟩
    intro h
    exact (j2 h).2
  · rw [if_pos hj]
    obtain ⟨leaf, stk, d1, U, X, lo, Y, c1, c2, c3, c4, c5⟩ :=
      descend_fit (j1.wf_same hw) e.key (journal_stk_frames bld stk0 b)
        (show Room bld (journal_stk bld stk0 b) (journal_reset s b).2.bstat.height by
          rw [j1.2.1]; exact hfit)
    rw [d1]
    simp only []
    clear d1
    generalize (journal_reset s b).2 = t1 at j1 j2 c1 c2 c3 c4 ⊢
    have hst : SameTree s t1 := j1
    have hal : s.alloc = [] → t1.alloc = [] := fun h => (j2 h).2
    have heq : s.alloc = [] → t1 = s := fun h => hst.eq_of_alloc ((hal h).trans h.symm)
    · have hw1 := hst.wf_same hw
      have hs : LeafSit cmp t1 stk U X lo leaf Y e.key :=
        ⟨hc, hw1.1, hw1.2.1, c1, c2, c3, c4, c5⟩
      obtain ⟨l0, lb, n, hm, hn0, hn1, hn2, -, -, -, -⟩ := hs.node
      have hfind : leaf_find cmp e.key t1 leaf =
          some (scan_eq cmp e.key n.entries n.nkey n.nkey.toNat 0) := by
        unfold leaf_find
        rw [rd_of_ne l0, hm]
        simp only [hn0, hn2, and_self, if_true]
      simp only [hfind]
      rcases scan_eq_spec cmp e.key n.entries n.nkey n.nkey.toNat 0 (le_refl _)
        (by rw [Int.toNat_of_nonneg hn0]; omega) with ⟨r1, r2⟩ | ⟨r1, r2, r3, r4⟩
      · rw [r1]
        simp only [if_true, l0, if_false]
        refine ⟨BPT_NEXIST, t1, t1, rfl, hst, heq, hal, (fun h => by cases h), fun _ => ⟨hw1, ?_⟩⟩
        exact Or.inl ⟨rfl, hs.absent_of_leaf hm (fun j h0 h1 => r2 j h0 h1), rfl⟩
      · obtain ⟨i, hi⟩ : ∃ i, scan_eq cmp e.key n.entries n.nkey n.nkey.toNat 0 = i := ⟨_, rfl⟩
        rw [hi] at r1 r2 r3 r4 ⊢
        have hne : ¬ i = -1 := by omega
        simp only [hne, if_false, get_entry_eq l0 hm r1 (by omega)]
        have hkey : (n.entries i).key = e.key := ((hc.eq_iff _ _).mp r3).symm
        have hent := hs.entries_at hm r1 r2
        by_cases hpred : pred e.val (n.entries i).val ≠ 0
        · rw [if_pos hpred]
          obtain ⟨r, t, g1, g2, g3, g4⟩ := bpt_delete_entry_spec hs hm r1 r2
          refine ⟨r, t, t1, g1, hst, heq, fun h => g2 (hal h), fun h h0 => g3 h (hal h0),
            fun h => ?_⟩
          obtain ⟨g5, g6, g7⟩ := g4 h
          exact ⟨g6, Or.inr (Or.inl ⟨g5, _, n.entries i, _, hent, hkey, hpred, g7⟩)⟩
        · rw [if_neg hpred]
          refine ⟨BPT_PRED_FAIL, t1, t1, rfl, hst, heq, hal, (fun h => by cases h),
            fun _ => ⟨hw1, ?_⟩⟩
          refine Or.inr (Or.inr ⟨rfl, n.entries i, ?_, hkey, not_not.mp hpred, rfl⟩)
          rw [hent]; simp

/-- A call of `bpt_delete` that returned without `BPT_ERROR` is also the call
on a stack made for the height of the tree: the stack handed over plays no
part in the result. -/
theorem bpt_delete_refit {bld : bpt_build} {e : bpt_entry} {cmp pred : bpt_t → bpt_t → Int}
    {stk : stk_obj} {b : Bool} {s t : State} {r : bpt_result}
    (hrun : bpt_delete bld e cmp pred stk b s = some (r, t)) :
    (r = BPT_ERROR ∧ s.alloc ≠ []) ∨ ∃ t1, SameTree s t1 ∧ (s.alloc = [] → t1 = s) ∧
      bpt_delete bld e cmp pred
        ⟨s.bstat.height, s.bstat.height, bld.sizeof_bpt_frm,
          s.bstat.height * bld.sizeof_bpt_frm, []⟩ true t1 = some (r, t) := by
  obtain ⟨j1, j2, j3⟩ := journal_reset_spec s b
  unfold bpt_delete bpt_searchr at hrun
  simp only [] at hrun
  by_cases hj : (journal_reset s b).1 = true
  swap
  · rw [if_neg hj] at hrun
    simp only [if_true, Option.some.injEq, Prod.mk.injEq] at hrun
    exact Or.inl ⟨hrun.1.symm, j3 (by simpa using hj)⟩
  · rw [if_pos hj] at hrun
    cases hd : journal_descend bld cmp e.key (journal_reset s b).2.bstat.height
        (journal_reset s b).2 (journal_reset s b).2.bstat.root_node (journal_stk bld stk b) with
    | none => rw [hd] at hrun; simp at hrun
    | some p =>
      obtain ⟨res, t1⟩ := p
      rw [hd] at hrun
      obtain ⟨g1, g2, g3, -⟩ := journal_follows bld cmp e.key _ _ _ _ _ _ hd
      cases res with
      | none =>
        simp only [if_true, Option.some.injEq, Prod.mk.injEq] at hrun
        exact Or.inl ⟨hrun.1.symm, fun h0 => g3 rfl (j2 h0).2⟩
      | some q =>
        obtain ⟨leaf, o1⟩ := q
        have hd1 := journal_refit bld bld cmp e.key _ _ _ _
          (journal_stk bld ⟨s.bstat.height, s.bstat.height, bld.sizeof_bpt_frm,
            s.bstat.height * bld.sizeof_bpt_frm, []⟩ true) leaf o1 t1 hd
          (by rw [j1.2.1]; exact fits_self bld s.bstat.height)
          (by simp [journal_stk_frames])
        refine Or.inr ⟨t1, j1.trans_same g1, ?_, ?_⟩
        · intro h0
          rw [g2 (j2 h0).2]
          exact j1.eq_of_alloc (by rw [(j2 h0).2, h0])
        · have e1 : t1.bstat = (journal_reset s b).2.bstat := g1.2.1
          have e2 : (journal_reset s b).2.bstat = s.bstat := j1.2.1
          have hjt : journal_reset t1 true = (true, t1) := rfl
          unfold bpt_delete bpt_searchr
          simp only [hjt, if_true, e1.trans e2]
          rw [e2] at hd1
          rw [hd1]
          exact hrun

/-- Whatever `bpt_delete` returns on a well-formed tree, with whatever stack:
it fails only when the allocator refuses a request, and otherwise the tree is
well formed again and its entries changed as `DelSpec` tells. -/
theorem bpt_delete_sound {cmp : bpt_t → bpt_t → Int} (hc : cmp_total cmp) {s : State}
    (hw : WF cmp s) (bld : bpt_build) (e : bpt_entry) (pred : bpt_t → bpt_t → Int)
    (stk : stk_obj) (b : Bool) {r : bpt_result} {t : State}
    (hrun : bpt_delete bld e cmp pred stk b s = some (r, t)) :
    ∃ s1, SameTree s s1 ∧
      (s.alloc = [] → s1 = s) ∧ (s.alloc = [] → t.alloc = []) ∧
      (r = BPT_ERROR → s.alloc ≠ []) ∧
      (r ≠ BPT_ERROR → WF cmp t ∧ DelSpec s1 e pred r t) := by
  rcases bpt_delete_refit hrun with ⟨hr, ha⟩ | ⟨t1, h1, h2, hrun1⟩
  · exact ⟨s, SameTree.refl_same s, fun _ => rfl, fun h0 => absurd h0 ha, fun _ => ha,
      fun h => absurd hr h⟩
  · have hw1 := h1.wf_same hw
    obtain ⟨r2, t2, s2, g1, g2, g3, g4, g5, g6⟩ := bpt_delete_spec hc hw1 e pred
      (show Fits bld _ true t1.bstat.height by rw [h1.2.1]; exact fits_self bld s.bstat.height)
    rw [hrun1] at g1
    simp only [Option.some.injEq, Prod.mk.injEq] at g1
    obtain ⟨q1, q2⟩ := g1
    subst q1 q2
    refine ⟨s2, h1.trans_same g2, ?_, ?_, ?_, g6⟩
    · intro h0
      have := h2 h0
      subst this
      exact g3 h0
    · intro h0
      have := h2 h0
      subst this
      exact g4 h0
    · intro hr h0
      have := h2 h0
      subst this
      exact g5 hr h0

/-- A call of `bpt_insert` that returned without `BPT_ERROR` is also the call
on a stack made for the height of the tree: the stack handed over plays no
part in the result. -/
theorem bpt_insert_refit {bld : bpt_build} {e : bpt_entry} {cmp pred : bpt_t → bpt_t → Int}
    {stk : stk_obj} {b : Bool} {s t : State} {r : bpt_result}
    (hrun : bpt_insert bld e cmp pred stk b s = some (r, t)) :
    (r = BPT_ERROR ∧ s.alloc ≠ []) ∨ ∃ t1, SameTree s t1 ∧ (s.alloc = [] → t1 = s) ∧
      bpt_insert bld e cmp pred
        ⟨s.bstat.height, s.bstat.height, bld.sizeof_bpt_frm,
          s.bstat.height * bld.sizeof_bpt_frm, []⟩ true t1 = some (r, t) := by
  obtain ⟨j1, j2, j3⟩ := journal_reset_spec s b
  unfold bpt_insert at hrun
  simp only [] at hrun
  by_cases hj : (journal_reset s b).1 = true
  swap
  · rw [if_neg hj] at hrun
    simp only [Option.some.injEq, Prod.mk.injEq] at hrun
    exact Or.inl ⟨hrun.1.symm, j3 (by simpa using hj)⟩
  · rw [if_pos hj] at hrun
    cases hd : journal_descend bld cmp e.key (journal_reset s b).2.bstat.height
        (journal_reset s b).2 (journal_reset s b).2.bstat.root_node (journal_stk bld stk b) with
    | none => rw [hd] at hrun; simp at hrun
    | some p =>
      obtain ⟨res, t1⟩ := p
      rw [hd] at hrun
      obtain ⟨g1, g2, g3, -⟩ := journal_follows bld cmp e.key _ _ _ _ _ _ hd
      cases res with
      | none =>
        simp only [Option.some.injEq, Prod.mk.injEq] at hrun
        exact Or.inl ⟨hrun.1.symm, fun h0 => g3 rfl (j2 h0).2⟩
      | some q =>
        obtain ⟨leaf, o1⟩ := q
        have hd1 := journal_refit bld bld cmp e.key _ _ _ _
          (journal_stk bld ⟨s.bstat.height, s.bstat.height, bld.sizeof_bpt_frm,
            s.bstat.height * bld.sizeof_bpt_frm, []⟩ true) leaf o1 t1 hd
          (by rw [j1.2.1]; exact fits_self bld s.bstat.height)
          (by simp [journal_stk_frames])
        refine Or.inr ⟨t1, j1.trans_same g1, ?_, ?_⟩
        · intro h0
          rw [g2 (j2 h0).2]
          exact j1.eq_of_alloc (by rw [(j2 h0).2, h0])
        · have e1 : t1.bstat = (journal_reset s b).2.bstat := g1.2.1
          have e2 : (journal_reset s b).2.bstat = s.bstat := j1.2.1
          have hjt : journal_reset t1 true = (true, t1) := rfl
          unfold bpt_insert
          simp only [hjt, if_true, e1.trans e2]
          rw [e2] at hd1
          rw [hd1]
          exact hrun

/-! ## Reachable states are well formed -/

theorem bpt_init_wf (cmp : bpt_t → bpt_t → Int) {alloc : List Bool} {order : Int} {s : State}
    (h3 : 3 ≤ order) (h : bpt_init (mem0 alloc) order = (0, s)) :
    WF cmp s ∧ tree_entries s = [] ∧ s.bstat.order = order ∧ s.bstat.height = 0 := by
  by_cases hal : (alloc_request (mem0 alloc)).1 = true
  · have hn : bpt_node_new (mem0 alloc) 0 0 =
        (1, grow (wr (alloc_request (mem0 alloc)).2 1 (fresh_node 0 0))) := by
      rw [node_new_ok _ _ hal]
      have : (alloc_request (mem0 alloc)).2.brk = 1 := (alloc_request_same _).2.2
      rw [this]
    have hi : bpt_init (mem0 alloc) order = (0, { grow (wr (alloc_request (mem0 alloc)).2 1
        (fresh_node 0 0)) with bstat :=
          { root_node := 1
            height := 0
            order := order
            old_leaf_nkey := Int.tdiv order 2 + 1
            new_leaf_nkey := order + 1 - (Int.tdiv order 2 + 1)
            old_inter_nkey := order - Int.tdiv order 2
            new_inter_nkey := order - (order - Int.tdiv order 2) } }) := by
      unfold bpt_init
      simp only [hn]
      rfl
    rw [hi] at h
    have hs := (Prod.mk.inj h).2
    have hbrk : (alloc_request (mem0 alloc)).2.brk = 1 := (alloc_request_same _).2.2
    have hm1 : s.mem 1 = some (fresh_node 0 0) := by
      rw [← hs]; simp [grow, wr]
    have hb : s.brk = 2 := by
      rw [← hs]
      show (alloc_request (mem0 alloc)).2.brk + 1 = 2
      rw [hbrk]; rfl
    have r1 : s.bstat.root_node = 1 := by rw [← hs]
    have r2 : s.bstat.height = 0 := by rw [← hs]
    have r3 : s.bstat.order = order := by rw [← hs]
    have r4 : s.bstat.old_leaf_nkey = Int.tdiv order 2 + 1 := by rw [← hs]
    have r5 : s.bstat.new_leaf_nkey = order + 1 - (Int.tdiv order 2 + 1) := by rw [← hs]
    have r6 : s.bstat.old_inter_nkey = order - Int.tdiv order 2 := by rw [← hs]
    have r7 : s.bstat.new_inter_nkey = order - (order - Int.tdiv order 2) := by rw [← hs]
    have hents : node_ents (fresh_node 0 0) = [] := by simp [node_ents, fresh_node]
    refine ⟨⟨?_, by rw [hb]; omega, ?_, ?_⟩, ?_, r3, r2⟩
    · exact ⟨by rw [r3]; exact h3, by rw [r4, r3], by rw [r5, r3], by rw [r6, r3],
        by rw [r7, r3]⟩
    · rw [r2, r1]
      show LeafOK s cmp (min_leaf s true) [(none, 1)]
      refine ⟨⟨?_, ?_⟩, ?_, ?_⟩
      · intro p hp
        rw [List.mem_singleton] at hp
        subst hp
        refine ⟨by decide, by rw [hb]; decide, fresh_node 0 0, hm1, le_refl _, le_refl _, ?_⟩
        rw [r3]; show (0 : Int) ≤ order; omega
      · exact ⟨⟨fresh_node 0 0, hm1, rfl, rfl⟩, trivial⟩
      · simp [contents, leaf_ents_of_mem hm1, hents]
      · intro p hp l hl
        rw [List.mem_singleton] at hp
        subst hp
        cases hl
    · rw [r2, r1]
      simp [nodes_below]
    · simp only [tree_entries, r2, r1, level_below, List.map_cons, List.map_nil, contents,
        leaf_ents_of_mem hm1, hents, List.append_nil]
  · have hal' : (alloc_request (mem0 alloc)).1 = false := by simpa using hal
    exfalso
    unfold bpt_init at h
    simp [node_new_fail _ _ hal'] at h

/-- Every state reached from `bpt_init` by calls of `bpt_insert` and
`bpt_delete` that do not return `BPT_ERROR` is well formed. -/
theorem reachable_wf {cmp : bpt_t → bpt_t → Int} (hc : cmp_total cmp) {s : State}
    (h : Reachable cmp s) : WF cmp s := by
  induction h with
  | init alloc order s h3 hi => exact (bpt_init_wf cmp h3 hi).1
  | insert bld stk s e pred b r s1 _ hrun hr ih =>
    obtain ⟨s0, -, -, -, -, g6⟩ := bpt_insert_sound hc ih bld e pred stk b hrun
    exact (g6 hr).1
  | delete bld stk s e pred b r s1 _ hrun hr ih =>
    obtain ⟨s0, -, -, -, -, g6⟩ := bpt_delete_sound hc ih bld e pred stk b hrun
    exact (g6 hr).1
  | allocator s alloc _ ih =>
    exact SameTree.wf_same (s := s) ⟨rfl, rfl, rfl⟩ ih

/-! ## The levels of a well-formed tree and their chains -/

theorem Below.at_depth {s : State} {cmp : bpt_t → bpt_t → Int} :
    ∀ (d e : Nat) (top : Bool) (items : List Item), Below s cmp top (d + e) items →
      Below s cmp (top && decide (d = 0)) e (level_below s d items) := by
  intro d
  induction d with
  | zero =>
    intro e top items h
    simpa using h
  | succ d ih =>
    intro e top items h
    have h1 : Below s cmp top ((d + e) + 1) items := by
      have : d + 1 + e = (d + e) + 1 := by omega
      rw [this] at h; exact h
    have h2 := ih e false (expand s items) h1.2
    simpa [level_below] using h2

theorem Below.inner_of {s : State} {cmp : bpt_t → bpt_t → Int} {top : Bool} {e : Nat}
    {items : List Item} (h : Below s cmp top e items) :
    InnerOK s (if e = 0 then min_leaf s top else min_inner s top) items := by
  cases e with
  | zero => exact h.1
  | succ e => exact h.1

theorem WF.level_ok {cmp : bpt_t → bpt_t → Int} {s : State} (hw : WF cmp s) {d : Nat}
    (hd : d ≤ s.bstat.height) :
    Below s cmp (decide (d = 0)) (s.bstat.height - d)
      (level_below s d [(none, s.bstat.root_node)]) := by
  have h := hw.2.2.1
  have e : s.bstat.height = d + (s.bstat.height - d) := by omega
  rw [e] at h
  have := Below.at_depth d (s.bstat.height - d) true _ h
  simpa using this

theorem level_below_add (s : State) : ∀ (d e : Nat) (items : List Item),
    level_below s (d + e) items = level_below s e (level_below s d items) := by
  intro d
  induction d with
  | zero => intro e items; simp [level_below]
  | succ d ih =>
    intro e items
    have : d + 1 + e = (d + e) + 1 := by omega
    rw [this]
    simp only [level_below]
    exact ih e _

theorem nodes_below_level (s : State) : ∀ (d e : Nat) (items : List Item),
    ∀ a ∈ (level_below s d items).map Prod.snd, a ∈ nodes_below s (d + e) items := by
  intro d
  induction d with
  | zero =>
    intro e items a ha
    cases e with
    | zero => simpa [nodes_below, level_below] using ha
    | succ e =>
      simp only [Nat.zero_add, nodes_below, List.mem_append]
      exact Or.inl (by simpa [level_below] using ha)
  | succ d ih =>
    intro e items a ha
    have : d + 1 + e = (d + e) + 1 := by omega
    rw [this]
    simp only [nodes_below, List.mem_append]
    exact Or.inr (ih e _ a ha)

theorem walk_chain (s : State) : ∀ (l : List Int) (p : Int) (fuel : Nat),
    Chain s p l 0 → (∀ a ∈ l, a ≠ 0) → l.length ≤ fuel → walk s fuel (l.headD 0) = some l := by
  intro l
  induction l with
  | nil =>
    intro p fuel _ _ _
    cases fuel <;> simp [walk]
  | cons a r ih =>
    intro p fuel hc hne hlen
    obtain ⟨⟨n, hm, -, hx⟩, hr⟩ := hc
    have ha : a ≠ 0 := hne a (by simp)
    cases fuel with
    | zero => simp at hlen
    | succ f =>
      simp only [List.headD_cons, walk, ha, if_false, rd_of_ne ha, hm]
      rw [hx, ih a f hr (fun b hb => hne b (by simp [hb])) (by simpa using hlen)]
      rfl

theorem first_at_level {s : State} {cmp : bpt_t → bpt_t → Int} :
    ∀ (d : Nat) (top : Bool) (p : Item) (r : List Item), Below s cmp top d (p :: r) →
      ∀ c, c ≤ d → first_at s c p.2 = some (((level_below s c (p :: r)).map Prod.snd).headD 0) ∧
        level_below s c (p :: r) ≠ [] := by
  intro d
  induction d with
  | zero =>
    intro top p r _ c hc
    have : c = 0 := by omega
    subst this
    exact ⟨rfl, by simp [level_below]⟩
  | succ d ih =>
    intro top p r h c hc
    cases c with
    | zero => exact ⟨rfl, by simp [level_below]⟩
    | succ c =>
      obtain ⟨p0, -, n, hm, -⟩ := h.1.1 p (by simp)
      have hex : expand s (p :: r) = (p.1, (n.entries 0).val) ::
          ((List.range n.nkey.toNat).map (fun (i : Nat) =>
            (some (n.entries (i : Int)).key, (n.entries ((i : Int) + 1)).val)) ++ expand s r) := by
        simp [expand, hm, node_pairs]
      have h2 := h.2
      rw [hex] at h2
      obtain ⟨q1, q2⟩ := ih false _ _ h2 c (by omega)
      simp only [first_at, rd_of_ne p0, hm, level_below, hex]
      exact ⟨q1, q2⟩

/-- In a well-formed tree the chain of every depth, read from the node that
child 0 leads to, visits the nodes of that depth in left-to-right child
order. -/
theorem WF.reads_level {cmp : bpt_t → bpt_t → Int} {s : State} (hw : WF cmp s) {d : Nat}
    (hd : d ≤ s.bstat.height) : level_reads s d (level_nodes s d) := by
  obtain ⟨q1, q2⟩ := first_at_level s.bstat.height true (none, s.bstat.root_node) []
    hw.2.2.1 d hd
  have hin := (hw.level_ok hd).inner_of
  refine ⟨_, q1, ?_⟩
  intro fuel hf
  exact walk_chain s _ 0 fuel hin.2 (fun a ha => by
    obtain ⟨p, hp, rfl⟩ := List.mem_map.mp ha
    exact (hin.1 p hp).1) hf

theorem WF.reads_leaves {cmp : bpt_t → bpt_t → Int} {s : State} (hw : WF cmp s) :
    leaves_read s (tree_entries s) :=
  ⟨_, hw.reads_level (le_refl _), rfl⟩

theorem chain_reads_unique {s : State} {a : Int} {l1 l2 : List Int}
    (h1 : chain_reads s a l1) (h2 : chain_reads s a l2) : l1 = l2 := by
  have e1 := h1 (max l1.length l2.length) (le_max_left _ _)
  have e2 := h2 (max l1.length l2.length) (le_max_right _ _)
  rw [e1] at e2
  exact Option.some.inj e2

theorem leaves_read_unique {cmp : bpt_t → bpt_t → Int} {s : State} (hw : WF cmp s)
    {es : List bpt_entry} (h : leaves_read s es) : es = tree_entries s := by
  obtain ⟨l, ⟨a, ha, hl⟩, rfl⟩ := h
  obtain ⟨b, hb, hl2⟩ := hw.reads_level (le_refl s.bstat.height)
  rw [ha] at hb
  cases Option.some.inj hb
  rw [chain_reads_unique hl hl2]
  rfl

theorem WF.sorted {cmp : bpt_t → bpt_t → Int} {s : State} (hw : WF cmp s) :
    ((tree_entries s).map (·.key)).Pairwise (lt cmp) := by
  have h := hw.level_ok (le_refl s.bstat.height)
  simp only [Nat.sub_self] at h
  exact h.2.1

theorem pairwise_key_unique {cmp : bpt_t → bpt_t → Int} (hc : cmp_total cmp)
    {l : List bpt_entry} (h : (l.map (·.key)).Pairwise (lt cmp)) {x y : bpt_entry}
    (hx : x ∈ l) (hy : y ∈ l) (hk : x.key = y.key) : x = y := by
  induction l with
  | nil => simp at hx
  | cons z r ih =>
    simp only [List.map_cons, List.pairwise_cons] at h
    rw [List.mem_cons] at hx hy
    rcases hx with rfl | hx
    · rcases hy with rfl | hy
      · rfl
      · exact absurd (hk ▸ h.1 y.key (List.mem_map_of_mem _ hy)) (lt_irrefl_cmp hc _)
    · rcases hy with rfl | hy
      · exact absurd (hk ▸ h.1 x.key (List.mem_map_of_mem _ hx)) (lt_irrefl_cmp hc _)
      · exact ih h.2 hx hy

/-! ## Consequences of well-formedness -/

theorem levels_disjoint (s : State) : ∀ (d1 d2 h : Nat) (items : List Item),
    (nodes_below s h items).Nodup → d1 < d2 → d2 ≤ h →
    ∀ a, a ∈ (level_below s d1 items).map Prod.snd →
      a ∉ (level_below s d2 items).map Prod.snd := by
  intro d1
  induction d1 with
  | zero =>
    intro d2 h items hnd h12 h2 a ha hb
    obtain ⟨h', rfl⟩ : ∃ h', h = h' + 1 := ⟨h - 1, by omega⟩
    obtain ⟨d', rfl⟩ : ∃ d', d2 = d' + 1 := ⟨d2 - 1, by omega⟩
    simp only [nodes_below] at hnd
    have hb' : a ∈ nodes_below s h' (expand s items) := by
      have e : h' = d' + (h' - d') := by omega
      rw [e]
      exact nodes_below_level s d' _ _ a hb
    exact (List.nodup_append.mp hnd).2.2 (by simpa [level_below] using ha) hb'
  | succ d1 ih =>
    intro d2 h items hnd h12 h2 a ha hb
    obtain ⟨h', rfl⟩ : ∃ h', h = h' + 1 := ⟨h - 1, by omega⟩
    obtain ⟨d', rfl⟩ : ∃ d', d2 = d' + 1 := ⟨d2 - 1, by omega⟩
    simp only [nodes_below] at hnd
    exact ih d' h' (expand s items) (List.nodup_append.mp hnd).2.1 (by omega) (by omega) a
      ha hb

theorem mem_expand {s : State} {L : List Item} {lo : Option bpt_t} {a : Int} {n : bpt_node}
    (h : (lo, a) ∈ L) (hm : s.mem a = some n) {i : Int} (h0 : 0 ≤ i) (h1 : i < n.nkey) :
    (some (n.entries i).key, (n.entries (i + 1)).val) ∈ expand s L := by
  induction L with
  | nil => simp at h
  | cons p r ih =>
    rw [List.mem_cons] at h
    simp only [expand, List.mem_append]
    rcases h with rfl | h
    · left
      simp only [hm, node_pairs, List.mem_cons, List.mem_map, List.mem_range]
      right
      refine ⟨i.toNat, by omega, ?_⟩
      rw [Int.toNat_of_nonneg h0]
    · exact Or.inr (ih h)

/-- The separator on the left of a node is the first key of the leaf that
child 0 leads to from it. -/
theorem sep_first_key {s : State} {cmp : bpt_t → bpt_t → Int} :
    ∀ (e : Nat) (top : Bool) (items : List Item), Below s cmp top e items →
      ∀ p ∈ items, ∀ l, p.1 = some l →
        ∃ leaf n, first_at s e p.2 = some leaf ∧ rd s leaf = some n ∧ 0 < n.nkey ∧
          (n.entries 0).key = l := by
  intro e
  induction e with
  | zero =>
    intro top items h p hp l hl
    obtain ⟨n, hm, h1, h2⟩ := h.2.2 p hp l hl
    obtain ⟨p0, -⟩ := h.1.1 p hp
    exact ⟨p.2, n, rfl, by rw [rd_of_ne p0]; exact hm, h1, h2⟩
  | succ e ih =>
    intro top items h p hp l hl
    obtain ⟨p0, -, n, hm, -⟩ := h.1.1 p hp
    have hmem : (p.1, (n.entries 0).val) ∈ expand s items := by
      clear ih h hl
      induction items with
      | nil => simp at hp
      | cons q r ih2 =>
        rw [List.mem_cons] at hp
        simp only [expand, List.mem_append]
        rcases hp with rfl | hp
        · left; simp [hm, node_pairs]
        · exact Or.inr (ih2 hp)
    obtain ⟨leaf, m, q1, q2, q3, q4⟩ := ih false _ h.2 _ hmem l hl
    exact ⟨leaf, m, by simp only [first_at, rd_of_ne p0, hm]; exact q1, q2, q3, q4⟩

theorem filterMap_some_fun {α β : Type} (g : α → β) (l : List α) :
    l.filterMap (fun x => some (g x)) = l.map g := by
  induction l with
  | nil => rfl
  | cons a r ih => simp [ih]

theorem seps_node_pairs (lo : Option bpt_t) (n : bpt_node) :
    seps (node_pairs lo n) = lo.toList ++ node_keys n := by
  simp only [seps, node_pairs, node_keys, List.filterMap_cons, List.filterMap_map]
  cases lo <;> simp [Function.comp_def, filterMap_some_fun]

theorem seps_expand {s : State} {mn : Int} : ∀ (L : List Item), (∀ p ∈ L, NodeOK s mn p.2) →
    List.Sublist (seps L) (seps (expand s L)) ∧
      List.Sublist (keys_of s (L.map Prod.snd)) (seps (expand s L)) := by
  intro L
  induction L with
  | nil => intro _; exact ⟨List.Sublist.refl _, List.Sublist.refl _⟩
  | cons p r ih =>
    intro h
    obtain ⟨-, -, n, hm, -⟩ := h p (by simp)
    obtain ⟨i1, i2⟩ := ih (fun q hq => h q (by simp [hq]))
    have e1 : seps (expand s (p :: r)) = (p.1.toList ++ node_keys n) ++ seps (expand s r) := by
      simp only [expand, hm, seps, List.filterMap_append]
      rw [← seps_node_pairs]
      rfl
    have e2 : seps (p :: r) = p.1.toList ++ seps r := by
      obtain ⟨lo, a⟩ := p
      cases lo <;> simp [seps]
    rw [e1, e2]
    constructor
    · exact ((List.sublist_append_left _ _).append i1)
    · simp only [List.map_cons, keys_of, hm]
      exact ((List.sublist_append_right _ _).append i2)

theorem seps_below {s : State} {cmp : bpt_t → bpt_t → Int} :
    ∀ (e : Nat) (top : Bool) (L : List Item), Below s cmp top e L →
      (seps L).Pairwise (lt cmp) := by
  intro e
  induction e with
  | zero =>
    intro top L h
    have hsub : List.Sublist (seps L) ((contents s (L.map Prod.snd)).map (·.key)) := by
      have h3 := h.2.2
      clear h
      induction L with
      | nil => exact List.Sublist.refl _
      | cons p r ih =>
        have ihr := ih (fun q hq => h3 q (by simp [hq]))
        obtain ⟨lo, a⟩ := p
        cases lo with
        | none =>
          simp only [seps, List.filterMap_cons, List.map_cons, contents, List.map_append]
          exact (List.nil_sublist _).append ihr
        | some l =>
          obtain ⟨n, hm, h1, h2⟩ := h3 (some l, a) (by simp) l rfl
          simp only at hm
          have hne : node_ents n = n.entries 0 :: (node_ents n).drop 1 := by
            have := @node_ents_split_at n 0 (le_refl _) h1
            simpa using this
          have e1 : seps ((some l, a) :: r) = [l] ++ seps r := by simp [seps]
          rw [e1]
          simp only [List.map_cons, contents, List.map_append, leaf_ents_of_mem hm]
          refine List.Sublist.append ?_ ihr
          rw [hne, List.map_cons, h2]
          exact (List.Sublist.refl [l]).append (List.nil_sublist _)
    exact h.2.1.sublist hsub
  | succ e ih =>
    intro top L h
    exact (ih false _ h.2).sublist (seps_expand L h.1.1).1

/-- The keys of an internal level are strictly increasing along its chain. -/
theorem WF.level_sorted {cmp : bpt_t → bpt_t → Int} {s : State} (hw : WF cmp s) {d : Nat}
    (hd : d < s.bstat.height) : (level_keys s d).Pairwise (lt cmp) := by
  have h := hw.level_ok (le_of_lt hd)
  obtain ⟨e, he⟩ : ∃ e, s.bstat.height - d = e + 1 := ⟨s.bstat.height - d - 1, by omega⟩
  rw [he] at h
  exact (seps_below e false _ h.2).sublist (seps_expand _ h.1.1).2

theorem chain_links {s : State} {mn : Int} {L : List Item} (hi : InnerOK s mn L) :
    ∀ a ∈ L.map Prod.snd, ∃ n, rd s a = some n ∧
      (n.nxt ≠ 0 → n.nxt ∈ L.map Prod.snd ∧ ∃ m, rd s n.nxt = some m ∧ m.prv = a) ∧
      (n.prv ≠ 0 → n.prv ∈ L.map Prod.snd ∧ ∃ m, rd s n.prv = some m ∧ m.nxt = a) := by
  intro a ha
  obtain ⟨p, hp, rfl⟩ := List.mem_map.mp ha
  obtain ⟨X, Y, rfl⟩ := List.append_of_mem hp
  obtain ⟨lo, a⟩ := p
  obtain ⟨a0, -, n, hm, -, -, -, -, -, -, -⟩ := focus_facts hi
  refine ⟨n, by rw [rd_of_ne a0]; exact hm, ?_, ?_⟩
  · intro hx
    obtain ⟨ln, Y1, hY, x0, -, m, hmx, -⟩ := (next_facts hi hm).2 hx
    subst hY
    have hi2 : InnerOK s mn ((X ++ [(lo, a)]) ++ (ln, n.nxt) :: Y1) := by simpa using hi
    obtain ⟨-, -, m1, hm1, -, -, -, c1, -⟩ := focus_facts hi2
    rw [hmx] at hm1; cases Option.some.inj hm1
    refine ⟨by simp, m, by rw [rd_of_ne x0]; exact hmx, ?_⟩
    rw [c1]; simp
  · intro hx
    obtain ⟨X0, lp, hX, x0, -, m, hmx, -⟩ := (prev_facts hi hm).2 hx
    subst hX
    have hi2 : InnerOK s mn (X0 ++ (lp, n.prv) :: ((lo, a) :: Y)) := by simpa using hi
    obtain ⟨-, -, m1, hm1, -, -, -, -, c2, -⟩ := focus_facts hi2
    rw [hmx] at hm1; cases Option.some.inj hm1
    refine ⟨by simp, m, by rw [rd_of_ne x0]; exact hmx, ?_⟩
    rw [c2]; simp

/-! ## `bpt_search` on a well-formed tree -/

theorem SameTree.level_nodes_same {s t : State} (h : SameTree s t) (d : Nat) :
    level_nodes t d = level_nodes s d := by
  simp only [level_nodes, h.2.1]
  rw [level_below_congr _ (h.agree _)]

/-- The descent on a well-formed tree: the leaf and the journal that every
stack with room for it receives, the leaf being the one `bpt_search` reaches;
the descent then asks for no memory. -/
theorem descend_any {cmp : bpt_t → bpt_t → Int} {s : State} (hw : WF cmp s) (k : bpt_t) :
    ∃ leaf stk,
      (∀ (bld : bpt_build) (obj : stk_obj), obj.frames = [] → Room bld obj s.bstat.height →
        journal_descend bld cmp k s.bstat.height s s.bstat.root_node obj =
          some (some (leaf, { obj with frames := stk }), s)) ∧
      search_descend cmp k s s.bstat.height s.bstat.root_node = some leaf ∧
      ∃ U X lo Y, Ctx s stk U X lo leaf Y ∧ stk.length = s.bstat.height ∧
        LeafOK s cmp (min_leaf s stk.isEmpty) (X ++ (lo, leaf) :: Y) ∧
        (U ++ (X ++ (lo, leaf) :: Y).map Prod.snd).Nodup ∧ Bounded cmp k lo Y := by
  obtain ⟨leaf, stk, hd, hrest⟩ := descend_fit hw k (journal_stk_frames build_8 _ true)
    (fits_self build_8 s.bstat.height)
  obtain ⟨-, -, -, g4⟩ := journal_follows build_8 cmp k _ _ _ _ _ _ hd
  refine ⟨leaf, stk, ?_, (g4 leaf _ rfl).1, hrest⟩
  intro bld obj h0 hroom
  have := journal_refit build_8 bld cmp k _ _ _ _ obj leaf _ s hd hroom
    (by rw [h0, journal_stk_frames])
  exact this

/-- The function `bpt_search` on a well-formed tree: the descent ends in a
leaf of the tree, and the result is a slot of that leaf holding the key when
the tree holds it and `-1` otherwise. -/
theorem search_spec {cmp : bpt_t → bpt_t → Int} (hc : cmp_total cmp) {s : State}
    (hw : WF cmp s) (k : bpt_t) :
    ∃ leaf n, search_descend cmp k s s.bstat.height s.bstat.root_node = some leaf ∧
      leaf ∈ level_nodes s s.bstat.height ∧ rd s leaf = some n ∧
      ((∃ i, bpt_search k cmp s = some (i, some leaf) ∧ 0 ≤ i ∧ i < n.nkey ∧
          (n.entries i).key = k ∧ n.entries i ∈ tree_entries s) ∨
        (bpt_search k cmp s = some (-1, none) ∧ ∀ x ∈ tree_entries s, x.key ≠ k)) := by
  obtain ⟨leaf, stk, -, hsd, U, X, lo, Y, c1, c2, c3, c4, c5⟩ := descend_any hw k
  have hst2 : SameTree s s := SameTree.refl_same s
  have hw1 := hw
  have hs : LeafSit cmp s stk U X lo leaf Y k := ⟨hc, hw1.1, hw1.2.1, c1, c2, c3, c4, c5⟩
  obtain ⟨l0, lb, n, hm, hn0, hn1, hn2, -, -, -, -⟩ := hs.node
  have hms : s.mem leaf = some n := hm
  have hlev : leaf ∈ level_nodes s s.bstat.height := by
    rw [← hst2.level_nodes_same, ← hst2.2.1]
    have := c1.level 0
    rw [Nat.add_zero, c2] at this
    simp only [level_nodes, this, level_below]
    simp
  have hfind : leaf_find cmp k s leaf =
      some (scan_eq cmp k n.entries n.nkey n.nkey.toNat 0) := by
    unfold leaf_find
    rw [rd_of_ne l0, hms]
    have : n.nkey ≤ s.bstat.order := by rw [← hst2.2.1]; exact hn2
    simp only [hn0, this, and_self, if_true]
  refine ⟨leaf, n, hsd, hlev, by rw [rd_of_ne l0]; exact hms, ?_⟩
  unfold bpt_search
  simp only [hsd, hfind]
  rcases scan_eq_spec cmp k n.entries n.nkey n.nkey.toNat 0 (le_refl _)
    (by rw [Int.toNat_of_nonneg hn0]; omega) with ⟨r1, r2⟩ | ⟨r1, r2, r3, r4⟩
  · right
    rw [r1]
    refine ⟨by simp, ?_⟩
    rw [← hst2.entries_same]
    exact hs.absent_of_leaf hm (fun j h0 h1 => r2 j h0 h1)
  · left
    obtain ⟨i, hi⟩ : ∃ i, scan_eq cmp k n.entries n.nkey n.nkey.toNat 0 = i := ⟨_, rfl⟩
    rw [hi] at r1 r2 r3 r4 ⊢
    have hne : ¬ i = -1 := by omega
    refine ⟨i, by simp only [hne, if_false], r1, r2, ((hc.eq_iff _ _).mp r3).symm, ?_⟩
    rw [← hst2.entries_same, hs.entries_at hm r1 r2]
    simp

/-! ## Two concrete trees -/

theorem cmp_word_total : cmp_total cmp_word := by
  refine ⟨fun a b => ?_, fun a b => ?_, fun a b c => ?_⟩
  · show (a - b : Int) = 0 ↔ (a : Int) = b
    exact sub_eq_zero
  · show (0 : Int) < a - b ↔ (b - a : Int) < 0
    constructor <;> intro h <;> linarith
  · show (a - b : Int) < 0 → (b - c : Int) < 0 → (a - c : Int) < 0
    intro h1 h2; linarith

theorem tree0_init : bpt_init (mem0 []) 3 = (0, tree0) := by
  unfold tree0
  have hal : (alloc_request (mem0 [])).1 = true := rfl
  unfold bpt_init
  rw [node_new_ok _ _ hal]
  rfl

theorem tree0_reach : Reachable cmp_word tree0 :=
  Reachable.init [] 3 tree0 (by decide) tree0_init

theorem tree0_alloc : tree0.alloc = [] := rfl

theorem tree0_entries : tree_entries tree0 = [] :=
  (bpt_init_wf cmp_word (by decide) tree0_init).2.1

theorem tree1_run :
    bpt_insert build_8 ⟨1, 1⟩ cmp_word bpt_pred_1 (driver_stk build_8) true tree0 =
        some (BPT_NEXIST, tree1) ∧
      tree1.alloc = [] ∧ tree_entries tree1 = [⟨1, 1⟩] := by
  obtain ⟨r, t, s1, g1, g2, g3, g4, g5, g6⟩ :=
    bpt_insert_spec cmp_word_total (reachable_wf cmp_word_total tree0_reach) ⟨1, 1⟩ bpt_pred_1
      (show Fits build_8 (driver_stk build_8) true tree0.bstat.height from Or.inl rfl)
  have hr : r ≠ BPT_ERROR := fun h => g5 h tree0_alloc
  have e1 : s1 = tree0 := g3 tree0_alloc
  subst e1
  have ht : tree1 = t := by simp [tree1, g1]
  rw [ht, g1]
  obtain ⟨-, hspec⟩ := g6 hr
  rcases hspec with ⟨h1, -, A, B, h2, h3⟩ | ⟨-, A, x, B, h2, -⟩ | ⟨-, x, hx, -⟩
  · rw [tree0_entries] at h2
    have hA : A = [] := (List.append_eq_nil.mp h2.symm).1
    have hB : B = [] := (List.append_eq_nil.mp h2.symm).2
    subst hA hB
    exact ⟨by rw [h1], g4 tree0_alloc, h3⟩
  · rw [tree0_entries] at h2
    simp at h2
  · rw [tree0_entries] at hx
    simp at hx

theorem tree1_reach : Reachable cmp_word tree1 :=
  Reachable.insert build_8 (driver_stk build_8) tree0 ⟨1, 1⟩ bpt_pred_1 true BPT_NEXIST tree1
    tree0_reach tree1_run.1
    (by decide)

/-! ## The invariants of the reachable trees -/

/-- Claim C8: in every tree state reachable from `bpt_init` (order at least 3)
by calls of `bpt_insert` and `bpt_delete` that do not return `BPT_ERROR`, the
keys read along the leaf chain, from the leftmost leaf to the null handle via
`nxt`, are strictly increasing, and so are the keys read along the chain of
every internal level. -/
theorem leaf_chain_sorted {cmp : bpt_t → bpt_t → Int} (hc : cmp_total cmp) {s : State}
    (h : Reachable cmp s) :
    (∃ es, leaves_read s es ∧ (es.map (·.key)).Pairwise (lt cmp)) ∧
    ∀ d, d < s.bstat.height →
      level_reads s d (level_nodes s d) ∧ (level_keys s d).Pairwise (lt cmp) := by
  have hw := reachable_wf hc h
  exact ⟨⟨_, hw.reads_leaves, hw.sorted⟩,
    fun d hd => ⟨hw.reads_level (le_of_lt hd), hw.level_sorted hd⟩⟩

/-- Claim C9: in every reachable tree state, for every internal node and
every slot `i` below its key count, the key of slot `i` equals the first key
of the leaf found by following child 0 from child `i + 1` down to the
leaves. -/
theorem separator_first_key {cmp : bpt_t → bpt_t → Int} (hc : cmp_total cmp) {s : State}
    (h : Reachable cmp s) :
    ∀ d, d < s.bstat.height → ∀ a ∈ level_nodes s d, ∀ n, rd s a = some n →
      ∀ i, 0 ≤ i → i < n.nkey →
        ∃ leaf m, first_at s (s.bstat.height - d - 1) (n.entries (i + 1)).val = some leaf ∧
          rd s leaf = some m ∧ 0 < m.nkey ∧ (m.entries 0).key = (n.entries i).key := by
  have hw := reachable_wf hc h
  intro d hd a ha n hn i i0 i1
  have hlev := hw.level_ok (Nat.succ_le_of_lt hd)
  have e1 : level_below s (d + 1) [(none, s.bstat.root_node)] =
      expand s (level_below s d [(none, s.bstat.root_node)]) := by
    rw [level_below_add]; rfl
  rw [e1] at hlev
  obtain ⟨p, hp, rfl⟩ := List.mem_map.mp ha
  obtain ⟨p0, -⟩ := (hw.level_ok (le_of_lt hd)).inner_of.1 p hp
  rw [rd_of_ne p0] at hn
  have hmem := @mem_expand s _ p.1 p.2 n hp hn i i0 i1
  have e2 : s.bstat.height - d - 1 = s.bstat.height - (d + 1) := by omega
  rw [e2]
  exact sep_first_key _ _ _ hlev _ hmem _ rfl

/-- Claim C10: in every reachable tree state every node holds at most `order`
keys, every leaf other than the root at least `new_leaf_nkey`, every internal
node other than the root at least `new_inter_nkey`, and a root that is not a
leaf at least one. -/
theorem occupancy_bounds {cmp : bpt_t → bpt_t → Int} (hc : cmp_total cmp) {s : State}
    (h : Reachable cmp s) :
    ∀ d, d ≤ s.bstat.height → ∀ a ∈ level_nodes s d, ∃ n, rd s a = some n ∧
      0 ≤ n.nkey ∧ n.nkey ≤ s.bstat.order ∧
      (0 < d → d = s.bstat.height → s.bstat.new_leaf_nkey ≤ n.nkey) ∧
      (0 < d → d < s.bstat.height → s.bstat.new_inter_nkey ≤ n.nkey) ∧
      (d = 0 → 0 < s.bstat.height → 1 ≤ n.nkey) := by
  have hw := reachable_wf hc h
  intro d hd a ha
  obtain ⟨p, hp, rfl⟩ := List.mem_map.mp ha
  obtain ⟨p0, -, n, hm, h0, h1, h2⟩ := (hw.level_ok hd).inner_of.1 p hp
  refine ⟨n, by rw [rd_of_ne p0]; exact hm, h0, h2, ?_, ?_, ?_⟩
  · intro hd0 hdh
    have e1 : s.bstat.height - d = 0 := by omega
    have e2 : decide (d = 0) = false := by simp; omega
    rw [e1, e2] at h1
    simpa [min_leaf] using h1
  · intro hd0 hdh
    have e1 : ¬ s.bstat.height - d = 0 := by omega
    have e2 : decide (d = 0) = false := by simp; omega
    rw [if_neg e1, e2] at h1
    simpa [min_inner] using h1
  · intro hd0 hdh
    have e1 : ¬ s.bstat.height - d = 0 := by omega
    have e2 : decide (d = 0) = true := by simp [hd0]
    rw [if_neg e1, e2] at h1
    simpa [min_inner] using h1

/-- Claim C11: in every reachable tree state the nodes reached from the root
by exactly `height` child links are the nodes of the leaf chain and no node
reached by fewer links is one of them; every descent of `bpt_search` ends in a
node of the leaf chain; and the root is on the leaf chain exactly when the
height is 0. -/
theorem balanced_height {cmp : bpt_t → bpt_t → Int} (hc : cmp_total cmp) {s : State}
    (h : Reachable cmp s) :
    ∃ leaves, level_reads s s.bstat.height leaves ∧
      (∀ d, d ≤ s.bstat.height → ∀ a ∈ level_nodes s d, (a ∈ leaves ↔ d = s.bstat.height)) ∧
      (∀ k, ∃ leaf, search_descend cmp k s s.bstat.height s.bstat.root_node = some leaf ∧
        leaf ∈ leaves) ∧
      (s.bstat.root_node ∈ leaves ↔ s.bstat.height = 0) := by
  have hw := reachable_wf hc h
  have key : ∀ d, d ≤ s.bstat.height → ∀ a ∈ level_nodes s d,
      (a ∈ level_nodes s s.bstat.height ↔ d = s.bstat.height) := by
    intro d hd a ha
    constructor
    · intro hl
      by_contra hne
      exact levels_disjoint s d s.bstat.height s.bstat.height _ hw.2.2.2
        (lt_of_le_of_ne hd hne) (le_refl _) a ha hl
    · intro e; rw [← e]; exact ha
  refine ⟨level_nodes s s.bstat.height, hw.reads_level (le_refl _), key, ?_, ?_⟩
  · intro k
    obtain ⟨leaf, n, h1, h2, -⟩ := search_spec hc hw k
    exact ⟨leaf, h1, h2⟩
  · have := key 0 (Nat.zero_le _) s.bstat.root_node (by simp [level_nodes, level_below])
    exact ⟨fun h1 => (this.mp h1).symm, fun h1 => this.mpr h1.symm⟩

/-- Claim C12: in every reachable tree state, for every node of the tree with
a non-null `nxt` the node `nxt` is a live node of the same level whose `prv` is
that node, and for every node with a non-null `prv` the node `prv` is a live
node of the same level whose `nxt` is that node. -/
theorem chain_integrity {cmp : bpt_t → bpt_t → Int} (hc : cmp_total cmp) {s : State}
    (h : Reachable cmp s) :
    ∀ d, d ≤ s.bstat.height → ∀ a ∈ level_nodes s d, ∃ n, rd s a = some n ∧
      (n.nxt ≠ 0 → n.nxt ∈ level_nodes s d ∧ ∃ m, rd s n.nxt = some m ∧ m.prv = a) ∧
      (n.prv ≠ 0 → n.prv ∈ level_nodes s d ∧ ∃ m, rd s n.prv = some m ∧ m.nxt = a) := by
  have hw := reachable_wf hc h
  intro d hd a ha
  exact chain_links (hw.level_ok hd).inner_of a ha

/-- Claim C13: in every reachable tree state the chain of every depth, read
via `nxt` from the node that child 0 leads to from the root, visits exactly
the nodes of that depth in left-to-right child order; the entries read along
the leaf chain have strictly increasing keys, and a key is found by
`bpt_search` exactly when it is the key of one of them. -/
theorem chain_visits_levels {cmp : bpt_t → bpt_t → Int} (hc : cmp_total cmp) {s : State}
    (h : Reachable cmp s) :
    (∀ d, d ≤ s.bstat.height → level_reads s d (level_nodes s d)) ∧
    ∃ es, leaves_read s es ∧ (es.map (·.key)).Pairwise (lt cmp) ∧
      ∀ k, ((∃ i leaf, bpt_search k cmp s = some (i, some leaf) ∧ holds_at s leaf i k) ↔
          k ∈ es.map (·.key)) ∧
        (bpt_search k cmp s = some (-1, none) ↔ k ∉ es.map (·.key)) := by
  have hw := reachable_wf hc h
  refine ⟨fun d hd => hw.reads_level hd, tree_entries s, hw.reads_leaves, hw.sorted, ?_⟩
  intro k
  obtain ⟨leaf, n, h1, h2, h3, h4⟩ := search_spec hc hw k
  rcases h4 with ⟨i, q1, q2, q3, q4, q5⟩ | ⟨q1, q2⟩
  · have hin : k ∈ (tree_entries s).map (·.key) := by
      rw [← q4]; exact List.mem_map_of_mem _ q5
    refine ⟨⟨fun _ => hin, fun _ => ⟨i, leaf, q1, n, h3, q2, q3, q4⟩⟩, ⟨fun hh => ?_, fun hh =>
      absurd hin hh⟩⟩
    rw [q1] at hh
    simp only [Option.some.injEq, Prod.mk.injEq] at hh
    omega
  · have hout : k ∉ (tree_entries s).map (·.key) := by
      intro hh
      obtain ⟨x, hx, hk⟩ := List.mem_map.mp hh
      exact q2 x hx hk
    refine ⟨⟨fun hh => ?_, fun hh => absurd hh hout⟩, ⟨fun _ => hout, fun _ => q1⟩⟩
    obtain ⟨i, lf, e1, -⟩ := hh
    rw [q1] at e1
    simp at e1

/-! ## The contracts of search, insertion and deletion -/

theorem mid_key_absent {cmp : bpt_t → bpt_t → Int} (hc : cmp_total cmp)
    {A B : List bpt_entry} {x : bpt_entry}
    (h : ((A ++ x :: B).map (·.key)).Pairwise (lt cmp)) :
    x.key ∉ (A ++ B).map (·.key) := by
  simp only [List.map_append, List.map_cons, List.pairwise_append, List.pairwise_cons] at h
  obtain ⟨-, ⟨hxB, -⟩, hAB⟩ := h
  intro hin
  rw [List.map_append, List.mem_append] at hin
  rcases hin with h1 | h1
  · exact lt_irrefl_cmp hc _ (hAB _ h1 _ (List.mem_cons_self _ _))
  · exact lt_irrefl_cmp hc _ (hxB _ h1)

theorem tree0_leaves : leaves_read tree0 [] :=
  tree0_entries ▸ (reachable_wf cmp_word_total tree0_reach).reads_leaves

theorem tree1_leaves : leaves_read tree1 [⟨1, 1⟩] :=
  tree1_run.2.2 ▸ (reachable_wf cmp_word_total tree1_reach).reads_leaves

/-- Claim C2: for every reachable tree and every entry `e` whose key is not
among the entries `es` read along the leaf chain, if no allocation fails,
and the journal fits the stack, `bpt_insert` returns `BPT_NEXIST` and the
entries read along the leaf chain afterwards are those of `es` with `e` added
at its sorted position: `es` is
`A ++ B`, the chain then reads `A ++ e :: B`, and its keys are strictly
increasing. -/
theorem insert_fresh {cmp : bpt_t → bpt_t → Int} (hc : cmp_total cmp) {s : State}
    (h : Reachable cmp s) (hno : s.alloc = []) (e : bpt_entry)
    (pred : bpt_t → bpt_t → Int) (bld : bpt_build) (stk : stk_obj) (b : Bool)
    (hfit : Fits bld stk b s.bstat.height) {es : List bpt_entry}
    (hes : leaves_read s es) (habs : e.key ∉ es.map (·.key)) :
    ∃ t A B, bpt_insert bld e cmp pred stk b s = some (BPT_NEXIST, t) ∧ es = A ++ B ∧
      leaves_read t (A ++ e :: B) ∧ ((A ++ e :: B).map (·.key)).Pairwise (lt cmp) := by
  have hw := reachable_wf hc h
  have hE := leaves_read_unique hw hes
  subst hE
  obtain ⟨r, t, s1, hrun, -, hs1, -, herr, hok⟩ := bpt_insert_spec hc hw e pred hfit
  have e1 : s1 = s := hs1 hno
  subst e1
  obtain ⟨hwt, hspec⟩ := hok (fun hr => herr hr hno)
  rcases hspec with ⟨hr, -, A, B, h2, h3⟩ | ⟨-, A, x, B, h2, hx, -⟩ | ⟨-, x, hx, hk, -⟩
  · subst hr
    refine ⟨t, A, B, hrun, h2, h3 ▸ hwt.reads_leaves, h3 ▸ hwt.sorted⟩
  · exact absurd (List.mem_map.mpr ⟨x, by rw [h2]; simp, hx⟩) habs
  · exact absurd (List.mem_map.mpr ⟨x, hx, hk⟩) habs

/-- Claim C3: for every reachable tree whose leaf chain reads the entries
`es`, among them `(k, v)`, every pair `(k, w)` and every `pred` with
`pred w v` non-zero, if no allocation fails and the journal fits the stack,
`bpt_delete` returns `BPT_PRED_SUCCESS` and the leaf chain afterwards reads
exactly the entries of `es` without the one of key `k`, all others unchanged
and in the same order; a repeated `bpt_delete` of `k`, on a stack that its
journal fits, then returns `BPT_NEXIST` and changes nothing. -/
theorem delete_present {cmp : bpt_t → bpt_t → Int} (hc : cmp_total cmp) {s : State}
    (h : Reachable cmp s) (hno : s.alloc = []) (k v w : bpt_t)
    (pred : bpt_t → bpt_t → Int) (bld : bpt_build) (stk : stk_obj) (b : Bool)
    (hfit : Fits bld stk b s.bstat.height) {es : List bpt_entry}
    (hes : leaves_read s es) (hkv : (⟨k, v⟩ : bpt_entry) ∈ es) (hp : pred w v ≠ 0) :
    ∃ t A B, bpt_delete bld ⟨k, w⟩ cmp pred stk b s = some (BPT_PRED_SUCCESS, t) ∧
      es = A ++ ⟨k, v⟩ :: B ∧ leaves_read t (A ++ B) ∧ k ∉ (A ++ B).map (·.key) ∧
      ∀ (w2 : bpt_t) (pred2 : bpt_t → bpt_t → Int) (stk2 : stk_obj) (b2 : Bool),
        Fits bld stk2 b2 t.bstat.height →
        bpt_delete bld ⟨k, w2⟩ cmp pred2 stk2 b2 t = some (BPT_NEXIST, t) := by
  have hw := reachable_wf hc h
  have hE := leaves_read_unique hw hes
  subst hE
  obtain ⟨r, t, s1, hrun, -, hs1, hal, herr, hok⟩ := bpt_delete_spec hc hw ⟨k, w⟩ pred hfit
  have e1 : s1 = s := hs1 hno
  subst e1
  have hr0 : r ≠ BPT_ERROR := fun hr => herr hr hno
  obtain ⟨hwt, hspec⟩ := hok hr0
  rcases hspec with ⟨-, hx, -⟩ | ⟨hr, A, x, B, h2, hx, -, h3⟩ | ⟨-, x, hx, hk, hz, -⟩
  · exact (hx ⟨k, v⟩ hkv rfl).elim
  · subst hr
    have hxe : x = ⟨k, v⟩ :=
      pairwise_key_unique hc hw.sorted (by rw [h2]; simp) hkv hx
    subst hxe
    have habs : k ∉ (A ++ B).map (·.key) := mid_key_absent hc (h2 ▸ hw.sorted)
    refine ⟨t, A, B, hrun, h2, h3 ▸ hwt.reads_leaves, habs, ?_⟩
    intro w2 pred2 stk2 b2 hfit2
    have hta : t.alloc = [] := hal hno
    obtain ⟨r2, t2, s2, hrun2, -, hs2, -, herr2, hok2⟩ :=
      bpt_delete_spec hc hwt ⟨k, w2⟩ pred2 hfit2
    have e2 : s2 = t := hs2 hta
    subst e2
    obtain ⟨-, hspec2⟩ := hok2 (fun hr => herr2 hr hta)
    rcases hspec2 with ⟨hr2, -, ht2⟩ | ⟨-, A2, x2, B2, g2, gx, -⟩ | ⟨-, x2, gx, gk, -⟩
    · rw [hrun2, hr2, ht2]
    · exact absurd (List.mem_map.mpr ⟨x2, by rw [← h3, g2]; simp, gx⟩) habs
    · exact absurd (List.mem_map.mpr ⟨x2, h3 ▸ gx, gk⟩) habs
  · have hxe : x = ⟨k, v⟩ := pairwise_key_unique hc hw.sorted hx hkv hk
    subst hxe
    exact absurd hz hp

/-- Claim C6: for every reachable tree whose leaf chain reads the entries
`es` and every pair `(k, w)`, when no allocation fails and the journal fits
the stack: `bpt_delete` returns `BPT_NEXIST` exactly when `k` is not a key of `es`, and `BPT_PRED_FAIL`
exactly when `es` holds `k` with a value `v` and `pred w v` is zero; in both
cases the whole state, with every node, link, the root and the height, is
left unchanged. -/
theorem delete_no_change {cmp : bpt_t → bpt_t → Int} (hc : cmp_total cmp) {s : State}
    (h : Reachable cmp s) (hno : s.alloc = []) (k w : bpt_t)
    (pred : bpt_t → bpt_t → Int) (bld : bpt_build) (stk : stk_obj) (b : Bool)
    (hfit : Fits bld stk b s.bstat.height) {es : List bpt_entry}
    (hes : leaves_read s es) :
    ∃ r t, bpt_delete bld ⟨k, w⟩ cmp pred stk b s = some (r, t) ∧
      (r = BPT_NEXIST ↔ k ∉ es.map (·.key)) ∧
      (r = BPT_PRED_FAIL ↔ ∃ v, (⟨k, v⟩ : bpt_entry) ∈ es ∧ pred w v = 0) ∧
      (r = BPT_NEXIST ∨ r = BPT_PRED_FAIL → t = s) := by
  have hw := reachable_wf hc h
  have hE := leaves_read_unique hw hes
  subst hE
  obtain ⟨r, t, s1, hrun, -, hs1, -, herr, hok⟩ := bpt_delete_spec hc hw ⟨k, w⟩ pred hfit
  have e1 : s1 = s := hs1 hno
  subst e1
  obtain ⟨-, hspec⟩ := hok (fun hr => herr hr hno)
  refine ⟨r, t, hrun, ?_⟩
  rcases hspec with ⟨hr, hx, ht⟩ | ⟨hr, A, x, B, h2, hx, hnz, -⟩ | ⟨hr, x, hx, hk, hz, ht⟩
  · subst hr
    have hout : k ∉ (tree_entries s1).map (·.key) := by
      intro hin
      obtain ⟨y, hy, hyk⟩ := List.mem_map.mp hin
      exact hx y hy hyk
    refine ⟨⟨fun _ => hout, fun _ => rfl⟩, ⟨(fun h1 => by cases h1), ?_⟩, fun _ => ht⟩
    rintro ⟨v, hv, -⟩
    exact absurd (List.mem_map.mpr ⟨_, hv, rfl⟩) hout
  · subst hr
    have hxm : x ∈ tree_entries s1 := by rw [h2]; simp
    have hin : k ∈ (tree_entries s1).map (·.key) := List.mem_map.mpr ⟨x, hxm, hx⟩
    refine ⟨⟨(fun h1 => by cases h1), fun h1 => absurd hin h1⟩, ⟨(fun h1 => by cases h1), ?_⟩, ?_⟩
    · rintro ⟨v, hv, hv0⟩
      have hxe : x = ⟨k, v⟩ := pairwise_key_unique hc hw.sorted hxm hv hx
      subst hxe
      exact absurd hv0 hnz
    · rintro (h1 | h1) <;> cases h1
  · subst hr
    have hin : k ∈ (tree_entries s1).map (·.key) := List.mem_map.mpr ⟨x, hx, hk⟩
    refine ⟨⟨(fun h1 => by cases h1), fun h1 => absurd hin h1⟩,
      ⟨fun _ => ⟨x.val, ?_, hz⟩, fun _ => rfl⟩, fun _ => ht⟩
    have hxe : (⟨k, x.val⟩ : bpt_entry) = x := by
      cases x
      simp only at hk
      subst hk
      rfl
    rw [hxe]
    exact hx


/-! ## Insertion of a key that is present -/

theorem insert_refused (bld : bpt_build) (e : bpt_entry) (cmp pred : bpt_t → bpt_t → Int)
    (stk : stk_obj) (s : State) :
    bpt_insert bld e cmp pred stk false { s with alloc := [false] } =
      some (BPT_ERROR, { s with alloc := [] }) := rfl

theorem tree1_refused_reach : Reachable cmp_word tree1_refused :=
  Reachable.allocator tree1 [false] tree1_reach

theorem tree1_refused_leaves : leaves_read tree1_refused [⟨1, 1⟩] := by
  have hst : SameTree tree1 tree1_refused := ⟨rfl, rfl, rfl⟩
  have h := (reachable_wf cmp_word_total tree1_refused_reach).reads_leaves
  rw [hst.entries_same, tree1_run.2.2] at h
  exact h

/-- Claim C4, for a call whose journal fits the stack: for every reachable
tree whose leaf chain reads the entries `es`, among them `(k, v)`, and every
entry `(k, v2)` with `pred v2 v` non-zero, if no allocation fails and the
journal fits the stack, `bpt_insert` returns
`BPT_PRED_SUCCESS`, the value stored under `k` becomes `v2`, and nothing else
changes: the chain reads the same entries but for that value, the root, the
height and the other fields of `bstat` are as before, and every node keeps its
key count, its sibling links and every entry other than the slot written. -/
theorem overwrite_in_place {cmp : bpt_t → bpt_t → Int} (hc : cmp_total cmp) {s : State}
    (h : Reachable cmp s) (hno : s.alloc = []) (k v v2 : bpt_t)
    (pred : bpt_t → bpt_t → Int) (bld : bpt_build) (stk : stk_obj) (b : Bool)
    (hfit : Fits bld stk b s.bstat.height) {es : List bpt_entry}
    (hes : leaves_read s es) (hkv : (⟨k, v⟩ : bpt_entry) ∈ es) (hp : pred v2 v ≠ 0) :
    ∃ t A B, bpt_insert bld ⟨k, v2⟩ cmp pred stk b s = some (BPT_PRED_SUCCESS, t) ∧
      es = A ++ ⟨k, v⟩ :: B ∧ leaves_read t (A ++ ⟨k, v2⟩ :: B) ∧
      t.bstat = s.bstat ∧
      ∃ leaf off n, s.mem leaf = some n ∧ n.entries off = ⟨k, v⟩ ∧
        t = wr s leaf { n with entries := Function.update n.entries off ⟨k, v2⟩ } ∧
        ∀ a m, s.mem a = some m → ∃ m2, t.mem a = some m2 ∧ m2.nkey = m.nkey ∧
          m2.prv = m.prv ∧ m2.nxt = m.nxt ∧
          ∀ j, (a, j) ≠ (leaf, off) → m2.entries j = m.entries j := by
  have hw := reachable_wf hc h
  have hE := leaves_read_unique hw hes
  subst hE
  obtain ⟨r, t, s1, hrun, -, hs1, -, herr, hok⟩ := bpt_insert_spec hc hw ⟨k, v2⟩ pred hfit
  have e1 : s1 = s := hs1 hno
  subst e1
  obtain ⟨hwt, hspec⟩ := hok (fun hr => herr hr hno)
  rcases hspec with ⟨-, hx, -⟩ | ⟨hr, A, x, B, h2, hx, -, h3, leaf, off, n, hn, hoff, ht⟩ |
    ⟨-, x, hx, hk, hz, -⟩
  · exact (hx ⟨k, v⟩ hkv rfl).elim
  · subst hr
    have hxe : x = ⟨k, v⟩ :=
      pairwise_key_unique hc hw.sorted (by rw [h2]; simp) hkv hx
    subst hxe
    have hnew : ({ n.entries off with val := v2 } : bpt_entry) = ⟨k, v2⟩ := by rw [hoff]
    rw [hnew] at ht
    refine ⟨t, A, B, hrun, h2, h3 ▸ hwt.reads_leaves, by rw [ht]; rfl, leaf, off, n, hn, hoff,
      ht, ?_⟩
    intro a m ha
    by_cases hal : a = leaf
    · subst hal
      rw [hn] at ha
      cases Option.some.inj ha
      refine ⟨{ n with entries := Function.update n.entries off ⟨k, v2⟩ },
        by rw [ht]; exact wr_mem_same _ _ _, rfl, rfl, rfl, fun j hj => ?_⟩
      have hj2 : j ≠ off := fun e => hj (by rw [e])
      exact Function.update_noteq hj2 _ _
    · exact ⟨m, by rw [ht, wr_mem_of_ne _ hal]; exact ha, rfl, rfl, rfl, fun _ _ => rfl⟩
  · have hxe : x = ⟨k, v⟩ := pairwise_key_unique hc hw.sorted hx hkv hk
    subst hxe
    exact absurd hz hp

/-- Claim C5, for calls whose journal fits the stack: for every reachable
tree, if no allocation fails, `bpt_insert` of an entry whose key `k` the tree
holds with value `v`, under a `pred` that returns zero on it, returns
`BPT_PRED_FAIL` and leaves the whole state unchanged; consequently two
consecutive `bpt_insert` calls of the same entry under `bpt_pred_0` give a
second result of `BPT_PRED_FAIL` and a state after the second call equal to
the state after the first. -/
theorem insert_pred_fail {cmp : bpt_t → bpt_t → Int} (hc : cmp_total cmp) {s : State}
    (h : Reachable cmp s) (hno : s.alloc = []) (bld : bpt_build) :
    (∀ (k v v2 : bpt_t) (pred : bpt_t → bpt_t → Int) (stk : stk_obj) (b : Bool)
      (es : List bpt_entry), Fits bld stk b s.bstat.height →
      leaves_read s es → (⟨k, v⟩ : bpt_entry) ∈ es → pred v2 v = 0 →
        bpt_insert bld ⟨k, v2⟩ cmp pred stk b s = some (BPT_PRED_FAIL, s)) ∧
    ∀ (e : bpt_entry) (stk : stk_obj) (b : Bool), Fits bld stk b s.bstat.height →
      ∃ r t, bpt_insert bld e cmp bpt_pred_0 stk b s = some (r, t) ∧
        ∀ (stk2 : stk_obj) (b2 : Bool), Fits bld stk2 b2 t.bstat.height →
          bpt_insert bld e cmp bpt_pred_0 stk2 b2 t = some (BPT_PRED_FAIL, t) := by
  have key : ∀ {s : State}, Reachable cmp s → s.alloc = [] →
      ∀ (k v v2 : bpt_t) (pred : bpt_t → bpt_t → Int) (stk : stk_obj) (b : Bool),
        Fits bld stk b s.bstat.height →
        (⟨k, v⟩ : bpt_entry) ∈ tree_entries s → pred v2 v = 0 →
          bpt_insert bld ⟨k, v2⟩ cmp pred stk b s = some (BPT_PRED_FAIL, s) := by
    intro s h hno k v v2 pred stk b hfit hkv hp
    have hw := reachable_wf hc h
    obtain ⟨r, t, s1, hrun, -, hs1, -, herr, hok⟩ := bpt_insert_spec hc hw ⟨k, v2⟩ pred hfit
    have e1 : s1 = s := hs1 hno
    subst e1
    obtain ⟨-, hspec⟩ := hok (fun hr => herr hr hno)
    rcases hspec with ⟨-, hx, -⟩ | ⟨-, A, x, B, h2, hx, hnz, -⟩ | ⟨hr, -, -, -, -, ht⟩
    · exact (hx ⟨k, v⟩ hkv rfl).elim
    · have hxe : x = ⟨k, v⟩ :=
        pairwise_key_unique hc hw.sorted (by rw [h2]; simp) hkv hx
      subst hxe
      exact absurd hp hnz
    · rw [hrun, hr, ht]
  refine ⟨fun k v v2 pred stk b es hfit hes hkv hp => ?_, fun e stk b hfit => ?_⟩
  · have hE := leaves_read_unique (reachable_wf hc h) hes
    subst hE
    exact key h hno k v v2 pred stk b hfit hkv hp
  · have hw := reachable_wf hc h
    obtain ⟨r, t, s1, hrun, -, hs1, hal, herr, hok⟩ := bpt_insert_spec hc hw e bpt_pred_0 hfit
    have e1 : s1 = s := hs1 hno
    subst e1
    have hr0 : r ≠ BPT_ERROR := fun hr => herr hr hno
    obtain ⟨-, hspec⟩ := hok hr0
    have hrt : Reachable cmp t := Reachable.insert bld stk _ e bpt_pred_0 b r t h hrun hr0
    refine ⟨r, t, hrun, fun stk2 b2 hfit2 => ?_⟩
    rcases hspec with ⟨-, -, A, B, -, h3⟩ | ⟨-, A, x, B, -, -, hnz, -⟩ | ⟨-, x, hx, hk, -, ht⟩
    · exact key hrt (hal hno) e.key e.val e.val bpt_pred_0 stk2 b2 hfit2 (by rw [h3]; simp) rfl
    · exact absurd rfl hnz
    · subst ht
      have hxe : x = ⟨e.key, x.val⟩ := by rw [← hk]
      exact key hrt (hal hno) e.key x.val e.val bpt_pred_0 stk2 b2 hfit2 (hxe ▸ hx) rfl


/-! ## The tree against the set of outstanding keys -/

theorem found_iff {cmp : bpt_t → bpt_t → Int} (hc : cmp_total cmp) {s : State}
    (hw : WF cmp s) (k : bpt_t) :
    found cmp k s = true ↔ k ∈ (tree_entries s).map (·.key) := by
  obtain ⟨leaf, n, -, -, -, hcase⟩ := search_spec hc hw k
  unfold found
  rcases hcase with ⟨i, hs, i0, -, hk, hm⟩ | ⟨hs, hno⟩
  · rw [hs]
    simp only [decide_eq_true_eq]
    exact ⟨fun _ => List.mem_map.mpr ⟨_, hm, hk⟩, fun _ => i0⟩
  · rw [hs]
    simp only [decide_eq_true_eq]
    constructor
    · intro h1
      omega
    · intro hin
      obtain ⟨x, hx, hxk⟩ := List.mem_map.mp hin
      exact (hno x hx hxk).elim

theorem run_op_keys {cmp : bpt_t → bpt_t → Int} (hc : cmp_total cmp) {s : State}
    (h : Reachable cmp s) (hno : s.alloc = []) (bld : bpt_build) (stk : stk_obj) (op : tree_op)
    (S : Finset bpt_t) (hS : ∀ k, k ∈ (tree_entries s).map (·.key) ↔ k ∈ S)
    {r : bpt_result} {t : State} (hrun : run_op bld stk cmp op s = some (r, t)) :
    Reachable cmp t ∧ t.alloc = [] ∧
      ∀ k, k ∈ (tree_entries t).map (·.key) ↔ k ∈ set_step S op := by
  have hw := reachable_wf hc h
  cases op with
  | ins e b =>
    obtain ⟨s1, -, hs1, hal, herr, hok⟩ := bpt_insert_sound hc hw bld e bpt_pred_1 stk b hrun
    have e1 : s1 = s := hs1 hno
    subst e1
    have hr0 : r ≠ BPT_ERROR := fun hr => herr hr hno
    obtain ⟨-, hspec⟩ := hok hr0
    refine ⟨Reachable.insert bld stk _ e bpt_pred_1 b r t h hrun hr0, hal hno, fun k => ?_⟩
    have hk := hS k
    rcases hspec with ⟨-, -, A, B, h2, h3⟩ | ⟨-, A, x, B, h2, hx, -, h3, -⟩ | ⟨-, x, -, -, hz, -⟩
    · rw [h2] at hk
      rw [h3]
      simp only [set_step, Finset.mem_insert, List.map_append, List.map_cons, List.mem_append,
        List.mem_cons] at hk ⊢
      rw [← hk]
      tauto
    · rw [h2] at hk
      rw [h3]
      simp only [set_step, Finset.mem_insert, List.map_append, List.map_cons, List.mem_append,
        List.mem_cons] at hk ⊢
      rw [← hk, hx]
      tauto
    · exact absurd hz (show (1 : Int) ≠ 0 by decide)
  | del e b =>
    obtain ⟨s1, -, hs1, hal, herr, hok⟩ := bpt_delete_sound hc hw bld e bpt_pred_1 stk b hrun
    have e1 : s1 = s := hs1 hno
    subst e1
    have hr0 : r ≠ BPT_ERROR := fun hr => herr hr hno
    obtain ⟨-, hspec⟩ := hok hr0
    refine ⟨Reachable.delete bld stk _ e bpt_pred_1 b r t h hrun hr0, hal hno, fun k => ?_⟩
    have hk := hS k
    rcases hspec with ⟨-, hx, ht⟩ | ⟨-, A, x, B, h2, hx, -, h3⟩ | ⟨-, x, -, -, hz, -⟩
    · rw [ht]
      simp only [set_step, Finset.mem_erase]
      rw [← hk]
      constructor
      · intro hin
        obtain ⟨y, hy, hyk⟩ := List.mem_map.mp hin
        exact ⟨fun e2 => hx y hy (hyk.trans e2), hin⟩
      · exact fun h1 => h1.2
    · have habs : x.key ∉ (A ++ B).map (·.key) := mid_key_absent hc (h2 ▸ hw.sorted)
      rw [h2] at hk
      rw [h3]
      simp only [set_step, Finset.mem_erase]
      rw [← hk, ← hx]
      simp only [List.map_append, List.map_cons, List.mem_append, List.mem_cons] at habs ⊢
      constructor
      · intro hin
        refine ⟨fun e2 => habs (e2 ▸ hin), ?_⟩
        tauto
      · rintro ⟨h1, h2⟩
        tauto
    · exact absurd hz (show (1 : Int) ≠ 0 by decide)

theorem run_op_total {cmp : bpt_t → bpt_t → Int} (hc : cmp_total cmp) {s : State}
    (h : Reachable cmp s) {bld : bpt_build} {stk : stk_obj} (op : tree_op)
    (hfit : Fits bld stk op.flag s.bstat.height) :
    ∃ r t, run_op bld stk cmp op s = some (r, t) := by
  have hw := reachable_wf hc h
  cases op with
  | ins e b => exact bpt_insert_total hc hw e bpt_pred_1 hfit
  | del e b =>
    obtain ⟨r, t, -, hrun, -⟩ := bpt_delete_spec hc hw e bpt_pred_1 hfit
    exact ⟨r, t, hrun⟩

theorem run_ops_keys {cmp : bpt_t → bpt_t → Int} (hc : cmp_total cmp) (bld : bpt_build)
    (stk : stk_obj) :
    ∀ (ops : List tree_op) (s : State) (S : Finset bpt_t) (t : State), Reachable cmp s →
      s.alloc = [] → (∀ k, k ∈ (tree_entries s).map (·.key) ↔ k ∈ S) →
      run_ops bld stk cmp ops s = some t →
      Reachable cmp t ∧ t.alloc = [] ∧
        ∀ k, k ∈ (tree_entries t).map (·.key) ↔ k ∈ ops.foldl set_step S := by
  intro ops
  induction ops with
  | nil =>
    intro s S t h hno hS hrun
    simp only [run_ops, Option.some.injEq] at hrun
    subst hrun
    exact ⟨h, hno, hS⟩
  | cons op r ih =>
    intro s S t h hno hS hrun
    simp only [run_ops] at hrun
    cases hop : run_op bld stk cmp op s with
    | none => rw [hop] at hrun; simp at hrun
    | some p =>
      obtain ⟨c, u⟩ := p
      rw [hop] at hrun
      obtain ⟨hrt, hta, hkeys⟩ := run_op_keys hc h hno bld stk op S hS hop
      exact ih u (set_step S op) t hrt hta hkeys hrun

theorem run_ops_total {cmp : bpt_t → bpt_t → Int} (hc : cmp_total cmp) (bld : bpt_build)
    (stk : stk_obj) :
    ∀ (ops : List tree_op) (s : State), Reachable cmp s → s.alloc = [] →
      ops_fit bld stk cmp ops s = true → ∃ t, run_ops bld stk cmp ops s = some t := by
  intro ops
  induction ops with
  | nil => exact fun s _ _ _ => ⟨s, rfl⟩
  | cons op r ih =>
    intro s h hno hfit
    simp only [ops_fit, Bool.and_eq_true, decide_eq_true_eq] at hfit
    obtain ⟨hf1, hf2⟩ := hfit
    obtain ⟨c, u, hop⟩ := run_op_total hc h op hf1
    rw [hop] at hf2
    obtain ⟨hrt, hta, -⟩ := run_op_keys hc h hno bld stk op
      ((tree_entries s).map (·.key)).toFinset (fun k => by simp) hop
    obtain ⟨t, ht⟩ := ih u hrt hta hf2
    exact ⟨t, by simp only [run_ops, hop]; exact ht⟩

/-- Claim C7, for calls that return: for every finite sequence of
`bpt_insert` and `bpt_delete` calls under `bpt_pred_1`, no allocation failing,
applied to a tree created by `bpt_init` with order at least 3, and every key
`k`: when the calls have returned, `bpt_search` finds `k` exactly when `k`
belongs to the set obtained by applying the same inserts and deletes to the
empty set; the calls do return when at each of them the journal fits the
stack; hence two sequences of calls that leave the same set of outstanding
keys give the same presence result for every `k`. -/
theorem search_refines_set {cmp : bpt_t → bpt_t → Int} (hc : cmp_total cmp) (order : Int)
    (h3 : 3 ≤ order) (bld : bpt_build) (stk : stk_obj) :
    ∃ s0, bpt_init (mem0 []) order = (0, s0) ∧
      (∀ ops t, run_ops bld stk cmp ops s0 = some t →
        ∀ k, found cmp k t = true ↔ k ∈ set_after ops) ∧
      (∀ ops, ops_fit bld stk cmp ops s0 = true →
        ∃ t, run_ops bld stk cmp ops s0 = some t) ∧
      ∀ P Q tP tQ, set_after P = set_after Q → run_ops bld stk cmp P s0 = some tP →
        run_ops bld stk cmp Q s0 = some tQ → ∀ k, found cmp k tP = found cmp k tQ := by
  have hinit : bpt_init (mem0 []) order = (0, (bpt_init (mem0 []) order).2) := rfl
  have hr : Reachable cmp (bpt_init (mem0 []) order).2 := Reachable.init [] order _ h3 hinit
  have hal : (bpt_init (mem0 []) order).2.alloc = [] := rfl
  have hent := (bpt_init_wf cmp h3 hinit).2.1
  have hS : ∀ k, k ∈ (tree_entries (bpt_init (mem0 []) order).2).map (·.key) ↔
      k ∈ (∅ : Finset bpt_t) := by
    intro k
    rw [hent]
    simp
  have main : ∀ ops t, run_ops bld stk cmp ops (bpt_init (mem0 []) order).2 = some t →
      ∀ k, found cmp k t = true ↔ k ∈ set_after ops := by
    intro ops t ht
    obtain ⟨htr, -, hk⟩ := run_ops_keys hc bld stk ops _ ∅ t hr hal hS ht
    exact fun k => (found_iff hc (reachable_wf hc htr) k).trans (hk k)
  refine ⟨_, hinit, main, fun ops hfit => run_ops_total hc bld stk ops _ hr hal hfit,
    fun P Q tP tQ hPQ hP hQ k => ?_⟩
  rw [Bool.eq_iff_iff, main P tP hP, main Q tQ hQ, hPQ]

/-! ## Scenario S6 and the thresholds -/

/-- Claim C21 (scenario S6): the tree of order 4 and height 1 whose leaf
chain reads `[1,2,3,4] - [6,7] - [8,9,10,11]` with the root keys 6 and 8 is
obtained by inserting 1 to 11 and deleting 5; on it `bpt_insert` of the key 5
returns `BPT_NEXIST`, hands out no node (`brk` is unchanged) and leaves the
leaf chain `[1,2,3,4] - [5,6,7] - [8,9,10,11]` with the root keys 5 and 8, at
the same height. -/
theorem scenario_s6 :
    tree_s6.map (fun s => (leaf_groups s, root_keys s, s.bstat.height, s.bstat.order)) =
      some (some [[1, 2, 3, 4], [6, 7], [8, 9, 10, 11]], some [6, 8], 1, 4) ∧
    (tree_s6.bind fun s =>
      (bpt_insert build_8 ⟨5, 5⟩ cmp_int bpt_pred_1 (driver_stk build_8) true s).map fun r =>
        (r.1, r.2.bstat.height, decide (r.2.brk = s.brk))) = some (BPT_NEXIST, 1, true) ∧
    (tree_s6.bind fun s =>
      (bpt_insert build_8 ⟨5, 5⟩ cmp_int bpt_pred_1 (driver_stk build_8) true s).map fun r =>
        (leaf_groups r.2, root_keys r.2)) =
      some (some [[1, 2, 3, 4], [5, 6, 7], [8, 9, 10, 11]], some [5, 8]) := by
  decide!

theorem bpt_init_ok (alloc : List Bool) (order : Int)
    (hal : (alloc_request (mem0 alloc)).1 = true) :
    ∃ s, bpt_init (mem0 alloc) order = (0, s) ∧ s.bstat.order = order ∧
      s.bstat.old_leaf_nkey = Int.tdiv order 2 + 1 ∧
      s.bstat.new_leaf_nkey = order + 1 - (Int.tdiv order 2 + 1) ∧
      s.bstat.old_inter_nkey = order - Int.tdiv order 2 ∧
      s.bstat.new_inter_nkey = order - (order - Int.tdiv order 2) := by
  have hn : bpt_node_new (mem0 alloc) 0 0 =
      (1, grow (wr (alloc_request (mem0 alloc)).2 1 (fresh_node 0 0))) := by
    rw [node_new_ok _ _ hal]
    have : (alloc_request (mem0 alloc)).2.brk = 1 := (alloc_request_same _).2.2
    rw [this]
  refine ⟨(bpt_init (mem0 alloc) order).2, ?_, ?_⟩
  · unfold bpt_init
    simp only [hn]
    rfl
  · unfold bpt_init
    simp only [hn]
    exact ⟨rfl, rfl, rfl, rfl, rfl⟩

/-- Claim C30: for every order of at least 3 the thresholds computed by
`bpt_init` keep the results of splits and merges within the occupancy bounds:
`new_leaf_nkey ≤ 2 * new_leaf_nkey - 1 ≤ order`,
`1 ≤ new_inter_nkey ≤ 2 * new_inter_nkey ≤ order`,
`new_leaf_nkey ≤ old_leaf_nkey ≤ order`,
`new_inter_nkey ≤ old_inter_nkey ≤ order`,
`old_leaf_nkey + new_leaf_nkey = order + 1` and
`old_inter_nkey + new_inter_nkey = order`. -/
theorem thresholds_within_bounds (alloc : List Bool) (order : Int) (h3 : 3 ≤ order)
    (hal : (alloc_request (mem0 alloc)).1 = true) :
    ∃ s, bpt_init (mem0 alloc) order = (0, s) ∧ s.bstat.order = order ∧
      s.bstat.new_leaf_nkey ≤ 2 * s.bstat.new_leaf_nkey - 1 ∧
      2 * s.bstat.new_leaf_nkey - 1 ≤ order ∧
      1 ≤ s.bstat.new_inter_nkey ∧ s.bstat.new_inter_nkey ≤ 2 * s.bstat.new_inter_nkey ∧
      2 * s.bstat.new_inter_nkey ≤ order ∧
      s.bstat.new_leaf_nkey ≤ s.bstat.old_leaf_nkey ∧ s.bstat.old_leaf_nkey ≤ order ∧
      s.bstat.new_inter_nkey ≤ s.bstat.old_inter_nkey ∧ s.bstat.old_inter_nkey ≤ order ∧
      s.bstat.old_leaf_nkey + s.bstat.new_leaf_nkey = order + 1 ∧
      s.bstat.old_inter_nkey + s.bstat.new_inter_nkey = order := by
  obtain ⟨s, hs, e0, e1, e2, e3, e4⟩ := bpt_init_ok alloc order hal
  have hdiv : Int.tdiv order 2 = order / 2 := Int.tdiv_eq_ediv (by omega) (by omega)
  rw [hdiv] at e1 e2 e3 e4
  refine ⟨s, hs, e0, ?_⟩
  rw [e1, e2, e3, e4]
  omega

theorem thresholds_within_bounds_witness :
    (3 : Int) ≤ 3 ∧ (alloc_request (mem0 [])).1 = true ∧
    ∃ s, bpt_init (mem0 []) 3 = (0, s) ∧ s.bstat.order = 3 ∧
      s.bstat.new_leaf_nkey ≤ 2 * s.bstat.new_leaf_nkey - 1 ∧
      2 * s.bstat.new_leaf_nkey - 1 ≤ 3 ∧
      1 ≤ s.bstat.new_inter_nkey ∧ s.bstat.new_inter_nkey ≤ 2 * s.bstat.new_inter_nkey ∧
      2 * s.bstat.new_inter_nkey ≤ 3 ∧
      s.bstat.new_leaf_nkey ≤ s.bstat.old_leaf_nkey ∧ s.bstat.old_leaf_nkey ≤ 3 ∧
      s.bstat.new_inter_nkey ≤ s.bstat.old_inter_nkey ∧ s.bstat.old_inter_nkey ≤ 3 ∧
      s.bstat.old_leaf_nkey + s.bstat.new_leaf_nkey = 3 + 1 ∧
      s.bstat.old_inter_nkey + s.bstat.new_inter_nkey = 3 :=
  ⟨by decide, rfl, thresholds_within_bounds [] 3 (by decide) rfl⟩

/-! ## The container of `gen_stk.c` -/

theorem GenStk.length_realloc (b : GenStk.block) (n : Nat) : (GenStk.realloc b n).length = n := by
  simp only [GenStk.realloc, List.length_append, List.length_take, List.length_replicate]
  omega

/-- Claim C22, as the code has it: when `gen_stk_push` is called on a full
stack and the reallocation succeeds, the capacity becomes `cap + init_cap`
elements, but the block requested from the allocator has `cap + init_cap`
bytes, not `(cap + init_cap) * uni_siz`; whenever the pushed element does not
fit into that many bytes the `memcpy` of the push leaves the block. -/
theorem push_full_block_bytes (self : GenStk.gen_stk) (elem : List (Option Nat))
    (hfull : self.cap ≤ self.cnt) (hsz : self.cap + self.init_cap < GenStk.size_range) :
    ∃ s1, GenStk.push_grow self true = some s1 ∧ s1.cap = self.cap + self.init_cap ∧
      s1.addr.length = self.cap + self.init_cap ∧
      (self.cap + self.init_cap < (self.cnt + 1) * self.uni_siz →
        (self.cnt + 1) * self.uni_siz < GenStk.size_range →
        GenStk.gen_stk_push self elem true = none) := by
  have hg : GenStk.push_grow self true = some { self with
      addr := GenStk.realloc self.addr (self.cap + self.init_cap)
      cap := self.cap + self.init_cap } := by
    simp only [GenStk.push_grow, ge_iff_le, hfull, if_true, Nat.mod_eq_of_lt hsz]
  refine ⟨_, hg, rfl, GenStk.length_realloc _ _, fun h1 h2 => ?_⟩
  have e1 : (self.cnt + 1) * self.uni_siz = self.cnt * self.uni_siz + self.uni_siz := by ring
  have h3 : self.cnt * self.uni_siz < GenStk.size_range := by omega
  simp only [GenStk.gen_stk_push, hg, GenStk.store, Nat.mod_eq_of_lt h3, GenStk.length_realloc]
  rw [if_neg (by omega)]

theorem push_full_block_bytes_witness :
    (1 : Nat) ≤ 1 ∧ 1 + 1 < GenStk.size_range ∧
    ∃ s1, GenStk.push_grow ⟨1, 1, 1, 2, [some 7, some 8]⟩ true = some s1 ∧ s1.cap = 1 + 1 ∧
      s1.addr.length = 1 + 1 ∧
      (1 + 1 < (1 + 1) * 2 → (1 + 1) * 2 < GenStk.size_range →
        GenStk.gen_stk_push ⟨1, 1, 1, 2, [some 7, some 8]⟩ [some 3, some 4] true = none) :=
  ⟨le_refl 1, by decide,
    push_full_block_bytes ⟨1, 1, 1, 2, [some 7, some 8]⟩ [some 3, some 4] (le_refl 1) (by decide)⟩

theorem GenStk.fetch_store (b : GenStk.block) (off : Nat) (elem : List (Option Nat)) (len : Nat)
    (b1 : GenStk.block) (h : GenStk.store b off elem len = some b1) :
    GenStk.fetch b1 off len = some elem ∧ b1.length = b.length ∧ b1.take off = b.take off := by
  unfold GenStk.store at h
  split_ifs at h with hc
  obtain ⟨h1, h2⟩ := hc
  cases Option.some.inj h
  have hl : (b.take off).length = off := by rw [List.length_take]; omega
  refine ⟨?_, ?_, ?_⟩
  · unfold GenStk.fetch
    have hlen : (List.take off b ++ elem ++ List.drop (off + len) b).length = b.length := by
      simp only [List.length_append, List.length_take, List.length_drop]
      omega
    rw [if_pos (by rw [hlen]; exact h2), List.append_assoc, List.drop_left' hl,
      List.take_left' h1]
  · simp only [List.length_append, List.length_take, List.length_drop]
    omega
  · rw [List.append_assoc, List.take_left' hl]

/-- Within the capacity the container is last-in-first-out: a push that finds
room in a block of at least `cap * uni_siz` bytes returns `0`, and the pop
that follows returns the element pushed and restores the count and the bytes
of the elements below. -/
theorem push_pop_within_cap (self : GenStk.gen_stk) (elem : List (Option Nat)) (ok : Bool)
    (hroom : self.cnt < self.cap) (hblk : self.cap * self.uni_siz ≤ self.addr.length)
    (hlen : elem.length = self.uni_siz)
    (hsz : (self.cnt + 1) * self.uni_siz < GenStk.size_range)
    (hcnt : self.cnt + 1 < GenStk.size_range) :
    ∃ s1 s2, GenStk.gen_stk_push self elem ok = some (0, s1) ∧ s1.cnt = self.cnt + 1 ∧
      GenStk.gen_stk_pop s1 = some (elem, s2) ∧ s2.cnt = self.cnt ∧ s2.cap = self.cap ∧
      s2.addr.take (self.cnt * self.uni_siz) = self.addr.take (self.cnt * self.uni_siz) := by
  have e1 : (self.cnt + 1) * self.uni_siz = self.cnt * self.uni_siz + self.uni_siz := by ring
  have h3 : self.cnt * self.uni_siz < GenStk.size_range := by omega
  have hle : (self.cnt + 1) * self.uni_siz ≤ self.cap * self.uni_siz :=
    Nat.mul_le_mul_right _ hroom
  have hg : GenStk.push_grow self ok = some self := by
    simp only [GenStk.push_grow, ge_iff_le]
    rw [if_neg (by omega)]
  have hst : ∃ b1, GenStk.store self.addr (self.cnt * self.uni_siz) elem self.uni_siz = some b1 := by
    unfold GenStk.store
    rw [if_pos ⟨hlen, by omega⟩]
    exact ⟨_, rfl⟩
  obtain ⟨b1, hb1⟩ := hst
  obtain ⟨f1, f2, f3⟩ := GenStk.fetch_store _ _ _ _ _ hb1
  have hdec : (self.cnt + 1 + GenStk.size_range - 1) % GenStk.size_range = self.cnt := by
    have : self.cnt + 1 + GenStk.size_range - 1 = self.cnt + GenStk.size_range := by omega
    rw [this, Nat.add_mod_right, Nat.mod_eq_of_lt (by omega)]
  refine ⟨{ self with addr := b1, cnt := self.cnt + 1 }, { self with addr := b1, cnt := self.cnt },
    ?_, rfl, ?_, rfl, rfl, f3⟩
  · simp only [GenStk.gen_stk_push, hg, Nat.mod_eq_of_lt h3, hb1, Nat.mod_eq_of_lt hcnt]
  · simp only [GenStk.gen_stk_pop, hdec, Nat.mod_eq_of_lt h3, f1]

/-- Claim C23, as the code has it: a stack created by `gen_stk_init` for one
element of two bytes takes a first push, and the second push, which finds the
stack full, reallocates the block to two bytes and copies the element to the
bytes 2 and 3, outside the block: the behaviour is undefined, and so is that of
the pops that would return the two elements. -/
theorem two_pushes_overflow :
    ∃ s0 s1, GenStk.gen_stk_init 1 2 true = some s0 ∧
      GenStk.gen_stk_push s0 [some 1, some 2] true = some (0, s1) ∧
      GenStk.gen_stk_empty s1 = false ∧ s1.cnt = 1 ∧ s1.cap = 1 ∧
      (GenStk.push_grow s1 true).map (fun s => s.addr.length) = some 2 ∧
      GenStk.gen_stk_push s1 [some 3, some 4] true = none :=
  ⟨⟨1, 1, 0, 2, [none, none]⟩, ⟨1, 1, 1, 2, [some 1, some 2]⟩, by decide, by decide, by decide,
    rfl, rfl, by decide, by decide⟩

/-! ## From the calls of the interface to the leaf -/

/-- The tree of an example is reachable when the calls that build it have
returned. -/
theorem tree_of_reach {order : Int} (h3 : 3 ≤ order) (ops : List tree_op)
    (hrun : (run_ops build_8 (driver_stk build_8) cmp_word ops
      (bpt_init (mem0 []) order).2).isSome = true) :
    Reachable cmp_word (tree_of order ops) ∧ (tree_of order ops).alloc = [] := by
  have hinit : bpt_init (mem0 []) order = (0, (bpt_init (mem0 []) order).2) := rfl
  obtain ⟨t, ht⟩ := Option.isSome_iff_exists.mp hrun
  obtain ⟨hr, ha, -⟩ := run_ops_keys cmp_word_total build_8 (driver_stk build_8) ops _
    ((tree_entries (bpt_init (mem0 []) order).2).map (·.key)).toFinset t
    (Reachable.init [] order _ h3 hinit) rfl (fun k => List.mem_toFinset.symm) ht
  have e : tree_of order ops = t := by simp [tree_of, ht]
  rw [e]
  exact ⟨hr, ha⟩

theorem journal_reset_nil {s : State} (hno : s.alloc = []) (b : Bool) :
    journal_reset s b = (true, s) := by
  cases b
  · simp only [journal_reset, Bool.false_eq_true, if_false, alloc_request, hno]
  · rfl

/-- A call of `bpt_insert` that returned, the allocator never refusing, is
the call on a stack made for the height of the tree. -/
theorem insert_returned {bld : bpt_build} {e : bpt_entry} {cmp pred : bpt_t → bpt_t → Int}
    {stk : stk_obj} {b : Bool} {s t : State} {r : bpt_result} (hno : s.alloc = [])
    (hrun : bpt_insert bld e cmp pred stk b s = some (r, t)) :
    bpt_insert bld e cmp pred
      ⟨s.bstat.height, s.bstat.height, bld.sizeof_bpt_frm,
        s.bstat.height * bld.sizeof_bpt_frm, []⟩ true s = some (r, t) := by
  rcases bpt_insert_refit hrun with ⟨-, ha⟩ | ⟨t1, -, h2, hrun1⟩
  · exact absurd hno ha
  · rw [h2 hno] at hrun1
    exact hrun1

/-- A call of `bpt_delete` that returned, the allocator never refusing, is
the call on a stack made for the height of the tree. -/
theorem delete_returned {bld : bpt_build} {e : bpt_entry} {cmp pred : bpt_t → bpt_t → Int}
    {stk : stk_obj} {b : Bool} {s t : State} {r : bpt_result} (hno : s.alloc = [])
    (hrun : bpt_delete bld e cmp pred stk b s = some (r, t)) :
    bpt_delete bld e cmp pred
      ⟨s.bstat.height, s.bstat.height, bld.sizeof_bpt_frm,
        s.bstat.height * bld.sizeof_bpt_frm, []⟩ true s = some (r, t) := by
  rcases bpt_delete_refit hrun with ⟨-, ha⟩ | ⟨t1, -, h2, hrun1⟩
  · exact absurd hno ha
  · rw [h2 hno] at hrun1
    exact hrun1

/-- The journaled descent for `k` on a well-formed tree reaches, on every
stack with room and in the same state, the leaf that `search_descend` finds;
the journal leads to it, and the frame at its bottom is that of the root. -/
theorem descend_at_leaf {cmp : bpt_t → bpt_t → Int} (hc : cmp_total cmp) {s : State}
    (hw : WF cmp s) (k : bpt_t) :
    ∃ leaf stk U X lo Y,
      (∀ (bld : bpt_build) (obj : stk_obj), obj.frames = [] → Room bld obj s.bstat.height →
        journal_descend bld cmp k s.bstat.height s s.bstat.root_node obj =
          some (some (leaf, { obj with frames := stk }), s)) ∧
      LeafSit cmp s stk U X lo leaf Y k ∧
      search_descend cmp k s s.bstat.height s.bstat.root_node = some leaf ∧
      (stk = [] → leaf = s.bstat.root_node) ∧
      (∀ f, stk.getLast? = some f → f.node = s.bstat.root_node) := by
  obtain ⟨leaf, stk, hd, hsd, U, X, lo, Y, c1, c2, c3, c4, c5⟩ := descend_any hw k
  have d1 := hd build_8 _ (journal_stk_frames build_8 _ true) (fits_self build_8 s.bstat.height)
  obtain ⟨-, -, -, hf⟩ := journal_follows build_8 cmp k _ _ _ _ _ _ d1
  obtain ⟨-, fr, hfr, -, hpath⟩ := hf leaf _ rfl
  simp only [journal_stk_frames, List.append_nil] at hfr
  refine ⟨leaf, stk, U, X, lo, Y, hd, ⟨hc, hw.1, hw.2.1, c1, c2, c3, c4, c5⟩, hsd, ?_, ?_⟩
  · intro h0
    rw [h0] at hfr
    have : fr = [] := by simpa using hfr.symm
    subst this
    exact hpath.symm
  · intro f hf1
    rw [hfr, List.getLast?_reverse] at hf1
    cases fr with
    | nil => simp at hf1
    | cons g r =>
      simp only [List.head?_cons, Option.some.injEq] at hf1
      subst hf1
      exact hpath.1

theorem insert_at_leaf {cmp : bpt_t → bpt_t → Int} {s : State} (hno : s.alloc = [])
    {leaf : Int} {stk : gen_stk} (e : bpt_entry) (pred : bpt_t → bpt_t → Int)
    {bld : bpt_build} {stk0 : stk_obj} {b : Bool} (hfit : Fits bld stk0 b s.bstat.height)
    (hd : ∀ (bld : bpt_build) (obj : stk_obj), obj.frames = [] → Room bld obj s.bstat.height →
      journal_descend bld cmp e.key s.bstat.height s s.bstat.root_node obj =
        some (some (leaf, { obj with frames := stk }), s)) :
    bpt_insert bld e cmp pred stk0 b s = leaf_insert e cmp pred leaf stk s := by
  unfold bpt_insert
  simp only [journal_reset_nil hno, if_true, hd bld _ (journal_stk_frames bld stk0 b) hfit]

theorem delete_at_leaf {cmp : bpt_t → bpt_t → Int} {s : State} (hno : s.alloc = [])
    {leaf off : Int} {stk : gen_stk} (e : bpt_entry) (pred : bpt_t → bpt_t → Int)
    {bld : bpt_build} {stk0 : stk_obj} {b : Bool} (hfit : Fits bld stk0 b s.bstat.height)
    (hd : ∀ (bld : bpt_build) (obj : stk_obj), obj.frames = [] → Room bld obj s.bstat.height →
      journal_descend bld cmp e.key s.bstat.height s s.bstat.root_node obj =
        some (some (leaf, { obj with frames := stk }), s))
    (hf : leaf_find cmp e.key s leaf = some off) (hoff : off ≠ -1) {x : bpt_entry}
    (hx : get_entry s leaf off = some x) (hp : pred e.val x.val ≠ 0) :
    bpt_delete bld e cmp pred stk0 b s = bpt_delete_entry leaf off stk s := by
  unfold bpt_delete bpt_searchr
  simp only [journal_reset_nil hno, if_true, hd bld _ (journal_stk_frames bld stk0 b) hfit, hf,
    hoff, if_false, hx, hp, ne_eq, not_false_eq_true]

theorem search_inv {cmp : bpt_t → bpt_t → Int} {s : State} {k : bpt_t} {off leaf : Int}
    (h : bpt_search k cmp s = some (off, some leaf)) :
    search_descend cmp k s s.bstat.height s.bstat.root_node = some leaf ∧
      leaf_find cmp k s leaf = some off ∧ off ≠ -1 := by
  unfold bpt_search at h
  cases hsd : search_descend cmp k s s.bstat.height s.bstat.root_node with
  | none => rw [hsd] at h; simp at h
  | some l0 =>
    rw [hsd] at h
    simp only at h
    cases hlf : leaf_find cmp k s l0 with
    | none => rw [hlf] at h; simp at h
    | some i =>
      rw [hlf] at h
      simp only at h
      by_cases hi : i = -1
      · rw [if_pos hi] at h
        simp at h
      · rw [if_neg hi] at h
        simp only [Option.some.injEq, Prod.mk.injEq] at h
        obtain ⟨h1, h2⟩ := h
        subst h1 h2
        exact ⟨rfl, hlf, hi⟩

theorem leaf_find_range {cmp : bpt_t → bpt_t → Int} {s : State} {k : bpt_t} {leaf off : Int}
    {n : bpt_node} (hm : rd s leaf = some n) (h0 : 0 ≤ n.nkey)
    (hf : leaf_find cmp k s leaf = some off) (hoff : off ≠ -1) :
    0 ≤ off ∧ off < n.nkey ∧ cmp k (n.entries off).key = 0 := by
  unfold leaf_find at hf
  rw [hm] at hf
  simp only at hf
  split_ifs at hf with hc
  cases Option.some.inj hf
  rcases scan_eq_spec cmp k n.entries n.nkey n.nkey.toNat 0 (le_refl _)
    (by rw [Int.toNat_of_nonneg h0]; omega) with ⟨r1, -⟩ | ⟨r1, r2, r3, -⟩
  · exact absurd r1 hoff
  · exact ⟨r1, r2, r3⟩

/-! ## The leaf that takes entries from its previous sibling -/

theorem node_ents_shrink {P : bpt_node} {L : Int} (h0 : 0 ≤ L) (h1 : L ≤ P.nkey) :
    node_ents { P with nkey := L } = (node_ents P).take L.toNat := by
  simp only [node_ents, ← List.map_take, List.take_range]
  congr 2
  omega

theorem delete_entry_prv_run {cmp : bpt_t → bpt_t → Int} {s : State} {stk : gen_stk}
    {U : List Int} {X Y : List Item} {lo : Option bpt_t} {leaf : Int} {k : bpt_t}
    {n P : bpt_node} {off : Int}
    (hs : LeafSit cmp s stk U X lo leaf Y k) (hm : s.mem leaf = some n) (h0 : 0 ≤ off)
    (h1 : off < n.nkey) (hmin : n.nkey = s.bstat.new_leaf_nkey) (hprv : n.prv ≠ 0)
    (hmp : s.mem n.prv = some P) (hpk : P.nkey ≠ s.bstat.new_leaf_nkey) :
    ∃ t A R, delete_entry_prv s leaf off n.prv P.nkey stk = some t ∧
      R = (s.bstat.new_leaf_nkey - 1 + P.nkey) / 2 ∧
      t.mem leaf = some A ∧ A.nkey = R ∧
      t.mem n.prv = some { P with nkey := s.bstat.new_leaf_nkey - 1 + P.nkey - R } ∧
      0 ≤ s.bstat.new_leaf_nkey - 1 + P.nkey - R ∧
      s.bstat.new_leaf_nkey - 1 + P.nkey - R ≤ P.nkey ∧
      node_ents { P with nkey := s.bstat.new_leaf_nkey - 1 + P.nkey - R } ++ node_ents A =
        node_ents P ++ ((node_ents n).take off.toNat ++ (node_ents n).drop (off.toNat + 1)) := by
  obtain ⟨l0, lb, n1, hm1, hn0, hn1, hn2, -, -, -, -⟩ := hs.node
  rw [hm] at hm1; cases Option.some.inj hm1
  obtain ⟨lU, lX, lY⟩ := hs.notin
  obtain ⟨p3, -, -, -, -, p5, p6, p7, p8⟩ := params_arith hs.hp
  obtain ⟨X0, lp, hX, hpok⟩ := (prev_facts hs.ok.1 hm).2 hprv
  have hXne : X ≠ [] := by rw [hX]; simp
  have hne : stk ≠ [] := hs.stk_ne (Or.inl hXne)
  have hmn := hs.min_eq_leaf hne
  obtain ⟨pv0, -, P1, hP1, hp1, hp2, hp3⟩ := hpok
  rw [hmp] at hP1; cases Option.some.inj hP1
  rw [hmn] at hp2
  have hlt : s.bstat.new_leaf_nkey < P.nkey := lt_of_le_of_ne hp2 (Ne.symm hpk)
  obtain ⟨l, hlo⟩ : ∃ l, lo = some l := by
    cases hq : lo with
    | none => exact absurd (hs.ctx.first_iff.mpr hq) hXne
    | some l => exact ⟨l, rfl⟩
  have hnd3 : (U ++ (X0 ++ (lp, n.prv) :: (lo, leaf) :: Y).map Prod.snd).Nodup := by
    have := hs.nd
    rw [hX] at this; simpa using this
  obtain ⟨hpl, pU, -, pX, lX0, pY, -, dX, dY, ndY, -⟩ := nodup_pair hnd3
  obtain ⟨R, hRt⟩ : ∃ R, Int.tdiv (s.bstat.new_leaf_nkey - 1 + P.nkey) 2 = R := ⟨_, rfl⟩
  have hR : R = (s.bstat.new_leaf_nkey - 1 + P.nkey) / 2 := by
    rw [← hRt]; exact Int.tdiv_eq_ediv (by omega) (by omega)
  obtain ⟨a1, a2, a3, a4, a5, a6, a7, a8⟩ := leaf_grab_arith p6 hlt hp3 hR
  obtain ⟨S1, S2, S3, S4, T, A, e1, e2, e3, e4, e5, t1, t2, t3, t4, t5, t6, g1, g2, g3, q1, q2,
      q3⟩ := @leaf_grab_prv_run s leaf n.prv n P off s.bstat.new_leaf_nkey
    (s.bstat.new_leaf_nkey - 1 + P.nkey - R) R l0 pv0 hpl.symm hm hmp
    ⟨h0, by rw [← hmin]; exact h1⟩ ⟨a1, a2⟩ ⟨a3, a4⟩ hp3
  have hlay := leaf_grab_prv_layout hmin ⟨h0, by rw [← hmin]; exact h1⟩ a1 ⟨a3, a4⟩ g1 q1 q2 q3
  have heT : Ext s T := Ext.of_stat t4 t5
  have hAU : Agree s T U := fun b hb =>
    t3 b (ne_of_mem_of_not_mem hb lU) (ne_of_mem_of_not_mem hb pU)
  have hcT : Ctx T stk U X lo leaf Y := hs.ctx.frame heT (by rw [t4]) hAU
  obtain ⟨mo, mn, nm, -, m2, m3, m4, m5, m6, m7, -, m9⟩ := hcT.left_sep.2 l hlo
  obtain ⟨m10, hc4⟩ := m9 (A.entries 0).key
  obtain ⟨t, ht⟩ : ∃ t, t = wr T mn (with_key nm mo (A.entries 0).key) := ⟨_, rfl⟩
  rw [← ht] at m10 hc4
  have hlm : leaf ≠ mn := (ne_of_mem_of_not_mem m2 lU).symm
  have hpm : n.prv ≠ mn := (ne_of_mem_of_not_mem m2 pU).symm
  have f1 : t.mem leaf = some A := by rw [ht, wr_mem_of_ne _ hlm]; exact t1
  have f2 : t.mem n.prv = some { P with nkey := s.bstat.new_leaf_nkey - 1 + P.nkey - R } := by
    rw [ht, wr_mem_of_ne _ hpm]; exact t2
  refine ⟨t, A, R, ?_, hR, f1, g1, f2, a3, by omega, hlay⟩
  unfold delete_entry_prv
  simp only [Option.bind_eq_bind, hRt, e1, Option.some_bind, e2, e3, e4, e5,
    get_entry_eq l0 t1 (le_refl _) (by rw [t4]; omega), m10]

theorem tree_a_reach : Reachable cmp_word tree_a ∧ tree_a.alloc = [] :=
  tree_of_reach (by decide) _ (by decide!)

/-- Counterexample to claim C25 as stated: in the tree `tree_a` of order 4
(`new_leaf_nkey = 2`) the leaf of the key 6 holds 2 entries and its previous
sibling 4, so that `sum = 5`; after `bpt_delete` of 6 the previous sibling holds
3 entries and the leaf 2, whereas the claim gives `sum / 2 = 2` to the previous
sibling and the remaining 3 to the leaf. -/
theorem grab_prv_sizes :
    cmp_total cmp_word ∧ Reachable cmp_word tree_a ∧ tree_a.alloc = [] ∧
    bpt_search 6 cmp_word tree_a = some (0, some 2) ∧ 0 < tree_a.bstat.height ∧
    tree_a.bstat.new_leaf_nkey = 2 ∧ bpt_node_nkey tree_a 2 = some 2 ∧
    bpt_node_prv tree_a 2 = some 1 ∧ bpt_node_nkey tree_a 1 = some 4 ∧
    (bpt_delete build_8 ⟨6, 6⟩ cmp_word bpt_pred_1 (driver_stk build_8) true tree_a).map
        (fun r => (r.1, bpt_node_nkey r.2 1, bpt_node_nkey r.2 2)) =
      some (BPT_PRED_SUCCESS, some 3, some 2) ∧
    ((2 - 1 + 4) / 2 : Int) = 2 :=
  ⟨cmp_word_total, tree_a_reach.1, tree_a_reach.2,
    by decide!, by decide!, by decide!, by decide!, by decide!, by decide!, by decide!,
    by decide⟩

/-- The redistribution from the previous sibling, for a call whose journal
fits the stack. -/
theorem delete_grabs_fit {cmp : bpt_t → bpt_t → Int} (hc : cmp_total cmp) {s : State}
    (h : Reachable cmp s) (hno : s.alloc = []) (k w : bpt_t) (pred : bpt_t → bpt_t → Int)
    {bld : bpt_build} {stk0 : stk_obj} {b : Bool} (hfit : Fits bld stk0 b s.bstat.height)
    (leaf off prv pk : Int) (v : bpt_t)
    (hfind : bpt_search k cmp s = some (off, some leaf))
    (hv : (get_entry s leaf off).map (·.val) = some v) (hpred : pred w v ≠ 0)
    (hmin : bpt_node_nkey s leaf = some s.bstat.new_leaf_nkey)
    (hprv : bpt_node_prv s leaf = some prv) (hpk : bpt_node_nkey s prv = some pk)
    (hbig : s.bstat.new_leaf_nkey < pk) :
    ∃ t, bpt_delete bld ⟨k, w⟩ cmp pred stk0 b s = some (BPT_PRED_SUCCESS, t) ∧
      bpt_node_nkey t leaf = some ((s.bstat.new_leaf_nkey - 1 + pk) / 2) ∧
      bpt_node_nkey t prv =
        some (s.bstat.new_leaf_nkey - 1 + pk - (s.bstat.new_leaf_nkey - 1 + pk) / 2) ∧
      leaf_ents t prv = (leaf_ents s prv).take
        (s.bstat.new_leaf_nkey - 1 + pk - (s.bstat.new_leaf_nkey - 1 + pk) / 2).toNat ∧
      leaf_ents t leaf = (leaf_ents s prv).drop
          (s.bstat.new_leaf_nkey - 1 + pk - (s.bstat.new_leaf_nkey - 1 + pk) / 2).toNat ++
        ((leaf_ents s leaf).take off.toNat ++ (leaf_ents s leaf).drop (off.toNat + 1)) := by
  have hw := reachable_wf hc h
  obtain ⟨x, hx, hxv⟩ := Option.map_eq_some'.mp hv
  subst hxv
  obtain ⟨hsd, hlf, hoff⟩ := search_inv hfind
  obtain ⟨leaf0, stk, U, X, lo, Y, hd, hs, hsd0, -, -⟩ := descend_at_leaf hc hw k
  rw [hsd] at hsd0
  cases Option.some.inj hsd0
  obtain ⟨l0, lb, n, hm, hn0, hn1, hn2, -⟩ := hs.node
  rw [nkey_eq l0 hm] at hmin
  have hnk : n.nkey = s.bstat.new_leaf_nkey := Option.some.inj hmin
  rw [prv_eq l0 hm] at hprv
  have hnp : n.prv = prv := Option.some.inj hprv
  subst hnp
  have hp0 : n.prv ≠ 0 := by
    intro h0
    rw [h0] at hpk
    simp [bpt_node_nkey, rd] at hpk
  obtain ⟨P, hP, hPk⟩ : ∃ P, s.mem n.prv = some P ∧ P.nkey = pk := by
    simpa only [bpt_node_nkey, rd_of_ne hp0, Option.map_eq_some'] using hpk
  subst hPk
  obtain ⟨o0, o1, -⟩ := leaf_find_range (by rw [rd_of_ne l0]; exact hm) hn0 hlf hoff
  obtain ⟨t, A, R, hrun, hR, f1, g1, f2, a3, a4, hlay⟩ :=
    delete_entry_prv_run hs hm o0 o1 hnk hp0 hP (by omega)
  subst hR
  obtain ⟨xk, hxk, hxk0⟩ : ∃ xk, (n.nxt ≠ 0 → bpt_node_nkey s n.nxt = some xk) ∧
      (n.nxt = 0 → xk = s.bstat.new_leaf_nkey) := by
    by_cases h : n.nxt = 0
    · exact ⟨_, fun h1 => absurd h h1, fun _ => rfl⟩
    · obtain ⟨ln, Y0, -, p0, -, Nx, hNx, -⟩ := (next_facts hs.ok.1 hm).2 h
      exact ⟨Nx.nkey, fun _ => nkey_eq p0 hNx, fun h1 => absurd h1 h⟩
  have hXne : X ≠ [] := fun hX => hp0 ((prev_facts hs.ok.1 hm).1.mpr hX)
  have hne : stk ≠ [] := hs.stk_ne (Or.inl hXne)
  have hk : ¬ (n.nkey ≠ s.bstat.new_leaf_nkey ∨ gen_stk_empty stk = true) := by
    rintro (h1 | h1)
    · exact h1 hnk
    · cases stk with
      | nil => exact hne rfl
      | cons _ _ => simp [gen_stk_empty] at h1
  have hrun2 : bpt_delete bld ⟨k, w⟩ cmp pred stk0 b s = some (BPT_PRED_SUCCESS, t) := by
    rw [delete_at_leaf hno ⟨k, w⟩ pred hfit hd hlf hoff hx hpred,
      entry_eval stk l0 hm P.nkey xk (fun _ => nkey_eq hp0 hP) (fun h1 => absurd h1 hp0) hxk
        hxk0 hk,
      if_pos ⟨hp0, by omega⟩, hrun]
    rfl
  have hA : node_ents A = (node_ents P).drop
      (s.bstat.new_leaf_nkey - 1 + P.nkey - (s.bstat.new_leaf_nkey - 1 + P.nkey) / 2).toNat ++
        ((node_ents n).take off.toNat ++ (node_ents n).drop (off.toNat + 1)) := by
    rw [node_ents_shrink a3 a4] at hlay
    conv at hlay => rhs; rw [← List.take_append_drop
      (s.bstat.new_leaf_nkey - 1 + P.nkey - (s.bstat.new_leaf_nkey - 1 + P.nkey) / 2).toNat
      (node_ents P), List.append_assoc]
    exact List.append_cancel_left hlay
  refine ⟨t, hrun2, ?_, ?_, ?_, ?_⟩
  · rw [nkey_eq l0 f1, g1]
  · rw [nkey_eq hp0 f2]
  · rw [leaf_ents_of_mem f2, leaf_ents_of_mem hP, node_ents_shrink a3 a4]
  · rw [leaf_ents_of_mem f1, leaf_ents_of_mem hP, leaf_ents_of_mem hm, hA]

/-- Claim C25, amended: when `bpt_delete` removes the entry of slot `off` from
a leaf that holds `new_leaf_nkey` entries and whose previous sibling holds
`pk > new_leaf_nkey` entries (so that the leaf is not the root), then with
`sum = (new_leaf_nkey - 1) + pk` the leaf ends with `sum / 2` entries and the
previous sibling with `sum - sum / 2`: the previous sibling keeps its first
entries, and the leaf reads the last entries of the previous sibling followed
by its own entries without the one deleted. -/
theorem delete_grabs_from_prv {cmp : bpt_t → bpt_t → Int} (hc : cmp_total cmp) {s : State}
    (h : Reachable cmp s) (hno : s.alloc = []) (k w : bpt_t) (pred : bpt_t → bpt_t → Int)
    (bld : bpt_build) (stk0 : stk_obj) (b : Bool) (leaf off prv pk : Int) (v : bpt_t)
    (hfind : bpt_search k cmp s = some (off, some leaf))
    (hv : (get_entry s leaf off).map (·.val) = some v) (hpred : pred w v ≠ 0)
    (hmin : bpt_node_nkey s leaf = some s.bstat.new_leaf_nkey)
    (hprv : bpt_node_prv s leaf = some prv) (hpk : bpt_node_nkey s prv = some pk)
    (hbig : s.bstat.new_leaf_nkey < pk) :
    (Fits bld stk0 b s.bstat.height →
      ∃ t, bpt_delete bld ⟨k, w⟩ cmp pred stk0 b s = some (BPT_PRED_SUCCESS, t)) ∧
    ∀ r t, bpt_delete bld ⟨k, w⟩ cmp pred stk0 b s = some (r, t) →
      r = BPT_PRED_SUCCESS ∧
      bpt_node_nkey t leaf = some ((s.bstat.new_leaf_nkey - 1 + pk) / 2) ∧
      bpt_node_nkey t prv =
        some (s.bstat.new_leaf_nkey - 1 + pk - (s.bstat.new_leaf_nkey - 1 + pk) / 2) ∧
      leaf_ents t prv = (leaf_ents s prv).take
        (s.bstat.new_leaf_nkey - 1 + pk - (s.bstat.new_leaf_nkey - 1 + pk) / 2).toNat ∧
      leaf_ents t leaf = (leaf_ents s prv).drop
          (s.bstat.new_leaf_nkey - 1 + pk - (s.bstat.new_leaf_nkey - 1 + pk) / 2).toNat ++
        ((leaf_ents s leaf).take off.toNat ++ (leaf_ents s leaf).drop (off.toNat + 1)) := by
  constructor
  · intro hfit
    obtain ⟨t, ht, -⟩ := delete_grabs_fit hc h hno k w pred hfit leaf off prv pk v hfind hv hpred
      hmin hprv hpk hbig
    exact ⟨t, ht⟩
  · intro r t hrun
    rcases bpt_delete_refit hrun with ⟨-, ha⟩ | ⟨t1, -, h2, hrun1⟩
    · exact absurd hno ha
    · have e1 := h2 hno
      subst e1
      obtain ⟨t2, ht2, q⟩ := delete_grabs_fit hc h hno k w pred (fits_self bld t1.bstat.height)
        leaf off prv pk v hfind hv hpred hmin hprv hpk hbig
      rw [ht2] at hrun1
      simp only [Option.some.injEq, Prod.mk.injEq] at hrun1
      obtain ⟨r1, r2⟩ := hrun1
      subst r1 r2
      exact ⟨rfl, q⟩

theorem delete_grabs_from_prv_witness :
    ∃ t, bpt_delete build_8 ⟨6, 6⟩ cmp_word bpt_pred_1 stk_1 true tree_a =
        some (BPT_PRED_SUCCESS, t) ∧
      bpt_node_nkey t 2 = some ((tree_a.bstat.new_leaf_nkey - 1 + 4) / 2) ∧
      bpt_node_nkey t 1 =
        some (tree_a.bstat.new_leaf_nkey - 1 + 4 - (tree_a.bstat.new_leaf_nkey - 1 + 4) / 2) ∧
      leaf_ents t 1 = (leaf_ents tree_a 1).take
        (tree_a.bstat.new_leaf_nkey - 1 + 4 - (tree_a.bstat.new_leaf_nkey - 1 + 4) / 2).toNat ∧
      leaf_ents t 2 = (leaf_ents tree_a 1).drop
          (tree_a.bstat.new_leaf_nkey - 1 + 4 - (tree_a.bstat.new_leaf_nkey - 1 + 4) / 2).toNat ++
        ((leaf_ents tree_a 2).take (0 : Int).toNat ++
          (leaf_ents tree_a 2).drop ((0 : Int).toNat + 1)) :=
  have h := @delete_grabs_from_prv cmp_word cmp_word_total tree_a tree_a_reach.1 tree_a_reach.2
    6 6 bpt_pred_1 build_8 stk_1 true 2 0 1 4 6 (by decide!) (by decide!) (by decide)
    (by decide!) (by decide!) (by decide!) (by decide!)
  (h.1 (by decide!)).elim fun t ht => ⟨t, ht, (h.2 _ t ht).2⟩

/-! ## The split of a full leaf -/

theorem mem_getD {s : State} {a : Int} (d : bpt_node) (h : (s.mem a).isSome = true) :
    s.mem a = some ((s.mem a).getD d) := by
  cases hm : s.mem a with
  | none => rw [hm] at h; simp at h
  | some n => rfl

/-- Claim C26: when `leaf_insert` finds the leaf full (`order` entries) and
neither sibling has room, and the allocation of the new leaf succeeds, then
for every insertion position `off` in `0 .. order` the new leaf is the fresh
handle `s.brk`, the split of `leaf_insert` run on the state with the new leaf
returns a state `t`, and `t` is the state that `leaf_insert` hands to
`internal_insert`; in `t` the left leaf holds exactly `old_leaf_nkey` entries
and the new right leaf exactly `new_leaf_nkey`, their entries read one after
the other are the `order` original entries with the new entry inserted at
position `off`, and the new leaf is linked between the old leaf and its former
next, whose `prv` is the new leaf. -/
theorem leaf_split_distribution {s : State} (e : bpt_entry) (leaf off : Int) (n : bpt_node)
    (stk : gen_stk) (hp : ParamsOK s.bstat) (hl0 : 0 < leaf) (hlb : leaf < s.brk)
    (hm : s.mem leaf = some n) (hfull : n.nkey = s.bstat.order) (ho0 : 0 ≤ off)
    (ho1 : off ≤ s.bstat.order)
    (hprv : n.prv ≠ 0 → bpt_node_nkey s n.prv = some s.bstat.order)
    (hnxt : n.nxt ≠ 0 → n.nxt ≠ leaf ∧ n.nxt < s.brk ∧
      bpt_node_nkey s n.nxt = some s.bstat.order)
    (hal : (alloc_request s).1 = true) :
    ∃ t L N, (bpt_node_new s leaf n.nxt).1 = s.brk ∧
      leaf_insert_split (bpt_node_new s leaf n.nxt).2 e leaf off n.nxt s.brk = some t ∧
      leaf_insert_full s e leaf off n stk = internal_insert t leaf s.brk stk ∧
      t.mem leaf = some L ∧ t.mem s.brk = some N ∧
      L.nkey = s.bstat.old_leaf_nkey ∧ N.nkey = s.bstat.new_leaf_nkey ∧
      node_ents L ++ node_ents N =
        (node_ents n).take off.toNat ++ e :: (node_ents n).drop off.toNat ∧
      L.prv = n.prv ∧ L.nxt = s.brk ∧ N.prv = leaf ∧ N.nxt = n.nxt ∧
      (n.nxt ≠ 0 → bpt_node_prv t n.nxt = some s.brk) := by
  obtain ⟨hs1, hs2, hs3⟩ := alloc_request_same s
  have hnew : bpt_node_new s leaf n.nxt =
      (s.brk, grow (wr (alloc_request s).2 s.brk (fresh_node leaf n.nxt))) := by
    rw [node_new_ok _ _ hal, hs3]
  obtain ⟨S0, hS0⟩ : ∃ S0 : State,
    S0 = grow (wr (alloc_request s).2 s.brk (fresh_node leaf n.nxt)) := ⟨_, rfl⟩
  rw [← hS0] at hnew
  have hne : s.brk ≠ leaf := by omega
  have hb0 : s.brk ≠ 0 := by omega
  have m0n : S0.mem s.brk = some (fresh_node leaf n.nxt) := by
    rw [hS0]; exact wr_mem_same _ _ _
  have m0o : ∀ b, b ≠ s.brk → S0.mem b = s.mem b := by
    intro b h
    rw [hS0, grow_mem, wr_mem_of_ne _ h, hs1]
  have b0 : S0.bstat = s.bstat := by rw [hS0]; exact hs2
  have hny : n.nxt ≠ 0 → ∃ ny, s.mem n.nxt = some ny := by
    intro h
    have := (hnxt h).2.2
    simp only [bpt_node_nkey, rd_of_ne h, Option.map_eq_some'] at this
    obtain ⟨ny, hy, -⟩ := this
    exact ⟨ny, hy⟩
  obtain ⟨t, L, N, rs, tb, tk, ta, tmL, tmN, L1, L2, L3, N1, N2, N3, hents, hL0, hxx, hoo⟩ :=
    @leaf_split_run S0 leaf s.brk n e off (by rw [b0]; exact hp) (by omega) hb0 hne
      ((m0o leaf hne.symm).trans hm) m0n (fun h => by
        obtain ⟨ny, hy⟩ := hny h
        exact ⟨(hnxt h).1, by have := (hnxt h).2.1; omega,
          ny, (m0o _ (by have := (hnxt h).2.1; omega)).trans hy⟩)
      (by rw [b0]; exact hfull) ho0 (by rw [hfull]; exact ho1)
  rw [b0] at L3 N3
  have e1 : (if n.prv ≠ 0 then bpt_node_nkey s n.prv else some s.bstat.order) =
      some s.bstat.order := by
    by_cases h : n.prv = 0
    · simp [h]
    · simp [h, hprv h]
  have e2 : (if n.nxt ≠ 0 then bpt_node_nkey s n.nxt else some s.bstat.order) =
      some s.bstat.order := by
    by_cases h : n.nxt = 0
    · simp [h]
    · simp [h, (hnxt h).2.2]
  refine ⟨t, L, N, by rw [hnew], by rw [hnew]; exact rs, ?_, tmL, tmN, L3, N3, hents, L1, L2,
    N1, N2, fun h => ?_⟩
  · unfold leaf_insert_full
    simp only [e1, e2, ne_eq, not_true_eq_false, and_false, if_false, hnew, hb0, rs]
  · obtain ⟨ny, hy⟩ := hny h
    rw [prv_eq h (hxx ny h ((m0o _ (by have := (hnxt h).2.1; omega)).trans hy))]

theorem tree_j_params : ParamsOK tree_j.bstat := by
  unfold ParamsOK
  decide!

theorem leaf_split_distribution_witness :
    ParamsOK tree_j.bstat ∧ tree_j.mem 9 = some ((tree_j.mem 9).getD (fresh_node 0 0)) ∧
    ((tree_j.mem 9).getD (fresh_node 0 0)).prv = 1 ∧
    ((tree_j.mem 9).getD (fresh_node 0 0)).nxt = 2 ∧
    bpt_node_nkey tree_j 1 = some tree_j.bstat.order ∧
    bpt_node_nkey tree_j 2 = some tree_j.bstat.order ∧
    ∃ t L N, (bpt_node_new tree_j 9 ((tree_j.mem 9).getD (fresh_node 0 0)).nxt).1 = tree_j.brk ∧
      leaf_insert_split (bpt_node_new tree_j 9 ((tree_j.mem 9).getD (fresh_node 0 0)).nxt).2
        ⟨26, 26⟩ 9 2 ((tree_j.mem 9).getD (fresh_node 0 0)).nxt tree_j.brk = some t ∧
      leaf_insert_full tree_j ⟨26, 26⟩ 9 2 ((tree_j.mem 9).getD (fresh_node 0 0))
          [⟨3, 1⟩, ⟨8, 0⟩] =
        internal_insert t 9 tree_j.brk [⟨3, 1⟩, ⟨8, 0⟩] ∧
      t.mem 9 = some L ∧ t.mem tree_j.brk = some N ∧
      L.nkey = tree_j.bstat.old_leaf_nkey ∧ N.nkey = tree_j.bstat.new_leaf_nkey ∧
      node_ents L ++ node_ents N =
        (node_ents ((tree_j.mem 9).getD (fresh_node 0 0))).take (2 : Int).toNat ++
          ⟨26, 26⟩ :: (node_ents ((tree_j.mem 9).getD (fresh_node 0 0))).drop (2 : Int).toNat ∧
      L.prv = ((tree_j.mem 9).getD (fresh_node 0 0)).prv ∧ L.nxt = tree_j.brk ∧ N.prv = 9 ∧
      N.nxt = ((tree_j.mem 9).getD (fresh_node 0 0)).nxt ∧
      (((tree_j.mem 9).getD (fresh_node 0 0)).nxt ≠ 0 →
        bpt_node_prv t ((tree_j.mem 9).getD (fresh_node 0 0)).nxt = some tree_j.brk) :=
  ⟨tree_j_params, mem_getD _ (by decide!), by decide!, by decide!, by decide!, by decide!,
    leaf_split_distribution ⟨26, 26⟩ 9 2 ((tree_j.mem 9).getD (fresh_node 0 0))
      [⟨3, 1⟩, ⟨8, 0⟩] tree_j_params
      (by decide) (by decide!) (mem_getD _ (by decide!)) (by decide!) (by decide) (by decide!)
      (fun _ => by decide!) (fun _ => ⟨by decide!, by decide!, by decide!⟩) (by decide!)⟩

/-! ## The split of a full internal node -/

theorem get_entry_inv {s : State} {a i : Int} {n : bpt_node} {e : bpt_entry} (ha0 : a ≠ 0)
    (hm : s.mem a = some n) (h : get_entry s a i = some e) : e = n.entries i := by
  unfold get_entry at h
  rw [rd_of_ne ha0, hm] at h
  simp only at h
  split_ifs at h
  exact (Option.some.inj h).symm

theorem inter_fill_mid {s : State} {a new off : Int} {n : bpt_node} (mid right : bpt_t)
    (ha0 : a ≠ 0) (hm : s.mem a = some n) {k : bpt_t} {t : State}
    (h : internal_insert_fill s ⟨a, off⟩ new right mid = some (k, t)) :
    k = if off < s.bstat.old_inter_nkey then (n.entries (s.bstat.old_inter_nkey - 1)).key
      else if off > s.bstat.old_inter_nkey then (n.entries s.bstat.old_inter_nkey).key
      else mid := by
  unfold internal_insert_fill at h
  simp only [Option.bind_eq_bind] at h
  by_cases hlt : off < s.bstat.old_inter_nkey
  · rw [if_pos hlt] at h ⊢
    simp only [Option.bind_eq_some, Option.some.injEq, Prod.mk.injEq] at h
    obtain ⟨e, he, -, -, -, -, -, -, -, -, hk, -⟩ := h
    rw [← hk, get_entry_inv ha0 hm he]
  · rw [if_neg hlt] at h ⊢
    by_cases hgt : off > s.bstat.old_inter_nkey
    · rw [if_pos hgt] at h ⊢
      simp only [Option.bind_eq_some, Option.some.injEq, Prod.mk.injEq] at h
      obtain ⟨e, he, -, -, -, -, -, -, -, -, hk, -⟩ := h
      rw [← hk, get_entry_inv ha0 hm he]
    · rw [if_neg hgt] at h ⊢
      simp only [Option.bind_eq_some, Option.some.injEq, Prod.mk.injEq] at h
      obtain ⟨-, -, -, -, hk, -⟩ := h
      exact hk.symm

/-- Claim C27: when `internal_insert` pops the frame of a full node (`nkey`
equal to `order`) with descent slot `off`, the allocation of the sibling
succeeding, then for every `off` in `0 .. order` the loop goes on with the
node, its new sibling and a promoted key `new_mid` such that the node holds
`old_inter_nkey` keys and the sibling `new_inter_nkey`; the keys of the node,
`new_mid` and the keys of the sibling are the original keys with the incoming
separator inserted at position `off`, and the children of the node followed by
those of the sibling are the original children with `right_node` inserted
after child `off`; `new_mid` is key `old_inter_nkey - 1` of the original node
when `off < old_inter_nkey`, its key `old_inter_nkey` when
`off > old_inter_nkey`, and the incoming separator otherwise; the sibling is
linked after the node. The node, its sibling `s.brk` and `new_mid` are what
the split of `internal_insert` returns on the popped frame. -/
theorem internal_split {s : State} {a off : Int} {n : bpt_node} (mid right : bpt_t)
    (left : Int) (stk : gen_stk)
    (hp : ParamsOK s.bstat) (hb : 0 < s.brk) (ha0 : a ≠ 0) (hab : a < s.brk)
    (hm : s.mem a = some n)
    (hx : n.nxt ≠ 0 → n.nxt ≠ a ∧ n.nxt < s.brk ∧ ∃ ny, s.mem n.nxt = some ny)
    (hfull : n.nkey = s.bstat.order) (ho0 : 0 ≤ off) (ho1 : off ≤ n.nkey)
    (hal : (alloc_request s).1 = true) :
    ∃ t A B k, internal_insert_split s ⟨a, off⟩ right mid = some (Sum.inr (t, s.brk, k)) ∧
      internal_insert_loop (⟨a, off⟩ :: stk) s left right mid =
        internal_insert_loop stk t a s.brk k ∧
      t.mem a = some A ∧ t.mem s.brk = some B ∧
      A.nkey = s.bstat.old_inter_nkey ∧ B.nkey = s.bstat.new_inter_nkey ∧
      node_keys A ++ k :: node_keys B =
        (node_keys n).take off.toNat ++ mid :: (node_keys n).drop off.toNat ∧
      node_vals A ++ node_vals B =
        (node_vals n).take (off.toNat + 1) ++ right :: (node_vals n).drop (off.toNat + 1) ∧
      (k = if off < s.bstat.old_inter_nkey then (n.entries (s.bstat.old_inter_nkey - 1)).key
        else if off > s.bstat.old_inter_nkey then (n.entries s.bstat.old_inter_nkey).key
        else mid) ∧
      A.prv = n.prv ∧ A.nxt = s.brk ∧ B.prv = a ∧ B.nxt = n.nxt := by
  obtain ⟨hs1, hs2, hs3⟩ := alloc_request_same s
  have hnew : bpt_node_new s a n.nxt =
      (s.brk, grow (wr (alloc_request s).2 s.brk (fresh_node a n.nxt))) := by
    rw [node_new_ok _ _ hal, hs3]
  obtain ⟨S0, hS0⟩ : ∃ S0 : State,
    S0 = grow (wr (alloc_request s).2 s.brk (fresh_node a n.nxt)) := ⟨_, rfl⟩
  rw [← hS0] at hnew
  have hne : s.brk ≠ a := by omega
  have hn0 : s.brk ≠ 0 := by omega
  have m0n : S0.mem s.brk = some (fresh_node a n.nxt) := by
    rw [hS0]; exact wr_mem_same _ _ _
  have m0o : ∀ b, b ≠ s.brk → S0.mem b = s.mem b := by
    intro b h
    rw [hS0, grow_mem, wr_mem_of_ne _ h, hs1]
  have b0 : S0.bstat = s.bstat := by rw [hS0]; exact hs2
  have k0 : S0.brk = s.brk + 1 := by rw [hS0, grow_brk, wr_brk, hs3]
  have a0 : S0.alloc = (alloc_request s).2.alloc := by rw [hS0]; rfl
  obtain ⟨A1, hA1⟩ : ∃ A1 : bpt_node, A1 = { n with nxt := s.brk } := ⟨_, rfl⟩
  have e1 : bpt_node_set_nxt S0 a s.brk = some (wr S0 a A1) := by
    rw [hA1]; exact set_nxt_eq ha0 ((m0o a hne.symm).trans hm) _
  have hxa : a ≠ n.nxt := by
    intro h
    by_cases h0 : n.nxt = 0
    · exact ha0 (h.trans h0)
    · exact (hx h0).1 h.symm
  have hxn : s.brk ≠ n.nxt := by
    intro h
    by_cases h0 : n.nxt = 0
    · exact hn0 (h.trans h0)
    · have := (hx h0).2.1
      omega
  obtain ⟨s2, h2, b2, k2, a2, o2, x2⟩ := link_prv_run (wr S0 a A1) n.nxt s.brk (fun h => by
    obtain ⟨h1, h3, ny, hy⟩ := hx h
    exact ⟨ny, (wr_mem_of_ne _ h1).trans ((m0o _ (by omega)).trans hy)⟩)
  have m2a : s2.mem a = some A1 := (o2 a hxa).trans (wr_mem_same _ _ _)
  have m2n : s2.mem s.brk = some (fresh_node a n.nxt) :=
    (o2 _ hxn).trans ((wr_mem_of_ne _ hne).trans m0n)
  have b2s : s2.bstat = s.bstat := by rw [b2, wr_bstat, b0]
  obtain ⟨A, B, k, f1, f2, f3, f4, f5, f6, f7⟩ :=
    @inter_fill_run s2 a s.brk off A1 (fresh_node a n.nxt) mid right (by rw [b2s]; exact hp)
      ha0 hn0 hne m2a m2n
      (by rw [hA1, b2s]; exact hfull) ho0 (by rw [hA1]; exact ho1)
  have hmid := inter_fill_mid mid right ha0 m2a f1
  simp only [b2s, hA1] at hmid
  have hsplit : internal_insert_split s ⟨a, off⟩ right mid =
      some (Sum.inr (wr (wr (wr (wr s2 s.brk B) a A) a { A with nkey := s.bstat.old_inter_nkey })
        s.brk { B with nkey := s.bstat.new_inter_nkey }, s.brk, k)) := by
    unfold internal_insert_split
    simp only [Option.bind_eq_bind]
    rw [nxt_eq ha0 hm]
    simp only [Option.some_bind, hnew]
    rw [if_neg hn0, e1]
    simp only [Option.some_bind]
    rw [h2, f1]
    simp only [Option.some_bind, wr_bstat]
    rw [set_nkey_eq ha0 (wr_mem_same _ _ _)]
    simp only [Option.some_bind, wr_bstat, wr_wr]
    rw [set_nkey_eq hn0 ((wr_mem_of_ne _ hne).trans (wr_mem_same _ _ _))]
    simp only [Option.some_bind]
    rw [b2s]
  rw [b2s] at f6 f7
  have hloop : internal_insert_loop (⟨a, off⟩ :: stk) s left right mid =
      internal_insert_loop stk
        (wr (wr (wr (wr s2 s.brk B) a A) a { A with nkey := s.bstat.old_inter_nkey }) s.brk
          { B with nkey := s.bstat.new_inter_nkey }) a s.brk k := by
    rw [internal_insert_loop]
    simp only [nkey_eq ha0 hm, hfull, lt_self_iff_false, if_false, hsplit]
  rw [hA1] at f2 f3 f6 f7
  exact ⟨_, { A with nkey := s.bstat.old_inter_nkey }, { B with nkey := s.bstat.new_inter_nkey },
    k, hsplit, hloop, (wr_mem_of_ne _ hne.symm).trans (wr_mem_same _ _ _), wr_mem_same _ _ _, rfl, rfl,
    f6, f7, hmid, f2, f3, f4, f5⟩

theorem tree_j_split_params : ParamsOK tree_j_split.bstat := by
  unfold ParamsOK
  decide!

theorem internal_split_witness :
    ParamsOK tree_j_split.bstat ∧
    tree_j_split.mem 3 = some ((tree_j_split.mem 3).getD (fresh_node 0 0)) ∧
    ((tree_j_split.mem 3).getD (fresh_node 0 0)).nkey = tree_j_split.bstat.order ∧
    ((tree_j_split.mem 3).getD (fresh_node 0 0)).nxt = 7 ∧
    (bpt_searchr build_8 26 cmp_word stk_1 false tree_j).map Prod.fst =
      some (-1, 9, [⟨3, 1⟩, ⟨8, 0⟩]) ∧
    ∃ t A B k, internal_insert_split tree_j_split ⟨3, 1⟩ 10 26 =
        some (Sum.inr (t, tree_j_split.brk, k)) ∧
      internal_insert_loop (⟨3, 1⟩ :: [⟨8, 0⟩]) tree_j_split 9 10 26 =
        internal_insert_loop [⟨8, 0⟩] t 3 tree_j_split.brk k ∧
      t.mem 3 = some A ∧ t.mem tree_j_split.brk = some B ∧
      A.nkey = tree_j_split.bstat.old_inter_nkey ∧
      B.nkey = tree_j_split.bstat.new_inter_nkey ∧
      node_keys A ++ k :: node_keys B =
        (node_keys ((tree_j_split.mem 3).getD (fresh_node 0 0))).take (1 : Int).toNat ++
          26 :: (node_keys ((tree_j_split.mem 3).getD (fresh_node 0 0))).drop (1 : Int).toNat ∧
      node_vals A ++ node_vals B =
        (node_vals ((tree_j_split.mem 3).getD (fresh_node 0 0))).take ((1 : Int).toNat + 1) ++
          10 :: (node_vals ((tree_j_split.mem 3).getD (fresh_node 0 0))).drop
            ((1 : Int).toNat + 1) ∧
      (k = if (1 : Int) < tree_j_split.bstat.old_inter_nkey then
          (((tree_j_split.mem 3).getD (fresh_node 0 0)).entries
            (tree_j_split.bstat.old_inter_nkey - 1)).key
        else if (1 : Int) > tree_j_split.bstat.old_inter_nkey then
          (((tree_j_split.mem 3).getD (fresh_node 0 0)).entries
            tree_j_split.bstat.old_inter_nkey).key
        else 26) ∧
      A.prv = ((tree_j_split.mem 3).getD (fresh_node 0 0)).prv ∧ A.nxt = tree_j_split.brk ∧
      B.prv = 3 ∧ B.nxt = ((tree_j_split.mem 3).getD (fresh_node 0 0)).nxt :=
  ⟨tree_j_split_params, mem_getD _ (by decide!), by decide!, by decide!, by decide!,
    internal_split 26 10 9 [⟨8, 0⟩] tree_j_split_params (by decide!) (by decide) (by decide!)
      (mem_getD _ (by decide!)) (fun _ => ⟨by decide!, by decide!, _, mem_getD (fresh_node 0 0)
        (by decide!)⟩) (by decide!) (by decide) (by decide!) (by decide!)⟩

/-! ## What the node operations leave alone -/

theorem Keep.refl_keep (s : State) : Keep s s := ⟨rfl, rfl⟩

theorem Keep.trans_keep {s t u : State} (h1 : Keep s t) (h2 : Keep t u) : Keep s u :=
  ⟨h2.1.trans h1.1, h2.2.trans h1.2⟩

theorem keep_wr (s : State) (a : Int) (n : bpt_node) : Keep s (wr s a n) := ⟨rfl, rfl⟩

theorem keep_memmove {s t : State} {dst di src si cnt : Int}
    (h : memmove s dst di src si cnt = some t) : Keep s t := by
  unfold memmove at h
  by_cases c1 : cnt < 0
  · rw [if_pos c1] at h
    cases h
  · rw [if_neg c1] at h
    by_cases c2 : cnt = 0
    · rw [if_pos c2] at h
      cases h
      exact Keep.refl_keep s
    · rw [if_neg c2] at h
      cases h1 : rd s dst with
      | none => rw [h1] at h; cases h
      | some nd =>
        cases h2 : rd s src with
        | none => rw [h1, h2] at h; cases h
        | some ns =>
          rw [h1, h2] at h
          simp only at h
          split_ifs at h
          cases h
          exact keep_wr _ _ _

theorem keep_memcpy {s t : State} {dst di src si cnt : Int}
    (h : memcpy s dst di src si cnt = some t) : Keep s t := by
  unfold memcpy at h
  split_ifs at h
  exact keep_memmove h

theorem keep_set_entry {s t : State} {a i : Int} {e : bpt_entry}
    (h : set_entry s a i e = some t) : Keep s t := by
  unfold set_entry at h
  cases h1 : rd s a with
  | none => rw [h1] at h; cases h
  | some n =>
    rw [h1] at h
    simp only at h
    split_ifs at h
    cases h
    exact keep_wr _ _ _

theorem keep_set_key {s t : State} {a i : Int} {k : bpt_t}
    (h : set_key s a i k = some t) : Keep s t := by
  unfold set_key at h
  cases h1 : rd s a with
  | none => rw [h1] at h; cases h
  | some n =>
    rw [h1] at h
    simp only at h
    split_ifs at h
    cases h
    exact keep_wr _ _ _

theorem keep_set_val {s t : State} {a i : Int} {v : bpt_t}
    (h : set_val s a i v = some t) : Keep s t := by
  unfold set_val at h
  cases h1 : rd s a with
  | none => rw [h1] at h; cases h
  | some n =>
    rw [h1] at h
    simp only at h
    split_ifs at h
    cases h
    exact keep_wr _ _ _

theorem keep_set_nkey {s t : State} {a v : Int}
    (h : bpt_node_set_nkey s a v = some t) : Keep s t := by
  unfold bpt_node_set_nkey at h
  obtain ⟨n, -, rfl⟩ := Option.map_eq_some'.mp h
  exact keep_wr _ _ _

theorem keep_set_prv {s t : State} {a v : Int}
    (h : bpt_node_set_prv s a v = some t) : Keep s t := by
  unfold bpt_node_set_prv at h
  obtain ⟨n, -, rfl⟩ := Option.map_eq_some'.mp h
  exact keep_wr _ _ _

theorem keep_set_nxt {s t : State} {a v : Int}
    (h : bpt_node_set_nxt s a v = some t) : Keep s t := by
  unfold bpt_node_set_nxt at h
  obtain ⟨n, -, rfl⟩ := Option.map_eq_some'.mp h
  exact keep_wr _ _ _

theorem keep_update_index {k : bpt_t} : ∀ (stk : gen_stk) {s t : State},
    update_index s k stk = some t → Keep s t := by
  intro stk
  induction stk with
  | nil =>
    intro s t h
    cases h
    exact Keep.refl_keep s
  | cons f r ih =>
    intro s t h
    rw [update_index] at h
    split_ifs at h
    · exact keep_set_key h
    · exact ih h

theorem keep_node_delete {s t : State} {a : Int} (h : bpt_node_delete s a = some t) :
    Keep s t := by
  unfold bpt_node_delete at h
  cases h1 : rd s a with
  | none => rw [h1] at h; cases h
  | some n =>
    rw [h1] at h
    cases h
    exact ⟨rfl, rfl⟩

theorem keep_alloc_request (s : State) : Keep s (alloc_request s).2 :=
  ⟨(alloc_request_same s).2.1, (alloc_request_same s).2.2⟩

theorem set_nkey_reads {s t : State} {a v : Int} (h : bpt_node_set_nkey s a v = some t) :
    bpt_node_nkey t a = some v := by
  unfold bpt_node_set_nkey at h
  obtain ⟨n, hn, rfl⟩ := Option.map_eq_some'.mp h
  have ha : a ≠ 0 := by
    intro h0
    rw [h0] at hn
    simp [rd] at hn
  rw [nkey_eq ha (wr_mem_same _ _ _)]

/-! ## The descriptor of the tree through an insertion -/

theorem keep_leaf_insert_room {s t : State} {e : bpt_entry} {leaf off m : Int}
    (h : leaf_insert_room s e leaf off m = some t) : Keep s t := by
  unfold leaf_insert_room at h
  simp only [Option.bind_eq_bind, Option.bind_eq_some] at h
  obtain ⟨s1, h1, s2, h2, h3⟩ := h
  exact (keep_memmove h1).trans_keep ((keep_set_entry h2).trans_keep (keep_set_nkey h3))

theorem keep_leaf_insert_prv {s t : State} {e : bpt_entry} {leaf off prv i : Int} {stk : gen_stk}
    (h : leaf_insert_prv s e leaf off prv i stk = some t) :
    Keep s t ∧ bpt_node_nkey t prv = some (i + 1) := by
  unfold leaf_insert_prv at h
  simp only [Option.bind_eq_bind, Option.bind_eq_some] at h
  obtain ⟨e0, -, s1, h1, s2, h2, s3, h3, f0, -, s4, h4, h5⟩ := h
  exact ⟨(keep_set_entry h1).trans_keep ((keep_memmove h2).trans_keep
    ((keep_set_entry h3).trans_keep ((keep_update_index _ h4).trans_keep (keep_set_nkey h5)))),
    set_nkey_reads h5⟩

theorem keep_leaf_insert_nxt {s t : State} {e : bpt_entry} {leaf off nxt i : Int} {stk : gen_stk}
    (h : leaf_insert_nxt s e leaf off nxt i stk = some t) :
    Keep s t ∧ bpt_node_nkey t nxt = some (i + 1) := by
  have tail : ∀ y : State, ((mid_between_nxt y stk).bind fun mid =>
      if mid.1 = -1 then none
      else (get_entry y nxt 0).bind fun g0 =>
        (set_key y mid.2 mid.1 g0.key).bind fun s3 => bpt_node_set_nkey s3 nxt (i + 1)) = some t →
      Keep y t ∧ bpt_node_nkey t nxt = some (i + 1) := by
    intro y hy
    simp only [Option.bind_eq_some] at hy
    obtain ⟨mid, -, h3⟩ := hy
    split_ifs at h3
    simp only [Option.bind_eq_some] at h3
    obtain ⟨g0, -, s3, h4, h5⟩ := h3
    exact ⟨(keep_set_key h4).trans_keep (keep_set_nkey h5), set_nkey_reads h5⟩
  unfold leaf_insert_nxt at h
  simp only [Option.bind_eq_bind] at h
  obtain ⟨s1, h1, h2⟩ := Option.bind_eq_some.mp h
  by_cases c : off = s.bstat.order
  · rw [if_pos c] at h2
    obtain ⟨y, g1, g2⟩ := Option.bind_eq_some.mp h2
    obtain ⟨k1, k2⟩ := tail y g2
    exact ⟨(keep_memmove h1).trans_keep ((keep_set_entry g1).trans_keep k1), k2⟩
  · rw [if_neg c] at h2
    obtain ⟨el, -, g0⟩ := Option.bind_eq_some.mp h2
    obtain ⟨t1, g1, g1'⟩ := Option.bind_eq_some.mp g0
    obtain ⟨t2, g2, g2'⟩ := Option.bind_eq_some.mp g1'
    obtain ⟨y, g3, g4⟩ := Option.bind_eq_some.mp g2'
    obtain ⟨k1, k2⟩ := tail y g4
    exact ⟨(keep_memmove h1).trans_keep ((keep_set_entry g1).trans_keep
      ((keep_memmove g2).trans_keep ((keep_set_entry g3).trans_keep k1))), k2⟩

theorem keep_leaf_insert_split {s t : State} {e : bpt_entry} {leaf off nxt new : Int}
    (h : leaf_insert_split s e leaf off nxt new = some t) : Keep s t := by
  have tail : ∀ y : State, (if off ≥ s.bstat.old_leaf_nkey then
        (memcpy y new 0 leaf s.bstat.old_leaf_nkey (off - s.bstat.old_leaf_nkey)).bind fun s5 =>
          (set_entry s5 new (off - s.bstat.old_leaf_nkey) e).bind fun s6 =>
            memcpy s6 new (off - s.bstat.old_leaf_nkey + 1) leaf off (s.bstat.order - off)
      else
        (memcpy y new 0 leaf (s.bstat.old_leaf_nkey - 1) s.bstat.new_leaf_nkey).bind fun s5 =>
          (memmove s5 leaf (off + 1) leaf off (s.bstat.old_leaf_nkey - off - 1)).bind fun s6 =>
            set_entry s6 leaf off e) = some t → Keep y t := by
    intro y h5
    split_ifs at h5
    · simp only [Option.bind_eq_some] at h5
      obtain ⟨s5, g1, s6, g2, g3⟩ := h5
      exact (keep_memcpy g1).trans_keep ((keep_set_entry g2).trans_keep (keep_memcpy g3))
    · simp only [Option.bind_eq_some] at h5
      obtain ⟨s5, g1, s6, g2, g3⟩ := h5
      exact (keep_memcpy g1).trans_keep ((keep_memmove g2).trans_keep (keep_set_entry g3))
  unfold leaf_insert_split at h
  simp only [Option.bind_eq_bind] at h
  obtain ⟨s1, h1, h⟩ := Option.bind_eq_some.mp h
  obtain ⟨s2, h2, h⟩ := Option.bind_eq_some.mp h
  obtain ⟨s3, h3, h⟩ := Option.bind_eq_some.mp h
  have k3 := (keep_set_nkey h1).trans_keep ((keep_set_nkey h2).trans_keep (keep_set_nxt h3))
  by_cases c : nxt ≠ 0
  · rw [if_pos c] at h
    obtain ⟨s4, h4, h5⟩ := Option.bind_eq_some.mp h
    exact k3.trans_keep ((keep_set_prv h4).trans_keep (tail s4 h5))
  · rw [if_neg c] at h
    exact k3.trans_keep (tail s3 h)

theorem keep_internal_insert_room {s t : State} {frm : bpt_frm} {right : Int} {mid : bpt_t}
    {m : Int} (h : internal_insert_room s frm right mid m = some t) : Keep s t := by
  unfold internal_insert_room at h
  simp only [Option.bind_eq_bind, Option.bind_eq_some] at h
  obtain ⟨s1, h1, s2, h2, s3, h3, h4⟩ := h
  exact (keep_memmove h1).trans_keep ((keep_set_key h2).trans_keep
    ((keep_set_val h3).trans_keep (keep_set_nkey h4)))

theorem keep_internal_insert_fill {s : State} {frm : bpt_frm} {new right : Int} {mid : bpt_t}
    {f : bpt_t × State} (h : internal_insert_fill s frm new right mid = some f) :
    Keep s f.2 := by
  unfold internal_insert_fill at h
  simp only [Option.bind_eq_bind] at h
  split_ifs at h
  · simp only [Option.bind_eq_some, Option.some.injEq] at h
    obtain ⟨e, -, t1, g1, t2, g2, t3, g3, t4, g4, rfl⟩ := h
    exact (keep_memcpy g1).trans_keep ((keep_memmove g2).trans_keep
      ((keep_set_key g3).trans_keep (keep_set_val g4)))
  · simp only [Option.bind_eq_some, Option.some.injEq] at h
    obtain ⟨e, -, t1, g1, t2, g2, t3, g3, t4, g4, rfl⟩ := h
    exact (keep_memcpy g1).trans_keep ((keep_memcpy g2).trans_keep
      ((keep_set_key g3).trans_keep (keep_set_val g4)))
  · simp only [Option.bind_eq_some, Option.some.injEq] at h
    obtain ⟨t1, g1, t2, g2, rfl⟩ := h
    exact (keep_memcpy g1).trans_keep (keep_set_val g2)

theorem node_new_stat (s : State) (prv nxt : Int) :
    (bpt_node_new s prv nxt).2.bstat = s.bstat ∧ s.brk ≤ (bpt_node_new s prv nxt).2.brk := by
  obtain ⟨-, h2, h3⟩ := alloc_request_same s
  by_cases hal : (alloc_request s).1 = true
  · rw [node_new_ok _ _ hal]
    simp only [grow_bstat, wr_bstat, grow_brk, wr_brk, h2, h3]
    exact ⟨trivial, by omega⟩
  · rw [node_new_fail _ _ (by simpa using hal)]
    exact ⟨h2, by simp only [h3]; exact le_refl _⟩

theorem stat_internal_insert_split {s t : State} {frm : bpt_frm} {right : Int} {mid : bpt_t}
    {new : Int} {k : bpt_t}
    (h : internal_insert_split s frm right mid = some (Sum.inr (t, new, k))) :
    t.bstat = s.bstat ∧ s.brk ≤ t.brk := by
  unfold internal_insert_split at h
  simp only [Option.bind_eq_bind] at h
  obtain ⟨nxt, -, h⟩ := Option.bind_eq_some.mp h
  obtain ⟨b1, b2⟩ := node_new_stat s frm.node nxt
  by_cases c0 : (bpt_node_new s frm.node nxt).1 = 0
  · rw [if_pos c0] at h
    simp at h
  rw [if_neg c0] at h
  have tail : ∀ y : State, ((internal_insert_fill y frm (bpt_node_new s frm.node nxt).1 right
      mid).bind fun f => (bpt_node_set_nkey f.2 frm.node f.2.bstat.old_inter_nkey).bind fun s4 =>
        (bpt_node_set_nkey s4 (bpt_node_new s frm.node nxt).1 s4.bstat.new_inter_nkey).bind
          fun s5 => some (Sum.inr (s5, (bpt_node_new s frm.node nxt).1, f.1))) =
      some (Sum.inr (t, new, k) : State ⊕ (State × Int × bpt_t)) → Keep y t := by
    intro y hy
    simp only [Option.bind_eq_some, Option.some.injEq, Sum.inr.injEq, Prod.mk.injEq] at hy
    obtain ⟨f, h4, s4, h5, s5, h6, rfl, -, -⟩ := hy
    exact (keep_internal_insert_fill h4).trans_keep ((keep_set_nkey h5).trans_keep
      (keep_set_nkey h6))
  obtain ⟨s1, h2, h⟩ := Option.bind_eq_some.mp h
  have key : Keep (bpt_node_new s frm.node nxt).2 t := by
    by_cases c : nxt ≠ 0
    · rw [if_pos c] at h
      obtain ⟨s2, h3, h⟩ := Option.bind_eq_some.mp h
      exact (keep_set_nxt h2).trans_keep ((keep_set_prv h3).trans_keep (tail s2 h))
    · rw [if_neg c] at h
      exact (keep_set_nxt h2).trans_keep (tail s1 h)
  exact ⟨key.1.trans b1, by rw [key.2]; exact b2⟩

/-! ## The root through an insertion -/

theorem set_nkey_inv {s t : State} {a v : Int} (h : bpt_node_set_nkey s a v = some t) :
    a ≠ 0 ∧ ∃ n, s.mem a = some n ∧ t = wr s a { n with nkey := v } := by
  unfold bpt_node_set_nkey at h
  obtain ⟨n, hn, rfl⟩ := Option.map_eq_some'.mp h
  have ha : a ≠ 0 := by
    intro h0
    rw [h0] at hn
    simp [rd] at hn
  rw [rd_of_ne ha] at hn
  exact ⟨ha, n, hn, rfl⟩

theorem set_key_inv {s t : State} {a i : Int} {k : bpt_t} (h : set_key s a i k = some t) :
    a ≠ 0 ∧ ∃ n, s.mem a = some n ∧
      t = wr s a { n with entries := Function.update n.entries i { n.entries i with key := k } } := by
  unfold set_key at h
  cases h1 : rd s a with
  | none => rw [h1] at h; cases h
  | some n =>
    rw [h1] at h
    simp only at h
    split_ifs at h
    cases h
    have ha : a ≠ 0 := by
      intro h0
      rw [h0] at h1
      simp [rd] at h1
    rw [rd_of_ne ha] at h1
    exact ⟨ha, n, h1, rfl⟩

theorem set_val_inv {s t : State} {a i : Int} {v : bpt_t} (h : set_val s a i v = some t) :
    a ≠ 0 ∧ ∃ n, s.mem a = some n ∧
      t = wr s a { n with entries := Function.update n.entries i { n.entries i with val := v } } := by
  unfold set_val at h
  cases h1 : rd s a with
  | none => rw [h1] at h; cases h
  | some n =>
    rw [h1] at h
    simp only at h
    split_ifs at h
    cases h
    have ha : a ≠ 0 := by
      intro h0
      rw [h0] at h1
      simp [rd] at h1
    rw [rd_of_ne ha] at h1
    exact ⟨ha, n, h1, rfl⟩

theorem node_new_handle (s : State) (prv nxt : Int) (h : (bpt_node_new s prv nxt).1 ≠ 0) :
    (bpt_node_new s prv nxt).1 = s.brk := by
  by_cases hal : (alloc_request s).1 = true
  · rw [node_new_ok _ _ hal]
    exact (alloc_request_same s).2.2
  · rw [node_new_fail _ _ (by simpa using hal)] at h
    exact absurd rfl h

/-- The branch of `internal_insert` that installs a new root. -/
theorem insert_root_inv {s t : State} {left right : Int} {mid : bpt_t} {r : bpt_result}
    (h : internal_insert_root s left right mid = some (r, t)) (hr : r ≠ BPT_ERROR) :
    t.bstat = { s.bstat with root_node := s.brk, height := s.bstat.height + 1 } ∧ s.brk ≠ 0 ∧
      ∃ R, t.mem s.brk = some R ∧ R.nkey = 1 ∧ (R.entries 0).key = mid ∧
        (R.entries 0).val = left ∧ (R.entries 1).val = right := by
  unfold internal_insert_root at h
  simp only at h
  by_cases c0 : (bpt_node_new s 0 0).1 = 0
  · rw [if_pos c0] at h
    simp only [Option.some.injEq, Prod.mk.injEq] at h
    exact absurd h.1.symm hr
  · rw [if_neg c0] at h
    have hb := node_new_handle s 0 0 c0
    obtain ⟨b1, -⟩ := node_new_stat s 0 0
    rw [hb] at h c0
    simp only [Option.bind_eq_bind, Option.bind_eq_some, Option.some.injEq, Prod.mk.injEq] at h
    obtain ⟨s1, h1, s2, h2, s3, h3, s4, h4, -, rfl⟩ := h
    obtain ⟨-, n0, -, rfl⟩ := set_nkey_inv h1
    obtain ⟨-, n1, m1, rfl⟩ := set_key_inv h2
    obtain ⟨-, n2, m2, rfl⟩ := set_val_inv h3
    obtain ⟨-, n3, m3, rfl⟩ := set_val_inv h4
    rw [wr_mem_same] at m1 m2 m3
    cases Option.some.inj m1
    cases Option.some.inj m2
    cases Option.some.inj m3
    refine ⟨?_, c0, _, wr_mem_same _ _ _, rfl, ?_, ?_, ?_⟩
    · simp only [wr_bstat, b1]
    · simp
    · simp
    · simp

/-- The loop of `internal_insert` leaves the descriptor of the tree alone,
unless it installs a new root: the tree is then one level higher, and the new
root, a fresh node with one key, has for child 0 the node of the frame at the
bottom of the journal (`left` when the journal is empty). -/
theorem insert_loop_stat : ∀ (stk : gen_stk) (s : State) (left right : Int) (mid : bpt_t)
    (r : bpt_result) (t : State),
    internal_insert_loop stk s left right mid = some (r, t) → r ≠ BPT_ERROR →
    t.bstat = s.bstat ∨
      (t.bstat = { s.bstat with root_node := t.bstat.root_node, height := s.bstat.height + 1 } ∧
        s.brk ≤ t.bstat.root_node ∧ t.bstat.root_node ≠ 0 ∧
        ∃ R, t.mem t.bstat.root_node = some R ∧ R.nkey = 1 ∧
          (R.entries 0).val = bottom_node stk left) := by
  intro stk
  induction stk with
  | nil =>
    intro s left right mid r t h hr
    rw [internal_insert_loop] at h
    obtain ⟨h1, h2, R, h3, h4, -, h5, -⟩ := insert_root_inv h hr
    right
    rw [h1]
    exact ⟨rfl, le_refl _, h2, R, h3, h4, h5⟩
  | cons frm stk ih =>
    intro s left right mid r t h hr
    rw [internal_insert_loop] at h
    cases hm : bpt_node_nkey s frm.node with
    | none => rw [hm] at h; cases h
    | some m =>
      rw [hm] at h
      simp only at h
      by_cases c : m < s.bstat.order
      · rw [if_pos c] at h
        obtain ⟨s1, h1, h2⟩ := Option.map_eq_some'.mp h
        cases h2
        exact Or.inl (keep_internal_insert_room h1).1
      · rw [if_neg c] at h
        cases hsp : internal_insert_split s frm right mid with
        | none => rw [hsp] at h; cases h
        | some q =>
          rw [hsp] at h
          cases q with
          | inl s1 =>
            simp only [Option.some.injEq, Prod.mk.injEq] at h
            exact absurd h.1.symm hr
          | inr q =>
            obtain ⟨s1, new, k⟩ := q
            simp only at h
            obtain ⟨b1, b2⟩ := stat_internal_insert_split hsp
            have hbot : bottom_node stk frm.node = bottom_node (frm :: stk) left := by
              unfold bottom_node
              cases stk with
              | nil => rfl
              | cons g r =>
                rw [List.getLast?_cons_cons]
                cases hl : (g :: r).getLast? with
                | none => simp at hl
                | some f => rfl
            rcases ih s1 frm.node new k r t h hr with h1 | ⟨h1, h2, h3, R, h4, h5, h6⟩
            · exact Or.inl (h1.trans b1)
            · right
              rw [b1] at h1
              exact ⟨h1, le_trans b2 h2, h3, R, h4, h5, h6.trans hbot⟩

theorem leaf_insert_full_stat {s t : State} {e : bpt_entry} {leaf off : Int} {n : bpt_node}
    {stk : gen_stk} {r : bpt_result}
    (h : leaf_insert_full s e leaf off n stk = some (r, t)) (hr : r ≠ BPT_ERROR) :
    t.bstat = s.bstat ∨
      (t.bstat = { s.bstat with root_node := t.bstat.root_node, height := s.bstat.height + 1 } ∧
        s.brk ≤ t.bstat.root_node ∧ t.bstat.root_node ≠ 0 ∧
        ∃ R, t.mem t.bstat.root_node = some R ∧ R.nkey = 1 ∧
          (R.entries 0).val = bottom_node stk leaf) := by
  unfold leaf_insert_full at h
  simp only at h
  cases hp : (if n.prv ≠ 0 then bpt_node_nkey s n.prv else some s.bstat.order) with
  | none => rw [hp] at h; cases h
  | some pi =>
    rw [hp] at h
    simp only at h
    by_cases c1 : n.prv ≠ 0 ∧ pi ≠ s.bstat.order
    · rw [if_pos c1] at h
      obtain ⟨s1, h1, h2⟩ := Option.map_eq_some'.mp h
      cases h2
      exact Or.inl (keep_leaf_insert_prv h1).1.1
    · rw [if_neg c1] at h
      cases hx : (if n.nxt ≠ 0 then bpt_node_nkey s n.nxt else some s.bstat.order) with
      | none => rw [hx] at h; cases h
      | some ni =>
        rw [hx] at h
        simp only at h
        by_cases c2 : n.nxt ≠ 0 ∧ ni ≠ s.bstat.order
        · rw [if_pos c2] at h
          obtain ⟨s1, h1, h2⟩ := Option.map_eq_some'.mp h
          cases h2
          exact Or.inl (keep_leaf_insert_nxt h1).1.1
        · rw [if_neg c2] at h
          obtain ⟨b1, b2⟩ := node_new_stat s leaf n.nxt
          by_cases c3 : (bpt_node_new s leaf n.nxt).1 = 0
          · rw [if_pos c3] at h
            simp only [Option.some.injEq, Prod.mk.injEq] at h
            exact absurd h.1.symm hr
          · rw [if_neg c3] at h
            cases hs : leaf_insert_split (bpt_node_new s leaf n.nxt).2 e leaf off n.nxt
                (bpt_node_new s leaf n.nxt).1 with
            | none => rw [hs] at h; cases h
            | some s1 =>
              rw [hs] at h
              simp only at h
              have k1 := keep_leaf_insert_split hs
              unfold internal_insert at h
              cases hg : get_entry s1 (bpt_node_new s leaf n.nxt).1 0 with
              | none => rw [hg] at h; cases h
              | some e0 =>
                rw [hg] at h
                simp only at h
                rcases insert_loop_stat _ _ _ _ _ _ _ h hr with h1 | ⟨h1, h2, h3, R, h4, h5, h6⟩
                · exact Or.inl (h1.trans (k1.1.trans b1))
                · right
                  rw [k1.1, b1] at h1
                  refine ⟨h1, ?_, h3, R, h4, h5, h6⟩
                  rw [k1.2] at h2
                  exact le_trans b2 h2

theorem leaf_insert_stat {s t : State} {e : bpt_entry} {cmp pred : bpt_t → bpt_t → Int}
    {leaf : Int} {stk : gen_stk} {r : bpt_result}
    (h : leaf_insert e cmp pred leaf stk s = some (r, t)) (hr : r ≠ BPT_ERROR) :
    t.bstat = s.bstat ∨
      (t.bstat = { s.bstat with root_node := t.bstat.root_node, height := s.bstat.height + 1 } ∧
        s.brk ≤ t.bstat.root_node ∧ t.bstat.root_node ≠ 0 ∧
        ∃ R, t.mem t.bstat.root_node = some R ∧ R.nkey = 1 ∧
          (R.entries 0).val = bottom_node stk leaf) := by
  unfold leaf_insert at h
  cases hm : rd s leaf with
  | none => rw [hm] at h; cases h
  | some n =>
    rw [hm] at h
    simp only at h
    split_ifs at h with c0 c1 c2 c3
    · obtain ⟨s1, h1, h2⟩ := Option.map_eq_some'.mp h
      cases h2
      exact Or.inl (keep_set_val h1).1
    · cases h
      exact Or.inl rfl
    · obtain ⟨s1, h1, h2⟩ := Option.map_eq_some'.mp h
      cases h2
      exact Or.inl (keep_leaf_insert_room h1).1
    · exact leaf_insert_full_stat h hr

theorem root_alone {cmp : bpt_t → bpt_t → Int} {s : State} (hw : WF cmp s) :
    s.bstat.root_node ≠ 0 ∧ s.bstat.root_node < s.brk ∧
      bpt_node_nxt s s.bstat.root_node = some 0 ∧ bpt_node_prv s s.bstat.root_node = some 0 := by
  have h := (hw.level_ok (Nat.zero_le s.bstat.height)).inner_of
  simp only [level_below] at h
  obtain ⟨r0, rb, -⟩ := h.1 (none, s.bstat.root_node) (by simp)
  obtain ⟨⟨n, hn, hp, hx⟩, -⟩ := h.2
  simp only at r0 rb
  refine ⟨r0, rb, ?_, ?_⟩
  · rw [nxt_eq r0 hn, hx]
    rfl
  · rw [prv_eq r0 hn, hp]

theorem node_pairs_one (lo : Option bpt_t) {R : bpt_node} (h : R.nkey = 1) :
    node_pairs lo R = [(lo, (R.entries 0).val), (some (R.entries 0).key, (R.entries 1).val)] := by
  simp [node_pairs, h, List.range_succ]

/-- The two children of a root with one key: they are linked to each other,
and the key of the root is the first key of the leftmost leaf below child 1. -/
theorem root_children {cmp : bpt_t → bpt_t → Int} {t : State} (hw : WF cmp t) {R : bpt_node}
    (hR : t.mem t.bstat.root_node = some R) (h1 : R.nkey = 1) (hh : 1 ≤ t.bstat.height) :
    (R.entries 1).val ≠ 0 ∧ bpt_node_nxt t (R.entries 0).val = some (R.entries 1).val ∧
      bpt_node_prv t (R.entries 1).val = some (R.entries 0).val ∧
      ∃ lf m, first_at t (t.bstat.height - 1) (R.entries 1).val = some lf ∧ rd t lf = some m ∧
        0 < m.nkey ∧ (m.entries 0).key = (R.entries 0).key := by
  have hB := hw.level_ok hh
  have e1 : level_below t 1 [(none, t.bstat.root_node)] =
      [(none, (R.entries 0).val), (some (R.entries 0).key, (R.entries 1).val)] := by
    simp only [level_below, expand, hR, node_pairs_one none h1, List.append_nil]
  rw [e1] at hB
  have hI := hB.inner_of
  obtain ⟨c0, -, -⟩ := hI.1 (none, (R.entries 0).val) (by simp)
  obtain ⟨c1, -, -⟩ := hI.1 (some (R.entries 0).key, (R.entries 1).val) (by simp)
  obtain ⟨⟨n0, hn0, -, hx0⟩, ⟨n1, hn1, hp1, -⟩, -⟩ := hI.2
  simp only at c0 c1
  refine ⟨c1, ?_, ?_, ?_⟩
  · rw [nxt_eq c0 hn0, hx0]
    rfl
  · rw [prv_eq c1 hn1, hp1]
  · exact sep_first_key _ _ _ hB (some (R.entries 0).key, (R.entries 1).val) (by simp) _ rfl

/-- The height after `bpt_insert`, for a call whose journal fits the
stack. -/
theorem root_split_fit {cmp : bpt_t → bpt_t → Int} (hc : cmp_total cmp) {s : State}
    (h : Reachable cmp s) (hno : s.alloc = []) (e : bpt_entry) (pred : bpt_t → bpt_t → Int)
    {bld : bpt_build} {stk0 : stk_obj} {b : Bool} (hfit : Fits bld stk0 b s.bstat.height) :
    ∃ r t, bpt_insert bld e cmp pred stk0 b s = some (r, t) ∧ r ≠ BPT_ERROR ∧
      bpt_node_nxt s s.bstat.root_node = some 0 ∧
      ((t.bstat = s.bstat ∧ bpt_node_nxt t s.bstat.root_node = some 0) ∨
        (t.bstat = { s.bstat with
            root_node := t.bstat.root_node, height := s.bstat.height + 1 } ∧
          t.bstat.root_node ≠ s.bstat.root_node ∧
          ∃ R sib lf m, rd t t.bstat.root_node = some R ∧ R.nkey = 1 ∧
            (R.entries 0).val = s.bstat.root_node ∧ (R.entries 1).val = sib ∧ sib ≠ 0 ∧
            bpt_node_nxt t s.bstat.root_node = some sib ∧
            bpt_node_prv t sib = some s.bstat.root_node ∧
            first_at t s.bstat.height sib = some lf ∧ rd t lf = some m ∧ 0 < m.nkey ∧
            (m.entries 0).key = (R.entries 0).key)) := by
  have hw := reachable_wf hc h
  obtain ⟨r, t, s1, hrun, -, -, -, herr, hok⟩ := bpt_insert_spec hc hw e pred hfit
  have hr : r ≠ BPT_ERROR := fun h0 => herr h0 hno
  have hwt := (hok hr).1
  obtain ⟨leaf, stk, U, X, lo, Y, hd, hs, -, hbot0, hbot⟩ := descend_at_leaf hc hw e.key
  have hrun2 : leaf_insert e cmp pred leaf stk s = some (r, t) := by
    rw [← insert_at_leaf hno e pred hfit hd]
    exact hrun
  have hb : bottom_node stk leaf = s.bstat.root_node := by
    unfold bottom_node
    cases hl : stk.getLast? with
    | none => exact hbot0 (List.getLast?_eq_none_iff.mp hl)
    | some f => exact hbot f hl
  obtain ⟨r0, rb, rx, -⟩ := root_alone hw
  refine ⟨r, t, hrun, hr, rx, ?_⟩
  rcases leaf_insert_stat hrun2 hr with h1 | ⟨h1, h2, h3, R, h4, h5, h6⟩
  · left
    refine ⟨h1, ?_⟩
    have := (root_alone hwt).2.2.1
    rw [h1] at this
    exact this
  · right
    rw [hb] at h6
    have hh : t.bstat.height = s.bstat.height + 1 := by rw [h1]
    obtain ⟨q1, q2, q3, lf, m, q4, q5, q6, q7⟩ := root_children hwt h4 h5 (by omega)
    rw [h6] at q2 q3
    have e2 : t.bstat.height - 1 = s.bstat.height := by omega
    rw [e2] at q4
    exact ⟨h1, by omega, R, (R.entries 1).val, lf, m, by rw [rd_of_ne h3]; exact h4, h5, h6, rfl,
      q1, q2, q3, q4, q5, q6, q7⟩

/-- Claim C28: a call of `bpt_insert` that has returned without failing has
increased the height by exactly 1 when, and only when, the root itself was
split; the new root then has exactly one key, equal to the first key of the
leftmost leaf below its child 1, with the old root as child 0 and the new
sibling of the old root as child 1; in every other call the descriptor of the
tree, with the root handle and the height, is unchanged and the root has no
sibling.  The call does return without failing when the journal fits the
stack. -/
theorem root_split_height {cmp : bpt_t → bpt_t → Int} (hc : cmp_total cmp) {s : State}
    (h : Reachable cmp s) (hno : s.alloc = []) (e : bpt_entry) (pred : bpt_t → bpt_t → Int)
    (bld : bpt_build) (stk0 : stk_obj) (b : Bool) :
    (Fits bld stk0 b s.bstat.height →
      ∃ r t, bpt_insert bld e cmp pred stk0 b s = some (r, t) ∧ r ≠ BPT_ERROR) ∧
    ∀ r t, bpt_insert bld e cmp pred stk0 b s = some (r, t) → r ≠ BPT_ERROR ∧
      bpt_node_nxt s s.bstat.root_node = some 0 ∧
      ((t.bstat = s.bstat ∧ bpt_node_nxt t s.bstat.root_node = some 0) ∨
        (t.bstat = { s.bstat with
            root_node := t.bstat.root_node, height := s.bstat.height + 1 } ∧
          t.bstat.root_node ≠ s.bstat.root_node ∧
          ∃ R sib lf m, rd t t.bstat.root_node = some R ∧ R.nkey = 1 ∧
            (R.entries 0).val = s.bstat.root_node ∧ (R.entries 1).val = sib ∧ sib ≠ 0 ∧
            bpt_node_nxt t s.bstat.root_node = some sib ∧
            bpt_node_prv t sib = some s.bstat.root_node ∧
            first_at t s.bstat.height sib = some lf ∧ rd t lf = some m ∧ 0 < m.nkey ∧
            (m.entries 0).key = (R.entries 0).key)) := by
  constructor
  · intro hfit
    obtain ⟨r, t, hrun, hr, -⟩ := root_split_fit hc h hno e pred hfit
    exact ⟨r, t, hrun, hr⟩
  · intro r t hrun
    have hrun1 := insert_returned hno hrun
    obtain ⟨r2, t2, h2, q⟩ := root_split_fit hc h hno e pred (fits_self bld s.bstat.height)
    rw [h2] at hrun1
    simp only [Option.some.injEq, Prod.mk.injEq] at hrun1
    obtain ⟨r1, r3⟩ := hrun1
    subst r1 r3
    exact q

theorem tree_d_reach : Reachable cmp_word tree_d ∧ tree_d.alloc = [] :=
  tree_of_reach (by decide) _ (by decide!)

theorem root_split_height_witness :
    ∃ r t, bpt_insert build_8 ⟨13, 13⟩ cmp_word bpt_pred_1 stk_1 true tree_d = some (r, t) ∧
      r ≠ BPT_ERROR ∧ t.bstat.height = tree_d.bstat.height + 1 ∧
      bpt_node_nxt tree_d tree_d.bstat.root_node = some 0 ∧
      ((t.bstat = tree_d.bstat ∧ bpt_node_nxt t tree_d.bstat.root_node = some 0) ∨
        (t.bstat = { tree_d.bstat with
            root_node := t.bstat.root_node, height := tree_d.bstat.height + 1 } ∧
          t.bstat.root_node ≠ tree_d.bstat.root_node ∧
          ∃ R sib lf m, rd t t.bstat.root_node = some R ∧ R.nkey = 1 ∧
            (R.entries 0).val = tree_d.bstat.root_node ∧ (R.entries 1).val = sib ∧ sib ≠ 0 ∧
            bpt_node_nxt t tree_d.bstat.root_node = some sib ∧
            bpt_node_prv t sib = some tree_d.bstat.root_node ∧
            first_at t tree_d.bstat.height sib = some lf ∧ rd t lf = some m ∧ 0 < m.nkey ∧
            (m.entries 0).key = (R.entries 0).key)) :=
  have h := @root_split_height cmp_word cmp_word_total tree_d tree_d_reach.1 tree_d_reach.2
    ⟨13, 13⟩ bpt_pred_1 build_8 stk_1 true
  (h.1 (by decide!)).elim fun r ht => ht.elim fun t ht =>
    ⟨r, t, ht.1, ht.2, by
      have e1 : bpt_insert build_8 ⟨13, 13⟩ cmp_word bpt_pred_1 stk_1 true tree_d =
          some (r, t) := ht.1
      have e2 : ((bpt_insert build_8 ⟨13, 13⟩ cmp_word bpt_pred_1 stk_1 true tree_d).map
          fun p => p.2.bstat.height) = some (tree_d.bstat.height + 1) := by decide!
      rw [e1] at e2
      exact Option.some.inj e2, (h.2 r t ht.1).2⟩

/-! ## Insertion into a full leaf: the siblings first -/

theorem leaf_insert_prv_run {cmp : bpt_t → bpt_t → Int} {t : State} {stk : gen_stk}
    {U : List Int} {X0 Y : List Item} {lp lo : Option bpt_t} {prv leaf : Int} {e : bpt_entry}
    {n np : bpt_node} {off : Int}
    (hs : LeafSit cmp t stk U (X0 ++ [(lp, prv)]) lo leaf Y e.key)
    (hm : t.mem leaf = some n) (hmp : t.mem prv = some np)
    (h : Miss cmp e.key n off) (hfull : n.nkey = t.bstat.order)
    (hpi : np.nkey < t.bstat.order) :
    ∃ t1 Q L, leaf_insert_prv t e leaf off prv np.nkey stk = some t1 ∧
      t1.mem prv = some Q ∧ Q.nkey = np.nkey + 1 ∧ Q.entries np.nkey = n.entries 0 ∧
      t1.mem leaf = some L ∧ L.nkey = n.nkey ∧ prv ≠ 0 ∧ 0 ≤ np.nkey := by
  obtain ⟨l0, lb, n1, hm1, hn0, hn1, hn2, -, -, -, -⟩ := hs.node
  rw [hm] at hm1; cases Option.some.inj hm1
  have hok := hs.ok
  have hX : X0 ++ [(lp, prv)] ≠ [] := by simp
  have hoff := h.off_pos hs hm hX
  obtain ⟨lU, lX, lY⟩ := hs.notin
  have hpl : prv ≠ leaf := by
    intro hh; apply lX; rw [← hh]; simp
  have hpok := hok.1.1 (lp, prv) (by simp)
  obtain ⟨p0, pb, np1, hmp1, hp0, hp1, hp2⟩ := hpok
  simp only at hmp1 p0 pb
  rw [hmp] at hmp1; cases Option.some.inj hmp1
  have hpU : prv ∉ U := by
    obtain ⟨_, _, _, h4, _⟩ := nodup_focus hs.nd
    exact h4 prv (by simp)
  obtain ⟨l, hlo⟩ := Sep.left_last hs.ctx.sep hX
  have ho1 := h.2.1
  -- the run
  unfold leaf_insert_prv
  rw [get_entry_eq l0 hm (le_refl _) (by omega)]
  simp only [Option.bind_eq_bind, Option.some_bind]
  rw [set_entry_eq p0 hmp hp0 (by omega)]
  simp only [Option.some_bind]
  have hm2 : (wr t prv { np with entries := Function.update np.entries np.nkey (n.entries 0) }).mem
      leaf = some n := (wr_mem_of_ne _ hpl.symm).trans hm
  rw [memmove_eq 0 1 (off - 1) l0 hm2 l0 hm2 (by omega) (fun _ => by simp; omega)]
  simp only [Option.some_bind]
  rw [set_entry_eq l0 (wr_mem_same _ _ _) (by omega) (by simp; omega)]
  simp only [Option.some_bind, wr_wr]
  rw [get_entry_eq l0 (wr_mem_same _ _ _) (le_refl _) (by simp; omega)]
  simp only [Option.some_bind]
  generalize hP1 : ({ np with entries := Function.update np.entries np.nkey (n.entries 0) } :
    bpt_node) = P1
  generalize hL2 : ({ n with entries := Function.update (moved n n 0 1 (off - 1)) (off - 1) e } :
    bpt_node) = L2
  have hA3 : Agree t (wr (wr t prv P1) leaf L2) U := by
    intro b hb
    rw [wr_mem_of_ne _ (ne_of_mem_of_not_mem hb lU), wr_mem_of_ne _ (ne_of_mem_of_not_mem hb hpU)]
  have hc3 := hs.ctx.frame (Ext.wr _ _ _ |>.trans_ext (Ext.wr _ _ _)) rfl hA3
  rw [hlo] at hc3
  obtain ⟨mo, mn, nm, -, e2, e3, e4, e5, e6, e7, -, e9⟩ := hc3.left_sep.2 l rfl
  obtain ⟨e10, hc4⟩ := e9 (L2.entries 0).key
  have hmnp : mn ≠ prv := ne_of_mem_of_not_mem e2 hpU
  have hmnl : mn ≠ leaf := ne_of_mem_of_not_mem e2 lU
  have hk : (Function.update (moved n n 0 1 (off - 1)) (off - 1) e 0).key = (L2.entries 0).key := by
    rw [← hL2]
  rw [hk, e10]
  simp only [Option.some_bind]
  have hm5 : (wr (wr (wr t prv P1) leaf L2) mn (with_key nm mo (L2.entries 0).key)).mem prv =
      some P1 := by
    rw [wr_mem_of_ne _ hmnp.symm, wr_mem_of_ne _ hpl, wr_mem_same]
  rw [set_nkey_eq p0 hm5]
  generalize hP2 : ({ P1 with nkey := np.nkey + 1 } : bpt_node) = P2
  generalize ht5 : wr (wr (wr (wr t prv P1) leaf L2) mn (with_key nm mo (L2.entries 0).key))
    prv P2 = t5
  have hext : Ext t t5 := by
    rw [← ht5]
    exact (Ext.wr _ _ _).trans_ext ((Ext.wr _ _ _).trans_ext ((Ext.wr _ _ _).trans_ext (Ext.wr _ _ _)))
  have g1 : t5.mem prv = some P2 := by rw [← ht5]; exact wr_mem_same _ _ _
  have g2 : t5.mem leaf = some L2 := by
    rw [← ht5, wr_mem_of_ne _ hpl.symm, wr_mem_of_ne _ hmnl.symm, wr_mem_same]
  have g3 : ∀ b, b ≠ prv → b ≠ leaf → b ≠ mn → t5.mem b = t.mem b := by
    intro b b1 b2 b3
    rw [← ht5, wr_mem_of_ne _ b1, wr_mem_of_ne _ b3, wr_mem_of_ne _ b2, wr_mem_of_ne _ b1]
  exact ⟨t5, P2, L2, rfl, g1, by rw [← hP2], by rw [← hP2, ← hP1]; simp, g2, by rw [← hL2],
    p0, hp0⟩

theorem leaf_insert_of_absent {cmp : bpt_t → bpt_t → Int} {s : State} {stk : gen_stk}
    {U : List Int} {X Y : List Item} {lo : Option bpt_t} {leaf : Int} {e : bpt_entry}
    {n : bpt_node} (pred : bpt_t → bpt_t → Int)
    (hs : LeafSit cmp s stk U X lo leaf Y e.key) (hm : s.mem leaf = some n)
    (habs : ∀ x ∈ tree_entries s, x.key ≠ e.key) (hfull : n.nkey = s.bstat.order) :
    ∃ off, Miss cmp e.key n off ∧
      leaf_insert e cmp pred leaf stk s = leaf_insert_full s e leaf off n stk := by
  obtain ⟨l0, lb, n1, hm1, hn0, hn1, hn2, -⟩ := hs.node
  rw [hm] at hm1; cases Option.some.inj hm1
  by_cases hit : (leaf_scan cmp e.key n.entries n.nkey n.nkey.toNat 0).2 = true
  · obtain ⟨o0, o1, ok⟩ := leaf_scan_hit hs.hc e.key n hn0 hit
    have hent := hs.entries_at hm o0 o1
    exact absurd ok (habs _ (by rw [hent]; simp))
  · have hmiss : (leaf_scan cmp e.key n.entries n.nkey n.nkey.toNat 0).2 = false := by
      simpa using hit
    refine ⟨_, leaf_scan_miss hs.hc e.key n hn0 hmiss, ?_⟩
    unfold leaf_insert
    simp only [rd_of_ne l0, hm, hmiss]
    rw [if_neg (by simp only [not_not]; exact ⟨hn0, hn2⟩), if_neg (by simp),
      if_neg (by omega)]

theorem full_eval_prv {s : State} {e : bpt_entry} {leaf off : Int} {n : bpt_node}
    {stk : gen_stk} {pk : Int} (hp0 : n.prv ≠ 0) (hp : bpt_node_nkey s n.prv = some pk)
    (hpk : pk ≠ s.bstat.order) :
    leaf_insert_full s e leaf off n stk =
      (leaf_insert_prv s e leaf off n.prv pk stk).map fun s1 => (BPT_NEXIST, s1) := by
  unfold leaf_insert_full
  simp only [if_pos hp0, hp]
  rw [if_pos ⟨hp0, hpk⟩]

theorem full_eval_nxt {s : State} {e : bpt_entry} {leaf off : Int} {n : bpt_node}
    {stk : gen_stk} {xk : Int} (hp : n.prv ≠ 0 → bpt_node_nkey s n.prv = some s.bstat.order)
    (hx0 : n.nxt ≠ 0) (hx : bpt_node_nkey s n.nxt = some xk) (hxk : xk ≠ s.bstat.order) :
    leaf_insert_full s e leaf off n stk =
      (leaf_insert_nxt s e leaf off n.nxt xk stk).map fun s1 => (BPT_NEXIST, s1) := by
  have e1 : (if n.prv ≠ 0 then bpt_node_nkey s n.prv else some s.bstat.order) =
      some s.bstat.order := by
    by_cases h : n.prv = 0
    · simp [h]
    · simp [h, hp h]
  unfold leaf_insert_full
  simp only [e1, ne_eq, not_true_eq_false, and_false, if_false, if_pos hx0, hx]
  rw [if_pos ⟨hx0, hxk⟩]

theorem tree_c_reach : Reachable cmp_word tree_c ∧ tree_c.alloc = [] :=
  tree_of_reach (by decide) _ (by decide!)

theorem tree_c_refused_reach : Reachable cmp_word tree_c_refused :=
  Reachable.allocator tree_c [false] tree_c_reach.1

/-- Claim C24, for a call whose journal fits the stack: for every reachable
tree and absent key whose target leaf is full, if no allocation fails and the
journal fits the stack, `bpt_insert` returns `BPT_NEXIST` and:
if the previous sibling exists with fewer than `order` keys, no node is handed
out, the former minimum of the leaf becomes the last entry of the previous
sibling, whose key count grows by exactly 1, and the leaf keeps `order` keys;
otherwise, if the next sibling exists with fewer than `order` keys, no node is
handed out and the key count of the next sibling grows by exactly 1; a node is
handed out only when neither sibling has room. -/
theorem insert_prefers_siblings {cmp : bpt_t → bpt_t → Int} (hc : cmp_total cmp) {s : State}
    (h : Reachable cmp s) (hno : s.alloc = []) (e : bpt_entry) (pred : bpt_t → bpt_t → Int)
    (bld : bpt_build) (stk0 : stk_obj) (b : Bool) (hfit : Fits bld stk0 b s.bstat.height)
    (leaf : Int) {es : List bpt_entry} (hes : leaves_read s es)
    (habs : e.key ∉ es.map (·.key))
    (hleaf : search_descend cmp e.key s s.bstat.height s.bstat.root_node = some leaf)
    (hfull : bpt_node_nkey s leaf = some s.bstat.order) :
    ∃ t prv nxt, bpt_insert bld e cmp pred stk0 b s = some (BPT_NEXIST, t) ∧
      bpt_node_prv s leaf = some prv ∧ bpt_node_nxt s leaf = some nxt ∧
      (∀ pk, prv ≠ 0 → bpt_node_nkey s prv = some pk → pk < s.bstat.order →
        t.brk = s.brk ∧ bpt_node_nkey t prv = some (pk + 1) ∧
        get_entry t prv pk = get_entry s leaf 0 ∧ (get_entry s leaf 0).isSome = true ∧
        bpt_node_nkey t leaf = some s.bstat.order) ∧
      ((prv = 0 ∨ bpt_node_nkey s prv = some s.bstat.order) →
        ∀ xk, nxt ≠ 0 → bpt_node_nkey s nxt = some xk → xk < s.bstat.order →
          t.brk = s.brk ∧ bpt_node_nkey t nxt = some (xk + 1)) ∧
      (t.brk ≠ s.brk →
        (prv = 0 ∨ bpt_node_nkey s prv = some s.bstat.order) ∧
        (nxt = 0 ∨ bpt_node_nkey s nxt = some s.bstat.order)) := by
  have hw := reachable_wf hc h
  have hE := leaves_read_unique hw hes
  subst hE
  have habs2 : ∀ x ∈ tree_entries s, x.key ≠ e.key :=
    fun x hx hk => habs (List.mem_map.mpr ⟨x, hx, hk⟩)
  obtain ⟨r, t, s1, hrun, -, hs1, -, herr, hok⟩ := bpt_insert_spec hc hw e pred hfit
  have e1 : s = s1 := (hs1 hno).symm
  subst e1
  obtain ⟨-, hspec⟩ := hok (fun h0 => herr h0 hno)
  have hr : r = BPT_NEXIST := by
    rcases hspec with ⟨h1, -⟩ | ⟨-, A, x, B, h2, hx, -⟩ | ⟨-, x, hx, hk, -⟩
    · exact h1
    · exact absurd hx (habs2 x (by rw [h2]; simp))
    · exact absurd hk (habs2 x hx)
  subst hr
  obtain ⟨leaf0, stk, U, X, lo, Y, hd, hs, hsd, -, -⟩ := descend_at_leaf hc hw e.key
  rw [hleaf] at hsd
  cases Option.some.inj hsd
  obtain ⟨l0, lb, n, hm, hn0, hn1, hn2, -⟩ := hs.node
  rw [nkey_eq l0 hm] at hfull
  have hnk : n.nkey = s.bstat.order := Option.some.inj hfull
  obtain ⟨off, hmiss, hfullrun⟩ := leaf_insert_of_absent pred hs hm habs2 hnk
  have hrun2 : leaf_insert_full s e leaf off n stk = some (BPT_NEXIST, t) := by
    rw [← hfullrun, ← insert_at_leaf hno e pred hfit hd]
    exact hrun
  obtain ⟨p3, -⟩ := params_arith hs.hp
  have part1 : ∀ pk, n.prv ≠ 0 → bpt_node_nkey s n.prv = some pk → pk < s.bstat.order →
      t.brk = s.brk ∧ bpt_node_nkey t n.prv = some (pk + 1) ∧
      get_entry t n.prv pk = get_entry s leaf 0 ∧ (get_entry s leaf 0).isSome = true ∧
      bpt_node_nkey t leaf = some s.bstat.order := by
    intro pk hp0 hpk hlt
    obtain ⟨X0, lp, hX, q0, qb, np, hnp, hk0, hk1, hk2⟩ := (prev_facts hs.ok.1 hm).2 hp0
    subst hX
    rw [nkey_eq hp0 hnp] at hpk
    cases Option.some.inj hpk
    obtain ⟨t1, Q, L, g1, g2, g3, g4, g5, g6, -, g8⟩ :=
      leaf_insert_prv_run hs hm hnp hmiss hnk hlt
    rw [full_eval_prv hp0 (nkey_eq hp0 hnp) (by omega), g1] at hrun2
    simp only [Option.map_some', Option.some.injEq, Prod.mk.injEq, true_and] at hrun2
    subst hrun2
    have hk := (keep_leaf_insert_prv g1).1
    refine ⟨hk.2, by rw [nkey_eq hp0 g2, g3], ?_, ?_, by rw [nkey_eq l0 g5, g6, hnk]⟩
    · rw [get_entry_eq hp0 g2 g8 (by rw [hk.1]; omega),
        get_entry_eq l0 hm (le_refl _) (by omega), g4]
    · rw [get_entry_eq l0 hm (le_refl _) (by omega)]
      rfl
  have part2 : (n.prv = 0 ∨ bpt_node_nkey s n.prv = some s.bstat.order) →
      ∀ xk, n.nxt ≠ 0 → bpt_node_nkey s n.nxt = some xk → xk < s.bstat.order →
        t.brk = s.brk ∧ bpt_node_nkey t n.nxt = some (xk + 1) := by
    intro hpno xk hx0 hxk hlt
    have hp : n.prv ≠ 0 → bpt_node_nkey s n.prv = some s.bstat.order := by
      intro h0
      rcases hpno with h1 | h1
      · exact absurd h1 h0
      · exact h1
    rw [full_eval_nxt hp hx0 hxk (by omega)] at hrun2
    obtain ⟨t1, g1, g2⟩ := Option.map_eq_some'.mp hrun2
    simp only [Prod.mk.injEq, true_and] at g2
    subst g2
    obtain ⟨k1, k2⟩ := keep_leaf_insert_nxt g1
    exact ⟨k1.2, k2⟩
  refine ⟨t, n.prv, n.nxt, hrun, prv_eq l0 hm, nxt_eq l0 hm, part1, part2, fun hbrk => ?_⟩
  have hpno : n.prv = 0 ∨ bpt_node_nkey s n.prv = some s.bstat.order := by
    by_cases hp0 : n.prv = 0
    · exact Or.inl hp0
    · right
      obtain ⟨X0, lp, hX, q0, qb, np, hnp, hk0, hk1, hk2⟩ := (prev_facts hs.ok.1 hm).2 hp0
      rw [nkey_eq hp0 hnp]
      by_cases hlt : np.nkey < s.bstat.order
      · exact absurd (part1 np.nkey hp0 (nkey_eq hp0 hnp) hlt).1 hbrk
      · congr 1
        omega
  refine ⟨hpno, ?_⟩
  by_cases hx0 : n.nxt = 0
  · exact Or.inl hx0
  · right
    obtain ⟨ln, Y1, hY, q0, qb, nn, hnn, hk0, hk1, hk2⟩ := (next_facts hs.ok.1 hm).2 hx0
    rw [nkey_eq hx0 hnn]
    by_cases hlt : nn.nkey < s.bstat.order
    · exact absurd (part2 hpno nn.nkey hx0 (nkey_eq hx0 hnn) hlt).1 hbrk
    · congr 1
      omega

/-! ## What the branches of deletion leave alone -/


theorem keep_bind_state {s t : State} {f : Option State} {g : State → Option State}
    (hf : ∀ y, f = some y → Keep s y) (hg : ∀ y, g y = some t → Keep y t) :
    f.bind g = some t → Keep s t := by
  intro h
  obtain ⟨y, h1, h2⟩ := Option.bind_eq_some.mp h
  exact (hf y h1).trans_keep (hg y h2)

theorem keep_bind_pair {s : State} {r : Bool × State} {f : Option State}
    {g : State → Option (Bool × State)}
    (hf : ∀ y, f = some y → Keep s y) (hg : ∀ y, g y = some r → Keep y r.2) :
    f.bind g = some r → Keep s r.2 := by
  intro h
  obtain ⟨y, h1, h2⟩ := Option.bind_eq_some.mp h
  exact (hf y h1).trans_keep (hg y h2)

theorem keep_bind_read {α β : Type} {P : Prop} {r : β} {f : Option α} {g : α → Option β}
    (hg : ∀ x, g x = some r → P) : f.bind g = some r → P := by
  intro h
  obtain ⟨y, -, h2⟩ := Option.bind_eq_some.mp h
  exact hg y h2

theorem keep_gen_stk_copy {s t0 : State} {stk : gen_stk} {o : Option gen_stk}
    (h : gen_stk_copy s stk = (o, t0)) : Keep s t0 := by
  unfold gen_stk_copy at h
  have hk := keep_alloc_request s
  rcases Bool.eq_false_or_eq_true (alloc_request s).1 with c | c <;>
    simp only [c, if_true, Bool.false_eq_true, if_false, Prod.mk.injEq] at h <;>
    (rw [← h.2]; exact hk)

theorem keep_after_copy {s t0 t : State} {stk : gen_stk} {o : Option gen_stk}
    {X : Option State} (hq : gen_stk_copy s stk = (o, t0)) (h : X = some t → Keep t0 t) :
    X = some t → Keep s t :=
  fun hx => (keep_gen_stk_copy hq).trans_keep (h hx)

theorem keep_after_copy_pair {s t0 : State} {r : Bool × State} {stk : gen_stk}
    {o : Option gen_stk} {X : Option (Bool × State)} (hq : gen_stk_copy s stk = (o, t0))
    (h : X = some r → Keep t0 r.2) : X = some r → Keep s r.2 :=
  fun hx => (keep_gen_stk_copy hq).trans_keep (h hx)

theorem keep_ite {P : Prop} {α : Type} {c : Prop} [Decidable c] {a b : Option α} {r : α}
    (h1 : c → a = some r → P) (h2 : ¬ c → b = some r → P) :
    (if c then a else b) = some r → P := by
  intro h
  by_cases hc : c
  · rw [if_pos hc] at h; exact h1 hc h
  · rw [if_neg hc] at h; exact h2 hc h

theorem keep_excise_right {s t : State} {node offset m : Int}
    (h : excise_right s node offset m = some t) : Keep s t := by
  unfold excise_right at h
  simp only [Option.bind_eq_bind, Option.bind_eq_some] at h
  obtain ⟨e, -, s1, h1, h2⟩ := h
  exact (keep_memmove h1).trans_keep (keep_set_val h2)

theorem keep_ientry_root {s t : State} {frm : bpt_frm} {m : Int} (hm : m ≠ 1)
    (h : delete_ientry_root s frm m = some t) : Keep s t := by
  unfold delete_ientry_root at h
  rw [if_neg hm] at h
  simp only [Option.bind_eq_bind, Option.some_bind, Option.none_bind, Bool.true_eq_false,
    Bool.false_eq_true, if_true, if_false] at h
  revert h
  repeat' first
    | exact keep_memmove | exact keep_memcpy | exact keep_set_key | exact keep_set_val
    | exact keep_set_entry | exact keep_set_nkey | exact keep_set_prv | exact keep_set_nxt
    | exact keep_node_delete | exact keep_excise_right | exact keep_update_index _
    | (intro h; cases h; exact Keep.refl_keep _)
    | (intro h; cases h)
    | refine keep_bind_state (fun y => ?_) (fun y => ?_)
    | refine keep_bind_pair (fun y => ?_) (fun y => ?_)
    | refine keep_bind_read (fun y => ?_)
    | refine keep_ite (fun _ => ?_) (fun _ => ?_)

theorem keep_ientry_surplus {s t : State} {frm : bpt_frm} {m : Int} {stk : gen_stk}
    (h : delete_ientry_surplus s frm m stk = some t) : Keep s t := by
  unfold delete_ientry_surplus at h
  simp only [Option.bind_eq_bind, Option.some_bind, Option.none_bind, Bool.true_eq_false,
    Bool.false_eq_true, if_true, if_false] at h
  revert h
  repeat' first
    | exact keep_memmove | exact keep_memcpy | exact keep_set_key | exact keep_set_val
    | exact keep_set_entry | exact keep_set_nkey | exact keep_set_prv | exact keep_set_nxt
    | exact keep_node_delete | exact keep_excise_right | exact keep_update_index _
    | (intro h; cases h; exact Keep.refl_keep _)
    | (intro h; cases h)
    | refine keep_bind_state (fun y => ?_) (fun y => ?_)
    | refine keep_bind_pair (fun y => ?_) (fun y => ?_)
    | refine keep_bind_read (fun y => ?_)
    | refine keep_ite (fun _ => ?_) (fun _ => ?_)

theorem keep_ientry_prv {s t : State} {frm : bpt_frm} {prv k : Int} {stk : gen_stk}
    (h : delete_ientry_prv s frm prv k stk = some t) : Keep s t := by
  unfold delete_ientry_prv at h
  simp only [Option.bind_eq_bind, Option.some_bind, Option.none_bind, Bool.true_eq_false,
    Bool.false_eq_true, if_true, if_false] at h
  revert h
  repeat' first
    | exact keep_memmove | exact keep_memcpy | exact keep_set_key | exact keep_set_val
    | exact keep_set_entry | exact keep_set_nkey | exact keep_set_prv | exact keep_set_nxt
    | exact keep_node_delete | exact keep_excise_right | exact keep_update_index _
    | (intro h; cases h; exact Keep.refl_keep _)
    | (intro h; cases h)
    | refine keep_bind_state (fun y => ?_) (fun y => ?_)
    | refine keep_bind_pair (fun y => ?_) (fun y => ?_)
    | refine keep_bind_read (fun y => ?_)
    | refine keep_ite (fun _ => ?_) (fun _ => ?_)

theorem keep_ientry_nxt {s t : State} {frm : bpt_frm} {nxt k : Int} {stk : gen_stk}
    (h : delete_ientry_nxt s frm nxt k stk = some t) : Keep s t := by
  unfold delete_ientry_nxt at h
  simp only [Option.bind_eq_bind, Option.some_bind, Option.none_bind, Bool.true_eq_false,
    Bool.false_eq_true, if_true, if_false] at h
  revert h
  repeat' first
    | exact keep_memmove | exact keep_memcpy | exact keep_set_key | exact keep_set_val
    | exact keep_set_entry | exact keep_set_nkey | exact keep_set_prv | exact keep_set_nxt
    | exact keep_node_delete | exact keep_excise_right | exact keep_update_index _
    | (intro h; cases h; exact Keep.refl_keep _)
    | (intro h; cases h)
    | refine keep_bind_state (fun y => ?_) (fun y => ?_)
    | refine keep_bind_pair (fun y => ?_) (fun y => ?_)
    | refine keep_bind_read (fun y => ?_)
    | refine keep_ite (fun _ => ?_) (fun _ => ?_)

theorem keep_ientry_merge_prv {s t : State} {frm parent : bpt_frm} {prv nxt : Int}
    (h : delete_ientry_merge_prv s frm parent prv nxt = some t) : Keep s t := by
  unfold delete_ientry_merge_prv at h
  simp only [Option.bind_eq_bind, Option.some_bind, Option.none_bind, Bool.true_eq_false,
    Bool.false_eq_true, if_true, if_false] at h
  revert h
  repeat' first
    | exact keep_memmove | exact keep_memcpy | exact keep_set_key | exact keep_set_val
    | exact keep_set_entry | exact keep_set_nkey | exact keep_set_prv | exact keep_set_nxt
    | exact keep_node_delete | exact keep_excise_right | exact keep_update_index _
    | (intro h; cases h; exact Keep.refl_keep _)
    | (intro h; cases h)
    | refine keep_bind_state (fun y => ?_) (fun y => ?_)
    | refine keep_bind_pair (fun y => ?_) (fun y => ?_)
    | refine keep_bind_read (fun y => ?_)
    | refine keep_ite (fun _ => ?_) (fun _ => ?_)

theorem keep_ientry_merge_nxt {s : State} {r : Bool × State} {frm parent : bpt_frm}
    {prv nxt : Int} {stk : gen_stk}
    (h : delete_ientry_merge_nxt s frm parent prv nxt stk = some r) : Keep s r.2 := by
  unfold delete_ientry_merge_nxt at h
  simp only [Option.bind_eq_bind, Option.some_bind, Option.none_bind, Bool.true_eq_false,
    Bool.false_eq_true, if_true, if_false] at h
  revert h
  repeat' first
    | exact keep_memmove | exact keep_memcpy | exact keep_set_key | exact keep_set_val
    | exact keep_set_entry | exact keep_set_nkey | exact keep_set_prv | exact keep_set_nxt
    | exact keep_node_delete | exact keep_excise_right | exact keep_update_index _
    | (intro h; cases h; exact Keep.refl_keep _)
    | (intro h; cases h)
    | refine keep_bind_state (fun y => ?_) (fun y => ?_)
    | refine keep_bind_pair (fun y => ?_) (fun y => ?_)
    | refine keep_bind_read (fun y => ?_)
    | refine keep_ite (fun _ => ?_) (fun _ => ?_)
    | (intro h; split at h <;> revert h <;>
        first
          | refine keep_after_copy (by assumption) ?_
          | refine keep_after_copy_pair (by assumption) ?_)

theorem keep_entry_simple {s t : State} {leaf offset m : Int} {stk : gen_stk}
    (h : delete_entry_simple s leaf offset m stk = some t) : Keep s t := by
  unfold delete_entry_simple at h
  simp only [Option.bind_eq_bind, Option.some_bind, Option.none_bind, Bool.true_eq_false,
    Bool.false_eq_true, if_true, if_false] at h
  revert h
  repeat' first
    | exact keep_memmove | exact keep_memcpy | exact keep_set_key | exact keep_set_val
    | exact keep_set_entry | exact keep_set_nkey | exact keep_set_prv | exact keep_set_nxt
    | exact keep_node_delete | exact keep_excise_right | exact keep_update_index _
    | (intro h; cases h; exact Keep.refl_keep _)
    | (intro h; cases h)
    | refine keep_bind_state (fun y => ?_) (fun y => ?_)
    | refine keep_bind_pair (fun y => ?_) (fun y => ?_)
    | refine keep_bind_read (fun y => ?_)
    | refine keep_ite (fun _ => ?_) (fun _ => ?_)

theorem keep_entry_prv {s t : State} {leaf offset prv k : Int} {stk : gen_stk}
    (h : delete_entry_prv s leaf offset prv k stk = some t) : Keep s t := by
  unfold delete_entry_prv at h
  simp only [Option.bind_eq_bind, Option.some_bind, Option.none_bind, Bool.true_eq_false,
    Bool.false_eq_true, if_true, if_false] at h
  revert h
  repeat' first
    | exact keep_memmove | exact keep_memcpy | exact keep_set_key | exact keep_set_val
    | exact keep_set_entry | exact keep_set_nkey | exact keep_set_prv | exact keep_set_nxt
    | exact keep_node_delete | exact keep_excise_right | exact keep_update_index _
    | (intro h; cases h; exact Keep.refl_keep _)
    | (intro h; cases h)
    | refine keep_bind_state (fun y => ?_) (fun y => ?_)
    | refine keep_bind_pair (fun y => ?_) (fun y => ?_)
    | refine keep_bind_read (fun y => ?_)
    | refine keep_ite (fun _ => ?_) (fun _ => ?_)

theorem keep_entry_nxt {s t : State} {leaf offset prv nxt k : Int} {stk : gen_stk}
    (h : delete_entry_nxt s leaf offset prv nxt k stk = some t) : Keep s t := by
  unfold delete_entry_nxt at h
  simp only [Option.bind_eq_bind, Option.some_bind, Option.none_bind, Bool.true_eq_false,
    Bool.false_eq_true, if_true, if_false] at h
  revert h
  repeat' first
    | exact keep_memmove | exact keep_memcpy | exact keep_set_key | exact keep_set_val
    | exact keep_set_entry | exact keep_set_nkey | exact keep_set_prv | exact keep_set_nxt
    | exact keep_node_delete | exact keep_excise_right | exact keep_update_index _
    | (intro h; cases h; exact Keep.refl_keep _)
    | (intro h; cases h)
    | refine keep_bind_state (fun y => ?_) (fun y => ?_)
    | refine keep_bind_pair (fun y => ?_) (fun y => ?_)
    | refine keep_bind_read (fun y => ?_)
    | refine keep_ite (fun _ => ?_) (fun _ => ?_)

theorem keep_entry_merge {s : State} {r : Bool × State} {leaf offset prv nxt : Int}
    {stk : gen_stk}
    (h : delete_entry_merge s leaf offset prv nxt stk = some r) : Keep s r.2 := by
  unfold delete_entry_merge at h
  simp only [Option.bind_eq_bind, Option.some_bind, Option.none_bind, Bool.true_eq_false,
    Bool.false_eq_true, if_true, if_false] at h
  revert h
  repeat' first
    | exact keep_memmove | exact keep_memcpy | exact keep_set_key | exact keep_set_val
    | exact keep_set_entry | exact keep_set_nkey | exact keep_set_prv | exact keep_set_nxt
    | exact keep_node_delete | exact keep_excise_right | exact keep_update_index _
    | (intro h; cases h; exact Keep.refl_keep _)
    | (intro h; cases h)
    | refine keep_bind_state (fun y => ?_) (fun y => ?_)
    | refine keep_bind_pair (fun y => ?_) (fun y => ?_)
    | refine keep_bind_read (fun y => ?_)
    | refine keep_ite (fun _ => ?_) (fun _ => ?_)
    | (intro h; split at h <;> revert h <;>
        first
          | refine keep_after_copy (by assumption) ?_
          | refine keep_after_copy_pair (by assumption) ?_)

/-! ## The height across a deletion -/

theorem Collapse.rebase {s u t : State} (h : u.bstat = s.bstat) (hc : Collapse u t) :
    Collapse s t := by
  unfold Collapse at hc ⊢
  rw [h] at hc
  exact hc

/-- The round of `bpt_delete_ientry` on the root frame: the descriptor stays
as it is unless the root held exactly one key, and then the root collapses. -/
theorem ientry_root_stat {cmp : bpt_t → bpt_t → Int} {s : State} {a off : Int}
    {d : Nat} {U1 : List Int} {X1 Y1 : List Item} {lo1 : Option bpt_t} {n : bpt_node}
    (hs : CutSit cmp s [] a off d U1 X1 lo1 Y1 n) :
    ∃ t, bpt_delete_ientry_loop [] ⟨a, off⟩ s = some (BPT_PRED_SUCCESS, t) ∧
      (t.bstat = s.bstat ∨ Collapse s t) := by
  obtain ⟨a0, hn0, hn1, hn2, hn3, -⟩ := hs.facts
  obtain ⟨-, -, -, ha, -⟩ := hs.ctx.of_nil
  obtain ⟨t, h1, -⟩ := ientry_root_spec hs
  refine ⟨t, h1, ?_⟩
  have h2 := h1
  unfold bpt_delete_ientry_loop at h2
  simp only [nkey_eq a0 hs.hm] at h2
  obtain ⟨t1, h3, h4⟩ := Option.map_eq_some'.mp h2
  simp only [Prod.mk.injEq, true_and] at h4
  subst h4
  by_cases hm1 : n.nkey = 1
  · right
    have hrun : delete_ientry_root s ⟨a, off⟩ n.nkey = some { s with
        bstat := { s.bstat with
          root_node := (n.entries (if off = 0 then 1 else 0)).val
          height := s.bstat.height - 1 }
        mem := Function.update s.mem a none } := by
      have key : ∀ s1 : State, s1.mem = s.mem →
          bpt_node_delete s1 a = some { s1 with mem := Function.update s1.mem a none } :=
        fun s1 h => node_delete_eq a0 (by rw [h]; exact hs.hm)
      have := hs.h0
      have := hs.h1
      unfold delete_ientry_root
      rw [if_pos hm1]
      simp only [Option.bind_eq_bind]
      rw [get_entry_eq a0 hs.hm (by split_ifs <;> omega) (by split_ifs <;> omega),
        Option.some_bind]
      exact key _ rfl
    rw [hrun] at h3
    have h5 := Option.some.inj h3
    subst ha
    refine ⟨s, off, n, rfl, hs.hm, hm1, hs.h0, by have := hs.h1; omega, h1, ?_, ?_, ?_⟩
    · rw [← h5]
    · rw [← h5]
      exact Function.update_same _ _ _
    · intro b hb
      rw [← h5]
      exact Function.update_noteq hb _ _
  · exact Or.inl (keep_ientry_root hm1 h3).1

/-- The loop of `bpt_delete_ientry` from a frame whose child was released:
when it does not fail, the descriptor stays as it is or the root collapses. -/
theorem ientry_loop_stat {cmp : bpt_t → bpt_t → Int} (stk : gen_stk) :
    ∀ {s : State} {a off : Int} {d : Nat} {U1 : List Int} {X1 Y1 : List Item}
      {lo1 : Option bpt_t} {n : bpt_node}, CutSit cmp s stk a off d U1 X1 lo1 Y1 n →
      ∃ r t, bpt_delete_ientry_loop stk ⟨a, off⟩ s = some (r, t) ∧
        (r ≠ BPT_ERROR → t.bstat = s.bstat ∨ Collapse s t) := by
  induction stk with
  | nil =>
    intro s a off d U1 X1 Y1 lo1 n hs
    obtain ⟨t, h1, h2⟩ := ientry_root_stat hs
    exact ⟨_, t, h1, fun _ => h2⟩
  | cons parent stk ih =>
    intro s a off d U1 X1 Y1 lo1 n hs
    obtain ⟨pa, poff⟩ := parent
    obtain ⟨a0, hn0, hn1, hn2, hn3, aU, aX, aY, aT, UT, hnd⟩ := hs.facts
    have hne : (({ node := pa, offset := poff } : bpt_frm) :: stk) ≠ [] := by simp
    have hmn := hs.min_eq hne
    rw [hmn] at hn1
    rw [bpt_delete_ientry_loop]
    by_cases hk : s.bstat.new_inter_nkey < n.nkey
    · obtain ⟨t, h1, -⟩ := ientry_surplus_spec hs hne hk
      have hstep : delete_ientry_step s ⟨a, off⟩ ⟨pa, poff⟩ stk =
          some (Sum.inl (BPT_PRED_SUCCESS, t)) := by
        unfold delete_ientry_step
        simp only [Option.bind_eq_bind, nkey_eq a0 hs.hm, Option.some_bind, gt_iff_lt, hk,
          if_true, h1]
      rw [hstep]
      exact ⟨_, t, rfl, fun _ => Or.inl (keep_ientry_surplus h1).1⟩
    · have hmin : n.nkey = s.bstat.new_inter_nkey := le_antisymm (not_lt.mp hk) hn1
      obtain ⟨pk, hp, hp0, hpP⟩ : ∃ pk, (n.prv ≠ 0 → bpt_node_nkey s n.prv = some pk) ∧
          (n.prv = 0 → pk = s.bstat.new_inter_nkey) ∧
          (n.prv ≠ 0 → ∃ P, s.mem n.prv = some P ∧ P.nkey = pk) := by
        by_cases h : n.prv = 0
        · exact ⟨_, fun h1 => absurd h h1, fun _ => rfl, fun h1 => absurd h h1⟩
        · obtain ⟨X0, lp, -, p0, -, P, hP, -⟩ := (prev_facts hs.ok hs.hm).2 h
          exact ⟨P.nkey, fun _ => nkey_eq p0 hP, fun h1 => absurd h1 h, fun _ => ⟨P, hP, rfl⟩⟩
      obtain ⟨xk, hx, hx0, hxP⟩ : ∃ xk, (n.nxt ≠ 0 → bpt_node_nkey s n.nxt = some xk) ∧
          (n.nxt = 0 → xk = s.bstat.new_inter_nkey) ∧
          (n.nxt ≠ 0 → ∃ Nx, s.mem n.nxt = some Nx ∧ Nx.nkey = xk) := by
        by_cases h : n.nxt = 0
        · exact ⟨_, fun h1 => absurd h h1, fun _ => rfl, fun h1 => absurd h h1⟩
        · obtain ⟨ln, Y0, -, p0, -, Nx, hNx, -⟩ := (next_facts hs.ok hs.hm).2 h
          exact ⟨Nx.nkey, fun _ => nkey_eq p0 hNx, fun h1 => absurd h1 h, fun _ => ⟨Nx, hNx, rfl⟩⟩
      rw [step_eval ⟨pa, poff⟩ stk a0 hs.hm pk xk hp hp0 hx hx0 hk]
      by_cases c1 : n.prv ≠ 0 ∧ pk ≠ s.bstat.new_inter_nkey
      · obtain ⟨P, hP, rfl⟩ := hpP c1.1
        obtain ⟨t, h1, -⟩ := ientry_prv_spec hs hne hmin c1.1 hP c1.2
        rw [if_pos c1, h1]
        exact ⟨_, t, rfl, fun _ => Or.inl (keep_ientry_prv h1).1⟩
      rw [if_neg c1]
      by_cases c2 : n.nxt ≠ 0 ∧ xk ≠ s.bstat.new_inter_nkey
      · obtain ⟨Nx, hNx, rfl⟩ := hxP c2.1
        obtain ⟨t, h1, -⟩ := ientry_nxt_spec hs hne hmin c2.1 hNx c2.2
        rw [if_pos c2, h1]
        exact ⟨_, t, rfl, fun _ => Or.inl (keep_ientry_nxt h1).1⟩
      rw [if_neg c2]
      by_cases c3 : poff ≠ 0
      · obtain ⟨hprv, -⟩ := hs.later_child c3
        obtain ⟨P, hP, rfl⟩ := hpP hprv
        have hpk : P.nkey = s.bstat.new_inter_nkey := by
          by_contra h; exact c1 ⟨hprv, h⟩
        obtain ⟨t, h1, -, U2, X2, lo2, Y2, n2, h3, -⟩ := ientry_merge_prv_spec hs hmin c3 hP hpk
        obtain ⟨r, t1, k1, k2⟩ := ih h3
        have hb := (keep_ientry_merge_prv h1).1
        rw [if_pos c3, h1]
        refine ⟨r, t1, k1, fun h => ?_⟩
        rcases k2 h with k | k
        · exact Or.inl (k.trans hb)
        · exact Or.inr (k.rebase hb)
      · have c3' : poff = 0 := not_not.mp c3
        subst c3'
        obtain ⟨hnxt, -, -⟩ := hs.first_child
        obtain ⟨Nx, hNx, rfl⟩ := hxP hnxt
        have hxk : Nx.nkey = s.bstat.new_inter_nkey := by
          by_contra h; exact c2 ⟨hnxt, h⟩
        obtain ⟨r, h1, -, -, h4⟩ := ientry_merge_nxt_spec hs hmin hNx hxk
        have hb := (keep_ientry_merge_nxt h1).1
        rw [if_neg c3, h1]
        obtain ⟨fl, t⟩ := r
        cases fl with
        | false =>
          exact ⟨BPT_ERROR, t, rfl, fun h => absurd rfl h⟩
        | true =>
          obtain ⟨U2, X2, lo2, Y2, n2, h5, -⟩ := h4 rfl
          obtain ⟨r, t1, k1, k2⟩ := ih h5
          refine ⟨r, t1, k1, fun h => ?_⟩
          rcases k2 h with k | k
          · exact Or.inl (k.trans hb)
          · exact Or.inr (k.rebase hb)

/-- The function `bpt_delete_entry` at slot `off` of the leaf the journal
leads to: when it does not fail, the descriptor stays as it is or the root
collapses. -/
theorem delete_entry_stat {cmp : bpt_t → bpt_t → Int} {s : State} {stk : gen_stk}
    {U : List Int} {X Y : List Item} {lo : Option bpt_t} {leaf : Int} {k : bpt_t}
    {n : bpt_node} {off : Int}
    (hs : LeafSit cmp s stk U X lo leaf Y k) (hm : s.mem leaf = some n) (h0 : 0 ≤ off)
    (h1 : off < n.nkey) :
    ∃ r t, bpt_delete_entry leaf off stk s = some (r, t) ∧
      (r ≠ BPT_ERROR → t.bstat = s.bstat ∨ Collapse s t) := by
  obtain ⟨l0, lb, n1, hm1, hn0, hn1, hn2, -, -, -, -⟩ := hs.node
  rw [hm] at hm1; cases Option.some.inj hm1
  by_cases hk : n.nkey ≠ s.bstat.new_leaf_nkey ∨ gen_stk_empty stk = true
  · have hcond : n.nkey ≠ s.bstat.new_leaf_nkey ∨ stk = [] := by
      rcases hk with h | h
      · exact Or.inl h
      · exact Or.inr (by simpa [gen_stk_empty] using h)
    obtain ⟨t, e1, -⟩ := delete_entry_simple_spec hs hm h0 h1 hcond
    refine ⟨BPT_PRED_SUCCESS, t, ?_, fun _ => Or.inl (keep_entry_simple e1).1⟩
    unfold bpt_delete_entry
    simp only [Option.bind_eq_bind, nkey_eq l0 hm, Option.some_bind, hk, if_true, e1]
  · have hmin : n.nkey = s.bstat.new_leaf_nkey := by
      by_contra h; exact hk (Or.inl h)
    obtain ⟨f, stk1, hstk⟩ : ∃ f stk1, stk = f :: stk1 := by
      cases stk with
      | nil => exact absurd (Or.inr rfl) hk
      | cons f r => exact ⟨f, r, rfl⟩
    subst hstk
    obtain ⟨pa, poff⟩ := f
    obtain ⟨pk, hp, hp0, hpP⟩ : ∃ pk, (n.prv ≠ 0 → bpt_node_nkey s n.prv = some pk) ∧
        (n.prv = 0 → pk = s.bstat.new_leaf_nkey) ∧
        (n.prv ≠ 0 → ∃ P, s.mem n.prv = some P ∧ P.nkey = pk) := by
      by_cases h : n.prv = 0
      · exact ⟨_, fun h1 => absurd h h1, fun _ => rfl, fun h1 => absurd h h1⟩
      · obtain ⟨X0, lp, -, p0, -, P, hP, -⟩ := (prev_facts hs.ok.1 hm).2 h
        exact ⟨P.nkey, fun _ => nkey_eq p0 hP, fun h1 => absurd h1 h, fun _ => ⟨P, hP, rfl⟩⟩
    obtain ⟨xk, hx, hx0, hxP⟩ : ∃ xk, (n.nxt ≠ 0 → bpt_node_nkey s n.nxt = some xk) ∧
        (n.nxt = 0 → xk = s.bstat.new_leaf_nkey) ∧
        (n.nxt ≠ 0 → ∃ Nx, s.mem n.nxt = some Nx ∧ Nx.nkey = xk) := by
      by_cases h : n.nxt = 0
      · exact ⟨_, fun h1 => absurd h h1, fun _ => rfl, fun h1 => absurd h h1⟩
      · obtain ⟨ln, Y0, -, p0, -, Nx, hNx, -⟩ := (next_facts hs.ok.1 hm).2 h
        exact ⟨Nx.nkey, fun _ => nkey_eq p0 hNx, fun h1 => absurd h1 h, fun _ => ⟨Nx, hNx, rfl⟩⟩
    rw [entry_eval _ l0 hm pk xk hp hp0 hx hx0 hk]
    by_cases c1 : n.prv ≠ 0 ∧ pk ≠ s.bstat.new_leaf_nkey
    · obtain ⟨P, hP, rfl⟩ := hpP c1.1
      obtain ⟨t, e1, -⟩ := delete_entry_prv_spec hs hm h0 h1 hmin c1.1 hP c1.2
      rw [if_pos c1, e1]
      exact ⟨_, t, rfl, fun _ => Or.inl (keep_entry_prv e1).1⟩
    rw [if_neg c1]
    by_cases c2 : n.nxt ≠ 0 ∧ xk ≠ s.bstat.new_leaf_nkey
    · obtain ⟨Nx, hNx, rfl⟩ := hxP c2.1
      obtain ⟨t, e1, -⟩ := delete_entry_nxt_spec hs hm h0 h1 hmin c2.1 hNx c2.2
      rw [if_pos c2, e1]
      exact ⟨_, t, rfl, fun _ => Or.inl (keep_entry_nxt e1).1⟩
    rw [if_neg c2]
    by_cases hprv : n.prv = 0
    · have hnxt : n.nxt ≠ 0 := hs.first_leaf hm hprv
      obtain ⟨Nx, hNx, rfl⟩ := hxP hnxt
      have hxk : Nx.nkey = s.bstat.new_leaf_nkey := by
        by_contra h; exact c2 ⟨hnxt, h⟩
      obtain ⟨r, e1, -, -, e4⟩ := delete_entry_merge_nxt_spec hs hm h0 h1 hmin hprv hNx hxk
      have hb := keep_entry_merge e1
      rw [e1]
      obtain ⟨fl, t⟩ := r
      cases fl with
      | false =>
        exact ⟨BPT_ERROR, t, rfl, fun h => absurd rfl h⟩
      | true =>
        obtain ⟨s8, d1, -, U2, X2, lo2, Y2, n2, d3, -⟩ := e4 rfl
        obtain ⟨r, t1, k1, k2⟩ := ientry_loop_stat stk1 d3
        have hb8 := (hb.trans_keep (keep_node_delete d1)).1
        refine ⟨r, t1, ?_, fun h => ?_⟩
        · simp only [Option.some_bind, Bool.true_eq_false, if_false, d1]
          exact k1
        · rcases k2 h with k | k
          · exact Or.inl (k.trans hb8)
          · exact Or.inr (k.rebase hb8)
    · obtain ⟨P, hP, rfl⟩ := hpP hprv
      have hpk : P.nkey = s.bstat.new_leaf_nkey := by
        by_contra h; exact c1 ⟨hprv, h⟩
      obtain ⟨t, s8, d0, d1, -, U2, X2, lo2, Y2, n2, d3, -⟩ :=
        delete_entry_merge_prv_spec hs hm h0 h1 hmin hprv hP hpk
      obtain ⟨r, t1, k1, k2⟩ := ientry_loop_stat stk1 d3
      have hb8 := ((keep_entry_merge d0).trans_keep (keep_node_delete d1)).1
      rw [d0]
      refine ⟨r, t1, ?_, fun h => ?_⟩
      · simp only [Option.some_bind, Bool.true_eq_false, if_false, d1]
        exact k1
      · rcases k2 h with k | k
        · exact Or.inl (k.trans hb8)
        · exact Or.inr (k.rebase hb8)

theorem bpt_delete_stat {cmp : bpt_t → bpt_t → Int} (hc : cmp_total cmp) {s : State}
    (hw : WF cmp s) (hno : s.alloc = []) (e : bpt_entry) (pred : bpt_t → bpt_t → Int)
    {bld : bpt_build} {stk0 : stk_obj} {b : Bool}
    {r : bpt_result} {t : State} (hrun0 : bpt_delete bld e cmp pred stk0 b s = some (r, t))
    (hr : r ≠ BPT_ERROR) : t.bstat = s.bstat ∨ Collapse s t := by
  have hrun := delete_returned hno hrun0
  obtain ⟨leaf, stk, U, X, lo, Y, hd, hs, -, -, -⟩ := descend_at_leaf hc hw e.key
  obtain ⟨l0, lb, n, hm, hn0, hn1, hn2, -, -, -, -⟩ := hs.node
  have hfind : leaf_find cmp e.key s leaf =
      some (scan_eq cmp e.key n.entries n.nkey n.nkey.toNat 0) := by
    unfold leaf_find
    rw [rd_of_ne l0, hm]
    simp only [hn0, hn2, and_self, if_true]
  unfold bpt_delete bpt_searchr at hrun
  simp only [journal_reset_nil hno, if_true,
    hd bld _ (journal_stk_frames bld _ true) (fits_self bld s.bstat.height), hfind] at hrun
  rcases scan_eq_spec cmp e.key n.entries n.nkey n.nkey.toNat 0 (le_refl _)
    (by rw [Int.toNat_of_nonneg hn0]; omega) with ⟨r1, r2⟩ | ⟨r1, r2, r3, r4⟩
  · rw [r1] at hrun
    simp only [if_true, l0, if_false, Option.some.injEq, Prod.mk.injEq] at hrun
    exact Or.inl (by rw [← hrun.2])
  · obtain ⟨i, hi⟩ : ∃ i, scan_eq cmp e.key n.entries n.nkey n.nkey.toNat 0 = i := ⟨_, rfl⟩
    rw [hi] at r1 r2 r3 r4 hrun
    have hne : ¬ i = -1 := by omega
    simp only [hne, if_false, get_entry_eq l0 hm r1 (by omega)] at hrun
    by_cases hpred : pred e.val (n.entries i).val ≠ 0
    · rw [if_pos hpred] at hrun
      obtain ⟨r', t', g1, g2⟩ := delete_entry_stat hs hm r1 r2
      rw [hrun] at g1
      simp only [Option.some.injEq, Prod.mk.injEq] at g1
      obtain ⟨rfl, rfl⟩ := g1
      exact g2 hr
    · rw [if_neg hpred] at hrun
      simp only [Option.some.injEq, Prod.mk.injEq] at hrun
      exact Or.inl (by rw [← hrun.2])

theorem tree_e_reach : Reachable cmp_word tree_e ∧ tree_e.alloc = [] :=
  tree_of_reach (by decide) _ (by decide!)

/-- The height after `bpt_delete`, for a call whose journal fits the
stack. -/
theorem root_collapse_fit {cmp : bpt_t → bpt_t → Int} (hc : cmp_total cmp) {s : State}
    (h : Reachable cmp s) (hno : s.alloc = []) (e : bpt_entry) (pred : bpt_t → bpt_t → Int)
    {bld : bpt_build} {stk0 : stk_obj} {b : Bool} (hfit : Fits bld stk0 b s.bstat.height) :
    ∃ r t, bpt_delete bld e cmp pred stk0 b s = some (r, t) ∧ r ≠ BPT_ERROR ∧
      (t.bstat = s.bstat ∨
        (r = BPT_PRED_SUCCESS ∧
          (∃ (s1 : State) (off : Int) (R : bpt_node),
            s1.bstat = s.bstat ∧ s1.mem s.bstat.root_node = some R ∧ R.nkey = 1 ∧
            0 ≤ off ∧ off ≤ 1 ∧
            bpt_delete_ientry [⟨s.bstat.root_node, off⟩] s1 = some (BPT_PRED_SUCCESS, t) ∧
            t.bstat.root_node = (R.entries (if off = 0 then 1 else 0)).val ∧
            (if off = 0 then (1 : Int) else 0) = 1 - off ∧
            t.mem s.bstat.root_node = none ∧
            ∀ a, a ≠ s.bstat.root_node → t.mem a = s1.mem a) ∧
          t.bstat.height = s.bstat.height - 1 ∧ t.bstat.order = s.bstat.order ∧
          ∀ es, leaves_read s es → ∃ A x B, es = A ++ x :: B ∧ x.key = e.key ∧
            leaves_read t (A ++ B) ∧
            ∀ y ∈ A ++ B, ∃ i leaf, bpt_search y.key cmp t = some (i, some leaf) ∧ 0 ≤ i)) := by
  have hw := reachable_wf hc h
  obtain ⟨r, t, s1, hrun, -, hs1, -, herr, hok⟩ := bpt_delete_spec hc hw e pred hfit
  have e1 : s = s1 := (hs1 hno).symm
  subst e1
  have hr : r ≠ BPT_ERROR := fun h0 => herr h0 hno
  obtain ⟨hwt, hspec⟩ := hok hr
  refine ⟨r, t, hrun, hr, ?_⟩
  rcases hspec with ⟨-, -, ht⟩ | ⟨hr2, A, x, B, hA, hx, -, hB⟩ | ⟨-, x, -, -, -, ht⟩
  · exact Or.inl (by rw [ht])
  · rcases bpt_delete_stat hc hw hno e pred hrun hr with k | k
    · exact Or.inl k
    · right
      obtain ⟨s1, off, R, c1, c2, c3, c4, c5, c6, c7, c8, c9⟩ := k
      refine ⟨hr2, ⟨s1, off, R, c1, c2, c3, c4, c5, c6, by rw [c7],
        by split_ifs <;> omega, c8, c9⟩, by rw [c7], by rw [c7], ?_⟩
      intro es hes
      have hE := leaves_read_unique hw hes
      subst hE
      refine ⟨A, x, B, hA, hx, ?_, ?_⟩
      · rw [← hB]; exact hwt.reads_leaves
      · intro y hy
        obtain ⟨leaf, n, -, -, -, hcase⟩ := search_spec hc hwt y.key
        rcases hcase with ⟨i, q1, q2, -⟩ | ⟨-, q⟩
        · exact ⟨i, leaf, q1, q2⟩
        · exact absurd rfl (q y (by rw [hB]; exact hy))
  · exact Or.inl (by rw [ht])

/-- Claim C29, for a call that has returned: for every reachable tree, if no allocation fails, `bpt_delete`
returns without `BPT_ERROR`, and either the descriptor of the tree, its height
included, is what it was, or the result is `BPT_PRED_SUCCESS` and the root
collapsed: `bpt_delete_ientry` processed the root frame `(root, off)`, `off`
being `0` or `1`, in a state `s1` in which the root `R` held exactly one key;
the new root is the child of `R` at slot `1` when `off = 0` and at slot `0`
otherwise, that is at slot `1 - off`; the old root is released and no other
node is touched by that round, so the surviving child is the node that
already held everything that remains; the height is one less; and every
entry read along the leaf chain before the call except the deleted one is
read along the chain afterwards and found by `bpt_search` from the new
root. -/
theorem root_collapse {cmp : bpt_t → bpt_t → Int} (hc : cmp_total cmp) {s : State}
    (h : Reachable cmp s) (hno : s.alloc = []) (e : bpt_entry) (pred : bpt_t → bpt_t → Int)
    (bld : bpt_build) (stk0 : stk_obj) (b : Bool) :
    (Fits bld stk0 b s.bstat.height →
      ∃ r t, bpt_delete bld e cmp pred stk0 b s = some (r, t) ∧ r ≠ BPT_ERROR) ∧
    ∀ r t, bpt_delete bld e cmp pred stk0 b s = some (r, t) → r ≠ BPT_ERROR ∧
      (t.bstat = s.bstat ∨
        (r = BPT_PRED_SUCCESS ∧
          (∃ (s1 : State) (off : Int) (R : bpt_node),
            s1.bstat = s.bstat ∧ s1.mem s.bstat.root_node = some R ∧ R.nkey = 1 ∧
            0 ≤ off ∧ off ≤ 1 ∧
            bpt_delete_ientry [⟨s.bstat.root_node, off⟩] s1 = some (BPT_PRED_SUCCESS, t) ∧
            t.bstat.root_node = (R.entries (if off = 0 then 1 else 0)).val ∧
            (if off = 0 then (1 : Int) else 0) = 1 - off ∧
            t.mem s.bstat.root_node = none ∧
            ∀ a, a ≠ s.bstat.root_node → t.mem a = s1.mem a) ∧
          t.bstat.height = s.bstat.height - 1 ∧ t.bstat.order = s.bstat.order ∧
          ∀ es, leaves_read s es → ∃ A x B, es = A ++ x :: B ∧ x.key = e.key ∧
            leaves_read t (A ++ B) ∧
            ∀ y ∈ A ++ B, ∃ i leaf, bpt_search y.key cmp t = some (i, some leaf) ∧ 0 ≤ i)) := by
  constructor
  · intro hfit
    obtain ⟨r, t, hrun, hr, -⟩ := root_collapse_fit hc h hno e pred hfit
    exact ⟨r, t, hrun, hr⟩
  · intro r t hrun
    have hrun1 := delete_returned hno hrun
    obtain ⟨r2, t2, h2, q⟩ := root_collapse_fit hc h hno e pred (fits_self bld s.bstat.height)
    rw [h2] at hrun1
    simp only [Option.some.injEq, Prod.mk.injEq] at hrun1
    obtain ⟨r1, r3⟩ := hrun1
    subst r1 r3
    exact q

theorem root_collapse_witness :
    cmp_total cmp_word ∧ Reachable cmp_word tree_e ∧ tree_e.alloc = [] ∧
    bpt_node_nkey tree_e tree_e.bstat.root_node = some 1 ∧ tree_e.bstat.height = 1 ∧
    (get_entry tree_e tree_e.bstat.root_node 0).map (·.val) = some 1 ∧
    (bpt_delete build_8 ⟨4, 4⟩ cmp_word bpt_pred_1 stk_1 true tree_e).map
      (fun r => (r.1, r.2.bstat.height, r.2.bstat.root_node)) =
        some (BPT_PRED_SUCCESS, 0, 1) ∧
    ∃ r t, bpt_delete build_8 ⟨4, 4⟩ cmp_word bpt_pred_1 stk_1 true tree_e = some (r, t) ∧
      r ≠ BPT_ERROR ∧
      (t.bstat = tree_e.bstat ∨
        (r = BPT_PRED_SUCCESS ∧ t.bstat.height = tree_e.bstat.height - 1)) := by
  have h := @root_collapse cmp_word cmp_word_total tree_e tree_e_reach.1 tree_e_reach.2 ⟨4, 4⟩
      bpt_pred_1 build_8 stk_1 true
  obtain ⟨r, t, h1, h2⟩ := h.1 (by decide!)
  obtain ⟨-, h3⟩ := h.2 r t h1
  refine ⟨cmp_word_total, tree_e_reach.1, tree_e_reach.2, by decide!, by decide!, by decide!,
    by decide!, r, t, h1, h2, ?_⟩
  rcases h3 with h3 | ⟨h3, -, h4, -⟩
  · exact Or.inl h3
  · exact Or.inr ⟨h3, h4⟩

/-! ## The separator lookups -/

theorem mid_prv_topmost : ∀ (stk : gen_stk), mid_between_prv stk = topmost_prv stk := by
  intro stk
  induction stk with
  | nil => rfl
  | cons f r ih =>
    unfold topmost_prv at ih ⊢
    simp only [mid_between_prv, List.find?]
    by_cases h : f.offset = 0
    · simp only [h, ne_eq, not_true_eq_false, if_false, decide_False]
      exact ih
    · simp only [h, ne_eq, not_false_eq_true, if_true, decide_True]

theorem mid_nxt_topmost (s : State) : ∀ (stk : gen_stk) (x : Int × Int),
    mid_between_nxt s stk = some x → x = topmost_nxt s stk := by
  intro stk
  induction stk with
  | nil =>
    intro x h
    simp only [mid_between_nxt, Option.some.injEq] at h
    exact h.symm
  | cons f r ih =>
    intro x h
    unfold topmost_nxt at ih ⊢
    simp only [mid_between_nxt] at h
    cases hk : bpt_node_nkey s f.node with
    | none => rw [hk] at h; cases h
    | some m =>
      rw [hk] at h
      simp only at h
      simp only [List.find?, hk]
      by_cases hm : f.offset = m
      · rw [if_neg (not_not.mpr hm)] at h
        have : decide (some m ≠ some f.offset) = false := by simp [hm]
        simp only [this]
        exact ih x h
      · rw [if_pos hm] at h
        have : decide (some m ≠ some f.offset) = true := by
          simp only [ne_eq, Option.some.injEq, decide_eq_true_eq]
          exact fun h1 => hm h1.symm
        simp only [this]
        exact (Option.some.inj h).symm

theorem mid_prv_found_iff : ∀ (stk : gen_stk),
    (mid_between_prv stk).1 = -1 ↔ ∀ f ∈ stk, f.offset = 0 := by
  intro stk
  induction stk with
  | nil => simp [mid_between_prv]
  | cons f r ih =>
    simp only [mid_between_prv, List.mem_cons, forall_eq_or_imp]
    by_cases h : f.offset = 0
    · rw [if_neg (not_not.mpr h), ih]
      exact ⟨fun h1 => ⟨h, h1⟩, fun h1 => h1.2⟩
    · rw [if_pos h]
      simp only
      exact ⟨fun h1 => absurd (by omega) h, fun h1 => absurd h1.1 h⟩

theorem mid_nxt_null_iff (s : State) : ∀ (stk : gen_stk) (x : Int × Int),
    mid_between_nxt s stk = some x →
      (x.2 = 0 ↔ ∀ f ∈ stk, bpt_node_nkey s f.node = some f.offset) := by
  intro stk
  induction stk with
  | nil =>
    intro x h
    simp only [mid_between_nxt, Option.some.injEq] at h
    subst h
    simp
  | cons f r ih =>
    intro x h
    simp only [mid_between_nxt] at h
    simp only [List.mem_cons, forall_eq_or_imp]
    cases hk : bpt_node_nkey s f.node with
    | none => rw [hk] at h; cases h
    | some m =>
      rw [hk] at h
      simp only at h
      by_cases hm : f.offset = m
      · rw [if_neg (not_not.mpr hm)] at h
        rw [ih x h, hm]
        exact ⟨fun h1 => ⟨rfl, h1⟩, fun h1 => h1.2⟩
      · rw [if_pos hm] at h
        have hx := Option.some.inj h
        subst hx
        simp only [Option.some.injEq]
        refine ⟨fun h1 => ?_, fun h1 => absurd h1.1.symm hm⟩
        rw [h1, nkey_null] at hk
        cases hk

theorem mid_nxt_found {s : State} {stk : gen_stk} {x : Int × Int}
    (h : mid_between_nxt s stk = some x) (hx : x.1 ≠ -1) : NxtFound s stk := by
  induction stk with
  | nil =>
    simp only [mid_between_nxt, Option.some.injEq] at h
    subst h
    exact absurd rfl hx
  | cons f r ih =>
    simp only [mid_between_nxt] at h
    cases hk : bpt_node_nkey s f.node with
    | none => rw [hk] at h; cases h
    | some m =>
      rw [hk] at h
      simp only at h
      by_cases hm : f.offset = m
      · rw [if_neg (not_not.mpr hm)] at h
        obtain ⟨g, hg, q⟩ := ih h
        exact ⟨g, List.mem_cons_of_mem _ hg, q⟩
      · exact ⟨f, List.mem_cons_self _ _, m, hk, hm⟩

theorem mid_prv_found {stk : gen_stk} (h : (mid_between_prv stk).1 ≠ -1) : PrvFound stk := by
  by_contra hc
  apply h
  rw [mid_prv_found_iff]
  intro f hf
  by_contra h0
  exact hc ⟨f, hf, h0⟩

theorem mid_nxt_off_iff (s : State) : ∀ (stk : gen_stk) (x : Int × Int),
    mid_between_nxt s stk = some x → (∀ f ∈ stk, f.offset ≠ -1) → (x.1 = -1 ↔ x.2 = 0) := by
  intro stk
  induction stk with
  | nil =>
    intro x h _
    simp only [mid_between_nxt, Option.some.injEq] at h
    subst h
    simp
  | cons f r ih =>
    intro x h hoff
    simp only [mid_between_nxt] at h
    cases hk : bpt_node_nkey s f.node with
    | none => rw [hk] at h; cases h
    | some m =>
      rw [hk] at h
      simp only at h
      by_cases hm : f.offset = m
      · rw [if_neg (not_not.mpr hm)] at h
        exact ih x h fun g hg => hoff g (List.mem_cons_of_mem _ hg)
      · rw [if_pos hm] at h
        have hx := Option.some.inj h
        subst hx
        simp only
        refine ⟨fun h1 => absurd h1 (hoff f (List.mem_cons_self _ _)), fun h1 => ?_⟩
        rw [h1, nkey_null] at hk
        cases hk

/-- Claim C34: on every journal `stk`, over a fixed state `s`,
`mid_between_prv_nxt` yields the previous-side pair that `mid_between_prv`
yields on `stk` and the next-side pair that `mid_between_nxt` yields on `stk`
(and it is defined exactly when `mid_between_nxt` is); these are the pair
`(offset - 1, node)` of the topmost frame with `offset != 0` and the pair
`(offset, node)` of the topmost frame with `offset != nkey`; the previous side
reports `-1` exactly when no frame has `offset != 0`, the next side reports
the null node exactly when every frame has `offset == nkey`, and, no frame
having the offset `-1`, it reports the offset `-1` exactly then. -/
theorem mid_prv_nxt_refines (s : State) (stk : gen_stk) :
    mid_between_prv_nxt s stk =
      (mid_between_nxt s stk).map (fun x => (mid_between_prv stk, x)) ∧
    mid_between_prv stk = topmost_prv stk ∧
    (∀ x, mid_between_nxt s stk = some x → x = topmost_nxt s stk) ∧
    ((mid_between_prv stk).1 = -1 ↔ ∀ f ∈ stk, f.offset = 0) ∧
    (∀ x, mid_between_nxt s stk = some x →
      (x.2 = 0 ↔ ∀ f ∈ stk, bpt_node_nkey s f.node = some f.offset)) ∧
    ((∀ f ∈ stk, f.offset ≠ -1) → ∀ x, mid_between_nxt s stk = some x →
      (x.1 = -1 ↔ ∀ f ∈ stk, bpt_node_nkey s f.node = some f.offset)) := by
  refine ⟨mid_prv_nxt_eq s stk, mid_prv_topmost stk, mid_nxt_topmost s stk,
    mid_prv_found_iff stk, mid_nxt_null_iff s stk, fun hoff x hx => ?_⟩
  rw [mid_nxt_off_iff s stk x hx hoff]
  exact mid_nxt_null_iff s stk x hx

theorem mid_prv_nxt_refines_witness :
    (∀ f ∈ journal_e, f.offset ≠ -1) ∧
    mid_between_prv_nxt tree_e journal_e = some ((0, 3), (0, 3)) ∧
    (mid_between_nxt tree_e journal_e).map (fun x => (mid_between_prv journal_e, x)) =
      some ((0, 3), (0, 3)) ∧
    ∀ x, mid_between_nxt tree_e journal_e = some x →
      (x.1 = -1 ↔ ∀ f ∈ journal_e, bpt_node_nkey tree_e f.node = some f.offset) :=
  ⟨by decide, by decide!, by decide!,
    (mid_prv_nxt_refines tree_e journal_e).2.2.2.2.2 (by decide)⟩

/-! ## The insertion position in the branch that pushes to the previous leaf -/

theorem scan_of_absent {cmp : bpt_t → bpt_t → Int} {s : State} {stk : gen_stk}
    {U : List Int} {X Y : List Item} {lo : Option bpt_t} {leaf : Int} {e : bpt_entry}
    {n : bpt_node} (pred : bpt_t → bpt_t → Int)
    (hs : LeafSit cmp s stk U X lo leaf Y e.key) (hm : s.mem leaf = some n)
    (habs : ∀ x ∈ tree_entries s, x.key ≠ e.key) (hfull : n.nkey = s.bstat.order) :
    (leaf_scan cmp e.key n.entries n.nkey n.nkey.toNat 0).2 = false ∧
      Miss cmp e.key n (leaf_scan cmp e.key n.entries n.nkey n.nkey.toNat 0).1 ∧
      leaf_insert e cmp pred leaf stk s =
        leaf_insert_full s e leaf (leaf_scan cmp e.key n.entries n.nkey n.nkey.toNat 0).1 n
          stk := by
  obtain ⟨l0, lb, n1, hm1, hn0, hn1, hn2, -⟩ := hs.node
  rw [hm] at hm1; cases Option.some.inj hm1
  by_cases hit : (leaf_scan cmp e.key n.entries n.nkey n.nkey.toNat 0).2 = true
  · obtain ⟨o0, o1, ok⟩ := leaf_scan_hit hs.hc e.key n hn0 hit
    have hent := hs.entries_at hm o0 o1
    exact absurd ok (habs _ (by rw [hent]; simp))
  · have hmiss : (leaf_scan cmp e.key n.entries n.nkey n.nkey.toNat 0).2 = false := by
      simpa using hit
    refine ⟨hmiss, leaf_scan_miss hs.hc e.key n hn0 hmiss, ?_⟩
    unfold leaf_insert
    simp only [rd_of_ne l0, hm, hmiss]
    rw [if_neg (by simp only [not_not]; exact ⟨hn0, hn2⟩), if_neg (by simp),
      if_neg (by omega)]

/-- A key that descends to a leaf with a previous sibling is not below the
first key of that leaf. -/
theorem descends_above_min {cmp : bpt_t → bpt_t → Int} (hc : cmp_total cmp) {s : State}
    (hw : WF cmp s) (k : bpt_t) {leaf : Int} {n : bpt_node}
    (hleaf : search_descend cmp k s s.bstat.height s.bstat.root_node = some leaf)
    (hn : rd s leaf = some n) (hprv : n.prv ≠ 0) :
    0 < n.nkey ∧ ¬ cmp k (n.entries 0).key < 0 := by
  obtain ⟨leaf0, stk, U, X, lo, Y, hd, hs, hsd2, -, -⟩ := descend_at_leaf hc hw k
  rw [hleaf] at hsd2
  cases Option.some.inj hsd2
  obtain ⟨l0, lb, n1, hm, hn0, hn1, hn2, -⟩ := hs.node
  have hm2 : rd s leaf = some n1 := by rw [rd_of_ne l0]; exact hm
  rw [hn] at hm2
  cases Option.some.inj hm2
  have hX : X ≠ [] := fun hX => hprv ((prev_facts hs.ok.1 hm).1.mpr hX)
  obtain ⟨l, hlo⟩ := Sep.left_last hs.ctx.sep hX
  obtain ⟨n2, hm3, hpos, hk⟩ := hs.ok.2.2 (lo, leaf) (by simp) l hlo
  rw [hm] at hm3
  cases Option.some.inj hm3
  refine ⟨hpos, ?_⟩
  rw [hk]
  exact hs.bd.1 l hlo

theorem tree_c_leaves : leaves_read tree_c (tree_entries tree_c) :=
  (reachable_wf cmp_word_total tree_c_reach.1).reads_leaves

/-- Claim C31: in every reachable tree a key that descends to a leaf with a
previous sibling is never smaller than the first key of that leaf; and for an
absent key whose target leaf is full while the previous sibling exists with
room, the scan of `leaf_insert` ends without a hit at an insertion position
`off` with `1 ≤ off ≤ order`, so that in the branch pushing to the previous
sibling, run with the journal that the descent hands over on every stack with
room, the `memmove` of `off - 1` entries and the write to slot `off - 1` of the
leaf are defined and `leaf_insert_prv` returns; when no allocation fails,
`bpt_insert` returns `BPT_NEXIST` with that state if the journal fits the
stack, and it returns nothing else on any stack. -/
theorem prv_branch_offset {cmp : bpt_t → bpt_t → Int} (hc : cmp_total cmp) {s : State}
    (h : Reachable cmp s) :
    (∀ (k : bpt_t) (leaf : Int) (n : bpt_node),
      search_descend cmp k s s.bstat.height s.bstat.root_node = some leaf →
      rd s leaf = some n → n.prv ≠ 0 → 0 < n.nkey ∧ ¬ cmp k (n.entries 0).key < 0) ∧
    (∀ (e : bpt_entry) (pred : bpt_t → bpt_t → Int)
      (leaf prv pk : Int) (es : List bpt_entry),
      leaves_read s es → e.key ∉ es.map (·.key) →
      search_descend cmp e.key s s.bstat.height s.bstat.root_node = some leaf →
      bpt_node_nkey s leaf = some s.bstat.order →
      bpt_node_prv s leaf = some prv → prv ≠ 0 →
      bpt_node_nkey s prv = some pk → pk < s.bstat.order →
      ∃ n off stk s1 s2 s3 t, rd s leaf = some n ∧
        leaf_scan cmp e.key n.entries n.nkey n.nkey.toNat 0 = (off, false) ∧
        1 ≤ off ∧ off ≤ s.bstat.order ∧
        set_entry s prv pk (n.entries 0) = some s1 ∧
        memmove s1 leaf 0 leaf 1 (off - 1) = some s2 ∧
        set_entry s2 leaf (off - 1) e = some s3 ∧
        leaf_insert_prv s e leaf off prv pk stk = some t ∧
        (∀ (bld : bpt_build) (obj : stk_obj), obj.frames = [] → Room bld obj s.bstat.height →
          journal_descend bld cmp e.key s.bstat.height s s.bstat.root_node obj =
            some (some (leaf, { obj with frames := stk }), s)) ∧
        (s.alloc = [] → ∀ (bld : bpt_build) (stk0 : stk_obj) (b : Bool),
          (Fits bld stk0 b s.bstat.height →
            bpt_insert bld e cmp pred stk0 b s = some (BPT_NEXIST, t)) ∧
          ∀ r t2, bpt_insert bld e cmp pred stk0 b s = some (r, t2) →
            r = BPT_NEXIST ∧ t2 = t)) := by
  have hw := reachable_wf hc h
  refine ⟨fun k leaf n h1 h2 h3 => descends_above_min hc hw k h1 h2 h3, ?_⟩
  intro e pred leaf prv pk es hes habs hleaf hfull hprv hp0 hpk hroom
  have hE := leaves_read_unique hw hes
  subst hE
  have habs2 : ∀ x ∈ tree_entries s, x.key ≠ e.key :=
    fun x hx hk => habs (List.mem_map.mpr ⟨x, hx, hk⟩)
  obtain ⟨leaf0, stk, U, X, lo, Y, hd, hs, hsd, -, -⟩ := descend_at_leaf hc hw e.key
  rw [hleaf] at hsd
  cases Option.some.inj hsd
  obtain ⟨l0, lb, n, hm, hn0, hn1, hn2, -⟩ := hs.node
  rw [nkey_eq l0 hm] at hfull
  have hnk : n.nkey = s.bstat.order := Option.some.inj hfull
  rw [prv_eq l0 hm] at hprv
  have hnp := Option.some.inj hprv
  subst hnp
  obtain ⟨hmiss, hM, hrun⟩ := scan_of_absent pred hs hm habs2 hnk
  obtain ⟨X0, lp, hX, q0, qb, np, hnp, hk0, hk1, hk2⟩ := (prev_facts hs.ok.1 hm).2 hp0
  subst hX
  rw [nkey_eq hp0 hnp] at hpk
  cases Option.some.inj hpk
  have hoff := hM.off_pos hs hm (by simp)
  obtain ⟨t1, Q, L, g1, -⟩ := leaf_insert_prv_run hs hm hnp hM hnk hroom
  have g0 := g1
  unfold leaf_insert_prv at g0
  simp only [Option.bind_eq_bind, Option.bind_eq_some] at g0
  obtain ⟨e0, he0, s1, h1, s2, h2, s3, h3, -⟩ := g0
  rw [get_entry_eq l0 hm (le_refl _) (by omega)] at he0
  cases Option.some.inj he0
  have hfitrun : ∀ (bld : bpt_build) (stk0 : stk_obj) (b : Bool), s.alloc = [] →
      Fits bld stk0 b s.bstat.height →
      bpt_insert bld e cmp pred stk0 b s = some (BPT_NEXIST, t1) := by
    intro bld stk0 b hno hfit
    rw [insert_at_leaf hno e pred hfit hd, hrun,
      full_eval_prv hp0 (nkey_eq hp0 hnp) (by omega), g1]
    rfl
  refine ⟨n, _, stk, s1, s2, s3, t1, by rw [rd_of_ne l0]; exact hm, Prod.ext rfl hmiss, hoff,
    by rw [← hnk]; exact hM.2.1, h1, h2, h3, g1, hd, ?_⟩
  intro hno bld stk0 b
  refine ⟨hfitrun bld stk0 b hno, ?_⟩
  intro r t2 hrun2
  have hrun1 := insert_returned hno hrun2
  rw [hfitrun bld _ true hno (fits_self bld s.bstat.height)] at hrun1
  simp only [Option.some.injEq, Prod.mk.injEq] at hrun1
  exact ⟨hrun1.1.symm, hrun1.2.symm⟩

theorem prv_branch_offset_witness :
    cmp_total cmp_word ∧ Reachable cmp_word tree_c ∧
    (∀ (k : bpt_t) (leaf : Int) (n : bpt_node),
      search_descend cmp_word k tree_c tree_c.bstat.height tree_c.bstat.root_node =
        some leaf →
      rd tree_c leaf = some n → n.prv ≠ 0 → 0 < n.nkey ∧ ¬ cmp_word k (n.entries 0).key < 0) ∧
    ∃ n off stk s1 s2 s3 t, rd tree_c 2 = some n ∧
      leaf_scan cmp_word 6 n.entries n.nkey n.nkey.toNat 0 = (off, false) ∧
      1 ≤ off ∧ off ≤ tree_c.bstat.order ∧
      set_entry tree_c 1 2 (n.entries 0) = some s1 ∧
      memmove s1 2 0 2 1 (off - 1) = some s2 ∧
      set_entry s2 2 (off - 1) ⟨6, 6⟩ = some s3 ∧
      leaf_insert_prv tree_c ⟨6, 6⟩ 2 off 1 2 stk = some t ∧
      bpt_insert build_8 ⟨6, 6⟩ cmp_word bpt_pred_1 stk_1 true tree_c = some (BPT_NEXIST, t) := by
  obtain ⟨n, off, stk, s1, s2, s3, t, a1, a2, a3, a4, a5, a6, a7, a8, -, a10⟩ :=
    (@prv_branch_offset cmp_word cmp_word_total tree_c tree_c_reach.1).2
      ⟨6, 6⟩ bpt_pred_1 2 1 2 (tree_entries tree_c) tree_c_leaves (by decide!)
      (by decide!) (by decide!) (by decide!) (by decide) (by decide!) (by decide!)
  exact ⟨cmp_word_total, tree_c_reach.1,
    (@prv_branch_offset cmp_word cmp_word_total tree_c tree_c_reach.1).1,
    n, off, stk, s1, s2, s3, t, a1, a2, a3, a4, a5, a6, a7, a8,
    (a10 tree_c_reach.2 build_8 stk_1 true).1 (by decide!)⟩

/-! ## The lookups that are used are found -/

theorem inv_bind {α β : Type} {P : Prop} {r : β} {f : Option α} {g : α → Option β}
    (hg : ∀ x, f = some x → g x = some r → P) : f.bind g = some r → P := by
  intro h
  obtain ⟨y, h1, h2⟩ := Option.bind_eq_some.mp h
  exact hg y h1 h2

theorem set_key_slot {s t : State} {a i : Int} {k : bpt_t} (h : set_key s a i k = some t) :
    i ≠ -1 := by
  unfold set_key at h
  cases h1 : rd s a with
  | none => rw [h1] at h; cases h
  | some n =>
    rw [h1] at h
    simp only at h
    by_cases c : slot_ok s i
    · intro hi
      rw [hi] at c
      exact absurd c.1 (by decide)
    · rw [if_neg c] at h
      cases h

theorem pn_split {s : State} {stk : gen_stk} {pn : (Int × Int) × (Int × Int)}
    (h : mid_between_prv_nxt s stk = some pn) :
    mid_between_nxt s stk = some pn.2 ∧ pn.1 = mid_between_prv stk := by
  rw [mid_prv_nxt_eq] at h
  obtain ⟨x, hx, rfl⟩ := Option.map_eq_some'.mp h
  exact ⟨hx, rfl⟩

theorem pn_nxt_found {s : State} {stk : gen_stk} {pn : (Int × Int) × (Int × Int)}
    (h : mid_between_prv_nxt s stk = some pn) (hx : pn.2.1 ≠ -1) : NxtFound s stk :=
  mid_nxt_found (pn_split h).1 hx

theorem pn_prv_found {s : State} {stk : gen_stk} {pn : (Int × Int) × (Int × Int)}
    (h : mid_between_prv_nxt s stk = some pn) (hx : pn.1.1 ≠ -1) : PrvFound stk :=
  mid_prv_found (by rw [← (pn_split h).2]; exact hx)

theorem copy_journal {s t0 : State} {stk tmp : gen_stk}
    (h : gen_stk_copy s stk = (some tmp, t0)) : tmp = stk := by
  unfold gen_stk_copy at h
  rcases Bool.eq_false_or_eq_true (alloc_request s).1 with c | c <;>
    simp only [c, if_true, Bool.false_eq_true, if_false, Prod.mk.injEq, Option.some.injEq] at h
  · exact h.1.symm
  · exact absurd h.1 (by simp)

theorem site_leaf_insert_nxt {s t : State} {e : bpt_entry} {leaf off nxt i : Int}
    {stk : gen_stk} (h : leaf_insert_nxt s e leaf off nxt i stk = some t) :
    ∃ z, NxtFound z stk := by
  unfold leaf_insert_nxt at h
  simp only [Option.bind_eq_bind, Option.some_bind, Option.none_bind] at h
  revert h
  repeat' first
    | (intro h; cases h)
    | exact fun _ => ⟨_, mid_nxt_found (by assumption) (by assumption)⟩
    | refine inv_bind (fun x hx => ?_)
    | refine keep_ite (fun _ => ?_) (fun _ => ?_)

theorem site_ientry_prv {s t : State} {frm : bpt_frm} {prv k : Int} {stk : gen_stk}
    (h : delete_ientry_prv s frm prv k stk = some t) : PrvFound stk := by
  unfold delete_ientry_prv at h
  simp only [Option.bind_eq_bind, Option.some_bind, Option.none_bind] at h
  revert h
  exact keep_ite (fun _ h => by cases h) (fun c _ => mid_prv_found c)

theorem site_ientry_nxt {s t : State} {frm : bpt_frm} {nxt k : Int} {stk : gen_stk}
    (h : delete_ientry_nxt s frm nxt k stk = some t) : NxtFound s stk := by
  unfold delete_ientry_nxt at h
  simp only [Option.bind_eq_bind, Option.some_bind, Option.none_bind] at h
  revert h
  repeat' first
    | (intro h; cases h)
    | exact fun _ => mid_nxt_found (by assumption) (by assumption)
    | exact fun _ => pn_nxt_found (by assumption) (by assumption)
    | refine inv_bind (fun x hx => ?_)
    | refine keep_ite (fun _ => ?_) (fun _ => ?_)

theorem site_entry_nxt {s t : State} {leaf off prv nxt k : Int} {stk : gen_stk}
    (h : delete_entry_nxt s leaf off prv nxt k stk = some t) :
    (∃ z, NxtFound z stk) ∧ (¬ (off ≠ 0 ∨ prv = 0) → PrvFound stk) := by
  unfold delete_entry_nxt at h
  simp only [Option.bind_eq_bind, Option.some_bind, Option.none_bind] at h
  revert h
  repeat' first
    | (intro h; cases h)
    | exact fun h => ⟨⟨_, mid_nxt_found (by assumption) (set_key_slot h)⟩,
        fun hn => absurd (by assumption) hn⟩
    | exact fun h => ⟨⟨_, pn_nxt_found (by assumption) (set_key_slot h)⟩,
        fun _ => pn_prv_found (by assumption) (set_key_slot (by assumption))⟩
    | refine inv_bind (fun x hx => ?_)
    | refine keep_ite (fun _ => ?_) (fun _ => ?_)

theorem site_entry_merge {s : State} {r : Bool × State} {leaf off nxt : Int} {stk : gen_stk}
    (h : delete_entry_merge s leaf off 0 nxt stk = some r) :
    stk ≠ [] ∧ (r.1 = true → ∃ z, NxtFound z stk) := by
  unfold delete_entry_merge at h
  simp only [Option.bind_eq_bind, Option.some_bind, Option.none_bind, ne_eq,
    not_true_eq_false, if_false] at h
  revert h
  refine inv_bind (fun s1 _ => ?_)
  refine inv_bind (fun s2 _ => ?_)
  refine inv_bind (fun s3 _ => ?_)
  refine keep_ite (fun _ h => by cases h) (fun hne => ?_)
  have hstk : stk ≠ [] := by
    intro h0
    rw [h0] at hne
    exact hne rfl
  intro h
  refine ⟨hstk, ?_⟩
  split at h
  · cases Option.some.inj h
    intro h1
    cases h1
  · rename_i tmp t0 hq
    have e1 := copy_journal hq
    subst e1
    intro _
    revert h
    refine inv_bind (fun mid hmid => ?_)
    refine keep_ite (fun _ h => by cases h) (fun c _ => ⟨_, mid_nxt_found hmid c⟩)

theorem site_ientry_merge_nxt {s : State} {r : Bool × State} {frm parent : bpt_frm}
    {prv nxt : Int} {stk : gen_stk}
    (h : delete_ientry_merge_nxt s frm parent prv nxt stk = some r) (hoff : frm.offset = 0)
    (hprv : prv ≠ 0) : stk ≠ [] ∧ (r.1 = true → PrvFound stk) := by
  unfold delete_ientry_merge_nxt at h
  simp only [Option.bind_eq_bind, Option.some_bind, Option.none_bind, hoff, ne_eq,
    not_true_eq_false, if_false, hprv, not_false_eq_true, if_true] at h
  revert h
  refine keep_ite (fun _ h => by cases h) (fun hne => ?_)
  have hstk : stk ≠ [] := by
    intro h0
    rw [h0] at hne
    exact hne rfl
  intro h
  refine ⟨hstk, ?_⟩
  split at h
  · cases Option.some.inj h
    intro h1
    cases h1
  · rename_i tmp t0 hq
    have e1 := copy_journal hq
    subst e1
    intro _
    revert h
    exact keep_ite (fun _ h => by cases h) (fun c _ => mid_prv_found c)

theorem gen_stk_store_ok {bld : bpt_build} {stk o : stk_obj} {frm : bpt_frm}
    (h : gen_stk_store bld stk frm = some o) :
    o.uni_siz = bld.sizeof_bpt_frm ∧ o.frames.length * o.uni_siz ≤ o.bytes ∧ o.cap = stk.cap ∧
      o.bytes = stk.bytes ∧ o.frames.length = stk.frames.length + 1 := by
  unfold gen_stk_store at h
  split_ifs at h with c
  simp only [Option.some.injEq] at h
  subst h
  exact ⟨c.1, by simpa using c.2, rfl, rfl, by simp⟩

/-- A push that stored the frame leaves the stack in order. -/
theorem gen_stk_push_ok {bld : bpt_build} {s t : State} {stk o : stk_obj} {frm : bpt_frm}
    (hF : 0 < bld.sizeof_bpt_frm) (h : gen_stk_push bld s stk frm = some (some o, t)) :
    StkOK bld o := by
  unfold gen_stk_push at h
  by_cases hg : stk.frames.length ≥ stk.cap
  · simp only [if_pos hg] at h
    by_cases hal : (alloc_request s).1 = true
    · simp only [hal, if_true] at h
      obtain ⟨o1, h1, h2⟩ := Option.map_eq_some'.mp h
      simp only [Prod.mk.injEq, Option.some.injEq] at h2
      obtain ⟨h2, -⟩ := h2
      subst h2
      obtain ⟨a1, a2, a3, a4, a5⟩ := gen_stk_store_ok h1
      refine ⟨a1, ?_, a2⟩
      simp only at a3 a4
      rw [a3, ← a4]
      rw [a1] at a2
      exact le_trans (Nat.le_mul_of_pos_right _ hF) a2
    · have hal1 : (alloc_request s).1 = false := by simpa using hal
      simp only [hal1, Bool.false_eq_true, if_false, Option.some.injEq, Prod.mk.injEq] at h
      exact absurd h.1 (by simp)
  · simp only [if_neg hg] at h
    obtain ⟨o1, h1, h2⟩ := Option.map_eq_some'.mp h
    simp only [Prod.mk.injEq, Option.some.injEq] at h2
    obtain ⟨h2, -⟩ := h2
    subst h2
    obtain ⟨a1, a2, a3, -, a5⟩ := gen_stk_store_ok h1
    exact ⟨a1, by rw [a3, a5]; omega, a2⟩

/-- The stack that the journaled descent returns is in order. -/
theorem journal_valid (bld : bpt_build) (hF : 0 < bld.sizeof_bpt_frm) (cmp : bpt_t → bpt_t → Int)
    (k : bpt_t) : ∀ (d : Nat) (s : State) (a : Int) (obj : stk_obj) (leaf : Int) (o1 : stk_obj)
      (t : State), journal_descend bld cmp k d s a obj = some (some (leaf, o1), t) →
      (d = 0 → StkOK bld obj) → StkOK bld o1 := by
  intro d
  induction d with
  | zero =>
    intro s a obj leaf o1 t h h0
    simp only [journal_descend, Option.some.injEq, Prod.mk.injEq] at h
    rw [← h.1.2]
    exact h0 rfl
  | succ d ih =>
    intro s a obj leaf o1 t h _
    simp only [journal_descend] at h
    cases hcs : choose_slot cmp k s a with
    | none => rw [hcs] at h; simp at h
    | some p =>
      obtain ⟨i, c⟩ := p
      rw [hcs] at h
      simp only at h
      cases hp : gen_stk_push bld s obj ⟨a, i⟩ with
      | none => rw [hp] at h; simp at h
      | some p =>
        obtain ⟨r, s1⟩ := p
        rw [hp] at h
        cases r with
        | none => simp at h
        | some o => exact ih s1 c o leaf o1 t h (fun _ => gen_stk_push_ok hF hp)

/-- On a stack in order a frame is pushed back after two pops without a
request for memory. -/
theorem push_back {bld : bpt_build} {obj : stk_obj} {f g : bpt_frm} {r : gen_stk}
    (hf : obj.frames = f :: g :: r) (hok : StkOK bld obj) (s : State) (frm : bpt_frm) :
    gen_stk_push bld s { obj with frames := r } frm =
      some (some { obj with frames := frm :: r }, s) := by
  obtain ⟨h1, h2, h3⟩ := hok
  rw [hf] at h2 h3
  simp only [List.length_cons] at h2 h3
  have hroom : Room bld { obj with frames := r } (0 + 1) :=
    Or.inr ⟨h1, by simp only; omega, le_trans (Nat.mul_le_mul_right _ (by simp only; omega)) h3⟩
  exact (gen_stk_push_room hroom s frm).1

theorem ientry_round_nil (bld : bpt_build) (s : State) (obj : stk_obj) (hf : obj.frames = []) :
    ientry_round bld s obj = none := by
  unfold ientry_round
  simp only [stk_pop, hf, Option.bind_eq_bind, Option.none_bind]

theorem ientry_round_one (bld : bpt_build) (s : State) (obj : stk_obj) (frm : bpt_frm)
    (hf : obj.frames = [frm]) :
    ientry_round bld s obj =
      (bpt_node_nkey s frm.node).bind fun m =>
        (delete_ientry_root s frm m).map fun s1 => Sum.inl (BPT_PRED_SUCCESS, s1) := by
  unfold ientry_round
  simp only [stk_pop, hf, Option.bind_eq_bind, Option.some_bind, gen_stk_empty,
    List.isEmpty_nil, if_true]
  cases bpt_node_nkey s frm.node with
  | none => rfl
  | some m =>
    simp only [Option.some_bind]
    cases delete_ientry_root s frm m <;> rfl

/-- An iteration on a stack of at least two frames is a round of
`bpt_delete_ientry` followed, when the round goes on, by the push of the
frame of the parent. -/
theorem ientry_round_push (bld : bpt_build) (s : State) (obj : stk_obj) (frm parent : bpt_frm)
    (r : gen_stk) (hf : obj.frames = frm :: parent :: r) :
    ientry_round bld s obj =
      (delete_ientry_step s frm parent r).bind fun v =>
        match v with
        | Sum.inl x => some (Sum.inl x)
        | Sum.inr p =>
          (gen_stk_push bld p.2 { obj with frames := r } p.1).bind fun q =>
            some (Sum.inr (q.1.getD { obj with frames := r }, q.2)) := by
  have ba : ∀ {α β γ : Type} (x : Option α) (f : α → Option β) (g : β → Option γ),
      (x.bind f).bind g = x.bind fun a => (f a).bind g := by
    intro α β γ x f g
    cases x <;> rfl
  have bi : ∀ {α β : Type} (c : Prop) [Decidable c] (x y : Option α) (g : α → Option β),
      (if c then x else y).bind g = if c then x.bind g else y.bind g := by
    intro α β c _ x y g
    split <;> rfl
  unfold ientry_round delete_ientry_step
  simp only [stk_pop, hf, Option.bind_eq_bind, Option.some_bind, gen_stk_empty,
    List.isEmpty_cons, Bool.false_eq_true, if_false, ba, bi]

theorem ientry_round_two (bld : bpt_build) (s : State) (obj : stk_obj) (frm parent : bpt_frm)
    (r : gen_stk) (hf : obj.frames = frm :: parent :: r) (hok : StkOK bld obj) :
    ientry_round bld s obj =
      (delete_ientry_step s frm parent r).map
        (Sum.map id fun p => ({ obj with frames := p.1 :: r }, p.2)) := by
  rw [ientry_round_push bld s obj frm parent r hf]
  cases delete_ientry_step s frm parent r with
  | none => rfl
  | some v =>
    cases v with
    | inl x => rfl
    | inr p =>
      simp only [Option.some_bind, Option.map_some', Sum.map_inr, push_back hf hok,
        Option.getD_some]

/-- An iteration that goes on found at least two frames to pop and leaves
fewer frames; on a stack in order it leaves exactly one frame less, on a stack
in order. -/
theorem ientry_round_net {bld : bpt_build} {s s1 : State} {stk stk1 : stk_obj}
    (h : ientry_round bld s stk = some (Sum.inr (stk1, s1))) :
    2 ≤ stk.frames.length ∧ stk1.frames.length < stk.frames.length ∧
      (StkOK bld stk → stk1.frames.length + 1 = stk.frames.length ∧ StkOK bld stk1) := by
  cases hf : stk.frames with
  | nil => rw [ientry_round_nil bld s stk hf] at h; cases h
  | cons frm r =>
    cases r with
    | nil =>
      rw [ientry_round_one bld s stk frm hf] at h
      obtain ⟨m, -, h2⟩ := Option.bind_eq_some.mp h
      obtain ⟨y, -, h3⟩ := Option.map_eq_some'.mp h2
      cases h3
    | cons parent r2 =>
      refine ⟨by simp, ?_, ?_⟩
      · rw [ientry_round_push bld s stk frm parent r2 hf] at h
        obtain ⟨v, -, h2⟩ := Option.bind_eq_some.mp h
        cases v with
        | inl x => cases h2
        | inr p =>
          simp only at h2
          obtain ⟨q, hq, h3⟩ := Option.bind_eq_some.mp h2
          simp only [Option.some.injEq, Sum.inr.injEq, Prod.mk.injEq] at h3
          obtain ⟨q1, q2⟩ := q
          obtain ⟨-, -, -, p4⟩ := gen_stk_push_inv hq
          rw [← h3.1]
          cases q1 with
          | none => simp only [Option.getD_none, List.length_cons]; omega
          | some o => simp only [Option.getD_some, p4 o rfl, List.length_cons]; omega
      · intro hok
        rw [ientry_round_two bld s stk frm parent r2 hf hok] at h
        obtain ⟨v, -, h2⟩ := Option.map_eq_some'.mp h
        cases v with
        | inl x => cases h2
        | inr p =>
          simp only [Sum.map_inr, Sum.inr.injEq, Prod.mk.injEq] at h2
          rw [← h2.1]
          obtain ⟨a1, a2, a3⟩ := hok
          rw [hf] at a2 a3
          simp only [List.length_cons] at a2 a3
          refine ⟨by simp, a1, by simp only [List.length_cons]; omega, ?_⟩
          simp only [List.length_cons]
          exact le_trans (Nat.mul_le_mul_right _ (by omega)) a3

/-- The loop with its pops and pushes on a stack in order, given as many
iterations as the stack holds frames, is the loop of `bpt_delete_ientry`. -/
theorem rounds_eq (bld : bpt_build) : ∀ (r : gen_stk) (frm : bpt_frm) (obj : stk_obj) (s : State)
    (fuel : Nat), obj.frames = frm :: r → StkOK bld obj → r.length + 1 ≤ fuel →
      ientry_rounds bld fuel obj s = (bpt_delete_ientry_loop r frm s).map some := by
  intro r
  induction r with
  | nil =>
    intro frm obj s fuel hf _ hfu
    obtain ⟨f, rfl⟩ : ∃ f, fuel = f + 1 := ⟨fuel - 1, by simp at hfu; omega⟩
    simp only [ientry_rounds, ientry_round_one bld s obj frm hf, bpt_delete_ientry_loop]
    cases bpt_node_nkey s frm.node with
    | none => rfl
    | some m =>
      simp only [Option.some_bind]
      cases delete_ientry_root s frm m <;> rfl
  | cons parent r ih =>
    intro frm obj s fuel hf hok hfu
    obtain ⟨f, rfl⟩ : ∃ f, fuel = f + 1 := ⟨fuel - 1, by simp at hfu; omega⟩
    simp only [ientry_rounds, ientry_round_two bld s obj frm parent r hf hok,
      bpt_delete_ientry_loop]
    cases delete_ientry_step s frm parent r with
    | none => rfl
    | some v =>
      cases v with
      | inl x => rfl
      | inr p =>
        obtain ⟨p1, s1⟩ := p
        simp only [Option.map_some', Sum.map_inr]
        obtain ⟨a1, a2, a3⟩ := hok
        rw [hf] at a2 a3
        simp only [List.length_cons] at a2 a3
        exact ih p1 _ s1 f rfl ⟨a1, by simp only [List.length_cons]; omega,
          by simp only [List.length_cons]
             exact le_trans (Nat.mul_le_mul_right _ (by omega)) a3⟩
          (by simp at hfu; omega)

theorem rounds_enough (bld : bpt_build) (fuel : Nat) (obj : stk_obj) (s : State)
    (hok : StkOK bld obj) (hne : obj.frames ≠ []) (hf : obj.frames.length ≤ fuel) :
    ientry_rounds bld fuel obj s = (bpt_delete_ientry obj.frames s).map some := by
  cases hfr : obj.frames with
  | nil => exact absurd hfr hne
  | cons frm r =>
    rw [hfr] at hf
    exact rounds_eq bld r frm obj s fuel hfr hok (by simpa using hf)

/-- Claim C33: when `bpt_delete_entry` on a reachable tree, no allocation
failing, merges the leaf of the key it deletes (the leaf holds
`new_leaf_nkey` entries, it is not the root, and no sibling has an entry to
spare), the journal handed to `bpt_delete_ientry` holds `height` frames, at
least one, and `bpt_delete_ientry` returns `BPT_PRED_SUCCESS`; whatever stack
the journaled descent has returned on, that stack holds this journal and is in
order, and the loop run on it with its pops and pushes written out, allowed as
many iterations as the journal holds frames, returns that result, so it pops
no empty stack and does not run out of iterations.  For every stack and state:
an iteration that does not return found two frames to pop and leaves fewer
frames, exactly one less when the stack is in order, and on a stack in order
with as many iterations as frames the loop never runs out. -/
theorem ientry_terminates {cmp : bpt_t → bpt_t → Int} (hc : cmp_total cmp) {s : State}
    (h : Reachable cmp s) (hno : s.alloc = []) (k : bpt_t) (leaf off prv nxt : Int)
    (hfind : bpt_search k cmp s = some (off, some leaf))
    (hmin : bpt_node_nkey s leaf = some s.bstat.new_leaf_nkey) (hh : s.bstat.height ≠ 0)
    (hprv : bpt_node_prv s leaf = some prv) (hnxt : bpt_node_nxt s leaf = some nxt)
    (hpk : prv = 0 ∨ bpt_node_nkey s prv = some s.bstat.new_leaf_nkey)
    (hxk : nxt = 0 ∨ bpt_node_nkey s nxt = some s.bstat.new_leaf_nkey) :
    (∃ stk u s8 t,
      (∀ (bld : bpt_build) (obj : stk_obj), obj.frames = [] → Room bld obj s.bstat.height →
        journal_descend bld cmp k s.bstat.height s s.bstat.root_node obj =
          some (some (leaf, { obj with frames := stk }), s)) ∧
      stk ≠ [] ∧ stk.length = s.bstat.height ∧
      delete_entry_merge s leaf off prv nxt stk = some (true, u) ∧
      bpt_node_delete u leaf = some s8 ∧
      bpt_delete_entry leaf off stk s = bpt_delete_ientry stk s8 ∧
      bpt_delete_ientry stk s8 = some (BPT_PRED_SUCCESS, t) ∧
      ∀ (bld : bpt_build) (obj o1 : stk_obj) (lf : Int) (s1 : State), 0 < bld.sizeof_bpt_frm →
        obj.frames = [] →
        journal_descend bld cmp k s.bstat.height s s.bstat.root_node obj =
          some (some (lf, o1), s1) →
        lf = leaf ∧ o1.frames = stk ∧ StkOK bld o1 ∧
          ientry_rounds bld stk.length o1 s8 = some (some (BPT_PRED_SUCCESS, t))) ∧
    (∀ (bld : bpt_build) (y y1 : State) (st st1 : stk_obj),
      ientry_round bld y st = some (Sum.inr (st1, y1)) →
      2 ≤ st.frames.length ∧ st1.frames.length < st.frames.length ∧
        (StkOK bld st → st1.frames.length + 1 = st.frames.length ∧ StkOK bld st1)) ∧
    (∀ (bld : bpt_build) (fuel : Nat) (st : stk_obj) (y : State), StkOK bld st →
      st.frames ≠ [] → st.frames.length ≤ fuel →
      ientry_rounds bld fuel st y = (bpt_delete_ientry st.frames y).map some ∧
      ientry_rounds bld fuel st y ≠ some none) := by
  have hw := reachable_wf hc h
  refine ⟨?_, fun _ _ _ _ _ h1 => ientry_round_net h1, fun bld fuel st y h0 h1 h2 => ?_⟩
  swap
  · have := rounds_enough bld fuel st y h0 h1 h2
    refine ⟨this, ?_⟩
    rw [this]
    cases bpt_delete_ientry st.frames y <;> simp
  obtain ⟨hsd, hlf, hoff⟩ := search_inv hfind
  obtain ⟨leaf0, stk, U, X, lo, Y, hd, hs, hsd0, -, -⟩ := descend_at_leaf hc hw k
  rw [hsd] at hsd0
  cases Option.some.inj hsd0
  obtain ⟨l0, lb, n, hm, hn0, hn1, hn2, -⟩ := hs.node
  rw [nkey_eq l0 hm] at hmin
  have hnk : n.nkey = s.bstat.new_leaf_nkey := Option.some.inj hmin
  rw [prv_eq l0 hm] at hprv
  have hnp : n.prv = prv := Option.some.inj hprv
  subst hnp
  rw [nxt_eq l0 hm] at hnxt
  have hnx : n.nxt = nxt := Option.some.inj hnxt
  subst hnx
  obtain ⟨o0, o1, -⟩ := leaf_find_range (by rw [rd_of_ne l0]; exact hm) hn0 hlf hoff
  have hlen := hs.len
  obtain ⟨f, stk1, hstk⟩ : ∃ f stk1, stk = f :: stk1 := by
    cases stk with
    | nil => exact absurd hlen.symm hh
    | cons f r => exact ⟨f, r, rfl⟩
  subst hstk
  obtain ⟨pa, poff⟩ := f
  have tail : ∀ {s8 t1 : State},
      bpt_delete_ientry (({ node := pa, offset := poff } : bpt_frm) :: stk1) s8 =
        some (BPT_PRED_SUCCESS, t1) →
      ∀ (bld : bpt_build) (obj o1 : stk_obj) (lf : Int) (s1 : State), 0 < bld.sizeof_bpt_frm →
        obj.frames = [] →
        journal_descend bld cmp k s.bstat.height s s.bstat.root_node obj =
          some (some (lf, o1), s1) →
        lf = leaf ∧ o1.frames = ({ node := pa, offset := poff } : bpt_frm) :: stk1 ∧
          StkOK bld o1 ∧
          ientry_rounds bld (({ node := pa, offset := poff } : bpt_frm) :: stk1).length o1 s8 =
            some (some (BPT_PRED_SUCCESS, t1)) := by
    intro s8 t1 k1 bld obj o1 lf s1 hF h0 hrun
    have hv := journal_valid bld hF cmp k _ _ _ _ _ _ _ hrun (fun h => absurd h hh)
    have hfit := journal_refit bld bld cmp k _ _ _ _
      (journal_stk bld ⟨s.bstat.height, s.bstat.height, bld.sizeof_bpt_frm,
        s.bstat.height * bld.sizeof_bpt_frm, []⟩ true) lf o1 s1 hrun
      (fits_self bld s.bstat.height) (by rw [h0, journal_stk_frames])
    obtain ⟨-, g2, -, -⟩ := journal_follows bld cmp k _ _ _ _ _ _ hrun
    have e1 : s1 = s := g2 hno
    subst e1
    rw [hd bld _ (journal_stk_frames bld _ true) (fits_self bld s1.bstat.height)] at hfit
    simp only [Option.some.injEq, Prod.mk.injEq, stk_obj.mk.injEq, true_and, and_true] at hfit
    obtain ⟨q1, q2⟩ := hfit
    refine ⟨q1.symm, q2.symm, hv, ?_⟩
    rw [rounds_enough bld _ o1 _ hv (by rw [← q2]; simp) (by rw [← q2])]
    rw [← q2]
    exact congrArg (Option.map some) k1
  have hk : ¬ (n.nkey ≠ s.bstat.new_leaf_nkey ∨
      gen_stk_empty (({ node := pa, offset := poff } : bpt_frm) :: stk1) = true) := by
    rintro (h1 | h1)
    · exact h1 hnk
    · simp [gen_stk_empty] at h1
  have hp : n.prv ≠ 0 → bpt_node_nkey s n.prv = some s.bstat.new_leaf_nkey := by
    intro h0
    rcases hpk with h1 | h1
    · exact absurd h1 h0
    · exact h1
  have hx : n.nxt ≠ 0 → bpt_node_nkey s n.nxt = some s.bstat.new_leaf_nkey := by
    intro h0
    rcases hxk with h1 | h1
    · exact absurd h1 h0
    · exact h1
  have heval := @entry_eval s leaf off n (({ node := pa, offset := poff } : bpt_frm) :: stk1)
    l0 hm s.bstat.new_leaf_nkey s.bstat.new_leaf_nkey hp (fun _ => rfl) hx (fun _ => rfl) hk
  rw [if_neg (fun c => c.2 rfl), if_neg (fun c => c.2 rfl)] at heval
  by_cases hprv0 : n.prv = 0
  · have hnxt0 : n.nxt ≠ 0 := hs.first_leaf hm hprv0
    obtain ⟨ln, Y0, -, p0, -, Nx, hNx, -⟩ := (next_facts hs.ok.1 hm).2 hnxt0
    have hNk : Nx.nkey = s.bstat.new_leaf_nkey := by
      have := hx hnxt0
      rw [nkey_eq p0 hNx] at this
      exact Option.some.inj this
    obtain ⟨r, e1, e2, e3, e4⟩ := delete_entry_merge_nxt_spec hs hm o0 o1 hnk hprv0 hNx hNk
    obtain ⟨fl, u⟩ := r
    cases fl with
    | false => exact absurd hno (e3 rfl)
    | true =>
      obtain ⟨s8, d1, d2, U2, X2, lo2, Y2, n2, d3, -⟩ := e4 rfl
      obtain ⟨r, t1, k1, -, k3, k4⟩ := ientry_loop_spec stk1 d3
      have hr : r ≠ BPT_ERROR := fun h0 => k3 h0 (d2.trans (e2 hno))
      obtain ⟨hr2, -⟩ := k4 hr
      subst hr2
      refine ⟨_, u, s8, t1, hd, by simp, hlen, e1, d1, ?_, k1, ?_⟩
      · rw [heval, e1]
        simp only [Option.some_bind, Bool.true_eq_false, if_false, d1]
      · exact tail k1
  · obtain ⟨X0, lp, -, p0, -, P, hP, -⟩ := (prev_facts hs.ok.1 hm).2 hprv0
    have hPk : P.nkey = s.bstat.new_leaf_nkey := by
      have := hp hprv0
      rw [nkey_eq p0 hP] at this
      exact Option.some.inj this
    obtain ⟨u, s8, d0, d1, d2, U2, X2, lo2, Y2, n2, d3, -⟩ :=
      delete_entry_merge_prv_spec hs hm o0 o1 hnk hprv0 hP hPk
    obtain ⟨r, t1, k1, -, k3, k4⟩ := ientry_loop_spec stk1 d3
    have hr : r ≠ BPT_ERROR := fun h0 => k3 h0 (d2.trans hno)
    obtain ⟨hr2, -⟩ := k4 hr
    subst hr2
    refine ⟨_, u, s8, t1, hd, by simp, hlen, d0, d1, ?_, k1, ?_⟩
    · rw [heval, d0]
      simp only [Option.some_bind, Bool.true_eq_false, if_false, d1]
    · exact tail k1

theorem ientry_terminates_witness :
    cmp_total cmp_word ∧ Reachable cmp_word tree_e ∧ tree_e.alloc = [] ∧
    bpt_search 4 cmp_word tree_e = some (1, some 2) ∧ tree_e.bstat.height = 1 ∧
    ∃ stk u s8 t o1,
      journal_descend build_8 cmp_word 4 tree_e.bstat.height tree_e tree_e.bstat.root_node stk_1 =
        some (some (2, o1), tree_e) ∧ o1.frames = stk ∧ StkOK build_8 o1 ∧
      stk ≠ [] ∧ stk.length = tree_e.bstat.height ∧
      delete_entry_merge tree_e 2 1 1 0 stk = some (true, u) ∧
      bpt_node_delete u 2 = some s8 ∧
      bpt_delete_entry 2 1 stk tree_e = bpt_delete_ientry stk s8 ∧
      bpt_delete_ientry stk s8 = some (BPT_PRED_SUCCESS, t) ∧
      ientry_rounds build_8 stk.length o1 s8 = some (some (BPT_PRED_SUCCESS, t)) := by
  obtain ⟨stk, u, s8, t, a1, a2, a3, a4, a5, a6, a7, a8⟩ :=
    (@ientry_terminates cmp_word cmp_word_total tree_e tree_e_reach.1 tree_e_reach.2 4 2 1 1 0
      (by decide!) (by decide!) (by decide!) (by decide!) (by decide!) (by decide!)
      (by decide)).1
  have hd := a1 build_8 stk_1 rfl (by decide!)
  obtain ⟨-, b2, b3, b4⟩ := a8 build_8 stk_1 _ _ _ (by decide) rfl hd
  exact ⟨cmp_word_total, tree_e_reach.1, tree_e_reach.2, by decide!, by decide!,
    stk, u, s8, t, _, hd, b2, b3, a2, a3, a4, a5, a6, a7, b4⟩

/-! ## The journal on a stack that is too small -/

/-- A descent through more levels than the stack has slots left is undefined:
the push that follows the last free slot asks `realloc` for `cap + init_cap`
bytes and then stores a frame of at least two bytes behind `cap` others. -/
theorem journal_overflow (bld : bpt_build) (cmp : bpt_t → bpt_t → Int) (k : bpt_t)
    (hF : 2 ≤ bld.sizeof_bpt_frm) :
    ∀ (h : Nat) (s : State) (node : Int) (obj : stk_obj), s.alloc = [] →
      obj.init_cap ≤ obj.cap → obj.frames.length ≤ obj.cap → obj.cap < obj.frames.length + h →
      journal_descend bld cmp k h s node obj = none := by
  intro h
  induction h with
  | zero => intro s node obj _ _ h1 h2; omega
  | succ h ih =>
    intro s node obj hno hi h1 h2
    rw [journal_descend]
    cases hcs : choose_slot cmp k s node with
    | none => rfl
    | some p =>
      obtain ⟨i, child⟩ := p
      simp only
      by_cases hg : obj.frames.length ≥ obj.cap
      · have hst : gen_stk_store bld
            { obj with cap := (obj.cap + obj.init_cap) % 2 ^ 64,
                       bytes := (obj.cap + obj.init_cap) % 2 ^ 64 } ⟨node, i⟩ = none := by
          unfold gen_stk_store
          rw [if_neg]
          rintro ⟨e1, e2⟩
          simp only at e1 e2
          have e3 : (obj.cap + obj.init_cap) % 2 ^ 64 ≤ obj.cap + obj.init_cap :=
            Nat.mod_le _ _
          have e4 : (obj.frames.length + 1) * 2 ≤ (obj.frames.length + 1) * obj.uni_siz :=
            Nat.mul_le_mul_left _ (by omega)
          omega
        have hpush : gen_stk_push bld s obj ⟨node, i⟩ = none := by
          unfold gen_stk_push
          simp only [if_pos hg, alloc_request_nil hno, if_true, hst, Option.map_none']
        rw [hpush]
      · cases hst : gen_stk_store bld obj ⟨node, i⟩ with
        | none =>
          have hpush : gen_stk_push bld s obj ⟨node, i⟩ = none := by
            unfold gen_stk_push
            simp only [if_neg hg, hst, Option.map_none']
          rw [hpush]
        | some o =>
          have hpush : gen_stk_push bld s obj ⟨node, i⟩ = some (some o, s) := by
            unfold gen_stk_push
            simp only [if_neg hg, hst, Option.map_some']
          rw [hpush]
          simp only
          have ho : o = { obj with frames := ⟨node, i⟩ :: obj.frames } := by
            unfold gen_stk_store at hst
            split_ifs at hst
            simp only [Option.some.injEq] at hst
            exact hst.symm
          subst ho
          exact ih s child _ hno hi (by simp only [List.length_cons]; omega)
            (by simp only [List.length_cons]; omega)

/-- The journaled calls on a tree that is higher than the capacity of the
stack are undefined, the allocator never refusing: `bpt_searchr`,
`bpt_insert` and `bpt_delete` have no result on it, whatever the key. -/
theorem journaled_calls_overflow (bld : bpt_build) (cmp pred : bpt_t → bpt_t → Int)
    (e : bpt_entry) (stk : stk_obj) (b : Bool) (s : State) (hF : 2 ≤ bld.sizeof_bpt_frm)
    (hno : s.alloc = []) (hi : (journal_stk bld stk b).init_cap ≤ (journal_stk bld stk b).cap)
    (hh : (journal_stk bld stk b).cap < s.bstat.height) :
    bpt_searchr bld e.key cmp stk b s = none ∧ bpt_insert bld e cmp pred stk b s = none ∧
      bpt_delete bld e cmp pred stk b s = none := by
  have hj : (journal_stk bld stk b).frames = [] := by
    unfold journal_stk
    cases b <;> rfl
  have hd := journal_overflow bld cmp e.key hF s.bstat.height s s.bstat.root_node
    (journal_stk bld stk b) hno hi (by rw [hj]; exact Nat.zero_le _)
    (by rw [hj]; simpa using hh)
  have hs : bpt_searchr bld e.key cmp stk b s = none := by
    unfold bpt_searchr
    simp only [journal_reset_nil hno, if_true, hd]
  refine ⟨hs, ?_, ?_⟩
  · unfold bpt_insert
    simp only [journal_reset_nil hno, if_true, hd]
  · unfold bpt_delete
    rw [hs]

/-! ## The build and the stack play no part in a call that returns -/

/-- A journaled descent that has returned, no allocation being refused, has
returned a journal, and it returns the same leaf and frames in every build and
on every stack that the journal of the tree fits. -/
theorem descend_any_build {bld bld1 : bpt_build} {cmp : bpt_t → bpt_t → Int} {k : bpt_t}
    {stk stk1 : stk_obj} {b b1 : Bool} {s t : State} {res : Option (Int × stk_obj)}
    (hno : s.alloc = []) (hfit : Fits bld1 stk1 b1 s.bstat.height)
    (hd : journal_descend bld cmp k s.bstat.height s s.bstat.root_node (journal_stk bld stk b) =
      some (res, t)) :
    ∃ leaf o1, res = some (leaf, o1) ∧ t = s ∧
      journal_descend bld1 cmp k s.bstat.height s s.bstat.root_node (journal_stk bld1 stk1 b1) =
        some (some (leaf, { journal_stk bld1 stk1 b1 with frames := o1.frames }), s) := by
  obtain ⟨-, g2, g3, -⟩ := journal_follows bld cmp k _ _ _ _ _ _ hd
  have ht := g2 hno
  subst ht
  cases res with
  | none => exact absurd hno (g3 rfl)
  | some q =>
    obtain ⟨leaf, o1⟩ := q
    exact ⟨leaf, o1, rfl, rfl, journal_refit bld bld1 cmp k _ _ _ _ _ leaf o1 _ hd hfit
      (by rw [journal_stk_frames, journal_stk_frames])⟩

/-- A journaled call that has returned, no allocation being refused, returns
the same in every build and on every stack that the journal of the tree fits:
neither `BPT_STK_CAP_INIT` nor the size of a frame nor the stack handed over
plays a part in the result. -/
theorem calls_any_build {bld bld1 : bpt_build} {cmp pred : bpt_t → bpt_t → Int} {e : bpt_entry}
    {stk stk1 : stk_obj} {b b1 : Bool} {s : State} (hno : s.alloc = [])
    (hfit : Fits bld1 stk1 b1 s.bstat.height) :
    (∀ r, bpt_searchr bld e.key cmp stk b s = some r →
      bpt_searchr bld1 e.key cmp stk1 b1 s = some r) ∧
    (∀ r, bpt_insert bld e cmp pred stk b s = some r →
      bpt_insert bld1 e cmp pred stk1 b1 s = some r) ∧
    (∀ r, bpt_delete bld e cmp pred stk b s = some r →
      bpt_delete bld1 e cmp pred stk1 b1 s = some r) := by
  have hs : ∀ r, bpt_searchr bld e.key cmp stk b s = some r →
      bpt_searchr bld1 e.key cmp stk1 b1 s = some r := by
    intro r h
    unfold bpt_searchr at h ⊢
    simp only [journal_reset_nil hno, if_true] at h ⊢
    cases hd : journal_descend bld cmp e.key s.bstat.height s s.bstat.root_node
        (journal_stk bld stk b) with
    | none => rw [hd] at h; simp at h
    | some p =>
      obtain ⟨res, t⟩ := p
      obtain ⟨leaf, o1, rfl, rfl, hd1⟩ := descend_any_build hno hfit hd
      rw [hd] at h
      rw [hd1]
      exact h
  refine ⟨hs, ?_, ?_⟩
  · intro r h
    unfold bpt_insert at h ⊢
    simp only [journal_reset_nil hno, if_true] at h ⊢
    cases hd : journal_descend bld cmp e.key s.bstat.height s s.bstat.root_node
        (journal_stk bld stk b) with
    | none => rw [hd] at h; simp at h
    | some p =>
      obtain ⟨res, t⟩ := p
      obtain ⟨leaf, o1, rfl, rfl, hd1⟩ := descend_any_build hno hfit hd
      rw [hd] at h
      rw [hd1]
      exact h
  · intro r h
    unfold bpt_delete at h ⊢
    cases hq : bpt_searchr bld e.key cmp stk b s with
    | none => rw [hq] at h; simp at h
    | some q =>
      rw [hq] at h
      rw [hs q hq]
      exact h

/-- A stack that the journal of a tree of height `H` fits is fit for every
lower tree. -/
theorem fits_le {bld : bpt_build} {stk : stk_obj} {b : Bool} {H h : Nat}
    (hfit : Fits bld stk b H) (hh : h ≤ H) : Fits bld stk b h := by
  unfold Fits Room at hfit ⊢
  rcases hfit with h0 | ⟨h1, h2, h3⟩
  · exact Or.inl (by omega)
  · exact Or.inr ⟨h1, by omega, le_trans (Nat.mul_le_mul_right _ (by omega)) h3⟩

/-- The insertion loop of the test drivers gives in every build the tree
that it gives in one, as long as the stack of the drivers has room for the
journals of the trees that the loop meets. -/
theorem insert_keys_any_build (bld bld1 : bpt_build) (H : Nat)
    (hfit : Fits bld1 (driver_stk bld1) true H) :
    ∀ (l : List Int) (s t : State), insert_keys_low bld H l s = true →
      insert_keys bld l s = some t →
      insert_keys bld1 l s = some t ∧ insert_trace bld1 l s = insert_trace bld l s := by
  intro l
  induction l with
  | nil =>
    intro s t _ h
    exact ⟨h, rfl⟩
  | cons k r ih =>
    intro s t hlow h
    simp only [insert_keys_low, Bool.and_eq_true, decide_eq_true_eq] at hlow
    obtain ⟨⟨hno, hH⟩, hrest⟩ := hlow
    cases hq : bpt_insert bld ⟨k, k⟩ cmp_int bpt_pred_1 (driver_stk bld) true s with
    | none => simp [insert_keys, hq] at h
    | some p =>
      obtain ⟨res, u⟩ := p
      have hq1 : bpt_insert bld1 ⟨k, k⟩ cmp_int bpt_pred_1 (driver_stk bld1) true s =
          some (res, u) := (calls_any_build hno (fits_le hfit hH)).2.1 _ hq
      cases res <;> simp only [insert_keys, hq] at h <;> try exact absurd h (by simp)
      rw [hq] at hrest
      simp only at hrest
      obtain ⟨i1, i2⟩ := ih u t hrest h
      simp only [insert_keys, insert_trace, hq1, hq, i2]
      exact ⟨i1, trivial⟩

/-- The deletion loop of the test drivers gives in every build the tree
that it gives in one, as long as the stack of the drivers has room for the
journals of the trees that the loop meets. -/
theorem delete_keys_any_build (bld bld1 : bpt_build) (H : Nat)
    (hfit : Fits bld1 (driver_stk bld1) true H) :
    ∀ (l : List Int) (s t : State), delete_keys_low bld H l s = true →
      delete_keys bld l s = some t →
      delete_keys bld1 l s = some t ∧ delete_trace bld1 l s = delete_trace bld l s := by
  intro l
  induction l with
  | nil =>
    intro s t _ h
    exact ⟨h, rfl⟩
  | cons k r ih =>
    intro s t hlow h
    simp only [delete_keys_low, Bool.and_eq_true, decide_eq_true_eq] at hlow
    obtain ⟨⟨hno, hH⟩, hrest⟩ := hlow
    cases hq : bpt_delete bld ⟨k, k⟩ cmp_int bpt_pred_1 (driver_stk bld) true s with
    | none => simp [delete_keys, hq] at h
    | some p =>
      obtain ⟨res, u⟩ := p
      have hq1 : bpt_delete bld1 ⟨k, k⟩ cmp_int bpt_pred_1 (driver_stk bld1) true s =
          some (res, u) := (calls_any_build hno (fits_le hfit hH)).2.2 _ hq
      cases res <;> simp only [delete_keys, hq] at h <;> try exact absurd h (by simp)
      rw [hq] at hrest
      simp only at hrest
      obtain ⟨i1, i2⟩ := ih u t hrest h
      simp only [delete_keys, delete_trace, hq1, hq, i2]
      exact ⟨i1, trivial⟩

/-- Two runs that agree on their first part agree as wholes when their
second parts agree on every state that passes a check which the state handed
over by the first part passes. -/
theorem bind_agree {β : Type} {a a1 : Option State} {f f1 : State → Option β}
    (c : State → Bool) (ha : a1 = a) (hc : a.map c = some true)
    (hf : ∀ t, c t = true → f1 t = f t) : a1.bind f1 = a.bind f := by
  subst ha
  cases a1 with
  | none => rfl
  | some t =>
    simp only [Option.map_some', Option.some.injEq] at hc
    simp only [Option.some_bind]
    exact hf t hc

/-- The scenarios of the specification do not depend on the build: in every
build whose driver stack has room for one frame the insertion and deletion
loops of the scenarios S1, S2, S3 and S6, and the insertions that precede the
refused allocation of claim C16, give the trees and traces that they give in
the build `build_8`. -/
theorem scenarios_any_build (bld : bpt_build) (hfit : Fits bld (driver_stk bld) true 1) :
    insert_keys bld [10, 20, 30, 40, 50, 5, 25] (bpt_init (mem0 []) 3).2 =
      insert_keys build_8 [10, 20, 30, 40, 50, 5, 25] (bpt_init (mem0 []) 3).2 ∧
    insert_keys bld [1, 2, 3] (bpt_init (mem0 []) 3).2 =
      insert_keys build_8 [1, 2, 3] (bpt_init (mem0 []) 3).2 ∧
    insert_keys bld (key_range 1 11) (bpt_init (mem0 []) 4).2 =
      insert_keys build_8 (key_range 1 11) (bpt_init (mem0 []) 4).2 ∧
    insert_keys bld (key_range 1 12) (bpt_init (mem0 []) 4).2 =
      insert_keys build_8 (key_range 1 12) (bpt_init (mem0 []) 4).2 ∧
    insert_keys bld (key_range 1 13) (bpt_init (mem0 []) 4).2 =
      insert_keys build_8 (key_range 1 13) (bpt_init (mem0 []) 4).2 ∧
    insert_keys bld (key_range 1 20) (bpt_init (mem0 []) 4).2 =
      insert_keys build_8 (key_range 1 20) (bpt_init (mem0 []) 4).2 ∧
    insert_trace bld (key_range 1 20) (bpt_init (mem0 []) 4).2 =
      insert_trace build_8 (key_range 1 20) (bpt_init (mem0 []) 4).2 ∧
    ((insert_keys bld (key_range 1 20) (bpt_init (mem0 []) 4).2).bind
        (delete_trace bld (key_range 1 14))) =
      ((insert_keys build_8 (key_range 1 20) (bpt_init (mem0 []) 4).2).bind
        (delete_trace build_8 (key_range 1 14))) ∧
    ((insert_keys bld (key_range 1 11) (bpt_init (mem0 []) 4).2).bind (delete_keys bld [5])) =
      ((insert_keys build_8 (key_range 1 11) (bpt_init (mem0 []) 4).2).bind
        (delete_keys build_8 [5])) :=
  have ins : ∀ (l : List Int) (s : State), insert_keys_low build_8 1 l s = true →
      (insert_keys build_8 l s).isSome = true →
      insert_keys bld l s = insert_keys build_8 l s ∧
        insert_trace bld l s = insert_trace build_8 l s := fun l s h1 h2 =>
    (Option.isSome_iff_exists.mp h2).elim fun t ht =>
      ⟨(insert_keys_any_build build_8 bld 1 hfit l s t h1 ht).1.trans ht.symm,
        (insert_keys_any_build build_8 bld 1 hfit l s t h1 ht).2⟩
  have del : ∀ (l : List Int) (s : State),
      (delete_keys_low build_8 1 l s && (delete_keys build_8 l s).isSome) = true →
      delete_keys bld l s = delete_keys build_8 l s ∧
        delete_trace bld l s = delete_trace build_8 l s := fun l s h =>
    (Option.isSome_iff_exists.mp (Bool.and_eq_true_iff.mp h).2).elim fun t ht =>
      ⟨(delete_keys_any_build build_8 bld 1 hfit l s t (Bool.and_eq_true_iff.mp h).1 ht).1.trans
          ht.symm,
        (delete_keys_any_build build_8 bld 1 hfit l s t (Bool.and_eq_true_iff.mp h).1 ht).2⟩
  have h20 := ins (key_range 1 20) (bpt_init (mem0 []) 4).2 (by decide!) (by decide!)
  have h11 := ins (key_range 1 11) (bpt_init (mem0 []) 4).2 (by decide!) (by decide!)
  ⟨(ins _ _ (by decide!) (by decide!)).1, (ins _ _ (by decide!) (by decide!)).1, h11.1,
    (ins _ _ (by decide!) (by decide!)).1, (ins _ _ (by decide!) (by decide!)).1, h20.1, h20.2,
    bind_agree
      (fun t => delete_keys_low build_8 1 (key_range 1 14) t &&
        (delete_keys build_8 (key_range 1 14) t).isSome) h20.1 (by decide!)
      (fun t h => (del _ t h).2),
    bind_agree
      (fun t => delete_keys_low build_8 1 [5] t && (delete_keys build_8 [5] t).isSome) h11.1
      (by decide!) (fun t h => (del _ t h).1)⟩

/-- An entry is in a list when its key and its value are those of an entry
of the list. -/
theorem entry_mem {l : List bpt_entry} {k v : bpt_t}
    (h : (k, v) ∈ l.map fun e => (e.key, e.val)) : (⟨k, v⟩ : bpt_entry) ∈ l := by
  obtain ⟨e, he, hkv⟩ := List.mem_map.mp h
  obtain ⟨ek, ev⟩ := e
  simp only [Prod.mk.injEq] at hkv
  obtain ⟨rfl, rfl⟩ := hkv
  exact he

theorem tree_g_reach : Reachable cmp_word tree_g ∧ tree_g.alloc = [] :=
  tree_of_reach (by decide) _ (by decide!)

theorem tree_h_reach : Reachable cmp_word tree_h ∧ tree_h.alloc = [] :=
  tree_of_reach (by decide) _ (by decide!)

theorem tree_j_reach : Reachable cmp_word tree_j ∧ tree_j.alloc = [] :=
  tree_of_reach (by decide) _ (by decide!)

theorem tree_k_reach : Reachable cmp_word tree_k ∧ tree_k.alloc = [] :=
  tree_of_reach (by decide) _ (by decide!)

/-- The tree `tree_g` is reachable and has height 2, and no allocation fails
on it; every journaled call on it is undefined when the caller hands over the
stack `stk_1` of one slot with `has_stk_init` set, and when the stack is made
by `gen_stk_init` in a build whose `BPT_STK_CAP_INIT` is 1: the second push of
the descent stores a frame of 16 bytes behind the first one in a block of 2
bytes. In that build the thirteen insertions that make `tree_g` all return, and
the fourteenth is undefined. -/
theorem tree_g_overflow :
    Reachable cmp_word tree_g ∧ tree_g.alloc = [] ∧ tree_g.bstat.height = 2 ∧
    (∀ (cmp pred : bpt_t → bpt_t → Int) (e : bpt_entry),
      bpt_searchr build_8 e.key cmp stk_1 true tree_g = none ∧
      bpt_insert build_8 e cmp pred stk_1 true tree_g = none ∧
      bpt_delete build_8 e cmp pred stk_1 true tree_g = none) ∧
    (∀ (cmp pred : bpt_t → bpt_t → Int) (e : bpt_entry) (stk : stk_obj),
      bpt_searchr build_1 e.key cmp stk false tree_g = none ∧
      bpt_insert build_1 e cmp pred stk false tree_g = none ∧
      bpt_delete build_1 e cmp pred stk false tree_g = none) ∧
    (run_ops build_1 stk_1 cmp_word ((key_range 1 13).map fun k => tree_op.ins ⟨k, k⟩ false)
      (bpt_init (mem0 []) 3).2).isSome = true ∧
    (run_ops build_1 stk_1 cmp_word ((key_range 1 14).map fun k => tree_op.ins ⟨k, k⟩ false)
      (bpt_init (mem0 []) 3).2).isSome = false :=
  ⟨tree_g_reach.1, tree_g_reach.2, by decide!,
    fun cmp pred e => journaled_calls_overflow build_8 cmp pred e stk_1 true tree_g (by decide)
      tree_g_reach.2 (by decide) (by decide!),
    fun cmp pred e stk => journaled_calls_overflow build_1 cmp pred e stk false tree_g
      (by decide) tree_g_reach.2 (le_refl _)
      (show (journal_stk build_1 stk_1 false).cap < tree_g.bstat.height from by decide!),
    by decide!, by decide!⟩

/-! ## Claims C2 to C14 on trees of height 2 -/

theorem leaf_chain_sorted_witness :
    cmp_total cmp_word ∧ Reachable cmp_word tree_g ∧ tree_g.bstat.height = 2 ∧
    level_keys tree_g 0 = [10] ∧ level_keys tree_g 1 = [4, 7, 12] ∧
    (tree_entries tree_g).map (·.key) = [1, 2, 3, 4, 5, 6, 7, 8, 9, 10, 11, 12, 13] ∧
    ((∃ es, leaves_read tree_g es ∧ (es.map (·.key)).Pairwise (lt cmp_word)) ∧
    ∀ d, d < tree_g.bstat.height →
      level_reads tree_g d (level_nodes tree_g d) ∧
        (level_keys tree_g d).Pairwise (lt cmp_word)) :=
  ⟨cmp_word_total, tree_g_reach.1, by decide!, by decide!, by decide!, by decide!,
    leaf_chain_sorted cmp_word_total tree_g_reach.1⟩

theorem separator_first_key_witness :
    cmp_total cmp_word ∧ Reachable cmp_word tree_g ∧ tree_g.bstat.height = 2 ∧
    level_nodes tree_g 0 = [8] ∧ level_nodes tree_g 1 = [3, 7] ∧
    level_keys tree_g 0 = [10] ∧ level_keys tree_g 1 = [4, 7, 12] ∧
    ∀ d, d < tree_g.bstat.height → ∀ a ∈ level_nodes tree_g d, ∀ n, rd tree_g a = some n →
      ∀ i, 0 ≤ i → i < n.nkey →
        ∃ leaf m, first_at tree_g (tree_g.bstat.height - d - 1) (n.entries (i + 1)).val =
            some leaf ∧
          rd tree_g leaf = some m ∧ 0 < m.nkey ∧ (m.entries 0).key = (n.entries i).key :=
  ⟨cmp_word_total, tree_g_reach.1, by decide!, by decide!, by decide!, by decide!, by decide!,
    separator_first_key cmp_word_total tree_g_reach.1⟩

theorem occupancy_bounds_witness :
    cmp_total cmp_word ∧ Reachable cmp_word tree_g ∧ tree_g.bstat.height = 2 ∧
    level_nodes tree_g 1 = [3, 7] ∧ level_nodes tree_g 2 = [1, 2, 4, 5, 6] ∧
    ∀ d, d ≤ tree_g.bstat.height → ∀ a ∈ level_nodes tree_g d, ∃ n, rd tree_g a = some n ∧
      0 ≤ n.nkey ∧ n.nkey ≤ tree_g.bstat.order ∧
      (0 < d → d = tree_g.bstat.height → tree_g.bstat.new_leaf_nkey ≤ n.nkey) ∧
      (0 < d → d < tree_g.bstat.height → tree_g.bstat.new_inter_nkey ≤ n.nkey) ∧
      (d = 0 → 0 < tree_g.bstat.height → 1 ≤ n.nkey) :=
  ⟨cmp_word_total, tree_g_reach.1, by decide!, by decide!, by decide!,
    occupancy_bounds cmp_word_total tree_g_reach.1⟩

theorem balanced_height_witness :
    cmp_total cmp_word ∧ Reachable cmp_word tree_g ∧ tree_g.bstat.height = 2 ∧
    level_nodes tree_g 0 = [8] ∧ level_nodes tree_g 1 = [3, 7] ∧
    level_nodes tree_g 2 = [1, 2, 4, 5, 6] ∧
    ∃ leaves, level_reads tree_g tree_g.bstat.height leaves ∧
      (∀ d, d ≤ tree_g.bstat.height → ∀ a ∈ level_nodes tree_g d,
        (a ∈ leaves ↔ d = tree_g.bstat.height)) ∧
      (∀ k, ∃ leaf, search_descend cmp_word k tree_g tree_g.bstat.height
          tree_g.bstat.root_node = some leaf ∧ leaf ∈ leaves) ∧
      (tree_g.bstat.root_node ∈ leaves ↔ tree_g.bstat.height = 0) :=
  ⟨cmp_word_total, tree_g_reach.1, by decide!, by decide!, by decide!, by decide!,
    balanced_height cmp_word_total tree_g_reach.1⟩

theorem chain_integrity_witness :
    cmp_total cmp_word ∧ Reachable cmp_word tree_g ∧ Reachable cmp_word tree_h ∧
    tree_g.bstat.height = 2 ∧ level_nodes tree_g 1 = [3, 7] ∧
    level_nodes tree_g 2 = [1, 2, 4, 5, 6] ∧
    tree_h.bstat.height = 1 ∧ level_nodes tree_h 1 = [1, 2, 4] ∧
    (tree_h.mem 5).isNone = true ∧ (tree_h.mem 6).isNone = true ∧
    (tree_h.mem 7).isNone = true ∧ (tree_h.mem 8).isNone = true ∧
    (∀ d, d ≤ tree_g.bstat.height → ∀ a ∈ level_nodes tree_g d, ∃ n, rd tree_g a = some n ∧
      (n.nxt ≠ 0 → n.nxt ∈ level_nodes tree_g d ∧ ∃ m, rd tree_g n.nxt = some m ∧ m.prv = a) ∧
      (n.prv ≠ 0 →
        n.prv ∈ level_nodes tree_g d ∧ ∃ m, rd tree_g n.prv = some m ∧ m.nxt = a)) ∧
    ∀ d, d ≤ tree_h.bstat.height → ∀ a ∈ level_nodes tree_h d, ∃ n, rd tree_h a = some n ∧
      (n.nxt ≠ 0 → n.nxt ∈ level_nodes tree_h d ∧ ∃ m, rd tree_h n.nxt = some m ∧ m.prv = a) ∧
      (n.prv ≠ 0 → n.prv ∈ level_nodes tree_h d ∧ ∃ m, rd tree_h n.prv = some m ∧ m.nxt = a) :=
  ⟨cmp_word_total, tree_g_reach.1, tree_h_reach.1, by decide!, by decide!, by decide!,
    by decide!, by decide!, by decide!, by decide!, by decide!, by decide!,
    chain_integrity cmp_word_total tree_g_reach.1, chain_integrity cmp_word_total tree_h_reach.1⟩

theorem chain_visits_levels_witness :
    cmp_total cmp_word ∧ Reachable cmp_word tree_g ∧ tree_g.bstat.height = 2 ∧
    level_nodes tree_g 0 = [8] ∧ level_nodes tree_g 1 = [3, 7] ∧
    level_nodes tree_g 2 = [1, 2, 4, 5, 6] ∧
    ((∀ d, d ≤ tree_g.bstat.height → level_reads tree_g d (level_nodes tree_g d)) ∧
    ∃ es, leaves_read tree_g es ∧ (es.map (·.key)).Pairwise (lt cmp_word) ∧
      ∀ k, ((∃ i leaf, bpt_search k cmp_word tree_g = some (i, some leaf) ∧
            holds_at tree_g leaf i k) ↔ k ∈ es.map (·.key)) ∧
        (bpt_search k cmp_word tree_g = some (-1, none) ↔ k ∉ es.map (·.key))) :=
  ⟨cmp_word_total, tree_g_reach.1, by decide!, by decide!, by decide!, by decide!,
    chain_visits_levels cmp_word_total tree_g_reach.1⟩

theorem insert_fresh_witness :
    cmp_total cmp_word ∧ Reachable cmp_word tree_j ∧ tree_j.alloc = [] ∧
    tree_j.bstat.height = 2 ∧ Fits build_8 stk_1 false tree_j.bstat.height ∧
    (tree_entries tree_j).map (·.key) =
      [5, 10, 15, 20, 25, 30, 40, 50, 60, 70, 80, 90, 100, 110, 120, 130] ∧
    leaves_read tree_j (tree_entries tree_j) ∧
    (26 : bpt_t) ∉ (tree_entries tree_j).map (·.key) ∧
    bpt_insert build_8 ⟨26, 26⟩ cmp_word bpt_pred_1 stk_1 true tree_j = none ∧
    ∃ t A B, bpt_insert build_8 ⟨26, 26⟩ cmp_word bpt_pred_1 stk_1 false tree_j =
        some (BPT_NEXIST, t) ∧
      tree_entries tree_j = A ++ B ∧ leaves_read t (A ++ ⟨26, 26⟩ :: B) ∧
      ((A ++ ⟨26, 26⟩ :: B).map (·.key)).Pairwise (lt cmp_word) :=
  ⟨cmp_word_total, tree_j_reach.1, tree_j_reach.2, by decide!, by decide!, by decide!,
    (reachable_wf cmp_word_total tree_j_reach.1).reads_leaves, by decide!,
    (journaled_calls_overflow build_8 cmp_word bpt_pred_1 ⟨26, 26⟩ stk_1 true tree_j (by decide)
      tree_j_reach.2 (by decide) (by decide!)).2.1,
    insert_fresh cmp_word_total tree_j_reach.1 tree_j_reach.2 ⟨26, 26⟩ bpt_pred_1 build_8 stk_1
      false (by decide!) (reachable_wf cmp_word_total tree_j_reach.1).reads_leaves
      (by decide!)⟩

theorem delete_present_witness :
    cmp_total cmp_word ∧ Reachable cmp_word tree_g ∧ tree_g.alloc = [] ∧
    tree_g.bstat.height = 2 ∧ Fits build_8 stk_1 false tree_g.bstat.height ∧
    (tree_entries tree_g).map (·.key) = [1, 2, 3, 4, 5, 6, 7, 8, 9, 10, 11, 12, 13] ∧
    leaves_read tree_g (tree_entries tree_g) ∧
    (⟨13, 13⟩ : bpt_entry) ∈ tree_entries tree_g ∧ bpt_pred_1 99 13 ≠ 0 ∧
    bpt_delete build_8 ⟨13, 99⟩ cmp_word bpt_pred_1 stk_1 true tree_g = none ∧
    ∃ t A B, bpt_delete build_8 ⟨13, 99⟩ cmp_word bpt_pred_1 stk_1 false tree_g =
        some (BPT_PRED_SUCCESS, t) ∧
      tree_entries tree_g = A ++ ⟨13, 13⟩ :: B ∧ leaves_read t (A ++ B) ∧
      (13 : bpt_t) ∉ (A ++ B).map (·.key) ∧
      ∀ (w2 : bpt_t) (pred2 : bpt_t → bpt_t → Int) (stk2 : stk_obj) (b2 : Bool),
        Fits build_8 stk2 b2 t.bstat.height →
        bpt_delete build_8 ⟨13, w2⟩ cmp_word pred2 stk2 b2 t = some (BPT_NEXIST, t) :=
  ⟨cmp_word_total, tree_g_reach.1, tree_g_reach.2, by decide!, by decide!, by decide!,
    (reachable_wf cmp_word_total tree_g_reach.1).reads_leaves, entry_mem (by decide!),
    by decide,
    (journaled_calls_overflow build_8 cmp_word bpt_pred_1 ⟨13, 99⟩ stk_1 true tree_g (by decide)
      tree_g_reach.2 (by decide) (by decide!)).2.2,
    delete_present cmp_word_total tree_g_reach.1 tree_g_reach.2 13 13 99 bpt_pred_1 build_8
      stk_1 false (by decide!) (reachable_wf cmp_word_total tree_g_reach.1).reads_leaves
      (entry_mem (by decide!)) (by decide)⟩

theorem delete_no_change_witness :
    cmp_total cmp_word ∧ Reachable cmp_word tree_g ∧ tree_g.alloc = [] ∧
    tree_g.bstat.height = 2 ∧ Fits build_8 stk_1 false tree_g.bstat.height ∧
    leaves_read tree_g (tree_entries tree_g) ∧
    (⟨5, 5⟩ : bpt_entry) ∈ tree_entries tree_g ∧
    (99 : bpt_t) ∉ (tree_entries tree_g).map (·.key) ∧
    bpt_delete build_8 ⟨5, 7⟩ cmp_word bpt_pred_0 stk_1 true tree_g = none ∧
    bpt_delete build_8 ⟨99, 7⟩ cmp_word bpt_pred_1 stk_1 true tree_g = none ∧
    (∃ r t, bpt_delete build_8 ⟨5, 7⟩ cmp_word bpt_pred_0 stk_1 false tree_g = some (r, t) ∧
      (r = BPT_NEXIST ↔ (5 : bpt_t) ∉ (tree_entries tree_g).map (·.key)) ∧
      (r = BPT_PRED_FAIL ↔
        ∃ v, (⟨5, v⟩ : bpt_entry) ∈ tree_entries tree_g ∧ bpt_pred_0 7 v = 0) ∧
      (r = BPT_NEXIST ∨ r = BPT_PRED_FAIL → t = tree_g)) ∧
    ∃ r t, bpt_delete build_8 ⟨99, 7⟩ cmp_word bpt_pred_1 stk_1 false tree_g = some (r, t) ∧
      (r = BPT_NEXIST ↔ (99 : bpt_t) ∉ (tree_entries tree_g).map (·.key)) ∧
      (r = BPT_PRED_FAIL ↔
        ∃ v, (⟨99, v⟩ : bpt_entry) ∈ tree_entries tree_g ∧ bpt_pred_1 7 v = 0) ∧
      (r = BPT_NEXIST ∨ r = BPT_PRED_FAIL → t = tree_g) :=
  ⟨cmp_word_total, tree_g_reach.1, tree_g_reach.2, by decide!, by decide!,
    (reachable_wf cmp_word_total tree_g_reach.1).reads_leaves, entry_mem (by decide!),
    by decide!,
    (journaled_calls_overflow build_8 cmp_word bpt_pred_0 ⟨5, 7⟩ stk_1 true tree_g (by decide)
      tree_g_reach.2 (by decide) (by decide!)).2.2,
    (journaled_calls_overflow build_8 cmp_word bpt_pred_1 ⟨99, 7⟩ stk_1 true tree_g (by decide)
      tree_g_reach.2 (by decide) (by decide!)).2.2,
    delete_no_change cmp_word_total tree_g_reach.1 tree_g_reach.2 5 7 bpt_pred_0 build_8 stk_1
      false (by decide!) (reachable_wf cmp_word_total tree_g_reach.1).reads_leaves,
    delete_no_change cmp_word_total tree_g_reach.1 tree_g_reach.2 99 7 bpt_pred_1 build_8 stk_1
      false (by decide!) (reachable_wf cmp_word_total tree_g_reach.1).reads_leaves⟩

/-- Counterexample to claim C4 as stated, in two cases. The tree
`tree1_refused` is reachable and holds key 1 with value 1, `bpt_pred_1 5 1` is
non-zero, and yet `bpt_insert` of `(1, 5)` with an uninitialised journal
returns `BPT_ERROR`, because the allocator refuses the request of
`gen_stk_init`. The tree `tree_g` of height 2 is reachable, holds key 5 with
value 5 and no allocation fails on it, and yet `bpt_insert` of `(5, 50)` on
the caller's stack `stk_1` of one slot has no result: the second push of the
descent stores its frame outside the block that `realloc` returned. -/
theorem overwrite_refused :
    cmp_total cmp_word ∧
    (Reachable cmp_word tree1_refused ∧ leaves_read tree1_refused [⟨1, 1⟩] ∧
      bpt_pred_1 5 1 ≠ 0 ∧
      (bpt_insert build_8 ⟨1, 5⟩ cmp_word bpt_pred_1 stk_1 false tree1_refused).map Prod.fst =
        some BPT_ERROR) ∧
    (Reachable cmp_word tree_g ∧ tree_g.alloc = [] ∧ tree_g.bstat.height = 2 ∧
      leaves_read tree_g (tree_entries tree_g) ∧ (⟨5, 5⟩ : bpt_entry) ∈ tree_entries tree_g ∧
      bpt_pred_1 50 5 ≠ 0 ∧
      bpt_insert build_8 ⟨5, 50⟩ cmp_word bpt_pred_1 stk_1 true tree_g = none) :=
  ⟨cmp_word_total,
    ⟨tree1_refused_reach, tree1_refused_leaves, by decide,
      by rw [tree1_refused, insert_refused]; rfl⟩,
    ⟨tree_g_reach.1, tree_g_reach.2, by decide!,
      (reachable_wf cmp_word_total tree_g_reach.1).reads_leaves, entry_mem (by decide!),
      by decide,
      (journaled_calls_overflow build_8 cmp_word bpt_pred_1 ⟨5, 50⟩ stk_1 true tree_g
        (by decide) tree_g_reach.2 (by decide) (by decide!)).2.1⟩⟩

theorem overwrite_in_place_witness :
    cmp_total cmp_word ∧ Reachable cmp_word tree_g ∧ tree_g.alloc = [] ∧
    tree_g.bstat.height = 2 ∧ Fits build_8 stk_1 false tree_g.bstat.height ∧
    leaves_read tree_g (tree_entries tree_g) ∧
    (⟨5, 5⟩ : bpt_entry) ∈ tree_entries tree_g ∧ bpt_pred_1 50 5 ≠ 0 ∧
    ∃ t A B, bpt_insert build_8 ⟨5, 50⟩ cmp_word bpt_pred_1 stk_1 false tree_g =
        some (BPT_PRED_SUCCESS, t) ∧
      tree_entries tree_g = A ++ ⟨5, 5⟩ :: B ∧ leaves_read t (A ++ ⟨5, 50⟩ :: B) ∧
      t.bstat = tree_g.bstat ∧
      ∃ leaf off n, tree_g.mem leaf = some n ∧ n.entries off = ⟨5, 5⟩ ∧
        t = wr tree_g leaf { n with entries := Function.update n.entries off ⟨5, 50⟩ } ∧
        ∀ a m, tree_g.mem a = some m → ∃ m2, t.mem a = some m2 ∧ m2.nkey = m.nkey ∧
          m2.prv = m.prv ∧ m2.nxt = m.nxt ∧
          ∀ j, (a, j) ≠ (leaf, off) → m2.entries j = m.entries j :=
  ⟨cmp_word_total, tree_g_reach.1, tree_g_reach.2, by decide!, by decide!,
    (reachable_wf cmp_word_total tree_g_reach.1).reads_leaves, entry_mem (by decide!),
    by decide,
    overwrite_in_place cmp_word_total tree_g_reach.1 tree_g_reach.2 5 5 50 bpt_pred_1 build_8
      stk_1 false (by decide!) (reachable_wf cmp_word_total tree_g_reach.1).reads_leaves
      (entry_mem (by decide!)) (by decide)⟩

/-- Counterexample to claim C5 as stated, in two cases. The reachable tree
`tree1_refused` holds key 1, `bpt_pred_0` returns zero, and yet `bpt_insert`
of `(1, 5)` with an uninitialised journal returns `BPT_ERROR` instead of
`BPT_PRED_FAIL`, because the allocator refuses the request of `gen_stk_init`.
The tree `tree_g` of height 2 is reachable, holds key 5 and no allocation
fails on it, and yet `bpt_insert` of `(5, 50)` under `bpt_pred_0` on the
caller's stack `stk_1` of one slot has no result: the second push of the
descent stores its frame outside the block that `realloc` returned. -/
theorem insert_fail_refused :
    cmp_total cmp_word ∧
    (Reachable cmp_word tree1_refused ∧ leaves_read tree1_refused [⟨1, 1⟩] ∧
      bpt_pred_0 5 1 = 0 ∧
      (bpt_insert build_8 ⟨1, 5⟩ cmp_word bpt_pred_0 stk_1 false tree1_refused).map Prod.fst =
        some BPT_ERROR) ∧
    (Reachable cmp_word tree_g ∧ tree_g.alloc = [] ∧ tree_g.bstat.height = 2 ∧
      leaves_read tree_g (tree_entries tree_g) ∧ (⟨5, 5⟩ : bpt_entry) ∈ tree_entries tree_g ∧
      bpt_pred_0 50 5 = 0 ∧
      bpt_insert build_8 ⟨5, 50⟩ cmp_word bpt_pred_0 stk_1 true tree_g = none) :=
  ⟨cmp_word_total,
    ⟨tree1_refused_reach, tree1_refused_leaves, rfl,
      by rw [tree1_refused, insert_refused]; rfl⟩,
    ⟨tree_g_reach.1, tree_g_reach.2, by decide!,
      (reachable_wf cmp_word_total tree_g_reach.1).reads_leaves, entry_mem (by decide!), rfl,
      (journaled_calls_overflow build_8 cmp_word bpt_pred_0 ⟨5, 50⟩ stk_1 true tree_g
        (by decide) tree_g_reach.2 (by decide) (by decide!)).2.1⟩⟩

theorem insert_pred_fail_witness :
    cmp_total cmp_word ∧ Reachable cmp_word tree_g ∧ tree_g.alloc = [] ∧
    tree_g.bstat.height = 2 ∧ Fits build_8 stk_1 false tree_g.bstat.height ∧
    leaves_read tree_g (tree_entries tree_g) ∧ (⟨5, 5⟩ : bpt_entry) ∈ tree_entries tree_g ∧
    bpt_pred_0 50 5 = 0 ∧
    ((∀ (k v v2 : bpt_t) (pred : bpt_t → bpt_t → Int) (stk : stk_obj) (b : Bool)
      (es : List bpt_entry), Fits build_8 stk b tree_g.bstat.height →
      leaves_read tree_g es → (⟨k, v⟩ : bpt_entry) ∈ es → pred v2 v = 0 →
        bpt_insert build_8 ⟨k, v2⟩ cmp_word pred stk b tree_g = some (BPT_PRED_FAIL, tree_g)) ∧
    ∀ (e : bpt_entry) (stk : stk_obj) (b : Bool), Fits build_8 stk b tree_g.bstat.height →
      ∃ r t, bpt_insert build_8 e cmp_word bpt_pred_0 stk b tree_g = some (r, t) ∧
        ∀ (stk2 : stk_obj) (b2 : Bool), Fits build_8 stk2 b2 t.bstat.height →
          bpt_insert build_8 e cmp_word bpt_pred_0 stk2 b2 t = some (BPT_PRED_FAIL, t)) :=
  ⟨cmp_word_total, tree_g_reach.1, tree_g_reach.2, by decide!, by decide!,
    (reachable_wf cmp_word_total tree_g_reach.1).reads_leaves, entry_mem (by decide!), rfl,
    insert_pred_fail cmp_word_total tree_g_reach.1 tree_g_reach.2 build_8⟩

theorem search_refines_set_witness :
    cmp_total cmp_word ∧ (3 : Int) ≤ 3 ∧
    ops_fit build_8 (driver_stk build_8) cmp_word
      (ins_keys (key_range 1 13) ++ del_keys [13, 12, 11, 10]) (bpt_init (mem0 []) 3).2 = true ∧
    (run_ops build_8 (driver_stk build_8) cmp_word (ins_keys (key_range 1 13))
      (bpt_init (mem0 []) 3).2).map (fun t => t.bstat.height) = some 2 ∧
    (run_ops build_8 stk_1 cmp_word (ins_keys (key_range 1 13))
      (bpt_init (mem0 []) 3).2).isSome = true ∧
    (run_ops build_8 stk_1 cmp_word (ins_keys (key_range 1 14))
      (bpt_init (mem0 []) 3).2).isSome = false ∧
    ∃ s0, bpt_init (mem0 []) 3 = (0, s0) ∧
      (∀ ops t, run_ops build_8 (driver_stk build_8) cmp_word ops s0 = some t →
        ∀ k, found cmp_word k t = true ↔ k ∈ set_after ops) ∧
      (∀ ops, ops_fit build_8 (driver_stk build_8) cmp_word ops s0 = true →
        ∃ t, run_ops build_8 (driver_stk build_8) cmp_word ops s0 = some t) ∧
      ∀ P Q tP tQ, set_after P = set_after Q →
        run_ops build_8 (driver_stk build_8) cmp_word P s0 = some tP →
        run_ops build_8 (driver_stk build_8) cmp_word Q s0 = some tQ →
        ∀ k, found cmp_word k tP = found cmp_word k tQ :=
  ⟨cmp_word_total, by decide, by decide!, by decide!, by decide!, by decide!,
    search_refines_set cmp_word_total 3 (by decide) build_8 (driver_stk build_8)⟩

theorem searchr_refines_search_witness :
    tree_j.alloc = [] ∧ tree_j.bstat.height = 2 ∧
    Fits build_8 stk_held true tree_j.bstat.height ∧
    bpt_search 25 cmp_word tree_j = some (1, some 9) ∧
    (bpt_searchr build_8 25 cmp_word stk_held true tree_j).map Prod.fst =
      some (1, 9, [⟨3, 1⟩, ⟨8, 0⟩]) ∧
    bpt_searchr build_8 25 cmp_word stk_1 true tree_j = none ∧
    ((bpt_search 25 cmp_word tree_j = none →
      bpt_searchr build_8 25 cmp_word stk_held true tree_j = none) ∧
    (∀ i l, bpt_search 25 cmp_word tree_j = some (i, l) →
      ∃ leaf jr, bpt_searchr build_8 25 cmp_word stk_held true tree_j =
          some ((i, leaf, jr), tree_j) ∧
        (i ≠ -1 → l = some leaf) ∧ jr.length = tree_j.bstat.height ∧
        on_path cmp_word 25 tree_j tree_j.bstat.root_node jr.reverse leaf) ∧
    ∀ held, bpt_searchr build_8 25 cmp_word { stk_held with frames := held } true tree_j =
      bpt_searchr build_8 25 cmp_word stk_held true tree_j) :=
  ⟨tree_j_reach.2, by decide!, by decide!, by decide!, by decide!,
    (journaled_calls_overflow build_8 cmp_word bpt_pred_1 ⟨25, 25⟩ stk_1 true tree_j (by decide)
      tree_j_reach.2 (by decide) (by decide!)).1,
    searchr_refines_search build_8 25 cmp_word stk_held true tree_j tree_j_reach.2
      (by decide!)⟩

/-- Counterexample to claim C24 as stated, in two cases. In the reachable tree
`tree_c_refused` of order 3 the key 6 is absent, its target leaf (handle 2) is
full and the previous sibling (handle 1) holds 2 keys; yet `bpt_insert` of 6
with an uninitialised journal returns `BPT_ERROR`, the allocator refusing the
request of `gen_stk_init`, and the previous sibling still holds 2 keys. In the
reachable tree `tree_k` of order 3 and height 2 no allocation fails, the key 45
is absent, its target leaf (handle 2) is full and the previous sibling (handle
9) holds 2 keys; yet `bpt_insert` of 45 on the caller's stack `stk_1` of one
slot has no result: the second push of the descent stores its frame outside
the block that `realloc` returned. -/
theorem siblings_refused :
    cmp_total cmp_word ∧
    (Reachable cmp_word tree_c_refused ∧
      (6 : bpt_t) ∉ (tree_entries tree_c_refused).map (·.key) ∧
      leaves_read tree_c_refused (tree_entries tree_c_refused) ∧
      search_descend cmp_word 6 tree_c_refused tree_c_refused.bstat.height
        tree_c_refused.bstat.root_node = some 2 ∧
      bpt_node_nkey tree_c_refused 2 = some tree_c_refused.bstat.order ∧
      bpt_node_prv tree_c_refused 2 = some 1 ∧ bpt_node_nkey tree_c_refused 1 = some 2 ∧
      (2 : Int) < tree_c_refused.bstat.order ∧
      (bpt_insert build_8 ⟨6, 6⟩ cmp_word bpt_pred_1 stk_1 false tree_c_refused).map
        (fun r => (r.1, bpt_node_nkey r.2 1)) = some (BPT_ERROR, some 2)) ∧
    (Reachable cmp_word tree_k ∧ tree_k.alloc = [] ∧ tree_k.bstat.height = 2 ∧
      (45 : bpt_t) ∉ (tree_entries tree_k).map (·.key) ∧
      leaves_read tree_k (tree_entries tree_k) ∧
      search_descend cmp_word 45 tree_k tree_k.bstat.height tree_k.bstat.root_node = some 2 ∧
      bpt_node_nkey tree_k 2 = some tree_k.bstat.order ∧
      bpt_node_prv tree_k 2 = some 9 ∧ bpt_node_nkey tree_k 9 = some 2 ∧
      (2 : Int) < tree_k.bstat.order ∧
      bpt_insert build_8 ⟨45, 45⟩ cmp_word bpt_pred_1 stk_1 true tree_k = none) :=
  ⟨cmp_word_total,
    ⟨tree_c_refused_reach, by decide!,
      (reachable_wf cmp_word_total tree_c_refused_reach).reads_leaves, by decide!, by decide!,
      by decide!, by decide!, by decide!, by decide!⟩,
    ⟨tree_k_reach.1, tree_k_reach.2, by decide!, by decide!,
      (reachable_wf cmp_word_total tree_k_reach.1).reads_leaves, by decide!, by decide!,
      by decide!, by decide!, by decide!,
      (journaled_calls_overflow build_8 cmp_word bpt_pred_1 ⟨45, 45⟩ stk_1 true tree_k
        (by decide) tree_k_reach.2 (by decide) (by decide!)).2.1⟩⟩

theorem insert_prefers_siblings_witness :
    cmp_total cmp_word ∧ Reachable cmp_word tree_k ∧ tree_k.alloc = [] ∧
    (45 : bpt_t) ∉ (tree_entries tree_k).map (·.key) ∧
    search_descend cmp_word 45 tree_k tree_k.bstat.height tree_k.bstat.root_node = some 2 ∧
    bpt_node_nkey tree_k 2 = some tree_k.bstat.order ∧
    Fits build_8 stk_1 false tree_k.bstat.height ∧ tree_k.bstat.height = 2 ∧
    bpt_node_prv tree_k 2 = some 9 ∧ bpt_node_nkey tree_k 9 = some 2 ∧
    (2 : Int) < tree_k.bstat.order ∧
    ∃ t prv nxt, bpt_insert build_8 ⟨45, 45⟩ cmp_word bpt_pred_1 stk_1 false tree_k =
        some (BPT_NEXIST, t) ∧
      bpt_node_prv tree_k 2 = some prv ∧ bpt_node_nxt tree_k 2 = some nxt ∧
      (∀ pk, prv ≠ 0 → bpt_node_nkey tree_k prv = some pk → pk < tree_k.bstat.order →
        t.brk = tree_k.brk ∧ bpt_node_nkey t prv = some (pk + 1) ∧
        get_entry t prv pk = get_entry tree_k 2 0 ∧ (get_entry tree_k 2 0).isSome = true ∧
        bpt_node_nkey t 2 = some tree_k.bstat.order) ∧
      ((prv = 0 ∨ bpt_node_nkey tree_k prv = some tree_k.bstat.order) →
        ∀ xk, nxt ≠ 0 → bpt_node_nkey tree_k nxt = some xk → xk < tree_k.bstat.order →
          t.brk = tree_k.brk ∧ bpt_node_nkey t nxt = some (xk + 1)) ∧
      (t.brk ≠ tree_k.brk →
        (prv = 0 ∨ bpt_node_nkey tree_k prv = some tree_k.bstat.order) ∧
        (nxt = 0 ∨ bpt_node_nkey tree_k nxt = some tree_k.bstat.order)) :=
  ⟨cmp_word_total, tree_k_reach.1, tree_k_reach.2, by decide!, by decide!, by decide!,
    by decide!, by decide!, by decide!, by decide!, by decide!,
    @insert_prefers_siblings cmp_word cmp_word_total tree_k tree_k_reach.1 tree_k_reach.2
      ⟨45, 45⟩ bpt_pred_1 build_8 stk_1 false (by decide!) 2 (tree_entries tree_k)
      (reachable_wf cmp_word_total tree_k_reach.1).reads_leaves (by decide!) (by decide!)
      (by decide!)⟩


end BPT
